import Mathlib


/-!
The managed heap of the psoup virtual machine.

A shallow embedding of `vm/object.h`, `vm/heap.h` and `vm/heap.cc`: tagged values, headers,
Refs threaded on incoming lists, the object table, the class table, the backtracing collector
(`Heap::GCStep`, `Heap::CheckReachable`, `Heap::Unlink`, `Heap::Free`) and become
(`Heap::BecomeForward` and its four passes).

Conventions of the embedding.

* The target is the 64-bit build (`ARCH_IS_64_BIT`): `kWordSize = 8`.
* A value of class `Object` is its tagged word.  Storage obtained from `malloc` is a partial map
  from the tagged pointer of a heap object to the contents of its layout; `free` removes the
  entry.  Reading or writing through a pointer that has no entry has no defined behaviour in the
  source and makes the embedded function return `none`.
* `ASSERT` is compiled out of release builds, so the embedded functions do not test the asserted
  conditions; where a property is about an assertion it is stated about the conditions.
* An intrusive incoming list (the circular chain of `Link`s that starts at
  `HeapObject::incoming()`) is recorded as the sequence of the Refs on it, from
  `incoming()->next` to `incoming()->prev`.  A `Ref` is named by where it is stored.
* Array capacities, `realloc`, time measurements and trace output are not part of the state.
-/

namespace psoup

/-! ## Tagged values (`class Object`, `enum PointerBits`) -/

/-- The tagged word `Object::tagged_pointer_`. -/
abbrev Object := Nat

def kSmiTag : Nat := 0
def kHeapObjectTag : Nat := 1
def kSmiTagSize : Nat := 1
def kSmiTagMask : Nat := 1
def kSmiTagShift : Nat := 1

def kWordSize : Nat := 8
def kWordSizeLog2 : Nat := 3
def kBitsPerWord : Nat := 64

/-- The word of `Object(nullptr)`: `tagged_pointer_(0)`. -/
def nullptr : Object := 0

/-- `Object::IsHeapObject`: `(tagged_pointer_ & kSmiTagMask) == kHeapObjectTag`. -/
def IsHeapObject (o : Object) : Prop := o &&& kSmiTagMask = kHeapObjectTag

/-- `Object::IsSmallInteger`: `(tagged_pointer_ & kSmiTagMask) == kSmiTag`. -/
def IsSmallInteger (o : Object) : Prop := o &&& kSmiTagMask = kSmiTag

/-- `Object::IsImmediateObject`. -/
def IsImmediateObject (o : Object) : Prop := IsSmallInteger o

instance instDecidableIsHeapObject (o : Object) : Decidable (IsHeapObject o) := by
  unfold IsHeapObject; infer_instance

instance instDecidableIsSmallInteger (o : Object) : Decidable (IsSmallInteger o) := by
  unfold IsSmallInteger; infer_instance

instance instDecidableIsImmediateObject (o : Object) : Decidable (IsImmediateObject o) := by
  unfold IsImmediateObject; infer_instance

/-- A machine word read as `uintptr_t`. -/
def toUword (v : Int) : Nat := (v % (2 : Int) ^ 64).toNat

/-- A machine word read as `intptr_t` (two's complement). -/
def toIntptr (w : Nat) : Int :=
  if w % 2 ^ 64 < 2 ^ 63 then ((w % 2 ^ 64 : Nat) : Int) else ((w % 2 ^ 64 : Nat) : Int) - (2 : Int) ^ 64

/-- `SmallInteger::New`: `static_cast<uintptr_t>(value) << kSmiTagShift`. -/
def SmallInteger.New (value : Int) : Object := (toUword value * 2 ^ kSmiTagShift) % 2 ^ 64

/-- `SmallInteger::value`: `static_cast<intptr_t>(tagged_pointer_) >> kSmiTagShift`
(an arithmetic shift, which rounds towards minus infinity). -/
def SmallInteger.value (o : Object) : Int := toIntptr o / (2 : Int) ^ kSmiTagShift

/-! ## Class ids and header fields (`enum ClassIds`, `enum HeaderBits`, `enum ObjectAlignment`) -/

def kIllegalCid : Nat := 0
def kForwardingCorpseCid : Nat := 1
def kFreeListElementCid : Nat := 2
def kFirstLegalCid : Nat := 3
def kSmiCid : Nat := 3
def kMintCid : Nat := 4
def kBigintCid : Nat := 5
def kFloat64Cid : Nat := 6
def kByteArrayCid : Nat := 7
def kStringCid : Nat := 8
def kArrayCid : Nat := 9
def kWeakArrayCid : Nat := 10
def kEphemeronCid : Nat := 11
def kActivationCid : Nat := 12
def kClosureCid : Nat := 13
def kFirstRegularObjectCid : Nat := 14

def kObjectAlignment : Nat := 4 * kWordSize
def kObjectAlignmentLog2 : Nat := kWordSizeLog2 + 1
def kObjectAlignmentMask : Nat := kObjectAlignment - 1

def kSizeFieldOffset : Nat := 16
def kSizeFieldSize : Nat := 16
def kClassIdFieldOffset : Nat := 32
def kClassIdFieldSize : Nat := 32

/-- Modelled from the spec: `BitField<intptr_t, 0, 32>::decode` for `HeapObject::IndexField`
(`vm/bitfield.h` is not among the sources): the low half of the hash/index word. -/
def IndexField.decode (word : Nat) : Nat := word % 2 ^ 32

/-- Modelled from the spec: `BitField<intptr_t, 0, 32>::update` for `HeapObject::IndexField`: the
low 32 bits are replaced by the low 32 bits of `value`, the other bits are kept. -/
def IndexField.update (value : Nat) (original : Nat) : Nat :=
  (original % 2 ^ 64) / 2 ^ 32 * 2 ^ 32 + value % 2 ^ 32

/-- Modelled from the spec: `BitField<intptr_t, 32, 32>::decode` for `HeapObject::HashField`:
the high half of the hash/index word. -/
def HashField.decode (word : Nat) : Nat := word / 2 ^ 32 % 2 ^ 32

/-- Modelled from the spec: `BitField<intptr_t, 32, 32>::update` for `HeapObject::HashField`. -/
def HashField.update (value : Nat) (original : Nat) : Nat :=
  value % 2 ^ 32 * 2 ^ 32 + original % 2 ^ 32

/-- Modelled from the spec: `BitField<intptr_t, kSizeFieldOffset, kSizeFieldSize>::is_valid`
for `HeapObject::SizeField`. -/
def SizeField.is_valid (value : Nat) : Prop := value < 2 ^ kSizeFieldSize

instance instDecidableSizeFieldIsValid (v : Nat) : Decidable (SizeField.is_valid v) := by
  unfold SizeField.is_valid; infer_instance

/-! ## Refs and layouts -/

/-- The address of a `Ref`: the `index`-th Ref field of the layout of the heap object `holder`
(in address order), or a Ref of the interpreter in the range of `RootPointers` or of
`StackPointers`. -/
inductive RefPtr where
  | slot (holder : Object) (index : Nat)
  | root (index : Nat)
  | stack (index : Nat)
  deriving DecidableEq, Repr

/-- The field `Ref::from`.  It is written once: `HeapObject::Init` and `HeapObject::Store` pass
`*this`, the holder, and `Ref::InitRoot` stores null (spec 4.1), so it is a function of the
place of the Ref. -/
def Ref_from : RefPtr → Object
  | .slot holder _ => holder
  | .root _ => nullptr
  | .stack _ => nullptr

/-- The storage of one heap object: the fields of `HeapObject::Layout` followed by those of the
typed layout.  `header_` is kept as its bit fields (`MarkBit`, `WeakReferentBit`,
`InClassTableBit`, `CanonicalBit`, `SizeField`, `ClassIdField`); `header_hash_` is kept as a word
because `ForwardingCorpse::set_target` stores a pointer in it; `incoming_` is the sequence of the
Refs threaded on the list; `size_` is `Array::Layout::size_`, `WeakArray::Layout::size_`,
`Bytes::Layout::size_` or `Closure::Layout::num_copied_`; `refs` holds the field `to` of every
Ref of the typed layout in address order. -/
structure Layout where
  is_marked : Bool
  is_weak_referent : Bool
  in_class_table : Bool
  is_canonical : Bool
  size_field : Nat
  cid : Nat
  header_hash_ : Nat
  incoming_ : List RefPtr
  overflow_size_ : Nat
  size_ : Object
  refs : List Object
  deriving DecidableEq, Repr

/-- `HeapObject::heap_size`: `SizeField::decode(header_) << kObjectAlignmentLog2`. -/
def Layout.heap_size (l : Layout) : Nat := l.size_field <<< kObjectAlignmentLog2

/-- `HeapObject::header_hash`. -/
def Layout.header_hash (l : Layout) : Nat := HashField.decode l.header_hash_

/-- `HeapObject::table_index`. -/
def Layout.table_index (l : Layout) : Nat := IndexField.decode l.header_hash_

/-- `ForwardingCorpse::target`. -/
def Layout.target (l : Layout) : Object := l.header_hash_

/-- `Utils::RoundUp(size, kObjectAlignment)` as used by `AllocationSize`. -/
def AllocationSize (size : Nat) : Nat :=
  (size + kObjectAlignment - 1) / kObjectAlignment * kObjectAlignment

/-- Modelled from the spec: `HeapObject::HeapSizeFromClass` (`vm/object.cc` is not among the
sources): the size of an object whose size field is zero, recovered from the class layout: the
`overflow_size_` word of a forwarding corpse or free-list element, the length slot of a
variable-length object. -/
def HeapSizeFromClass (l : Layout) : Nat :=
  if l.cid = kForwardingCorpseCid ∨ l.cid = kFreeListElementCid then l.overflow_size_
  else if l.cid = kByteArrayCid ∨ l.cid = kStringCid then
    AllocationSize ((SmallInteger.value l.size_).toNat + 5 * kWordSize)
  else AllocationSize (l.refs.length * (4 * kWordSize) + 5 * kWordSize)

/-- `HeapObject::HeapSize`. -/
def Layout.HeapSize (l : Layout) : Nat :=
  if l.heap_size ≠ 0 then l.heap_size else HeapSizeFromClass l

/-- `HeapObject::Initialize` on the storage of one object: the header word is rebuilt from the
size tag and the class id (all flag bits zero), the hash/index word is zeroed and the incoming
list is emptied; the words after the header are not written. -/
def Layout.Initialize (l : Layout) (cid : Nat) (heap_size : Nat) : Layout :=
  let size_tag := heap_size >>> kObjectAlignmentLog2
  let size_tag := if SizeField.is_valid size_tag then size_tag else 0
  { l with
    is_marked := false, is_weak_referent := false, in_class_table := false,
    is_canonical := false, size_field := size_tag, cid := cid % 2 ^ kClassIdFieldSize,
    header_hash_ := 0, incoming_ := [] }

/-- Index of `Behavior::Layout::classid_` among the Refs of a behavior
(`klass_`, `superclass_`, `methods_`, `enclosing_object_`, `mixin_`, `classid_`, `format_`). -/
def Behavior.classid_index : Nat := 5

/-- Index of `RegularObject::Layout::klass_` among the Refs of a regular object. -/
def RegularObject.klass_index : Nat := 0

/-- Modelled from the spec: `HeapObject::Pointers` (`vm/object.cc` is not among the sources);
the range `[from(), to()]` of the typed accessors of `vm/object.h`, as the index of the first Ref
and the index after the last one.  `Ephemeron::from()` is `&key_`, the Ref after `klass_`;
`RegularObject::from()`, `Array::from()`, `WeakArray::from()`, `Closure::from()` and
`Activation::from()` are the first Ref of their layout; every `to()` is the last Ref. -/
def Pointers (l : Layout) : Nat × Nat :=
  if l.cid = kEphemeronCid then (1, 4) else (0, l.refs.length)

/-! ## The interpreter and the heap -/

/-- Modelled from the spec: the part of `Interpreter` the heap uses (`vm/interpreter.h` is not
among the sources): the cached `nil_obj()`, `true_obj()`, `false_obj()`, the targets of the Refs
in the range of `RootPointers` and of `StackPointers`, and the number of `ClearCache()` calls. -/
structure Interpreter where
  nil_obj : Object
  true_obj : Object
  false_obj : Object
  roots : List Object
  stack : List Object
  cache_clears : Nat
  deriving DecidableEq, Repr

/-- Members of `class Heap`.  `worklist_size_` is the length of `worklist_`, `handles_size_` the
length of `handles_`, whose entries are the values `*handles_[i]`. -/
structure Heap where
  heap_size_ : Int
  class_table_ : Nat → Object
  class_table_size_ : Nat
  class_table_capacity_ : Nat
  class_table_free_ : Int
  worklist_ : List Object
  table_ : Nat → Object
  table_size_ : Nat
  table_capacity_ : Nat
  interpreter_ : Interpreter
  handles_ : List Object
  gc_count_ : Nat
  memory : Object → Option Layout

/-- The pointer dereference `ptr()`: the storage of a heap object. -/
def Heap.load (h : Heap) (o : Object) : Option Layout :=
  if IsHeapObject o then h.memory o else none

/-- A write through `ptr()` to the storage of `o`. -/
def Heap.store (h : Heap) (o : Object) (l : Layout) : Heap :=
  { h with memory := Function.update h.memory o (some l) }

/-- A field update through `ptr()`. -/
def Heap.modify (h : Heap) (o : Object) (f : Layout → Layout) : Option Heap :=
  (h.load o).map fun l => h.store o (f l)

/-- `Object::ClassId`. -/
def ClassId (h : Heap) (o : Object) : Option Nat :=
  if IsSmallInteger o then some kSmiCid else (h.load o).map fun l => l.cid

/-- `Object::IsForwardingCorpse`. -/
def IsForwardingCorpse (h : Heap) (o : Object) : Option Bool :=
  (ClassId h o).map fun c => decide (c = kForwardingCorpseCid)

def set_is_marked (h : Heap) (o : Object) (value : Bool) : Option Heap :=
  h.modify o fun l => { l with is_marked := value }

def set_is_weak_referent (h : Heap) (o : Object) (value : Bool) : Option Heap :=
  h.modify o fun l => { l with is_weak_referent := value }

def set_in_class_table (h : Heap) (o : Object) (value : Bool) : Option Heap :=
  h.modify o fun l => { l with in_class_table := value }

def set_cid (h : Heap) (o : Object) (value : Int) : Option Heap :=
  h.modify o fun l => { l with cid := toUword value % 2 ^ kClassIdFieldSize }

def set_header_hash (h : Heap) (o : Object) (value : Nat) : Option Heap :=
  h.modify o fun l => { l with header_hash_ := HashField.update value l.header_hash_ }

def set_table_index (h : Heap) (o : Object) (value : Nat) : Option Heap :=
  h.modify o fun l => { l with header_hash_ := IndexField.update value l.header_hash_ }

/-- `ForwardingCorpse::set_target`. -/
def set_target (h : Heap) (o : Object) (value : Object) : Option Heap :=
  h.modify o fun l => { l with header_hash_ := value }

/-- `ForwardingCorpse::set_overflow_size`. -/
def set_overflow_size (h : Heap) (o : Object) (value : Nat) : Option Heap :=
  h.modify o fun l => { l with overflow_size_ := value }

/-- The field `Ref::to` (`HeapObject::Load`). -/
def Ref_to (h : Heap) : RefPtr → Option Object
  | .slot holder index => (h.load holder).bind fun l => l.refs[index]?
  | .root index => h.interpreter_.roots[index]?
  | .stack index => h.interpreter_.stack[index]?

/-- The assignment `to = new_target` inside `Ref::UpdateNoCheck`. -/
def Ref_set_to (h : Heap) (r : RefPtr) (new_target : Object) : Option Heap :=
  match r with
  | .slot holder index =>
    (h.load holder).bind fun l =>
      if index < l.refs.length then
        some (h.store holder { l with refs := l.refs.set index new_target })
      else none
  | .root index =>
    if index < h.interpreter_.roots.length then
      some { h with interpreter_ :=
        { h.interpreter_ with roots := h.interpreter_.roots.set index new_target } }
    else none
  | .stack index =>
    if index < h.interpreter_.stack.length then
      some { h with interpreter_ :=
        { h.interpreter_ with stack := h.interpreter_.stack.set index new_target } }
    else none

/-- `Link::Remove` on the Ref `r`, which is threaded on the incoming list of `target`, the
object its field `to` names: its neighbours are joined, so `r` leaves the sequence.  (When the
list head was re-initialised while Refs were still chained to it, as `BecomeForward` does to a
forwarder, the neighbours that are joined are the other stale Refs and the recorded sequence,
already empty, stays empty.) -/
def Link_Remove (h : Heap) (target : Object) (r : RefPtr) : Option Heap :=
  h.modify target fun l => { l with incoming_ := l.incoming_.erase r }

/-- `target->incoming()->Insert(r)`: `Link::Insert` on the list head puts the new link between
`prev` (the last Ref) and the head, so `r` becomes the last Ref of the sequence. -/
def Link_Insert (h : Heap) (target : Object) (r : RefPtr) : Option Heap :=
  h.modify target fun l => { l with incoming_ := l.incoming_ ++ [r] }

/-- `Ref::UpdateNoCheck`. -/
def UpdateNoCheck (h : Heap) (r : RefPtr) (new_target : Object) : Option Heap :=
  (Ref_to h r).bind fun old_target =>
  (if IsHeapObject old_target then Link_Remove h old_target r else some h).bind fun h1 =>
  (Ref_set_to h1 r new_target).bind fun h2 =>
  if IsHeapObject new_target then Link_Insert h2 new_target r else some h2

/-- `Ref::Update`; its two assertions are about `from` and `source`. -/
def Update (h : Heap) (r : RefPtr) (_source : Object) (new_target : Object) : Option Heap :=
  UpdateNoCheck h r new_target

/-- `Behavior::id`: `Load<SmallInteger>(&ptr()->classid_)`. -/
def Behavior.id (h : Heap) (cls : Object) : Option Object :=
  Ref_to h (.slot cls Behavior.classid_index)

/-- `Behavior::set_id`: `Store<SmallInteger>(&ptr()->classid_, id)`. -/
def Behavior.set_id (h : Heap) (cls : Object) (id : Object) : Option Heap :=
  Update h (.slot cls Behavior.classid_index) cls id

/-- `Array::element`, `WeakArray::element`. -/
def Array.element (h : Heap) (array : Object) (index : Nat) : Option Object :=
  Ref_to h (.slot array index)

/-- `Array::Size`: `size()->value()`. -/
def Array.Size (h : Heap) (array : Object) : Option Int :=
  (h.load array).map fun l => SmallInteger.value l.size_

/-- `Interpreter::ClearCache`, seen from the heap. -/
def ClearCache (h : Heap) : Heap :=
  { h with interpreter_ := { h.interpreter_ with cache_clears := h.interpreter_.cache_clears + 1 } }

/-- Read of `class_table_[cid]` for an `intptr_t` index. -/
def class_table_at (h : Heap) (cid : Int) : Option Object :=
  if 0 ≤ cid then some (h.class_table_ cid.toNat) else none

/-- Write of `class_table_[cid]` for an `intptr_t` index. -/
def class_table_put (h : Heap) (cid : Int) (value : Object) : Option Heap :=
  if 0 ≤ cid then some { h with class_table_ := Function.update h.class_table_ cid.toNat value }
  else none

/-- `Heap::ClassAt`. -/
def ClassAt (h : Heap) (cid : Int) : Option Object := class_table_at h cid

end psoup


namespace psoup

/-! ## The backtracing collector (`vm/heap.cc`) -/

/-- `Heap::WorklistPush`: `worklist_[worklist_size_++] = obj`. -/
def WorklistPush (h : Heap) (obj : Object) : Heap :=
  { h with worklist_ := h.worklist_ ++ [obj] }

/-- How the walk over one incoming list in `Heap::CheckReachable` ends: with `return true` at a
root Ref, or at the list head with the local `is_weak_referent`. -/
inductive IncomingWalk where
  | reachable (h : Heap)
  | walked (h : Heap) (is_weak_referent : Bool)

/-- The inner loop of `Heap::CheckReachable` over the Refs of the incoming list of the current
worklist entry.  Reading `ref->from` needs the storage of the Ref. -/
def CheckReachable.incoming (h : Heap) (is_weak_referent : Bool) :
    List RefPtr → Option IncomingWalk
  | [] => some (.walked h is_weak_referent)
  | ref :: rest =>
    (Ref_to h ref).bind fun _ =>
    let source := Ref_from ref
    if source = nullptr then some (.reachable h)
    else
      (h.load source).bind fun s =>
        if s.cid = kWeakArrayCid then CheckReachable.incoming h true rest
        else if s.is_marked = false then
          (set_is_marked h source true).bind fun h1 =>
            CheckReachable.incoming (WorklistPush h1 source) is_weak_referent rest
        else CheckReachable.incoming h is_weak_referent rest

/-- The outer loop of `Heap::CheckReachable`, `for (cursor = 0; cursor < worklist_size_;
cursor++)`; `fuel` bounds the number of entries that are processed. -/
def CheckReachable.cursor : Nat → Heap → Nat → Option (Bool × Heap)
  | 0, h, cursor =>
    match h.worklist_[cursor]? with
    | none => some (false, h)
    | some _ => none
  | fuel + 1, h, cursor =>
    match h.worklist_[cursor]? with
    | none => some (false, h)
    | some obj =>
      if obj ∈ h.handles_ then some (true, h)
      else
        (h.load obj).bind fun o =>
        (CheckReachable.incoming h false o.incoming_).bind fun w =>
          match w with
          | .reachable h1 => some (true, h1)
          | .walked h1 is_weak_referent =>
            (if is_weak_referent = true then set_is_weak_referent h1 obj true
             else some h1).bind fun h2 =>
              CheckReachable.cursor fuel h2 (cursor + 1)

/-- `Heap::CheckReachable`.  Every object that is pushed is an object that was not marked, so
the worklist of a heap whose objects are all in the object table never has `table_size_` entries;
`table_size_` is the bound given to the outer loop. -/
def CheckReachable (h : Heap) (obj : Object) : Option (Bool × Heap) :=
  if obj = h.interpreter_.nil_obj ∨ obj = h.interpreter_.true_obj ∨
      obj = h.interpreter_.false_obj then some (true, h)
  else
    (set_is_marked h obj true).bind fun h1 =>
      CheckReachable.cursor h.table_size_ (WorklistPush h1 obj) 0

/-- The Ref after `r` on an incoming list, `incoming->next`; `none` is the list head. -/
def Link_next (list : List RefPtr) (r : RefPtr) : Option RefPtr :=
  match list.dropWhile (fun x => decide (x ≠ r)) with
  | _ :: next :: _ => some next
  | _ => none

/-- The first loop of `Heap::Unlink`: `incoming` is the loop variable (`none` when it equals
`incoming_head`), `next` is read before `ref->UpdateNoCheck(nil)`.  `fuel` bounds the number of
iterations. -/
def Unlink.weak : Nat → Heap → Object → Option RefPtr → Option Heap
  | _, h, _, none => some h
  | 0, _, _, some _ => none
  | fuel + 1, h, obj, some ref =>
    (h.load obj).bind fun o =>
    (Ref_to h ref).bind fun _ =>
    let next := Link_next o.incoming_ ref
    (UpdateNoCheck h ref h.interpreter_.nil_obj).bind fun h1 =>
      Unlink.weak fuel h1 obj next

/-- The second loop of `Heap::Unlink`, over the Refs `from .. to` given by `Pointers`. -/
def Unlink.outgoing (h : Heap) (obj : Object) : List Nat → Option Heap
  | [] => some h
  | index :: rest =>
    (Ref_to h (.slot obj index)).bind fun target =>
    (if ¬ IsSmallInteger target then Update h (.slot obj index) obj nullptr
     else some h).bind fun h1 =>
      Unlink.outgoing h1 obj rest

/-- The end of `Heap::Unlink`: the entry of `obj` in the object table is exchanged with the
last one and the table shrinks by one. -/
def Unlink.table (h : Heap) (obj : Object) : Option Heap :=
  (h.load obj).bind fun o =>
  let index := o.table_index
  if h.table_size_ = 0 then none
  else
    let last_index := h.table_size_ - 1
    let last := h.table_ last_index
    (set_table_index h obj 0).bind fun h1 =>
    let h2 := { h1 with table_ := Function.update h1.table_ last_index obj }
    (set_table_index h2 last index).bind fun h3 =>
    some { h3 with table_ := Function.update h3.table_ index last,
                   table_size_ := h3.table_size_ - 1 }

/-- `Heap::Unlink`.  The first loop ends after as many iterations as the incoming list has Refs
unless `obj` is `nil` itself, whose list it would extend while walking it. -/
def Unlink (h : Heap) (obj : Object) : Option Heap :=
  (h.load obj).bind fun o =>
  (if o.is_weak_referent = true then
      Unlink.weak (o.incoming_.length + 1) h obj o.incoming_.head?
   else some h).bind fun h1 =>
  (h1.load obj).bind fun o1 =>
  (Unlink.outgoing h1 obj
      (List.range' (Pointers o1).1 ((Pointers o1).2 - (Pointers o1).1))).bind fun h2 =>
  Unlink.table h2 obj

/-- `Heap::Free`; `free` releases the storage. -/
def Free (h : Heap) (obj : Object) : Option Heap :=
  (h.load obj).bind fun o =>
  (if o.in_class_table = true then
      (Behavior.id h obj).bind fun id =>
        let cid := SmallInteger.value id
        (class_table_put h cid (SmallInteger.New h.class_table_free_)).map fun h1 =>
          { h1 with class_table_free_ := cid }
    else some h).map fun h1 =>
  { h1 with heap_size_ := h1.heap_size_ - (o.HeapSize : Int),
            memory := Function.update h1.memory obj none }

/-- The loop of `Heap::GCStep` after `CheckReachable` returned true. -/
def GCStep.unmark (h : Heap) : List Object → Option Heap
  | [] => some h
  | x :: rest =>
    (set_is_marked h x false).bind fun h1 =>
    (set_is_weak_referent h1 x false).bind fun h2 =>
      GCStep.unmark h2 rest

/-- The first loop of `Heap::GCStep` after `CheckReachable` returned false. -/
def GCStep.unlink (h : Heap) (includes_klass : Bool) : List Object → Option (Heap × Bool)
  | [] => some (h, includes_klass)
  | x :: rest =>
    (h.load x).bind fun o =>
    (Unlink h x).bind fun h1 =>
      GCStep.unlink h1 (includes_klass || o.in_class_table) rest

/-- The second loop of `Heap::GCStep` after `CheckReachable` returned false. -/
def GCStep.free (h : Heap) : List Object → Option Heap
  | [] => some h
  | x :: rest => (Free h x).bind fun h1 => GCStep.free h1 rest

/-- The branch of a round of `Heap::GCStep` after `CheckReachable` returned false. -/
def GCStep.reclaim (h : Heap) : Option Heap :=
  (GCStep.unlink h false h.worklist_).bind fun p =>
  (GCStep.free p.1 h.worklist_).map fun h3 =>
    if p.2 = true then ClearCache h3 else h3

/-- One round of the loop of `Heap::GCStep`; `random` is the value of
`interpreter_->isolate()->random().NextUInt64()`. -/
def GCStep.round (h : Heap) (random : Nat) : Option Heap :=
  if h.table_size_ = 0 then none
  else
    let index := random % h.table_size_
    if index = 0 then some h
    else
      let candidate := h.table_ index
      (CheckReachable h candidate).bind fun p =>
      (if p.1 = true then GCStep.unmark p.2 p.2.worklist_
       else GCStep.reclaim p.2).map fun h4 =>
        { h4 with worklist_ := [] }

/-- `Heap::GCStep` with the three sampled values. -/
def GCStep (h : Heap) (random0 random1 random2 : Nat) : Option Heap :=
  (GCStep.round h random0).bind fun h1 =>
  (GCStep.round h1 random1).bind fun h2 =>
  (GCStep.round h2 random2).map fun h3 =>
    { h3 with gc_count_ := h3.gc_count_ + 1 }

/-! ## Become (`vm/heap.cc`) -/

/-- `ForwardPointer(Object* ptr)`, as the new value of `*ptr`. -/
def ForwardPointer.object (h : Heap) (old_target : Object) : Option Object :=
  (IsForwardingCorpse h old_target).bind fun corpse =>
    if corpse = true then (h.load old_target).map fun l => l.target
    else some old_target

/-- `ForwardPointer(Ref* ptr)`. -/
def ForwardPointer (h : Heap) (ptr : RefPtr) : Option Heap :=
  (Ref_to h ptr).bind fun old_target =>
  (IsForwardingCorpse h old_target).bind fun corpse =>
    if corpse = true then
      (h.load old_target).bind fun l => UpdateNoCheck h ptr l.target
    else some h

/-- `ForwardClass(heap, object)`. -/
def ForwardClass (h : Heap) (object : Object) : Option Heap :=
  (h.load object).bind fun o =>
  (ClassAt h (o.cid : Int)).bind fun old_class =>
  (IsForwardingCorpse h old_class).bind fun corpse =>
    if corpse = true then
      (h.load old_class).bind fun l =>
      let new_class := l.target
      (Behavior.id h new_class).bind fun id =>
        set_cid h object (SmallInteger.value id)
    else some h

/-- The first loop of `Heap::BecomeForward`: does some pair have an immediate element. -/
def BecomeForward.immediate (h : Heap) (old neu : Object) : List Nat → Option Bool
  | [] => some false
  | i :: rest =>
    (Array.element h old i).bind fun forwarder =>
    (Array.element h neu i).bind fun forwardee =>
      if IsImmediateObject forwarder ∨ IsImmediateObject forwardee then some true
      else BecomeForward.immediate h old neu rest

/-- The body of the second loop of `Heap::BecomeForward` for one pair. -/
def BecomeForward.pair (h : Heap) (forwarder forwardee : Object) : Option Heap :=
  (h.load forwarder).bind fun fr =>
  (set_header_hash h forwardee fr.header_hash).bind fun h1 =>
  (h1.load forwardee).bind fun fe1 =>
  (h1.load forwarder).bind fun fr1 =>
  (set_in_class_table h1 forwardee (fe1.in_class_table || fr1.in_class_table)).bind fun h2 =>
  (h2.load forwarder).bind fun fr2 =>
  let heap_size := fr2.HeapSize
  (Unlink h2 forwarder).bind fun h3 =>
  (h3.modify forwarder fun l => l.Initialize kForwardingCorpseCid heap_size).bind fun h4 =>
  (h4.load forwarder).bind fun fr4 =>
  (if fr4.heap_size = 0 then set_overflow_size h4 forwarder heap_size
   else some h4).bind fun h5 =>
  set_target h5 forwarder forwardee

/-- The second loop of `Heap::BecomeForward`. -/
def BecomeForward.corpses (h : Heap) (old neu : Object) : List Nat → Option Heap
  | [] => some h
  | i :: rest =>
    (Array.element h old i).bind fun forwarder =>
    (Array.element h neu i).bind fun forwardee =>
    (BecomeForward.pair h forwarder forwardee).bind fun h1 =>
      BecomeForward.corpses h1 old neu rest

/-- The body of the loop of `Heap::ForwardClassIds` for one class id. -/
def ForwardClassIds.step (h : Heap) (old_cid : Nat) : Option Heap :=
  let nil := h.interpreter_.nil_obj
  let old_class := h.class_table_ old_cid
  (IsForwardingCorpse h old_class).bind fun corpse =>
    if corpse = false then some h
    else
      (h.load old_class).bind fun l =>
      let new_class := l.target
      (Behavior.id h new_class).bind fun id =>
      (if id ≠ nil then class_table_put h (SmallInteger.value id) old_class
       else some h).bind fun h1 =>
      (Behavior.set_id h1 new_class (SmallInteger.New (old_cid : Int))).map fun h2 =>
        { h2 with class_table_ := Function.update h2.class_table_ old_cid new_class }

/-- The loop of `Heap::ForwardClassIds` over a list of class ids. -/
def ForwardClassIds.loop (h : Heap) : List Nat → Option Heap
  | [] => some h
  | old_cid :: rest => (ForwardClassIds.step h old_cid).bind fun h1 => ForwardClassIds.loop h1 rest

/-- `Heap::ForwardClassIds`. -/
def ForwardClassIds (h : Heap) : Option Heap :=
  ForwardClassIds.loop h (List.range' kFirstLegalCid (h.class_table_size_ - kFirstLegalCid))

/-- The loop of `Heap::ForwardRoots` over the handles, as the new values `*handles_[i]`. -/
def ForwardRoots.handles (h : Heap) : List Object → Option (List Object)
  | [] => some []
  | v :: rest =>
    (ForwardPointer.object h v).bind fun v1 =>
    (ForwardRoots.handles h rest).map fun rest1 => v1 :: rest1

/-- A loop `for (Ref* ptr = from; ptr <= to; ptr++) ForwardPointer(ptr)`. -/
def ForwardPointers (h : Heap) : List RefPtr → Option Heap
  | [] => some h
  | ptr :: rest => (ForwardPointer h ptr).bind fun h1 => ForwardPointers h1 rest

/-- `Heap::ForwardRoots`. -/
def ForwardRoots (h : Heap) : Option Heap :=
  (ForwardRoots.handles h h.handles_).bind fun handles =>
  let h1 := { h with handles_ := handles }
  (ForwardPointers h1
      ((List.range h1.interpreter_.roots.length).map fun i => RefPtr.root i)).bind fun h2 =>
  ForwardPointers h2 ((List.range h2.interpreter_.stack.length).map fun i => RefPtr.stack i)

/-- The body of the loop of `Heap::ForwardHeap` for one object. -/
def ForwardHeap.step (h : Heap) (obj : Object) : Option Heap :=
  (ForwardClass h obj).bind fun h1 =>
  (h1.load obj).bind fun o =>
  ForwardPointers h1
    ((List.range' (Pointers o).1 ((Pointers o).2 - (Pointers o).1)).map fun i => RefPtr.slot obj i)

/-- The loop of `Heap::ForwardHeap` over a list of object-table indices. -/
def ForwardHeap.loop (h : Heap) : List Nat → Option Heap
  | [] => some h
  | i :: rest => (ForwardHeap.step h (h.table_ i)).bind fun h1 => ForwardHeap.loop h1 rest

/-- `Heap::ForwardHeap`. -/
def ForwardHeap (h : Heap) : Option Heap :=
  ForwardHeap.loop h (List.range' 1 (h.table_size_ - 1))

/-- The body of the loop of `Heap::MournClassTableForwarded` for one class id. -/
def MournClassTableForwarded.step (h : Heap) (i : Nat) : Option Heap :=
  (IsForwardingCorpse h (h.class_table_ i)).map fun corpse =>
    if corpse = false then h
    else
      { h with class_table_ :=
                 Function.update h.class_table_ i (SmallInteger.New h.class_table_free_),
               class_table_free_ := (i : Int) }

/-- The loop of `Heap::MournClassTableForwarded` over a list of class ids. -/
def MournClassTableForwarded.loop (h : Heap) : List Nat → Option Heap
  | [] => some h
  | i :: rest =>
    (MournClassTableForwarded.step h i).bind fun h1 => MournClassTableForwarded.loop h1 rest

/-- `Heap::MournClassTableForwarded`. -/
def MournClassTableForwarded (h : Heap) : Option Heap :=
  MournClassTableForwarded.loop h
    (List.range' kFirstLegalCid (h.class_table_size_ - kFirstLegalCid))

/-- `Heap::BecomeForward`: the returned flag and the heap after the call. -/
def BecomeForward (h : Heap) (old neu : Object) : Option (Bool × Heap) :=
  (Array.Size h old).bind fun old_size =>
  (Array.Size h neu).bind fun neu_size =>
  if old_size ≠ neu_size then some (false, h)
  else
    let length := old_size
    (BecomeForward.immediate h old neu (List.range length.toNat)).bind fun immediate =>
    if immediate = true then some (false, h)
    else
      (BecomeForward.corpses h old neu (List.range length.toNat)).bind fun h1 =>
      (ForwardClassIds h1).bind fun h2 =>
      (ForwardRoots h2).bind fun h3 =>
      (ForwardHeap h3).bind fun h4 =>
      (MournClassTableForwarded h4).map fun h5 =>
        (true, ClearCache h5)

end psoup


namespace psoup

/-! ## Reachability and the data-model invariants -/

/-- The object `o` is registered in the object table: it is `table_[i]` for an index
`1 <= i < table_size_`. -/
def InTable (h : Heap) (o : Object) : Prop :=
  ∃ i, 1 ≤ i ∧ i < h.table_size_ ∧ h.table_ i = o

/-- The Refs on the incoming list of `o`. -/
def Heap.incomingOf (h : Heap) (o : Object) : List RefPtr :=
  match h.load o with
  | some l => l.incoming_
  | none => []

/-- The Ref `r` is a Ref of the interpreter or of an object that is in the object table. -/
def HolderInTable (h : Heap) : RefPtr → Prop
  | .slot holder _ => InTable h holder
  | .root _ => True
  | .stack _ => True

/-- The Ref `r` is a Ref of a weak array. -/
def HeldByWeakArray (h : Heap) : RefPtr → Prop
  | .slot holder _ => ∃ l, h.load holder = some l ∧ l.cid = kWeakArrayCid
  | .root _ => False
  | .stack _ => False

/-- An edge that counts for reachability: a Ref of the object `s` of the object table, which is
not a weak array, whose target is the heap object `t`. -/
def Edge (h : Heap) (s t : Object) : Prop :=
  InTable h s ∧ ∃ (l : Layout) (i : Nat),
    h.load s = some l ∧ l.cid ≠ kWeakArrayCid ∧ l.refs[i]? = some t ∧ IsHeapObject t

/-- The object `o` is the target of a root Ref (a Ref whose `from` is null: one in the range of
`RootPointers` or of `StackPointers`) or is equal to a value held in the handle stack. -/
def Rooted (h : Heap) (o : Object) : Prop :=
  o ∈ h.interpreter_.roots ∨ o ∈ h.interpreter_.stack ∨ o ∈ h.handles_

/-- The object `c` is reachable from a root Ref or a handle through a chain of edges none of
whose source objects is a weak array. -/
def RootReachable (h : Heap) (c : Object) : Prop :=
  ∃ o, Rooted h o ∧ Relation.ReflTransGen (Edge h) o c

/-- The object-table invariant: every entry `1 <= i < table_size_` is a heap object with
storage, with a legal class id, whose index field is `i`. -/
def TableInv (h : Heap) : Prop :=
  1 ≤ h.table_size_ ∧
  ∀ i, 1 ≤ i → i < h.table_size_ →
    ∃ l, h.load (h.table_ i) = some l ∧ l.table_index = i ∧ kFirstLegalCid ≤ l.cid

/-- The incoming-list invariant, from the list to the Refs: the incoming list of an object of
the object table has no Ref twice, and each Ref on it is a Ref of the interpreter or of an
object of the object table and has the object as its target. -/
def IncomingSound (h : Heap) : Prop :=
  ∀ o l, InTable h o → h.load o = some l →
    l.incoming_.Nodup ∧ ∀ r ∈ l.incoming_, Ref_to h r = some o ∧ HolderInTable h r

/-- The incoming-list invariant, from the Refs to the list: a Ref of the interpreter or of an
object of the object table whose target is a heap object has its target in the object table and
is on the incoming list of its target. -/
def IncomingComplete (h : Heap) : Prop :=
  ∀ r v, HolderInTable h r → Ref_to h r = some v → IsHeapObject v →
    InTable h v ∧ r ∈ h.incomingOf v

/-- All mark bits are clear and the worklist is empty. -/
def MarksClear (h : Heap) : Prop :=
  h.worklist_ = [] ∧ ∀ o l, InTable h o → h.load o = some l → l.is_marked = false

/-- The data-model invariants: object-table invariant, incoming-list invariant, all mark bits
clear. -/
def WellFormed (h : Heap) : Prop :=
  TableInv h ∧ IncomingSound h ∧ IncomingComplete h ∧ MarksClear h

end psoup


namespace psoup

/-- The heap in which the storage `l` of every object `o` is replaced by `g o l`. -/
def Heap.mapMemory (h : Heap) (g : Object → Layout → Layout) : Heap :=
  { h with memory := fun o => (h.memory o).map (g o) }

/-- The storage of the object `o` after `Ref::UpdateNoCheck` moved the Ref `r` from the target
`t` to the target `v`. -/
def Layout.retarget (r : RefPtr) (t v : Object) (o : Object) (l : Layout) : Layout :=
  { l with
    refs := match r with
      | .slot holder index => if o = holder then l.refs.set index v else l.refs
      | _ => l.refs,
    incoming_ := (if o = t ∧ IsHeapObject t then l.incoming_.erase r else l.incoming_) ++
      (if o = v ∧ IsHeapObject v then [r] else []) }

/-- The Refs of the interpreter after `Ref::UpdateNoCheck` gave the Ref `r` the target `v`. -/
def Interpreter.retarget (r : RefPtr) (v : Object) (s : Interpreter) : Interpreter :=
  match r with
  | .slot _ _ => s
  | .root index => { s with roots := s.roots.set index v }
  | .stack index => { s with stack := s.stack.set index v }

/-- The heap with another state of the interpreter. -/
def Heap.withInterpreter (h : Heap) (s : Interpreter) : Heap :=
  { h with interpreter_ := s }

/-- The heap after `Ref::UpdateNoCheck` moved the Ref `r` from the target `t` to the target
`v`. -/
def Heap.retarget (h : Heap) (r : RefPtr) (t v : Object) : Heap :=
  (h.mapMemory (Layout.retarget r t v)).withInterpreter (h.interpreter_.retarget r v)

end psoup


namespace psoup

/-- The incoming-list invariant, from the list to the Refs, in a heap in which storage was
freed: a Ref on the incoming list of an object of the object table either is a Ref of the
interpreter or of an object of the object table and has the object as its target, or is a Ref
without storage. -/
def WeakSound (h : Heap) : Prop :=
  ∀ o l, InTable h o → h.load o = some l →
    l.incoming_.Nodup ∧
    ∀ r ∈ l.incoming_, (Ref_to h r = some o ∧ HolderInTable h r) ∨ Ref_to h r = none

/-- The incoming-list invariant, from the Refs to the list, for the Refs that count for
reachability: a Ref of the interpreter or of an object of the object table that is not a weak
array, whose target is a heap object, has its target in the object table and is on the incoming
list of its target. -/
def WeakComplete (h : Heap) : Prop :=
  ∀ r v, HolderInTable h r → ¬ HeldByWeakArray h r → Ref_to h r = some v → IsHeapObject v →
    InTable h v ∧ r ∈ h.incomingOf v

/-- The data-model invariants as they hold between the rounds of one `GCStep`. -/
def WeaklyFormed (h : Heap) : Prop :=
  TableInv h ∧ WeakSound h ∧ WeakComplete h ∧ MarksClear h

/-- The storage `l2` is the storage `l1` up to the mark bit and the weak-referent bit. -/
def Layout.SameButMarks (l1 l2 : Layout) : Prop :=
  { l2 with is_marked := l1.is_marked, is_weak_referent := l1.is_weak_referent } = l1

/-- The heap `h2` is the heap `h1` up to mark bits, weak-referent bits and the worklist. -/
def MarkFrame (h1 h2 : Heap) : Prop :=
  ∃ g : Object → Layout → Layout, (∀ o l, Layout.SameButMarks l (g o l)) ∧
    h2 = { h1.mapMemory g with worklist_ := h2.worklist_ }

/-- The mark bit of `o` is set. -/
def Heap.marked (h : Heap) (o : Object) : Prop :=
  ∃ l, h.load o = some l ∧ l.is_marked = true

/-- The weak-referent bit of `o` is set. -/
def Heap.flagged (h : Heap) (o : Object) : Prop :=
  ∃ l, h.load o = some l ∧ l.is_weak_referent = true

end psoup

namespace psoup

/-- The state of `CheckReachable(c)` between two steps, in terms of the heap `h0` at the call:
only marks, flags and the worklist differ, the marked objects are the worklist entries, no entry
occurs twice, every entry is in the object table and reaches `c` along edges. -/
structure CheckState (h0 : Heap) (c : Object) (h : Heap) : Prop where
  frame : MarkFrame h0 h
  marked_iff : ∀ o, InTable h0 o → (h.marked o ↔ o ∈ h.worklist_)
  nodup : h.worklist_.Nodup
  inTable : ∀ x ∈ h.worklist_, InTable h0 x
  path : ∀ x ∈ h.worklist_, Relation.ReflTransGen (Edge h0) x c

/-- A Ref `r` on the incoming list of `x` as `CheckReachable` leaves it behind when the
worklist is `w`: it has storage and targets `x`, and its holder is an object of the object table
that is a weak array or on the worklist. -/
def GoodRef (h0 : Heap) (w : List Object) (x : Object) (r : RefPtr) : Prop :=
  Ref_to h0 r = some x ∧
  ∃ s i ls, r = RefPtr.slot s i ∧ InTable h0 s ∧ h0.load s = some ls ∧
    (ls.cid = kWeakArrayCid ∨ s ∈ w)

/-- The first `k` worklist entries have been walked by `CheckReachable`: none is held by a
handle, every Ref on their incoming lists is a Ref of a weak array or of a worklist entry, and
an entry with a Ref of a weak array on its list has its weak-referent bit set. -/
def Processed (h0 h : Heap) (k : Nat) : Prop :=
  ∀ j x, j < k → h.worklist_[j]? = some x →
    x ∉ h0.handles_ ∧ (∀ r ∈ h0.incomingOf x, GoodRef h0 h.worklist_ x r) ∧
    ((∃ r ∈ h0.incomingOf x, HeldByWeakArray h0 r) → h.flagged x)

end psoup


namespace psoup

/-- The storage `l2` is the storage `l1` up to the Refs, the incoming list and the hash/index
word. -/
def Layout.SameButRefs (l1 l2 : Layout) : Prop :=
  { l2 with refs := l1.refs, incoming_ := l1.incoming_, header_hash_ := l1.header_hash_ } = l1

/-- The holder of the Ref `r` is an object of the object table of `h1` that is a weak array or
on the worklist of `h1`. -/
def GoodHolder (h1 : Heap) (r : RefPtr) : Prop :=
  ∃ s i, r = RefPtr.slot s i ∧ InTable h1 s ∧ (HeldByWeakArray h1 r ∨ s ∈ h1.worklist_)

/-- The heap `h1` in which `CheckReachable` has returned false: the worklist is closed under
incoming Refs up to weak arrays, and its entries are the marked objects. -/
structure ClosureFound (h1 : Heap) : Prop where
  table : TableInv h1
  sound : WeakSound h1
  complete : WeakComplete h1
  nodup : h1.worklist_.Nodup
  inTable : ∀ x ∈ h1.worklist_, InTable h1 x
  marked_iff : ∀ o, InTable h1 o → (h1.marked o ↔ o ∈ h1.worklist_)
  closed : ∀ x ∈ h1.worklist_, ∀ r ∈ h1.incomingOf x, Ref_to h1 r = some x ∧ GoodHolder h1 r
  no_handle : ∀ x ∈ h1.worklist_, x ∉ h1.handles_
  flagged : ∀ x ∈ h1.worklist_, (∃ r ∈ h1.incomingOf x, HeldByWeakArray h1 r) → h1.flagged x

/-- The heap `h` during the reclamation of the worklist of `h1`, as far as Refs are concerned:
only Refs, incoming lists, index fields and the object table differ from `h1`; the Refs of the
objects that stay, other than weak arrays, are untouched and still on the incoming lists of
their targets; the incoming lists are sound up to Refs without storage; the worklist is still
closed. -/
structure Reclaiming (h1 h : Heap) : Prop where
  interp : h.interpreter_ = h1.interpreter_
  handles : h.handles_ = h1.handles_
  worklist : h.worklist_ = h1.worklist_
  class_table : h.class_table_ = h1.class_table_ ∧ h.class_table_size_ = h1.class_table_size_ ∧
    h.class_table_free_ = h1.class_table_free_ ∧ h.heap_size_ = h1.heap_size_ ∧
    h.gc_count_ = h1.gc_count_
  layout : ∀ o, (∀ l1, h1.load o = some l1 → ∃ l, h.load o = some l ∧ Layout.SameButRefs l1 l) ∧
    (h1.load o = none → h.load o = none)
  strong_refs : ∀ s l1 l, s ∉ h1.worklist_ → h1.load s = some l1 → l1.cid ≠ kWeakArrayCid →
    h.load s = some l → l.refs = l1.refs
  nodup : ∀ o, InTable h1 o → (h.incomingOf o).Nodup
  sound : ∀ o, InTable h1 o → ∀ r ∈ h.incomingOf o,
    (Ref_to h r = some o ∧ HolderInTable h1 r) ∨ Ref_to h r = none
  listed : ∀ r v, HolderInTable h1 r → ¬ HeldByWeakArray h1 r → Ref_from r ∉ h1.worklist_ →
    Ref_to h1 r = some v → IsHeapObject v → r ∈ h.incomingOf v
  closed : ∀ x ∈ h1.worklist_, ∀ r ∈ h.incomingOf x, GoodHolder h1 r

/-- The object table of `h` is the object table of `h1` without the objects of `p`. -/
structure TableShrunk (h1 : Heap) (p : List Object) (h : Heap) : Prop where
  size : h.table_size_ + p.length = h1.table_size_
  inv : TableInv h
  mem : ∀ o, InTable h o ↔ (InTable h1 o ∧ o ∉ p)

end psoup

namespace psoup

/-- The heap `h2` has the object table of `h1`, the same objects with storage, and every
object has the hash/index word and the class id it has in `h1`. -/
structure SameTable (h1 h2 : Heap) : Prop where
  table : h2.table_ = h1.table_
  size : h2.table_size_ = h1.table_size_
  back : ∀ o l2, h2.load o = some l2 →
    ∃ l1, h1.load o = some l1 ∧ l2.header_hash_ = l1.header_hash_ ∧ l2.cid = l1.cid
  forth : ∀ o l1, h1.load o = some l1 → ∃ l2, h2.load o = some l2

/-- The heap `h2` is the heap `h1` up to hash/index words and the object table. -/
def IndexOnly (h1 h2 : Heap) : Prop :=
  ∃ (g : Object → Layout → Layout) (t : Nat → Object) (n : Nat),
    (∀ o l, { g o l with header_hash_ := l.header_hash_ } = l) ∧
    h2 = { h1.mapMemory g with table_ := t, table_size_ := n }

end psoup


namespace psoup

/-! ## Deciding the invariants of a given heap -/

/-- Boolean form of `InTable`. -/
def inTable (h : Heap) (o : Object) : Bool :=
  (List.range h.table_size_).any fun i => decide (1 ≤ i) && decide (h.table_ i = o)

/-- Boolean form of `HolderInTable`. -/
def holderInTable (h : Heap) : RefPtr → Bool
  | .slot holder _ => inTable h holder
  | .root _ => true
  | .stack _ => true

/-- The Ref `r` with target `v` is as `IncomingComplete` asks. -/
def refListed (h : Heap) (r : RefPtr) (v : Object) : Bool :=
  !decide (IsHeapObject v) || (inTable h v && decide (r ∈ h.incomingOf v))

/-- Entry `i` of the object table is as the data-model invariants ask. -/
def checkEntry (h : Heap) (i : Nat) : Bool :=
  match h.load (h.table_ i) with
  | none => false
  | some l =>
    decide (l.table_index = i) && decide (kFirstLegalCid ≤ l.cid) && !l.is_marked &&
    decide l.incoming_.Nodup &&
    l.incoming_.all (fun r => decide (Ref_to h r = some (h.table_ i)) && holderInTable h r) &&
    (List.range l.refs.length).all fun j =>
      refListed h (.slot (h.table_ i) j) (l.refs.getD j 0)

/-- Boolean check of the data-model invariants. -/
def checkWellFormed (h : Heap) : Bool :=
  decide (1 ≤ h.table_size_) && decide (h.worklist_ = []) &&
  (List.range h.table_size_).all (fun i => decide (i = 0) || checkEntry h i) &&
  (List.range h.interpreter_.roots.length).all (fun j =>
    refListed h (.root j) (h.interpreter_.roots.getD j 0)) &&
  (List.range h.interpreter_.stack.length).all (fun j =>
    refListed h (.stack j) (h.interpreter_.stack.getD j 0))

/-! ## Heaps for concrete runs -/

/-- Storage of an object with the given class id, table index, incoming list and Refs. -/
def Layout.sample (cid : Nat) (index : Nat) (incoming : List RefPtr) (refs : List Object) :
    Layout :=
  { is_marked := false, is_weak_referent := false, in_class_table := false,
    is_canonical := false, size_field := 2 + refs.length * 2, cid := cid,
    header_hash_ := index, incoming_ := incoming, overflow_size_ := 0,
    size_ := SmallInteger.New refs.length, refs := refs }

/-- The memory that holds the listed objects. -/
def memoryOf (xs : List (Object × Layout)) : Object → Option Layout :=
  fun o => (xs.find? (fun p => p.1 == o)).map (fun p => p.2)

/-- The object table with the listed entries. -/
def tableOf (xs : List Object) : Nat → Object := fun i => xs.getD i 0

/-- A heap with the given object table, roots, handles and memory, whose interpreter has
nil, true and false at the addresses 1, 3 and 5. -/
def Heap.sample (table : List Object) (roots : List Object) (handles : List Object)
    (memory : List (Object × Layout)) : Heap :=
  { heap_size_ := 0, class_table_ := fun _ => 0, class_table_size_ := 16,
    class_table_capacity_ := 1024, class_table_free_ := 0, worklist_ := [],
    table_ := tableOf table, table_size_ := table.length, table_capacity_ := 8192,
    interpreter_ := { nil_obj := 1, true_obj := 3, false_obj := 5, roots := roots, stack := [],
                      cache_clears := 0 },
    handles_ := handles, gc_count_ := 0, memory := memoryOf memory }

/-- Two arrays of length 1 at the addresses 7 and 9 that reference each other and are
referenced by nothing else, next to nil, true and false, which are roots. -/
def cycleHeap : Heap :=
  Heap.sample [0, 1, 3, 5, 7, 9] [1, 3, 5] []
    [(1, Layout.sample 14 1 [.root 0] []), (3, Layout.sample 14 2 [.root 1] []),
     (5, Layout.sample 14 3 [.root 2] []),
     (7, Layout.sample kArrayCid 4 [.slot 9 0] [9]),
     (9, Layout.sample kArrayCid 5 [.slot 7 0] [7])]

/-- The heap `cycleHeap` after a `GCStep` whose first round samples the array at 7. -/
def cycleHeapCollected : Heap := (GCStep cycleHeap 4 1 2).getD cycleHeap

/-- The heap `cycleHeap` after `CheckReachable` of the array at 7. -/
def cycleHeapChecked : Heap := ((CheckReachable cycleHeap 7).getD (true, cycleHeap)).2

end psoup


namespace psoup

/-! ## Heaps with classes, for concrete runs of become -/

/-- Storage of a behavior with the class id slot `classid` whose other Refs target nil (at
address 1), with the given identity hash. -/
def Layout.sampleClass (index : Nat) (hash : Nat) (incoming : List RefPtr) (classid : Object)
    (registered : Bool) : Layout :=
  { Layout.sample 16 index incoming [1, 1, 1, 1, 1, classid, SmallInteger.New 0] with
    in_class_table := registered, header_hash_ := HashField.update hash index }

/-- The objects of the class scenarios: nil, true and false at 1, 3 and 5, the classes `C1` at 7
and `C2` at 9, an instance of `C1` at 11, the arrays `[C1]` at 13, `[C2]` at 15 and
`[SmallInteger 21]` at 17.  `C1` is registered under the class id 14 and has the identity hash
77; `classid` is the class id slot of `C2`, whose identity hash is 88. -/
def classObjects (classid : Object) (registered : Bool) (idList : List RefPtr) :
    List (Object × Layout) :=
  [(1, Layout.sample 17 1
        ([.root 0, .slot 7 0, .slot 7 1, .slot 7 2, .slot 7 3, .slot 7 4,
          .slot 9 0, .slot 9 1, .slot 9 2, .slot 9 3, .slot 9 4] ++ idList) []),
   (3, Layout.sample 18 2 [.root 1] []),
   (5, Layout.sample 19 3 [.root 2] []),
   (7, Layout.sampleClass 4 77 [.slot 11 0, .slot 13 0] (SmallInteger.New 14) true),
   (9, Layout.sampleClass 5 88 [.slot 15 0] classid registered),
   (11, Layout.sample 14 6 [.root 3] [7]),
   (13, Layout.sample kArrayCid 7 [.root 4] [7]),
   (15, Layout.sample kArrayCid 8 [.root 5] [9]),
   (17, Layout.sample kArrayCid 9 [.root 6] [SmallInteger.New 21])]

/-- The heap of the class scenarios, with the given class table. -/
def classHeapWith (class_table : Nat → Object) (objects : List (Object × Layout)) : Heap :=
  { Heap.sample [0, 1, 3, 5, 7, 9, 11, 13, 15, 17] [1, 3, 5, 11, 13, 15, 17] [] objects with
    class_table_ := class_table, class_table_size_ := 24 }

/-- The class `C2` is registered under the class id 15. -/
def classHeap : Heap :=
  classHeapWith (fun cid => if cid = 14 then 7 else if cid = 15 then 9 else 0)
    (classObjects (SmallInteger.New 15) true [])

/-- The class `C2` is not registered: its class id slot holds nil. -/
def classHeapUnregistered : Heap :=
  classHeapWith (fun cid => if cid = 14 then 7 else 0)
    (classObjects 1 false [.slot 9 5])

/-- The heap after `BecomeForward` of the given arrays, and the returned flag. -/
def becomeResult (h : Heap) (old neu : Object) : Bool × Heap :=
  (BecomeForward h old neu).getD (false, h)

/-- Every object other than `a` that has storage in `h` has storage in `h'`, with the same
identity hash. -/
def HashKept (a : Object) (h h' : Heap) : Prop :=
  ∀ o l, o ≠ a → h.load o = some l → ∃ l', h'.load o = some l' ∧ l'.header_hash = l.header_hash

end psoup


namespace psoup

/-! ## A heap with an ephemeron -/

/-- An ephemeron `E` at 7 with the key `K` at 9, the value `V` at 11 and the finalizer `F` at 13.
`E` is the target of a root Ref; `K`, `V` and `F` are referenced by `E` only. -/
def ephemeronHeap : Heap :=
  Heap.sample [0, 1, 3, 5, 7, 9, 11, 13] [1, 3, 5, 7] []
    [(1, Layout.sample 14 1 [.root 0, .slot 7 0] []), (3, Layout.sample 14 2 [.root 1] []),
     (5, Layout.sample 14 3 [.root 2] []),
     (7, Layout.sample kEphemeronCid 4 [.root 3] [1, 9, 11, 13]),
     (9, Layout.sample 14 5 [.slot 7 1] []),
     (11, Layout.sample 14 6 [.slot 7 2] []),
     (13, Layout.sample 14 7 [.slot 7 3] [])]

/-- The heap after a round of `GCStep` on `ephemeronHeap` that samples `K`. -/
def ephemeronHeapRound : Heap := (GCStep.round ephemeronHeap 5).getD ephemeronHeap

end psoup


namespace psoup

/-! ## Conditions under which a reclamation returns -/

/-- The data-model invariants together with what the reclamation of a closure relies on: nil is
a heap object and the target of a root Ref, an ephemeron has the four Refs that `Pointers`
enumerates, and a behavior registered in the class table holds a class id. -/
structure Collectable (h : Heap) : Prop where
  formed : WellFormed h
  nil_heap : IsHeapObject h.interpreter_.nil_obj
  nil_root : h.interpreter_.nil_obj ∈ h.interpreter_.roots
  ephemeron : ∀ o l, InTable h o → h.load o = some l → l.cid = kEphemeronCid →
    4 ≤ l.refs.length
  class_id : ∀ o l, InTable h o → h.load o = some l → l.in_class_table = true →
    ∃ id, l.refs[Behavior.classid_index]? = some id ∧ IsSmallInteger id ∧
      0 ≤ SmallInteger.value id

/-- The heap `h` during the unlinking of the worklist of `h1`, as far as storage is concerned:
every object has its storage and the number of Refs it has in `h1`, Refs that hold small
integers are untouched, the heap objects that Refs of objects of the object table target have
storage, and so have the Refs on the incoming lists. -/
structure Stored (h1 h : Heap) : Prop where
  shape : ∀ o l1, h1.load o = some l1 → ∃ l, h.load o = some l ∧
    l.refs.length = l1.refs.length ∧
    ∀ (i : Nat) (v : Object), l1.refs[i]? = some v → IsSmallInteger v → l.refs[i]? = some v
  targets : ∀ (s : Object) (l : Layout) (i : Nat) (t : Object), InTable h1 s → h.load s = some l → l.refs[i]? = some t →
    IsHeapObject t → ∃ lt, h.load t = some lt
  listed : ∀ o, InTable h1 o → ∀ r ∈ h.incomingOf o, ∃ t, Ref_to h r = some t

/-- The Refs of the weak arrays that stay, during the unlinking of the worklist of `h1`: such a
Ref whose target in `h1` is a worklist object either has nil as its target and is on the incoming
list of nil, or still has its target, is on the incoming list of the target, and the target is
not among the objects `p` that have been unlinked. -/
def WeakRefs (h1 : Heap) (p : List Object) (h : Heap) : Prop :=
  ∀ r x, HolderInTable h1 r → HeldByWeakArray h1 r → Ref_from r ∉ h1.worklist_ →
    Ref_to h1 r = some x → x ∈ h1.worklist_ →
    (Ref_to h r = some h1.interpreter_.nil_obj ∧ r ∈ h.incomingOf h1.interpreter_.nil_obj) ∨
    (Ref_to h r = some x ∧ r ∈ h.incomingOf x ∧ x ∉ p)

/-- Boolean check of `Collectable`. -/
def checkCollectable (h : Heap) : Bool :=
  checkWellFormed h && decide (IsHeapObject h.interpreter_.nil_obj) &&
  decide (h.interpreter_.nil_obj ∈ h.interpreter_.roots) &&
  (List.range h.table_size_).all fun i =>
    decide (i = 0) ||
    match h.load (h.table_ i) with
    | none => false
    | some l =>
      (decide (l.cid ≠ kEphemeronCid) || decide (4 ≤ l.refs.length)) &&
      (!l.in_class_table ||
        match l.refs[Behavior.classid_index]? with
        | none => false
        | some id => decide (IsSmallInteger id) && decide (0 ≤ SmallInteger.value id))

end psoup


namespace psoup

/-! ## Heaps with weak arrays -/

/-- A weak array at 7 that is the target of a root Ref and whose only slot references the object
`T` at 9, which nothing else references. -/
def weakHeap : Heap :=
  Heap.sample [0, 1, 3, 5, 7, 9] [1, 3, 5, 7] []
    [(1, Layout.sample 14 1 [.root 0] []), (3, Layout.sample 14 2 [.root 1] []),
     (5, Layout.sample 14 3 [.root 2] []),
     (7, Layout.sample kWeakArrayCid 4 [.root 3] [9]),
     (9, Layout.sample 14 5 [.slot 7 0] [])]

/-- A weak array `T` at 7 whose only slot references `T` itself, and which nothing else
references. -/
def weakSelfHeap : Heap :=
  Heap.sample [0, 1, 3, 5, 7] [1, 3, 5] []
    [(1, Layout.sample 14 1 [.root 0] []), (3, Layout.sample 14 2 [.root 1] []),
     (5, Layout.sample 14 3 [.root 2] []),
     (7, Layout.sample kWeakArrayCid 4 [.slot 7 0] [7])]

/-- The heap after a round of `GCStep` on `weakSelfHeap` that samples `T`. -/
def weakSelfHeapRound : Heap := (GCStep.round weakSelfHeap 4).getD weakSelfHeap

end psoup


namespace psoup

/-! ## Become: what the passes keep -/

/-- No object of the object table has its weak-referent bit set (`GCStep` clears the bits it
has set before it returns). -/
def WeakBitsClear (h : Heap) : Prop :=
  ∀ o l, InTable h o → h.load o = some l → l.is_weak_referent = false

/-- What the loop body of `BecomeForward` for the forwarder `x` and the forwardee `y` keeps,
`T` being the objects of the object table before it: the interpreter, the handles and the class
table; the objects with storage and the number of their Refs; the class id, the weak-referent
bit and the Refs of every object other than `x`; the hash/index word of every object other
than `x` and `y` that is not in the object table. -/
structure PairFrame (x y : Object) (T : Object → Prop) (g g' : Heap) : Prop where
  interp : g'.interpreter_ = g.interpreter_
  handles : g'.handles_ = g.handles_
  class_table : g'.class_table_ = g.class_table_ ∧ g'.class_table_size_ = g.class_table_size_
  absent : ∀ o, g.load o = none → g'.load o = none
  present : ∀ o l, g.load o = some l → ∃ l', g'.load o = some l' ∧
    l'.refs.length = l.refs.length ∧
    (o ≠ x → l'.cid = l.cid ∧ l'.is_weak_referent = l.is_weak_referent ∧ l'.refs = l.refs) ∧
    (o ≠ x → o ≠ y → ¬ T o → l'.header_hash_ = l.header_hash_)

/-- The Ref `r` is one that `ForwardRoots` or `ForwardHeap` visits: a Ref of the interpreter, or
a Ref in the range given by `Pointers` of an object of the object table. -/
def Scanned (h : Heap) : RefPtr → Prop
  | .slot holder index => InTable h holder ∧
      ∃ l, h.load holder = some l ∧ (Pointers l).1 ≤ index ∧ index < (Pointers l).2
  | .root _ => True
  | .stack _ => True

end psoup


namespace psoup

/-- The heap `g` in the second loop of `BecomeForward` on the heap `h`, after the pairs with the
indices `P` of the forwarders `F` and the forwardees `G`: the processed forwarders have left the
object table and are forwarding corpses whose targets are their forwardees; every other object
has the class id, the weak-referent bit and the Refs it has in `h`. -/
structure Forwarding (h : Heap) (F G : List Object) (P : List Nat) (g : Heap) : Prop where
  table : TableInv g
  inTable : ∀ o, InTable g o ↔ (InTable h o ∧ ∀ i ∈ P, F[i]? ≠ some o)
  interp : g.interpreter_ = h.interpreter_
  handles : g.handles_ = h.handles_
  class_table : g.class_table_ = h.class_table_ ∧ g.class_table_size_ = h.class_table_size_
  absent : ∀ o, h.load o = none → g.load o = none
  present : ∀ o l0, h.load o = some l0 → ∃ l, g.load o = some l ∧
    l.refs.length = l0.refs.length ∧
    ((∀ i ∈ P, F[i]? ≠ some o) →
      l.cid = l0.cid ∧ l.is_weak_referent = l0.is_weak_referent ∧ l.refs = l0.refs)
  corpses : ∀ i ∈ P, ∀ f y, F[i]? = some f → G[i]? = some y →
    ∃ l, g.load f = some l ∧ l.cid = kForwardingCorpseCid ∧ l.header_hash_ = y

/-- The heap `g` in `ForwardRoots` and `ForwardHeap`, `h1` being the heap after
`ForwardClassIds`: the object table, the objects with storage, their hash/index words and
numbers of Refs are those of `h1`, an object is a forwarding corpse exactly when it is one in
`h1` (`ForwardClass` may give an object another class id), and every Ref either has the target
it has in `h1` or had a forwarder as its target in `h1`, has the forwardee as its target and is
on the incoming list of the forwardee. -/
structure Forwarded (h1 : Heap) (F G : List Object) (g : Heap) : Prop where
  table : g.table_ = h1.table_ ∧ g.table_size_ = h1.table_size_
  class_table : g.class_table_ = h1.class_table_ ∧ g.class_table_size_ = h1.class_table_size_
  absent : ∀ o, h1.load o = none → g.load o = none
  present : ∀ o l1, h1.load o = some l1 → ∃ l, g.load o = some l ∧
    (l.cid = kForwardingCorpseCid ↔ l1.cid = kForwardingCorpseCid) ∧
    l.header_hash_ = l1.header_hash_ ∧ l.refs.length = l1.refs.length
  refs : ∀ r, Ref_to g r = Ref_to h1 r ∨
    ∃ (i : Nat) (f y : Object), F[i]? = some f ∧ G[i]? = some y ∧ Ref_to h1 r = some f ∧
      Ref_to g r = some y ∧ r ∈ g.incomingOf y

/-- The target of the Ref `r` is not a forwarding corpse. -/
def Done (g : Heap) (r : RefPtr) : Prop :=
  ∀ t l, Ref_to g r = some t → g.load t = some l → l.cid ≠ kForwardingCorpseCid

/-- A target of the Ref `r` in `h1` that is a forwarding corpse is one of the forwarders `F`. -/
def Good (h1 : Heap) (F : List Object) (r : RefPtr) : Prop :=
  ∀ t l, Ref_to h1 r = some t → h1.load t = some l → l.cid = kForwardingCorpseCid →
    ∃ i : Nat, F[i]? = some t

end psoup


namespace psoup

/-- Boolean check of `WeakBitsClear`. -/
def checkWeakBitsClear (h : Heap) : Bool :=
  (List.range h.table_size_).all fun i =>
    decide (i = 0) ||
    match h.load (h.table_ i) with
    | none => true
    | some l => !l.is_weak_referent

/-- A heap for a become of objects that are not classes: the objects `a` at 7 and `b` at 9, an
array `[a]` at 11, and the arrays `old = [a]` at 13 and `neu = [b]` at 15, all three targets of
root Refs; a handle holds `a`. -/
def becomeHeap : Heap :=
  Heap.sample [0, 1, 3, 5, 7, 9, 11, 13, 15] [1, 3, 5, 11, 13, 15] [7]
    [(1, Layout.sample 14 1 [.root 0, .slot 7 0] []), (3, Layout.sample 14 2 [.root 1] []),
     (5, Layout.sample 14 3 [.root 2] []),
     (7, Layout.sample 14 4 [.slot 11 0, .slot 13 0] [1]),
     (9, Layout.sample 14 5 [.slot 15 0] []),
     (11, Layout.sample kArrayCid 6 [.root 3] [7]),
     (13, Layout.sample kArrayCid 7 [.root 4] [7]),
     (15, Layout.sample kArrayCid 8 [.root 5] [9])]

end psoup


namespace psoup

/-! ## Small integers, initialisation of Refs, registration (`vm/object.h`, `vm/heap.h`) -/

/-- `SmallInteger::kBits`: `kBitsPerWord - 2`. -/
def SmallInteger.kBits : Nat := kBitsPerWord - 2

/-- `SmallInteger::kMaxValue`: `(static_cast<intptr_t>(1) << kBits) - 1`. -/
def SmallInteger.kMaxValue : Int := toIntptr (toUword 1 * 2 ^ SmallInteger.kBits) - 1

/-- `SmallInteger::kMinValue`: `-(static_cast<intptr_t>(1) << kBits)`. -/
def SmallInteger.kMinValue : Int := -toIntptr (toUword 1 * 2 ^ SmallInteger.kBits)

/-- `Ref::Init`: `from = source; to = target;` and, when the target is a heap object,
`target->incoming()->Insert(this)`.  Nothing is removed: the Ref is fresh storage. -/
def Ref_Init (h : Heap) (r : RefPtr) (_source : Object) (target : Object) : Option Heap :=
  (Ref_set_to h r target).bind fun h1 =>
  if IsHeapObject target then Link_Insert h1 target r else some h1

/-- `Heap::TableGrow`: the capacity grows by half; `realloc` keeps the entries. -/
def TableGrow (h : Heap) : Heap :=
  { h with table_capacity_ := h.table_capacity_ + (h.table_capacity_ >>> 1) }

/-- `Heap::RegisterInstance`. -/
def RegisterInstance (h : Heap) (obj : Object) : Option Heap :=
  let h1 := if h.table_size_ = h.table_capacity_ then TableGrow h else h
  let index := h1.table_size_
  let h2 := { h1 with table_size_ := h1.table_size_ + 1,
                      table_ := Function.update h1.table_ index obj }
  set_table_index h2 obj index

/-- `Heap::RegisterClass`. -/
def RegisterClass (h : Heap) (cid : Int) (cls : Object) : Option Heap :=
  (class_table_put h cid cls).bind fun h1 =>
  (Behavior.set_id h1 cls (SmallInteger.New cid)).bind fun h2 =>
  set_in_class_table h2 cls true

/-- `Heap::CollectAll`: it prints a message and collects nothing. -/
def CollectAll (h : Heap) : Heap := h

/-- The pop of the free list in `Heap::AllocateClassId`: `cid = class_table_free_;
class_table_free_ = static_cast<SmallInteger>(class_table_[cid])->value()`. -/
def AllocateClassId.pop (h : Heap) : Option (Int × Heap) :=
  let cid := h.class_table_free_
  (class_table_at h cid).map fun link =>
    (cid, { h with class_table_free_ := SmallInteger.value link })

/-- The extension in `Heap::AllocateClassId`: `cid = class_table_size_; class_table_size_++`. -/
def AllocateClassId.extend (h : Heap) : Int × Heap :=
  ((h.class_table_size_ : Int), { h with class_table_size_ := h.class_table_size_ + 1 })

/-- The growth in `Heap::AllocateClassId`: the capacity grows by half and the entries below
`class_table_size_` are copied into the new array, whose other entries are `Object()`, the
null word. -/
def AllocateClassId.grow (h : Heap) : Heap :=
  { h with class_table_capacity_ := h.class_table_capacity_ + (h.class_table_capacity_ >>> 1),
           class_table_ := fun i => if i < h.class_table_size_ then h.class_table_ i else nullptr }

/-- `Heap::AllocateClassId`: the returned class id and the heap after the call. -/
def AllocateClassId (h : Heap) : Option (Int × Heap) :=
  if h.class_table_free_ ≠ 0 then AllocateClassId.pop h
  else if (h.class_table_size_ : Int) = (h.class_table_capacity_ : Int) then
    let h1 := CollectAll h
    if h1.class_table_free_ ≠ 0 then AllocateClassId.pop h1
    else some (AllocateClassId.extend (AllocateClassId.grow h1))
  else some (AllocateClassId.extend h)

end psoup


namespace psoup

/-! ## The incoming-list invariant of the Ref operations -/

/-- The incoming-list invariant for the Refs `S`, the Refs that have been initialised: no Ref
occurs twice on an incoming list, only initialised Refs are on incoming lists, and an
initialised Ref is a member of the incoming list of the heap object `o` if and only if its field
`to` equals `o`. -/
structure Linked (S : RefPtr → Prop) (h : Heap) : Prop where
  once : ∀ o, (h.incomingOf o).Nodup
  initialised : ∀ r o, r ∈ h.incomingOf o → S r
  member_iff : ∀ r o, S r → IsHeapObject o → (r ∈ h.incomingOf o ↔ Ref_to h r = some o)

/-- The Refs other than `r` on the incoming list of `o`, in their order. -/
def othersOn (h : Heap) (r : RefPtr) (o : Object) : List RefPtr :=
  (h.incomingOf o).filter fun x => decide (x ≠ r)

/-- The heap `becomeHeap` after `Ref::UpdateNoCheck` of the element of the array at 11, whose
target is the object at 7, with the object at 7 again. -/
def becomeHeapReset : Heap := (UpdateNoCheck becomeHeap (.slot 11 0) 7).getD becomeHeap

end psoup


namespace psoup

/-! ## The free list of class ids -/

/-- The free list of class ids that is threaded through the class table: from the head `head`
the ids `ids` follow in order, the slot of each holding the small integer that is the next one,
and 0 ends the list. -/
def FreeChain (h : Heap) : Int → List Nat → Prop
  | head, [] => head = 0
  | head, i :: rest =>
    head = (i : Int) ∧ IsSmallInteger (h.class_table_ i) ∧
      FreeChain h (SmallInteger.value (h.class_table_ i)) rest

/-- The class table is in order and `ids` is its free list: `class_table_free_` is the head of
the chain `ids`, no id is twice on it, every id on it is a class id of a regular object below
`class_table_size_`, the table has at least the built-in class ids and fits its capacity, and
the entries from `class_table_size_` on are the null words that `new Object[]` made. -/
structure FreeList (h : Heap) (ids : List Nat) : Prop where
  chain : FreeChain h h.class_table_free_ ids
  nodup : ids.Nodup
  range : ∀ i ∈ ids, kFirstRegularObjectCid ≤ i ∧ i < h.class_table_size_
  size : kFirstRegularObjectCid ≤ h.class_table_size_
  capacity : h.class_table_size_ ≤ h.class_table_capacity_
  unused : ∀ i, h.class_table_size_ ≤ i → h.class_table_ i = nullptr

end psoup


namespace psoup

/-! ## What the heap operations keep -/

/-- The object-table invariant: the table has the unused entry 0; every entry
`1 <= i < table_size_` is an object with storage whose index field is `i`; no object occurs at
two indices; and no object of the table has the index field 0. -/
structure ObjectTable (h : Heap) : Prop where
  size : 1 ≤ h.table_size_
  index : ∀ i, 1 ≤ i → i < h.table_size_ →
    ∃ l, h.load (h.table_ i) = some l ∧ l.table_index = i
  distinct : ∀ i j, 1 ≤ i → i < h.table_size_ → 1 ≤ j → j < h.table_size_ →
    h.table_ i = h.table_ j → i = j
  zero : ∀ o l, InTable h o → h.load o = some l → l.table_index ≠ 0

/-- Every object outside `X` that has storage in `h'` has storage in `h`, and its storage in `h`
and its storage in `h'` are related by `P`. -/
def Kept (X : Object → Prop) (P : Layout → Layout → Prop) (h h' : Heap) : Prop :=
  ∀ o l', ¬ X o → h'.load o = some l' → ∃ l, h.load o = some l ∧ P l l'

/-- The relation `P` between the storage of an object before and after holds when nothing was
done, composes, and holds across `Ref::UpdateNoCheck` of any Ref. -/
structure Respects (P : Layout → Layout → Prop) : Prop where
  refl : ∀ l, P l l
  trans : ∀ a b c, P a b → P b c → P a c
  retarget : ∀ r t v o l, P l (Layout.retarget r t v o l)

/-- The relation `P` holds across `set_table_index`. -/
def RespectsIndex (P : Layout → Layout → Prop) : Prop :=
  ∀ v l, P l { l with header_hash_ := IndexField.update v l.header_hash_ }

/-- The relation `P` holds across changes of the mark bit and the weak-referent bit. -/
def RespectsMarks (P : Layout → Layout → Prop) : Prop :=
  ∀ l l', Layout.SameButMarks l l' → P l l'

/-- The relation `P` holds across `set_cid`. -/
def RespectsCid (P : Layout → Layout → Prop) : Prop :=
  ∀ v l, P l { l with cid := v }

/-- The identity hash is the same. -/
def Layout.SameHash (l l' : Layout) : Prop := l'.header_hash = l.header_hash

/-- The index field is the same. -/
def Layout.SameIndex (l l' : Layout) : Prop := l'.table_index = l.table_index

/-- The in-class-table bit is the same. -/
def Layout.SameBit (l l' : Layout) : Prop := l'.in_class_table = l.in_class_table

/-- The fields that `HeapSize` reads are the same: the size field, the class id, the overflow
size, the length slot and the number of Refs. -/
def Layout.SameSize (l l' : Layout) : Prop :=
  l'.size_field = l.size_field ∧ l'.cid = l.cid ∧ l'.overflow_size_ = l.overflow_size_ ∧
  l'.size_ = l.size_ ∧ l'.refs.length = l.refs.length

/-- What the passes of `BecomeForward` after its second loop keep: the object table, the heap
size, the objects with storage, and the relation `P` between the storage of each object before
and after. -/
structure Passed (P : Layout → Layout → Prop) (h h' : Heap) : Prop where
  table : h'.table_ = h.table_ ∧ h'.table_size_ = h.table_size_
  heap_size : h'.heap_size_ = h.heap_size_
  back : ∀ o l', h'.load o = some l' → ∃ l, h.load o = some l ∧ P l l'
  forth : ∀ o l, h.load o = some l → ∃ l', h'.load o = some l'

end psoup


namespace psoup

/-! ## Allocation (`vm/heap.h`, `vm/heap.cc`) and the heap size -/

/-- `Heap::Allocator`. -/
inductive Allocator where
  | kNormal
  | kSnapshot
  deriving DecidableEq, Repr

/-- `HeapObject::FromAddr`. -/
def FromAddr (addr : Nat) : Object := addr + kHeapObjectTag

/-- `sizeof(Ref)`: the two pointers of `Link`, `from` and `to`. -/
def sizeofRef : Nat := 4 * kWordSize

/-- `sizeof(Array::Layout)`: `header_`, `header_hash_`, the two pointers of `incoming_`, and
`size_`. -/
def sizeofArrayLayout : Nat := 5 * kWordSize

/-- `Heap::Allocate`: `GCStep()` unless the allocator is `kSnapshot`, then `malloc(size)` and
`heap_size_ += size`.  `random` holds the three values the `GCStep` samples, `addr` is the
address that `malloc` returns and `raw` the contents of the block, which are not initialised.
`malloc` returns the address of an aligned block that is not in use; for null the call does not
return (`FATAL1`). -/
def Allocate (h : Heap) (size : Nat) (allocator : Allocator) (random : Nat × Nat × Nat)
    (addr : Nat) (raw : Layout) : Option Heap :=
  (if allocator ≠ Allocator.kSnapshot then GCStep h random.1 random.2.1 random.2.2
   else some h).bind fun h1 =>
  if addr = 0 ∨ addr % 2 = 1 ∨ (h1.memory (FromAddr addr)).isSome then none
  else some { h1 with heap_size_ := h1.heap_size_ + (size : Int),
                      memory := Function.update h1.memory (FromAddr addr) (some raw) }

/-- The heap size that an allocator of `vm/heap.h` computes, `AllocationSize(size)`, as a
machine word: the argument `size`, the sum of the payload and the layout, is computed in
`size_t`, so modulo `2^64`, and the `intptr_t` result is given as the 64-bit word that holds it
(`Utils::RoundUp` wraps in the same way).  `Allocate` adds this word to `heap_size_`, and
`Initialize` shifts it into the size tag. -/
def AllocationWord (size : Nat) : Nat := AllocationSize (size % 2 ^ 64) % 2 ^ 64

/-- `Heap::AllocateArray`: the new array and the heap after the call. -/
def AllocateArray (h : Heap) (num_slots : Nat) (allocator : Allocator)
    (random : Nat × Nat × Nat) (addr : Nat) (raw : Layout) : Option (Object × Heap) :=
  let heap_size := AllocationWord (num_slots * sizeofRef + sizeofArrayLayout)
  (Allocate h heap_size allocator random addr raw).bind fun h1 =>
  let obj := FromAddr addr
  (h1.modify obj fun l => l.Initialize kArrayCid heap_size).bind fun h2 =>
  (RegisterInstance h2 obj).bind fun h3 =>
  (h3.modify obj fun l => { l with size_ := SmallInteger.New (num_slots : Int) }).map fun h4 =>
    (obj, h4)

/-- The objects of the object table, in the order of the table. -/
def tableObjects (h : Heap) : List Object :=
  (List.range' 1 (h.table_size_ - 1)).map h.table_

/-- `HeapSize()` of the object `o`. -/
def Heap.sizeOf (h : Heap) (o : Object) : Nat :=
  match h.load o with
  | some l => l.HeapSize
  | none => 0

/-- The sum of `HeapSize()` over the objects in the object table. -/
def tableHeapSize (h : Heap) : Nat := ((tableObjects h).map h.sizeOf).sum

/-- The heap-size accounting: `heap_size_` is the sum of `HeapSize()` over the objects in the
object table. -/
def Accounted (h : Heap) : Prop := h.heap_size_ = (tableHeapSize h : Int)

/-- Every object outside `X` that has storage before and after has the same identity hash. -/
def HashStable (X : Object → Prop) (h h' : Heap) : Prop :=
  ∀ o l l', ¬ X o → h.load o = some l → h'.load o = some l' → l'.header_hash = l.header_hash

/-- The heap `becomeHeap` with the heap size that the accounting gives. -/
def becomeHeapAccounted : Heap :=
  { becomeHeap with heap_size_ := (tableHeapSize becomeHeap : Int) }

/-- The heap `becomeHeap` after the become of `[a]` into `[b]`, in which the element of the
array at 13 has then been set to the forwarding corpse `a` at 7. -/
def becomeHeapBack : Heap :=
  (Update (becomeResult becomeHeap 13 15).2 (.slot 13 0) 13 7).getD becomeHeap

/-- The heap `cycleHeap` with the storage of an array without elements at 11 that `Initialize`
has set up and that is not yet registered. -/
def unregisteredHeap : Heap :=
  cycleHeap.store 11 ((Layout.sample kArrayCid 0 [] []).Initialize kArrayCid 64)

/-- The heap `cycleHeap` after `Unlink` of the array at 7. -/
def cycleHeapUnlinked : Heap := (Unlink cycleHeap 7).getD cycleHeap

end psoup


namespace psoup

/-- The relation `P` holds across any change of the hash/index word or the in-class-table
bit. -/
def RespectsHeader (P : Layout → Layout → Prop) : Prop :=
  (∀ w l, P l { l with header_hash_ := w }) ∧ (∀ b l, P l { l with in_class_table := b })

/-- The heap `cycleHeap` with the heap size that the accounting gives. -/
def cycleHeapAccounted : Heap :=
  { cycleHeap with heap_size_ := (tableHeapSize cycleHeap : Int) }

end psoup


namespace psoup

/-! ## The class table -/

/-- `class_table_[cls.id().value()] == cls`, for an object `cls` whose class id slot holds a
small integer. -/
def Behavior.registered (h : Heap) (cls : Object) : Prop :=
  ∃ id, Behavior.id h cls = some id ∧ IsSmallInteger id ∧
    ClassAt h (SmallInteger.value id) = some cls

/-- The class-table invariant as the specification states it: an object of the object table has
its in-class-table bit set if and only if `class_table_[cls.id().value()] == cls`. -/
def ClassTableInv (h : Heap) : Prop :=
  ∀ cls l, InTable h cls → h.load cls = some l →
    (l.in_class_table = true ↔ Behavior.registered h cls)

/-- The class table in order: it has at most `2^32` entries (class ids are 32-bit fields); an
object of the object table whose in-class-table bit is set holds a class id `k` in its class id
slot and is the entry `k` of the class table; and an entry of the class table that is a heap
object is at a legal class id below `class_table_size_`, is in the object table, has its
in-class-table bit set and holds its class id. -/
structure Registry (h : Heap) : Prop where
  small : h.class_table_size_ ≤ 2 ^ 32
  registered : ∀ c l, InTable h c → h.load c = some l → l.in_class_table = true →
    ∃ k : Nat, l.refs[Behavior.classid_index]? = some (SmallInteger.New (k : Int)) ∧
      h.class_table_ k = c
  entries : ∀ k, IsHeapObject (h.class_table_ k) →
    kFirstLegalCid ≤ k ∧ k < h.class_table_size_ ∧ InTable h (h.class_table_ k) ∧
    ∃ l, h.load (h.class_table_ k) = some l ∧ l.in_class_table = true ∧
      l.refs[Behavior.classid_index]? = some (SmallInteger.New (k : Int))

/-- The in-class-table bit is the same and every Ref that holds a small integer holds it
still. -/
def Layout.SameIds (l l' : Layout) : Prop :=
  l'.in_class_table = l.in_class_table ∧
  ∀ (i : Nat) (w : Object), l.refs[i]? = some w → IsSmallInteger w → l'.refs[i]? = some w

/-- The relation `P` between the storage of an object before and after holds when nothing was
done, composes, and holds across `Ref::UpdateNoCheck` of a Ref whose target is a heap object. -/
structure RespectsHeap (P : Layout → Layout → Prop) : Prop where
  refl : ∀ l, P l l
  trans : ∀ a b c, P a b → P b c → P a c
  retarget : ∀ r t v o l, IsHeapObject t → (∀ i, r = RefPtr.slot o i → l.refs[i]? = some t) →
    P l (Layout.retarget r t v o l)

/-- The heap `g` in the loop of `ForwardClassIds` before the class id `p` is visited, `h1` being
the heap after the second loop of `BecomeForward` with the forwarders `F` and the forwardees
`G`.  The object table, the size of the class table and nil are those of `h1`, and so are the
class id field, the in-class-table bit and the hash/index word of every object.  An object of the
object table whose in-class-table bit is set either holds a class id in its class id slot and is
the entry of that class id, or holds nil and is the forwardee of a forwarder that is an entry
still to be visited.  An entry of the class table that is a heap object is at a legal class id
below `class_table_size_` and is either an object of the object table whose in-class-table bit is
set and which holds this class id, or a forwarder whose forwardee is in the object table with its
in-class-table bit set. -/
structure Renumbering (h1 : Heap) (F G : List Object) (p : Nat) (g : Heap) : Prop where
  table : g.table_ = h1.table_ ∧ g.table_size_ = h1.table_size_
  size : g.class_table_size_ = h1.class_table_size_
  nil : g.interpreter_.nil_obj = h1.interpreter_.nil_obj
  present : ∀ o l1, h1.load o = some l1 → ∃ l, g.load o = some l ∧ l.cid = l1.cid ∧
    l.in_class_table = l1.in_class_table ∧ l.header_hash_ = l1.header_hash_
  registered : ∀ c l, InTable h1 c → g.load c = some l → l.in_class_table = true →
    (∃ k : Nat, l.refs[Behavior.classid_index]? = some (SmallInteger.New (k : Int)) ∧
      g.class_table_ k = c) ∨
    (l.refs[Behavior.classid_index]? = some g.interpreter_.nil_obj ∧
      ∃ k i : Nat, p ≤ k ∧ G[i]? = some c ∧ F[i]? = some (g.class_table_ k))
  entries : ∀ k, IsHeapObject (g.class_table_ k) →
    kFirstLegalCid ≤ k ∧ k < g.class_table_size_ ∧
    ((InTable h1 (g.class_table_ k) ∧ ∃ l, g.load (g.class_table_ k) = some l ∧
        l.in_class_table = true ∧
        l.refs[Behavior.classid_index]? = some (SmallInteger.New (k : Int))) ∨
     (∃ (i : Nat) (y : Object) (l : Layout), F[i]? = some (g.class_table_ k) ∧
        G[i]? = some y ∧ InTable h1 y ∧ g.load y = some l ∧ l.in_class_table = true))

/-- The heap `g` in `ForwardRoots` and `ForwardHeap`, `h2` being the heap after
`ForwardClassIds`: the object table and the class table are those of `h2`; the objects with
storage are the same; every object has its in-class-table bit, its hash/index word and the small
integers its Refs hold; an object outside the object table has its class id field; and no
object has become a forwarding corpse. -/
structure Migrating (h2 g : Heap) : Prop where
  table : g.table_ = h2.table_ ∧ g.table_size_ = h2.table_size_
  class_table : g.class_table_ = h2.class_table_ ∧ g.class_table_size_ = h2.class_table_size_
  absent : ∀ o, h2.load o = none → g.load o = none
  present : ∀ o l2, h2.load o = some l2 → ∃ l, g.load o = some l ∧ Layout.SameIds l2 l ∧
    l.header_hash_ = l2.header_hash_ ∧ (¬ InTable h2 o → l.cid = l2.cid) ∧
    (l2.cid ≠ kForwardingCorpseCid → l.cid ≠ kForwardingCorpseCid)

/-- Boolean check of `Registry`, for the class ids below `class_table_size_`. -/
def checkRegistry (h : Heap) : Bool :=
  decide (h.class_table_size_ ≤ 2 ^ 32) &&
  ((List.range h.table_size_).all fun i =>
    decide (i = 0) ||
    match h.load (h.table_ i) with
    | none => true
    | some l =>
      !l.in_class_table ||
      (List.range h.class_table_size_).any fun k =>
        decide (l.refs[Behavior.classid_index]? = some (SmallInteger.New (k : Int))) &&
        decide (h.class_table_ k = h.table_ i)) &&
  ((List.range h.class_table_size_).all fun k =>
    !decide (IsHeapObject (h.class_table_ k)) ||
    (decide (kFirstLegalCid ≤ k) && inTable h (h.class_table_ k) &&
      match h.load (h.class_table_ k) with
      | none => false
      | some l =>
        l.in_class_table &&
        decide (l.refs[Behavior.classid_index]? = some (SmallInteger.New (k : Int)))))

/-- The heap of the class scenarios with an object `Y` at 17 in place of the array at 17: the
class `C1` at 7 is registered under the class id 14 and the class `C2` at 9 under the class id
15; `Y` has the layout of a behavior, its in-class-table bit is clear and its class id slot
holds the small integer 15; the arrays at 13 and 15 are `[C1]` and `[Y]`. -/
def staleIdHeap : Heap :=
  { Heap.sample [0, 1, 3, 5, 7, 9, 11, 13, 15, 17] [1, 3, 5, 9, 11, 13, 15] []
    [(1, Layout.sample 17 1
        [.root 0, .slot 7 0, .slot 7 1, .slot 7 2, .slot 7 3, .slot 7 4,
          .slot 9 0, .slot 9 1, .slot 9 2, .slot 9 3, .slot 9 4,
          .slot 17 0, .slot 17 1, .slot 17 2, .slot 17 3, .slot 17 4] []),
     (3, Layout.sample 18 2 [.root 1] []),
     (5, Layout.sample 19 3 [.root 2] []),
     (7, Layout.sampleClass 4 77 [.slot 11 0, .slot 13 0] (SmallInteger.New 14) true),
     (9, Layout.sampleClass 5 88 [.root 3] (SmallInteger.New 15) true),
     (11, Layout.sample 14 6 [.root 4] [7]),
     (13, Layout.sample kArrayCid 7 [.root 5] [7]),
     (15, Layout.sample kArrayCid 8 [.root 6] [17]),
     (17, Layout.sampleClass 9 99 [.slot 15 0] (SmallInteger.New 15) false)] with
    class_table_ := fun cid => if cid = 14 then 7 else if cid = 15 then 9 else 0,
    class_table_size_ := 24 }

/-- A heap with nil, true and false, which are roots, and a class at 7 that is registered under
the class id 14 and that nothing references. -/
def deadClassHeap : Heap :=
  { Heap.sample [0, 1, 3, 5, 7] [1, 3, 5] []
    [(1, Layout.sample 17 1
        [.root 0, .slot 7 0, .slot 7 1, .slot 7 2, .slot 7 3, .slot 7 4] []),
     (3, Layout.sample 18 2 [.root 1] []),
     (5, Layout.sample 19 3 [.root 2] []),
     (7, Layout.sampleClass 4 77 [] (SmallInteger.New 14) true)] with
    class_table_ := fun cid => if cid = 14 then 7 else 0,
    class_table_size_ := 24 }

/-- The heap `deadClassHeap` after a `GCStep` whose first round samples the class at 7. -/
def deadClassHeapCollected : Heap := (GCStep deadClassHeap 4 1 2).getD deadClassHeap

end psoup


namespace psoup

/-! ## Handle scopes (`vm/heap.h`) and the checks of `HeapObject::Initialize` (`vm/object.h`) -/

/-- `Heap::kHandlesCapacity`. -/
def Heap.kHandlesCapacity : Nat := 8

/-- The members `handles_` and `handles_size_` of `Heap` as `HandleScope` reads and writes them:
the array of the pointers `Object*` (as addresses) and the number of entries in use. -/
structure HandleStack where
  handles_ : Nat → Nat
  handles_size_ : Int

/-- The constructor `HandleScope::HandleScope(heap, ptr)`:
`heap_->handles_[heap_->handles_size_++] = ptr`.  The array has `kHandlesCapacity` entries; a
write outside it has no defined result. -/
def HandleScope.construct (s : HandleStack) (ptr : Nat) : Option HandleStack :=
  if 0 ≤ s.handles_size_ ∧ s.handles_size_ < (Heap.kHandlesCapacity : Int) then
    some { handles_ := Function.update s.handles_ s.handles_size_.toNat ptr,
           handles_size_ := s.handles_size_ + 1 }
  else none

/-- The destructor `HandleScope::~HandleScope()`: `heap_->handles_size_--`. -/
def HandleScope.destruct (s : HandleStack) : HandleStack :=
  { s with handles_size_ := s.handles_size_ - 1 }

/-- The handle stack of a new heap: `handles_size_` is 0 and no entry is in use. -/
def HandleStack.empty : HandleStack :=
  { handles_ := fun _ => 0, handles_size_ := 0 }

/-- What a block of code does to the handle stack: it constructs a `HandleScope` for a pointer
or it destroys the `HandleScope` constructed last. -/
inductive ScopeEvent where
  | enter (ptr : Nat)
  | leave
  deriving DecidableEq, Repr

/-- The handle stack after a sequence of constructions and destructions. -/
def HandleScope.run : HandleStack → List ScopeEvent → Option HandleStack
  | s, [] => some s
  | s, .enter ptr :: rest => (HandleScope.construct s ptr).bind fun s1 => HandleScope.run s1 rest
  | s, .leave :: rest => HandleScope.run (HandleScope.destruct s) rest

/-- The number of scopes that are open after the sequence, when `depth` scopes of the sequence
are open before it; `none` when the sequence destroys a scope it has not constructed. -/
def ScopeEvent.depth : Nat → List ScopeEvent → Option Nat
  | depth, [] => some depth
  | depth, .enter _ :: rest => ScopeEvent.depth (depth + 1) rest
  | depth, .leave :: rest => if depth = 0 then none else ScopeEvent.depth (depth - 1) rest

/-- The largest number of scopes that are open at one time during the sequence, when `depth`
scopes of the sequence are open before it. -/
def ScopeEvent.peak : Nat → List ScopeEvent → Nat
  | depth, [] => depth
  | depth, .enter _ :: rest => max depth (ScopeEvent.peak (depth + 1) rest)
  | depth, .leave :: rest => max depth (ScopeEvent.peak (depth - 1) rest)

/-- `HeapObject::Initialize` in a build in which `ASSERT` is compiled in: `none` when one of
its assertions fails. -/
def Layout.InitializeChecked (l : Layout) (cid : Nat) (heap_size : Nat) : Option Layout :=
  if cid = kIllegalCid then none
  else if heap_size &&& kObjectAlignmentMask ≠ 0 then none
  else if ¬ 0 < heap_size then none
  else if ¬ SizeField.is_valid (heap_size >>> kObjectAlignmentLog2) ∧
      ¬ cid < kFirstRegularObjectCid then none
  else if (l.Initialize cid heap_size).cid ≠ cid then none
  else if (l.Initialize cid heap_size).is_marked = true then none
  else some (l.Initialize cid heap_size)

end psoup


namespace psoup

/-! ## The allocators of `vm/heap.h` -/

/-- `sizeof(WeakArray::Layout)`: `header_`, `header_hash_`, the two pointers of `incoming_`, and
`size_`. -/
def sizeofWeakArrayLayout : Nat := 5 * kWordSize

/-- `sizeof(ByteArray::Layout)`: `header_`, `header_hash_`, the two pointers of `incoming_`, and
`size_`. -/
def sizeofByteArrayLayout : Nat := 5 * kWordSize

/-- `sizeof(RegularObject::Layout)`: `header_`, `header_hash_`, the two pointers of `incoming_`,
and the Ref `klass_`. -/
def sizeofRegularObjectLayout : Nat := 4 * kWordSize + sizeofRef

/-- `sizeof(uint8_t)`. -/
def sizeofUint8 : Nat := 1

/-- The statements that the allocators of `vm/heap.h` share: `Allocate`,
`HeapObject::Initialize` and `RegisterInstance`. -/
def AllocateObject (h : Heap) (cid : Nat) (heap_size : Nat) (allocator : Allocator)
    (random : Nat × Nat × Nat) (addr : Nat) (raw : Layout) : Option (Object × Heap) :=
  (Allocate h heap_size allocator random addr raw).bind fun h1 =>
  let obj := FromAddr addr
  (h1.modify obj fun l => l.Initialize cid heap_size).bind fun h2 =>
  (RegisterInstance h2 obj).map fun h3 => (obj, h3)

/-- `Array::init_size`, `WeakArray::init_size`, `Bytes::init_size`: `ptr()->size_ = s`. -/
def init_size (h : Heap) (obj : Object) (s : Object) : Option Heap :=
  h.modify obj fun l => { l with size_ := s }

/-- `Heap::AllocateWeakArray`: the new weak array and the heap after the call. -/
def AllocateWeakArray (h : Heap) (num_slots : Nat) (allocator : Allocator)
    (random : Nat × Nat × Nat) (addr : Nat) (raw : Layout) : Option (Object × Heap) :=
  let heap_size := AllocationWord (num_slots * sizeofRef + sizeofWeakArrayLayout)
  (Allocate h heap_size allocator random addr raw).bind fun h1 =>
  let obj := FromAddr addr
  (h1.modify obj fun l => l.Initialize kWeakArrayCid heap_size).bind fun h2 =>
  (RegisterInstance h2 obj).bind fun h3 =>
  (init_size h3 obj (SmallInteger.New (num_slots : Int))).map fun h4 =>
    (obj, h4)

/-- `Heap::AllocateByteArray`: the new byte array and the heap after the call. -/
def AllocateByteArray (h : Heap) (num_bytes : Nat) (allocator : Allocator)
    (random : Nat × Nat × Nat) (addr : Nat) (raw : Layout) : Option (Object × Heap) :=
  let heap_size := AllocationWord (num_bytes * sizeofUint8 + sizeofByteArrayLayout)
  (Allocate h heap_size allocator random addr raw).bind fun h1 =>
  let obj := FromAddr addr
  (h1.modify obj fun l => l.Initialize kByteArrayCid heap_size).bind fun h2 =>
  (RegisterInstance h2 obj).bind fun h3 =>
  (init_size h3 obj (SmallInteger.New (num_bytes : Int))).map fun h4 =>
    (obj, h4)

/-- `RegularObject::init_klass`: `Init<Behavior>(&ptr()->klass_, value)`. -/
def init_klass (h : Heap) (obj : Object) (value : Object) : Option Heap :=
  Ref_Init h (.slot obj RegularObject.klass_index) obj value

/-- `Heap::AllocateRegularObject`: the new object and the heap after the call.  The class is
read from the class table and `klass_` is initialised unless the allocator is `kSnapshot`. -/
def AllocateRegularObject (h : Heap) (cid : Nat) (num_slots : Nat) (allocator : Allocator)
    (random : Nat × Nat × Nat) (addr : Nat) (raw : Layout) : Option (Object × Heap) :=
  let heap_size := AllocationWord (num_slots * sizeofRef + sizeofRegularObjectLayout)
  (Allocate h heap_size allocator random addr raw).bind fun h1 =>
  let obj := FromAddr addr
  (h1.modify obj fun l => l.Initialize cid heap_size).bind fun h2 =>
  (RegisterInstance h2 obj).bind fun h3 =>
  (if allocator ≠ Allocator.kSnapshot then init_klass h3 obj (h3.class_table_ cid)
   else some h3).map fun h4 =>
    (obj, h4)

/-- The members of the heap other than the object table, its size and capacity, the heap size
and the memory are the same. -/
def Heap.SameRest (h h' : Heap) : Prop :=
  h'.class_table_ = h.class_table_ ∧ h'.class_table_size_ = h.class_table_size_ ∧
  h'.class_table_capacity_ = h.class_table_capacity_ ∧
  h'.class_table_free_ = h.class_table_free_ ∧ h'.worklist_ = h.worklist_ ∧
  h'.interpreter_ = h.interpreter_ ∧ h'.handles_ = h.handles_ ∧ h'.gc_count_ = h.gc_count_

/-- What an allocation in snapshot mode does to the heap `h`: `obj` is a heap object that had no
storage; every other object has the storage it had, with every header bit, slot and incoming
list; the object table has the entries it had and `obj` at the index `table_size_`, so no object
has left it; `heap_size_` has grown by `heap_size`; the capacity of the table has not shrunk,
and no other member of the heap has changed. -/
structure SnapshotFrame (h : Heap) (obj : Object) (heap_size : Nat) (h' : Heap) : Prop where
  fresh : IsHeapObject obj ∧ h.load obj = none
  others : ∀ o, o ≠ obj → h'.load o = h.load o
  table : ∀ i, i < h.table_size_ → h'.table_ i = h.table_ i
  appended : h'.table_ h.table_size_ = obj ∧ h'.table_size_ = h.table_size_ + 1
  stays : ∀ o, InTable h o → InTable h' o
  heap_size : h'.heap_size_ = h.heap_size_ + (heap_size : Int)
  capacity : h.table_capacity_ ≤ h'.table_capacity_
  rest : Heap.SameRest h h'

/-- The block that `malloc` returns at `addr` for the heap `h`: the address is not null, it is
aligned, and the block is not the storage of an object of `h`. -/
def Heap.fresh (h : Heap) (addr : Nat) : Prop :=
  addr ≠ 0 ∧ addr % 2 = 0 ∧ h.memory (FromAddr addr) = none

/-- The postcondition of the allocators for the object `obj` in the heap `h'`, allocated for the
class id `cid` and `n` elements with the heap size `heap_size`. -/
structure Allocated (h' : Heap) (obj : Object) (cid : Nat) (n : Nat) (heap_size : Nat) :
    Prop where
  heap_object : IsHeapObject obj
  last : 1 ≤ h'.table_size_ ∧ h'.table_ (h'.table_size_ - 1) = obj
  in_table : InTable h' obj
  storage : ∃ l, h'.load obj = some l ∧ l.cid = cid ∧ SmallInteger.value l.size_ = (n : Int) ∧
    l.incoming_ = [] ∧ l.is_marked = false ∧ l.header_hash = 0 ∧ l.HeapSize = heap_size ∧
    l.table_index = h'.table_size_ - 1

end psoup


namespace psoup

/-! ## Class ids released by a reclamation -/

/-- The class id that `Heap::Free` releases for the object `x`: `id()->value()` when the
in-class-table bit of `x` is set. -/
def releasedId (h : Heap) (x : Object) : Option Int :=
  match h.load x with
  | none => none
  | some l =>
    if l.in_class_table = true then
      (l.refs[Behavior.classid_index]?).map SmallInteger.value
    else none

/-- The class ids that `Heap::Free` releases for the objects `xs`, in the order of `xs`. -/
def releasedIds (h : Heap) (xs : List Object) : List Int :=
  xs.filterMap (releasedId h)

/-- The class ids `ids` were released in this order from the head `f` of the free list: the
entry of the first one holds the small integer `f`, the entry of each other one holds the one
released before it, and `class_table_free_` is the one released last (`f` when there is
none). -/
def ReleasedChain (g : Heap) : Int → List Int → Prop
  | f, [] => g.class_table_free_ = f
  | f, c :: rest => g.class_table_ c.toNat = SmallInteger.New f ∧ ReleasedChain g c rest

/-- A heap with nil, true and false, which are roots, a class at 7 that is registered under the
class id 14 and a class at 9 that is registered under the class id 15.  The first Ref of each
of the two classes has the other class as its target, and nothing else references them. -/
def deadClassesHeap : Heap :=
  { Heap.sample [0, 1, 3, 5, 7, 9] [1, 3, 5] []
    [(1, Layout.sample 17 1
        [.root 0, .slot 7 1, .slot 7 2, .slot 7 3, .slot 7 4,
          .slot 9 1, .slot 9 2, .slot 9 3, .slot 9 4] []),
     (3, Layout.sample 18 2 [.root 1] []),
     (5, Layout.sample 19 3 [.root 2] []),
     (7, { Layout.sampleClass 4 77 [.slot 9 0] (SmallInteger.New 14) true with
           refs := [9, 1, 1, 1, 1, SmallInteger.New 14, SmallInteger.New 0] }),
     (9, { Layout.sampleClass 5 88 [.slot 7 0] (SmallInteger.New 15) true with
           refs := [7, 1, 1, 1, 1, SmallInteger.New 15, SmallInteger.New 0] })] with
    class_table_ := fun cid => if cid = 14 then 7 else if cid = 15 then 9 else 0,
    class_table_size_ := 24 }

/-- The heap `deadClassesHeap` after `CheckReachable` of the class at 7. -/
def deadClassesHeapChecked : Heap :=
  ((CheckReachable deadClassesHeap 7).getD (true, deadClassesHeap)).2

/-- The heap `deadClassesHeap` after a round of `GCStep` that samples the class at 7. -/
def deadClassesHeapRound : Heap := (GCStep.round deadClassesHeap 4).getD deadClassesHeap

end psoup


namespace psoup

/-! ## Heaps for concrete runs of `Unlink` -/

/-- An ephemeron `E` at 7 whose Ref `klass_` has the object `C` at 9 as its target, whose key is
the object `K` at 11 and whose value and finalizer are nil.  `C` is also the target of a root
Ref; nothing references `E`, and `E` alone references `K`. -/
def ephemeronKlassHeap : Heap :=
  Heap.sample [0, 1, 3, 5, 7, 9, 11] [1, 3, 5, 9] []
    [(1, Layout.sample 14 1 [.root 0, .slot 7 2, .slot 7 3] []),
     (3, Layout.sample 14 2 [.root 1] []),
     (5, Layout.sample 14 3 [.root 2] []),
     (7, Layout.sample kEphemeronCid 4 [] [9, 11, 1, 1]),
     (9, Layout.sample 14 5 [.root 3, .slot 7 0] []),
     (11, Layout.sample 14 6 [.slot 7 1] [])]

/-- A weak array `W` at 7 that is the target of a root Ref, an object `T` at 9 and an array `A`
at 11.  The only slot of `W` and the only slot of `A` reference `T`; nothing references `A`. -/
def weakStrongHeap : Heap :=
  Heap.sample [0, 1, 3, 5, 7, 9, 11] [1, 3, 5, 7] []
    [(1, Layout.sample 14 1 [.root 0] []), (3, Layout.sample 14 2 [.root 1] []),
     (5, Layout.sample 14 3 [.root 2] []),
     (7, Layout.sample kWeakArrayCid 4 [.root 3] [9]),
     (9, Layout.sample 14 5 [.slot 7 0, .slot 11 0] []),
     (11, Layout.sample kArrayCid 6 [] [9])]

/-- The heap `weakStrongHeap` after `CheckReachable` of `T`. -/
def weakStrongHeapChecked : Heap :=
  ((CheckReachable weakStrongHeap 9).getD (true, weakStrongHeap)).2

/-- The Refs that are initialised in a heap whose objects all are in the object table: the Refs
of the interpreter and of the objects of the object table that have storage. -/
def Heap.initialised (h : Heap) (r : RefPtr) : Prop :=
  HolderInTable h r ∧ ∃ t, Ref_to h r = some t

end psoup


namespace psoup

/-- The storage `l'` has as many Refs as `l`, and every Ref that does not hold an object of `W`
in `l` holds in `l'` what it holds in `l`. -/
def Layout.SlotsKept (W : Object → Prop) (l l' : Layout) : Prop :=
  l'.refs.length = l.refs.length ∧
  ∀ (i : Nat) (v : Object), l.refs[i]? = some v → ¬ W v → l'.refs[i]? = some v

end psoup


namespace psoup

/-! ## Counting and collecting instances (`vm/heap.cc`) -/

/-- The loop of `Heap::CountInstances` over the indices `i` of the object table, with the
counter `instances`. -/
def CountInstances.loop (h : Heap) (cid : Int) : List Nat → Nat → Option Nat
  | [], instances => some instances
  | i :: rest, instances =>
    (h.load (h.table_ i)).bind fun l =>
      CountInstances.loop h cid rest (if (l.cid : Int) = cid then instances + 1 else instances)

/-- `Heap::CountInstances`. -/
def CountInstances (h : Heap) (cid : Int) : Option Nat :=
  CountInstances.loop h cid (List.range' 1 (h.table_size_ - 1)) 0

/-- `Array::init_element`: `Init(&ptr()->elements_[index], value)`. -/
def Array.init_element (h : Heap) (array : Object) (index : Nat) (value : Object) :
    Option Heap :=
  Ref_Init h (.slot array index) array value

/-- The loop of `Heap::CollectInstances` over the indices `i` of the object table, with the
counter `instances`. -/
def CollectInstances.loop (cid : Int) (array : Object) :
    Heap → List Nat → Nat → Option (Nat × Heap)
  | h, [], instances => some (instances, h)
  | h, i :: rest, instances =>
    (h.load (h.table_ i)).bind fun l =>
      if (l.cid : Int) = cid then
        (Array.init_element h array instances (h.table_ i)).bind fun h1 =>
          CollectInstances.loop cid array h1 rest (instances + 1)
      else CollectInstances.loop cid array h rest instances

/-- `Heap::CollectInstances`: the returned count and the heap after the call. -/
def CollectInstances (h : Heap) (cid : Int) (array : Object) : Option (Nat × Heap) :=
  CollectInstances.loop cid array h (List.range' 1 (h.table_size_ - 1)) 0

/-- The object `o` has storage and `o.cid() == cid`. -/
def isInstance (h : Heap) (cid : Int) (o : Object) : Bool :=
  match h.load o with
  | some l => decide ((l.cid : Int) = cid)
  | none => false

/-- The indices `i` with `1 <= i < table_size_` and `table_[i].cid() == cid`, in increasing
order. -/
def instanceIndices (h : Heap) (cid : Int) : List Nat :=
  (List.range' 1 (h.table_size_ - 1)).filter fun i => isInstance h cid (h.table_ i)

/-- A heap with two byte arrays at 7 and 9, an array `[9]` at 11 and an array of two elements
at 13, which hold the small integer 0.  The arrays at 11 and 13 are the targets of root Refs;
nothing references the byte array at 7. -/
def bytesHeap : Heap :=
  Heap.sample [0, 1, 3, 5, 7, 9, 11, 13] [1, 3, 5, 11, 13] []
    [(1, Layout.sample 14 1 [.root 0] []), (3, Layout.sample 14 2 [.root 1] []),
     (5, Layout.sample 14 3 [.root 2] []),
     (7, Layout.sample kByteArrayCid 4 [] []),
     (9, Layout.sample kByteArrayCid 5 [.slot 11 0] []),
     (11, Layout.sample kArrayCid 6 [.root 3] [9]),
     (13, Layout.sample kArrayCid 7 [.root 4] [0, 0])]

end psoup


namespace psoup

/-! ## The range tests for small integers (`vm/object.h`, `src/vm/object.h`) -/

/-- A machine word of `bits` bits read as `uintptr_t`. -/
def toUwordOf (bits : Nat) (v : Int) : Nat := (v % (2 : Int) ^ bits).toNat

/-- A machine word of `bits` bits read as `intptr_t` (two's complement). -/
def toIntptrOf (bits : Nat) (w : Nat) : Int :=
  if w % 2 ^ bits < 2 ^ (bits - 1) then ((w % 2 ^ bits : Nat) : Int)
  else ((w % 2 ^ bits : Nat) : Int) - (2 : Int) ^ bits

/-- `SmallInteger::kMaxValue` in a build whose words have `bits` bits:
`(static_cast<intptr_t>(1) << kBits) - 1` with `kBits = kBitsPerWord - 2`. -/
def SmallInteger.kMaxValueOf (bits : Nat) : Int :=
  toIntptrOf bits (toUwordOf bits 1 * 2 ^ (bits - 2)) - 1

/-- `SmallInteger::kMinValue` in a build whose words have `bits` bits:
`-(static_cast<intptr_t>(1) << kBits)`. -/
def SmallInteger.kMinValueOf (bits : Nat) : Int :=
  -toIntptrOf bits (toUwordOf bits 1 * 2 ^ (bits - 2))

/-- `SmallInteger::IsSmiValue(intptr_t value)` of `vm/object.h`, in a build whose words have
`bits` bits: `tagged = static_cast<uintptr_t>(value) << kSmiTagShift`,
`untagged = tagged >> kSmiTagShift` (an arithmetic shift), `untagged == value`. -/
def SmallInteger.IsSmiValue (bits : Nat) (value : Int) : Bool :=
  let tagged := toIntptrOf bits (toUwordOf bits value * 2 ^ kSmiTagShift)
  let untagged := tagged / (2 : Int) ^ kSmiTagShift
  decide (untagged = value)

/-- `SmallInteger::IsSmiValue(int64_t value)` of `src/vm/object.h` (and of `vm/object.h` in the
32-bit build): the comparison with `kMinValue` and `kMaxValue`. -/
def src.SmallInteger.IsSmiValue (bits : Nat) (value : Int) : Bool :=
  decide (value ≥ SmallInteger.kMinValueOf bits) && decide (value ≤ SmallInteger.kMaxValueOf bits)

/-- `SmallInteger::IsSmiValue(intptr_t value)` of `src/vm/object.h` (32-bit build):
`(value ^ (value << 1)) >= 0`, the test that the top two bits are equal.  The shift and the
exclusive or are those of the machine, on words of `bits` bits. -/
def src.SmallInteger.IsSmiValue_intptr (bits : Nat) (value : Int) : Bool :=
  decide (toIntptrOf bits (toUwordOf bits value ^^^ (toUwordOf bits value * 2 ^ 1 % 2 ^ bits)) ≥ 0)

/-! ## The alignment constants of `src/vm/object.h` -/

/-- `kObjectAlignment` of `src/vm/object.h`: `2 * kWordSize`. -/
def src.kObjectAlignment : Nat := 2 * kWordSize

/-- `kObjectAlignmentLog2` of `src/vm/object.h`: `kWordSizeLog2 + 1`. -/
def src.kObjectAlignmentLog2 : Nat := kWordSizeLog2 + 1

/-- `kObjectAlignmentMask` of `src/vm/object.h`: `kObjectAlignment - 1`. -/
def src.kObjectAlignmentMask : Nat := src.kObjectAlignment - 1

/-! ## The ranges `[from(), to()]` of the typed objects (`vm/object.h`)

A Ref of an object is named by its index among the Refs of the layout, in address order; an
index can be `-1`, the address before the first Ref, as `to()` of an array without elements
is. -/

/-- `kMaxTemps`. -/
def kMaxTemps : Nat := 35

/-- Index of `Activation::Layout::sender_`. -/
def Activation.sender_index : Nat := 0
/-- Index of `Activation::Layout::bci_`. -/
def Activation.bci_index : Nat := 1
/-- Index of `Activation::Layout::method_`. -/
def Activation.method_index : Nat := 2
/-- Index of `Activation::Layout::closure_`. -/
def Activation.closure_index : Nat := 3
/-- Index of `Activation::Layout::receiver_`. -/
def Activation.receiver_index : Nat := 4
/-- Index of `Activation::Layout::stack_depth_`. -/
def Activation.stack_depth_index : Nat := 5
/-- Index of `Activation::Layout::temps_[index]`. -/
def Activation.temps_index (index : Int) : Int := 6 + index

/-- `Activation::StackDepth`: `stack_depth()->value()`. -/
def Activation.StackDepth (l : Layout) : Option Int :=
  (l.refs[Activation.stack_depth_index]?).map SmallInteger.value

/-- `Activation::from`: `&ptr()->sender_`. -/
def Activation.from (_l : Layout) : Int := (Activation.sender_index : Int)

/-- `Activation::to`: `&ptr()->temps_[kMaxTemps - 1]`. -/
def Activation.to (_l : Layout) : Int := Activation.temps_index ((kMaxTemps : Int) - 1)

/-- `Activation::to` of `src/vm/object.h`: `&ptr()->temps_[stack_depth() - 1]`. -/
def src.Activation.to (l : Layout) : Option Int :=
  (Activation.StackDepth l).map fun depth => Activation.temps_index (depth - 1)

/-- `RegularObject::from`: `&ptr()->klass_`. -/
def RegularObject.from (_l : Layout) : Int := (RegularObject.klass_index : Int)

/-- `RegularObject::to`: `&ptr()->slots_[num_slots - 1]` with
`num_slots = (heap_size() - sizeof(RegularObject::Layout)) / sizeof(Ref)`, computed in
`size_t`; `slots_[0]` is the Ref after `klass_`. -/
def RegularObject.to (l : Layout) : Int :=
  let num_slots :=
    toIntptr (((l.heap_size + (2 ^ 64 - sizeofRegularObjectLayout)) % 2 ^ 64) / sizeofRef)
  (RegularObject.klass_index : Int) + 1 + (num_slots - 1)

/-- `Array::from`: `&ptr()->elements_[0]`. -/
def Array.from (_l : Layout) : Int := 0

/-- `Array::to`: `&ptr()->elements_[Size() - 1]`. -/
def Array.to (l : Layout) : Int := SmallInteger.value l.size_ - 1

/-- `WeakArray::from`: `&ptr()->elements_[0]`. -/
def WeakArray.from (_l : Layout) : Int := 0

/-- `WeakArray::to`: `&ptr()->elements_[Size() - 1]`. -/
def WeakArray.to (l : Layout) : Int := SmallInteger.value l.size_ - 1

/-- Index of `Ephemeron::Layout::klass_`. -/
def Ephemeron.klass_index : Nat := 0
/-- Index of `Ephemeron::Layout::key_`. -/
def Ephemeron.key_index : Nat := 1
/-- Index of `Ephemeron::Layout::value_`. -/
def Ephemeron.value_index : Nat := 2
/-- Index of `Ephemeron::Layout::finalizer_`. -/
def Ephemeron.finalizer_index : Nat := 3

/-- `Ephemeron::from`: `&ptr()->key_`. -/
def Ephemeron.from (_l : Layout) : Int := (Ephemeron.key_index : Int)

/-- `Ephemeron::to`: `&ptr()->finalizer_`. -/
def Ephemeron.to (_l : Layout) : Int := (Ephemeron.finalizer_index : Int)

/-- Index of `Closure::Layout::defining_activation_`. -/
def Closure.defining_activation_index : Nat := 0
/-- Index of `Closure::Layout::initial_bci_`. -/
def Closure.initial_bci_index : Nat := 1
/-- Index of `Closure::Layout::num_args_`. -/
def Closure.num_args_index : Nat := 2
/-- Index of `Closure::Layout::copied_[index]`. -/
def Closure.copied_index (index : Int) : Int := 3 + index

/-- `Closure::from`: `&ptr()->defining_activation_`. -/
def Closure.from (_l : Layout) : Int := (Closure.defining_activation_index : Int)

/-- `Closure::to`: `&ptr()->copied_[NumCopied() - 1]`; `num_copied_` is the field `size_` of
the storage. -/
def Closure.to (l : Layout) : Int := Closure.copied_index (SmallInteger.value l.size_ - 1)

/-- The Refs that a loop `for (Ref* ptr = from; ptr <= to; ptr++)` visits. -/
def RefRange (from_ to_ : Int) : List Nat :=
  List.range' from_.toNat (to_ + 1 - from_).toNat

/-- The range `[from(), to()]` of an object with the storage `l`, by its class id: the typed
accessor that belongs to the class id; objects without Refs have the empty range. -/
def Layout.range (l : Layout) : List Nat :=
  if l.cid = kArrayCid then RefRange (Array.from l) (Array.to l)
  else if l.cid = kWeakArrayCid then RefRange (WeakArray.from l) (WeakArray.to l)
  else if l.cid = kEphemeronCid then RefRange (Ephemeron.from l) (Ephemeron.to l)
  else if l.cid = kActivationCid then RefRange (Activation.from l) (Activation.to l)
  else if l.cid = kClosureCid then RefRange (Closure.from l) (Closure.to l)
  else if kFirstRegularObjectCid ≤ l.cid then RefRange (RegularObject.from l) (RegularObject.to l)
  else []

/-- The storage of an activation whose stack depth is `depth`: the six fixed Refs and the
`kMaxTemps` temporaries, all nil (at 1) but for `bci_` and `stack_depth_`. -/
def Layout.sampleActivation (index : Nat) (depth : Int) : Layout :=
  { Layout.sample kActivationCid index []
      ([1, SmallInteger.New 0, 1, 1, 1, SmallInteger.New depth] ++ List.replicate kMaxTemps 1) with
    size_field := 84 }

end psoup


namespace psoup

/-! ## A heap in which an ephemeron is allocated -/

/-- A heap with nil, true and false and the class `C` of the ephemerons at 7, registered under
the class id `kEphemeronCid`; all four are targets of root Refs. -/
def ephemeronClassHeap : Heap :=
  { Heap.sample [0, 1, 3, 5, 7] [1, 3, 5, 7] []
    [(1, Layout.sample 17 1
        [.root 0, .slot 7 0, .slot 7 1, .slot 7 2, .slot 7 3, .slot 7 4] []),
     (3, Layout.sample 18 2 [.root 1] []),
     (5, Layout.sample 19 3 [.root 2] []),
     (7, Layout.sampleClass 4 77 [.root 3] (SmallInteger.New kEphemeronCid) true)] with
    class_table_ := fun cid => if cid = kEphemeronCid then 7 else 0,
    class_table_size_ := 24 }

/-- The contents of a block of four Refs before it is initialised. -/
def rawEphemeron : Layout :=
  { Layout.sample 0 0 [] [0, 0, 0, 0] with size_field := 0, size_ := 0 }

/-- The ephemeron that `AllocateRegularObject(kEphemeronCid, 3)` returns in
`ephemeronClassHeap`, its `GCStep` sampling the unused entry 0 three times and `malloc`
returning the address 16, and the heap after the call. -/
def ephemeronAllocated : Object × Heap :=
  (AllocateRegularObject ephemeronClassHeap kEphemeronCid 3 Allocator.kNormal (0, 0, 0) 16
    rawEphemeron).getD (0, ephemeronClassHeap)

/-- The heap `ephemeronAllocated` in which key, value and finalizer of the new ephemeron have
been initialised with nil. -/
def ephemeronInitialised : Heap :=
  (((Ref_Init ephemeronAllocated.2 (.slot 17 1) 17 1).bind fun h1 =>
    (Ref_Init h1 (.slot 17 2) 17 1).bind fun h2 =>
    Ref_Init h2 (.slot 17 3) 17 1)).getD ephemeronClassHeap

/-- The heap `ephemeronInitialised` after a round of `GCStep` that samples the ephemeron, which
nothing references. -/
def ephemeronReclaimed : Heap :=
  (GCStep.round ephemeronInitialised 5).getD ephemeronClassHeap

end psoup


namespace psoup

/-! ## A heap in which an ephemeron and its class are unreachable -/

/-- A heap with nil, true and false, which are roots, the class `C` at 7, registered under the
class id `kEphemeronCid`, and an ephemeron `E` at 9 whose Ref `klass_` has `C` as its target and
whose key, value and finalizer are nil.  `E` alone references `C`, and nothing references
`E`. -/
def deadEphemeronHeap : Heap :=
  { Heap.sample [0, 1, 3, 5, 7, 9] [1, 3, 5] []
    [(1, Layout.sample 17 1
        [.root 0, .slot 7 0, .slot 7 1, .slot 7 2, .slot 7 3, .slot 7 4,
          .slot 9 1, .slot 9 2, .slot 9 3] []),
     (3, Layout.sample 18 2 [.root 1] []),
     (5, Layout.sample 19 3 [.root 2] []),
     (7, Layout.sampleClass 4 77 [.slot 9 0] (SmallInteger.New kEphemeronCid) true),
     (9, Layout.sample kEphemeronCid 5 [] [7, 1, 1, 1])] with
    class_table_ := fun cid => if cid = kEphemeronCid then 7 else 0,
    class_table_size_ := 24 }

/-- The heap `deadEphemeronHeap` after `CheckReachable` of the class `C`. -/
def deadEphemeronChecked : Heap :=
  ((CheckReachable deadEphemeronHeap 7).getD (true, deadEphemeronHeap)).2

/-- The heap `deadEphemeronChecked` after the first loop of the unreachable branch of
`GCStep`, which has applied `Unlink` to every worklist object. -/
def deadEphemeronUnlinked : Heap :=
  ((GCStep.unlink deadEphemeronChecked false deadEphemeronChecked.worklist_).getD
    (deadEphemeronHeap, false)).1

end psoup


namespace psoup

/-! ## A heap in which `CheckReachable` returns true from the middle of an incoming list -/

/-- An object `T` at 7 whose incoming list holds a Ref of the weak array `W` at 9 and a Ref of
the array `A` at 11; the incoming list of `A` holds a Ref of the array `B` at 13, a root Ref and
a Ref of the array `D` at 15, in this order.  `W` is the target of a root Ref, and nothing
references `B` and `D`. -/
def midListHeap : Heap :=
  Heap.sample [0, 1, 3, 5, 7, 9, 11, 13, 15] [1, 3, 5, 9, 11] []
    [(1, Layout.sample 14 1 [.root 0] []), (3, Layout.sample 14 2 [.root 1] []),
     (5, Layout.sample 14 3 [.root 2] []),
     (7, Layout.sample 14 4 [.slot 9 0, .slot 11 0] []),
     (9, Layout.sample kWeakArrayCid 5 [.root 3] [7]),
     (11, Layout.sample kArrayCid 6 [.slot 13 0, .root 4, .slot 15 0] [7]),
     (13, Layout.sample kArrayCid 7 [] [11]),
     (15, Layout.sample kArrayCid 8 [] [11])]

/-- The heap `midListHeap` after `CheckReachable` of `T`. -/
def midListHeapChecked : Bool × Heap :=
  (CheckReachable midListHeap 7).getD (false, midListHeap)

/-- The heap `midListHeap` after a `GCStep` whose rounds sample `T`, the array `D` and the
unused entry 0. -/
def midListHeapCollected : Heap := (GCStep midListHeap 4 8 0).getD midListHeap

end psoup


namespace psoup

/-! ## The weak-referent bit across the heap operations -/

/-- The weak-referent bit is the same. -/
def Layout.SameWeakBit (l l' : Layout) : Prop := l'.is_weak_referent = l.is_weak_referent

/-- A weak array `W` at 7 whose only slot holds nil, an object `T` at 9 and an array `A` at 11
whose only slot references `T`.  `W` and `A` are targets of root Refs. -/
def weakWriteHeap : Heap :=
  Heap.sample [0, 1, 3, 5, 7, 9, 11] [1, 3, 5, 7, 11] []
    [(1, Layout.sample 14 1 [.root 0, .slot 7 0] []), (3, Layout.sample 14 2 [.root 1] []),
     (5, Layout.sample 14 3 [.root 2] []),
     (7, Layout.sample kWeakArrayCid 4 [.root 3] [1]),
     (9, Layout.sample 14 5 [.slot 11 0] []),
     (11, Layout.sample kArrayCid 6 [.root 4] [9])]

/-- The heap `weakWriteHeap` after `W.set_element(0, T)`. -/
def weakWritten : Heap := (Update weakWriteHeap (.slot 7 0) 7 9).getD weakWriteHeap

/-- The heap `weakWritten` after a `GCStep` whose three rounds sample `T`. -/
def weakWrittenCollected : Heap := (GCStep weakWritten 5 5 5).getD weakWritten

end psoup


namespace psoup

/-! ## Sequences of collections -/

/-- A sequence of calls of `Heap::GCStep`, each with its three sampled values. -/
def GCSteps : Heap → List (Nat × Nat × Nat) → Option Heap
  | h, [] => some h
  | h, s :: rest => (GCStep h s.1 s.2.1 s.2.2).bind fun h1 => GCSteps h1 rest

/-- The heap `becomeHeap` after the become of `[a]` into `[b]`. -/
def becomeHeapForwarded : Heap := (becomeResult becomeHeap 13 15).2

end psoup


namespace psoup

/-! ## The class table after become -/

/-- The object that `x` stands for: the target of `x` when `x` is a forwarding corpse, and `x`
itself otherwise. -/
def Heap.resolve (g : Heap) (x : Object) : Object :=
  match g.load x with
  | some l => if l.cid = kForwardingCorpseCid then l.target else x
  | none => x

/-- The class ids from `kFirstLegalCid` to `class_table_size_ - 1` whose entry in the class
table is a forwarding corpse, in increasing order. -/
def corpseSlots (g : Heap) : List Nat :=
  (List.range' kFirstLegalCid (g.class_table_size_ - kFirstLegalCid)).filter fun k =>
    decide (IsForwardingCorpse g (g.class_table_ k) = some true)

/-- The object `o` is a regular object whose class id names the class that its Ref `klass_`
has as its target: `ClassAt(o.cid())` is the target of `klass_`. -/
def Heap.classed (g : Heap) (o : Object) : Prop :=
  ∃ l, g.load o = some l ∧ kFirstRegularObjectCid ≤ l.cid ∧
    l.refs[RegularObject.klass_index]? = some (g.class_table_ l.cid)

/-- The heap `staleIdHeap` with an instance of the class `C2` at 19, whose class id is 15 and
whose Ref `klass_` has `C2` as its target. -/
def staleIdInstanceHeap : Heap :=
  { Heap.sample [0, 1, 3, 5, 7, 9, 11, 13, 15, 17, 19] [1, 3, 5, 9, 11, 13, 15, 19] []
    [(1, Layout.sample 17 1
        [.root 0, .slot 7 0, .slot 7 1, .slot 7 2, .slot 7 3, .slot 7 4,
          .slot 9 0, .slot 9 1, .slot 9 2, .slot 9 3, .slot 9 4,
          .slot 17 0, .slot 17 1, .slot 17 2, .slot 17 3, .slot 17 4] []),
     (3, Layout.sample 18 2 [.root 1] []),
     (5, Layout.sample 19 3 [.root 2] []),
     (7, Layout.sampleClass 4 77 [.slot 11 0, .slot 13 0] (SmallInteger.New 14) true),
     (9, Layout.sampleClass 5 88 [.root 3, .slot 19 0] (SmallInteger.New 15) true),
     (11, Layout.sample 14 6 [.root 4] [7]),
     (13, Layout.sample kArrayCid 7 [.root 5] [7]),
     (15, Layout.sample kArrayCid 8 [.root 6] [17]),
     (17, Layout.sampleClass 9 99 [.slot 15 0] (SmallInteger.New 15) false),
     (19, Layout.sample 15 10 [.root 7] [9])] with
    class_table_ := fun cid => if cid = 14 then 7 else if cid = 15 then 9 else 0,
    class_table_size_ := 24 }

/-- The heap `staleIdInstanceHeap` after the become of `[C1]` into `[Y]`. -/
def staleIdInstanceForwarded : Heap := (becomeResult staleIdInstanceHeap 13 15).2

/-- The heap `classHeap` after the become of `[C1]` into `[C2]`. -/
def classHeapForwarded : Heap := (becomeResult classHeap 13 15).2

end psoup


namespace psoup

/-- The heap `g` in the passes of `BecomeForward` after its second loop, `h1` being the heap
after that loop, as far as the classes of the objects are concerned: the objects with storage
are the same, and each has its class id field, its hash/index word and the target of its first
Ref; and every entry of the class table stands for the object it stands for in `h1`. -/
structure Resolving (h1 g : Heap) : Prop where
  absent : ∀ o, h1.load o = none → g.load o = none
  present : ∀ o l1, h1.load o = some l1 → ∃ l, g.load o = some l ∧ l.cid = l1.cid ∧
    l.header_hash_ = l1.header_hash_ ∧
    l.refs[RegularObject.klass_index]? = l1.refs[RegularObject.klass_index]?
  table : ∀ k, g.resolve (g.class_table_ k) = h1.resolve (h1.class_table_ k)

end psoup


namespace psoup

/-- The object `o` in `ForwardRoots` and `ForwardHeap`, `h2` being the heap after
`ForwardClassIds`: the entry of the class table at its class id and the target of its Ref
`klass_` both stand for `K`. -/
def Pending (h2 g : Heap) (o K : Object) : Prop :=
  ∃ (l : Layout) (v : Object), g.load o = some l ∧
    l.refs[RegularObject.klass_index]? = some v ∧
    h2.resolve (h2.class_table_ l.cid) = K ∧ h2.resolve v = K

/-- The object `o` after `ForwardHeap` has visited it: the entry of the class table at its class
id is `K`, and so is the target of its Ref `klass_` unless `o` is an ephemeron, in which case
the target stands for `K`. -/
def Settled (h2 g : Heap) (o K : Object) : Prop :=
  ∃ (l : Layout) (v : Object), g.load o = some l ∧
    l.refs[RegularObject.klass_index]? = some v ∧
    h2.class_table_ l.cid = K ∧ h2.resolve v = K ∧ (l.cid ≠ kEphemeronCid → v = K)

/-- The heap with which `Heap::BecomeForward` calls `MournClassTableForwarded`: the heap after
its second loop, `ForwardClassIds`, `ForwardRoots` and `ForwardHeap`. -/
def BecomeForward.beforeMourn (h : Heap) (old neu : Object) : Option Heap :=
  (Array.Size h old).bind fun length =>
  (BecomeForward.corpses h old neu (List.range length.toNat)).bind fun h1 =>
  (ForwardClassIds h1).bind fun h2 =>
  (ForwardRoots h2).bind fun h3 =>
  ForwardHeap h3

end psoup


namespace psoup

/-- The loop of `ForwardClassIds` before the class id `p`: a class id below `p` whose entry is a
forwarding corpse is smaller than the class id that the target of the corpse holds. -/
def Ascending (p : Nat) (g : Heap) : Prop :=
  ∀ (k q : Nat) (le ly : Layout), k < p → g.load (g.class_table_ k) = some le →
    le.cid = kForwardingCorpseCid → g.load le.header_hash_ = some ly →
    ly.refs[Behavior.classid_index]? = some (SmallInteger.New (q : Int)) → q ≤ 2 ^ 32 → k < q

/-- The object `o` has storage and its class id is at least `c`. -/
def Raised (c : Nat) (g : Heap) (o : Object) : Prop :=
  ∃ l, g.load o = some l ∧ c ≤ l.cid

end psoup


namespace psoup

/-! ## The other allocators of `vm/heap.h` -/

/-- `sizeof(String::Layout)`: that of `Bytes::Layout`, with `size_`. -/
def sizeofStringLayout : Nat := 5 * kWordSize

/-- `sizeof(Closure::Layout)`: `header_`, `header_hash_`, the two pointers of `incoming_`,
`num_copied_` and the Refs `defining_activation_`, `initial_bci_` and `num_args_`. -/
def sizeofClosureLayout : Nat := 5 * kWordSize + 3 * sizeofRef

/-- `sizeof(Activation::Layout)`: `header_`, `header_hash_`, the two pointers of `incoming_`,
the six fixed Refs and the `kMaxTemps` Refs of `temps_`. -/
def sizeofActivationLayout : Nat := 4 * kWordSize + (6 + kMaxTemps) * sizeofRef

/-- `sizeof(MediumInteger::Layout)`: `header_`, `header_hash_`, the two pointers of `incoming_`,
and `value_`. -/
def sizeofMediumIntegerLayout : Nat := 5 * kWordSize

/-- `sizeof(LargeInteger::Layout)`: `header_`, `header_hash_`, the two pointers of `incoming_`,
`capacity_`, `negative_` and `size_`. -/
def sizeofLargeIntegerLayout : Nat := 7 * kWordSize

/-- `sizeof(Float64::Layout)`: `header_`, `header_hash_`, the two pointers of `incoming_`, and
`value_`. -/
def sizeofFloat64Layout : Nat := 5 * kWordSize

/-- `sizeof(digit_t)`: `digit_t` is `uint32_t` on a 64-bit architecture. -/
def sizeofDigit : Nat := 4

/-- `Closure::init_num_copied`: `ptr()->num_copied_ = v`. -/
def init_num_copied (h : Heap) (obj : Object) (v : Object) : Option Heap :=
  h.modify obj fun l => { l with size_ := v }

/-- `LargeInteger::set_capacity`: `ptr()->capacity_ = value`.  The integer payload of a large
integer (`capacity_`, `negative_`, `size_` and the digits) holds no Ref and is not kept in
`Layout`, as the bytes of a byte array are not: the store is to the storage of `obj`, which
must exist, and changes none of the fields that are kept. -/
def LargeInteger.set_capacity (h : Heap) (obj : Object) (_value : Int) : Option Heap :=
  h.modify obj fun l => l

/-- `Heap::AllocateString`: the new string and the heap after the call. -/
def AllocateString (h : Heap) (num_bytes : Nat) (allocator : Allocator)
    (random : Nat × Nat × Nat) (addr : Nat) (raw : Layout) : Option (Object × Heap) :=
  let heap_size := AllocationWord (num_bytes * sizeofUint8 + sizeofStringLayout)
  (Allocate h heap_size allocator random addr raw).bind fun h1 =>
  let obj := FromAddr addr
  (h1.modify obj fun l => l.Initialize kStringCid heap_size).bind fun h2 =>
  (RegisterInstance h2 obj).bind fun h3 =>
  (init_size h3 obj (SmallInteger.New (num_bytes : Int))).map fun h4 =>
    (obj, h4)

/-- `Heap::AllocateClosure`: the new closure and the heap after the call. -/
def AllocateClosure (h : Heap) (num_copied : Nat) (allocator : Allocator)
    (random : Nat × Nat × Nat) (addr : Nat) (raw : Layout) : Option (Object × Heap) :=
  let heap_size := AllocationWord (num_copied * sizeofRef + sizeofClosureLayout)
  (Allocate h heap_size allocator random addr raw).bind fun h1 =>
  let obj := FromAddr addr
  (h1.modify obj fun l => l.Initialize kClosureCid heap_size).bind fun h2 =>
  (RegisterInstance h2 obj).bind fun h3 =>
  (init_num_copied h3 obj (SmallInteger.New (num_copied : Int))).map fun h4 =>
    (obj, h4)

/-- `Heap::AllocateActivation`: the new activation and the heap after the call. -/
def AllocateActivation (h : Heap) (allocator : Allocator)
    (random : Nat × Nat × Nat) (addr : Nat) (raw : Layout) : Option (Object × Heap) :=
  let heap_size := AllocationWord sizeofActivationLayout
  (Allocate h heap_size allocator random addr raw).bind fun h1 =>
  let obj := FromAddr addr
  (h1.modify obj fun l => l.Initialize kActivationCid heap_size).bind fun h2 =>
  (RegisterInstance h2 obj).map fun h3 => (obj, h3)

/-- `Heap::AllocateMediumInteger`: the new integer and the heap after the call. -/
def AllocateMediumInteger (h : Heap) (allocator : Allocator)
    (random : Nat × Nat × Nat) (addr : Nat) (raw : Layout) : Option (Object × Heap) :=
  let heap_size := AllocationWord sizeofMediumIntegerLayout
  (Allocate h heap_size allocator random addr raw).bind fun h1 =>
  let obj := FromAddr addr
  (h1.modify obj fun l => l.Initialize kMintCid heap_size).bind fun h2 =>
  (RegisterInstance h2 obj).map fun h3 => (obj, h3)

/-- `Heap::AllocateLargeInteger`: the new integer and the heap after the call. -/
def AllocateLargeInteger (h : Heap) (capacity : Nat) (allocator : Allocator)
    (random : Nat × Nat × Nat) (addr : Nat) (raw : Layout) : Option (Object × Heap) :=
  let heap_size := AllocationWord (capacity * sizeofDigit + sizeofLargeIntegerLayout)
  (Allocate h heap_size allocator random addr raw).bind fun h1 =>
  let obj := FromAddr addr
  (h1.modify obj fun l => l.Initialize kBigintCid heap_size).bind fun h2 =>
  (RegisterInstance h2 obj).bind fun h3 =>
  (LargeInteger.set_capacity h3 obj (capacity : Int)).map fun h4 =>
    (obj, h4)

/-- `Heap::AllocateFloat64`: the new float and the heap after the call. -/
def AllocateFloat64 (h : Heap) (allocator : Allocator)
    (random : Nat × Nat × Nat) (addr : Nat) (raw : Layout) : Option (Object × Heap) :=
  let heap_size := AllocationWord sizeofFloat64Layout
  (Allocate h heap_size allocator random addr raw).bind fun h1 =>
  let obj := FromAddr addr
  (h1.modify obj fun l => l.Initialize kFloat64Cid heap_size).bind fun h2 =>
  (RegisterInstance h2 obj).map fun h3 => (obj, h3)

/-- The calls of the typed allocators of `vm/heap.h`, each with its arguments other than the
allocator mode: `AllocateRegularObject(cid, num_slots)`, `AllocateByteArray(num_bytes)`,
`AllocateString(num_bytes)`, `AllocateArray(num_slots)`, `AllocateWeakArray(num_slots)`,
`AllocateClosure(num_copied)`, `AllocateActivation()`, `AllocateMediumInteger()`,
`AllocateLargeInteger(capacity)` and `AllocateFloat64()`. -/
inductive Allocation where
  | regularObject (cid num_slots : Nat)
  | byteArray (num_bytes : Nat)
  | string (num_bytes : Nat)
  | array (num_slots : Nat)
  | weakArray (num_slots : Nat)
  | closure (num_copied : Nat)
  | activation
  | mediumInteger
  | largeInteger (capacity : Nat)
  | float64
  deriving DecidableEq, Repr

/-- The call of the allocator: the new object and the heap after the call. -/
def Allocation.run (a : Allocation) (h : Heap) (allocator : Allocator)
    (random : Nat × Nat × Nat) (addr : Nat) (raw : Layout) : Option (Object × Heap) :=
  match a with
  | .regularObject cid num_slots => AllocateRegularObject h cid num_slots allocator random addr raw
  | .byteArray num_bytes => AllocateByteArray h num_bytes allocator random addr raw
  | .string num_bytes => AllocateString h num_bytes allocator random addr raw
  | .array num_slots => AllocateArray h num_slots allocator random addr raw
  | .weakArray num_slots => AllocateWeakArray h num_slots allocator random addr raw
  | .closure num_copied => AllocateClosure h num_copied allocator random addr raw
  | .activation => AllocateActivation h allocator random addr raw
  | .mediumInteger => AllocateMediumInteger h allocator random addr raw
  | .largeInteger capacity => AllocateLargeInteger h capacity allocator random addr raw
  | .float64 => AllocateFloat64 h allocator random addr raw

/-- The class id that the allocator passes to `HeapObject::Initialize`. -/
def Allocation.cid : Allocation → Nat
  | .regularObject cid _ => cid
  | .byteArray _ => kByteArrayCid
  | .string _ => kStringCid
  | .array _ => kArrayCid
  | .weakArray _ => kWeakArrayCid
  | .closure _ => kClosureCid
  | .activation => kActivationCid
  | .mediumInteger => kMintCid
  | .largeInteger _ => kBigintCid
  | .float64 => kFloat64Cid

/-- The local `heap_size` of the allocator, which it passes to `Allocate` and to
`HeapObject::Initialize`. -/
def Allocation.heap_size : Allocation → Nat
  | .regularObject _ num_slots => AllocationWord (num_slots * sizeofRef + sizeofRegularObjectLayout)
  | .byteArray num_bytes => AllocationWord (num_bytes * sizeofUint8 + sizeofByteArrayLayout)
  | .string num_bytes => AllocationWord (num_bytes * sizeofUint8 + sizeofStringLayout)
  | .array num_slots => AllocationWord (num_slots * sizeofRef + sizeofArrayLayout)
  | .weakArray num_slots => AllocationWord (num_slots * sizeofRef + sizeofWeakArrayLayout)
  | .closure num_copied => AllocationWord (num_copied * sizeofRef + sizeofClosureLayout)
  | .activation => AllocationWord sizeofActivationLayout
  | .mediumInteger => AllocationWord sizeofMediumIntegerLayout
  | .largeInteger capacity => AllocationWord (capacity * sizeofDigit + sizeofLargeIntegerLayout)
  | .float64 => AllocationWord sizeofFloat64Layout

/-- The statements of the allocator after `RegisterInstance(obj)`, on the heap `h3` after it:
the store of the length, of the number of copied values or of the capacity, or `init_klass`,
which `AllocateRegularObject` calls unless the allocator is `kSnapshot`. -/
def Allocation.finish (a : Allocation) (allocator : Allocator) (h3 : Heap) (obj : Object) :
    Option Heap :=
  match a with
  | .regularObject cid _ =>
    if allocator ≠ Allocator.kSnapshot then init_klass h3 obj (h3.class_table_ cid) else some h3
  | .byteArray num_bytes => init_size h3 obj (SmallInteger.New (num_bytes : Int))
  | .string num_bytes => init_size h3 obj (SmallInteger.New (num_bytes : Int))
  | .array num_slots => init_size h3 obj (SmallInteger.New (num_slots : Int))
  | .weakArray num_slots => init_size h3 obj (SmallInteger.New (num_slots : Int))
  | .closure num_copied => init_num_copied h3 obj (SmallInteger.New (num_copied : Int))
  | .activation => some h3
  | .mediumInteger => some h3
  | .largeInteger capacity => LargeInteger.set_capacity h3 obj (capacity : Int)
  | .float64 => some h3

end psoup


namespace psoup

/-- The fields that `HeapSize` reads other than the class id are the same: the size field, the
overflow size, the length slot and the number of Refs. -/
def Layout.SameExtent (l l' : Layout) : Prop :=
  l'.size_field = l.size_field ∧ l'.overflow_size_ = l.overflow_size_ ∧
  l'.size_ = l.size_ ∧ l'.refs.length = l.refs.length

/-- Whether every object of the object table has a non-zero size field, so that `HeapSize()`
reads its size from the header. -/
def sizeFieldsSet (h : Heap) : Bool :=
  (tableObjects h).all fun o =>
    match h.load o with
    | some l => decide (l.size_field ≠ 0)
    | none => true

/-- The heap `classHeap` with the heap size that the accounting gives. -/
def classHeapAccounted : Heap :=
  { classHeap with heap_size_ := (tableHeapSize classHeap : Int) }

/-- The objects of `stringClassHeap`: nil, true and false at 1, 3 and 5, the classes `C1` at 7
and `C2` at 9, a string of `2^20` bytes at 11, whose size does not fit the size field, so that
the field is zero, and the arrays `[C1]` at 13, `[C2]` at 15 and `[SmallInteger 21]` at 17. -/
def stringClassObjects : List (Object × Layout) :=
  [(1, Layout.sample 17 1
        [.root 0, .slot 7 0, .slot 7 1, .slot 7 2, .slot 7 3, .slot 7 4,
          .slot 9 0, .slot 9 1, .slot 9 2, .slot 9 3, .slot 9 4] []),
   (3, Layout.sample 18 2 [.root 1] []),
   (5, Layout.sample 19 3 [.root 2] []),
   (7, Layout.sampleClass 4 77 [.slot 13 0] (SmallInteger.New kStringCid) true),
   (9, Layout.sampleClass 5 88 [.slot 15 0] (SmallInteger.New 15) true),
   (11, { Layout.sample kStringCid 6 [.root 3] [] with
            size_field := 0, size_ := SmallInteger.New 1048576 }),
   (13, Layout.sample kArrayCid 7 [.root 4] [7]),
   (15, Layout.sample kArrayCid 8 [.root 5] [9]),
   (17, Layout.sample kArrayCid 9 [.root 6] [SmallInteger.New 21])]

/-- The heap in which `C1` is the class of the strings, registered under `kStringCid`, and `C2`
is registered under the class id 15, with the heap size that the accounting gives. -/
def stringClassHeap : Heap :=
  { classHeapWith (fun cid => if cid = kStringCid then 7 else if cid = 15 then 9 else 0)
      stringClassObjects with
    heap_size_ := (tableHeapSize (classHeapWith
      (fun cid => if cid = kStringCid then 7 else if cid = 15 then 9 else 0)
      stringClassObjects) : Int) }

end psoup


namespace psoup

end psoup


namespace psoup

/-- The Ref `r` is the class id slot (`Behavior::classid_`) of the forwardee of a forwarder that
is an entry of the class table of `h`, `F` being the forwarders and `G` the forwardees: the Refs
that `ForwardClassIds` writes. -/
def ClassIdSlot (h : Heap) (F G : List Object) (r : RefPtr) : Prop :=
  ∃ (i k : Nat) (f y : Object), F[i]? = some f ∧ G[i]? = some y ∧ h.class_table_ k = f ∧
    r = RefPtr.slot y Behavior.classid_index

/-- The Ref `r` holds in `g` a legal class id below the `class_table_size_` of `h`. -/
def HoldsClassId (h g : Heap) (r : RefPtr) : Prop :=
  ∃ q : Nat, kFirstLegalCid ≤ q ∧ q < h.class_table_size_ ∧
    Ref_to g r = some (SmallInteger.New (q : Int))

/-- The heap `g` in the loop of `ForwardClassIds` before the class id `p` is visited, `h1` being
the heap after the second loop of `BecomeForward` with the forwarders `F` and the forwardees
`G`.  The object table, the interpreter, the handles and the size of the class table are those
of `h1`, and so are the class id field, the hash/index word and the number of Refs of every
object.  Every Ref has the target it has in `h1`, or is the class id slot of the forwardee of a
forwarder of the class table and holds a legal class id.  An entry of the class table that is a
forwarding corpse in `h1` is a forwarder; an entry that is a forwarder is an entry of the class
table of `h1` and is either still to be visited or has a forwardee whose class id slot holds a
legal class id. -/
structure Renumbers (h1 : Heap) (F G : List Object) (p : Nat) (g : Heap) : Prop where
  table : g.table_ = h1.table_ ∧ g.table_size_ = h1.table_size_
  size : g.class_table_size_ = h1.class_table_size_
  interp : g.interpreter_ = h1.interpreter_
  handles : g.handles_ = h1.handles_
  absent : ∀ o, h1.load o = none → g.load o = none
  present : ∀ o l1, h1.load o = some l1 → ∃ l, g.load o = some l ∧ l.cid = l1.cid ∧
    l.header_hash_ = l1.header_hash_ ∧ l.refs.length = l1.refs.length
  refs : ∀ r, Ref_to g r = Ref_to h1 r ∨ (ClassIdSlot h1 F G r ∧ HoldsClassId h1 g r)
  entries : ∀ k, IsHeapObject (g.class_table_ k) →
    (∀ l1, h1.load (g.class_table_ k) = some l1 → l1.cid = kForwardingCorpseCid →
      g.class_table_ k ∈ F) ∧
    ∀ i : Nat, F[i]? = some (g.class_table_ k) →
      (∃ k0, h1.class_table_ k0 = g.class_table_ k) ∧
      ((p ≤ k ∧ k < h1.class_table_size_) ∨
        ∀ y, G[i]? = some y → HoldsClassId h1 g (RefPtr.slot y Behavior.classid_index))

end psoup


namespace psoup

theorem isHeapObject_iff (o : Object) : IsHeapObject o ↔ o % 2 = 1 := by
  unfold IsHeapObject kSmiTagMask kHeapObjectTag
  rw [Nat.and_one_is_mod]

theorem isSmallInteger_iff (o : Object) : IsSmallInteger o ↔ o % 2 = 0 := by
  unfold IsSmallInteger kSmiTagMask kSmiTag
  rw [Nat.and_one_is_mod]

theorem not_isSmallInteger_iff (o : Object) : ¬ IsSmallInteger o ↔ IsHeapObject o := by
  rw [isHeapObject_iff, isSmallInteger_iff]
  have key : ∀ n : Nat, ¬ n % 2 = 0 ↔ n % 2 = 1 := by intro n; omega
  exact key o

theorem not_isHeapObject_iff (o : Object) : ¬ IsHeapObject o ↔ IsSmallInteger o := by
  rw [isHeapObject_iff, isSmallInteger_iff]
  have key : ∀ n : Nat, ¬ n % 2 = 1 ↔ n % 2 = 0 := by intro n; omega
  exact key o

theorem not_isHeapObject_nullptr : ¬ IsHeapObject nullptr := by
  rw [isHeapObject_iff]; decide

theorem ne_nullptr_of_isHeapObject {o : Object} (ho : IsHeapObject o) : o ≠ nullptr := by
  rintro rfl; exact not_isHeapObject_nullptr ho

theorem load_eq_some_iff {h : Heap} {o : Object} {l : Layout} :
    h.load o = some l ↔ IsHeapObject o ∧ h.memory o = some l := by
  unfold Heap.load
  by_cases ho : IsHeapObject o <;> simp [ho]

theorem isHeapObject_of_load {h : Heap} {o : Object} {l : Layout} (hl : h.load o = some l) :
    IsHeapObject o := (load_eq_some_iff.1 hl).1

theorem memory_of_load {h : Heap} {o : Object} {l : Layout} (hl : h.load o = some l) :
    h.memory o = some l := (load_eq_some_iff.1 hl).2

theorem load_store_same {h : Heap} {o : Object} {l : Layout} (ho : IsHeapObject o) :
    (h.store o l).load o = some l := by
  simp [Heap.load, Heap.store, ho]

theorem load_store_ne {h : Heap} {o o' : Object} {l : Layout} (hne : o' ≠ o) :
    (h.store o l).load o' = h.load o' := by
  simp [Heap.load, Heap.store, Function.update, hne]

theorem modify_eq_some {h h' : Heap} {o : Object} {f : Layout → Layout} :
    h.modify o f = some h' ↔ ∃ l, h.load o = some l ∧ h' = h.store o (f l) := by
  unfold Heap.modify
  cases hl : h.load o <;> simp [eq_comm]

end psoup

namespace psoup

theorem load_mapMemory (h : Heap) (g : Object → Layout → Layout) (o : Object) :
    (h.mapMemory g).load o = (h.load o).map (g o) := by
  unfold Heap.load Heap.mapMemory
  by_cases ho : IsHeapObject o <;> simp [ho]

theorem load_withInterpreter (h : Heap) (s : Interpreter) (o : Object) :
    (h.withInterpreter s).load o = h.load o := rfl

theorem mapMemory_mapMemory (h : Heap) (g g' : Object → Layout → Layout) :
    (h.mapMemory g).mapMemory g' = h.mapMemory (fun o l => g' o (g o l)) := by
  unfold Heap.mapMemory
  simp only [Option.map_map]
  rfl

theorem mapMemory_withInterpreter (h : Heap) (s : Interpreter) (g : Object → Layout → Layout) :
    (h.withInterpreter s).mapMemory g = (h.mapMemory g).withInterpreter s := rfl

theorem mapMemory_id (h : Heap) : h.mapMemory (fun _ l => l) = h := by
  unfold Heap.mapMemory
  simp

theorem mapMemory_congr (h : Heap) {g g' : Object → Layout → Layout}
    (hg : ∀ o l, h.memory o = some l → g o l = g' o l) : h.mapMemory g = h.mapMemory g' := by
  unfold Heap.mapMemory
  congr 1
  funext o
  cases hm : h.memory o with
  | none => rfl
  | some l => simp [hg o l hm]

theorem withInterpreter_self (h : Heap) : h.withInterpreter h.interpreter_ = h := rfl

theorem modify_eq_mapMemory {h h' : Heap} {o : Object} {f : Layout → Layout} :
    h.modify o f = some h' ↔
      (∃ l, h.load o = some l) ∧ h' = h.mapMemory (fun o' l => if o' = o then f l else l) := by
  rw [modify_eq_some]
  have key : ∀ l, h.load o = some l →
      h.store o (f l) = h.mapMemory (fun o' l => if o' = o then f l else l) := by
    intro l hl
    have hm := memory_of_load hl
    unfold Heap.store Heap.mapMemory
    congr 1
    funext o'
    by_cases ho : o' = o
    · subst ho; simp [hm]
    · simp [Function.update, ho]
  constructor
  · rintro ⟨l, hl, rfl⟩
    exact ⟨⟨l, hl⟩, key l hl⟩
  · rintro ⟨⟨l, hl⟩, rfl⟩
    exact ⟨l, hl, (key l hl).symm⟩

theorem Ref_to_slot_eq_some {h : Heap} {s : Object} {i : Nat} {t : Object} :
    Ref_to h (.slot s i) = some t ↔ ∃ l, h.load s = some l ∧ l.refs[i]? = some t := by
  simp only [Ref_to, Option.bind_eq_some]

theorem Ref_set_to_eq_some {h h' : Heap} {r : RefPtr} {v : Object} :
    Ref_set_to h r v = some h' ↔
      (∃ t, Ref_to h r = some t) ∧
      h' = (h.mapMemory (fun o l => match r with
                | .slot s i => if o = s then { l with refs := l.refs.set i v } else l
                | _ => l)).withInterpreter (h.interpreter_.retarget r v) := by
  cases r with
  | slot s i =>
    simp only [Ref_set_to, Ref_to, Interpreter.retarget, Option.bind_eq_some]
    have key : h.modify s (fun l => { l with refs := l.refs.set i v }) = some h' ↔
        (∃ l, h.load s = some l) ∧ h' = (h.mapMemory
          (fun o l => if o = s then { l with refs := l.refs.set i v } else l)).withInterpreter
            h.interpreter_ := modify_eq_mapMemory
    constructor
    · rintro ⟨l, hl, hi⟩
      by_cases hlt : i < l.refs.length
      · rw [if_pos hlt] at hi
        refine ⟨⟨l.refs[i], l, hl, List.getElem?_eq_getElem hlt⟩, ?_⟩
        exact (key.1 (modify_eq_some.2 ⟨l, hl, (Option.some.inj hi).symm⟩)).2
      · rw [if_neg hlt] at hi; cases hi
    · rintro ⟨⟨t, l, hl, hti⟩, he⟩
      refine ⟨l, hl, ?_⟩
      have hlt : i < l.refs.length := by
        by_contra hc
        rw [List.getElem?_eq_none (by omega)] at hti
        cases hti
      rw [if_pos hlt]
      obtain ⟨l2, hl2, he2⟩ := modify_eq_some.1 (key.2 ⟨⟨l, hl⟩, he⟩)
      rw [hl] at hl2; cases hl2
      rw [he2]
  | root i =>
    simp only [Ref_set_to, Ref_to, Interpreter.retarget, mapMemory_id]
    by_cases hlt : i < h.interpreter_.roots.length
    · simp only [hlt, if_true]
      constructor
      · intro he; exact ⟨⟨_, List.getElem?_eq_getElem hlt⟩, (Option.some.inj he).symm⟩
      · rintro ⟨_, he⟩; rw [he]; rfl
    · simp only [hlt, if_false]
      constructor
      · intro he; cases he
      · rintro ⟨⟨t, ht⟩, _⟩
        rw [List.getElem?_eq_none (by omega)] at ht
        cases ht
  | stack i =>
    simp only [Ref_set_to, Ref_to, Interpreter.retarget, mapMemory_id]
    by_cases hlt : i < h.interpreter_.stack.length
    · simp only [hlt, if_true]
      constructor
      · intro he; exact ⟨⟨_, List.getElem?_eq_getElem hlt⟩, (Option.some.inj he).symm⟩
      · rintro ⟨_, he⟩; rw [he]; rfl
    · simp only [hlt, if_false]
      constructor
      · intro he; cases he
      · rintro ⟨⟨t, ht⟩, _⟩
        rw [List.getElem?_eq_none (by omega)] at ht
        cases ht

theorem Ref_to_mapMemory_of_refs {h : Heap} {g : Object → Layout → Layout}
    (hg : ∀ o l, (g o l).refs = l.refs) (r : RefPtr) :
    Ref_to (h.mapMemory g) r = Ref_to h r := by
  cases r with
  | slot s i =>
    simp only [Ref_to, load_mapMemory]
    cases h.load s <;> simp [hg]
  | root i => rfl
  | stack i => rfl

theorem Link_Remove_opt_eq_some {h h' : Heap} {t : Object} {r : RefPtr} :
    (if IsHeapObject t then Link_Remove h t r else some h) = some h' ↔
      (IsHeapObject t → ∃ l, h.load t = some l) ∧
      h' = h.mapMemory (fun o l => if o = t ∧ IsHeapObject t then
          { l with incoming_ := l.incoming_.erase r } else l) := by
  by_cases hto : IsHeapObject t
  · rw [if_pos hto, Link_Remove, modify_eq_mapMemory]
    simp only [hto, and_true, forall_true_left]
  · rw [if_neg hto]
    simp only [hto, and_false, if_false, mapMemory_id, false_implies, true_and]
    exact ⟨fun he => (Option.some.inj he).symm, fun he => by rw [he]⟩

theorem Link_Insert_opt_eq_some {h h' : Heap} {v : Object} {r : RefPtr} :
    (if IsHeapObject v then Link_Insert h v r else some h) = some h' ↔
      (IsHeapObject v → ∃ l, h.load v = some l) ∧
      h' = h.mapMemory (fun o l => if o = v ∧ IsHeapObject v then
          { l with incoming_ := l.incoming_ ++ [r] } else l) := by
  by_cases hto : IsHeapObject v
  · rw [if_pos hto, Link_Insert, modify_eq_mapMemory]
    simp only [hto, and_true, forall_true_left]
  · rw [if_neg hto]
    simp only [hto, and_false, if_false, mapMemory_id, false_implies, true_and]
    exact ⟨fun he => (Option.some.inj he).symm, fun he => by rw [he]⟩

theorem load_isSome_mapMemory {h : Heap} {g : Object → Layout → Layout} {o : Object} :
    (∃ l, (h.mapMemory g).load o = some l) ↔ ∃ l, h.load o = some l := by
  rw [load_mapMemory]
  cases h.load o <;> simp

theorem UpdateNoCheck_eq_some {h h' : Heap} {r : RefPtr} {v : Object} :
    UpdateNoCheck h r v = some h' ↔
    ∃ t, Ref_to h r = some t ∧ (IsHeapObject t → ∃ l, h.load t = some l) ∧
      (IsHeapObject v → ∃ l, h.load v = some l) ∧ h' = h.retarget r t v := by
  have hretarget : ∀ t, h.retarget r t v =
      (((h.mapMemory (fun o l => if o = t ∧ IsHeapObject t then
          { l with incoming_ := l.incoming_.erase r } else l)).mapMemory
        (fun o l => match r with
                | .slot s i => if o = s then { l with refs := l.refs.set i v } else l
                | _ => l)).withInterpreter (h.interpreter_.retarget r v)).mapMemory
        (fun o l => if o = v ∧ IsHeapObject v then
          { l with incoming_ := l.incoming_ ++ [r] } else l) := by
    intro t
    rw [mapMemory_withInterpreter, mapMemory_mapMemory, mapMemory_mapMemory]
    unfold Heap.retarget
    congr 1
    apply mapMemory_congr
    intro o l _
    unfold Layout.retarget
    cases r <;> by_cases h1 : o = t ∧ IsHeapObject t <;>
      by_cases h2 : o = v ∧ IsHeapObject v <;> simp only [h1, h2, if_true, if_false] <;>
      (try split_ifs) <;> simp
  unfold UpdateNoCheck
  simp only [Option.bind_eq_some, Link_Remove_opt_eq_some, Ref_set_to_eq_some,
    Link_Insert_opt_eq_some]
  constructor
  · rintro ⟨t, ht, h1, ⟨e1a, rfl⟩, h2, ⟨_, rfl⟩, e3a, rfl⟩
    refine ⟨t, ht, e1a, ?_, (hretarget t).symm⟩
    intro hv
    have := e3a hv
    rw [load_withInterpreter] at this
    exact load_isSome_mapMemory.1 (load_isSome_mapMemory.1 this)
  · rintro ⟨t, ht, e1, e3, rfl⟩
    refine ⟨t, ht, _, ⟨e1, rfl⟩, _, ⟨⟨t, ?_⟩, rfl⟩, ?_, hretarget t⟩
    · rw [Ref_to_mapMemory_of_refs]
      · exact ht
      · intro o l; split_ifs <;> rfl
    · intro hv
      rw [load_withInterpreter]
      exact load_isSome_mapMemory.2 (load_isSome_mapMemory.2 (e3 hv))

end psoup

namespace psoup

theorem SameButMarks_iff (l1 l2 : Layout) :
    Layout.SameButMarks l1 l2 ↔
      l2.in_class_table = l1.in_class_table ∧ l2.is_canonical = l1.is_canonical ∧
      l2.size_field = l1.size_field ∧ l2.cid = l1.cid ∧ l2.header_hash_ = l1.header_hash_ ∧
      l2.incoming_ = l1.incoming_ ∧ l2.overflow_size_ = l1.overflow_size_ ∧
      l2.size_ = l1.size_ ∧ l2.refs = l1.refs := by
  cases l1; cases l2
  simp [Layout.SameButMarks]

theorem SameButMarks_refl (l : Layout) : Layout.SameButMarks l l := rfl

theorem SameButMarks_trans {a b c : Layout} (h1 : Layout.SameButMarks a b)
    (h2 : Layout.SameButMarks b c) : Layout.SameButMarks a c := by
  rw [SameButMarks_iff] at *
  obtain ⟨a1, a2, a3, a4, a5, a6, a7, a8, a9⟩ := h1
  obtain ⟨b1, b2, b3, b4, b5, b6, b7, b8, b9⟩ := h2
  exact ⟨b1.trans a1, b2.trans a2, b3.trans a3, b4.trans a4, b5.trans a5, b6.trans a6,
    b7.trans a7, b8.trans a8, b9.trans a9⟩

theorem MarkFrame_refl (h : Heap) : MarkFrame h h :=
  ⟨fun _ l => l, fun _ l => SameButMarks_refl l, by rw [mapMemory_id]⟩

theorem MarkFrame_trans {h1 h2 h3 : Heap} (h12 : MarkFrame h1 h2) (h23 : MarkFrame h2 h3) :
    MarkFrame h1 h3 := by
  obtain ⟨g, hg, e2⟩ := h12
  obtain ⟨g', hg', e3⟩ := h23
  refine ⟨fun o l => g' o (g o l), fun o l => SameButMarks_trans (hg o l) (hg' o _), ?_⟩
  rw [e3, e2]
  simp only [Heap.mapMemory, Option.map_map]
  rfl

theorem MarkFrame_load {h1 h2 : Heap} (hf : MarkFrame h1 h2) (o : Object) :
    (∀ l, h1.load o = some l → ∃ l', h2.load o = some l' ∧ Layout.SameButMarks l l') ∧
    (∀ l', h2.load o = some l' → ∃ l, h1.load o = some l ∧ Layout.SameButMarks l l') := by
  obtain ⟨g, hg, e2⟩ := hf
  have hl : h2.load o = (h1.load o).map (g o) := by
    rw [e2]
    exact load_mapMemory h1 g o
  constructor
  · intro l h
    exact ⟨g o l, by rw [hl, h]; rfl, hg o l⟩
  · intro l' h
    rw [hl] at h
    cases h1o : h1.load o with
    | none => rw [h1o] at h; cases h
    | some l =>
      rw [h1o] at h
      cases h
      exact ⟨l, rfl, hg o l⟩

theorem MarkFrame_fields {h1 h2 : Heap} (hf : MarkFrame h1 h2) :
    h2.table_ = h1.table_ ∧ h2.table_size_ = h1.table_size_ ∧ h2.handles_ = h1.handles_ ∧
    h2.interpreter_ = h1.interpreter_ ∧ h2.class_table_ = h1.class_table_ ∧
    h2.class_table_size_ = h1.class_table_size_ ∧ h2.class_table_free_ = h1.class_table_free_ ∧
    h2.heap_size_ = h1.heap_size_ ∧ h2.gc_count_ = h1.gc_count_ := by
  obtain ⟨g, hg, e2⟩ := hf
  rw [e2]
  exact ⟨rfl, rfl, rfl, rfl, rfl, rfl, rfl, rfl, rfl⟩

theorem MarkFrame_Ref_to {h1 h2 : Heap} (hf : MarkFrame h1 h2) (r : RefPtr) :
    Ref_to h2 r = Ref_to h1 r := by
  cases r with
  | slot s i =>
    simp only [Ref_to]
    cases h1s : h1.load s with
    | none =>
      cases h2s : h2.load s with
      | none => rfl
      | some l' =>
        obtain ⟨l, hl, _⟩ := (MarkFrame_load hf s).2 l' h2s
        rw [h1s] at hl; cases hl
    | some l =>
      obtain ⟨l', hl', hs⟩ := (MarkFrame_load hf s).1 l h1s
      rw [hl']
      have := ((SameButMarks_iff l l').1 hs).2.2.2.2.2.2.2.2
      simp [this]
  | root i => simp only [Ref_to, (MarkFrame_fields hf).2.2.2.1]
  | stack i => simp only [Ref_to, (MarkFrame_fields hf).2.2.2.1]

theorem MarkFrame_incomingOf {h1 h2 : Heap} (hf : MarkFrame h1 h2) (o : Object) :
    h2.incomingOf o = h1.incomingOf o := by
  unfold Heap.incomingOf
  cases h1s : h1.load o with
  | none =>
    cases h2s : h2.load o with
    | none => rfl
    | some l' =>
      obtain ⟨l, hl, _⟩ := (MarkFrame_load hf o).2 l' h2s
      rw [h1s] at hl; cases hl
  | some l =>
    obtain ⟨l', hl', hs⟩ := (MarkFrame_load hf o).1 l h1s
    rw [hl']
    exact ((SameButMarks_iff l l').1 hs).2.2.2.2.2.1

theorem MarkFrame_InTable {h1 h2 : Heap} (hf : MarkFrame h1 h2) (o : Object) :
    InTable h2 o ↔ InTable h1 o := by
  unfold InTable
  rw [(MarkFrame_fields hf).1, (MarkFrame_fields hf).2.1]

theorem incomingOf_of_load {h : Heap} {o : Object} {l : Layout} (hl : h.load o = some l) :
    h.incomingOf o = l.incoming_ := by
  simp [Heap.incomingOf, hl]

theorem MarkFrame_of_modify {h h' : Heap} {o : Object} {f : Layout → Layout}
    (hf : ∀ l, Layout.SameButMarks l (f l)) (hm : h.modify o f = some h') :
    MarkFrame h h' ∧ h'.worklist_ = h.worklist_ := by
  rw [modify_eq_mapMemory] at hm
  obtain ⟨_, rfl⟩ := hm
  refine ⟨⟨fun o' l => if o' = o then f l else l, ?_, rfl⟩, rfl⟩
  intro o' l
  show Layout.SameButMarks l (if o' = o then f l else l)
  split_ifs
  · exact hf l
  · exact SameButMarks_refl l

theorem MarkFrame_WorklistPush (h : Heap) (x : Object) : MarkFrame h (WorklistPush h x) :=
  ⟨fun _ l => l, fun _ l => SameButMarks_refl l, by rw [mapMemory_id]; rfl⟩

theorem load_WorklistPush (h : Heap) (x o : Object) : (WorklistPush h x).load o = h.load o := rfl

theorem set_is_marked_eq_some {h h' : Heap} {o : Object} {v : Bool}
    (hm : set_is_marked h o v = some h') :
    MarkFrame h h' ∧ h'.worklist_ = h.worklist_ ∧
    (∃ l, h.load o = some l ∧ h'.load o = some { l with is_marked := v }) ∧
    (∀ o', o' ≠ o → h'.load o' = h.load o') := by
  have hf := MarkFrame_of_modify (f := fun l => { l with is_marked := v })
    (fun l => by rw [SameButMarks_iff]; simp) hm
  refine ⟨hf.1, hf.2, ?_, ?_⟩
  · obtain ⟨l, hl, rfl⟩ := modify_eq_some.1 hm
    exact ⟨l, hl, load_store_same (isHeapObject_of_load hl)⟩
  · intro o' hne
    obtain ⟨l, hl, rfl⟩ := modify_eq_some.1 hm
    exact load_store_ne hne

theorem set_is_weak_referent_eq_some {h h' : Heap} {o : Object} {v : Bool}
    (hm : set_is_weak_referent h o v = some h') :
    MarkFrame h h' ∧ h'.worklist_ = h.worklist_ ∧
    (∃ l, h.load o = some l ∧ h'.load o = some { l with is_weak_referent := v }) ∧
    (∀ o', o' ≠ o → h'.load o' = h.load o') := by
  have hf := MarkFrame_of_modify (f := fun l => { l with is_weak_referent := v })
    (fun l => by rw [SameButMarks_iff]; simp) hm
  refine ⟨hf.1, hf.2, ?_, ?_⟩
  · obtain ⟨l, hl, rfl⟩ := modify_eq_some.1 hm
    exact ⟨l, hl, load_store_same (isHeapObject_of_load hl)⟩
  · intro o' hne
    obtain ⟨l, hl, rfl⟩ := modify_eq_some.1 hm
    exact load_store_ne hne

end psoup

namespace psoup

theorem load_of_InTable {h : Heap} (ht : TableInv h) {o : Object} (ho : InTable h o) :
    ∃ l, h.load o = some l ∧ kFirstLegalCid ≤ l.cid ∧ 1 ≤ l.table_index ∧
      l.table_index < h.table_size_ ∧ h.table_ l.table_index = o := by
  obtain ⟨i, h1, h2, rfl⟩ := ho
  obtain ⟨l, hl, hi, hc⟩ := ht.2 i h1 h2
  exact ⟨l, hl, hc, by omega, by omega, by rw [hi]⟩

theorem GoodRef_mono {h0 : Heap} {w w' : List Object} {x : Object} {r : RefPtr}
    (hg : GoodRef h0 w x r) (hsub : ∀ s ∈ w, s ∈ w') : GoodRef h0 w' x r := by
  obtain ⟨h1, s, i, ls, h2, h3, h4, h5⟩ := hg
  exact ⟨h1, s, i, ls, h2, h3, h4, h5.imp id (hsub s)⟩

theorem CheckState_push {h0 : Heap} {c x s : Object} {h h1 : Heap}
    (hs : CheckState h0 c h) (hx : x ∈ h.worklist_) (hsT : InTable h0 s)
    (hedge : Edge h0 s x) (hnm : ¬ h.marked s) (hm : set_is_marked h s true = some h1) :
    CheckState h0 c (WorklistPush h1 s) := by
  obtain ⟨hf1, hw1, ⟨l, hl, hl1⟩, hother⟩ := set_is_marked_eq_some hm
  have hsW : s ∉ h.worklist_ := fun hin => hnm ((hs.marked_iff s hsT).2 hin)
  refine ⟨MarkFrame_trans hs.frame (MarkFrame_trans hf1 (MarkFrame_WorklistPush h1 s)), ?_, ?_,
    ?_, ?_⟩
  · intro o ho
    show (∃ l, (WorklistPush h1 s).load o = some l ∧ l.is_marked = true) ↔ o ∈ h1.worklist_ ++ [s]
    rw [load_WorklistPush, hw1, List.mem_append, List.mem_singleton]
    by_cases hos : o = s
    · subst hos
      rw [hl1]
      simp
    · rw [hother o hos]
      have := hs.marked_iff o ho
      unfold Heap.marked at this
      rw [this]
      simp [hos]
  · show (h1.worklist_ ++ [s]).Nodup
    rw [hw1]
    exact List.Nodup.append hs.nodup (List.nodup_singleton s)
      (by
        intro a ha hb
        rw [List.mem_singleton] at hb
        subst hb
        exact hsW ha)
  · intro y hy
    have : y ∈ h1.worklist_ ++ [s] := hy
    rw [hw1, List.mem_append, List.mem_singleton] at this
    rcases this with hy | rfl
    · exact hs.inTable y hy
    · exact hsT
  · intro y hy
    have : y ∈ h1.worklist_ ++ [s] := hy
    rw [hw1, List.mem_append, List.mem_singleton] at this
    rcases this with hy | rfl
    · exact hs.path y hy
    · exact Relation.ReflTransGen.head hedge (hs.path x hx)

theorem flagged_set_is_marked {h h1 : Heap} {s : Object} {v : Bool}
    (hm : set_is_marked h s v = some h1) (o : Object) : h1.flagged o ↔ h.flagged o := by
  obtain ⟨_, _, ⟨l, hl, hl1⟩, hother⟩ := set_is_marked_eq_some hm
  unfold Heap.flagged
  by_cases hos : o = s
  · subst hos; rw [hl, hl1]; simp
  · rw [hother o hos]

end psoup

namespace psoup

theorem HeldByWeakArray_slot {h : Heap} {s : Object} {i : Nat} {ls : Layout}
    (hl : h.load s = some ls) : HeldByWeakArray h (.slot s i) ↔ ls.cid = kWeakArrayCid := by
  simp [HeldByWeakArray, hl]

theorem CheckReachable_incoming_spec {h0 : Heap} {c x : Object} (hwf : WeaklyFormed h0)
    (hx : InTable h0 x) :
    ∀ (rest : List RefPtr) (h : Heap) (w : Bool), CheckState h0 c h → x ∈ h.worklist_ →
      (∀ r ∈ rest, r ∈ h0.incomingOf x) →
      (∀ h', CheckReachable.incoming h w rest = some (.reachable h') →
        CheckState h0 c h' ∧ (∃ ex, h'.worklist_ = h.worklist_ ++ ex) ∧
        ∃ r ∈ rest, Ref_from r = nullptr ∧ Ref_to h0 r = some x) ∧
      (∀ h' w', CheckReachable.incoming h w rest = some (.walked h' w') →
        CheckState h0 c h' ∧ (∃ ex, h'.worklist_ = h.worklist_ ++ ex) ∧
        (∀ o, h'.flagged o ↔ h.flagged o) ∧
        (∀ r ∈ rest, GoodRef h0 h'.worklist_ x r) ∧
        (w' = true ↔ (w = true ∨ ∃ r ∈ rest, HeldByWeakArray h0 r))) ∧
      ((∀ r ∈ rest, Ref_to h0 r = some x ∧ HolderInTable h0 r) →
        ∃ res, CheckReachable.incoming h w rest = some res) := by
  obtain ⟨hT, hS, hC, hM⟩ := hwf
  obtain ⟨lx, hlx, -⟩ := load_of_InTable hT hx
  have hxheap : IsHeapObject x := isHeapObject_of_load hlx
  intro rest
  induction rest with
  | nil =>
    intro h w hs hxw _
    refine ⟨?_, ?_, fun _ => ⟨_, rfl⟩⟩
    · intro h' he
      simp [CheckReachable.incoming] at he
    · intro h' w' he
      simp only [CheckReachable.incoming, Option.some.injEq, IncomingWalk.walked.injEq] at he
      obtain ⟨rfl, rfl⟩ := he
      exact ⟨hs, ⟨[], by simp⟩, fun _ => Iff.rfl, by simp, by simp⟩
  | cons r rest ih =>
    intro h w hs hxw hsub
    have hrin : r ∈ h0.incomingOf x := hsub r (List.mem_cons_self _ _)
    have hsub' : ∀ r' ∈ rest, r' ∈ h0.incomingOf x := fun r' hr' =>
      hsub r' (List.mem_cons_of_mem _ hr')
    rw [incomingOf_of_load hlx] at hrin
    have hsound := (hS x lx hx hlx).2 r hrin
    have hrto : Ref_to h r = Ref_to h0 r := MarkFrame_Ref_to hs.frame r
    -- the Ref has no storage
    rcases hsound with ⟨hto, hhold⟩ | hnone
    swap
    · have hfail : CheckReachable.incoming h w (r :: rest) = none := by
        simp [CheckReachable.incoming, hrto, hnone]
      refine ⟨?_, ?_, ?_⟩
      · intro h' he; rw [hfail] at he; cases he
      · intro h' w' he; rw [hfail] at he; cases he
      · intro hall
        have := (hall r (List.mem_cons_self _ _)).1
        rw [hnone] at this; cases this
    by_cases hroot : Ref_from r = nullptr
    · have hres : CheckReachable.incoming h w (r :: rest) = some (.reachable h) := by
        simp [CheckReachable.incoming, hrto, hto, hroot]
      refine ⟨?_, ?_, fun _ => ⟨_, hres⟩⟩
      · intro h' he
        rw [hres] at he
        simp only [Option.some.injEq, IncomingWalk.reachable.injEq] at he
        subst he
        exact ⟨hs, ⟨[], by simp⟩, r, List.mem_cons_self _ _, hroot, hto⟩
      · intro h' w' he
        rw [hres] at he
        cases he
    -- the Ref is a Ref of a heap object
    cases r with
    | root i => exact absurd rfl hroot
    | stack i => exact absurd rfl hroot
    | slot s i =>
      have hsT : InTable h0 s := hhold
      obtain ⟨ls, hls, -⟩ := load_of_InTable hT hsT
      obtain ⟨ls', hls', hsame⟩ := (MarkFrame_load hs.frame s).1 ls hls
      have hcid : ls'.cid = ls.cid := ((SameButMarks_iff ls ls').1 hsame).2.2.2.1
      have hstep : CheckReachable.incoming h w (.slot s i :: rest) =
          if ls.cid = kWeakArrayCid then CheckReachable.incoming h true rest
          else if ls'.is_marked = false then
            (set_is_marked h s true).bind fun h1 =>
              CheckReachable.incoming (WorklistPush h1 s) w rest
          else CheckReachable.incoming h w rest := by
        have hroot' : ¬ s = nullptr := hroot
        simp only [CheckReachable.incoming, hrto, hto, Option.some_bind, Ref_from, hroot',
          if_false, hls', hcid]
      have hweak : HeldByWeakArray h0 (.slot s i) ↔ ls.cid = kWeakArrayCid :=
        HeldByWeakArray_slot hls
      have hall' : (∀ r ∈ RefPtr.slot s i :: rest, Ref_to h0 r = some x ∧ HolderInTable h0 r) →
          ∀ r ∈ rest, Ref_to h0 r = some x ∧ HolderInTable h0 r :=
        fun hall r' hr' => hall r' (List.mem_cons_of_mem _ hr')
      rw [hstep]
      by_cases hwk : ls.cid = kWeakArrayCid
      · rw [if_pos hwk]
        obtain ⟨ih1, ih2, ih3⟩ := ih h true hs hxw hsub'
        refine ⟨?_, ?_, fun hall => ih3 (hall' hall)⟩
        · intro h' he
          obtain ⟨a, b, r', hr', c1⟩ := ih1 h' he
          exact ⟨a, b, r', List.mem_cons_of_mem _ hr', c1⟩
        · intro h' w' he
          obtain ⟨a, b, c1, d, e⟩ := ih2 h' w' he
          refine ⟨a, b, c1, ?_, ?_⟩
          · intro r' hr'
            rcases List.mem_cons.1 hr' with rfl | hr'
            · exact ⟨hto, s, i, ls, rfl, hsT, hls, Or.inl hwk⟩
            · exact d r' hr'
          · have : w' = true := e.2 (Or.inl rfl)
            simp only [this, true_iff]
            exact Or.inr ⟨_, List.mem_cons_self _ _, hweak.2 hwk⟩
      · rw [if_neg hwk]
        by_cases hmk : ls'.is_marked = false
        · rw [if_pos hmk]
          have hnm : ¬ h.marked s := by
            rintro ⟨l2, hl2, hm2⟩
            rw [hls'] at hl2; cases hl2
            rw [hmk] at hm2; cases hm2
          obtain ⟨h1, hh1⟩ : ∃ h1, set_is_marked h s true = some h1 :=
            ⟨_, modify_eq_some.2 ⟨ls', hls', rfl⟩⟩
          have hedge : Edge h0 s x :=
            ⟨hsT, ls, i, hls, hwk, by
              obtain ⟨l2, hl2, hi2⟩ := Ref_to_slot_eq_some.1 hto
              rw [hls] at hl2; cases hl2; exact hi2, hxheap⟩
          have hs2 := CheckState_push hs hxw hsT hedge hnm hh1
          have hw1 : h1.worklist_ = h.worklist_ := (set_is_marked_eq_some hh1).2.1
          have hxw2 : x ∈ (WorklistPush h1 s).worklist_ := by
            show x ∈ h1.worklist_ ++ [s]
            rw [hw1]; exact List.mem_append_left _ hxw
          obtain ⟨ih1, ih2, ih3⟩ := ih (WorklistPush h1 s) w hs2 hxw2 hsub'
          rw [hh1]
          simp only [Option.some_bind]
          have hpre : ∀ (h' : Heap) (ex : List Object),
              h'.worklist_ = (WorklistPush h1 s).worklist_ ++ ex →
              h'.worklist_ = h.worklist_ ++ (s :: ex) := by
            intro h' ex he
            rw [he]
            show (h1.worklist_ ++ [s]) ++ ex = _
            rw [hw1]; simp
          refine ⟨?_, ?_, fun hall => ih3 (hall' hall)⟩
          · intro h' he
            obtain ⟨a, ⟨ex, b⟩, r', hr', c1⟩ := ih1 h' he
            exact ⟨a, ⟨_, hpre h' ex b⟩, r', List.mem_cons_of_mem _ hr', c1⟩
          · intro h' w' he
            obtain ⟨a, ⟨ex, b⟩, c1, d, e⟩ := ih2 h' w' he
            refine ⟨a, ⟨_, hpre h' ex b⟩, ?_, ?_, ?_⟩
            · intro o
              rw [c1 o]
              exact flagged_set_is_marked hh1 o
            · intro r' hr'
              rcases List.mem_cons.1 hr' with rfl | hr'
              · refine ⟨hto, s, i, ls, rfl, hsT, hls, Or.inr ?_⟩
                rw [hpre h' ex b]; simp
              · exact d r' hr'
            · rw [e]
              constructor
              · rintro (h1 | ⟨r', hr', hk⟩)
                · exact Or.inl h1
                · exact Or.inr ⟨r', List.mem_cons_of_mem _ hr', hk⟩
              · rintro (h1 | ⟨r', hr', hk⟩)
                · exact Or.inl h1
                · rcases List.mem_cons.1 hr' with rfl | hr'
                  · exact absurd (hweak.1 hk) hwk
                  · exact Or.inr ⟨r', hr', hk⟩
        · rw [if_neg hmk]
          have hmk' : ls'.is_marked = true := by
            cases hb : ls'.is_marked
            · exact absurd hb hmk
            · rfl
          have hsw : s ∈ h.worklist_ := (hs.marked_iff s hsT).1 ⟨ls', hls', hmk'⟩
          obtain ⟨ih1, ih2, ih3⟩ := ih h w hs hxw hsub'
          refine ⟨?_, ?_, fun hall => ih3 (hall' hall)⟩
          · intro h' he
            obtain ⟨a, b, r', hr', c1⟩ := ih1 h' he
            exact ⟨a, b, r', List.mem_cons_of_mem _ hr', c1⟩
          · intro h' w' he
            obtain ⟨a, ⟨ex, b⟩, c1, d, e⟩ := ih2 h' w' he
            refine ⟨a, ⟨ex, b⟩, c1, ?_, ?_⟩
            · intro r' hr'
              rcases List.mem_cons.1 hr' with rfl | hr'
              · refine ⟨hto, s, i, ls, rfl, hsT, hls, Or.inr ?_⟩
                rw [b]; exact List.mem_append_left _ hsw
              · exact d r' hr'
            · rw [e]
              constructor
              · rintro (h1 | ⟨r', hr', hk⟩)
                · exact Or.inl h1
                · exact Or.inr ⟨r', List.mem_cons_of_mem _ hr', hk⟩
              · rintro (h1 | ⟨r', hr', hk⟩)
                · exact Or.inl h1
                · rcases List.mem_cons.1 hr' with rfl | hr'
                  · exact absurd (hweak.1 hk) hwk
                  · exact Or.inr ⟨r', hr', hk⟩

end psoup

namespace psoup

theorem worklist_length_lt {h0 : Heap} (hT : TableInv h0) {W : List Object} (hnd : W.Nodup)
    (hin : ∀ x ∈ W, InTable h0 x) : W.length + 1 ≤ h0.table_size_ := by
  let f : Object → Nat := fun x => match h0.load x with
    | some l => l.table_index
    | none => 0
  have hf : ∀ x ∈ W, 1 ≤ f x ∧ f x < h0.table_size_ ∧ h0.table_ (f x) = x := by
    intro x hx
    obtain ⟨l, hl, -, h1, h2, h3⟩ := load_of_InTable hT (hin x hx)
    have : f x = l.table_index := by simp only [f, hl]
    rw [this]
    exact ⟨h1, h2, h3⟩
  have hinj : ∀ x ∈ W, ∀ y ∈ W, f x = f y → x = y := by
    intro x hx y hy hxy
    rw [← (hf x hx).2.2, ← (hf y hy).2.2, hxy]
  have hnd' : (W.map f).Nodup := List.Nodup.map_on hinj hnd
  have hsub : W.map f ⊆ List.range' 1 (h0.table_size_ - 1) := by
    intro i hi
    obtain ⟨x, hx, rfl⟩ := List.mem_map.1 hi
    rw [List.mem_range'_1]
    have := hf x hx
    omega
  have := (List.subperm_of_subset hnd' hsub).length_le
  simp only [List.length_map, List.length_range'] at this
  have := hT.1
  omega

theorem CheckState_flag {h0 : Heap} {c obj : Object} {h1 h2 : Heap}
    (hs : CheckState h0 c h1) (hm : set_is_weak_referent h1 obj true = some h2) :
    CheckState h0 c h2 ∧ h2.worklist_ = h1.worklist_ ∧ (∀ o, h1.flagged o → h2.flagged o) ∧
      h2.flagged obj := by
  obtain ⟨hf, hw, ⟨l, hl, hl2⟩, hother⟩ := set_is_weak_referent_eq_some hm
  have hmarked : ∀ o, h2.marked o ↔ h1.marked o := by
    intro o
    unfold Heap.marked
    by_cases ho : o = obj
    · subst ho; rw [hl, hl2]; simp
    · rw [hother o ho]
  refine ⟨⟨MarkFrame_trans hs.frame hf, ?_, ?_, ?_, ?_⟩, hw, ?_, ⟨_, hl2, rfl⟩⟩
  · intro o ho; rw [hmarked, hw]; exact hs.marked_iff o ho
  · rw [hw]; exact hs.nodup
  · rw [hw]; exact hs.inTable
  · rw [hw]; exact hs.path
  · rintro o ⟨l', hl', hf'⟩
    by_cases ho : o = obj
    · subst ho; exact ⟨_, hl2, rfl⟩
    · exact ⟨l', by rw [hother o ho]; exact hl', hf'⟩

end psoup

namespace psoup

theorem Rooted_of_root_ref {h0 : Heap} {r : RefPtr} {x : Object} (hfrom : Ref_from r = nullptr)
    (hto : Ref_to h0 r = some x) : Rooted h0 x := by
  cases r with
  | slot s i =>
    exfalso
    have hs : s = nullptr := hfrom
    subst hs
    obtain ⟨l, hl, _⟩ := Ref_to_slot_eq_some.1 hto
    exact not_isHeapObject_nullptr (isHeapObject_of_load hl)
  | root i => exact Or.inl (List.getElem?_mem hto)
  | stack i => exact Or.inr (Or.inl (List.getElem?_mem hto))

theorem Processed_mono {h0 h h' : Heap} {k : Nat} (hp : Processed h0 h k)
    (hpre : ∃ ex, h'.worklist_ = h.worklist_ ++ ex) (hfl : ∀ o, h.flagged o → h'.flagged o)
    (hk : k ≤ h.worklist_.length) : Processed h0 h' k := by
  obtain ⟨ex, hex⟩ := hpre
  intro j x hj hx
  have hjl : j < h.worklist_.length := by omega
  have hx' : h.worklist_[j]? = some x := by
    rw [hex, List.getElem?_append_left hjl] at hx
    exact hx
  obtain ⟨a, b, c1⟩ := hp j x hj hx'
  refine ⟨a, fun r hr => GoodRef_mono (b r hr) ?_, fun hw => hfl x (c1 hw)⟩
  intro s hs
  rw [hex]
  exact List.mem_append_left _ hs

theorem CheckReachable_cursor_spec {h0 : Heap} {c : Object} (hwf : WeaklyFormed h0) :
    ∀ (fuel : Nat) (h : Heap) (k : Nat), CheckState h0 c h → Processed h0 h k →
      k ≤ h.worklist_.length →
      (∀ h', CheckReachable.cursor fuel h k = some (false, h') →
        CheckState h0 c h' ∧ Processed h0 h' h'.worklist_.length ∧
        ∃ ex, h'.worklist_ = h.worklist_ ++ ex) ∧
      (∀ h', CheckReachable.cursor fuel h k = some (true, h') →
        CheckState h0 c h' ∧ (∃ x ∈ h'.worklist_, Rooted h0 x) ∧
        ∃ ex, h'.worklist_ = h.worklist_ ++ ex) ∧
      (IncomingSound h0 → h0.table_size_ ≤ k + fuel →
        ∃ res, CheckReachable.cursor fuel h k = some res) := by
  have hT := hwf.1
  intro fuel
  induction fuel with
  | zero =>
    intro h k hs hp hk
    cases hget : h.worklist_[k]? with
    | none =>
      have hres : CheckReachable.cursor 0 h k = some (false, h) := by
        simp [CheckReachable.cursor, hget]
      have hkl : h.worklist_.length ≤ k := List.getElem?_eq_none_iff.1 hget
      have hkeq : k = h.worklist_.length := by omega
      rw [hres]
      refine ⟨?_, ?_, fun _ _ => ⟨_, rfl⟩⟩
      · intro h' he
        simp only [Option.some.injEq, Prod.mk.injEq, true_and] at he
        subst he
        exact ⟨hs, hkeq ▸ hp, [], by simp⟩
      · intro h' he
        simp at he
    | some obj =>
      have hres : CheckReachable.cursor 0 h k = none := by
        simp [CheckReachable.cursor, hget]
      rw [hres]
      refine ⟨fun _ he => (by cases he), fun _ he => (by cases he), ?_⟩
      intro _ hb
      exfalso
      have hlen := worklist_length_lt hT hs.nodup hs.inTable
      have hkl : k < h.worklist_.length := by
        by_contra hc
        rw [List.getElem?_eq_none (by omega)] at hget
        cases hget
      omega
  | succ fuel ih =>
    intro h k hs hp hk
    cases hget : h.worklist_[k]? with
    | none =>
      have hres : CheckReachable.cursor (fuel + 1) h k = some (false, h) := by
        simp [CheckReachable.cursor, hget]
      have hkl : h.worklist_.length ≤ k := List.getElem?_eq_none_iff.1 hget
      have hkeq : k = h.worklist_.length := by omega
      rw [hres]
      refine ⟨?_, ?_, fun _ _ => ⟨_, rfl⟩⟩
      · intro h' he
        simp only [Option.some.injEq, Prod.mk.injEq, true_and] at he
        subst he
        exact ⟨hs, hkeq ▸ hp, [], by simp⟩
      · intro h' he
        simp at he
    | some obj =>
      have hobjW : obj ∈ h.worklist_ := List.getElem?_mem hget
      have hobjT : InTable h0 obj := hs.inTable obj hobjW
      have hkl : k < h.worklist_.length := by
        by_contra hc
        rw [List.getElem?_eq_none (by omega)] at hget
        cases hget
      have hhandles : h.handles_ = h0.handles_ := (MarkFrame_fields hs.frame).2.2.1
      by_cases hh : obj ∈ h.handles_
      · have hres : CheckReachable.cursor (fuel + 1) h k = some (true, h) := by
          simp [CheckReachable.cursor, hget, hh]
        rw [hres]
        refine ⟨?_, ?_, fun _ _ => ⟨_, rfl⟩⟩
        · intro h' he
          simp at he
        · intro h' he
          simp only [Option.some.injEq, Prod.mk.injEq, true_and] at he
          subst he
          exact ⟨hs, ⟨obj, hobjW, Or.inr (Or.inr (hhandles ▸ hh))⟩, [], by simp⟩
      · obtain ⟨l0, hl0, -⟩ := load_of_InTable hT hobjT
        obtain ⟨o, hlo, hsame⟩ := (MarkFrame_load hs.frame obj).1 l0 hl0
        have hinc : o.incoming_ = h0.incomingOf obj := by
          rw [incomingOf_of_load hl0]
          exact ((SameButMarks_iff l0 o).1 hsame).2.2.2.2.2.1
        have hstep : CheckReachable.cursor (fuel + 1) h k =
            (CheckReachable.incoming h false (h0.incomingOf obj)).bind fun w =>
              match w with
              | .reachable h1 => some (true, h1)
              | .walked h1 is_weak_referent =>
                (if is_weak_referent = true then set_is_weak_referent h1 obj true
                 else some h1).bind fun h2 => CheckReachable.cursor fuel h2 (k + 1) := by
          simp only [CheckReachable.cursor, hget, hh, if_false, hlo, Option.some_bind, hinc] <;> rfl
        obtain ⟨in1, in2, in3⟩ := CheckReachable_incoming_spec (c := c) hwf hobjT
          (h0.incomingOf obj) h false hs hobjW (fun r hr => hr)
        -- what follows a completed walk
        have hwalk : ∀ h1 w', CheckReachable.incoming h false (h0.incomingOf obj) =
              some (.walked h1 w') →
            ∀ h2, (if w' = true then set_is_weak_referent h1 obj true else some h1) = some h2 →
              CheckState h0 c h2 ∧ Processed h0 h2 (k + 1) ∧ k + 1 ≤ h2.worklist_.length ∧
              ∃ ex, h2.worklist_ = h.worklist_ ++ ex := by
          intro h1 w' he h2 he2
          obtain ⟨s1, ⟨ex, hex⟩, hfl, hgood, hw'⟩ := in2 h1 w' he
          have key : CheckState h0 c h2 ∧ h2.worklist_ = h1.worklist_ ∧
              (∀ o, h1.flagged o → h2.flagged o) ∧ (w' = true → h2.flagged obj) := by
            by_cases hwt : w' = true
            · rw [if_pos hwt] at he2
              obtain ⟨a, b, c1, d⟩ := CheckState_flag s1 he2
              exact ⟨a, b, c1, fun _ => d⟩
            · rw [if_neg hwt] at he2
              cases he2
              exact ⟨s1, rfl, fun _ ho => ho, fun hw => absurd hw hwt⟩
          obtain ⟨s2, hw2, hfl2, hflobj⟩ := key
          have hpre : ∃ ex, h2.worklist_ = h.worklist_ ++ ex := ⟨ex, by rw [hw2, hex]⟩
          refine ⟨s2, ?_, ?_, hpre⟩
          · intro j x hj hx
            by_cases hjk : j < k
            · exact Processed_mono hp hpre (fun o ho => hfl2 o ((hfl o).2 ho)) hk j x hjk hx
            · have hjeq : j = k := by omega
              subst hjeq
              have hxo : x = obj := by
                rw [hw2, hex, List.getElem?_append_left hkl, hget] at hx
                exact (Option.some.inj hx).symm
              subst hxo
              refine ⟨hhandles ▸ hh, ?_, ?_⟩
              · intro r hr
                rw [hw2]
                exact hgood r hr
              · intro hweak
                exact hflobj (hw'.2 (Or.inr hweak))
          · rw [hw2, hex, List.length_append]; omega
        rw [hstep]
        refine ⟨?_, ?_, ?_⟩
        · intro h' he
          simp only [Option.bind_eq_some] at he
          obtain ⟨w, hw, he⟩ := he
          cases w with
          | reachable h1 => simp at he
          | walked h1 w' =>
            simp only [Option.bind_eq_some] at he
            obtain ⟨h2, he2, he3⟩ := he
            obtain ⟨s2, p2, k2, ⟨ex, hex⟩⟩ := hwalk h1 w' hw h2 he2
            obtain ⟨a, b, ⟨ex', hex'⟩⟩ := (ih h2 (k + 1) s2 p2 k2).1 h' he3
            exact ⟨a, b, ex ++ ex', by rw [hex', hex, List.append_assoc]⟩
        · intro h' he
          simp only [Option.bind_eq_some] at he
          obtain ⟨w, hw, he⟩ := he
          cases w with
          | reachable h1 =>
            simp only [Option.some.injEq, Prod.mk.injEq, true_and] at he
            subst he
            obtain ⟨s1, ⟨ex, hex⟩, r, hr, hfrom, hto⟩ := in1 h1 hw
            exact ⟨s1, ⟨obj, by rw [hex]; exact List.mem_append_left _ hobjW,
              Rooted_of_root_ref hfrom hto⟩, ex, hex⟩
          | walked h1 w' =>
            simp only [Option.bind_eq_some] at he
            obtain ⟨h2, he2, he3⟩ := he
            obtain ⟨s2, p2, k2, ⟨ex, hex⟩⟩ := hwalk h1 w' hw h2 he2
            obtain ⟨a, b, ⟨ex', hex'⟩⟩ := (ih h2 (k + 1) s2 p2 k2).2.1 h' he3
            exact ⟨a, b, ex ++ ex', by rw [hex', hex, List.append_assoc]⟩
        · intro hsound hb
          obtain ⟨w, hw⟩ := in3 (fun r hr => by
            rw [incomingOf_of_load hl0] at hr
            exact (hsound obj l0 hobjT hl0).2 r hr)
          rw [hw]
          cases w with
          | reachable h1 => exact ⟨_, rfl⟩
          | walked h1 w' =>
            simp only [Option.some_bind]
            obtain ⟨s1, ⟨ex, hex⟩, -, -, -⟩ := in2 h1 w' hw
            have hobj1 : ∃ l1, h1.load obj = some l1 :=
              let ⟨l1, hl1, _⟩ := (MarkFrame_load s1.frame obj).1 l0 hl0; ⟨l1, hl1⟩
            obtain ⟨h2, he2⟩ : ∃ h2, (if w' = true then set_is_weak_referent h1 obj true
                else some h1) = some h2 := by
              by_cases hwt : w' = true
              · rw [if_pos hwt]
                obtain ⟨l1, hl1⟩ := hobj1
                exact ⟨_, modify_eq_some.2 ⟨l1, hl1, rfl⟩⟩
              · rw [if_neg hwt]; exact ⟨_, rfl⟩
            rw [he2]
            simp only [Option.some_bind]
            obtain ⟨s2, p2, k2, -⟩ := hwalk h1 w' hw h2 he2
            exact (ih h2 (k + 1) s2 p2 k2).2.2 hsound (by omega)

end psoup

namespace psoup

/-- The three singletons that `CheckReachable` answers without a walk. -/
theorem CheckReachable_singleton {h : Heap} {c : Object}
    (hc : c = h.interpreter_.nil_obj ∨ c = h.interpreter_.true_obj ∨
      c = h.interpreter_.false_obj) : CheckReachable h c = some (true, h) := by
  simp [CheckReachable, hc]

theorem CheckReachable_spec {h0 : Heap} {c : Object} (hwf : WeaklyFormed h0)
    (hc : InTable h0 c)
    (hns : ¬ (c = h0.interpreter_.nil_obj ∨ c = h0.interpreter_.true_obj ∨
      c = h0.interpreter_.false_obj)) :
    (∀ h', CheckReachable h0 c = some (false, h') →
      CheckState h0 c h' ∧ Processed h0 h' h'.worklist_.length ∧ c ∈ h'.worklist_) ∧
    (∀ h', CheckReachable h0 c = some (true, h') →
      CheckState h0 c h' ∧ ∃ x ∈ h'.worklist_, Rooted h0 x) ∧
    (IncomingSound h0 → ∃ res, CheckReachable h0 c = some res) := by
  obtain ⟨hT, hS, hC, hM⟩ := hwf
  obtain ⟨l0, hl0, -⟩ := load_of_InTable hT hc
  obtain ⟨h1, hh1⟩ : ∃ h1, set_is_marked h0 c true = some h1 :=
    ⟨_, modify_eq_some.2 ⟨l0, hl0, rfl⟩⟩
  have hstep : CheckReachable h0 c =
      CheckReachable.cursor h0.table_size_ (WorklistPush h1 c) 0 := by
    simp [CheckReachable, hns, hh1]
  obtain ⟨hf1, hw1, ⟨l, hl, hl1⟩, hother⟩ := set_is_marked_eq_some hh1
  have hwl : (WorklistPush h1 c).worklist_ = [c] := by
    show h1.worklist_ ++ [c] = [c]
    rw [hw1, hM.1]; rfl
  have hs : CheckState h0 c (WorklistPush h1 c) := by
    refine ⟨MarkFrame_trans hf1 (MarkFrame_WorklistPush h1 c), ?_, ?_, ?_, ?_⟩
    · intro o ho
      rw [hwl, List.mem_singleton]
      show (∃ l, (WorklistPush h1 c).load o = some l ∧ l.is_marked = true) ↔ _
      rw [load_WorklistPush]
      by_cases hoc : o = c
      · subst hoc; rw [hl1]; simp
      · rw [hother o hoc]
        simp only [hoc, iff_false, not_exists, not_and]
        intro l2 hl2
        rw [hM.2 o l2 ho hl2]
        simp
    · rw [hwl]; exact List.nodup_singleton c
    · intro x hx; rw [hwl, List.mem_singleton] at hx; subst hx; exact hc
    · intro x hx; rw [hwl, List.mem_singleton] at hx; subst hx
      exact Relation.ReflTransGen.refl
  have hp : Processed h0 (WorklistPush h1 c) 0 := fun j x hj _ => absurd hj (by omega)
  obtain ⟨c1, c2, c3⟩ := CheckReachable_cursor_spec ⟨hT, hS, hC, hM⟩ h0.table_size_
    (WorklistPush h1 c) 0 hs hp (by omega)
  rw [hstep]
  refine ⟨?_, ?_, fun hsound => c3 hsound (by omega)⟩
  · intro h' he
    obtain ⟨a, b, ex, hex⟩ := c1 h' he
    exact ⟨a, b, by rw [hex, hwl]; simp⟩
  · intro h' he
    obtain ⟨a, b, -⟩ := c2 h' he
    exact ⟨a, b⟩

/-- Every object from which a worklist entry is reachable is on a worklist that was walked to
its end. -/
theorem closure_backward {h0 h' : Heap} (hC : WeakComplete h0)
    (hp : Processed h0 h' h'.worklist_.length) {o t : Object}
    (hpath : Relation.ReflTransGen (Edge h0) o t) (ht : t ∈ h'.worklist_) :
    o ∈ h'.worklist_ := by
  induction hpath using Relation.ReflTransGen.head_induction_on with
  | refl => exact ht
  | @head a b hedge _ ih =>
    obtain ⟨hsT, l, i, hl, hcid, hi, hheap⟩ := hedge
    have hto : Ref_to h0 (.slot a i) = some b := Ref_to_slot_eq_some.2 ⟨l, hl, hi⟩
    obtain ⟨j, hj⟩ := List.getElem?_of_mem ih
    have hjlt : j < h'.worklist_.length := by
      by_contra hc
      rw [List.getElem?_eq_none (by omega)] at hj
      cases hj
    obtain ⟨-, hgood, -⟩ := hp j b hjlt hj
    have hnw : ¬ HeldByWeakArray h0 (.slot a i) := by
      rw [HeldByWeakArray_slot hl]; exact hcid
    obtain ⟨-, hin⟩ := hC (.slot a i) b hsT hnw hto hheap
    obtain ⟨-, s, i2, ls, hr, -, hls, hor⟩ := hgood _ hin
    cases hr
    rw [hl] at hls; cases hls
    rcases hor with hw | hw
    · exact absurd hw hcid
    · exact hw

theorem closure_not_rooted {h0 h' : Heap} (hT : TableInv h0) (hC : WeakComplete h0)
    (hs : CheckState h0 c h')
    (hp : Processed h0 h' h'.worklist_.length) {x : Object} (hx : x ∈ h'.worklist_) :
    ¬ Rooted h0 x := by
  obtain ⟨j, hj⟩ := List.getElem?_of_mem hx
  have hjlt : j < h'.worklist_.length := by
    by_contra hc
    rw [List.getElem?_eq_none (by omega)] at hj
    cases hj
  obtain ⟨hnh, hgood, -⟩ := hp j x hjlt hj
  obtain ⟨lx, hlx, -⟩ := load_of_InTable hT (hs.inTable x hx)
  have hheap := isHeapObject_of_load hlx
  have key : ∀ r, HolderInTable h0 r → ¬ HeldByWeakArray h0 r → Ref_to h0 r = some x →
      Ref_from r ≠ nullptr := by
    intro r hr hnw hto
    obtain ⟨-, hin⟩ := hC r x hr hnw hto hheap
    obtain ⟨-, s, i, ls, rfl, -, hls, -⟩ := hgood r hin
    exact ne_nullptr_of_isHeapObject (isHeapObject_of_load hls)
  rintro (hr | hr | hr)
  · obtain ⟨i, hi⟩ := List.getElem?_of_mem hr
    exact key (.root i) trivial (fun hw => hw) hi rfl
  · obtain ⟨i, hi⟩ := List.getElem?_of_mem hr
    exact key (.stack i) trivial (fun hw => hw) hi rfl
  · exact hnh hr

theorem closure_not_reachable {h0 h' : Heap} (hT : TableInv h0) (hC : WeakComplete h0)
    (hs : CheckState h0 c h')
    (hp : Processed h0 h' h'.worklist_.length) {x : Object} (hx : x ∈ h'.worklist_) :
    ¬ RootReachable h0 x := by
  rintro ⟨o, ho, hpath⟩
  exact closure_not_rooted hT hC hs hp (closure_backward hC hp hpath hx) ho

end psoup

namespace psoup

theorem load_retarget (h : Heap) (r : RefPtr) (t v o : Object) :
    (h.retarget r t v).load o = (h.load o).map (Layout.retarget r t v o) := by
  unfold Heap.retarget
  rw [load_withInterpreter, load_mapMemory]

theorem retarget_fields (h : Heap) (r : RefPtr) (t v : Object) :
    (h.retarget r t v).table_ = h.table_ ∧ (h.retarget r t v).table_size_ = h.table_size_ ∧
    (h.retarget r t v).handles_ = h.handles_ ∧ (h.retarget r t v).worklist_ = h.worklist_ ∧
    (h.retarget r t v).class_table_ = h.class_table_ ∧
    (h.retarget r t v).class_table_size_ = h.class_table_size_ ∧
    (h.retarget r t v).class_table_free_ = h.class_table_free_ ∧
    (h.retarget r t v).heap_size_ = h.heap_size_ ∧
    (h.retarget r t v).gc_count_ = h.gc_count_ ∧
    (h.retarget r t v).interpreter_ = h.interpreter_.retarget r v :=
  ⟨rfl, rfl, rfl, rfl, rfl, rfl, rfl, rfl, rfl, rfl⟩

theorem Interpreter_retarget_slot (s : Interpreter) (o : Object) (i : Nat) (v : Object) :
    s.retarget (.slot o i) v = s := rfl

theorem Ref_to_retarget {h : Heap} {r : RefPtr} {t v : Object} (hto : Ref_to h r = some t)
    (r' : RefPtr) :
    Ref_to (h.retarget r t v) r' = if r' = r then some v else Ref_to h r' := by
  cases r' with
  | slot s' i' =>
    simp only [Ref_to, load_retarget]
    cases hl : h.load s' with
    | none =>
      simp only [Option.map_none', Option.none_bind]
      split_ifs with heq
      · rw [← heq] at hto
        simp [Ref_to, hl] at hto
      · rfl
    | some l =>
      simp only [Option.map_some', Option.some_bind, Layout.retarget]
      cases r with
      | slot s i =>
        by_cases hs : s' = s
        · subst hs
          simp only [if_true, RefPtr.slot.injEq, true_and]
          have hlt : i < l.refs.length := by
            simp only [Ref_to, hl, Option.some_bind] at hto
            by_contra hc
            rw [List.getElem?_eq_none (by omega)] at hto
            cases hto
          by_cases hi : i' = i
          · subst hi
            simp [List.getElem?_set, hlt]
          · simp only [hi, if_false]
            rw [List.getElem?_set_ne (Ne.symm hi)]
        · simp [hs]
      | root i => simp
      | stack i => simp
  | root i' =>
    cases r with
    | slot s i => simp [Ref_to, Heap.retarget, Heap.withInterpreter, Interpreter.retarget]
    | root i =>
      simp only [Ref_to, Heap.retarget, Heap.withInterpreter, Interpreter.retarget,
        RefPtr.root.injEq] at hto ⊢
      have hlt : i < h.interpreter_.roots.length := by
        by_contra hc
        rw [List.getElem?_eq_none (by omega)] at hto
        cases hto
      by_cases hi : i' = i
      · subst hi
        simp [List.getElem?_set, hlt]
      · simp only [hi, if_false]
        rw [List.getElem?_set_ne (Ne.symm hi)]
    | stack i => simp [Ref_to, Heap.retarget, Heap.withInterpreter, Interpreter.retarget]
  | stack i' =>
    cases r with
    | slot s i => simp [Ref_to, Heap.retarget, Heap.withInterpreter, Interpreter.retarget]
    | root i => simp [Ref_to, Heap.retarget, Heap.withInterpreter, Interpreter.retarget]
    | stack i =>
      simp only [Ref_to, Heap.retarget, Heap.withInterpreter, Interpreter.retarget,
        RefPtr.stack.injEq] at hto ⊢
      have hlt : i < h.interpreter_.stack.length := by
        by_contra hc
        rw [List.getElem?_eq_none (by omega)] at hto
        cases hto
      by_cases hi : i' = i
      · subst hi
        simp [List.getElem?_set, hlt]
      · simp only [hi, if_false]
        rw [List.getElem?_set_ne (Ne.symm hi)]

theorem incomingOf_retarget {h : Heap} {r : RefPtr} {t v : Object} (o : Object)
    (hv : IsHeapObject v → o = v → ∃ l, h.load o = some l) :
    (h.retarget r t v).incomingOf o =
      (if o = t ∧ IsHeapObject t then (h.incomingOf o).erase r else h.incomingOf o) ++
      (if o = v ∧ IsHeapObject v then [r] else []) := by
  unfold Heap.incomingOf
  rw [load_retarget]
  cases hl : h.load o with
  | none =>
    have : ¬ (o = v ∧ IsHeapObject v) := by
      rintro ⟨h1, h2⟩
      obtain ⟨l, hl'⟩ := hv h2 h1
      rw [hl] at hl'; cases hl'
    simp [this]
  | some l => simp [Layout.retarget]

theorem Layout_retarget_fields (r : RefPtr) (t v o : Object) (l : Layout) :
    (Layout.retarget r t v o l).cid = l.cid ∧
    (Layout.retarget r t v o l).is_marked = l.is_marked ∧
    (Layout.retarget r t v o l).is_weak_referent = l.is_weak_referent ∧
    (Layout.retarget r t v o l).in_class_table = l.in_class_table ∧
    (Layout.retarget r t v o l).header_hash_ = l.header_hash_ ∧
    (Layout.retarget r t v o l).size_field = l.size_field ∧
    (Layout.retarget r t v o l).size_ = l.size_ ∧
    (Layout.retarget r t v o l).overflow_size_ = l.overflow_size_ ∧
    (Layout.retarget r t v o l).is_canonical = l.is_canonical ∧
    (∀ s i, r = RefPtr.slot s i → o ≠ s → (Layout.retarget r t v o l).refs = l.refs) :=
  ⟨rfl, rfl, rfl, rfl, rfl, rfl, rfl, rfl, rfl, by
    rintro s i rfl hne
    simp [Layout.retarget, hne]⟩

end psoup

namespace psoup

theorem SameButRefs_iff (l1 l2 : Layout) :
    Layout.SameButRefs l1 l2 ↔
      l2.is_marked = l1.is_marked ∧ l2.is_weak_referent = l1.is_weak_referent ∧
      l2.in_class_table = l1.in_class_table ∧ l2.is_canonical = l1.is_canonical ∧
      l2.size_field = l1.size_field ∧ l2.cid = l1.cid ∧
      l2.overflow_size_ = l1.overflow_size_ ∧ l2.size_ = l1.size_ := by
  cases l1; cases l2
  simp [Layout.SameButRefs]

theorem SameButRefs_refl (l : Layout) : Layout.SameButRefs l l := rfl

theorem SameButRefs_trans {a b c : Layout} (h1 : Layout.SameButRefs a b)
    (h2 : Layout.SameButRefs b c) : Layout.SameButRefs a c := by
  rw [SameButRefs_iff] at *
  obtain ⟨a1, a2, a3, a4, a5, a6, a7, a8⟩ := h1
  obtain ⟨b1, b2, b3, b4, b5, b6, b7, b8⟩ := h2
  exact ⟨b1.trans a1, b2.trans a2, b3.trans a3, b4.trans a4, b5.trans a5, b6.trans a6,
    b7.trans a7, b8.trans a8⟩

theorem SameButRefs_retarget (r : RefPtr) (t v o : Object) (l : Layout) :
    Layout.SameButRefs l (Layout.retarget r t v o l) := by
  rw [SameButRefs_iff]
  exact ⟨rfl, rfl, rfl, rfl, rfl, rfl, rfl, rfl⟩

theorem isHeapObject_of_InTable {h : Heap} (hT : TableInv h) {o : Object} (ho : InTable h o) :
    IsHeapObject o := by
  obtain ⟨l, hl, -⟩ := load_of_InTable hT ho
  exact isHeapObject_of_load hl

theorem Reclaiming_retarget {h1 h h' : Heap} (hc : ClosureFound h1) (hr : Reclaiming h1 h)
    {r : RefPtr} {v : Object} (hu : UpdateNoCheck h r v = some h') (hgood : GoodHolder h1 r) :
    Reclaiming h1 h' ∧ h'.table_ = h.table_ ∧ h'.table_size_ = h.table_size_ ∧
    (∀ o l', h'.load o = some l' → ∃ l, h.load o = some l ∧ l'.header_hash_ = l.header_hash_ ∧
      l'.cid = l.cid) ∧
    (∀ o l, h.load o = some l → ∃ l', h'.load o = some l') := by
  obtain ⟨t, hto, htl, hvl, rfl⟩ := UpdateNoCheck_eq_some.1 hu
  obtain ⟨s, i, rfl, hsT, hsW⟩ := hgood
  have hinc : ∀ o, (h.retarget (.slot s i) t v).incomingOf o =
      (if o = t ∧ IsHeapObject t then (h.incomingOf o).erase (.slot s i) else h.incomingOf o) ++
      (if o = v ∧ IsHeapObject v then [.slot s i] else []) := by
    intro o
    apply incomingOf_retarget
    intro hv ho
    subst ho
    exact hvl hv
  have hnotin : ∀ o, InTable h1 o → ¬ (o = t ∧ IsHeapObject t) →
      RefPtr.slot s i ∉ h.incomingOf o := by
    intro o ho hne hin
    rcases hr.sound o ho _ hin with ⟨h2, -⟩ | h2
    · rw [hto] at h2
      cases h2
      exact hne ⟨rfl, isHeapObject_of_InTable hc.table ho⟩
    · rw [hto] at h2; cases h2
  have hA : ∀ o, InTable h1 o → RefPtr.slot s i ∉
      (if o = t ∧ IsHeapObject t then (h.incomingOf o).erase (.slot s i)
        else h.incomingOf o) := by
    intro o ho
    by_cases hot : o = t ∧ IsHeapObject t
    · rw [if_pos hot]
      exact List.Nodup.not_mem_erase (hr.nodup o ho)
    · rw [if_neg hot]
      exact hnotin o ho hot
  have hAsub : ∀ o r', r' ∈ (if o = t ∧ IsHeapObject t then
      (h.incomingOf o).erase (.slot s i) else h.incomingOf o) → r' ∈ h.incomingOf o := by
    intro o r' hr'
    split_ifs at hr'
    · exact List.mem_of_mem_erase hr'
    · exact hr'
  refine ⟨⟨hr.interp, hr.handles, hr.worklist, hr.class_table, ?_, ?_, ?_, ?_, ?_, ?_⟩,
    rfl, rfl, ?_, ?_⟩
  · intro o
    refine ⟨?_, ?_⟩
    · intro l1 hl1
      obtain ⟨l, hl, hs⟩ := (hr.layout o).1 l1 hl1
      refine ⟨_, by rw [load_retarget, hl]; rfl, SameButRefs_trans hs ?_⟩
      exact SameButRefs_retarget _ _ _ _ _
    · intro hn
      rw [load_retarget, (hr.layout o).2 hn]; rfl
  · intro s' l1 l' hs'W hl1 hcid hl'
    rw [load_retarget] at hl'
    cases hl : h.load s' with
    | none => rw [hl] at hl'; cases hl'
    | some l =>
      rw [hl] at hl'
      simp only [Option.map_some', Option.some.injEq] at hl'
      subst hl'
      have hne : s' ≠ s := by
        rintro rfl
        rcases hsW with ⟨l2, hl2, hw⟩ | hw
        · rw [hl1] at hl2; cases hl2; exact hcid hw
        · exact hs'W hw
      rw [(Layout_retarget_fields (.slot s i) t v s' l).2.2.2.2.2.2.2.2.2 s i rfl hne]
      exact hr.strong_refs s' l1 l hs'W hl1 hcid hl
  · intro o ho
    rw [hinc o]
    have hnd : (if o = t ∧ IsHeapObject t then (h.incomingOf o).erase (.slot s i)
        else h.incomingOf o).Nodup := by
      split_ifs
      · exact (hr.nodup o ho).erase _
      · exact hr.nodup o ho
    have hB : (if o = v ∧ IsHeapObject v then [RefPtr.slot s i] else []).Nodup := by
      split_ifs
      · exact List.nodup_singleton _
      · exact List.nodup_nil
    refine List.Nodup.append hnd hB ?_
    intro a ha hb
    split_ifs at hb
    · rw [List.mem_singleton] at hb
      subst hb
      exact hA o ho ha
    · cases hb
  · intro o ho r' hr'
    rw [hinc o, List.mem_append] at hr'
    rcases hr' with hr' | hr'
    · have hne : r' ≠ .slot s i := by
        rintro rfl
        exact hA o ho hr'
      rw [Ref_to_retarget hto, if_neg hne]
      exact hr.sound o ho r' (hAsub o r' hr')
    · split_ifs at hr' with hov
      · rw [List.mem_singleton] at hr'
        subst hr'
        left
        rw [Ref_to_retarget hto, if_pos rfl, hov.1]
        exact ⟨rfl, hsT⟩
      · cases hr'
  · intro r' v' hh hnw hfrom hto' hv'
    have hin := hr.listed r' v' hh hnw hfrom hto' hv'
    have hne : r' ≠ .slot s i := by
      rintro rfl
      rcases hsW with hw | hw
      · exact hnw hw
      · exact hfrom hw
    rw [hinc v', List.mem_append]
    left
    split_ifs
    · exact (List.mem_erase_of_ne hne).2 hin
    · exact hin
  · intro x hx r' hr'
    rw [hinc x, List.mem_append] at hr'
    rcases hr' with hr' | hr'
    · exact hr.closed x hx r' (hAsub x r' hr')
    · split_ifs at hr'
      · rw [List.mem_singleton] at hr'
        subst hr'
        exact ⟨s, i, rfl, hsT, hsW⟩
      · cases hr'
  · intro o l' hl'
    rw [load_retarget] at hl'
    cases hl : h.load o with
    | none => rw [hl] at hl'; cases hl'
    | some l =>
      rw [hl] at hl'
      simp only [Option.map_some', Option.some.injEq] at hl'
      subst hl'
      exact ⟨l, rfl, rfl, rfl⟩
  · intro o l hl
    exact ⟨_, by rw [load_retarget, hl]; rfl⟩

end psoup

namespace psoup

theorem SameTable_refl (h : Heap) : SameTable h h :=
  ⟨rfl, rfl, fun _ l hl => ⟨l, hl, rfl, rfl⟩, fun _ l hl => ⟨l, hl⟩⟩

theorem SameTable_trans {h1 h2 h3 : Heap} (a : SameTable h1 h2) (b : SameTable h2 h3) :
    SameTable h1 h3 := by
  refine ⟨b.table.trans a.table, b.size.trans a.size, ?_, ?_⟩
  · intro o l3 hl3
    obtain ⟨l2, hl2, e1, e2⟩ := b.back o l3 hl3
    obtain ⟨l1, hl1, e3, e4⟩ := a.back o l2 hl2
    exact ⟨l1, hl1, e1.trans e3, e2.trans e4⟩
  · intro o l1 hl1
    obtain ⟨l2, hl2⟩ := a.forth o l1 hl1
    exact b.forth o l2 hl2

theorem SameTable_InTable {h1 h2 : Heap} (a : SameTable h1 h2) (o : Object) :
    InTable h2 o ↔ InTable h1 o := by
  unfold InTable
  rw [a.table, a.size]

theorem SameTable_TableInv {h1 h2 : Heap} (a : SameTable h1 h2) (hT : TableInv h1) :
    TableInv h2 := by
  refine ⟨a.size ▸ hT.1, ?_⟩
  intro i h1i h2i
  rw [a.size] at h2i
  obtain ⟨l, hl, hi, hc⟩ := hT.2 i h1i h2i
  rw [a.table]
  obtain ⟨l2, hl2⟩ := a.forth _ l hl
  obtain ⟨l1, hl1, e1, e2⟩ := a.back _ l2 hl2
  rw [hl] at hl1; cases hl1
  refine ⟨l2, hl2, ?_, ?_⟩
  · unfold Layout.table_index at hi ⊢; rw [e1]; exact hi
  · rw [e2]; exact hc

theorem Link_next_spec {list : List RefPtr} {r n : RefPtr} (hn : Link_next list r = some n) :
    n ∈ list ∧ (list.Nodup → n ≠ r) := by
  induction list with
  | nil => simp [Link_next] at hn
  | cons a rest ih =>
    by_cases har : a = r
    · subst har
      have hd : (a :: rest).dropWhile (fun x => decide (x ≠ a)) = a :: rest := by
        simp [List.dropWhile]
      unfold Link_next at hn
      rw [hd] at hn
      cases rest with
      | nil => simp at hn
      | cons b rest' =>
        simp only [Option.some.injEq] at hn
        subst hn
        refine ⟨by simp, ?_⟩
        intro hnd hba
        subst hba
        simp at hnd
    · have hd : (a :: rest).dropWhile (fun x => decide (x ≠ r)) =
          rest.dropWhile (fun x => decide (x ≠ r)) := by
        simp [List.dropWhile, har]
      have hn' : Link_next rest r = some n := by
        unfold Link_next at hn ⊢
        rw [hd] at hn
        exact hn
      obtain ⟨h1, h2⟩ := ih hn'
      exact ⟨List.mem_cons_of_mem _ h1, fun hnd => h2 (List.Nodup.of_cons hnd)⟩

theorem Unlink_weak_reclaiming {h1 : Heap} (hc : ClosureFound h1) {x : Object}
    (hx : x ∈ h1.worklist_) :
    ∀ (fuel : Nat) (h : Heap) (cur : Option RefPtr), Reclaiming h1 h →
      (∀ r, cur = some r → r ∈ h.incomingOf x) →
      ∀ h', Unlink.weak fuel h x cur = some h' → Reclaiming h1 h' ∧ SameTable h h' := by
  have hxT := hc.inTable x hx
  intro fuel
  induction fuel with
  | zero =>
    intro h cur hr hcur h' he
    cases cur with
    | none =>
      simp only [Unlink.weak, Option.some.injEq] at he
      subst he
      exact ⟨hr, SameTable_refl h⟩
    | some r => simp [Unlink.weak] at he
  | succ fuel ih =>
    intro h cur hr hcur h' he
    cases cur with
    | none =>
      simp only [Unlink.weak, Option.some.injEq] at he
      subst he
      exact ⟨hr, SameTable_refl h⟩
    | some r =>
      simp only [Unlink.weak, Option.bind_eq_some] at he
      obtain ⟨o, hlo, t0, ht0, ha, hua, he⟩ := he
      have hrin : r ∈ h.incomingOf x := hcur r rfl
      have hgood := hr.closed x hx r hrin
      obtain ⟨hra, e1, e2, e3, e4⟩ := Reclaiming_retarget hc hr hua hgood
      have hst : SameTable h ha := ⟨e1, e2, e3, e4⟩
      obtain ⟨t, hto, htl, hvl, hae⟩ := UpdateNoCheck_eq_some.1 hua
      have htx : t = x := by
        rcases hr.sound x hxT r hrin with ⟨h2, -⟩ | h2
        · rw [hto] at h2; exact Option.some.inj h2
        · rw [hto] at h2; cases h2
      subst htx
      have hnext : ∀ n, Link_next o.incoming_ r = some n → n ∈ ha.incomingOf t := by
        intro n hn
        obtain ⟨hn1, hn2⟩ := Link_next_spec hn
        have hnd : o.incoming_.Nodup := by
          have := hr.nodup t hxT
          rw [incomingOf_of_load hlo] at this
          exact this
        have hne := hn2 hnd
        rw [hae, incomingOf_retarget t (fun hv ho => by subst ho; exact hvl hv),
          List.mem_append]
        left
        rw [incomingOf_of_load hlo]
        split_ifs
        · exact (List.mem_erase_of_ne hne).2 hn1
        · exact hn1
      obtain ⟨hr', hst'⟩ := ih ha (Link_next o.incoming_ r) hra hnext h' he
      exact ⟨hr', SameTable_trans hst hst'⟩

theorem Unlink_outgoing_reclaiming {h1 : Heap} (hc : ClosureFound h1) {x : Object}
    (hx : x ∈ h1.worklist_) :
    ∀ (is : List Nat) (h : Heap), Reclaiming h1 h →
      ∀ h', Unlink.outgoing h x is = some h' → Reclaiming h1 h' ∧ SameTable h h' := by
  have hxT := hc.inTable x hx
  intro is
  induction is with
  | nil =>
    intro h hr h' he
    simp only [Unlink.outgoing, Option.some.injEq] at he
    subst he
    exact ⟨hr, SameTable_refl h⟩
  | cons i rest ih =>
    intro h hr h' he
    simp only [Unlink.outgoing, Option.bind_eq_some] at he
    obtain ⟨t, hto, ha, hua, he⟩ := he
    have key : Reclaiming h1 ha ∧ SameTable h ha := by
      by_cases hsm : IsSmallInteger t
      · rw [if_neg (not_not.2 hsm)] at hua
        cases hua
        exact ⟨hr, SameTable_refl h⟩
      · rw [if_pos hsm] at hua
        obtain ⟨hra, e1, e2, e3, e4⟩ := Reclaiming_retarget hc hr hua
          ⟨x, i, rfl, hxT, Or.inr hx⟩
        exact ⟨hra, ⟨e1, e2, e3, e4⟩⟩
    obtain ⟨hr', hst'⟩ := ih ha key.1 h' he
    exact ⟨hr', SameTable_trans key.2 hst'⟩

end psoup

namespace psoup

theorem IndexField_decode_update (v w : Nat) :
    IndexField.decode (IndexField.update v w) = v % 2 ^ 32 := by
  unfold IndexField.decode IndexField.update
  omega

theorem IndexField_decode_lt (w : Nat) : IndexField.decode w < 2 ^ 32 := by
  unfold IndexField.decode
  omega

theorem HashField_decode_IndexField_update (v w : Nat) (hw : w < 2 ^ 64) :
    HashField.decode (IndexField.update v w) = HashField.decode w := by
  unfold HashField.decode IndexField.update
  omega

theorem IndexOnly_g {g : Object → Layout → Layout}
    (hg : ∀ o l, { g o l with header_hash_ := l.header_hash_ } = l) (o : Object) (l : Layout) :
    (g o l).refs = l.refs ∧ (g o l).incoming_ = l.incoming_ ∧ (g o l).cid = l.cid ∧
    Layout.SameButRefs l (g o l) := by
  have h := hg o l
  rw [SameButRefs_iff]
  generalize g o l = x at h
  cases x
  cases l
  simp only [Layout.mk.injEq] at h
  obtain ⟨h1, h2, h3, h4, h5, h6, -, h8, h9, h10, h11⟩ := h
  exact ⟨h11, h8, h6, h1, h2, h3, h4, h5, h6, h9, h10⟩

theorem IndexOnly_load {h h' : Heap} (hi : IndexOnly h h') :
    ∃ g : Object → Layout → Layout,
      (∀ o l, { g o l with header_hash_ := l.header_hash_ } = l) ∧
      (∀ o, h'.load o = (h.load o).map (g o)) ∧ h'.interpreter_ = h.interpreter_ ∧
      h'.handles_ = h.handles_ ∧ h'.worklist_ = h.worklist_ ∧
      h'.class_table_ = h.class_table_ ∧ h'.class_table_size_ = h.class_table_size_ ∧
      h'.class_table_free_ = h.class_table_free_ ∧ h'.heap_size_ = h.heap_size_ ∧
      h'.gc_count_ = h.gc_count_ := by
  obtain ⟨g, t, n, hg, rfl⟩ := hi
  exact ⟨g, hg, fun o => load_mapMemory h g o, rfl, rfl, rfl, rfl, rfl, rfl, rfl, rfl⟩

theorem IndexOnly_Ref_to {h h' : Heap} (hi : IndexOnly h h') (r : RefPtr) :
    Ref_to h' r = Ref_to h r := by
  obtain ⟨g, hg, hl, hint, -⟩ := IndexOnly_load hi
  cases r with
  | slot s i =>
    simp only [Ref_to, hl]
    cases h.load s with
    | none => rfl
    | some l => simp [(IndexOnly_g hg s l).1]
  | root i => simp only [Ref_to, hint]
  | stack i => simp only [Ref_to, hint]

theorem IndexOnly_incomingOf {h h' : Heap} (hi : IndexOnly h h') (o : Object) :
    h'.incomingOf o = h.incomingOf o := by
  obtain ⟨g, hg, hl, -⟩ := IndexOnly_load hi
  unfold Heap.incomingOf
  rw [hl]
  cases h.load o with
  | none => rfl
  | some l => simp [(IndexOnly_g hg o l).2.1]

theorem Reclaiming_IndexOnly {h1 h h' : Heap} (hr : Reclaiming h1 h) (hi : IndexOnly h h') :
    Reclaiming h1 h' := by
  obtain ⟨g, hg, hl, hint, hha, hwl, c1, c2, c3, c4, c5⟩ := IndexOnly_load hi
  have hto := IndexOnly_Ref_to hi
  have hinc := IndexOnly_incomingOf hi
  refine ⟨hint.trans hr.interp, hha.trans hr.handles, hwl.trans hr.worklist, ?_, ?_, ?_, ?_,
    ?_, ?_, ?_⟩
  · obtain ⟨d1, d2, d3, d4, d5⟩ := hr.class_table
    exact ⟨c1.trans d1, c2.trans d2, c3.trans d3, c4.trans d4, c5.trans d5⟩
  · intro o
    refine ⟨?_, ?_⟩
    · intro l1 hl1
      obtain ⟨l, hlo, hs⟩ := (hr.layout o).1 l1 hl1
      exact ⟨g o l, by rw [hl, hlo]; rfl, SameButRefs_trans hs (IndexOnly_g hg o l).2.2.2⟩
    · intro hn
      rw [hl, (hr.layout o).2 hn]; rfl
  · intro s l1 l' hs hl1 hcid hl'
    rw [hl] at hl'
    cases hls : h.load s with
    | none => rw [hls] at hl'; cases hl'
    | some l =>
      rw [hls] at hl'
      simp only [Option.map_some', Option.some.injEq] at hl'
      subst hl'
      rw [(IndexOnly_g hg s l).1]
      exact hr.strong_refs s l1 l hs hl1 hcid hls
  · intro o ho; rw [hinc]; exact hr.nodup o ho
  · intro o ho r hrin
    rw [hinc] at hrin
    rw [hto]
    exact hr.sound o ho r hrin
  · intro r v a b c d e
    rw [hinc]
    exact hr.listed r v a b c d e
  · intro x hx r hrin
    rw [hinc] at hrin
    exact hr.closed x hx r hrin

theorem set_table_index_eq_some {h h' : Heap} {o : Object} {v : Nat} :
    set_table_index h o v = some h' ↔
      (∃ l, h.load o = some l) ∧
      h' = h.mapMemory (fun o' l => if o' = o then
        { l with header_hash_ := IndexField.update v l.header_hash_ } else l) :=
  modify_eq_mapMemory

end psoup

namespace psoup

theorem Unlink_table_spec {h : Heap} {x : Object} (hT : TableInv h) (hx : InTable h x) :
    ∃ h', Unlink.table h x = some h' ∧ IndexOnly h h' ∧ TableInv h' ∧
      h'.table_size_ + 1 = h.table_size_ ∧ (∀ o, InTable h' o ↔ (InTable h o ∧ o ≠ x)) := by
  obtain ⟨lx, hlx, -, hi1, hi2, hi3⟩ := load_of_InTable hT hx
  have hn0 : h.table_size_ ≠ 0 := by omega
  have hlastT : InTable h (h.table_ (h.table_size_ - 1)) :=
    ⟨h.table_size_ - 1, by omega, by omega, rfl⟩
  obtain ⟨ll, hll, hlli, hllc⟩ := hT.2 (h.table_size_ - 1) (by omega) (by omega)
  -- distinct objects have distinct indices
  have huniq : ∀ y ly, h.load y = some ly → InTable h y → h.table_ ly.table_index = y := by
    intro y ly hly hy
    obtain ⟨l2, hl2, -, -, -, h3⟩ := load_of_InTable hT hy
    rw [hly] at hl2; cases hl2; exact h3
  let g : Object → Layout → Layout := fun o l =>
    (fun l' : Layout => if o = h.table_ (h.table_size_ - 1) then
      { l' with header_hash_ := IndexField.update lx.table_index l'.header_hash_ } else l')
    (if o = x then { l with header_hash_ := IndexField.update 0 l.header_hash_ } else l)
  let t' : Nat → Object := Function.update
    (Function.update h.table_ (h.table_size_ - 1) x) lx.table_index
    (h.table_ (h.table_size_ - 1))
  have hg : ∀ o l, { g o l with header_hash_ := l.header_hash_ } = l := by
    intro o l
    simp only [g]
    split_ifs <;> rfl
  have hres : Unlink.table h x =
      some { h.mapMemory g with table_ := t', table_size_ := h.table_size_ - 1 } := by
    unfold Unlink.table
    rw [hlx]
    simp only [Option.some_bind, hn0, if_false]
    have e1 : set_table_index h x 0 = some (h.mapMemory (fun o' l => if o' = x then
        { l with header_hash_ := IndexField.update 0 l.header_hash_ } else l)) :=
      set_table_index_eq_some.2 ⟨⟨lx, hlx⟩, rfl⟩
    rw [e1]
    simp only [Option.some_bind]
    have e2 : ∀ (hb : Heap), (∃ l, hb.load (h.table_ (h.table_size_ - 1)) = some l) →
        set_table_index hb (h.table_ (h.table_size_ - 1)) lx.table_index =
        some (hb.mapMemory (fun o' l => if o' = h.table_ (h.table_size_ - 1) then
          { l with header_hash_ := IndexField.update lx.table_index l.header_hash_ }
          else l)) :=
      fun hb hl => set_table_index_eq_some.2 ⟨hl, rfl⟩
    have hlive : ∃ l, ({ h.mapMemory (fun o' l => if o' = x then
        { l with header_hash_ := IndexField.update 0 l.header_hash_ } else l) with
        table_ := Function.update h.table_ (h.table_size_ - 1) x } : Heap).load
          (h.table_ (h.table_size_ - 1)) = some l := by
      have : ∀ (a : Heap) (tt : Nat → Object) (o : Object),
          ({ a with table_ := tt } : Heap).load o = a.load o := fun _ _ _ => rfl
      rw [this, load_mapMemory, hll]
      exact ⟨_, rfl⟩
    have e3 := e2 _ hlive
    simp only [Heap.mapMemory] at e3 ⊢
    rw [e3]
    simp only [Option.some_bind, Option.some.injEq, Option.map_map]
    rfl
  have hload : ∀ o, ({ h.mapMemory g with table_ := t', table_size_ := h.table_size_ - 1 } :
      Heap).load o = (h.load o).map (g o) := fun o => load_mapMemory h g o
  have hidx : lx.table_index < 2 ^ 32 := IndexField_decode_lt _
  have ht'i : ∀ j, j < h.table_size_ - 1 → j ≠ lx.table_index → t' j = h.table_ j := by
    intro j hj hji
    simp only [t', Function.update, hji, dif_neg, not_false_eq_true]
    have : j ≠ h.table_size_ - 1 := by omega
    simp [this]
  have ht'x : t' lx.table_index = h.table_ (h.table_size_ - 1) := by
    simp [t', Function.update]
  refine ⟨_, hres, ⟨g, t', _, hg, rfl⟩, ⟨?_, ?_⟩, ?_, ?_⟩
  · show 1 ≤ h.table_size_ - 1
    omega
  · intro j hj1 hj2
    have hj2' : j < h.table_size_ - 1 := hj2
    show ∃ l, ({ h.mapMemory g with table_ := t', table_size_ := h.table_size_ - 1 } :
      Heap).load (t' j) = some l ∧ _
    by_cases hji : j = lx.table_index
    · subst hji
      rw [ht'x, hload, hll]
      refine ⟨_, rfl, ?_, ?_⟩
      · simp only [g, if_true, Layout.table_index]
        split_ifs <;>
          · show IndexField.decode (IndexField.update lx.table_index _) = lx.table_index
            rw [IndexField_decode_update]
            exact Nat.mod_eq_of_lt hidx
      · simp only [g]
        split_ifs <;> exact hllc
    · rw [ht'i j hj2' hji, hload]
      obtain ⟨ly, hly, hlyi, hlyc⟩ := hT.2 j hj1 (by omega)
      have hyT : InTable h (h.table_ j) := ⟨j, hj1, by omega, rfl⟩
      have hyx : h.table_ j ≠ x := by
        intro he
        rw [he, hlx] at hly
        cases hly
        exact hji hlyi.symm
      have hyl : h.table_ j ≠ h.table_ (h.table_size_ - 1) := by
        intro he
        rw [he, hll] at hly
        cases hly
        omega
      rw [hly]
      refine ⟨_, rfl, ?_, ?_⟩
      · simp only [g, hyx, hyl, if_false]; exact hlyi
      · simp only [g, hyx, hyl, if_false]; exact hlyc
  · show h.table_size_ - 1 + 1 = h.table_size_
    omega
  · intro o
    constructor
    · rintro ⟨j, hj1, hj2, hj3⟩
      have hj2' : j < h.table_size_ - 1 := hj2
      have hj3' : t' j = o := hj3
      by_cases hji : j = lx.table_index
      · subst hji
        rw [ht'x] at hj3'
        subst hj3'
        refine ⟨hlastT, ?_⟩
        intro he
        rw [he, hlx] at hll
        cases hll
        omega
      · rw [ht'i j hj2' hji] at hj3'
        subst hj3'
        refine ⟨⟨j, hj1, by omega, rfl⟩, ?_⟩
        intro he
        obtain ⟨ly, hly, hlyi, -⟩ := hT.2 j hj1 (by omega)
        rw [he, hlx] at hly
        cases hly
        exact hji hlyi.symm
    · rintro ⟨⟨j, hj1, hj2, hj3⟩, hne⟩
      have hji : j ≠ lx.table_index := by
        intro he
        subst he
        rw [hi3] at hj3
        exact hne hj3.symm
      by_cases hjl : j = h.table_size_ - 1
      · subst hjl
        refine ⟨lx.table_index, hi1, ?_, ?_⟩
        · show lx.table_index < h.table_size_ - 1
          omega
        · show t' lx.table_index = o
          rw [ht'x]; exact hj3
      · refine ⟨j, hj1, ?_, ?_⟩
        · show j < h.table_size_ - 1
          omega
        · show t' j = o
          rw [ht'i j (by omega) hji]; exact hj3

end psoup

namespace psoup

theorem Unlink_reclaiming {h1 h h' : Heap} (hc : ClosureFound h1) {x : Object}
    (hx : x ∈ h1.worklist_) {p : List Object} (hr : Reclaiming h1 h)
    (hts : TableShrunk h1 p h) (hxp : x ∉ p) (hu : Unlink h x = some h') :
    Reclaiming h1 h' ∧ TableShrunk h1 (x :: p) h' := by
  have hxT := hc.inTable x hx
  simp only [Unlink, Option.bind_eq_some] at hu
  obtain ⟨o, hlo, ha, hwa, o1, hlo1, hb, hob, htb⟩ := hu
  have ka : Reclaiming h1 ha ∧ SameTable h ha := by
    by_cases hw : o.is_weak_referent = true
    · rw [if_pos hw] at hwa
      refine Unlink_weak_reclaiming hc hx _ h _ hr ?_ ha hwa
      intro r hr'
      rw [incomingOf_of_load hlo]
      exact List.mem_of_mem_head? hr'
    · rw [if_neg hw] at hwa
      cases hwa
      exact ⟨hr, SameTable_refl h⟩
  obtain ⟨kb1, kb2⟩ := Unlink_outgoing_reclaiming hc hx _ ha ka.1 hb hob
  have hst : SameTable h hb := SameTable_trans ka.2 kb2
  have hTb : TableInv hb := SameTable_TableInv hst hts.inv
  have hxb : InTable hb x := (SameTable_InTable hst x).2 ((hts.mem x).2 ⟨hxT, hxp⟩)
  obtain ⟨h'', hres, hio, hT', hsz, hmem⟩ := Unlink_table_spec hTb hxb
  rw [hres] at htb
  cases htb
  refine ⟨Reclaiming_IndexOnly kb1 hio, ?_, hT', ?_⟩
  · have := hts.size
    rw [hst.size] at hsz
    simp only [List.length_cons]
    omega
  · intro y
    rw [hmem y, SameTable_InTable hst y, hts.mem y, List.mem_cons]
    tauto

theorem GCStep_unlink_reclaiming {h1 : Heap} (hc : ClosureFound h1) :
    ∀ (xs p : List Object) (h : Heap) (k : Bool), Reclaiming h1 h → TableShrunk h1 p h →
      (∀ x ∈ xs, x ∈ h1.worklist_) → xs.Nodup → (∀ x ∈ xs, x ∉ p) →
      ∀ h' k', GCStep.unlink h k xs = some (h', k') →
        Reclaiming h1 h' ∧ ∃ p', TableShrunk h1 p' h' ∧ p'.length = xs.length + p.length ∧
          ∀ o, o ∈ p' ↔ (o ∈ xs ∨ o ∈ p) := by
  intro xs
  induction xs with
  | nil =>
    intro p h k hr hts _ _ _ h' k' he
    simp only [GCStep.unlink, Option.some.injEq, Prod.mk.injEq] at he
    obtain ⟨rfl, -⟩ := he
    exact ⟨hr, p, hts, by simp, by simp⟩
  | cons x rest ih =>
    intro p h k hr hts hsub hnd hdis h' k' he
    simp only [GCStep.unlink, Option.bind_eq_some] at he
    obtain ⟨o, hlo, ha, hua, he⟩ := he
    have hxW := hsub x (List.mem_cons_self _ _)
    obtain ⟨hra, htsa⟩ := Unlink_reclaiming hc hxW hr hts (hdis x (List.mem_cons_self _ _)) hua
    have hnd' := List.nodup_cons.1 hnd
    obtain ⟨hr', p', hts', hlen, hmem⟩ := ih (x :: p) ha _ hra htsa
      (fun y hy => hsub y (List.mem_cons_of_mem _ hy)) hnd'.2
      (by
        intro y hy hyp
        rcases List.mem_cons.1 hyp with rfl | hyp
        · exact hnd'.1 hy
        · exact hdis y (List.mem_cons_of_mem _ hy) hyp) h' k' he
    refine ⟨hr', p', hts', ?_, ?_⟩
    · rw [hlen]; simp only [List.length_cons]; omega
    · intro y
      rw [hmem y, List.mem_cons, List.mem_cons]
      tauto

end psoup

namespace psoup

theorem class_table_put_eq_some {h h' : Heap} {cid : Int} {v : Object}
    (hp : class_table_put h cid v = some h') :
    h'.memory = h.memory ∧ h'.table_ = h.table_ ∧ h'.table_size_ = h.table_size_ ∧
    h'.interpreter_ = h.interpreter_ ∧ h'.handles_ = h.handles_ ∧ h'.worklist_ = h.worklist_ ∧
    h'.gc_count_ = h.gc_count_ ∧ h'.heap_size_ = h.heap_size_ ∧
    h'.class_table_free_ = h.class_table_free_ ∧ h'.class_table_size_ = h.class_table_size_ := by
  unfold class_table_put at hp
  split_ifs at hp
  cases hp
  exact ⟨rfl, rfl, rfl, rfl, rfl, rfl, rfl, rfl, rfl, rfl⟩

theorem Free_spec {h h' : Heap} {x : Object} (hf : Free h x = some h') :
    (∀ o, h'.load o = if o = x then none else h.load o) ∧ h'.table_ = h.table_ ∧
    h'.table_size_ = h.table_size_ ∧ h'.interpreter_ = h.interpreter_ ∧
    h'.handles_ = h.handles_ ∧ h'.worklist_ = h.worklist_ ∧ h'.gc_count_ = h.gc_count_ := by
  simp only [Free, Option.bind_eq_some, Option.map_eq_some'] at hf
  obtain ⟨o, hlo, ha, hha, rfl⟩ := hf
  have key : ha.memory = h.memory ∧ ha.table_ = h.table_ ∧ ha.table_size_ = h.table_size_ ∧
      ha.interpreter_ = h.interpreter_ ∧ ha.handles_ = h.handles_ ∧
      ha.worklist_ = h.worklist_ ∧ ha.gc_count_ = h.gc_count_ := by
    by_cases hc : o.in_class_table = true
    · rw [if_pos hc] at hha
      simp only [Option.bind_eq_some, Option.map_eq_some'] at hha
      obtain ⟨id, -, hb, hput, rfl⟩ := hha
      obtain ⟨e1, e2, e3, e4, e5, e6, e7, -⟩ := class_table_put_eq_some hput
      exact ⟨e1, e2, e3, e4, e5, e6, e7⟩
    · rw [if_neg hc] at hha
      cases hha
      exact ⟨rfl, rfl, rfl, rfl, rfl, rfl, rfl⟩
  obtain ⟨e1, e2, e3, e4, e5, e6, e7⟩ := key
  refine ⟨?_, e2, e3, e4, e5, e6, e7⟩
  intro y
  simp only [Heap.load, e1, Function.update]
  by_cases hy : y = x
  · subst hy; simp
  · simp [hy]

theorem GCStep_free_spec :
    ∀ (xs : List Object) (h h' : Heap), GCStep.free h xs = some h' →
      (∀ o, h'.load o = if o ∈ xs then none else h.load o) ∧ h'.table_ = h.table_ ∧
      h'.table_size_ = h.table_size_ ∧ h'.interpreter_ = h.interpreter_ ∧
      h'.handles_ = h.handles_ ∧ h'.worklist_ = h.worklist_ ∧ h'.gc_count_ = h.gc_count_ := by
  intro xs
  induction xs with
  | nil =>
    intro h h' he
    simp only [GCStep.free, Option.some.injEq] at he
    subst he
    simp
  | cons x rest ih =>
    intro h h' he
    simp only [GCStep.free, Option.bind_eq_some] at he
    obtain ⟨ha, hfa, he⟩ := he
    obtain ⟨a1, a2, a3, a4, a5, a6, a7⟩ := Free_spec hfa
    obtain ⟨b1, b2, b3, b4, b5, b6, b7⟩ := ih ha h' he
    refine ⟨?_, b2.trans a2, b3.trans a3, b4.trans a4, b5.trans a5, b6.trans a6, b7.trans a7⟩
    intro o
    rw [b1 o, a1 o]
    by_cases ho : o = x
    · subst ho; simp
    · simp [ho]

theorem Reclaiming_refl {h1 : Heap} (hc : ClosureFound h1) : Reclaiming h1 h1 := by
  refine ⟨rfl, rfl, rfl, ⟨rfl, rfl, rfl, rfl, rfl⟩, ?_, ?_, ?_, ?_, ?_, ?_⟩
  · intro o
    exact ⟨fun l1 hl1 => ⟨l1, hl1, SameButRefs_refl l1⟩, fun hn => hn⟩
  · intro s l1 l _ hl1 _ hl
    rw [hl1] at hl; cases hl; rfl
  · intro o ho
    unfold Heap.incomingOf
    cases hl : h1.load o with
    | none => exact List.nodup_nil
    | some l => exact (hc.sound o l ho hl).1
  · intro o ho r hr
    unfold Heap.incomingOf at hr
    cases hl : h1.load o with
    | none => rw [hl] at hr; cases hr
    | some l =>
      rw [hl] at hr
      exact (hc.sound o l ho hl).2 r hr
  · intro r v a b _ d e
    exact (hc.complete r v a b d e).2
  · intro x hx r hr
    exact (hc.closed x hx r hr).2

theorem TableShrunk_refl {h1 : Heap} (hT : TableInv h1) : TableShrunk h1 [] h1 :=
  ⟨rfl, hT, fun o => by simp⟩

end psoup

namespace psoup

theorem load_ClearCache (h : Heap) (o : Object) : (ClearCache h).load o = h.load o := rfl

theorem Ref_to_ClearCache (h : Heap) (r : RefPtr) : Ref_to (ClearCache h) r = Ref_to h r := by
  cases r <;> rfl

/-- What a reclamation leaves: the heap `h3` after the worklist of `h1` has been unlinked and
freed. -/
theorem GCStep_reclaim_spec {h1 h3 : Heap} (hc : ClosureFound h1)
    (he : GCStep.reclaim h1 = some h3) :
    WeaklyFormed { h3 with worklist_ := [] } ∧
    (∀ o, InTable h3 o ↔ (InTable h1 o ∧ o ∉ h1.worklist_)) ∧
    h3.table_size_ + h1.worklist_.length = h1.table_size_ ∧
    h3.interpreter_.roots = h1.interpreter_.roots ∧
    h3.interpreter_.stack = h1.interpreter_.stack ∧
    h3.interpreter_.nil_obj = h1.interpreter_.nil_obj ∧
    h3.interpreter_.true_obj = h1.interpreter_.true_obj ∧
    h3.interpreter_.false_obj = h1.interpreter_.false_obj ∧
    h3.handles_ = h1.handles_ ∧
    (∀ x ∈ h1.worklist_, h3.load x = none) ∧
    (∀ s l1, s ∉ h1.worklist_ → h1.load s = some l1 →
      ∃ l, h3.load s = some l ∧ Layout.SameButRefs l1 l ∧
        (l1.cid ≠ kWeakArrayCid → l.refs = l1.refs)) := by
  simp only [GCStep.reclaim, Option.bind_eq_some, Option.map_eq_some'] at he
  obtain ⟨⟨h2, k⟩, hul, hf, hfr, hfinal⟩ := he
  obtain ⟨hr, p, hts, hlen, hpm⟩ := GCStep_unlink_reclaiming hc h1.worklist_ [] h1 false
    (Reclaiming_refl hc) (TableShrunk_refl hc.table) (fun x hx => hx) hc.nodup
    (fun x _ => by simp) h2 k hul
  obtain ⟨f1, f2, f3, f4, f5, f6, f7⟩ := GCStep_free_spec _ _ _ hfr
  simp only [List.length_nil, Nat.add_zero] at hlen
  have hpm' : ∀ o, o ∈ p ↔ o ∈ h1.worklist_ := fun o => by rw [hpm o]; simp
  -- the heap before the cache is cleared
  have hload3 : ∀ o, h3.load o = if o ∈ h1.worklist_ then none else h2.load o := by
    intro o
    rw [← f1 o, ← hfinal]
    split_ifs <;> rfl
  have htab3 : h3.table_ = h2.table_ ∧ h3.table_size_ = h2.table_size_ := by
    rw [← hfinal]
    split_ifs <;> exact ⟨f2, f3⟩
  have hint3 : h3.interpreter_.roots = h2.interpreter_.roots ∧
      h3.interpreter_.stack = h2.interpreter_.stack ∧
      h3.interpreter_.nil_obj = h2.interpreter_.nil_obj ∧
      h3.interpreter_.true_obj = h2.interpreter_.true_obj ∧
      h3.interpreter_.false_obj = h2.interpreter_.false_obj ∧ h3.handles_ = h2.handles_ := by
    have g1 : hf.interpreter_.roots = h2.interpreter_.roots := congrArg Interpreter.roots f4
    have g2 : hf.interpreter_.stack = h2.interpreter_.stack := congrArg Interpreter.stack f4
    have g3 : hf.interpreter_.nil_obj = h2.interpreter_.nil_obj :=
      congrArg Interpreter.nil_obj f4
    have g4 : hf.interpreter_.true_obj = h2.interpreter_.true_obj :=
      congrArg Interpreter.true_obj f4
    have g5 : hf.interpreter_.false_obj = h2.interpreter_.false_obj :=
      congrArg Interpreter.false_obj f4
    rw [← hfinal]
    split_ifs
    · exact ⟨g1, g2, g3, g4, g5, f5⟩
    · exact ⟨g1, g2, g3, g4, g5, f5⟩
  have hInT : ∀ o, InTable h3 o ↔ (InTable h1 o ∧ o ∉ h1.worklist_) := by
    intro o
    have : InTable h3 o ↔ InTable h2 o := by
      unfold InTable; rw [htab3.1, htab3.2]
    rw [this, hts.mem o, hpm' o]
  have hsurv : ∀ o, InTable h3 o → h3.load o = h2.load o := by
    intro o ho
    rw [hload3 o, if_neg ((hInT o).1 ho).2]
  have hRef3 : ∀ r, (∀ s i, r = RefPtr.slot s i → s ∉ h1.worklist_) →
      Ref_to h3 r = Ref_to h2 r := by
    intro r hrs
    cases r with
    | slot s i =>
      simp only [Ref_to, hload3 s, if_neg (hrs s i rfl)]
    | root i => simp only [Ref_to, hint3.1]
    | stack i => simp only [Ref_to, hint3.2.1]
  have hRefdead : ∀ s i, s ∈ h1.worklist_ → Ref_to h3 (.slot s i) = none := by
    intro s i hs
    simp only [Ref_to, hload3 s, if_pos hs, Option.none_bind]
  have hinc3 : ∀ o, o ∉ h1.worklist_ → h3.incomingOf o = h2.incomingOf o := by
    intro o ho
    unfold Heap.incomingOf
    rw [hload3 o, if_neg ho]
  have hweak3 : ∀ r, HolderInTable h3 r → (HeldByWeakArray h3 r ↔ HeldByWeakArray h1 r) := by
    intro r hr3
    cases r with
    | slot s i =>
      have hs : InTable h3 s := hr3
      obtain ⟨hs1, hsW⟩ := (hInT s).1 hs
      obtain ⟨l1, hl1, -⟩ := load_of_InTable hc.table hs1
      obtain ⟨l, hl, hsame⟩ := (hr.layout s).1 l1 hl1
      have hl3 : h3.load s = some l := by rw [hsurv s hs]; exact hl
      rw [HeldByWeakArray_slot hl3, HeldByWeakArray_slot hl1,
        ((SameButRefs_iff l1 l).1 hsame).2.2.2.2.2.1]
    | root i => exact Iff.rfl
    | stack i => exact Iff.rfl
  have hstrong : ∀ r v, HolderInTable h3 r → ¬ HeldByWeakArray h3 r → Ref_to h3 r = some v →
      HolderInTable h1 r ∧ ¬ HeldByWeakArray h1 r ∧ Ref_from r ∉ h1.worklist_ ∧
      Ref_to h1 r = some v := by
    intro r v hh hnw hto
    have hnw1 : ¬ HeldByWeakArray h1 r := fun hw => hnw ((hweak3 r hh).2 hw)
    cases r with
    | slot s i =>
      have hs : InTable h3 s := hh
      obtain ⟨hs1, hsW⟩ := (hInT s).1 hs
      refine ⟨hs1, hnw1, hsW, ?_⟩
      obtain ⟨l1, hl1, -⟩ := load_of_InTable hc.table hs1
      obtain ⟨l, hl, hsame⟩ := (hr.layout s).1 l1 hl1
      have hcid : l1.cid ≠ kWeakArrayCid := by
        intro hw; exact hnw1 ((HeldByWeakArray_slot hl1).2 hw)
      have hrefs := hr.strong_refs s l1 l hsW hl1 hcid hl
      rw [hRef3 _ (fun s' i' he => by cases he; exact hsW)] at hto
      simp only [Ref_to, hl, Option.some_bind, hrefs] at hto
      simp only [Ref_to, hl1, Option.some_bind]
      exact hto
    | root i =>
      refine ⟨trivial, hnw1, ?_, ?_⟩
      · intro hin
        exact not_isHeapObject_nullptr (isHeapObject_of_InTable hc.table (hc.inTable _ hin))
      · simp only [Ref_to, hint3.1, hr.interp] at hto
        exact hto
    | stack i =>
      refine ⟨trivial, hnw1, ?_, ?_⟩
      · intro hin
        exact not_isHeapObject_nullptr (isHeapObject_of_InTable hc.table (hc.inTable _ hin))
      · simp only [Ref_to, hint3.2.1, hr.interp] at hto
        exact hto
  refine ⟨⟨⟨?_, ?_⟩, ?_, ?_, rfl, ?_⟩, hInT, ?_, ?_, ?_, ?_, ?_, ?_, ?_, ?_, ?_⟩
  · show 1 ≤ h3.table_size_
    rw [htab3.2]; exact hts.inv.1
  · intro i hi1 hi2
    have hi2' : i < h2.table_size_ := by rw [← htab3.2]; exact hi2
    obtain ⟨l, hl, hli, hlc⟩ := hts.inv.2 i hi1 hi2'
    have hT3 : InTable h3 (h2.table_ i) := ⟨i, hi1, hi2, by rw [htab3.1]⟩
    refine ⟨l, ?_, hli, hlc⟩
    show h3.load (h3.table_ i) = some l
    rw [htab3.1, hsurv _ hT3]
    exact hl
  · intro o l ho hl
    have ho3 : InTable h3 o := ho
    have hl3 : h3.load o = some l := hl
    obtain ⟨ho1, hoW⟩ := (hInT o).1 ho3
    have hl2 : h2.load o = some l := by rw [← hsurv o ho3]; exact hl3
    have hinc : h2.incomingOf o = l.incoming_ := incomingOf_of_load hl2
    refine ⟨hinc ▸ hr.nodup o ho1, ?_⟩
    intro r hrin
    rw [← hinc] at hrin
    show (Ref_to h3 r = some o ∧ HolderInTable h3 r) ∨ Ref_to h3 r = none
    cases r with
    | slot s i =>
      by_cases hsW : s ∈ h1.worklist_
      · exact Or.inr (hRefdead s i hsW)
      · rw [hRef3 _ (fun s' i' he => by cases he; exact hsW)]
        rcases hr.sound o ho1 _ hrin with ⟨h1', h2'⟩ | h1'
        · exact Or.inl ⟨h1', (hInT s).2 ⟨h2', hsW⟩⟩
        · exact Or.inr h1'
    | root i =>
      rw [hRef3 _ (fun s' i' he => by cases he)]
      rcases hr.sound o ho1 _ hrin with ⟨h1', -⟩ | h1'
      · exact Or.inl ⟨h1', trivial⟩
      · exact Or.inr h1'
    | stack i =>
      rw [hRef3 _ (fun s' i' he => by cases he)]
      rcases hr.sound o ho1 _ hrin with ⟨h1', -⟩ | h1'
      · exact Or.inl ⟨h1', trivial⟩
      · exact Or.inr h1'
  · intro r v hh hnw hto hv
    have hh3 : HolderInTable h3 r := by
      cases r with
      | slot s i => exact hh
      | root i => trivial
      | stack i => trivial
    have hnw3 : ¬ HeldByWeakArray h3 r := by
      cases r with
      | slot s i => exact hnw
      | root i => exact hnw
      | stack i => exact hnw
    have hto3 : Ref_to h3 r = some v := by
      cases r with
      | slot s i => exact hto
      | root i => exact hto
      | stack i => exact hto
    obtain ⟨a, b, c1, d⟩ := hstrong r v hh3 hnw3 hto3
    obtain ⟨hv1, -⟩ := hc.complete r v a b d hv
    have hin2 := hr.listed r v a b c1 d hv
    have hvW : v ∉ h1.worklist_ := by
      intro hvW
      obtain ⟨s, i, rfl, -, hw⟩ := hr.closed v hvW r hin2
      rcases hw with hw | hw
      · exact b hw
      · exact c1 hw
    refine ⟨(hInT v).2 ⟨hv1, hvW⟩, ?_⟩
    show r ∈ h3.incomingOf v
    rw [hinc3 v hvW]
    exact hin2
  · intro o l ho hl
    have ho3 : InTable h3 o := ho
    have hl3 : h3.load o = some l := hl
    obtain ⟨ho1, hoW⟩ := (hInT o).1 ho3
    have hl2 : h2.load o = some l := by rw [← hsurv o ho3]; exact hl3
    obtain ⟨l1, hl1, -⟩ := load_of_InTable hc.table ho1
    obtain ⟨l', hl', hsame⟩ := (hr.layout o).1 l1 hl1
    rw [hl2] at hl'; cases hl'
    rw [((SameButRefs_iff l1 l).1 hsame).1]
    cases hm : l1.is_marked
    · rfl
    · exact absurd ((hc.marked_iff o ho1).1 ⟨l1, hl1, hm⟩) hoW
  · rw [htab3.2, ← hlen]; exact hts.size
  · rw [hint3.1, hr.interp]
  · rw [hint3.2.1, hr.interp]
  · rw [hint3.2.2.1, hr.interp]
  · rw [hint3.2.2.2.1, hr.interp]
  · rw [hint3.2.2.2.2.1, hr.interp]
  · rw [hint3.2.2.2.2.2, hr.handles]
  · intro x hx
    rw [hload3 x, if_pos hx]
  · intro s l1 hsW hl1
    obtain ⟨l, hl, hsame⟩ := (hr.layout s).1 l1 hl1
    refine ⟨l, by rw [hload3 s, if_neg hsW]; exact hl, hsame, ?_⟩
    intro hcid
    exact hr.strong_refs s l1 l hsW hl1 hcid hl

end psoup

namespace psoup

theorem MarkFrame_TableInv {h1 h2 : Heap} (hf : MarkFrame h1 h2) (hT : TableInv h1) :
    TableInv h2 := by
  obtain ⟨e1, e2, -⟩ := MarkFrame_fields hf
  refine ⟨e2 ▸ hT.1, ?_⟩
  intro i hi1 hi2
  rw [e2] at hi2
  obtain ⟨l, hl, hli, hlc⟩ := hT.2 i hi1 hi2
  obtain ⟨l', hl', hs⟩ := (MarkFrame_load hf _).1 l hl
  rw [e1]
  have hs' := (SameButMarks_iff l l').1 hs
  refine ⟨l', hl', ?_, ?_⟩
  · unfold Layout.table_index at hli ⊢
    rw [hs'.2.2.2.2.1]; exact hli
  · rw [hs'.2.2.2.1]; exact hlc

theorem MarkFrame_HolderInTable {h1 h2 : Heap} (hf : MarkFrame h1 h2) (r : RefPtr) :
    HolderInTable h2 r ↔ HolderInTable h1 r := by
  cases r with
  | slot s i => exact MarkFrame_InTable hf s
  | root i => exact Iff.rfl
  | stack i => exact Iff.rfl

theorem MarkFrame_HeldByWeakArray {h1 h2 : Heap} (hf : MarkFrame h1 h2) (r : RefPtr) :
    HeldByWeakArray h2 r ↔ HeldByWeakArray h1 r := by
  cases r with
  | slot s i =>
    constructor
    · rintro ⟨l', hl', hc⟩
      obtain ⟨l, hl, hs⟩ := (MarkFrame_load hf s).2 l' hl'
      exact ⟨l, hl, by rw [← ((SameButMarks_iff l l').1 hs).2.2.2.1]; exact hc⟩
    · rintro ⟨l, hl, hc⟩
      obtain ⟨l', hl', hs⟩ := (MarkFrame_load hf s).1 l hl
      exact ⟨l', hl', by rw [((SameButMarks_iff l l').1 hs).2.2.2.1]; exact hc⟩
  | root i => exact Iff.rfl
  | stack i => exact Iff.rfl

theorem MarkFrame_WeakSound {h1 h2 : Heap} (hf : MarkFrame h1 h2) (hS : WeakSound h1) :
    WeakSound h2 := by
  intro o l' ho hl'
  obtain ⟨l, hl, hs⟩ := (MarkFrame_load hf o).2 l' hl'
  have hinc : l'.incoming_ = l.incoming_ := ((SameButMarks_iff l l').1 hs).2.2.2.2.2.1
  obtain ⟨a, b⟩ := hS o l ((MarkFrame_InTable hf o).1 ho) hl
  rw [hinc]
  refine ⟨a, fun r hr => ?_⟩
  rw [MarkFrame_Ref_to hf, MarkFrame_HolderInTable hf]
  exact b r hr

theorem MarkFrame_WeakComplete {h1 h2 : Heap} (hf : MarkFrame h1 h2) (hC : WeakComplete h1) :
    WeakComplete h2 := by
  intro r v hh hnw hto hv
  rw [MarkFrame_Ref_to hf] at hto
  rw [MarkFrame_InTable hf, MarkFrame_incomingOf hf]
  exact hC r v ((MarkFrame_HolderInTable hf r).1 hh)
    (fun hw => hnw ((MarkFrame_HeldByWeakArray hf r).2 hw)) hto hv

theorem ClosureFound_of_CheckReachable {h0 h1 : Heap} {c : Object} (hwf : WeaklyFormed h0)
    (hs : CheckState h0 c h1) (hp : Processed h0 h1 h1.worklist_.length) :
    ClosureFound h1 := by
  obtain ⟨hT, hS, hC, hM⟩ := hwf
  have hf := hs.frame
  have hk : ∀ x ∈ h1.worklist_, x ∉ h0.handles_ ∧
      (∀ r ∈ h0.incomingOf x, GoodRef h0 h1.worklist_ x r) ∧
      ((∃ r ∈ h0.incomingOf x, HeldByWeakArray h0 r) → h1.flagged x) := by
    intro x hx
    obtain ⟨j, hj⟩ := List.getElem?_of_mem hx
    have hjlt : j < h1.worklist_.length := by
      by_contra hcn
      rw [List.getElem?_eq_none (by omega)] at hj
      cases hj
    exact hp j x hjlt hj
  refine ⟨MarkFrame_TableInv hf hT, MarkFrame_WeakSound hf hS, MarkFrame_WeakComplete hf hC,
    hs.nodup, ?_, ?_, ?_, ?_, ?_⟩
  · intro x hx
    exact (MarkFrame_InTable hf x).2 (hs.inTable x hx)
  · intro o ho
    exact hs.marked_iff o ((MarkFrame_InTable hf o).1 ho)
  · intro x hx r hr
    rw [MarkFrame_incomingOf hf] at hr
    obtain ⟨hto, s, i, ls, rfl, hsT, hls, hor⟩ := (hk x hx).2.1 r hr
    refine ⟨by rw [MarkFrame_Ref_to hf]; exact hto, s, i, rfl,
      (MarkFrame_InTable hf s).2 hsT, ?_⟩
    rcases hor with hw | hw
    · left
      rw [MarkFrame_HeldByWeakArray hf]
      exact (HeldByWeakArray_slot hls).2 hw
    · exact Or.inr hw
  · intro x hx
    rw [(MarkFrame_fields hf).2.2.1]
    exact (hk x hx).1
  · intro x hx ⟨r, hr, hw⟩
    rw [MarkFrame_incomingOf hf] at hr
    rw [MarkFrame_HeldByWeakArray hf] at hw
    exact (hk x hx).2.2 ⟨r, hr, hw⟩

theorem GCStep_unmark_spec :
    ∀ (xs : List Object) (h h' : Heap), GCStep.unmark h xs = some h' →
      MarkFrame h h' ∧ h'.worklist_ = h.worklist_ ∧
      (∀ o l', h'.load o = some l' → (o ∈ xs → l'.is_marked = false ∧
          l'.is_weak_referent = false) ∧
        (o ∉ xs → h.load o = some l')) := by
  intro xs
  induction xs with
  | nil =>
    intro h h' he
    simp only [GCStep.unmark, Option.some.injEq] at he
    subst he
    exact ⟨MarkFrame_refl h, rfl, fun o l' hl' => ⟨fun hin => (by cases hin), fun _ => hl'⟩⟩
  | cons x rest ih =>
    intro h h' he
    simp only [GCStep.unmark, Option.bind_eq_some] at he
    obtain ⟨ha, hma, hb, hmb, he⟩ := he
    obtain ⟨fa, wa, ⟨la, hla, hla'⟩, oa⟩ := set_is_marked_eq_some hma
    obtain ⟨fb, wb, ⟨lb, hlb, hlb'⟩, ob⟩ := set_is_weak_referent_eq_some hmb
    obtain ⟨fc, wc, hcl⟩ := ih hb h' he
    refine ⟨MarkFrame_trans fa (MarkFrame_trans fb fc), by rw [wc, wb, wa], ?_⟩
    intro o l' hl'
    obtain ⟨c1, c2⟩ := hcl o l' hl'
    rw [hla'] at hlb
    cases hlb
    refine ⟨?_, ?_⟩
    · intro hin
      by_cases hor : o ∈ rest
      · exact c1 hor
      · have hox : o = x := by
          rcases List.mem_cons.1 hin with h1 | h1
          · exact h1
          · exact absurd h1 hor
        subst hox
        have := c2 hor
        rw [hlb'] at this
        cases this
        exact ⟨rfl, rfl⟩
    · intro hnin
      have hox : o ≠ x := fun he => hnin (he ▸ List.mem_cons_self _ _)
      have hor : o ∉ rest := fun hr => hnin (List.mem_cons_of_mem _ hr)
      have := c2 hor
      rw [ob o hox, oa o hox] at this
      exact this

end psoup

namespace psoup

theorem RootReachable_transfer {h h' : Heap} (hroot : ∀ o, Rooted h o → Rooted h' o)
    (hedge : ∀ s t, RootReachable h s → Edge h s t → Edge h' s t) :
    ∀ o, RootReachable h o → RootReachable h' o := by
  rintro o ⟨o0, hr, hpath⟩
  induction hpath with
  | refl => exact ⟨o0, hroot o0 hr, Relation.ReflTransGen.refl⟩
  | tail hab hbc ih =>
    obtain ⟨o1, hr1, hp1⟩ := ih
    exact ⟨o1, hr1, Relation.ReflTransGen.tail hp1 (hedge _ _ ⟨o0, hr, hab⟩ hbc)⟩

theorem MarkFrame_Edge {h1 h2 : Heap} (hf : MarkFrame h1 h2) {s t : Object}
    (he : Edge h1 s t) : Edge h2 s t := by
  obtain ⟨hsT, l, i, hl, hc, hi, ht⟩ := he
  obtain ⟨l', hl', hs⟩ := (MarkFrame_load hf s).1 l hl
  have hs' := (SameButMarks_iff l l').1 hs
  exact ⟨(MarkFrame_InTable hf s).2 hsT, l', i, hl', by rw [hs'.2.2.2.1]; exact hc,
    by rw [hs'.2.2.2.2.2.2.2.2]; exact hi, ht⟩

theorem MarkFrame_symm_Edge {h1 h2 : Heap} (hf : MarkFrame h1 h2) {s t : Object}
    (he : Edge h2 s t) : Edge h1 s t := by
  obtain ⟨hsT, l', i, hl', hc, hi, ht⟩ := he
  obtain ⟨l, hl, hs⟩ := (MarkFrame_load hf s).2 l' hl'
  have hs' := (SameButMarks_iff l l').1 hs
  exact ⟨(MarkFrame_InTable hf s).1 hsT, l, i, hl, by rw [← hs'.2.2.2.1]; exact hc,
    by rw [← hs'.2.2.2.2.2.2.2.2]; exact hi, ht⟩

theorem MarkFrame_Rooted {h1 h2 : Heap} (hf : MarkFrame h1 h2) (o : Object) :
    Rooted h2 o ↔ Rooted h1 o := by
  unfold Rooted
  rw [(MarkFrame_fields hf).2.2.2.1, (MarkFrame_fields hf).2.2.1]

theorem MarkFrame_worklist (h : Heap) (w : List Object) : MarkFrame h { h with worklist_ := w } :=
  ⟨fun _ l => l, fun _ l => SameButMarks_refl l, by rw [mapMemory_id]⟩

/-- What one round of `GCStep` keeps: the invariants between rounds, the roots, and every object
that is reachable from a root. -/
theorem GCStep_round_spec {h h' : Heap} (hwf : WeaklyFormed h) {random : Nat}
    (he : GCStep.round h random = some h') :
    WeaklyFormed h' ∧ (∀ o, Rooted h o → Rooted h' o) ∧
    (∀ o, InTable h' o → InTable h o) ∧
    (∀ o, RootReachable h o → RootReachable h' o) ∧
    (∀ o, InTable h o → RootReachable h o → InTable h' o) := by
  unfold GCStep.round at he
  by_cases hz : h.table_size_ = 0
  · rw [if_pos hz] at he; cases he
  rw [if_neg hz] at he
  simp only at he
  by_cases hi : random % h.table_size_ = 0
  · rw [if_pos hi] at he
    cases he
    exact ⟨hwf, fun _ ho => ho, fun _ ho => ho, fun _ ho => ho, fun _ ho _ => ho⟩
  rw [if_neg hi] at he
  simp only [Option.bind_eq_some, Option.map_eq_some'] at he
  obtain ⟨⟨b, h1⟩, hcr, h4, hbr, rfl⟩ := he
  have hcT : InTable h (h.table_ (random % h.table_size_)) :=
    ⟨_, by omega, Nat.mod_lt _ (by omega), rfl⟩
  -- the result for a heap `h4` that differs from `h` in marks only
  have hmarkcase : ∀ h4 : Heap, MarkFrame h h4 →
      (∀ o l, InTable h4 o → h4.load o = some l → l.is_marked = false) →
      WeaklyFormed { h4 with worklist_ := [] } ∧
      (∀ o, Rooted h o → Rooted { h4 with worklist_ := [] } o) ∧
      (∀ o, InTable { h4 with worklist_ := [] } o → InTable h o) ∧
      (∀ o, RootReachable h o → RootReachable { h4 with worklist_ := [] } o) ∧
      (∀ o, InTable h o → RootReachable h o → InTable { h4 with worklist_ := [] } o) := by
    intro h4 hf4 hm4
    have hf : MarkFrame h { h4 with worklist_ := [] } :=
      MarkFrame_trans hf4 (MarkFrame_worklist h4 [])
    refine ⟨⟨MarkFrame_TableInv hf hwf.1, MarkFrame_WeakSound hf hwf.2.1,
      MarkFrame_WeakComplete hf hwf.2.2.1, rfl, ?_⟩, ?_, ?_, ?_, ?_⟩
    · intro o l ho hl
      exact hm4 o l ho hl
    · intro o ho; exact (MarkFrame_Rooted hf o).2 ho
    · intro o ho; exact (MarkFrame_InTable hf o).1 ho
    · exact RootReachable_transfer (fun o ho => (MarkFrame_Rooted hf o).2 ho)
        (fun s t _ hst => MarkFrame_Edge hf hst)
    · intro o ho _; exact (MarkFrame_InTable hf o).2 ho
  by_cases hsing : h.table_ (random % h.table_size_) = h.interpreter_.nil_obj ∨
      h.table_ (random % h.table_size_) = h.interpreter_.true_obj ∨
      h.table_ (random % h.table_size_) = h.interpreter_.false_obj
  · rw [CheckReachable_singleton hsing] at hcr
    cases hcr
    simp only [if_true] at hbr
    rw [hwf.2.2.2.1] at hbr
    simp only [GCStep.unmark, Option.some.injEq] at hbr
    subst hbr
    exact hmarkcase h (MarkFrame_refl h) (fun o l ho hl => hwf.2.2.2.2 o l ho hl)
  obtain ⟨sf, st, -⟩ := CheckReachable_spec hwf hcT hsing
  cases b with
  | true =>
    obtain ⟨hs, -⟩ := st h1 hcr
    simp only [if_true] at hbr
    obtain ⟨fu, wu, hu⟩ := GCStep_unmark_spec _ _ _ hbr
    refine hmarkcase h4 (MarkFrame_trans hs.frame fu) ?_
    intro o l ho hl
    obtain ⟨u1, u2⟩ := hu o l hl
    by_cases hoW : o ∈ h1.worklist_
    · exact (u1 hoW).1
    · have hl1 := u2 hoW
      have ho0 : InTable h o :=
        (MarkFrame_InTable (MarkFrame_trans hs.frame fu) o).1 ho
      cases hm : l.is_marked
      · rfl
      · exact absurd ((hs.marked_iff o ho0).1 ⟨l, hl1, hm⟩) hoW
  | false =>
    obtain ⟨hs, hp, -⟩ := sf h1 hcr
    simp only [Bool.false_eq_true, if_false] at hbr
    have hc := ClosureFound_of_CheckReachable hwf hs hp
    obtain ⟨w3, t3, -, r3, s3, -, -, -, ha3, d3, l3⟩ := GCStep_reclaim_spec hc hbr
    have hf := hs.frame
    have hnotW : ∀ o, RootReachable h o → o ∉ h1.worklist_ :=
      fun o ho hoW => closure_not_reachable hwf.1 hwf.2.2.1 hs hp hoW ho
    have hroot : ∀ o, Rooted h o → Rooted { h4 with worklist_ := [] } o := by
      intro o ho
      have : Rooted h1 o := (MarkFrame_Rooted hf o).2 ho
      unfold Rooted at this ⊢
      show o ∈ h4.interpreter_.roots ∨ o ∈ h4.interpreter_.stack ∨ o ∈ h4.handles_
      rw [r3, s3, ha3]
      exact this
    refine ⟨w3, hroot, ?_, ?_, ?_⟩
    · intro o ho
      have : InTable h4 o := ho
      exact (MarkFrame_InTable hf o).1 ((t3 o).1 this).1
    · refine RootReachable_transfer hroot ?_
      intro s t hsr hst
      have hsW := hnotW s hsr
      obtain ⟨hsT, l1, i, hl1, hcid, hi, ht⟩ := MarkFrame_Edge hf hst
      obtain ⟨l, hl, hsame, hrefs⟩ := l3 s l1 hsW hl1
      refine ⟨(t3 s).2 ⟨hsT, hsW⟩, l, i, hl, ?_, ?_, ht⟩
      · rw [((SameButRefs_iff l1 l).1 hsame).2.2.2.2.2.1]; exact hcid
      · rw [hrefs hcid]; exact hi
    · intro o ho hor
      exact (t3 o).2 ⟨(MarkFrame_InTable hf o).2 ho, hnotW o hor⟩

end psoup

namespace psoup

theorem WeaklyFormed_of_WellFormed {h : Heap} (hwf : WellFormed h) : WeaklyFormed h := by
  obtain ⟨hT, hS, hC, hM⟩ := hwf
  refine ⟨hT, ?_, ?_, hM⟩
  · intro o l ho hl
    exact ⟨(hS o l ho hl).1, fun r hr => Or.inl ((hS o l ho hl).2 r hr)⟩
  · intro r v hr _ hto hv
    exact hC r v hr hto hv

theorem MarkFrame_ReflTransGen {h1 h2 : Heap} (hf : MarkFrame h1 h2) (o c : Object) :
    Relation.ReflTransGen (Edge h2) o c ↔ Relation.ReflTransGen (Edge h1) o c :=
  ⟨Relation.ReflTransGen.mono fun _ _ he => MarkFrame_symm_Edge hf he,
   Relation.ReflTransGen.mono fun _ _ he => MarkFrame_Edge hf he⟩

/-- C1: GC safety. For a heap that satisfies the data-model invariants and for every choice of
the three sampled values, every object of the object table that is reachable from a root Ref or
a handle through edges whose sources are not weak arrays is still in the object table of the
heap that `GCStep` returns, and is still reachable there.  (When a round returns is the
subject of `GCStep_round_reachable` and `GCStep_round_unreachable`.) -/
theorem GCStep_keeps_reachable (h h' : Heap) (random0 random1 random2 : Nat)
    (hwf : WellFormed h) (he : GCStep h random0 random1 random2 = some h') :
    ∀ o, InTable h o → RootReachable h o → InTable h' o ∧ RootReachable h' o := by
  unfold GCStep at he
  simp only [Option.bind_eq_some, Option.map_eq_some'] at he
  obtain ⟨h1, e1, h2, e2, h3, e3, rfl⟩ := he
  obtain ⟨w1, -, -, r1, t1⟩ := GCStep_round_spec (WeaklyFormed_of_WellFormed hwf) e1
  obtain ⟨w2, -, -, r2, t2⟩ := GCStep_round_spec w1 e2
  obtain ⟨-, -, -, r3, t3⟩ := GCStep_round_spec w2 e3
  intro o ho hr
  have ho3 := t3 o (t2 o (t1 o ho hr) (r1 o hr)) (r2 o (r1 o hr))
  have hr3 := r3 o (r2 o (r1 o hr))
  exact ⟨ho3, hr3⟩

/-- C2: `CheckReachable(c)` returns, and it returns true if and only if `c` is nil, true or
false, or `c` is reachable, along edges whose sources are not weak arrays, from an object that
is the target of a root Ref or a value of the handle stack. -/
theorem CheckReachable_true_iff (h : Heap) (c : Object) (hwf : WellFormed h)
    (hc : InTable h c) :
    ∃ b h', CheckReachable h c = some (b, h') ∧
      (b = true ↔ (c = h.interpreter_.nil_obj ∨ c = h.interpreter_.true_obj ∨
        c = h.interpreter_.false_obj ∨ RootReachable h c)) := by
  by_cases hs : c = h.interpreter_.nil_obj ∨ c = h.interpreter_.true_obj ∨
      c = h.interpreter_.false_obj
  · refine ⟨true, h, CheckReachable_singleton hs, ?_⟩
    simp only [true_iff]
    rcases hs with h1 | h1 | h1
    · exact Or.inl h1
    · exact Or.inr (Or.inl h1)
    · exact Or.inr (Or.inr (Or.inl h1))
  have hw := WeaklyFormed_of_WellFormed hwf
  obtain ⟨sf, st, tot⟩ := CheckReachable_spec hw hc hs
  obtain ⟨⟨b, h'⟩, hres⟩ := tot hwf.2.1
  refine ⟨b, h', hres, ?_⟩
  cases b with
  | true =>
    obtain ⟨hst, x, hx, hroot⟩ := st h' hres
    simp only [true_iff]
    exact Or.inr (Or.inr (Or.inr ⟨x, hroot, hst.path x hx⟩))
  | false =>
    obtain ⟨hst, hp, hcw⟩ := sf h' hres
    simp only [Bool.false_eq_true, false_iff]
    rintro (h1 | h1 | h1 | h1)
    · exact hs (Or.inl h1)
    · exact hs (Or.inr (Or.inl h1))
    · exact hs (Or.inr (Or.inr h1))
    · exact closure_not_reachable hw.1 hw.2.2.1 hst hp hcw h1

/-- C3: when `CheckReachable(c)` returns false, the worklist holds exactly the objects from
which `c` is reachable along edges whose sources are not weak arrays, `c` included, each once,
and every Ref that targets a worklist object is on its incoming list and is a Ref of a worklist
object or of a weak array. -/
theorem CheckReachable_false_worklist (h h' : Heap) (c : Object) (hwf : WellFormed h)
    (hc : InTable h c) (he : CheckReachable h c = some (false, h')) :
    (∀ o, o ∈ h'.worklist_ ↔ Relation.ReflTransGen (Edge h') o c) ∧
    c ∈ h'.worklist_ ∧ h'.worklist_.Nodup ∧
    (∀ x ∈ h'.worklist_, ∀ r, (r ∈ h'.incomingOf x ∨
        (HolderInTable h' r ∧ Ref_to h' r = some x)) →
      r ∈ h'.incomingOf x ∧ Ref_to h' r = some x ∧
      ∃ s i l, r = RefPtr.slot s i ∧ InTable h' s ∧ h'.load s = some l ∧
        (s ∈ h'.worklist_ ∨ l.cid = kWeakArrayCid)) := by
  have hs : ¬ (c = h.interpreter_.nil_obj ∨ c = h.interpreter_.true_obj ∨
      c = h.interpreter_.false_obj) := by
    intro hs
    rw [CheckReachable_singleton hs] at he
    cases he
  have hw := WeaklyFormed_of_WellFormed hwf
  obtain ⟨sf, -, -⟩ := CheckReachable_spec hw hc hs
  obtain ⟨hst, hp, hcw⟩ := sf h' he
  have hf := hst.frame
  refine ⟨?_, hcw, hst.nodup, ?_⟩
  · intro o
    rw [MarkFrame_ReflTransGen hf]
    exact ⟨fun ho => hst.path o ho, fun hpath => closure_backward hw.2.2.1 hp hpath hcw⟩
  · intro x hx r hr
    obtain ⟨lx, hlx, -⟩ := load_of_InTable hw.1 (hst.inTable x hx)
    have hheap := isHeapObject_of_load hlx
    have hin : r ∈ h.incomingOf x := by
      rcases hr with hr | ⟨hh, hto⟩
      · rw [MarkFrame_incomingOf hf] at hr; exact hr
      · rw [MarkFrame_Ref_to hf] at hto
        exact (hwf.2.2.1 r x ((MarkFrame_HolderInTable hf r).1 hh) hto hheap).2
    obtain ⟨j, hj⟩ := List.getElem?_of_mem hx
    have hjlt : j < h'.worklist_.length := by
      by_contra hcon
      rw [List.getElem?_eq_none (by omega)] at hj
      cases hj
    obtain ⟨-, hgood, -⟩ := hp j x hjlt hj
    obtain ⟨hto, s, i, ls, rfl, hsT, hls, hcase⟩ := hgood r hin
    obtain ⟨ls', hls', hsame⟩ := (MarkFrame_load hf s).1 ls hls
    refine ⟨by rw [MarkFrame_incomingOf hf]; exact hin, by rw [MarkFrame_Ref_to hf]; exact hto,
      s, i, ls', rfl, (MarkFrame_InTable hf s).2 hsT, hls', ?_⟩
    rcases hcase with hcase | hcase
    · right
      rw [((SameButMarks_iff ls ls').1 hsame).2.2.2.1]
      exact hcase
    · exact Or.inl hcase

end psoup

namespace psoup

theorem inTable_iff (h : Heap) (o : Object) : inTable h o = true ↔ InTable h o := by
  unfold inTable InTable
  simp only [List.any_eq_true, List.mem_range, Bool.and_eq_true, decide_eq_true_eq]
  constructor
  · rintro ⟨i, hi, h1, h2⟩; exact ⟨i, h1, hi, h2⟩
  · rintro ⟨i, h1, hi, h2⟩; exact ⟨i, hi, h1, h2⟩

theorem holderInTable_iff (h : Heap) (r : RefPtr) : holderInTable h r = true ↔ HolderInTable h r := by
  cases r with
  | slot s i => exact inTable_iff h s
  | root i => simp [holderInTable, HolderInTable]
  | stack i => simp [holderInTable, HolderInTable]

theorem refListed_spec {h : Heap} {r : RefPtr} {v : Object} (hc : refListed h r v = true)
    (hv : IsHeapObject v) : InTable h v ∧ r ∈ h.incomingOf v := by
  unfold refListed at hc
  simp only [Bool.or_eq_true, Bool.not_eq_true', decide_eq_false_iff_not, Bool.and_eq_true,
    decide_eq_true_eq] at hc
  rcases hc with hc | hc
  · exact absurd hv hc
  · exact ⟨(inTable_iff h v).1 hc.1, hc.2⟩

theorem getD_of_getElem? {xs : List Object} {j : Nat} {v : Object} (hj : xs[j]? = some v) :
    xs.getD j 0 = v := by
  simp [List.getD, hj]

theorem lt_of_getElem?_eq_some {xs : List Object} {j : Nat} {v : Object} (hj : xs[j]? = some v) :
    j < xs.length := by
  by_contra hc
  rw [List.getElem?_eq_none (by omega)] at hj
  cases hj

/-- The Boolean check of the data-model invariants is sound. -/
theorem WellFormed_of_check {h : Heap} (hc : checkWellFormed h = true) : WellFormed h := by
  unfold checkWellFormed at hc
  simp only [Bool.and_eq_true, decide_eq_true_eq, List.all_eq_true, List.mem_range,
    Bool.or_eq_true] at hc
  obtain ⟨⟨⟨⟨hsize, hwl⟩, hentries⟩, hroots⟩, hstack⟩ := hc
  have hentry : ∀ i, 1 ≤ i → i < h.table_size_ → checkEntry h i = true := by
    intro i h1 h2
    rcases hentries i h2 with h0 | h0
    · omega
    · exact h0
  have hE : ∀ i, 1 ≤ i → i < h.table_size_ → ∃ l, h.load (h.table_ i) = some l ∧
      l.table_index = i ∧ kFirstLegalCid ≤ l.cid ∧ l.is_marked = false ∧ l.incoming_.Nodup ∧
      (∀ r ∈ l.incoming_, Ref_to h r = some (h.table_ i) ∧ HolderInTable h r) ∧
      (∀ j v, l.refs[j]? = some v → IsHeapObject v →
        InTable h v ∧ RefPtr.slot (h.table_ i) j ∈ h.incomingOf v) := by
    intro i h1 h2
    have hc := hentry i h1 h2
    unfold checkEntry at hc
    cases hl : h.load (h.table_ i) with
    | none => rw [hl] at hc; cases hc
    | some l =>
      rw [hl] at hc
      simp only [Bool.and_eq_true, decide_eq_true_eq, List.all_eq_true, List.mem_range,
        Bool.not_eq_true'] at hc
      obtain ⟨⟨⟨⟨⟨c1, c2⟩, c3⟩, c4⟩, c5⟩, c6⟩ := hc
      refine ⟨l, rfl, c1, c2, c3, c4, ?_, ?_⟩
      · intro r hr
        exact ⟨(c5 r hr).1, (holderInTable_iff h r).1 (c5 r hr).2⟩
      · intro j v hj hv
        have := c6 j (lt_of_getElem?_eq_some hj)
        rw [getD_of_getElem? hj] at this
        exact refListed_spec this hv
  refine ⟨⟨hsize, ?_⟩, ?_, ?_, hwl, ?_⟩
  · intro i h1 h2
    obtain ⟨l, hl, c1, c2, -⟩ := hE i h1 h2
    exact ⟨l, hl, c1, c2⟩
  · rintro o l ⟨i, h1, h2, rfl⟩ hl
    obtain ⟨l', hl', -, -, -, c4, c5, -⟩ := hE i h1 h2
    rw [hl] at hl'; cases hl'
    exact ⟨c4, c5⟩
  · intro r v hh hto hv
    cases r with
    | slot s j =>
      obtain ⟨i, h1, h2, rfl⟩ := hh
      obtain ⟨l, hl, -, -, -, -, -, c6⟩ := hE i h1 h2
      obtain ⟨l', hl', hj⟩ := Ref_to_slot_eq_some.1 hto
      rw [hl] at hl'; cases hl'
      exact c6 j v hj hv
    | root j =>
      have hj : h.interpreter_.roots[j]? = some v := hto
      have := hroots j (lt_of_getElem?_eq_some hj)
      rw [getD_of_getElem? hj] at this
      exact refListed_spec this hv
    | stack j =>
      have hj : h.interpreter_.stack[j]? = some v := hto
      have := hstack j (lt_of_getElem?_eq_some hj)
      rw [getD_of_getElem? hj] at this
      exact refListed_spec this hv
  · rintro o l ⟨i, h1, h2, rfl⟩ hl
    obtain ⟨l', hl', -, -, c3, -⟩ := hE i h1 h2
    rw [hl] at hl'; cases hl'
    exact c3

end psoup

namespace psoup

/-- Witness of C1 on the heap with the two-array cycle: the cycle is collected, `true` stays. -/
theorem GCStep_keeps_reachable_witness :
    (¬ InTable cycleHeapCollected 7) ∧ InTable cycleHeapCollected 3 ∧ RootReachable cycleHeapCollected 3 :=
  ⟨by rintro ⟨i, h1, h2, h3⟩
      have h4 : i < 4 := h2
      interval_cases i <;> exact absurd h3 (by decide),
   GCStep_keeps_reachable cycleHeap cycleHeapCollected 4 1 2 (WellFormed_of_check (by decide))
    (by rfl) 3 ⟨2, by decide, by decide, rfl⟩ ⟨3, Or.inl (by decide), Relation.ReflTransGen.refl⟩⟩

/-- Witness of C2 on the heap with the two-array cycle. -/
theorem CheckReachable_true_iff_witness :
    ∃ b h', CheckReachable cycleHeap 7 = some (b, h') ∧
      (b = true ↔ (7 = cycleHeap.interpreter_.nil_obj ∨ 7 = cycleHeap.interpreter_.true_obj ∨
        7 = cycleHeap.interpreter_.false_obj ∨ RootReachable cycleHeap 7)) :=
  CheckReachable_true_iff cycleHeap 7 (WellFormed_of_check (by decide))
    ⟨4, by decide, by decide, rfl⟩

/-- Witness of C3 on the heap with the two-array cycle. -/
theorem CheckReachable_false_worklist_witness :
    cycleHeapChecked.worklist_ = [7, 9] ∧
    ((∀ o, o ∈ cycleHeapChecked.worklist_ ↔ Relation.ReflTransGen (Edge cycleHeapChecked) o 7) ∧
    7 ∈ cycleHeapChecked.worklist_ ∧ cycleHeapChecked.worklist_.Nodup ∧
    (∀ x ∈ cycleHeapChecked.worklist_, ∀ r, (r ∈ cycleHeapChecked.incomingOf x ∨
        (HolderInTable cycleHeapChecked r ∧ Ref_to cycleHeapChecked r = some x)) →
      r ∈ cycleHeapChecked.incomingOf x ∧ Ref_to cycleHeapChecked r = some x ∧
      ∃ s i l, r = RefPtr.slot s i ∧ InTable cycleHeapChecked s ∧
        cycleHeapChecked.load s = some l ∧
        (s ∈ cycleHeapChecked.worklist_ ∨ l.cid = kWeakArrayCid))) :=
  ⟨by rfl, CheckReachable_false_worklist cycleHeap cycleHeapChecked 7 (WellFormed_of_check (by decide))
    ⟨4, by decide, by decide, rfl⟩ (by rfl)⟩

end psoup

namespace psoup

theorem Array_element_eq {h : Heap} {a : Object} {l : Layout} (hl : h.load a = some l) (i : Nat) :
    Array.element h a i = l.refs[i]? := by
  simp [Array.element, Ref_to, hl]

theorem BecomeForward_immediate_spec {h : Heap} {old neu : Object} {lo ln : Layout}
    (hlo : h.load old = some lo) (hln : h.load neu = some ln) (is : List Nat)
    (his : ∀ i ∈ is, i < lo.refs.length ∧ i < ln.refs.length) :
    ∃ b, BecomeForward.immediate h old neu is = some b ∧
      (b = true ↔ ∃ i ∈ is, ∃ v, (lo.refs[i]? = some v ∨ ln.refs[i]? = some v) ∧
        IsSmallInteger v) := by
  induction is with
  | nil => exact ⟨false, rfl, by simp⟩
  | cons i rest ih =>
    obtain ⟨hi1, hi2⟩ := his i (List.mem_cons_self _ _)
    obtain ⟨b, hb, hiff⟩ := ih (fun j hj => his j (List.mem_cons_of_mem _ hj))
    have e1 : lo.refs[i]? = some lo.refs[i] := List.getElem?_eq_getElem hi1
    have e2 : ln.refs[i]? = some ln.refs[i] := List.getElem?_eq_getElem hi2
    simp only [BecomeForward.immediate, Array_element_eq hlo, Array_element_eq hln, e1, e2,
      Option.some_bind, IsImmediateObject]
    by_cases hc : IsSmallInteger lo.refs[i] ∨ IsSmallInteger ln.refs[i]
    · refine ⟨true, by simp [hc], ?_⟩
      simp only [true_iff]
      rcases hc with hc | hc
      · exact ⟨i, List.mem_cons_self _ _, _, Or.inl e1, hc⟩
      · exact ⟨i, List.mem_cons_self _ _, _, Or.inr e2, hc⟩
    · refine ⟨b, by simp [hc, hb], ?_⟩
      rw [hiff]
      constructor
      · rintro ⟨j, hj, v, hv, hs⟩
        exact ⟨j, List.mem_cons_of_mem _ hj, v, hv, hs⟩
      · rintro ⟨j, hj, v, hv, hs⟩
        rcases List.mem_cons.1 hj with rfl | hj
        · exfalso
          rcases hv with hv | hv
          · rw [e1] at hv; cases hv; exact hc (Or.inl hs)
          · rw [e2] at hv; cases hv; exact hc (Or.inr hs)
        · exact ⟨j, hj, v, hv, hs⟩

/-- C8: for arrays `old` and `neu` whose length slots hold their lengths, `BecomeForward` returns
false exactly when the lengths differ or some element of either array is a small integer, and
whenever it returns false the heap is the heap before the call. -/
theorem BecomeForward_false_iff (h : Heap) (old neu : Object) (lo ln : Layout)
    (hlo : h.load old = some lo) (hln : h.load neu = some ln)
    (hso : SmallInteger.value lo.size_ = (lo.refs.length : Int))
    (hsn : SmallInteger.value ln.size_ = (ln.refs.length : Int)) :
    ((∃ h', BecomeForward h old neu = some (false, h')) ↔
      (Array.Size h old ≠ Array.Size h neu ∨ (∃ v ∈ lo.refs, IsSmallInteger v) ∨
        ∃ v ∈ ln.refs, IsSmallInteger v)) ∧
    (∀ h', BecomeForward h old neu = some (false, h') → h' = h) := by
  have hSo : Array.Size h old = some (lo.refs.length : Int) := by simp [Array.Size, hlo, hso]
  have hSn : Array.Size h neu = some (ln.refs.length : Int) := by simp [Array.Size, hln, hsn]
  by_cases hlen : lo.refs.length = ln.refs.length
  · obtain ⟨b, hb, hiff⟩ := BecomeForward_immediate_spec hlo hln (List.range lo.refs.length)
      (fun i hi => ⟨List.mem_range.1 hi, hlen ▸ List.mem_range.1 hi⟩)
    have hunf : BecomeForward h old neu =
        if b = true then some (false, h)
        else (BecomeForward.corpses h old neu (List.range lo.refs.length)).bind fun h1 =>
          (ForwardClassIds h1).bind fun h2 =>
          (ForwardRoots h2).bind fun h3 =>
          (ForwardHeap h3).bind fun h4 =>
          (MournClassTableForwarded h4).map fun h5 => (true, ClearCache h5) := by
      unfold BecomeForward
      rw [hSo, hSn]
      simp only [Option.some_bind]
      rw [if_neg (by simp [hlen]), Int.toNat_ofNat, hb]
      simp only [Option.some_bind]
    have hex : (∃ i ∈ List.range lo.refs.length, ∃ v,
          (lo.refs[i]? = some v ∨ ln.refs[i]? = some v) ∧ IsSmallInteger v) ↔
        ((∃ v ∈ lo.refs, IsSmallInteger v) ∨ ∃ v ∈ ln.refs, IsSmallInteger v) := by
      constructor
      · rintro ⟨i, _, v, hv | hv, hs⟩
        · exact Or.inl ⟨v, List.getElem?_mem hv, hs⟩
        · exact Or.inr ⟨v, List.getElem?_mem hv, hs⟩
      · rintro (⟨v, hv, hs⟩ | ⟨v, hv, hs⟩)
        · obtain ⟨i, hi, rfl⟩ := List.getElem_of_mem hv
          exact ⟨i, List.mem_range.2 hi, _, Or.inl (List.getElem?_eq_getElem hi), hs⟩
        · obtain ⟨i, hi, rfl⟩ := List.getElem_of_mem hv
          exact ⟨i, List.mem_range.2 (hlen ▸ hi), _, Or.inr (List.getElem?_eq_getElem hi), hs⟩
    rw [hunf]
    by_cases hbt : b = true
    · simp only [hbt, if_true]
      refine ⟨⟨fun _ => Or.inr (hex.1 (hiff.1 hbt)), fun _ => ⟨h, rfl⟩⟩, ?_⟩
      intro h' he; cases he; rfl
    · simp only [hbt, if_false]
      have hno : ∀ h', ¬ ((BecomeForward.corpses h old neu (List.range lo.refs.length)).bind
          fun h1 => (ForwardClassIds h1).bind fun h2 => (ForwardRoots h2).bind fun h3 =>
          (ForwardHeap h3).bind fun h4 => (MournClassTableForwarded h4).map fun h5 =>
            (true, ClearCache h5)) = some (false, h') := by
        intro h' he
        simp only [Option.bind_eq_some, Option.map_eq_some', Prod.mk.injEq] at he
        obtain ⟨_, _, _, _, _, _, _, _, _, _, hf, _⟩ := he
        cases hf
      refine ⟨⟨fun ⟨h', he⟩ => absurd he (hno h'), ?_⟩, fun h' he => absurd he (hno h')⟩
      rintro (hne | hsm)
      · exact absurd (by rw [hSo, hSn, hlen]) hne
      · exact absurd (hiff.2 (hex.2 hsm)) hbt
  · have hne : Array.Size h old ≠ Array.Size h neu := by
      rw [hSo, hSn]; intro he; apply hlen; exact_mod_cast Option.some.inj he
    have hunf : BecomeForward h old neu = some (false, h) := by
      have : (lo.refs.length : Int) ≠ (ln.refs.length : Int) := by exact_mod_cast hlen
      simp [BecomeForward, hSo, hSn, this]
    rw [hunf]
    refine ⟨⟨fun _ => Or.inl hne, fun _ => ⟨h, rfl⟩⟩, ?_⟩
    intro h' he; cases he; rfl

/-- Witness of C8: the become of `[C1]` into `[SmallInteger 21]` returns false. -/
theorem BecomeForward_false_iff_witness :
    ((∃ h', BecomeForward classHeap 13 17 = some (false, h')) ↔
      (Array.Size classHeap 13 ≠ Array.Size classHeap 17 ∨
        (∃ v ∈ (Layout.sample kArrayCid 7 [.root 4] [7]).refs, IsSmallInteger v) ∨
        ∃ v ∈ (Layout.sample kArrayCid 9 [.root 6] [SmallInteger.New 21]).refs,
          IsSmallInteger v)) ∧
    (∀ h', BecomeForward classHeap 13 17 = some (false, h') → h' = classHeap) :=
  BecomeForward_false_iff classHeap 13 17 (Layout.sample kArrayCid 7 [.root 4] [7])
    (Layout.sample kArrayCid 9 [.root 6] [SmallInteger.New 21]) (by rfl) (by rfl)
    (by decide) (by decide)

end psoup

namespace psoup

theorem HashKept_refl (a : Object) (h : Heap) : HashKept a h h :=
  fun _ l _ hl => ⟨l, hl, rfl⟩

theorem HashKept_trans {a : Object} {h1 h2 h3 : Heap} (h12 : HashKept a h1 h2)
    (h23 : HashKept a h2 h3) : HashKept a h1 h3 := by
  intro o l ho hl
  obtain ⟨l2, hl2, e2⟩ := h12 o l ho hl
  obtain ⟨l3, hl3, e3⟩ := h23 o l2 ho hl2
  exact ⟨l3, hl3, e3.trans e2⟩

theorem HashKept_of_load {a : Object} {h h' : Heap} (hl : ∀ o, h'.load o = h.load o) :
    HashKept a h h' :=
  fun o l _ hlo => ⟨l, (hl o).trans hlo, rfl⟩

theorem HashKept_modify {a : Object} {h h' : Heap} {x : Object} {f : Layout → Layout}
    (hm : h.modify x f = some h') (hf : x = a ∨ ∀ l, (f l).header_hash = l.header_hash) :
    HashKept a h h' := by
  obtain ⟨-, rfl⟩ := modify_eq_mapMemory.1 hm
  intro o l ho hl
  rw [load_mapMemory, hl]
  refine ⟨_, rfl, ?_⟩
  by_cases hox : o = x
  · show (if o = x then f l else l).header_hash = l.header_hash
    rw [if_pos hox]
    rcases hf with hf | hf
    · exact absurd (hox.trans hf) ho
    · exact hf l
  · show (if o = x then f l else l).header_hash = l.header_hash
    rw [if_neg hox]

theorem HashKept_UpdateNoCheck {a : Object} {h h' : Heap} {r : RefPtr} {v : Object}
    (hu : UpdateNoCheck h r v = some h') : HashKept a h h' := by
  obtain ⟨t, -, -, -, rfl⟩ := UpdateNoCheck_eq_some.1 hu
  intro o l _ hl
  rw [load_retarget, hl]
  exact ⟨_, rfl, congrArg HashField.decode (Layout_retarget_fields r t v o l).2.2.2.2.1⟩

theorem HashField_decode_IndexField_update' (v w : Nat) :
    HashField.decode (IndexField.update v w) = HashField.decode w := by
  unfold HashField.decode IndexField.update
  omega

theorem HashKept_set_table_index {a : Object} {h h' : Heap} {x : Object} {v : Nat}
    (hs : set_table_index h x v = some h') : HashKept a h h' :=
  HashKept_modify hs (Or.inr fun l => HashField_decode_IndexField_update' v l.header_hash_)

theorem HashKept_Unlink_weak {a : Object} : ∀ (fuel : Nat) (h h' : Heap) (obj : Object)
    (ref : Option RefPtr), Unlink.weak fuel h obj ref = some h' → HashKept a h h' := by
  intro fuel
  induction fuel with
  | zero =>
    intro h h' obj ref he
    cases ref with
    | none => simp only [Unlink.weak, Option.some.injEq] at he; subst he; exact HashKept_refl a h
    | some r => simp [Unlink.weak] at he
  | succ n ih =>
    intro h h' obj ref he
    cases ref with
    | none => simp only [Unlink.weak, Option.some.injEq] at he; subst he; exact HashKept_refl a h
    | some r =>
      simp only [Unlink.weak, Option.bind_eq_some] at he
      obtain ⟨o, -, _, -, h1, hu, hrest⟩ := he
      exact HashKept_trans (HashKept_UpdateNoCheck hu) (ih _ _ _ _ hrest)

theorem HashKept_Unlink_outgoing {a : Object} (obj : Object) : ∀ (is : List Nat) (h h' : Heap),
    Unlink.outgoing h obj is = some h' → HashKept a h h' := by
  intro is
  induction is with
  | nil => intro h h' he; simp only [Unlink.outgoing, Option.some.injEq] at he; subst he; exact HashKept_refl a h
  | cons i rest ih =>
    intro h h' he
    simp only [Unlink.outgoing, Option.bind_eq_some] at he
    obtain ⟨t, -, h1, hu, hrest⟩ := he
    refine HashKept_trans ?_ (ih _ _ hrest)
    split_ifs at hu
    · cases hu; exact HashKept_refl a h
    · exact HashKept_UpdateNoCheck hu

theorem HashKept_Unlink_table {a : Object} {h h' : Heap} {obj : Object}
    (he : Unlink.table h obj = some h') : HashKept a h h' := by
  unfold Unlink.table at he
  simp only [Option.bind_eq_some] at he
  obtain ⟨o, -, he⟩ := he
  split_ifs at he
  simp only [Option.bind_eq_some, Option.some.injEq] at he
  obtain ⟨h1, e1, h3, e3, rfl⟩ := he
  have s1 : HashKept a h h1 := HashKept_set_table_index e1
  have s3 : HashKept a _ h3 := HashKept_set_table_index e3
  intro x l hx hl
  obtain ⟨l1, hl1, e⟩ := s1 x l hx hl
  obtain ⟨l3, hl3, e'⟩ := s3 x l1 hx hl1
  exact ⟨l3, hl3, e'.trans e⟩

theorem HashKept_Unlink {a : Object} {h h' : Heap} {obj : Object}
    (he : Unlink h obj = some h') : HashKept a h h' := by
  unfold Unlink at he
  simp only [Option.bind_eq_some] at he
  obtain ⟨o, -, h1, e1, o1, -, h2, e2, e3⟩ := he
  refine HashKept_trans ?_ (HashKept_trans (HashKept_Unlink_outgoing obj _ _ _ e2)
    (HashKept_Unlink_table e3))
  split_ifs at e1
  · exact HashKept_Unlink_weak _ _ _ _ _ e1
  · cases e1; exact HashKept_refl a h

end psoup

namespace psoup

theorem HashKept_ForwardPointer {a : Object} {h h' : Heap} {r : RefPtr}
    (he : ForwardPointer h r = some h') : HashKept a h h' := by
  unfold ForwardPointer at he
  simp only [Option.bind_eq_some] at he
  obtain ⟨t, -, c, -, he⟩ := he
  split_ifs at he
  · simp only [Option.bind_eq_some] at he
    obtain ⟨l, -, hu⟩ := he
    exact HashKept_UpdateNoCheck hu
  · cases he; exact HashKept_refl a h

theorem HashKept_ForwardPointers {a : Object} : ∀ (rs : List RefPtr) (h h' : Heap),
    ForwardPointers h rs = some h' → HashKept a h h' := by
  intro rs
  induction rs with
  | nil => intro h h' he; simp only [ForwardPointers, Option.some.injEq] at he; subst he; exact HashKept_refl a h
  | cons r rest ih =>
    intro h h' he
    simp only [ForwardPointers, Option.bind_eq_some] at he
    obtain ⟨h1, e1, e2⟩ := he
    exact HashKept_trans (HashKept_ForwardPointer e1) (ih _ _ e2)

theorem HashKept_ForwardRoots {a : Object} {h h' : Heap}
    (he : ForwardRoots h = some h') : HashKept a h h' := by
  unfold ForwardRoots at he
  simp only [Option.bind_eq_some] at he
  obtain ⟨hs, -, h2, e2, e3⟩ := he
  have s1 : HashKept a h { h with handles_ := hs } := HashKept_of_load fun _ => rfl
  exact HashKept_trans s1 (HashKept_trans (HashKept_ForwardPointers _ _ _ e2)
    (HashKept_ForwardPointers _ _ _ e3))

theorem HashKept_ForwardClass {a : Object} {h h' : Heap} {x : Object}
    (he : ForwardClass h x = some h') : HashKept a h h' := by
  unfold ForwardClass at he
  simp only [Option.bind_eq_some] at he
  obtain ⟨o, -, c, -, b, -, he⟩ := he
  split_ifs at he
  · simp only [Option.bind_eq_some] at he
    obtain ⟨l, -, id, -, hs⟩ := he
    exact HashKept_modify hs (Or.inr fun _ => rfl)
  · cases he; exact HashKept_refl a h

theorem HashKept_ForwardHeap_loop {a : Object} : ∀ (is : List Nat) (h h' : Heap),
    ForwardHeap.loop h is = some h' → HashKept a h h' := by
  intro is
  induction is with
  | nil => intro h h' he; simp only [ForwardHeap.loop, Option.some.injEq] at he; subst he; exact HashKept_refl a h
  | cons i rest ih =>
    intro h h' he
    simp only [ForwardHeap.loop, ForwardHeap.step, Option.bind_eq_some] at he
    obtain ⟨h2, ⟨h1, e1, o, -, e2⟩, e3⟩ := he
    exact HashKept_trans (HashKept_ForwardClass e1)
      (HashKept_trans (HashKept_ForwardPointers _ _ _ e2) (ih _ _ e3))

theorem HashKept_class_table_put {a : Object} {h h' : Heap} {cid : Int} {v : Object}
    (he : class_table_put h cid v = some h') : HashKept a h h' := by
  unfold class_table_put at he
  split_ifs at he
  cases he
  exact HashKept_of_load fun _ => rfl

theorem HashKept_ForwardClassIds_loop {a : Object} : ∀ (is : List Nat) (h h' : Heap),
    ForwardClassIds.loop h is = some h' → HashKept a h h' := by
  intro is
  induction is with
  | nil => intro h h' he; simp only [ForwardClassIds.loop, Option.some.injEq] at he; subst he; exact HashKept_refl a h
  | cons i rest ih =>
    intro h h' he
    simp only [ForwardClassIds.loop, Option.bind_eq_some] at he
    obtain ⟨h1, e1, e2⟩ := he
    refine HashKept_trans ?_ (ih _ _ e2)
    unfold ForwardClassIds.step at e1
    simp only [Option.bind_eq_some] at e1
    obtain ⟨c, -, e1⟩ := e1
    split_ifs at e1
    · cases e1; exact HashKept_refl a h
    · simp only [Option.bind_eq_some, Option.map_eq_some'] at e1
      obtain ⟨l, -, id, -, h2, f2, h3, f3, rfl⟩ := e1
      have s2 : HashKept a h h2 := by
        split_ifs at f2
        · exact HashKept_class_table_put f2
        · cases f2; exact HashKept_refl a h
      have s3 : HashKept a h2 h3 := HashKept_UpdateNoCheck f3
      refine HashKept_trans s2 (HashKept_trans s3 ?_)
      exact HashKept_of_load fun _ => rfl

theorem HashKept_Mourn_loop {a : Object} : ∀ (is : List Nat) (h h' : Heap),
    MournClassTableForwarded.loop h is = some h' → HashKept a h h' := by
  intro is
  induction is with
  | nil => intro h h' he; simp only [MournClassTableForwarded.loop, Option.some.injEq] at he; subst he; exact HashKept_refl a h
  | cons i rest ih =>
    intro h h' he
    simp only [MournClassTableForwarded.loop, MournClassTableForwarded.step,
      Option.bind_eq_some, Option.map_eq_some'] at he
    obtain ⟨h1, ⟨c, -, rfl⟩, e2⟩ := he
    refine HashKept_trans ?_ (ih _ _ e2)
    split_ifs
    · exact HashKept_refl a h
    · exact HashKept_of_load fun _ => rfl

theorem HashField_decode_update (v w : Nat) (hv : v < 2 ^ 32) :
    HashField.decode (HashField.update v w) = v := by
  unfold HashField.decode HashField.update
  omega

theorem HashField_decode_lt (w : Nat) : HashField.decode w < 2 ^ 32 := by
  unfold HashField.decode
  omega

/-- The body of the second loop of `BecomeForward` gives the forwardee the identity hash of the
forwarder. -/
theorem BecomeForward_pair_hash {h h' : Heap} {a b : Object} {la : Layout} (hab : a ≠ b)
    (hla : h.load a = some la) (he : BecomeForward.pair h a b = some h') :
    ∃ lb', h'.load b = some lb' ∧ lb'.header_hash = la.header_hash := by
  unfold BecomeForward.pair at he
  simp only [Option.bind_eq_some] at he
  obtain ⟨fr, hfr, h1, e1, fe1, hfe1, fr1, -, h2, e2, fr2, -, h3, e3, h4, e4, fr4, -, h5, e5, e6⟩ :=
    he
  rw [hla] at hfr; cases hfr
  -- the hash of `b` after `set_header_hash`
  obtain ⟨lb, hlb, rfl⟩ := modify_eq_some.1 e1
  have hb : IsHeapObject b := isHeapObject_of_load hlb
  rw [load_store_same hb] at hfe1
  cases hfe1
  have s2 : HashKept a _ h2 := HashKept_modify e2 (Or.inr fun _ => rfl)
  have s3 : HashKept a h2 h3 := HashKept_Unlink e3
  have s4 : HashKept a h3 h4 := HashKept_modify e4 (Or.inl rfl)
  have s5 : HashKept a h4 h5 := by
    split_ifs at e5
    · exact HashKept_modify e5 (Or.inl rfl)
    · cases e5; exact HashKept_refl a h4
  have s6 : HashKept a h5 h' := HashKept_modify e6 (Or.inl rfl)
  obtain ⟨lb', hlb', e⟩ := HashKept_trans s2 (HashKept_trans s3 (HashKept_trans s4
    (HashKept_trans s5 s6))) b _ (Ne.symm hab) (load_store_same hb)
  refine ⟨lb', hlb', e.trans ?_⟩
  exact HashField_decode_update _ _ (HashField_decode_lt _)

/-- The passes of a `BecomeForward` that returns true. -/
theorem BecomeForward_true_eq {h h' : Heap} {old neu : Object}
    (he : BecomeForward h old neu = some (true, h')) :
    ∃ (n : Int) (h1 h2 h3 h4 h5 : Heap), Array.Size h old = some n ∧ Array.Size h neu = some n ∧
      BecomeForward.immediate h old neu (List.range n.toNat) = some false ∧
      BecomeForward.corpses h old neu (List.range n.toNat) = some h1 ∧
      ForwardClassIds h1 = some h2 ∧ ForwardRoots h2 = some h3 ∧ ForwardHeap h3 = some h4 ∧
      MournClassTableForwarded h4 = some h5 ∧ h' = ClearCache h5 := by
  unfold BecomeForward at he
  simp only [Option.bind_eq_some] at he
  obtain ⟨so, hso, sn, hsn, he⟩ := he
  by_cases hne : so ≠ sn
  · rw [if_pos hne] at he
    simp at he
  rw [if_neg hne] at he
  have hsame : so = sn := not_not.1 hne
  subst hsame
  simp only [Option.bind_eq_some] at he
  obtain ⟨imm, himm, he⟩ := he
  by_cases hi : imm = true
  · rw [if_pos hi] at he
    simp at he
  rw [if_neg hi] at he
  simp only [Option.bind_eq_some, Option.map_eq_some', Prod.mk.injEq, true_and] at he
  obtain ⟨h1, e1, h2, e2, h3, e3, h4, e4, h5, e5, rfl⟩ := he
  have hf : imm = false := by cases imm <;> simp_all
  subst hf
  exact ⟨so, h1, h2, h3, h4, h5, hso, hsn, himm, e1, e2, e3, e4, e5, rfl⟩

/-- C10: the identity hash is carried across become. For distinct objects `a` and `b`, when
`BecomeForward` of the arrays `[a]` and `[b]` (whose length slots hold the length 1) returns
true, the identity hash of `b` after the call is the identity hash `a` had before the call. -/
theorem BecomeForward_carries_hash (h h' : Heap) (old neu a b : Object) (lo ln la : Layout)
    (hlo : h.load old = some lo) (hln : h.load neu = some ln)
    (hro : lo.refs = [a]) (hrn : ln.refs = [b]) (hso : SmallInteger.value lo.size_ = 1)
    (hab : a ≠ b) (hla : h.load a = some la)
    (he : BecomeForward h old neu = some (true, h')) :
    ∃ lb', h'.load b = some lb' ∧ lb'.header_hash = la.header_hash := by
  obtain ⟨n, h1, h2, h3, h4, h5, hn, -, -, e1, e2, e3, e4, e5, rfl⟩ := BecomeForward_true_eq he
  have hn1 : n = 1 := by
    simp only [Array.Size, hlo, Option.map_some', Option.some.injEq] at hn
    rw [← hn, hso]
  subst hn1
  have hr : List.range (1 : Int).toNat = [0] := by decide
  rw [hr] at e1
  simp only [BecomeForward.corpses, Array_element_eq hlo, Array_element_eq hln, hro, hrn,
    List.getElem?_cons_zero, Option.some_bind, Option.bind_eq_some, Option.some.injEq] at e1
  obtain ⟨hp, ep, rfl⟩ := e1
  obtain ⟨lb1, hlb1, eq1⟩ := BecomeForward_pair_hash hab hla ep
  have s2 : HashKept a hp h2 := HashKept_ForwardClassIds_loop _ _ _ e2
  have s3 : HashKept a h2 h3 := HashKept_ForwardRoots e3
  have s4 : HashKept a h3 h4 := HashKept_ForwardHeap_loop _ _ _ e4
  have s5 : HashKept a h4 h5 := HashKept_Mourn_loop _ _ _ e5
  obtain ⟨lb', hlb', e⟩ := HashKept_trans s2 (HashKept_trans s3 (HashKept_trans s4 s5)) b lb1
    (Ne.symm hab) hlb1
  exact ⟨lb', by rw [load_ClearCache]; exact hlb', e.trans eq1⟩

/-- Witness of C10: the become of the class `C1`, whose identity hash is 77, into the
unregistered class `C2`. -/
theorem BecomeForward_carries_hash_witness :
    ∃ lb', (becomeResult classHeapUnregistered 13 15).2.load 9 = some lb' ∧
      lb'.header_hash = (Layout.sampleClass 4 77 [.slot 11 0, .slot 13 0]
        (SmallInteger.New 14) true).header_hash :=
  BecomeForward_carries_hash classHeapUnregistered (becomeResult classHeapUnregistered 13 15).2
    13 15 7 9 (Layout.sample kArrayCid 7 [.root 4] [7]) (Layout.sample kArrayCid 8 [.root 5] [9])
    (Layout.sampleClass 4 77 [.slot 11 0, .slot 13 0] (SmallInteger.New 14) true)
    (by rfl) (by rfl) (by rfl) (by rfl) (by decide) (by decide) (by rfl) (by rfl)

end psoup

namespace psoup

/-- C9: the become of the class `C1`, registered under the class id 14, into the class `C2`,
registered under the class id 15, returns true and the klass Ref of the instance targets `C2`,
but the class id of the instance is 15, the class id slot of `C2` holds 15, and the entry 14 of
the class table is a link of the free list.  When `C2` is not registered the instance keeps the
class id 14, under which `C2` is then registered. -/
theorem BecomeForward_class_id_not_kept :
    ((BecomeForward classHeap 13 15).map fun p => p.1) = some true ∧
    Ref_to (becomeResult classHeap 13 15).2 (.slot 11 RegularObject.klass_index) = some 9 ∧
    ClassId (becomeResult classHeap 13 15).2 11 = some 15 ∧
    ClassAt (becomeResult classHeap 13 15).2 14 = some (SmallInteger.New 0) ∧
    (becomeResult classHeap 13 15).2.class_table_free_ = 14 ∧
    ClassAt (becomeResult classHeap 13 15).2 15 = some 9 ∧
    (Behavior.id (becomeResult classHeap 13 15).2 9).map SmallInteger.value = some 15 ∧
    ((BecomeForward classHeapUnregistered 13 15).map fun p => p.1) = some true ∧
    Ref_to (becomeResult classHeapUnregistered 13 15).2 (.slot 11 RegularObject.klass_index) =
      some 9 ∧
    ClassId (becomeResult classHeapUnregistered 13 15).2 11 = some 14 ∧
    ClassAt (becomeResult classHeapUnregistered 13 15).2 14 = some 9 ∧
    (Behavior.id (becomeResult classHeapUnregistered 13 15).2 9).map SmallInteger.value =
      some 14 := by
  refine ⟨by rfl, by rfl, by rfl, by rfl, by rfl, by rfl, by rfl, by rfl, by rfl, by rfl, by rfl,
    by rfl⟩

end psoup

namespace psoup

theorem GCStep_unmark_total : ∀ (xs : List Object) (h : Heap),
    (∀ x ∈ xs, ∃ l, h.load x = some l) → ∃ h', GCStep.unmark h xs = some h' := by
  intro xs
  induction xs with
  | nil => intro h _; exact ⟨h, rfl⟩
  | cons x rest ih =>
    intro h hx
    obtain ⟨l, hl⟩ := hx x (List.mem_cons_self _ _)
    obtain ⟨h1, e1⟩ : ∃ h1, set_is_marked h x false = some h1 :=
      ⟨_, modify_eq_some.2 ⟨l, hl, rfl⟩⟩
    obtain ⟨f1, -, ⟨l1, hl1, hl1'⟩, -⟩ := set_is_marked_eq_some e1
    obtain ⟨h2, e2⟩ : ∃ h2, set_is_weak_referent h1 x false = some h2 :=
      ⟨_, modify_eq_some.2 ⟨_, hl1', rfl⟩⟩
    obtain ⟨f2, -, -, -⟩ := set_is_weak_referent_eq_some e2
    have hrest : ∀ y ∈ rest, ∃ l, h2.load y = some l := by
      intro y hy
      obtain ⟨ly, hly⟩ := hx y (List.mem_cons_of_mem _ hy)
      obtain ⟨ly', hly', -⟩ := (MarkFrame_load (MarkFrame_trans f1 f2) y).1 ly hly
      exact ⟨ly', hly'⟩
    obtain ⟨h', e'⟩ := ih h2 hrest
    exact ⟨h', by simp only [GCStep.unmark, e1, e2, Option.some_bind, e']⟩

/-- A round of `GCStep` whose candidate is nil, true or false or is reachable from a root
returns, and changes mark bits and weak-referent bits only. -/
theorem GCStep_round_reachable {h : Heap} (hwf : WellFormed h) {random : Nat}
    (hidx : random % h.table_size_ ≠ 0)
    (hr : h.table_ (random % h.table_size_) = h.interpreter_.nil_obj ∨
      h.table_ (random % h.table_size_) = h.interpreter_.true_obj ∨
      h.table_ (random % h.table_size_) = h.interpreter_.false_obj ∨
      RootReachable h (h.table_ (random % h.table_size_))) :
    ∃ h', GCStep.round h random = some h' ∧ MarkFrame h h' ∧ h'.worklist_ = [] := by
  have hw := WeaklyFormed_of_WellFormed hwf
  have hsz : h.table_size_ ≠ 0 := by
    have := hwf.1.1
    omega
  have hcT : InTable h (h.table_ (random % h.table_size_)) :=
    ⟨_, by omega, Nat.mod_lt _ (by omega), rfl⟩
  have hunf : GCStep.round h random =
      (CheckReachable h (h.table_ (random % h.table_size_))).bind fun p =>
      (if p.1 = true then GCStep.unmark p.2 p.2.worklist_
       else GCStep.reclaim p.2).map fun h4 => { h4 with worklist_ := [] } := by
    unfold GCStep.round
    rw [if_neg hsz]
    simp only [if_neg hidx]
  rw [hunf]
  by_cases hsing : h.table_ (random % h.table_size_) = h.interpreter_.nil_obj ∨
      h.table_ (random % h.table_size_) = h.interpreter_.true_obj ∨
      h.table_ (random % h.table_size_) = h.interpreter_.false_obj
  · rw [CheckReachable_singleton hsing]
    simp only [Option.some_bind, if_true]
    rw [hwf.2.2.2.1]
    exact ⟨_, rfl, MarkFrame_worklist h [], rfl⟩
  have hreach : RootReachable h (h.table_ (random % h.table_size_)) := by
    rcases hr with h1 | h1 | h1 | h1
    · exact absurd (Or.inl h1) hsing
    · exact absurd (Or.inr (Or.inl h1)) hsing
    · exact absurd (Or.inr (Or.inr h1)) hsing
    · exact h1
  obtain ⟨sf, st, tot⟩ := CheckReachable_spec hw hcT hsing
  obtain ⟨⟨b, h1⟩, hres⟩ := tot hwf.2.1
  cases b with
  | false =>
    obtain ⟨hst, hp, hcw⟩ := sf h1 hres
    exact absurd hreach (closure_not_reachable hw.1 hw.2.2.1 hst hp hcw)
  | true =>
    obtain ⟨hst, -⟩ := st h1 hres
    have hload : ∀ x ∈ h1.worklist_, ∃ l, h1.load x = some l := by
      intro x hx
      obtain ⟨l, hl, -⟩ := load_of_InTable hw.1 (hst.inTable x hx)
      obtain ⟨l', hl', -⟩ := (MarkFrame_load hst.frame x).1 l hl
      exact ⟨l', hl'⟩
    obtain ⟨h4, e4⟩ := GCStep_unmark_total _ _ hload
    obtain ⟨f4, -, -⟩ := GCStep_unmark_spec _ _ _ e4
    rw [hres]
    simp only [Option.some_bind, if_true, e4, Option.map_some']
    exact ⟨_, rfl, MarkFrame_trans (MarkFrame_trans hst.frame f4) (MarkFrame_worklist h4 []), rfl⟩

/-- C6, amended: when the heap object `K` is the target of the key slot of an ephemeron `E` that
is reachable from a root, a round of `GCStep` that samples `K` returns and reclaims nothing: the
object table and the targets of all Refs are as before, so `K` is in the object table and the
key slot of `E` targets `K`. -/
theorem GCStep_round_ephemeron_key (h : Heap) (random : Nat) (E K : Object) (lE : Layout)
    (hwf : WellFormed h) (hET : InTable h E) (hE : h.load E = some lE)
    (hcid : lE.cid = kEphemeronCid) (hkey : lE.refs[1]? = some K) (hK : IsHeapObject K)
    (hEr : RootReachable h E) (hidx : random % h.table_size_ ≠ 0)
    (hsample : h.table_ (random % h.table_size_) = K) :
    ∃ h', GCStep.round h random = some h' ∧ (∀ o, InTable h' o ↔ InTable h o) ∧
      InTable h' K ∧ (∀ r, Ref_to h' r = Ref_to h r) ∧
      Ref_to h' (.slot E 1) = some K := by
  have hedge : Edge h E K :=
    ⟨hET, lE, 1, hE, by rw [hcid]; decide, hkey, hK⟩
  have hKr : RootReachable h K := by
    obtain ⟨o, ho, hp⟩ := hEr
    exact ⟨o, ho, Relation.ReflTransGen.tail hp hedge⟩
  obtain ⟨h', he, hf, -⟩ := GCStep_round_reachable hwf hidx
    (Or.inr (Or.inr (Or.inr (hsample ▸ hKr))))
  have hKT : InTable h K := ⟨_, by omega, Nat.mod_lt _ (by have := hwf.1.1; omega), hsample⟩
  refine ⟨h', he, fun o => MarkFrame_InTable hf o, (MarkFrame_InTable hf K).2 hKT,
    fun r => MarkFrame_Ref_to hf r, ?_⟩
  rw [MarkFrame_Ref_to hf]
  exact Ref_to_slot_eq_some.2 ⟨lE, hE, hkey⟩

/-- Witness of the amended C6 on `ephemeronHeap`. -/
theorem GCStep_round_ephemeron_key_witness :
    ∃ h', GCStep.round ephemeronHeap 5 = some h' ∧
      (∀ o, InTable h' o ↔ InTable ephemeronHeap o) ∧
      InTable h' 9 ∧ (∀ r, Ref_to h' r = Ref_to ephemeronHeap r) ∧
      Ref_to h' (.slot 7 1) = some 9 :=
  GCStep_round_ephemeron_key ephemeronHeap 5 7 9 (Layout.sample kEphemeronCid 4 [.root 3]
    [1, 9, 11, 13]) (WellFormed_of_check (by decide)) ⟨4, by decide, by decide, rfl⟩ (by rfl)
    (by rfl) (by rfl) (by decide)
    ⟨7, Or.inl (by decide), Relation.ReflTransGen.refl⟩ (by decide) (by rfl)

/-- Counterexample to C6: in `ephemeronHeap` the object `K` at 9 is referenced only by the key
slot of the ephemeron `E` at 7, which is the target of a root Ref; after the round of `GCStep`
that samples `K`, `K` is still in the object table with its storage, and the key and value slots
of `E` still target `K` and `V`, not nil. -/
theorem GCStep_round_ephemeron_counterexample :
    checkWellFormed ephemeronHeap = true ∧
    ephemeronHeap.incomingOf 9 = [RefPtr.slot 7 1] ∧
    ClassId ephemeronHeap 7 = some kEphemeronCid ∧
    7 ∈ ephemeronHeap.interpreter_.roots ∧
    ephemeronHeap.table_ (5 % ephemeronHeap.table_size_) = 9 ∧
    (GCStep.round ephemeronHeap 5).isSome = true ∧
    inTable ephemeronHeapRound 9 = true ∧
    (ephemeronHeapRound.load 9).isSome = true ∧
    Ref_to ephemeronHeapRound (.slot 7 1) = some 9 ∧
    Ref_to ephemeronHeapRound (.slot 7 2) = some 11 ∧
    ephemeronHeapRound.interpreter_.nil_obj = 1 := by
  refine ⟨by decide, by rfl, by rfl, by decide, by rfl, by rfl, by rfl, by rfl, by rfl, by rfl,
    by rfl⟩

end psoup

namespace psoup

theorem UpdateNoCheck_total {h : Heap} {r : RefPtr} {t v : Object} (hto : Ref_to h r = some t)
    (ht : IsHeapObject t → ∃ l, h.load t = some l)
    (hv : IsHeapObject v → ∃ l, h.load v = some l) :
    UpdateNoCheck h r v = some (h.retarget r t v) :=
  UpdateNoCheck_eq_some.2 ⟨t, hto, ht, hv, rfl⟩

theorem Layout_retarget_refs_length (r : RefPtr) (t v o : Object) (l : Layout) :
    (Layout.retarget r t v o l).refs.length = l.refs.length := by
  unfold Layout.retarget
  cases r with
  | slot s i =>
    simp only
    split_ifs <;> simp
  | root i => rfl
  | stack i => rfl

theorem Layout_retarget_refs_getElem? (r : RefPtr) (t v o : Object) (l : Layout) (i : Nat) :
    (Layout.retarget r t v o l).refs[i]? =
      if r = RefPtr.slot o i ∧ i < l.refs.length then some v else l.refs[i]? := by
  unfold Layout.retarget
  cases r with
  | slot s j =>
    simp only [RefPtr.slot.injEq]
    by_cases hos : o = s
    · subst hos
      rw [if_pos rfl]
      by_cases hji : j = i
      · subst hji
        by_cases hlt : j < l.refs.length
        · rw [if_pos ⟨⟨rfl, rfl⟩, hlt⟩, List.getElem?_set]
          simp [hlt]
        · rw [if_neg (fun hc => hlt hc.2), List.getElem?_eq_none (by simpa using hlt),
            List.getElem?_eq_none (by omega)]
      · rw [if_neg (fun hc => hji hc.1.2), List.getElem?_set_ne hji]
    · rw [if_neg hos, if_neg (fun hc => hos hc.1.1.symm)]
  | root j => simp
  | stack j => simp

theorem mem_incomingOf_retarget {h : Heap} {r : RefPtr} {t v : Object} {o : Object}
    (hv : IsHeapObject v → ∃ l, h.load v = some l) {r' : RefPtr}
    (hr : r' ∈ (h.retarget r t v).incomingOf o) : r' ∈ h.incomingOf o ∨ r' = r := by
  rw [incomingOf_retarget o (fun hvh hov => hov ▸ hv hvh)] at hr
  rcases List.mem_append.1 hr with h1 | h1
  · split_ifs at h1
    · exact Or.inl (List.mem_of_mem_erase h1)
    · exact Or.inl h1
  · split_ifs at h1
    · exact Or.inr (List.mem_singleton.1 h1)
    · cases h1

theorem mem_incomingOf_retarget_of_ne {h : Heap} {r : RefPtr} {t v : Object} {o : Object}
    (hv : IsHeapObject v → ∃ l, h.load v = some l) {r' : RefPtr} (hne : r' ≠ r)
    (hr : r' ∈ h.incomingOf o) : r' ∈ (h.retarget r t v).incomingOf o := by
  rw [incomingOf_retarget o (fun hvh hov => hov ▸ hv hvh)]
  refine List.mem_append.2 (Or.inl ?_)
  split_ifs
  · exact (List.mem_erase_of_ne hne).2 hr
  · exact hr

theorem Stored_retarget {h1 h h' : Heap} (hs : Stored h1 h) {r : RefPtr} {v : Object}
    (hu : UpdateNoCheck h r v = some h')
    (hns : ∀ t, Ref_to h r = some t → ¬ IsSmallInteger t) : Stored h1 h' := by
  obtain ⟨t, hto, -, hv, rfl⟩ := UpdateNoCheck_eq_some.1 hu
  refine ⟨?_, ?_, ?_⟩
  · intro o l1 hl1
    obtain ⟨l, hl, hlen, hsmi⟩ := hs.shape o l1 hl1
    refine ⟨_, by rw [load_retarget, hl]; rfl, ?_, ?_⟩
    · rw [Layout_retarget_refs_length, hlen]
    · intro i w hw hws
      rw [Layout_retarget_refs_getElem?]
      by_cases hc : r = RefPtr.slot o i ∧ i < l.refs.length
      · exfalso
        obtain ⟨rfl, -⟩ := hc
        have : Ref_to h (RefPtr.slot o i) = some w :=
          Ref_to_slot_eq_some.2 ⟨l, hl, hsmi i w hw hws⟩
        rw [hto] at this
        cases this
        exact hns t hto hws
      · rw [if_neg hc]
        exact hsmi i w hw hws
  · intro s l' i t' hsT hl' hi ht'
    rw [load_retarget] at hl'
    obtain ⟨l, hl, rfl⟩ := Option.map_eq_some'.1 hl'
    rw [Layout_retarget_refs_getElem?] at hi
    have key : ∃ lt, h.load t' = some lt := by
      by_cases hc : r = RefPtr.slot s i ∧ i < l.refs.length
      · rw [if_pos hc] at hi
        cases hi
        exact hv ht'
      · rw [if_neg hc] at hi
        exact hs.targets s l i t' hsT hl hi ht'
    obtain ⟨lt, hlt⟩ := key
    exact ⟨_, by rw [load_retarget, hlt]; rfl⟩
  · intro o hoT r' hr'
    have hsome : ∀ r'', (∃ t'', Ref_to h r'' = some t'') →
        ∃ t'', Ref_to (h.retarget r t v) r'' = some t'' := by
      intro r'' ⟨t'', ht''⟩
      rw [Ref_to_retarget hto]
      split_ifs
      · exact ⟨v, rfl⟩
      · exact ⟨t'', ht''⟩
    rcases mem_incomingOf_retarget hv hr' with h1 | h1
    · exact hsome r' (hs.listed o hoT r' h1)
    · subst h1
      exact hsome r' ⟨t, hto⟩

theorem Stored_IndexOnly {h1 h h' : Heap} (hs : Stored h1 h) (hi : IndexOnly h h') :
    Stored h1 h' := by
  obtain ⟨g, hg, hload, -⟩ := IndexOnly_load hi
  refine ⟨?_, ?_, ?_⟩
  · intro o l1 hl1
    obtain ⟨l, hl, hlen, hsmi⟩ := hs.shape o l1 hl1
    refine ⟨g o l, by rw [hload, hl]; rfl, ?_, ?_⟩
    · rw [(IndexOnly_g hg o l).1]; exact hlen
    · rw [(IndexOnly_g hg o l).1]; exact hsmi
  · intro s l' i t' hsT hl' hi' ht'
    rw [hload] at hl'
    obtain ⟨l, hl, rfl⟩ := Option.map_eq_some'.1 hl'
    rw [(IndexOnly_g hg s l).1] at hi'
    obtain ⟨lt, hlt⟩ := hs.targets s l i t' hsT hl hi' ht'
    exact ⟨g t' lt, by rw [hload, hlt]; rfl⟩
  · intro o hoT r hr
    rw [IndexOnly_incomingOf hi] at hr
    rw [IndexOnly_Ref_to hi]
    exact hs.listed o hoT r hr

theorem WeakRefs_IndexOnly {h1 h h' : Heap} {p : List Object} (hw : WeakRefs h1 p h)
    (hi : IndexOnly h h') : WeakRefs h1 p h' := by
  intro r x a b c d e
  rw [IndexOnly_Ref_to hi, IndexOnly_incomingOf hi, IndexOnly_incomingOf hi]
  exact hw r x a b c d e

/-- The Refs of the weak arrays that stay are as they should be after an update of a Ref that is
either on the incoming list of a worklist object and gets nil, or a Ref of a worklist object. -/
theorem WeakRefs_retarget {h1 h h' : Heap} {p : List Object} (hw : WeakRefs h1 p h)
    {r' : RefPtr} {v : Object} (hu : UpdateNoCheck h r' v = some h')
    (hnil : IsHeapObject h1.interpreter_.nil_obj)
    (hcase : v = h1.interpreter_.nil_obj ∨ Ref_from r' ∈ h1.worklist_) : WeakRefs h1 p h' := by
  obtain ⟨t, hto, -, hv, rfl⟩ := UpdateNoCheck_eq_some.1 hu
  intro r x a b c d e
  by_cases hrr : r = r'
  · subst hrr
    rcases hcase with hcase | hcase
    · subst hcase
      left
      refine ⟨by rw [Ref_to_retarget hto, if_pos rfl], ?_⟩
      rw [incomingOf_retarget _ (fun hvh _ => hv hvh)]
      exact List.mem_append.2 (Or.inr (by rw [if_pos ⟨rfl, hnil⟩]; exact List.mem_singleton.2 rfl))
    · exact absurd hcase c
  · rcases hw r x a b c d e with ⟨h1', h2'⟩ | ⟨h1', h2', h3'⟩
    · left
      exact ⟨by rw [Ref_to_retarget hto, if_neg hrr]; exact h1',
        mem_incomingOf_retarget_of_ne hv hrr h2'⟩
    · right
      exact ⟨by rw [Ref_to_retarget hto, if_neg hrr]; exact h1',
        mem_incomingOf_retarget_of_ne hv hrr h2', h3'⟩

end psoup

namespace psoup

theorem Link_next_head (r : RefPtr) (rest : List RefPtr) :
    Link_next (r :: rest) r = rest.head? := by
  unfold Link_next
  simp only [List.dropWhile, ne_eq, not_true_eq_false, decide_False]
  cases rest <;> rfl

/-- The first loop of `Unlink` returns when `obj` is not nil, and leaves the incoming list of
`obj` empty. -/
theorem Unlink_weak_total {h1 : Heap} (hc : ClosureFound h1)
    (hnil : IsHeapObject h1.interpreter_.nil_obj)
    (hnilS : ∃ l, h1.load h1.interpreter_.nil_obj = some l)
    (hnilW : h1.interpreter_.nil_obj ∉ h1.worklist_) {x : Object} (hx : x ∈ h1.worklist_)
    {p : List Object} :
    ∀ (fuel : Nat) (h : Heap), Reclaiming h1 h → Stored h1 h → WeakRefs h1 p h →
      (h.incomingOf x).length < fuel →
      ∃ h', Unlink.weak fuel h x (h.incomingOf x).head? = some h' ∧ Stored h1 h' ∧
        WeakRefs h1 p h' ∧ h'.incomingOf x = [] := by
  intro fuel
  induction fuel with
  | zero => intro h _ _ _ hlt; omega
  | succ n ih =>
    intro h hr hs hw hlt
    have hxT := hc.inTable x hx
    obtain ⟨lx1, hlx1, -⟩ := load_of_InTable hc.table hxT
    obtain ⟨o, ho, -⟩ := hs.shape x lx1 hlx1
    have hinc : h.incomingOf x = o.incoming_ := incomingOf_of_load ho
    cases hlist : h.incomingOf x with
    | nil => exact ⟨h, by simp [Unlink.weak], hs, hw, hlist⟩
    | cons r rest =>
      have hrmem : r ∈ h.incomingOf x := by rw [hlist]; exact List.mem_cons_self _ _
      obtain ⟨t, hto⟩ := hs.listed x hxT r hrmem
      have htx : t = x := by
        rcases hr.sound x hxT r hrmem with ⟨h1', -⟩ | h1'
        · rw [hto] at h1'; exact Option.some.inj h1'
        · rw [hto] at h1'; cases h1'
      subst htx
      have hxheap : IsHeapObject t := isHeapObject_of_load ho
      obtain ⟨ln, hln, -⟩ := hs.shape _ _ hnilS.choose_spec
      have hnileq : h.interpreter_.nil_obj = h1.interpreter_.nil_obj := by rw [hr.interp]
      have hu : UpdateNoCheck h r h.interpreter_.nil_obj =
          some (h.retarget r t h1.interpreter_.nil_obj) := by
        rw [hnileq]
        exact UpdateNoCheck_total hto (fun _ => ⟨o, ho⟩) (fun _ => ⟨ln, hln⟩)
      have hu' : UpdateNoCheck h r h1.interpreter_.nil_obj =
          some (h.retarget r t h1.interpreter_.nil_obj) := hnileq ▸ hu
      have hgood := hr.closed t hx r hrmem
      obtain ⟨hr', -⟩ := Reclaiming_retarget hc hr hu' hgood
      have hs' := Stored_retarget hs hu' (fun t' ht' => by
        rw [hto] at ht'; cases ht'
        exact fun hsm => ((not_isSmallInteger_iff _).2 hxheap) hsm)
      have hw' := WeakRefs_retarget hw hu' hnil (Or.inl rfl)
      have hne : t ≠ h1.interpreter_.nil_obj := fun he => hnilW (he ▸ hx)
      have hlist' : (h.retarget r t h1.interpreter_.nil_obj).incomingOf t = rest := by
        rw [incomingOf_retarget t (fun _ hov => absurd hov hne), if_pos ⟨rfl, hxheap⟩,
          if_neg (fun hcon => hne hcon.1), hlist]
        simp
      obtain ⟨h', he', hs'', hw'', hl''⟩ := ih _ hr' hs' hw' (by
        rw [hlist']; rw [hlist] at hlt; simp at hlt; omega)
      refine ⟨h', ?_, hs'', hw'', hl''⟩
      rw [hlist'] at he'
      simp only [List.head?_cons, Unlink.weak, ho, hto, Option.some_bind, hu]
      rw [← hinc, hlist, Link_next_head]
      exact he'

theorem mem_incomingOf_retarget_nullptr {h : Heap} {r : RefPtr} {t : Object} {o : Object}
    {r' : RefPtr} (hr : r' ∈ (h.retarget r t nullptr).incomingOf o) : r' ∈ h.incomingOf o := by
  rw [incomingOf_retarget o (fun hn _ => absurd hn not_isHeapObject_nullptr)] at hr
  rcases List.mem_append.1 hr with h1 | h1
  · split_ifs at h1
    · exact List.mem_of_mem_erase h1
    · exact h1
  · rw [if_neg (fun hcon => not_isHeapObject_nullptr hcon.2)] at h1
    cases h1

/-- The second loop of `Unlink` returns. -/
theorem Unlink_outgoing_total {h1 : Heap} (hc : ClosureFound h1)
    (hnil : IsHeapObject h1.interpreter_.nil_obj) {x : Object} (hx : x ∈ h1.worklist_)
    {p : List Object} :
    ∀ (is : List Nat) (h : Heap), Reclaiming h1 h → Stored h1 h → WeakRefs h1 p h →
      (∀ i ∈ is, ∃ l, h.load x = some l ∧ i < l.refs.length) →
      ∃ h', Unlink.outgoing h x is = some h' ∧ Stored h1 h' ∧ WeakRefs h1 p h' ∧
        ∀ o r, r ∈ h'.incomingOf o → r ∈ h.incomingOf o := by
  intro is
  induction is with
  | nil => intro h _ hs hw _; exact ⟨h, rfl, hs, hw, fun _ _ hr => hr⟩
  | cons i rest ih =>
    intro h hr hs hw hb
    have hxT := hc.inTable x hx
    obtain ⟨l, hl, hi⟩ := hb i (List.mem_cons_self _ _)
    have hto : Ref_to h (.slot x i) = some l.refs[i] :=
      Ref_to_slot_eq_some.2 ⟨l, hl, List.getElem?_eq_getElem hi⟩
    by_cases hsm : IsSmallInteger l.refs[i]
    · obtain ⟨h', he', hs', hw', hsub⟩ :=
        ih h hr hs hw (fun j hj => hb j (List.mem_cons_of_mem _ hj))
      refine ⟨h', ?_, hs', hw', hsub⟩
      simp only [Unlink.outgoing, hto, Option.some_bind, hsm, not_true_eq_false, if_false]
      exact he'
    · have hu : UpdateNoCheck h (.slot x i) nullptr =
          some (h.retarget (.slot x i) l.refs[i] nullptr) :=
        UpdateNoCheck_total hto
          (fun ht => hs.targets x l i _ hxT hl (List.getElem?_eq_getElem hi) ht)
          (fun hn => absurd hn not_isHeapObject_nullptr)
      obtain ⟨hr', -⟩ := Reclaiming_retarget hc hr hu ⟨x, i, rfl, hxT, Or.inr hx⟩
      have hs' := Stored_retarget hs hu (fun t' ht' => by
        rw [hto] at ht'; cases ht'; exact hsm)
      have hw' := WeakRefs_retarget hw hu hnil (Or.inr hx)
      obtain ⟨h', he', hs'', hw'', hsub⟩ := ih _ hr' hs' hw' (by
        intro j hj
        obtain ⟨l', hl', hj'⟩ := hb j (List.mem_cons_of_mem _ hj)
        rw [hl] at hl'; cases hl'
        exact ⟨_, (by rw [load_retarget, hl]; rfl),
          (by rw [Layout_retarget_refs_length]; exact hj')⟩)
      refine ⟨h', ?_, hs'', hw'', ?_⟩
      · simp only [Unlink.outgoing, hto, Option.some_bind, hsm, not_false_eq_true, if_true,
          Update, hu]
        exact he'
      · intro o r hr''
        exact mem_incomingOf_retarget_nullptr (hsub o r hr'')

end psoup

namespace psoup

theorem mem_range'_Pointers {l : Layout} (heph : l.cid = kEphemeronCid → 4 ≤ l.refs.length)
    {i : Nat} (hi : i ∈ List.range' (Pointers l).1 ((Pointers l).2 - (Pointers l).1)) :
    i < l.refs.length := by
  rw [List.mem_range'_1] at hi
  unfold Pointers at hi
  by_cases hc : l.cid = kEphemeronCid
  · rw [if_pos hc] at hi
    have := heph hc
    simp only at hi
    omega
  · rw [if_neg hc] at hi
    simp only at hi
    omega

/-- An object of the worklist is unlinked: `Unlink` returns. -/
theorem Unlink_total {h1 : Heap} (hc : ClosureFound h1)
    (hnil : IsHeapObject h1.interpreter_.nil_obj)
    (hnilS : ∃ l, h1.load h1.interpreter_.nil_obj = some l)
    (hnilW : h1.interpreter_.nil_obj ∉ h1.worklist_)
    (heph : ∀ o l, InTable h1 o → h1.load o = some l → l.cid = kEphemeronCid →
      4 ≤ l.refs.length)
    (hcomp : ∀ r x, HolderInTable h1 r → Ref_to h1 r = some x → IsHeapObject x →
      r ∈ h1.incomingOf x)
    {x : Object} (hx : x ∈ h1.worklist_) {p : List Object} {h : Heap}
    (hr : Reclaiming h1 h) (hts : TableShrunk h1 p h) (hxp : x ∉ p) (hs : Stored h1 h)
    (hw : WeakRefs h1 p h) :
    ∃ h', Unlink h x = some h' ∧ Stored h1 h' ∧ WeakRefs h1 (x :: p) h' := by
  have hxT := hc.inTable x hx
  obtain ⟨lx1, hlx1, -⟩ := load_of_InTable hc.table hxT
  have hxheap := isHeapObject_of_load hlx1
  obtain ⟨o, ho, -⟩ := hs.shape x lx1 hlx1
  have hinc : h.incomingOf x = o.incoming_ := incomingOf_of_load ho
  -- the first loop
  obtain ⟨ha, ea, hra, hsta, hsa, hwa, hla⟩ : ∃ ha,
      (if o.is_weak_referent = true then
        Unlink.weak (o.incoming_.length + 1) h x o.incoming_.head? else some h) = some ha ∧
      Reclaiming h1 ha ∧ SameTable h ha ∧ Stored h1 ha ∧ WeakRefs h1 p ha ∧
      (o.is_weak_referent = true → ha.incomingOf x = []) := by
    by_cases hf : o.is_weak_referent = true
    · obtain ⟨ha, ea, hsa, hwa, hla⟩ := Unlink_weak_total hc hnil hnilS hnilW hx
        (o.incoming_.length + 1) h hr hs hw (by rw [hinc]; omega)
      rw [hinc] at ea
      obtain ⟨hra, hsta⟩ := Unlink_weak_reclaiming hc hx _ h _ hr
        (fun r hr' => by rw [hinc]; exact List.mem_of_mem_head? hr') ha ea
      exact ⟨ha, by rw [if_pos hf]; exact ea, hra, hsta, hsa, hwa, fun _ => hla⟩
    · exact ⟨h, by rw [if_neg hf], hr, SameTable_refl h, hs, hw, fun hcon => absurd hcon hf⟩
  -- the second loop
  obtain ⟨o1, ho1, hlen1, -⟩ := hsa.shape x lx1 hlx1
  have hcid1 : o1.cid = lx1.cid := by
    obtain ⟨o1', ho1', hsame⟩ := (hra.layout x).1 lx1 hlx1
    rw [ho1] at ho1'; cases ho1'
    exact ((SameButRefs_iff lx1 o1).1 hsame).2.2.2.2.2.1
  obtain ⟨hb, eb, hsb, hwb, hsubb⟩ := Unlink_outgoing_total hc hnil hx
    (List.range' (Pointers o1).1 ((Pointers o1).2 - (Pointers o1).1)) ha hra hsa hwa
    (fun i hi => ⟨o1, ho1, mem_range'_Pointers (fun hce => by
      rw [hlen1]; exact heph x lx1 hxT hlx1 (hcid1 ▸ hce)) hi⟩)
  obtain ⟨hrb, hstb⟩ := Unlink_outgoing_reclaiming hc hx _ ha hra hb eb
  -- the object table
  have hst := SameTable_trans hsta hstb
  have hTb : TableInv hb := SameTable_TableInv hst hts.inv
  have hxb : InTable hb x := (SameTable_InTable hst x).2 ((hts.mem x).2 ⟨hxT, hxp⟩)
  obtain ⟨h', et, hio, -, -, -⟩ := Unlink_table_spec hTb hxb
  refine ⟨h', ?_, Stored_IndexOnly hsb hio, ?_⟩
  · unfold Unlink
    simp only [ho, Option.some_bind, ea, ho1, eb, et]
  · have hw' := WeakRefs_IndexOnly hwb hio
    intro r y a b c d e
    rcases hw' r y a b c d e with hcl | ⟨q1, q2, q3⟩
    · exact Or.inl hcl
    · right
      refine ⟨q1, q2, ?_⟩
      intro hmem
      rcases List.mem_cons.1 hmem with hyx | hyp
      · subst hyx
        rw [IndexOnly_incomingOf hio] at q2
        have q2a := hsubb y r q2
        -- the object is a weak referent, so the first loop has emptied its incoming list
        have hflag : h1.flagged y :=
          hc.flagged y hx ⟨r, hcomp r y a d hxheap, b⟩
        obtain ⟨lf, hlf, hlf'⟩ := hflag
        rw [hlx1] at hlf; cases hlf
        obtain ⟨o', ho', hsame⟩ := (hr.layout y).1 lx1 hlx1
        rw [ho] at ho'; cases ho'
        have : o.is_weak_referent = true := by
          rw [((SameButRefs_iff lx1 o).1 hsame).2.1]; exact hlf'
        rw [hla this] at q2a
        cases q2a
      · exact q3 hyp

/-- The first loop of the reclaiming branch of `GCStep` returns. -/
theorem GCStep_unlink_total {h1 : Heap} (hc : ClosureFound h1)
    (hnil : IsHeapObject h1.interpreter_.nil_obj)
    (hnilS : ∃ l, h1.load h1.interpreter_.nil_obj = some l)
    (hnilW : h1.interpreter_.nil_obj ∉ h1.worklist_)
    (heph : ∀ o l, InTable h1 o → h1.load o = some l → l.cid = kEphemeronCid →
      4 ≤ l.refs.length)
    (hcomp : ∀ r x, HolderInTable h1 r → Ref_to h1 r = some x → IsHeapObject x →
      r ∈ h1.incomingOf x) :
    ∀ (xs p : List Object) (h : Heap) (k : Bool), Reclaiming h1 h → TableShrunk h1 p h →
      Stored h1 h → WeakRefs h1 p h →
      (∀ x ∈ xs, x ∈ h1.worklist_) → xs.Nodup → (∀ x ∈ xs, x ∉ p) →
      ∃ h' k', GCStep.unlink h k xs = some (h', k') ∧ Stored h1 h' ∧
        ∃ p', WeakRefs h1 p' h' ∧ ∀ o, o ∈ p' ↔ (o ∈ xs ∨ o ∈ p) := by
  intro xs
  induction xs with
  | nil =>
    intro p h k _ _ hs hw _ _ _
    exact ⟨h, k, rfl, hs, p, hw, fun o => by simp⟩
  | cons x rest ih =>
    intro p h k hr hts hs hw hsub hnd hdis
    have hx := hsub x (List.mem_cons_self _ _)
    have hxp := hdis x (List.mem_cons_self _ _)
    obtain ⟨lx1, hlx1, -⟩ := load_of_InTable hc.table (hc.inTable x hx)
    obtain ⟨o, ho, -⟩ := hs.shape x lx1 hlx1
    obtain ⟨ha, ea, hsa, hwa⟩ := Unlink_total hc hnil hnilS hnilW heph hcomp hx hr hts hxp hs hw
    obtain ⟨hra, htsa⟩ := Unlink_reclaiming hc hx hr hts hxp ea
    obtain ⟨h', k', e', hs', p', hw', hp'⟩ := ih (x :: p) ha (k || o.in_class_table) hra htsa
      hsa hwa (fun y hy => hsub y (List.mem_cons_of_mem _ hy)) (List.Nodup.of_cons hnd)
      (fun y hy hmem => by
        rcases List.mem_cons.1 hmem with hyx | hyp
        · subst hyx; exact (List.nodup_cons.1 hnd).1 hy
        · exact hdis y (List.mem_cons_of_mem _ hy) hyp)
    refine ⟨h', k', ?_, hs', p', hw', ?_⟩
    · simp only [GCStep.unlink, ho, Option.some_bind, ea]
      exact e'
    · intro y
      rw [hp' y]
      simp only [List.mem_cons]
      tauto

end psoup

namespace psoup

theorem Free_total {h : Heap} {x : Object} {l : Layout} (hl : h.load x = some l)
    (hid : l.in_class_table = true → ∃ id, l.refs[Behavior.classid_index]? = some id ∧
      0 ≤ SmallInteger.value id) : ∃ h', Free h x = some h' := by
  unfold Free
  rw [hl]
  simp only [Option.some_bind]
  by_cases hc : l.in_class_table = true
  · obtain ⟨id, hid1, hid2⟩ := hid hc
    have hto : Behavior.id h x = some id := Ref_to_slot_eq_some.2 ⟨l, hl, hid1⟩
    rw [if_pos hc, hto]
    simp only [Option.some_bind, class_table_put, if_pos hid2, Option.map_some']
    exact ⟨_, rfl⟩
  · rw [if_neg hc]
    exact ⟨_, rfl⟩

/-- The second loop of the reclaiming branch of `GCStep` returns. -/
theorem GCStep_free_total : ∀ (xs : List Object) (h : Heap), xs.Nodup →
    (∀ x ∈ xs, ∃ l, h.load x = some l ∧
      (l.in_class_table = true → ∃ id, l.refs[Behavior.classid_index]? = some id ∧
        0 ≤ SmallInteger.value id)) →
    ∃ h', GCStep.free h xs = some h' := by
  intro xs
  induction xs with
  | nil => intro h _ _; exact ⟨h, rfl⟩
  | cons x rest ih =>
    intro h hnd hx
    obtain ⟨l, hl, hid⟩ := hx x (List.mem_cons_self _ _)
    obtain ⟨ha, ea⟩ := Free_total hl hid
    obtain ⟨hload, -⟩ := Free_spec ea
    obtain ⟨h', e'⟩ := ih ha (List.Nodup.of_cons hnd) (fun y hy => by
      obtain ⟨ly, hly, hidy⟩ := hx y (List.mem_cons_of_mem _ hy)
      have hne : y ≠ x := fun he => (List.nodup_cons.1 hnd).1 (he ▸ hy)
      exact ⟨ly, by rw [hload, if_neg hne]; exact hly, hidy⟩)
    exact ⟨h', by simp only [GCStep.free, ea, Option.some_bind]; exact e'⟩

theorem Stored_refl {h1 : Heap} (hS : IncomingSound h1) (hC : IncomingComplete h1)
    (hT : TableInv h1) : Stored h1 h1 := by
  refine ⟨fun o l1 hl1 => ⟨l1, hl1, rfl, fun _ _ hv _ => hv⟩, ?_, ?_⟩
  · intro s l i t hsT hl hi ht
    obtain ⟨htT, -⟩ := hC (.slot s i) t hsT (Ref_to_slot_eq_some.2 ⟨l, hl, hi⟩) ht
    obtain ⟨lt, hlt, -⟩ := load_of_InTable hT htT
    exact ⟨lt, hlt⟩
  · intro o hoT r hr
    obtain ⟨l, hl, -⟩ := load_of_InTable hT hoT
    rw [incomingOf_of_load hl] at hr
    exact ⟨o, ((hS o l hoT hl).2 r hr).1⟩

theorem MarkFrame_IncomingSound {h1 h2 : Heap} (hf : MarkFrame h1 h2) (hS : IncomingSound h1) :
    IncomingSound h2 := by
  intro o l' ho hl'
  obtain ⟨l, hl, hs⟩ := (MarkFrame_load hf o).2 l' hl'
  have hinc : l'.incoming_ = l.incoming_ := ((SameButMarks_iff l l').1 hs).2.2.2.2.2.1
  obtain ⟨hnd, hall⟩ := hS o l ((MarkFrame_InTable hf o).1 ho) hl
  rw [hinc]
  refine ⟨hnd, fun r hr => ?_⟩
  rw [MarkFrame_Ref_to hf, MarkFrame_HolderInTable hf]
  exact hall r hr

theorem MarkFrame_IncomingComplete {h1 h2 : Heap} (hf : MarkFrame h1 h2)
    (hC : IncomingComplete h1) : IncomingComplete h2 := by
  intro r v hh hto hv
  rw [MarkFrame_Ref_to hf] at hto
  rw [MarkFrame_InTable hf, MarkFrame_incomingOf hf]
  exact hC r v ((MarkFrame_HolderInTable hf r).1 hh) hto hv

theorem incomingOf_ClearCache (h : Heap) (o : Object) :
    (ClearCache h).incomingOf o = h.incomingOf o := rfl

/-- The reclaiming branch of a round of `GCStep` returns, and every Ref of a weak array that
stays whose target was a worklist object has nil as its target afterwards and is on the incoming
list of nil. -/
theorem GCStep_reclaim_total {h1 : Heap} (hc : ClosureFound h1) (hS : IncomingSound h1)
    (hC : IncomingComplete h1) (hnil : IsHeapObject h1.interpreter_.nil_obj)
    (hnilR : h1.interpreter_.nil_obj ∈ h1.interpreter_.roots)
    (heph : ∀ o l, InTable h1 o → h1.load o = some l → l.cid = kEphemeronCid →
      4 ≤ l.refs.length)
    (hcls : ∀ o l, InTable h1 o → h1.load o = some l → l.in_class_table = true →
      ∃ id, l.refs[Behavior.classid_index]? = some id ∧ IsSmallInteger id ∧
        0 ≤ SmallInteger.value id) :
    ∃ h3, GCStep.reclaim h1 = some h3 ∧
      ∀ r x, HolderInTable h1 r → HeldByWeakArray h1 r → Ref_from r ∉ h1.worklist_ →
        Ref_to h1 r = some x → x ∈ h1.worklist_ →
        Ref_to h3 r = some h1.interpreter_.nil_obj ∧
        r ∈ h3.incomingOf h1.interpreter_.nil_obj := by
  obtain ⟨j, hj⟩ := List.getElem?_of_mem hnilR
  have hrootnil : Ref_to h1 (.root j) = some h1.interpreter_.nil_obj := hj
  obtain ⟨hnilT, hnilL⟩ := hC (.root j) _ trivial hrootnil hnil
  have hnilS : ∃ l, h1.load h1.interpreter_.nil_obj = some l := by
    obtain ⟨l, hl, -⟩ := load_of_InTable hc.table hnilT
    exact ⟨l, hl⟩
  have hnilW : h1.interpreter_.nil_obj ∉ h1.worklist_ := by
    intro hcon
    obtain ⟨-, s, i, hsi, -⟩ := hc.closed _ hcon _ hnilL
    cases hsi
  have hcomp : ∀ r x, HolderInTable h1 r → Ref_to h1 r = some x → IsHeapObject x →
      r ∈ h1.incomingOf x := fun r x a b c => (hC r x a b c).2
  have hw0 : WeakRefs h1 [] h1 := by
    intro r x a _ _ d e
    right
    have hxheap := isHeapObject_of_InTable hc.table (hc.inTable x e)
    exact ⟨d, hcomp r x a d hxheap, by simp⟩
  obtain ⟨h2, k2, e2, hs2, p', hw2, hp'⟩ := GCStep_unlink_total hc hnil hnilS hnilW heph hcomp
    h1.worklist_ [] h1 false (Reclaiming_refl hc) (TableShrunk_refl hc.table)
    (Stored_refl hS hC hc.table) hw0 (fun _ hx => hx) hc.nodup (fun _ _ => by simp)
  obtain ⟨hr2, -⟩ := GCStep_unlink_reclaiming hc h1.worklist_ [] h1 false (Reclaiming_refl hc)
    (TableShrunk_refl hc.table) (fun _ hx => hx) hc.nodup (fun _ _ => by simp) h2 k2 e2
  obtain ⟨h3, e3⟩ := GCStep_free_total h1.worklist_ h2 hc.nodup (by
    intro x hx
    have hxT := hc.inTable x hx
    obtain ⟨l1, hl1, -⟩ := load_of_InTable hc.table hxT
    obtain ⟨l, hl, -, hsmi⟩ := hs2.shape x l1 hl1
    obtain ⟨l', hl', hsame⟩ := (hr2.layout x).1 l1 hl1
    rw [hl] at hl'; cases hl'
    refine ⟨l, hl, fun hin => ?_⟩
    rw [((SameButRefs_iff l1 l).1 hsame).2.2.1] at hin
    obtain ⟨id, hid1, hid2, hid3⟩ := hcls x l1 hxT hl1 hin
    exact ⟨id, hsmi _ id hid1 hid2, hid3⟩)
  obtain ⟨hload3, -, -, -, -, -, -⟩ := GCStep_free_spec _ _ _ e3
  have heff : ∀ r x, HolderInTable h1 r → HeldByWeakArray h1 r → Ref_from r ∉ h1.worklist_ →
      Ref_to h1 r = some x → x ∈ h1.worklist_ →
      Ref_to h3 r = some h1.interpreter_.nil_obj ∧
      r ∈ h3.incomingOf h1.interpreter_.nil_obj := by
    intro r x a b c d e
    rcases hw2 r x a b c d e with ⟨q1, q2⟩ | ⟨-, -, q3⟩
    · cases r with
      | slot w i =>
        have hwW : w ∉ h1.worklist_ := c
        refine ⟨?_, ?_⟩
        · have : Ref_to h3 (.slot w i) = Ref_to h2 (.slot w i) := by
            simp only [Ref_to, hload3, if_neg hwW]
          rw [this]; exact q1
        · unfold Heap.incomingOf at q2 ⊢
          rw [hload3, if_neg hnilW]
          exact q2
      | root i => cases b
      | stack i => cases b
    · exact absurd ((hp' x).2 (Or.inl e)) q3
  refine ⟨if k2 = true then ClearCache h3 else h3, ?_, ?_⟩
  · unfold GCStep.reclaim
    simp only [e2, Option.some_bind, e3, Option.map_some']
  · intro r x a b c d e
    obtain ⟨q1, q2⟩ := heff r x a b c d e
    split_ifs
    · exact ⟨by rw [Ref_to_ClearCache]; exact q1, by rw [incomingOf_ClearCache]; exact q2⟩
    · exact ⟨q1, q2⟩

end psoup

namespace psoup

/-- A round of `GCStep` whose candidate is found unreachable returns; the objects of the
worklist, and no others, leave the object table and lose their storage, and the Refs of the
weak arrays that stay whose targets were worklist objects get nil. -/
theorem GCStep_round_unreachable {h : Heap} (hcol : Collectable h) {random : Nat}
    (hidx : random % h.table_size_ ≠ 0) {h1 : Heap}
    (hcr : CheckReachable h (h.table_ (random % h.table_size_)) = some (false, h1)) :
    ∃ h', GCStep.round h random = some h' ∧
      (∀ o, InTable h' o ↔ (InTable h o ∧ o ∉ h1.worklist_)) ∧
      h'.table_size_ + h1.worklist_.length = h.table_size_ ∧
      (∀ x ∈ h1.worklist_, h'.load x = none) ∧
      h'.interpreter_.nil_obj = h.interpreter_.nil_obj ∧
      (∀ r x, HolderInTable h r → HeldByWeakArray h r → Ref_from r ∉ h1.worklist_ →
        Ref_to h r = some x → x ∈ h1.worklist_ →
        Ref_to h' r = some h.interpreter_.nil_obj ∧
        r ∈ h'.incomingOf h.interpreter_.nil_obj) := by
  have hwf := hcol.formed
  have hw := WeaklyFormed_of_WellFormed hwf
  have hsz : h.table_size_ ≠ 0 := by
    have := hwf.1.1
    omega
  have hcT : InTable h (h.table_ (random % h.table_size_)) :=
    ⟨_, by omega, Nat.mod_lt _ (by omega), rfl⟩
  have hsing : ¬ (h.table_ (random % h.table_size_) = h.interpreter_.nil_obj ∨
      h.table_ (random % h.table_size_) = h.interpreter_.true_obj ∨
      h.table_ (random % h.table_size_) = h.interpreter_.false_obj) := by
    intro hs
    rw [CheckReachable_singleton hs] at hcr
    cases hcr
  obtain ⟨sf, -, -⟩ := CheckReachable_spec hw hcT hsing
  obtain ⟨hst, hp, -⟩ := sf h1 hcr
  have hf := hst.frame
  have hc := ClosureFound_of_CheckReachable hw hst hp
  have hint : h1.interpreter_ = h.interpreter_ := (MarkFrame_fields hf).2.2.2.1
  have hlay : ∀ o l1, InTable h1 o → h1.load o = some l1 →
      ∃ l, InTable h o ∧ h.load o = some l ∧ l1.cid = l.cid ∧ l1.refs = l.refs ∧
        l1.in_class_table = l.in_class_table := by
    intro o l1 ho hl1
    obtain ⟨l, hl, hs⟩ := (MarkFrame_load hf o).2 l1 hl1
    have := (SameButMarks_iff l l1).1 hs
    exact ⟨l, (MarkFrame_InTable hf o).1 ho, hl, this.2.2.2.1, this.2.2.2.2.2.2.2.2, this.1⟩
  obtain ⟨h3, e3, heff⟩ := GCStep_reclaim_total hc (MarkFrame_IncomingSound hf hwf.2.1)
    (MarkFrame_IncomingComplete hf hwf.2.2.1) (hint ▸ hcol.nil_heap) (hint ▸ hcol.nil_root)
    (fun o l1 ho hl1 hcid => by
      obtain ⟨l, hoT, hl, e1, e2, -⟩ := hlay o l1 ho hl1
      rw [e2]; exact hcol.ephemeron o l hoT hl (e1 ▸ hcid))
    (fun o l1 ho hl1 hin => by
      obtain ⟨l, hoT, hl, -, e2, e3⟩ := hlay o l1 ho hl1
      rw [e2]; exact hcol.class_id o l hoT hl (e3 ▸ hin))
  obtain ⟨-, t3, s3, -, -, n3, -, -, -, d3, -⟩ := GCStep_reclaim_spec hc e3
  refine ⟨{ h3 with worklist_ := [] }, ?_, ?_, ?_, ?_, ?_, ?_⟩
  · unfold GCStep.round
    rw [if_neg hsz]
    simp only [if_neg hidx, hcr, Option.some_bind, Bool.false_eq_true, if_false, e3,
      Option.map_some']
  · intro o
    have : InTable { h3 with worklist_ := [] } o ↔ InTable h3 o := Iff.rfl
    rw [this, t3 o, MarkFrame_InTable hf]
  · have : ({ h3 with worklist_ := [] } : Heap).table_size_ = h3.table_size_ := rfl
    rw [this, ← (MarkFrame_fields hf).2.1]
    exact s3
  · intro x hx
    exact d3 x hx
  · show h3.interpreter_.nil_obj = h.interpreter_.nil_obj
    rw [n3, hint]
  · intro r x a b c d e
    have := heff r x ((MarkFrame_HolderInTable hf r).2 a) ((MarkFrame_HeldByWeakArray hf r).2 b)
      c (by rw [MarkFrame_Ref_to hf]; exact d) e
    rw [hint] at this
    cases r <;> exact this

end psoup

namespace psoup

/-- The Boolean check of `Collectable` is sound. -/
theorem Collectable_of_check {h : Heap} (hc : checkCollectable h = true) : Collectable h := by
  unfold checkCollectable at hc
  simp only [Bool.and_eq_true, decide_eq_true_eq, List.all_eq_true, List.mem_range,
    Bool.or_eq_true] at hc
  obtain ⟨⟨⟨hwf, hnil⟩, hroot⟩, hall⟩ := hc
  have key : ∀ o l, InTable h o → h.load o = some l →
      (l.cid = kEphemeronCid → 4 ≤ l.refs.length) ∧
      (l.in_class_table = true → ∃ id, l.refs[Behavior.classid_index]? = some id ∧
        IsSmallInteger id ∧ 0 ≤ SmallInteger.value id) := by
    rintro o l ⟨i, h1, h2, rfl⟩ hl
    rcases hall i h2 with h0 | h0
    · omega
    rw [hl] at h0
    simp only [Bool.and_eq_true, Bool.or_eq_true, decide_eq_true_eq, Bool.not_eq_true'] at h0
    obtain ⟨c1, c2⟩ := h0
    refine ⟨fun hcid => ?_, fun hin => ?_⟩
    · rcases c1 with c1 | c1
      · exact absurd hcid c1
      · exact c1
    · rcases c2 with c2 | c2
      · rw [hin] at c2; cases c2
      · cases hid : l.refs[Behavior.classid_index]? with
        | none => rw [hid] at c2; cases c2
        | some id =>
          rw [hid] at c2
          simp only [Bool.and_eq_true, decide_eq_true_eq] at c2
          exact ⟨id, rfl, c2.1, c2.2⟩
  exact ⟨WellFormed_of_check hwf, hnil, hroot, fun o l ho hl => (key o l ho hl).1,
    fun o l ho hl => (key o l ho hl).2⟩

theorem backward_closed {h : Heap} {S : Object → Prop}
    (hcl : ∀ s t, Edge h s t → S t → S s) {o c : Object}
    (hp : Relation.ReflTransGen (Edge h) o c) (hc : S c) : S o := by
  induction hp using Relation.ReflTransGen.head_induction_on with
  | refl => exact hc
  | head hab _ ih => exact hcl _ _ hab ih

/-- The source of an edge is the holder of a Ref on the incoming list of the target. -/
theorem Edge_listed {h : Heap} (hwf : WellFormed h) {s t : Object} (he : Edge h s t) :
    ∃ i, RefPtr.slot s i ∈ h.incomingOf t ∧ ¬ HeldByWeakArray h (RefPtr.slot s i) := by
  obtain ⟨hsT, l, i, hl, hcid, hi, ht⟩ := he
  refine ⟨i, (hwf.2.2.1 (.slot s i) t hsT (Ref_to_slot_eq_some.2 ⟨l, hl, hi⟩) ht).2, ?_⟩
  rintro ⟨l', hl', hc'⟩
  rw [hl] at hl'; cases hl'
  exact hcid hc'

/-- An object with storage whose incoming list holds no Ref of the interpreter is not the target
of a root Ref. -/
theorem not_rooted_of_listed {h : Heap} (hwf : WellFormed h) {x : Object} {l : Layout}
    (hl : h.load x = some l) (hnh : x ∉ h.handles_)
    (hslots : ∀ r ∈ h.incomingOf x, ∃ s i, r = RefPtr.slot s i) : ¬ Rooted h x := by
  have hheap := isHeapObject_of_load hl
  rintro (hr | hr | hr)
  · obtain ⟨j, hj⟩ := List.getElem?_of_mem hr
    obtain ⟨s, i, hsi⟩ := hslots _ (hwf.2.2.1 (.root j) x trivial hj hheap).2
    cases hsi
  · obtain ⟨j, hj⟩ := List.getElem?_of_mem hr
    obtain ⟨s, i, hsi⟩ := hslots _ (hwf.2.2.1 (.stack j) x trivial hj hheap).2
    cases hsi
  · exact hnh hr

/-- `CheckReachable` of an object that is not reachable from a root returns false with the
objects that reach it on the worklist. -/
theorem CheckReachable_unreachable {h : Heap} (hwf : WellFormed h) {c : Object}
    (hcT : InTable h c)
    (hns : ¬ (c = h.interpreter_.nil_obj ∨ c = h.interpreter_.true_obj ∨
      c = h.interpreter_.false_obj))
    (hnr : ¬ RootReachable h c) :
    ∃ h1, CheckReachable h c = some (false, h1) ∧ h1.worklist_.Nodup ∧
      ∀ o, o ∈ h1.worklist_ ↔ Relation.ReflTransGen (Edge h) o c := by
  have hw := WeaklyFormed_of_WellFormed hwf
  obtain ⟨sf, st, tot⟩ := CheckReachable_spec hw hcT hns
  obtain ⟨⟨b, h1⟩, hres⟩ := tot hwf.2.1
  cases b with
  | true =>
    obtain ⟨hst, x, hx, hroot⟩ := st h1 hres
    exact absurd ⟨x, hroot, hst.path x hx⟩ hnr
  | false =>
    obtain ⟨hst, hp, hcw⟩ := sf h1 hres
    exact ⟨h1, hres, hst.nodup, fun o =>
      ⟨fun ho => hst.path o ho, fun hpath => closure_backward hw.2.2.1 hp hpath hcw⟩⟩

theorem length_eq_two_of_mem_iff {w : List Object} {a b : Object} (hnd : w.Nodup)
    (hab : a ≠ b) (hmem : ∀ o, o ∈ w ↔ (o = a ∨ o = b)) : w.length = 2 := by
  have hp : w.Perm [a, b] :=
    (List.perm_ext_iff_of_nodup hnd (by simp [hab])).2 (fun o => by simp [hmem])
  exact hp.length_eq

end psoup

namespace psoup

/-- The objects that reach one of two arrays that reference each other and are referenced by
nothing else are the two arrays, and neither is reachable from a root. -/
theorem cycle_closure {h : Heap} (hwf : WellFormed h) {a b : Object} {la lb : Layout}
    (hla : h.load a = some la) (hlb : h.load b = some lb)
    (hia : la.incoming_ = [RefPtr.slot b 0]) (hib : lb.incoming_ = [RefPtr.slot a 0])
    (hha : a ∉ h.handles_) (hhb : b ∉ h.handles_) :
    (∀ o c, Relation.ReflTransGen (Edge h) o c → (c = a ∨ c = b) → (o = a ∨ o = b)) ∧
    ¬ RootReachable h a ∧ ¬ RootReachable h b := by
  have hinca : h.incomingOf a = [RefPtr.slot b 0] := by rw [incomingOf_of_load hla, hia]
  have hincb : h.incomingOf b = [RefPtr.slot a 0] := by rw [incomingOf_of_load hlb, hib]
  have hcl : ∀ s t, Edge h s t → (t = a ∨ t = b) → (s = a ∨ s = b) := by
    intro s t he ht
    obtain ⟨i, hi, -⟩ := Edge_listed hwf he
    rcases ht with rfl | rfl
    · rw [hinca] at hi
      simp only [List.mem_singleton, RefPtr.slot.injEq] at hi
      exact Or.inr hi.1
    · rw [hincb] at hi
      simp only [List.mem_singleton, RefPtr.slot.injEq] at hi
      exact Or.inl hi.1
  have hclosed : ∀ o c, Relation.ReflTransGen (Edge h) o c → (c = a ∨ c = b) →
      (o = a ∨ o = b) := fun o c hp hc => backward_closed (S := fun x => x = a ∨ x = b) hcl hp hc
  have hra : ¬ Rooted h a := not_rooted_of_listed hwf hla hha
    (fun r hr => by rw [hinca] at hr; exact ⟨b, 0, List.mem_singleton.1 hr⟩)
  have hrb : ¬ Rooted h b := not_rooted_of_listed hwf hlb hhb
    (fun r hr => by rw [hincb] at hr; exact ⟨a, 0, List.mem_singleton.1 hr⟩)
  have hnr : ∀ c, (c = a ∨ c = b) → ¬ RootReachable h c := by
    rintro c hc ⟨o, ho, hp⟩
    rcases hclosed o c hp hc with rfl | rfl
    · exact hra ho
    · exact hrb ho
  exact ⟨hclosed, hnr a (Or.inl rfl), hnr b (Or.inr rfl)⟩

/-- C4: cycle collection. In a round of `GCStep` whose candidate is found unreachable, in a heap
that satisfies the data-model invariants and the conditions under which a reclamation returns,
the round returns, every object of the worklist leaves the object table, no other object does,
and `table_size_` decreases by the length of the worklist.  In particular, for two arrays `a`
and `b` of length 1 with `a[0] == b` and `b[0] == a` that no root Ref, no handle and no other
Ref references, a round that samples `a` or `b` removes both. -/
theorem GCStep_round_collects (h : Heap) (random : Nat) (hcol : Collectable h)
    (hidx : random % h.table_size_ ≠ 0) :
    (∀ h1, CheckReachable h (h.table_ (random % h.table_size_)) = some (false, h1) →
      ∃ h', GCStep.round h random = some h' ∧
        (∀ x ∈ h1.worklist_, InTable h x ∧ ¬ InTable h' x) ∧
        (∀ o, o ∉ h1.worklist_ → (InTable h' o ↔ InTable h o)) ∧
        h'.table_size_ + h1.worklist_.length = h.table_size_) ∧
    (∀ a b la lb,
      (h.table_ (random % h.table_size_) = a ∨ h.table_ (random % h.table_size_) = b) →
      h.load a = some la → h.load b = some lb → la.cid = kArrayCid → lb.cid = kArrayCid →
      la.refs = [b] → lb.refs = [a] →
      la.incoming_ = [RefPtr.slot b 0] → lb.incoming_ = [RefPtr.slot a 0] →
      a ∉ h.handles_ → b ∉ h.handles_ →
      ¬ (a = h.interpreter_.nil_obj ∨ a = h.interpreter_.true_obj ∨
        a = h.interpreter_.false_obj) →
      ¬ (b = h.interpreter_.nil_obj ∨ b = h.interpreter_.true_obj ∨
        b = h.interpreter_.false_obj) →
      ∃ h', GCStep.round h random = some h' ∧ ¬ InTable h' a ∧ ¬ InTable h' b ∧
        (∀ o, o ≠ a → o ≠ b → (InTable h' o ↔ InTable h o)) ∧
        (a ≠ b → h'.table_size_ + 2 = h.table_size_)) := by
  have hwf := hcol.formed
  have hw := WeaklyFormed_of_WellFormed hwf
  have hcT : InTable h (h.table_ (random % h.table_size_)) :=
    ⟨_, by omega, Nat.mod_lt _ (by have := hwf.1.1; omega), rfl⟩
  have general : ∀ h1,
      CheckReachable h (h.table_ (random % h.table_size_)) = some (false, h1) →
      ∃ h', GCStep.round h random = some h' ∧
        (∀ x ∈ h1.worklist_, InTable h x ∧ ¬ InTable h' x) ∧
        (∀ o, o ∉ h1.worklist_ → (InTable h' o ↔ InTable h o)) ∧
        h'.table_size_ + h1.worklist_.length = h.table_size_ := by
    intro h1 hcr
    obtain ⟨h', he, ht, hs, -⟩ := GCStep_round_unreachable hcol hidx hcr
    have hsing : ¬ (h.table_ (random % h.table_size_) = h.interpreter_.nil_obj ∨
        h.table_ (random % h.table_size_) = h.interpreter_.true_obj ∨
        h.table_ (random % h.table_size_) = h.interpreter_.false_obj) := by
      intro hs'
      rw [CheckReachable_singleton hs'] at hcr
      cases hcr
    obtain ⟨sf, -, -⟩ := CheckReachable_spec hw hcT hsing
    obtain ⟨hst, -, -⟩ := sf h1 hcr
    refine ⟨h', he, ?_, ?_, hs⟩
    · intro x hx
      exact ⟨hst.inTable x hx, fun hcon => ((ht x).1 hcon).2 hx⟩
    · intro o ho
      rw [ht o]
      exact ⟨fun hx => hx.1, fun hx => ⟨hx, ho⟩⟩
  refine ⟨general, ?_⟩
  intro a b la lb hsample hla hlb hca hcb hra hrb hia hib hha hhb hsa hsb
  obtain ⟨hclosed, hna, hnb⟩ := cycle_closure hwf hla hlb hia hib hha hhb
  -- both arrays are in the object table and reach each other
  have haT_of_b : InTable h b → InTable h a := fun hbT =>
    (hwf.2.2.1 (.slot b 0) a hbT (Ref_to_slot_eq_some.2 ⟨lb, hlb, by rw [hrb]; rfl⟩)
      (isHeapObject_of_load hla)).1
  have hbT_of_a : InTable h a → InTable h b := fun haT =>
    (hwf.2.2.1 (.slot a 0) b haT (Ref_to_slot_eq_some.2 ⟨la, hla, by rw [hra]; rfl⟩)
      (isHeapObject_of_load hlb)).1
  have haT : InTable h a := by
    rcases hsample with hs | hs
    · exact hs ▸ hcT
    · exact haT_of_b (hs ▸ hcT)
  have hbT : InTable h b := hbT_of_a haT
  have hab : Edge h a b :=
    ⟨haT, la, 0, hla, by rw [hca]; decide, by rw [hra]; rfl, isHeapObject_of_load hlb⟩
  have hba : Edge h b a :=
    ⟨hbT, lb, 0, hlb, by rw [hcb]; decide, by rw [hrb]; rfl, isHeapObject_of_load hla⟩
  have hreach : ∀ c, (c = a ∨ c = b) → ∀ o, (o = a ∨ o = b) →
      Relation.ReflTransGen (Edge h) o c := by
    rintro c (rfl | rfl) o (rfl | rfl)
    · exact Relation.ReflTransGen.refl
    · exact Relation.ReflTransGen.single hba
    · exact Relation.ReflTransGen.single hab
    · exact Relation.ReflTransGen.refl
  have hcab : h.table_ (random % h.table_size_) = a ∨ h.table_ (random % h.table_size_) = b :=
    hsample
  have hcns : ¬ (h.table_ (random % h.table_size_) = h.interpreter_.nil_obj ∨
      h.table_ (random % h.table_size_) = h.interpreter_.true_obj ∨
      h.table_ (random % h.table_size_) = h.interpreter_.false_obj) := by
    rcases hsample with hs | hs
    · rw [hs]; exact hsa
    · rw [hs]; exact hsb
  have hcnr : ¬ RootReachable h (h.table_ (random % h.table_size_)) := by
    rcases hsample with hs | hs
    · rw [hs]; exact hna
    · rw [hs]; exact hnb
  obtain ⟨h1, hcr, hnd, hmem⟩ := CheckReachable_unreachable hwf hcT hcns hcnr
  have hmem' : ∀ o, o ∈ h1.worklist_ ↔ (o = a ∨ o = b) := fun o =>
    ⟨fun ho => hclosed o _ ((hmem o).1 ho) hcab, fun ho => (hmem o).2 (hreach _ hcab o ho)⟩
  obtain ⟨h', he, hrem, hkeep, hsize⟩ := general h1 hcr
  refine ⟨h', he, (hrem a ((hmem' a).2 (Or.inl rfl))).2, (hrem b ((hmem' b).2 (Or.inr rfl))).2,
    ?_, ?_⟩
  · intro o hoa hob
    exact hkeep o (fun hcon => by
      rcases (hmem' o).1 hcon with h0 | h0
      · exact hoa h0
      · exact hob h0)
  · intro hne
    rw [length_eq_two_of_mem_iff hnd hne hmem'] at hsize
    exact hsize

/-- Witness of C4 on the heap with the two-array cycle: the round that samples the array at 7
removes the arrays at 7 and 9 and nothing else. -/
theorem GCStep_round_collects_witness :
    ∃ h', GCStep.round cycleHeap 4 = some h' ∧ ¬ InTable h' 7 ∧ ¬ InTable h' 9 ∧
      (∀ o, o ≠ 7 → o ≠ 9 → (InTable h' o ↔ InTable cycleHeap o)) ∧
      ((7 : Object) ≠ 9 → h'.table_size_ + 2 = cycleHeap.table_size_) :=
  (GCStep_round_collects cycleHeap 4 (Collectable_of_check (by decide)) (by decide)).2 7 9
    (Layout.sample kArrayCid 4 [.slot 9 0] [9]) (Layout.sample kArrayCid 5 [.slot 7 0] [7])
    (Or.inl (by rfl)) (by rfl) (by rfl) (by rfl) (by rfl) (by rfl) (by rfl) (by rfl) (by rfl)
    (by decide) (by decide) (by decide) (by decide)

end psoup

namespace psoup

/-- C5, amended: weak does not retain. If every Ref on the incoming list of the object `T`, which
is none of nil, true and false and is held by no handle, is a Ref of a weak array, then a round
of `GCStep` that samples `T` returns, removes `T` from the object table and frees it, and every
slot of a weak array other than `T` itself that referenced `T` has nil as its target afterwards
and is on the incoming list of nil, while that weak array is still in the object table. -/
theorem GCStep_round_weak_referent (h : Heap) (random : Nat) (T : Object)
    (hcol : Collectable h) (hidx : random % h.table_size_ ≠ 0)
    (hsample : h.table_ (random % h.table_size_) = T)
    (hns : ¬ (T = h.interpreter_.nil_obj ∨ T = h.interpreter_.true_obj ∨
      T = h.interpreter_.false_obj))
    (hnh : T ∉ h.handles_) (hweak : ∀ r ∈ h.incomingOf T, HeldByWeakArray h r) :
    ∃ h', GCStep.round h random = some h' ∧ ¬ InTable h' T ∧ h'.load T = none ∧
      ∀ w i, RefPtr.slot w i ∈ h.incomingOf T → w ≠ T →
        Ref_to h' (.slot w i) = some h'.interpreter_.nil_obj ∧
        RefPtr.slot w i ∈ h'.incomingOf h'.interpreter_.nil_obj ∧ InTable h' w := by
  have hwf := hcol.formed
  have hcT : InTable h T :=
    ⟨_, by omega, Nat.mod_lt _ (by have := hwf.1.1; omega), hsample⟩
  obtain ⟨lT, hlT, -⟩ := load_of_InTable hwf.1 hcT
  -- no edge that counts for reachability leads to `T`
  have hcl : ∀ s t, Edge h s t → t = T → s = T := by
    intro s t he ht
    subst ht
    obtain ⟨i, hi, hnw⟩ := Edge_listed hwf he
    exact absurd (hweak _ hi) hnw
  have hclosed : ∀ o, Relation.ReflTransGen (Edge h) o T → o = T :=
    fun o hp => backward_closed (S := fun x => x = T) hcl hp rfl
  have hnroot : ¬ Rooted h T := not_rooted_of_listed hwf hlT hnh (fun r hr => by
    have := hweak r hr
    cases r with
    | slot s i => exact ⟨s, i, rfl⟩
    | root i => cases this
    | stack i => cases this)
  have hnr : ¬ RootReachable h T := by
    rintro ⟨o, ho, hp⟩
    rw [hclosed o hp] at ho
    exact hnroot ho
  obtain ⟨h1, hcr, -, hmem⟩ := CheckReachable_unreachable hwf hcT hns hnr
  have hmem' : ∀ o, o ∈ h1.worklist_ ↔ o = T := fun o =>
    ⟨fun ho => hclosed o ((hmem o).1 ho), fun ho => (hmem o).2 (ho ▸ Relation.ReflTransGen.refl)⟩
  rw [← hsample] at hcr
  obtain ⟨h', he, ht, -, hfree, hnil, heff⟩ := GCStep_round_unreachable hcol hidx hcr
  refine ⟨h', he, fun hcon => ((ht T).1 hcon).2 ((hmem' T).2 rfl), hfree T ((hmem' T).2 rfl), ?_⟩
  intro w i hin hwT
  obtain ⟨hto, hhold⟩ := (hwf.2.1 T lT hcT hlT).2 (.slot w i) (by
    rw [incomingOf_of_load hlT] at hin; exact hin)
  have hwW : w ∉ h1.worklist_ := fun hcon => hwT ((hmem' w).1 hcon)
  obtain ⟨q1, q2⟩ := heff (.slot w i) T hhold (hweak _ hin) hwW hto ((hmem' T).2 rfl)
  rw [hnil]
  exact ⟨q1, q2, (ht w).2 ⟨hhold, hwW⟩⟩

/-- Witness of the amended C5 on `weakHeap`: the round that samples `T` removes it, and the slot
of the weak array at 7 gets nil. -/
theorem GCStep_round_weak_referent_witness :
    ∃ h', GCStep.round weakHeap 5 = some h' ∧ ¬ InTable h' 9 ∧ h'.load 9 = none ∧
      ∀ w i, RefPtr.slot w i ∈ weakHeap.incomingOf 9 → w ≠ 9 →
        Ref_to h' (.slot w i) = some h'.interpreter_.nil_obj ∧
        RefPtr.slot w i ∈ h'.incomingOf h'.interpreter_.nil_obj ∧ InTable h' w :=
  GCStep_round_weak_referent weakHeap 5 9 (Collectable_of_check (by decide)) (by decide)
    (by rfl) (by decide) (by decide) (fun r hr => by
      have hr' : r = RefPtr.slot 7 0 := List.mem_singleton.1 hr
      subst hr'
      exact ⟨Layout.sample kWeakArrayCid 4 [.root 3] [9], by rfl, by rfl⟩)

/-- Counterexample to C5: in `weakSelfHeap` the only Ref that references the weak array `T` at 7
is its own slot, so every incoming edge of `T` has a weak array as its source, and no root Ref
and no handle holds `T`; the round of `GCStep` that samples `T` returns, and afterwards the weak
array whose slot referenced `T` is not in the object table and has no storage, so that its slot
does not read nil. -/
theorem GCStep_round_weak_self_counterexample :
    checkCollectable weakSelfHeap = true ∧
    weakSelfHeap.incomingOf 7 = [RefPtr.slot 7 0] ∧
    ClassId weakSelfHeap 7 = some kWeakArrayCid ∧
    weakSelfHeap.handles_ = [] ∧
    weakSelfHeap.table_ (4 % weakSelfHeap.table_size_) = 7 ∧
    (GCStep.round weakSelfHeap 4).isSome = true ∧
    inTable weakSelfHeapRound 7 = false ∧
    weakSelfHeapRound.load 7 = none ∧
    Ref_to weakSelfHeapRound (.slot 7 0) = none ∧
    weakSelfHeapRound.interpreter_.nil_obj = 1 := by
  refine ⟨by decide, by rfl, by rfl, by rfl, by rfl, by rfl, by rfl, by rfl, by rfl, by rfl⟩

end psoup

namespace psoup

theorem modify_spec {h h' : Heap} {x : Object} {f : Layout → Layout}
    (hm : h.modify x f = some h') :
    (∃ l, h.load x = some l) ∧
    (∀ o, h'.load o = if o = x then (h.load o).map f else h.load o) ∧
    h'.table_ = h.table_ ∧ h'.table_size_ = h.table_size_ ∧
    h'.interpreter_ = h.interpreter_ ∧ h'.handles_ = h.handles_ ∧
    h'.class_table_ = h.class_table_ ∧ h'.class_table_size_ = h.class_table_size_ ∧
    h'.class_table_free_ = h.class_table_free_ := by
  obtain ⟨hl, rfl⟩ := modify_eq_mapMemory.1 hm
  refine ⟨hl, ?_, rfl, rfl, rfl, rfl, rfl, rfl, rfl⟩
  intro o
  rw [load_mapMemory]
  by_cases hox : o = x
  · rw [if_pos hox]
    cases h.load o <;> simp [hox]
  · rw [if_neg hox]
    cases h.load o <;> simp [hox]

theorem PairFrame_refl (x y : Object) (T : Object → Prop) (g : Heap) : PairFrame x y T g g :=
  ⟨rfl, rfl, ⟨rfl, rfl⟩, fun _ ho => ho,
    fun _ l hl => ⟨l, hl, rfl, fun _ => ⟨rfl, rfl, rfl⟩, fun _ _ _ => rfl⟩⟩

theorem PairFrame_trans {x y : Object} {T : Object → Prop} {g1 g2 g3 : Heap}
    (a : PairFrame x y T g1 g2) (b : PairFrame x y T g2 g3) : PairFrame x y T g1 g3 := by
  refine ⟨b.interp.trans a.interp, b.handles.trans a.handles,
    ⟨b.class_table.1.trans a.class_table.1, b.class_table.2.trans a.class_table.2⟩,
    fun o ho => b.absent o (a.absent o ho), ?_⟩
  intro o l hl
  obtain ⟨l2, hl2, e1, e2, e3⟩ := a.present o l hl
  obtain ⟨l3, hl3, f1, f2, f3⟩ := b.present o l2 hl2
  refine ⟨l3, hl3, f1.trans e1, fun hx => ?_, fun hx hy ht => (f3 hx hy ht).trans (e3 hx hy ht)⟩
  obtain ⟨p1, p2, p3⟩ := e2 hx
  obtain ⟨q1, q2, q3⟩ := f2 hx
  exact ⟨q1.trans p1, q2.trans p2, q3.trans p3⟩

theorem PairFrame_modify {x y : Object} {T : Object → Prop} {g g' : Heap} {z : Object}
    {f : Layout → Layout} (hm : g.modify z f = some g')
    (hlen : ∀ l, (f l).refs.length = l.refs.length)
    (hf : z = x ∨ ∀ l, (f l).cid = l.cid ∧ (f l).is_weak_referent = l.is_weak_referent ∧
      (f l).refs = l.refs)
    (hh : z = x ∨ z = y ∨ T z ∨ ∀ l, (f l).header_hash_ = l.header_hash_) :
    PairFrame x y T g g' := by
  obtain ⟨-, hload, -, -, e1, e2, e3, e4, -⟩ := modify_spec hm
  refine ⟨e1, e2, ⟨e3, e4⟩, ?_, ?_⟩
  · intro o ho
    rw [hload, ho]
    split_ifs <;> rfl
  · intro o l hl
    rw [hload, hl]
    by_cases hoz : o = z
    · rw [if_pos hoz]
      refine ⟨f l, rfl, hlen l, fun hx => ?_, fun hx hy ht => ?_⟩
      · rcases hf with hf | hf
        · exact absurd (hoz.trans hf) hx
        · exact hf l
      · rcases hh with hh | hh | hh | hh
        · exact absurd (hoz.trans hh) hx
        · exact absurd (hoz.trans hh) hy
        · exact absurd (hoz ▸ hh) ht
        · exact hh l
    · rw [if_neg hoz]
      exact ⟨l, rfl, rfl, fun _ => ⟨rfl, rfl, rfl⟩, fun _ _ _ => rfl⟩

theorem PairFrame_retarget {x y : Object} {T : Object → Prop} {g g' : Heap} {i : Nat}
    {v : Object} (hu : UpdateNoCheck g (.slot x i) v = some g') : PairFrame x y T g g' := by
  obtain ⟨t, -, -, -, rfl⟩ := UpdateNoCheck_eq_some.1 hu
  obtain ⟨-, -, e3, -, e5, e6, -, -, -, e10⟩ := retarget_fields g (.slot x i) t v
  refine ⟨e10, e3, ⟨e5, e6⟩, ?_, ?_⟩
  · intro o ho
    rw [load_retarget, ho]; rfl
  · intro o l hl
    rw [load_retarget, hl]
    have hfields := Layout_retarget_fields (.slot x i) t v o l
    refine ⟨_, rfl, Layout_retarget_refs_length _ _ _ _ _, fun hx => ?_, fun _ _ _ => ?_⟩
    · exact ⟨hfields.1, hfields.2.2.1, hfields.2.2.2.2.2.2.2.2.2 x i rfl hx⟩
    · exact hfields.2.2.2.2.1

theorem TableInv_of_frame {g g' : Heap} (hT : TableInv g) (ht : g'.table_ = g.table_)
    (hs : g'.table_size_ = g.table_size_)
    (hl : ∀ o l, InTable g o → g.load o = some l →
      ∃ l', g'.load o = some l' ∧ l'.table_index = l.table_index ∧ l'.cid = l.cid) :
    TableInv g' := by
  refine ⟨hs ▸ hT.1, ?_⟩
  intro i h1 h2
  rw [hs] at h2
  obtain ⟨l, hl0, e1, e2⟩ := hT.2 i h1 h2
  obtain ⟨l', hl', f1, f2⟩ := hl _ l ⟨i, h1, h2, rfl⟩ hl0
  rw [ht]
  exact ⟨l', hl', f1.trans e1, f2 ▸ e2⟩

theorem InTable_of_frame {g g' : Heap} (ht : g'.table_ = g.table_)
    (hs : g'.table_size_ = g.table_size_) (o : Object) : InTable g' o ↔ InTable g o := by
  unfold InTable
  rw [ht, hs]

theorem TableInv_modify {g g' : Heap} (hT : TableInv g) {z : Object} {f : Layout → Layout}
    (hm : g.modify z f = some g')
    (hf : ¬ InTable g z ∨ ∀ l, (f l).table_index = l.table_index ∧ (f l).cid = l.cid) :
    TableInv g' ∧ ∀ o, InTable g' o ↔ InTable g o := by
  obtain ⟨-, hload, e1, e2, -⟩ := modify_spec hm
  refine ⟨TableInv_of_frame hT e1 e2 ?_, InTable_of_frame e1 e2⟩
  intro o l ho hl
  rw [hload, hl]
  by_cases hoz : o = z
  · rw [if_pos hoz]
    rcases hf with hf | hf
    · exact absurd (hoz ▸ ho) hf
    · exact ⟨f l, rfl, (hf l).1, (hf l).2⟩
  · rw [if_neg hoz]
    exact ⟨l, rfl, rfl, rfl⟩

end psoup

namespace psoup

theorem SameTable_retarget {g g' : Heap} {r : RefPtr} {v : Object}
    (hu : UpdateNoCheck g r v = some g') : SameTable g g' := by
  obtain ⟨t, -, -, -, rfl⟩ := UpdateNoCheck_eq_some.1 hu
  obtain ⟨e1, e2, -⟩ := retarget_fields g r t v
  refine ⟨e1, e2, ?_, ?_⟩
  · intro o l2 hl2
    rw [load_retarget] at hl2
    obtain ⟨l, hl, rfl⟩ := Option.map_eq_some'.1 hl2
    have hf := Layout_retarget_fields r t v o l
    exact ⟨l, hl, hf.2.2.2.2.1, hf.1⟩
  · intro o l1 hl1
    exact ⟨_, by rw [load_retarget, hl1]; rfl⟩

theorem PairFrame_of_load {x y : Object} {T : Object → Prop} {g g' : Heap}
    (hl : ∀ o, g'.load o = g.load o) (e1 : g'.interpreter_ = g.interpreter_)
    (e2 : g'.handles_ = g.handles_) (e3 : g'.class_table_ = g.class_table_)
    (e4 : g'.class_table_size_ = g.class_table_size_) : PairFrame x y T g g' :=
  ⟨e1, e2, ⟨e3, e4⟩, fun o ho => (hl o).trans ho,
    fun o l hlo => ⟨l, (hl o).trans hlo, rfl, fun _ => ⟨rfl, rfl, rfl⟩, fun _ _ _ => rfl⟩⟩

theorem Unlink_outgoing_frame {x y : Object} {T : Object → Prop} :
    ∀ (is : List Nat) (g g' : Heap), Unlink.outgoing g x is = some g' →
      PairFrame x y T g g' ∧ SameTable g g' := by
  intro is
  induction is with
  | nil =>
    intro g g' he
    simp only [Unlink.outgoing, Option.some.injEq] at he
    subst he
    exact ⟨PairFrame_refl _ _ _ _, SameTable_refl _⟩
  | cons i rest ih =>
    intro g g' he
    simp only [Unlink.outgoing, Option.bind_eq_some] at he
    obtain ⟨t, -, g1, hu, hrest⟩ := he
    obtain ⟨f2, s2⟩ := ih g1 g' hrest
    split_ifs at hu
    · cases hu
      exact ⟨f2, s2⟩
    · exact ⟨PairFrame_trans (PairFrame_retarget hu) f2, SameTable_trans (SameTable_retarget hu) s2⟩

theorem Unlink_table_frame {x y : Object} {T : Object → Prop} {g g' : Heap}
    (hlast : T (g.table_ (g.table_size_ - 1))) (he : Unlink.table g x = some g') :
    PairFrame x y T g g' := by
  unfold Unlink.table at he
  simp only [Option.bind_eq_some] at he
  obtain ⟨o, -, he⟩ := he
  split_ifs at he
  simp only [Option.bind_eq_some, Option.some.injEq] at he
  obtain ⟨g1, e1, g3, e3, rfl⟩ := he
  have hpres : ∀ (v : Nat) (l : Layout),
      ({ l with header_hash_ := IndexField.update v l.header_hash_ } : Layout).cid = l.cid ∧
      ({ l with header_hash_ := IndexField.update v l.header_hash_ } : Layout).is_weak_referent =
        l.is_weak_referent ∧
      ({ l with header_hash_ := IndexField.update v l.header_hash_ } : Layout).refs = l.refs :=
    fun _ _ => ⟨rfl, rfl, rfl⟩
  have s1 : PairFrame x y T g g1 := PairFrame_modify e1 (fun _ => rfl) (Or.inl rfl) (Or.inl rfl)
  have s2 : PairFrame x y T g1
      { g1 with table_ := Function.update g1.table_ (g.table_size_ - 1) x } :=
    PairFrame_of_load (fun _ => rfl) rfl rfl rfl rfl
  have s3 : PairFrame x y T
      { g1 with table_ := Function.update g1.table_ (g.table_size_ - 1) x } g3 :=
    PairFrame_modify e3 (fun _ => rfl) (Or.inr (hpres _)) (Or.inr (Or.inr (Or.inl hlast)))
  refine PairFrame_trans s1 (PairFrame_trans s2 (PairFrame_trans s3 ?_))
  exact PairFrame_of_load (fun _ => rfl) rfl rfl rfl rfl

theorem IndexField_decode_HashField_update (v w : Nat) :
    IndexField.decode (HashField.update v w) = IndexField.decode w := by
  unfold IndexField.decode HashField.update
  omega

end psoup

namespace psoup

/-- The body of the second loop of `BecomeForward` for a forwarder `f` of the object table whose
weak-referent bit is clear: `f` leaves the object table and becomes a forwarding corpse with the
target `y`, the Refs of `f` apart, no Ref changes. -/
theorem BecomeForward_pair_spec {g g' : Heap} {f y : Object} (hT : TableInv g)
    (hfT : InTable g f) (hfy : f ≠ y)
    (hweak : ∀ l, g.load f = some l → l.is_weak_referent = false)
    (he : BecomeForward.pair g f y = some g') :
    PairFrame f y (InTable g) g g' ∧ TableInv g' ∧
    (∀ o, InTable g' o ↔ (InTable g o ∧ o ≠ f)) ∧
    ∃ l, g'.load f = some l ∧ l.cid = kForwardingCorpseCid ∧ l.header_hash_ = y := by
  unfold BecomeForward.pair at he
  simp only [Option.bind_eq_some] at he
  obtain ⟨fr, hfr, g1, e1, fe1, -, fr1, -, g2, e2, fr2, hfr2, g3, e3, g4, e4, fr4, -, g5, e5,
    e6⟩ := he
  -- the two updates of the forwardee
  have s1 : PairFrame f y (InTable g) g g1 :=
    PairFrame_modify e1 (fun _ => rfl) (Or.inr fun _ => ⟨rfl, rfl, rfl⟩) (Or.inr (Or.inl rfl))
  obtain ⟨hT1, hI1⟩ := TableInv_modify hT e1
    (Or.inr fun l => ⟨IndexField_decode_HashField_update _ _, rfl⟩)
  have s2 : PairFrame f y (InTable g) g1 g2 :=
    PairFrame_modify e2 (fun _ => rfl) (Or.inr fun _ => ⟨rfl, rfl, rfl⟩)
      (Or.inr (Or.inr (Or.inr fun _ => rfl)))
  obtain ⟨hT2, hI2⟩ := TableInv_modify hT1 e2 (Or.inr fun l => ⟨rfl, rfl⟩)
  have hf2 : g2.load f = g.load f := by
    rw [(modify_spec e2).2.1, if_neg hfy, (modify_spec e1).2.1, if_neg hfy]
  -- `Unlink(forwarder)`
  unfold Unlink at e3
  simp only [Option.bind_eq_some] at e3
  obtain ⟨o2, ho2, ga, ea, o1, -, gb, eb, et⟩ := e3
  have hw2 : o2.is_weak_referent = false := hweak o2 (hf2 ▸ ho2)
  rw [if_neg (by rw [hw2]; simp)] at ea
  cases ea
  obtain ⟨s3, st3⟩ := Unlink_outgoing_frame (y := y) (T := InTable g) _ g2 gb eb
  have hTb : TableInv gb := SameTable_TableInv st3 hT2
  have hIb : ∀ o, InTable gb o ↔ InTable g o := fun o => by
    rw [SameTable_InTable st3, hI2, hI1]
  obtain ⟨g3', et', -, hT3, -, hI3⟩ := Unlink_table_spec hTb ((hIb f).2 hfT)
  rw [et] at et'
  cases et'
  have hlast : InTable g (gb.table_ (gb.table_size_ - 1)) := by
    rw [← hIb]
    obtain ⟨i, h1, h2, -⟩ := (hIb f).2 hfT
    exact ⟨gb.table_size_ - 1, by omega, by omega, rfl⟩
  have s4 : PairFrame f y (InTable g) gb g3 := Unlink_table_frame hlast et
  have hnf3 : ¬ InTable g3 f := fun hcon => ((hI3 f).1 hcon).2 rfl
  -- the forwarder becomes a corpse
  have s5 : PairFrame f y (InTable g) g3 g4 :=
    PairFrame_modify e4 (fun _ => rfl) (Or.inl rfl) (Or.inl rfl)
  obtain ⟨hT4, hI4⟩ := TableInv_modify hT3 e4 (Or.inl hnf3)
  have s6 : PairFrame f y (InTable g) g4 g5 ∧ TableInv g5 ∧ (∀ o, InTable g5 o ↔ InTable g4 o) ∧
      ∀ l, g4.load f = some l → ∃ l5, g5.load f = some l5 ∧ l5.cid = l.cid := by
    split_ifs at e5
    · obtain ⟨hT5, hI5⟩ := TableInv_modify hT4 e5 (Or.inl (fun hcon => hnf3 ((hI4 f).1 hcon)))
      refine ⟨PairFrame_modify e5 (fun _ => rfl) (Or.inl rfl) (Or.inl rfl), hT5, hI5, ?_⟩
      intro l hl
      rw [(modify_spec e5).2.1, if_pos rfl, hl]
      exact ⟨_, rfl, rfl⟩
    · cases e5
      exact ⟨PairFrame_refl _ _ _ _, hT4, fun _ => Iff.rfl, fun l hl => ⟨l, hl, rfl⟩⟩
  obtain ⟨s6, hT5, hI5, hc5⟩ := s6
  have s7 : PairFrame f y (InTable g) g5 g' :=
    PairFrame_modify e6 (fun _ => rfl) (Or.inl rfl) (Or.inl rfl)
  obtain ⟨hT', hI'⟩ := TableInv_modify hT5 e6
    (Or.inl (fun hcon => hnf3 ((hI4 f).1 ((hI5 f).1 hcon))))
  refine ⟨PairFrame_trans s1 (PairFrame_trans s2 (PairFrame_trans s3 (PairFrame_trans s4
    (PairFrame_trans s5 (PairFrame_trans s6 s7))))), hT', ?_, ?_⟩
  · intro o
    rw [hI', hI5, hI4, hI3, hIb]
  · obtain ⟨⟨l3, hl3⟩, hload4, -⟩ := modify_spec e4
    have hl4 : g4.load f = some (l3.Initialize kForwardingCorpseCid fr2.HeapSize) := by
      rw [hload4, if_pos rfl, hl3]; rfl
    obtain ⟨l5, hl5, hcid5⟩ := hc5 _ hl4
    refine ⟨{ l5 with header_hash_ := y }, ?_, ?_, rfl⟩
    · unfold set_target at e6
      rw [(modify_spec e6).2.1, if_pos rfl, hl5]; rfl
    · show l5.cid = kForwardingCorpseCid
      rw [hcid5]
      rfl

end psoup

namespace psoup

theorem nodup_getElem?_inj {xs : List Object} (hnd : xs.Nodup) {i j : Nat} {x : Object}
    (hi : xs[i]? = some x) (hj : xs[j]? = some x) : i = j := by
  obtain ⟨hi1, hi2⟩ := List.getElem?_eq_some.1 hi
  obtain ⟨hj1, hj2⟩ := List.getElem?_eq_some.1 hj
  exact (List.Nodup.getElem_inj_iff hnd).1 (hi2.trans hj2.symm)

theorem Forwarding_congr {h : Heap} {F G : List Object} {P P' : List Nat} {g : Heap}
    (hP : ∀ i, i ∈ P' ↔ i ∈ P) (hf : Forwarding h F G P g) : Forwarding h F G P' g := by
  refine ⟨hf.table, ?_, hf.interp, hf.handles, hf.class_table, hf.absent, ?_, ?_⟩
  · intro o
    rw [hf.inTable o]
    exact ⟨fun ⟨a, b⟩ => ⟨a, fun i hi => b i ((hP i).1 hi)⟩,
      fun ⟨a, b⟩ => ⟨a, fun i hi => b i ((hP i).2 hi)⟩⟩
  · intro o l0 hl0
    obtain ⟨l, hl, e1, e2⟩ := hf.present o l0 hl0
    exact ⟨l, hl, e1, fun hno => e2 (fun i hi => hno i ((hP i).2 hi))⟩
  · intro i hi
    exact hf.corpses i ((hP i).1 hi)

theorem Forwarding_refl {h : Heap} (hT : TableInv h) (F G : List Object) :
    Forwarding h F G [] h :=
  ⟨hT, fun o => by simp, rfl, rfl, ⟨rfl, rfl⟩, fun _ ho => ho,
    fun o l0 hl0 => ⟨l0, hl0, rfl, fun _ => ⟨rfl, rfl, rfl⟩⟩, fun i hi => by cases hi⟩

/-- One pair of the second loop of `BecomeForward`. -/
theorem Forwarding_pair {h : Heap} {F G : List Object} {P : List Nat} {g g' : Heap}
    (hwb : WeakBitsClear h) (hnd : F.Nodup) (hdis : ∀ x ∈ F, x ∉ G)
    (hFT : ∀ x ∈ F, InTable h x) (hf : Forwarding h F G P g) {i : Nat} {f y : Object}
    (hiP : i ∉ P) (hFi : F[i]? = some f) (hGi : G[i]? = some y)
    (he : BecomeForward.pair g f y = some g') : Forwarding h F G (i :: P) g' := by
  have hfF : f ∈ F := List.getElem?_mem hFi
  have hyG : y ∈ G := List.getElem?_mem hGi
  have hfun : ∀ j ∈ P, F[j]? ≠ some f := fun j hj hcon =>
    hiP ((nodup_getElem?_inj hnd hFi hcon) ▸ hj)
  have hfT : InTable g f := (hf.inTable f).2 ⟨hFT f hfF, hfun⟩
  obtain ⟨l0, hl0, -⟩ := load_of_InTable hf.table hfT
  have hfy : f ≠ y := fun hcon => hdis f hfF (hcon ▸ hyG)
  have hweak : ∀ l, g.load f = some l → l.is_weak_referent = false := by
    intro l hl
    cases hh : h.load f with
    | none => rw [hf.absent f hh] at hl; cases hl
    | some lh =>
      obtain ⟨l', hl', -, e2⟩ := hf.present f lh hh
      rw [hl] at hl'; cases hl'
      rw [(e2 hfun).2.1]
      exact hwb f lh (hFT f hfF) hh
  obtain ⟨hpf, hT', hI', lc, hlc, hcid, htar⟩ := BecomeForward_pair_spec hf.table hfT hfy hweak he
  refine ⟨hT', ?_, hpf.interp.trans hf.interp, hpf.handles.trans hf.handles,
    ⟨hpf.class_table.1.trans hf.class_table.1, hpf.class_table.2.trans hf.class_table.2⟩,
    fun o ho => hpf.absent o (hf.absent o ho), ?_, ?_⟩
  · intro o
    rw [hI' o, hf.inTable o]
    constructor
    · rintro ⟨⟨a, b⟩, c⟩
      refine ⟨a, fun j hj => ?_⟩
      rcases List.mem_cons.1 hj with rfl | hj
      · rw [hFi]; exact fun hcon => c (Option.some.inj hcon).symm
      · exact b j hj
    · rintro ⟨a, b⟩
      refine ⟨⟨a, fun j hj => b j (List.mem_cons_of_mem _ hj)⟩, fun hcon => ?_⟩
      exact b i (List.mem_cons_self _ _) (hcon ▸ hFi)
  · intro o lh hlh
    obtain ⟨l, hl, e1, e2⟩ := hf.present o lh hlh
    obtain ⟨l', hl', f1, f2, -⟩ := hpf.present o l hl
    refine ⟨l', hl', f1.trans e1, fun hno => ?_⟩
    have hof : o ≠ f := fun hcon => hno i (List.mem_cons_self _ _) (hcon ▸ hFi)
    obtain ⟨p1, p2, p3⟩ := e2 (fun j hj => hno j (List.mem_cons_of_mem _ hj))
    obtain ⟨q1, q2, q3⟩ := f2 hof
    exact ⟨q1.trans p1, q2.trans p2, q3.trans p3⟩
  · intro j hj c z hFj hGj
    rcases List.mem_cons.1 hj with rfl | hj
    · rw [hFi] at hFj; cases hFj
      rw [hGi] at hGj; cases hGj
      exact ⟨lc, hlc, hcid, htar⟩
    · obtain ⟨l, hl, e1, e2⟩ := hf.corpses j hj c z hFj hGj
      have hcf : c ≠ f := fun hcon => hfun j hj (hcon ▸ hFj)
      have hcy : c ≠ y := fun hcon => hdis c (List.getElem?_mem hFj) (hcon ▸ hyG)
      have hcT : ¬ InTable g c := fun hcon => ((hf.inTable c).1 hcon).2 j hj hFj
      obtain ⟨l', hl', -, f2, f3⟩ := hpf.present c l hl
      exact ⟨l', hl', (f2 hcf).1.trans e1, (f3 hcf hcy hcT).trans e2⟩

/-- The second loop of `BecomeForward`. -/
theorem BecomeForward_corpses_spec {h : Heap} {old neu : Object} {lo ln : Layout}
    (hwb : WeakBitsClear h) (hlo : h.load old = some lo) (hln : h.load neu = some ln)
    (hnd : lo.refs.Nodup) (hdis : ∀ x ∈ lo.refs, x ∉ ln.refs)
    (hoF : old ∉ lo.refs) (hnF : neu ∉ lo.refs) (hFT : ∀ x ∈ lo.refs, InTable h x) :
    ∀ (is P : List Nat) (g g' : Heap), Forwarding h lo.refs ln.refs P g →
      (∀ i ∈ is, i ∉ P ∧ i < lo.refs.length ∧ i < ln.refs.length) → is.Nodup →
      BecomeForward.corpses g old neu is = some g' →
      Forwarding h lo.refs ln.refs (is ++ P) g' := by
  intro is
  induction is with
  | nil =>
    intro P g g' hf _ _ he
    simp only [BecomeForward.corpses, Option.some.injEq] at he
    subst he
    exact hf
  | cons i rest ih =>
    intro P g g' hf his hnodup he
    obtain ⟨hiP, hi1, hi2⟩ := his i (List.mem_cons_self _ _)
    have hunp : ∀ x, x ∉ lo.refs → ∀ j ∈ P, lo.refs[j]? ≠ some x :=
      fun x hx j _ hcon => hx (List.getElem?_mem hcon)
    obtain ⟨lo', hlo', -, eo⟩ := hf.present old lo hlo
    obtain ⟨ln', hln', -, en⟩ := hf.present neu ln hln
    have e1 : Array.element g old i = some lo.refs[i] := by
      rw [Array_element_eq hlo', (eo (hunp old hoF)).2.2]
      exact List.getElem?_eq_getElem hi1
    have e2 : Array.element g neu i = some ln.refs[i] := by
      rw [Array_element_eq hln', (en (hunp neu hnF)).2.2]
      exact List.getElem?_eq_getElem hi2
    simp only [BecomeForward.corpses, e1, e2, Option.some_bind, Option.bind_eq_some] at he
    obtain ⟨g1, ep, erest⟩ := he
    have hf1 := Forwarding_pair hwb hnd hdis hFT hf hiP (List.getElem?_eq_getElem hi1)
      (List.getElem?_eq_getElem hi2) ep
    have hf' := ih (i :: P) g1 g' hf1 (fun j hj => by
      obtain ⟨a, b, c⟩ := his j (List.mem_cons_of_mem _ hj)
      refine ⟨fun hcon => ?_, b, c⟩
      rcases List.mem_cons.1 hcon with rfl | hcon
      · exact (List.nodup_cons.1 hnodup).1 hj
      · exact a hcon) (List.Nodup.of_cons hnodup) erest
    exact Forwarding_congr (fun j => by simp only [List.mem_append, List.mem_cons]; tauto) hf'

end psoup

namespace psoup

theorem IsForwardingCorpse_of_not_heap {g : Heap} {c : Object} (hc : ¬ IsHeapObject c) :
    IsForwardingCorpse g c = some false := by
  have hs : IsSmallInteger c := (not_isHeapObject_iff c).1 hc
  simp only [IsForwardingCorpse, ClassId, if_pos hs, Option.map_some']
  rfl

theorem IsForwardingCorpse_of_load {g : Heap} {c : Object} {l : Layout}
    (hl : g.load c = some l) :
    IsForwardingCorpse g c = some (decide (l.cid = kForwardingCorpseCid)) := by
  have hs : ¬ IsSmallInteger c := (not_isSmallInteger_iff c).2 (isHeapObject_of_load hl)
  simp only [IsForwardingCorpse, ClassId, if_neg hs, hl, Option.map_some']

theorem IsForwardingCorpse_eq_true {g : Heap} {c : Object}
    (hc : IsForwardingCorpse g c = some true) :
    ∃ l, g.load c = some l ∧ l.cid = kForwardingCorpseCid := by
  by_cases hh : IsHeapObject c
  · cases hl : g.load c with
    | none => simp [IsForwardingCorpse, ClassId, (not_isSmallInteger_iff c).2 hh, hl] at hc
    | some l =>
      rw [IsForwardingCorpse_of_load hl] at hc
      exact ⟨l, rfl, by simpa using hc⟩
  · rw [IsForwardingCorpse_of_not_heap hh] at hc
    cases hc

theorem Forwarded_refl (h1 : Heap) (F G : List Object) : Forwarded h1 F G h1 :=
  ⟨⟨rfl, rfl⟩, ⟨rfl, rfl⟩, fun _ ho => ho, fun _ l hl => ⟨l, hl, Iff.rfl, rfl, rfl⟩,
    fun _ => Or.inl rfl⟩

/-- `ForwardPointer` on a Ref whose target, when it is a forwarding corpse, is a forwarder:
the Ref gets the forwardee and is inserted in its incoming list; no other Ref changes. -/
theorem Forwarded_ForwardPointer {h1 : Heap} {F G : List Object} {g g' : Heap} {r : RefPtr}
    (hlen : F.length = G.length)
    (hK1 : ∀ (i : Nat) (f y : Object), F[i]? = some f → G[i]? = some y →
      ∃ l, h1.load f = some l ∧ l.cid = kForwardingCorpseCid ∧ l.header_hash_ = y)
    (hK2 : ∀ y ∈ G, ∃ l, h1.load y = some l ∧ l.cid ≠ kForwardingCorpseCid)
    (hfw : Forwarded h1 F G g) (hgood : Good h1 F r) (he : ForwardPointer g r = some g') :
    Forwarded h1 F G g' ∧ (∀ r', Done g r' → Done g' r') ∧ Done g' r := by
  unfold ForwardPointer at he
  simp only [Option.bind_eq_some] at he
  obtain ⟨t, hto, c, hc, he⟩ := he
  have hback : ∀ o l, g.load o = some l → ∃ l1, h1.load o = some l1 ∧
      (l.cid = kForwardingCorpseCid ↔ l1.cid = kForwardingCorpseCid) ∧
      l.header_hash_ = l1.header_hash_ := by
    intro o l hl
    cases h1l : h1.load o with
    | none => rw [hfw.absent o h1l] at hl; cases hl
    | some l1 =>
      obtain ⟨l', hl', e1, e2, -⟩ := hfw.present o l1 h1l
      rw [hl] at hl'; cases hl'
      exact ⟨l1, rfl, e1, e2⟩
  by_cases hct : c = true
  · subst hct
    rw [if_pos rfl] at he
    simp only [Option.bind_eq_some] at he
    obtain ⟨l, hl, hu⟩ := he
    obtain ⟨l', hl', hcid⟩ := IsForwardingCorpse_eq_true hc
    rw [hl] at hl'; cases hl'
    obtain ⟨l1, hl1, ec, eh⟩ := hback t l hl
    -- the target is a forwarder
    obtain ⟨i, f, y, hFi, hGi, hr1, hty⟩ : ∃ (i : Nat) (f y : Object), F[i]? = some f ∧
        G[i]? = some y ∧ Ref_to h1 r = some f ∧ f = t ∧ l.target = y := by
      rcases hfw.refs r with hun | ⟨i, f, y, -, hGi, -, hgy, -⟩
      · rw [hto] at hun
        obtain ⟨i, hFi⟩ := hgood t l1 hun.symm hl1 (ec.1 hcid)
        have hi : i < G.length := by
          rw [← hlen]
          exact (List.getElem?_eq_some.1 hFi).1
        obtain ⟨lf, hlf, -, htar⟩ := hK1 i t G[i] hFi (List.getElem?_eq_getElem hi)
        rw [hl1] at hlf; cases hlf
        exact ⟨i, t, G[i], hFi, List.getElem?_eq_getElem hi, hun.symm, rfl,
          (show l.header_hash_ = G[i] from eh.trans htar)⟩
      · exfalso
        rw [hto] at hgy
        cases hgy
        obtain ⟨ly, hly, hne⟩ := hK2 t (List.getElem?_mem hGi)
        rw [hl1] at hly; cases hly
        exact hne (ec.1 hcid)
    obtain ⟨rfl, htar⟩ := hty
    rw [htar] at hu
    obtain ⟨t', hto', -, hv, rfl⟩ := UpdateNoCheck_eq_some.1 hu
    rw [hto] at hto'; cases hto'
    obtain ⟨ly1, hly1, hyne⟩ := hK2 y (List.getElem?_mem hGi)
    have hyheap : IsHeapObject y := isHeapObject_of_load hly1
    obtain ⟨e1, e2, -, -, e5, e6, -⟩ := retarget_fields g r f y
    have hcidk : ∀ o l', (g.retarget r f y).load o = some l' →
        ∃ l0, g.load o = some l0 ∧ l'.cid = l0.cid := by
      intro o l' hl'
      rw [load_retarget] at hl'
      obtain ⟨l0, hl0, rfl⟩ := Option.map_eq_some'.1 hl'
      exact ⟨l0, hl0, (Layout_retarget_fields r f y o l0).1⟩
    refine ⟨⟨⟨e1.trans hfw.table.1, e2.trans hfw.table.2⟩,
      ⟨e5.trans hfw.class_table.1, e6.trans hfw.class_table.2⟩, ?_, ?_, ?_⟩, ?_, ?_⟩
    · intro o ho
      rw [load_retarget, hfw.absent o ho]; rfl
    · intro o lo1 hlo1
      obtain ⟨lg, hlg, a1, a2, a3⟩ := hfw.present o lo1 hlo1
      have hfields := Layout_retarget_fields r f y o lg
      exact ⟨_, by rw [load_retarget, hlg]; rfl, by rw [hfields.1]; exact a1,
        hfields.2.2.2.2.1.trans a2, (Layout_retarget_refs_length r f y o lg).trans a3⟩
    · intro r'
      by_cases hrr : r' = r
      · subst hrr
        right
        refine ⟨i, f, y, hFi, hGi, hr1, by rw [Ref_to_retarget hto, if_pos rfl], ?_⟩
        rw [incomingOf_retarget y (fun _ _ => hv hyheap)]
        exact List.mem_append.2 (Or.inr (by rw [if_pos ⟨rfl, hyheap⟩]; exact List.mem_singleton.2 rfl))
      · rcases hfw.refs r' with hun | ⟨i', f', y', b1, b2, b3, b4, b5⟩
        · left
          rw [Ref_to_retarget hto, if_neg hrr]
          exact hun
        · right
          exact ⟨i', f', y', b1, b2, b3, by rw [Ref_to_retarget hto, if_neg hrr]; exact b4,
            mem_incomingOf_retarget_of_ne hv hrr b5⟩
    · intro r' hd t' l' hto' hl'
      obtain ⟨l0, hl0, hc0⟩ := hcidk t' l' hl'
      rw [Ref_to_retarget hto] at hto'
      by_cases hrr : r' = r
      · rw [if_pos hrr] at hto'
        cases hto'
        obtain ⟨l10, hl10, ec', -⟩ := hback y l0 hl0
        rw [hly1] at hl10; cases hl10
        rw [hc0]; exact fun hk => hyne (ec'.1 hk)
      · rw [if_neg hrr] at hto'
        rw [hc0]
        exact hd t' l0 hto' hl0
    · intro t' l' hto' hl'
      obtain ⟨l0, hl0, hc0⟩ := hcidk t' l' hl'
      rw [Ref_to_retarget hto, if_pos rfl] at hto'
      cases hto'
      obtain ⟨l10, hl10, ec', -⟩ := hback y l0 hl0
      rw [hly1] at hl10; cases hl10
      rw [hc0]; exact fun hk => hyne (ec'.1 hk)
  · rw [if_neg hct] at he
    cases he
    refine ⟨hfw, fun _ hd => hd, ?_⟩
    intro t' l' hto' hl'
    rw [hto] at hto'; cases hto'
    rw [IsForwardingCorpse_of_load hl'] at hc
    have : c = false := by cases c <;> simp_all
    subst this
    simpa using hc

end psoup

namespace psoup

theorem Ref_to_congr {g g' : Heap} (hl : ∀ o, g'.load o = g.load o)
    (hi : g'.interpreter_.roots = g.interpreter_.roots)
    (hs : g'.interpreter_.stack = g.interpreter_.stack) (r : RefPtr) :
    Ref_to g' r = Ref_to g r := by
  cases r with
  | slot s i => simp only [Ref_to, hl]
  | root i => simp only [Ref_to, hi]
  | stack i => simp only [Ref_to, hs]

theorem incomingOf_congr {g g' : Heap} (hl : ∀ o, g'.load o = g.load o) (o : Object) :
    g'.incomingOf o = g.incomingOf o := by
  unfold Heap.incomingOf
  rw [hl]

theorem Forwarded_congr {h1 : Heap} {F G : List Object} {g g' : Heap}
    (hfw : Forwarded h1 F G g) (hl : ∀ o, g'.load o = g.load o)
    (hi : g'.interpreter_.roots = g.interpreter_.roots)
    (hs : g'.interpreter_.stack = g.interpreter_.stack)
    (ht : g'.table_ = g.table_ ∧ g'.table_size_ = g.table_size_)
    (hc : g'.class_table_ = h1.class_table_ ∧ g'.class_table_size_ = h1.class_table_size_) :
    Forwarded h1 F G g' := by
  refine ⟨⟨ht.1.trans hfw.table.1, ht.2.trans hfw.table.2⟩, hc,
    fun o ho => (hl o).trans (hfw.absent o ho), ?_, ?_⟩
  · intro o l1 hl1
    obtain ⟨l, hlg, a⟩ := hfw.present o l1 hl1
    exact ⟨l, (hl o).trans hlg, a⟩
  · intro r
    rw [Ref_to_congr hl hi hs]
    rcases hfw.refs r with hun | ⟨i, f, y, b1, b2, b3, b4, b5⟩
    · exact Or.inl hun
    · exact Or.inr ⟨i, f, y, b1, b2, b3, b4, by rw [incomingOf_congr hl]; exact b5⟩

theorem Done_congr {g g' : Heap} (hl : ∀ o, g'.load o = g.load o)
    (hi : g'.interpreter_.roots = g.interpreter_.roots)
    (hs : g'.interpreter_.stack = g.interpreter_.stack) (r : RefPtr) :
    Done g' r ↔ Done g r := by
  unfold Done
  rw [Ref_to_congr hl hi hs]
  simp only [hl]

/-- A loop of `ForwardPointer` over Refs whose targets, when they are forwarding corpses, are
forwarders. -/
theorem Forwarded_ForwardPointers {h1 : Heap} {F G : List Object}
    (hlen : F.length = G.length)
    (hK1 : ∀ (i : Nat) (f y : Object), F[i]? = some f → G[i]? = some y →
      ∃ l, h1.load f = some l ∧ l.cid = kForwardingCorpseCid ∧ l.header_hash_ = y)
    (hK2 : ∀ y ∈ G, ∃ l, h1.load y = some l ∧ l.cid ≠ kForwardingCorpseCid) :
    ∀ (rs : List RefPtr) (g g' : Heap), Forwarded h1 F G g → (∀ r ∈ rs, Good h1 F r) →
      ForwardPointers g rs = some g' →
      Forwarded h1 F G g' ∧ (∀ r, Done g r → Done g' r) ∧ ∀ r ∈ rs, Done g' r := by
  intro rs
  induction rs with
  | nil =>
    intro g g' hfw _ he
    simp only [ForwardPointers, Option.some.injEq] at he
    subst he
    exact ⟨hfw, fun _ hd => hd, fun _ hr => by cases hr⟩
  | cons r rest ih =>
    intro g g' hfw hgood he
    simp only [ForwardPointers, Option.bind_eq_some] at he
    obtain ⟨g1, e1, e2⟩ := he
    obtain ⟨hfw1, hmono1, hd1⟩ := Forwarded_ForwardPointer hlen hK1 hK2 hfw
      (hgood r (List.mem_cons_self _ _)) e1
    obtain ⟨hfw2, hmono2, hd2⟩ := ih g1 g' hfw1
      (fun r' hr' => hgood r' (List.mem_cons_of_mem _ hr')) e2
    refine ⟨hfw2, fun r' hd => hmono2 r' (hmono1 r' hd), ?_⟩
    intro r' hr'
    rcases List.mem_cons.1 hr' with rfl | hr'
    · exact hmono2 _ hd1
    · exact hd2 r' hr'

theorem IsForwardingCorpse_Forwarded {h1 : Heap} {F G : List Object} {g : Heap}
    (hfw : Forwarded h1 F G g) (c : Object) :
    IsForwardingCorpse g c = IsForwardingCorpse h1 c := by
  by_cases hh : IsHeapObject c
  · cases h1l : h1.load c with
    | none =>
      have hs : ¬ IsSmallInteger c := (not_isSmallInteger_iff c).2 hh
      simp [IsForwardingCorpse, ClassId, hs, h1l, hfw.absent c h1l]
    | some l1 =>
      obtain ⟨l, hl, e1, -⟩ := hfw.present c l1 h1l
      rw [IsForwardingCorpse_of_load hl, IsForwardingCorpse_of_load h1l]
      exact congrArg some (decide_eq_decide.2 e1)
  · rw [IsForwardingCorpse_of_not_heap hh, IsForwardingCorpse_of_not_heap hh]

theorem ForwardClass_noop {g g' : Heap} {x : Object}
    (hct : ∀ k, IsForwardingCorpse g (g.class_table_ k) = some false)
    (he : ForwardClass g x = some g') : g' = g := by
  unfold ForwardClass at he
  simp only [Option.bind_eq_some] at he
  obtain ⟨o, -, c, hc, b, hb, he⟩ := he
  unfold ClassAt class_table_at at hc
  split_ifs at hc
  cases hc
  rw [hct] at hb
  cases hb
  simp only [Bool.false_eq_true, if_false, Option.some.injEq] at he
  exact he.symm

theorem ForwardClassIds_loop_noop : ∀ (ks : List Nat) (g g' : Heap),
    (∀ k, IsForwardingCorpse g (g.class_table_ k) = some false) →
    ForwardClassIds.loop g ks = some g' → g' = g := by
  intro ks
  induction ks with
  | nil =>
    intro g g' _ he
    simp only [ForwardClassIds.loop, Option.some.injEq] at he
    exact he.symm
  | cons k rest ih =>
    intro g g' hct he
    simp only [ForwardClassIds.loop, Option.bind_eq_some] at he
    obtain ⟨g1, e1, e2⟩ := he
    have : g1 = g := by
      unfold ForwardClassIds.step at e1
      simp only [hct, Option.some_bind, if_true, Option.some.injEq] at e1
      exact e1.symm
    subst this
    exact ih _ _ hct e2

theorem Pointers_congr {l l' : Layout} (hc : l'.cid = l.cid)
    (hr : l'.refs.length = l.refs.length) : Pointers l' = Pointers l := by
  unfold Pointers
  rw [hc, hr]

end psoup

namespace psoup

theorem ForwardPointers_handles : ∀ (rs : List RefPtr) (g g' : Heap),
    ForwardPointers g rs = some g' → g'.handles_ = g.handles_ := by
  intro rs
  induction rs with
  | nil =>
    intro g g' he
    simp only [ForwardPointers, Option.some.injEq] at he
    subst he; rfl
  | cons r rest ih =>
    intro g g' he
    simp only [ForwardPointers, Option.bind_eq_some] at he
    obtain ⟨g1, e1, e2⟩ := he
    rw [ih g1 g' e2]
    unfold ForwardPointer at e1
    simp only [Option.bind_eq_some] at e1
    obtain ⟨t, -, c, -, e1⟩ := e1
    split_ifs at e1
    · simp only [Option.bind_eq_some] at e1
      obtain ⟨l, -, hu⟩ := e1
      obtain ⟨t', -, -, -, rfl⟩ := UpdateNoCheck_eq_some.1 hu
      exact (retarget_fields g r t' _).2.2.1
    · cases e1; rfl

theorem ForwardHeap_loop_handles : ∀ (is : List Nat) (g g' : Heap),
    ForwardHeap.loop g is = some g' → g'.handles_ = g.handles_ := by
  intro is
  induction is with
  | nil =>
    intro g g' he
    simp only [ForwardHeap.loop, Option.some.injEq] at he
    subst he; rfl
  | cons i rest ih =>
    intro g g' he
    simp only [ForwardHeap.loop, ForwardHeap.step, Option.bind_eq_some] at he
    obtain ⟨g2, ⟨ga, ea, o, -, ep⟩, erest⟩ := he
    rw [ih g2 g' erest, ForwardPointers_handles _ ga g2 ep]
    unfold ForwardClass at ea
    simp only [Option.bind_eq_some] at ea
    obtain ⟨o', -, c, -, b, -, ea⟩ := ea
    split_ifs at ea
    · simp only [Option.bind_eq_some] at ea
      obtain ⟨l, -, id, -, hs⟩ := ea
      exact (modify_spec hs).2.2.2.2.2.1
    · cases ea; rfl

theorem ForwardRoots_handles_spec (g : Heap) : ∀ (vs hs : List Object),
    ForwardRoots.handles g vs = some hs →
    ∀ (j : Nat) (v : Object), vs[j]? = some v →
      ∃ v', hs[j]? = some v' ∧ ForwardPointer.object g v = some v' := by
  intro vs
  induction vs with
  | nil => intro hs _ j v hv; simp at hv
  | cons a rest ih =>
    intro hs he j v hv
    simp only [ForwardRoots.handles, Option.bind_eq_some, Option.map_eq_some'] at he
    obtain ⟨a', ha', rest', hrest', rfl⟩ := he
    cases j with
    | zero =>
      simp only [List.getElem?_cons_zero, Option.some.injEq] at hv
      subst hv
      exact ⟨a', by simp, ha'⟩
    | succ j =>
      simp only [List.getElem?_cons_succ] at hv
      obtain ⟨v', hv', ho'⟩ := ih rest' hrest' j v hv
      exact ⟨v', by simpa using hv', ho'⟩

/-- `ForwardRoots`, when the targets of the Refs of the interpreter that are forwarding corpses
are forwarders. -/
theorem Forwarded_ForwardRoots {h1 : Heap} {F G : List Object}
    (hlen : F.length = G.length)
    (hK1 : ∀ (i : Nat) (f y : Object), F[i]? = some f → G[i]? = some y →
      ∃ l, h1.load f = some l ∧ l.cid = kForwardingCorpseCid ∧ l.header_hash_ = y)
    (hK2 : ∀ y ∈ G, ∃ l, h1.load y = some l ∧ l.cid ≠ kForwardingCorpseCid)
    (hgr : ∀ j, Good h1 F (RefPtr.root j)) (hgs : ∀ j, Good h1 F (RefPtr.stack j))
    {g g' : Heap} (hfw : Forwarded h1 F G g) (he : ForwardRoots g = some g') :
    Forwarded h1 F G g' ∧ (∀ r, Done g r → Done g' r) ∧
    (∀ j, Done g' (RefPtr.root j)) ∧ (∀ j, Done g' (RefPtr.stack j)) ∧
    ∃ hs, ForwardRoots.handles g g.handles_ = some hs ∧ g'.handles_ = hs := by
  unfold ForwardRoots at he
  simp only [Option.bind_eq_some] at he
  obtain ⟨hs, ehs, g2, e2, e3⟩ := he
  have hfw1 : Forwarded h1 F G { g with handles_ := hs } :=
    Forwarded_congr hfw (fun _ => rfl) rfl rfl ⟨rfl, rfl⟩ hfw.class_table
  have hd1 : ∀ r, Done g r ↔ Done { g with handles_ := hs } r :=
    fun r => (Done_congr (fun _ => rfl) rfl rfl r).symm
  obtain ⟨hfw2, hmono2, hdone2⟩ := Forwarded_ForwardPointers hlen hK1 hK2 _ _ g2 hfw1
    (fun r hr => by
      obtain ⟨j, -, rfl⟩ := List.mem_map.1 hr
      exact hgr j) e2
  obtain ⟨hfw3, hmono3, hdone3⟩ := Forwarded_ForwardPointers hlen hK1 hK2 _ g2 g' hfw2
    (fun r hr => by
      obtain ⟨j, -, rfl⟩ := List.mem_map.1 hr
      exact hgs j) e3
  refine ⟨hfw3, fun r hd => hmono3 r (hmono2 r ((hd1 r).1 hd)), ?_, ?_, hs, ehs, ?_⟩
  · intro j
    apply hmono3
    by_cases hj : j < g.interpreter_.roots.length
    · exact hdone2 _ (List.mem_map.2 ⟨j, List.mem_range.2 hj, rfl⟩)
    · apply hmono2
      intro t l hto _
      have : g.interpreter_.roots[j]? = some t := hto
      rw [List.getElem?_eq_none (by omega)] at this
      cases this
  · intro j
    by_cases hj : j < g2.interpreter_.stack.length
    · exact hdone3 _ (List.mem_map.2 ⟨j, List.mem_range.2 hj, rfl⟩)
    · apply hmono3
      intro t l hto _
      have : g2.interpreter_.stack[j]? = some t := hto
      rw [List.getElem?_eq_none (by omega)] at this
      cases this
  · rw [ForwardPointers_handles _ g2 g' e3, ForwardPointers_handles _ _ g2 e2]

theorem Mourn_loop_frame : ∀ (is : List Nat) (g g' : Heap),
    MournClassTableForwarded.loop g is = some g' →
    (∀ o, g'.load o = g.load o) ∧ g'.interpreter_ = g.interpreter_ ∧
    g'.handles_ = g.handles_ ∧ g'.table_ = g.table_ ∧ g'.table_size_ = g.table_size_ := by
  intro is
  induction is with
  | nil =>
    intro g g' he
    simp only [MournClassTableForwarded.loop, Option.some.injEq] at he
    subst he
    exact ⟨fun _ => rfl, rfl, rfl, rfl, rfl⟩
  | cons i rest ih =>
    intro g g' he
    simp only [MournClassTableForwarded.loop, MournClassTableForwarded.step,
      Option.bind_eq_some, Option.map_eq_some'] at he
    obtain ⟨g1, ⟨c, -, rfl⟩, e2⟩ := he
    obtain ⟨a1, a2, a3, a4, a5⟩ := ih _ g' e2
    split_ifs at a1 a2 a3 a4 a5
    · exact ⟨a1, a2, a3, a4, a5⟩
    · exact ⟨a1, a2, a3, a4, a5⟩

end psoup

namespace psoup

end psoup

namespace psoup

/-- The Boolean check of `WeakBitsClear` is sound. -/
theorem WeakBitsClear_of_check {h : Heap} (hc : checkWeakBitsClear h = true) :
    WeakBitsClear h := by
  unfold checkWeakBitsClear at hc
  simp only [List.all_eq_true, List.mem_range, Bool.or_eq_true, decide_eq_true_eq] at hc
  rintro o l ⟨i, h1, h2, rfl⟩ hl
  rcases hc i h2 with h0 | h0
  · omega
  · rw [hl] at h0
    simpa using h0

/-- Counterexample to C7: in `classHeapUnregistered` the class `C1` at 7 is registered under the
class id 14 and the class id slot of the class `C2` at 9 holds nil; the become of `[C1]` into
`[C2]` returns true, `C2` is still in the object table, and its class id slot, a Ref that
targeted the non-forwarder nil before the call, targets the small integer 14 afterwards. -/
theorem BecomeForward_classid_counterexample :
    checkWellFormed classHeapUnregistered = true ∧
    checkWeakBitsClear classHeapUnregistered = true ∧
    ((BecomeForward classHeapUnregistered 13 15).map fun p => p.1) = some true ∧
    Array.element classHeapUnregistered 13 0 = some 7 ∧
    Array.element classHeapUnregistered 15 0 = some 9 ∧
    Ref_to classHeapUnregistered (.slot 9 Behavior.classid_index) =
      some classHeapUnregistered.interpreter_.nil_obj ∧
    classHeapUnregistered.interpreter_.nil_obj ≠ 7 ∧
    inTable (becomeResult classHeapUnregistered 13 15).2 9 = true ∧
    ((becomeResult classHeapUnregistered 13 15).2.load 9).map
      (fun l => decide (Behavior.classid_index < (Pointers l).2)) = some true ∧
    Ref_to (becomeResult classHeapUnregistered 13 15).2 (.slot 9 Behavior.classid_index) =
      some (SmallInteger.New 14) ∧
    SmallInteger.New 14 ≠ classHeapUnregistered.interpreter_.nil_obj := by
  refine ⟨by decide, by decide, by rfl, by rfl, by rfl, by rfl, by decide, by rfl, by rfl,
    by rfl, by decide⟩

end psoup

namespace psoup

theorem SmallInteger_kMaxValue_eq : SmallInteger.kMaxValue = 2 ^ 62 - 1 := by decide

theorem SmallInteger_kMinValue_eq : SmallInteger.kMinValue = -2 ^ 62 := by decide

theorem toUword_cases (v : Int) (hlo : -2 ^ 63 ≤ v) (hhi : v < 2 ^ 63) :
    (0 ≤ v ∧ (toUword v : Int) = v) ∨ (v < 0 ∧ (toUword v : Int) = v + 2 ^ 64) := by
  unfold toUword
  have hnn : 0 ≤ v % (2 : Int) ^ 64 := Int.emod_nonneg _ (by norm_num)
  rw [Int.toNat_of_nonneg hnn]
  omega

theorem SmallInteger_New_even (v : Int) : SmallInteger.New v % 2 = 0 := by
  show (toUword v * 2 ^ 1 % 2 ^ 64 : Nat) % 2 = 0
  omega

theorem SmallInteger_value_New (v : Int) (hlo : -2 ^ 62 ≤ v) (hhi : v < 2 ^ 62) :
    SmallInteger.value (SmallInteger.New v) = v := by
  have hu := toUword_cases v (by omega) (by omega)
  show toIntptr (toUword v * 2 ^ 1 % 2 ^ 64 : Nat) / (2 : Int) ^ 1 = v
  unfold toIntptr
  generalize toUword v = u at hu ⊢
  split_ifs with hlt <;> push_cast <;> omega

/-- C20: the small-integer encoding round trip.  `SmallInteger::kMinValue` is `-2^(W-2)` and
`SmallInteger::kMaxValue` is `2^(W-2) - 1` for the word width `W = kBitsPerWord`; for every `v`
in that range the low bit of `SmallInteger::New(v)` is 0, so it `IsSmallInteger`, it is not
`IsHeapObject`, its `ClassId()` is `kSmiCid` (in every heap), and its `value()` is `v`; and
every word is exactly one of a small integer and a heap object. -/
theorem SmallInteger_round_trip :
    SmallInteger.kMinValue = -(2 : Int) ^ (kBitsPerWord - 2) ∧
    SmallInteger.kMaxValue = (2 : Int) ^ (kBitsPerWord - 2) - 1 ∧
    (∀ v : Int, SmallInteger.kMinValue ≤ v → v ≤ SmallInteger.kMaxValue →
      SmallInteger.New v % 2 = 0 ∧ IsSmallInteger (SmallInteger.New v) ∧
      ¬ IsHeapObject (SmallInteger.New v) ∧
      (∀ h : Heap, ClassId h (SmallInteger.New v) = some kSmiCid) ∧
      SmallInteger.value (SmallInteger.New v) = v) ∧
    (∀ w : Object, (IsSmallInteger w ∧ ¬ IsHeapObject w) ∨ (¬ IsSmallInteger w ∧ IsHeapObject w)) := by
  refine ⟨by decide, by decide, ?_, ?_⟩
  · intro v hlo hhi
    rw [SmallInteger_kMinValue_eq] at hlo
    rw [SmallInteger_kMaxValue_eq] at hhi
    have hs : IsSmallInteger (SmallInteger.New v) :=
      (isSmallInteger_iff _).2 (SmallInteger_New_even v)
    refine ⟨SmallInteger_New_even v, hs, (not_isHeapObject_iff _).2 hs, ?_,
      SmallInteger_value_New v hlo (by omega)⟩
    intro h
    unfold ClassId
    rw [if_pos hs]
  · intro w
    by_cases hs : IsSmallInteger w
    · exact Or.inl ⟨hs, (not_isHeapObject_iff w).2 hs⟩
    · exact Or.inr ⟨hs, (not_isSmallInteger_iff w).1 hs⟩

/-- Witness of C20: the small integers that encode `kMinValue`, `-1` and `kMaxValue`. -/
theorem SmallInteger_round_trip_witness :
    SmallInteger.value (SmallInteger.New SmallInteger.kMinValue) = SmallInteger.kMinValue ∧
    SmallInteger.value (SmallInteger.New (-1)) = -1 ∧
    SmallInteger.value (SmallInteger.New SmallInteger.kMaxValue) = SmallInteger.kMaxValue ∧
    IsSmallInteger (SmallInteger.New (-1)) :=
  ⟨(SmallInteger_round_trip.2.2.1 SmallInteger.kMinValue (by decide) (by decide)).2.2.2.2,
   (SmallInteger_round_trip.2.2.1 (-1) (by decide) (by decide)).2.2.2.2,
   (SmallInteger_round_trip.2.2.1 SmallInteger.kMaxValue (by decide) (by decide)).2.2.2.2,
   (SmallInteger_round_trip.2.2.1 (-1) (by decide) (by decide)).2.1⟩

end psoup

namespace psoup

theorem Ref_to_retarget_any {h : Heap} {r : RefPtr} {t0 : Object} (hto : Ref_to h r = some t0)
    (t v : Object) (r' : RefPtr) :
    Ref_to (h.retarget r t v) r' = if r' = r then some v else Ref_to h r' := by
  rw [← Ref_to_retarget hto r']
  cases r' with
  | slot s i =>
    simp only [Ref_to, load_retarget]
    cases h.load s with
    | none => rfl
    | some l => rfl
  | root i => rfl
  | stack i => rfl

theorem Ref_Init_eq_some {h h' : Heap} {r : RefPtr} {s v : Object} :
    Ref_Init h r s v = some h' ↔
    (∃ t, Ref_to h r = some t) ∧ (IsHeapObject v → ∃ l, h.load v = some l) ∧
      h' = h.retarget r nullptr v := by
  have hretarget : h.retarget r nullptr v =
      ((h.mapMemory (fun o l => match r with
                | .slot s i => if o = s then { l with refs := l.refs.set i v } else l
                | _ => l)).withInterpreter (h.interpreter_.retarget r v)).mapMemory
        (fun o l => if o = v ∧ IsHeapObject v then
          { l with incoming_ := l.incoming_ ++ [r] } else l) := by
    rw [mapMemory_withInterpreter, mapMemory_mapMemory]
    unfold Heap.retarget
    congr 1
    apply mapMemory_congr
    intro o l _
    unfold Layout.retarget
    have hn : ¬ (o = nullptr ∧ IsHeapObject nullptr) := fun hc => not_isHeapObject_nullptr hc.2
    rw [if_neg hn]
    cases r <;> by_cases h2 : o = v ∧ IsHeapObject v <;>
      simp only [h2, if_true, if_false] <;> (try split_ifs) <;> simp
  unfold Ref_Init
  simp only [Option.bind_eq_some, Ref_set_to_eq_some, Link_Insert_opt_eq_some]
  constructor
  · rintro ⟨h1, ⟨ht, rfl⟩, e3a, rfl⟩
    refine ⟨ht, ?_, hretarget.symm⟩
    intro hv
    have := e3a hv
    rw [load_withInterpreter] at this
    exact load_isSome_mapMemory.1 this
  · rintro ⟨ht, e3, rfl⟩
    refine ⟨_, ⟨ht, rfl⟩, ?_, hretarget⟩
    intro hv
    rw [load_withInterpreter]
    exact load_isSome_mapMemory.2 (e3 hv)

theorem filter_ne_erase (l : List RefPtr) (r : RefPtr) :
    (l.erase r).filter (fun x => decide (x ≠ r)) = l.filter (fun x => decide (x ≠ r)) := by
  induction l with
  | nil => rfl
  | cons a l ih =>
    by_cases ha : a = r
    · subst ha
      simp
    · rw [List.erase_cons_tail (by simpa using ha)]
      simp only [List.filter_cons, ih]

theorem othersOn_retarget {h : Heap} {r : RefPtr} {t v : Object}
    (hv : IsHeapObject v → ∃ l, h.load v = some l) (o : Object) :
    othersOn (h.retarget r t v) r o = othersOn h r o := by
  unfold othersOn
  rw [incomingOf_retarget o (fun hvh hov => hov ▸ hv hvh), List.filter_append]
  have h2 : (if o = v ∧ IsHeapObject v then [r] else []).filter (fun x => decide (x ≠ r)) =
      [] := by
    split_ifs <;> simp
  rw [h2, List.append_nil]
  split_ifs
  · exact filter_ne_erase _ _
  · rfl

theorem isHeapObject_of_mem_incomingOf {h : Heap} {r : RefPtr} {o : Object}
    (hr : r ∈ h.incomingOf o) : IsHeapObject o := by
  unfold Heap.incomingOf at hr
  cases hl : h.load o with
  | none => rw [hl] at hr; cases hr
  | some l => exact isHeapObject_of_load hl

/-- What the incoming-list invariant says about one Ref: it is on at most one incoming list, and
on none when its target is a small integer or null. -/
theorem Linked_one_list {S : RefPtr → Prop} {h : Heap} (hL : Linked S h) :
    (∀ r o o', r ∈ h.incomingOf o → r ∈ h.incomingOf o' → o = o') ∧
    (∀ r w, Ref_to h r = some w → ¬ IsHeapObject w → ∀ o, r ∉ h.incomingOf o) := by
  have key : ∀ r o, r ∈ h.incomingOf o → Ref_to h r = some o := fun r o hr =>
    (hL.member_iff r o (hL.initialised r o hr) (isHeapObject_of_mem_incomingOf hr)).1 hr
  constructor
  · intro r o o' h1 h2
    have e1 := key r o h1
    rw [key r o' h2] at e1
    exact (Option.some.inj e1).symm
  · intro r w hw hnw o hr
    have e1 := key r o hr
    rw [hw] at e1
    cases e1
    exact hnw (isHeapObject_of_mem_incomingOf hr)

theorem Linked_UpdateNoCheck {S : RefPtr → Prop} {h : Heap} {r : RefPtr} {t v : Object}
    (hL : Linked S h) (hS : S r) (hto : Ref_to h r = some t)
    (hv : IsHeapObject v → ∃ l, h.load v = some l) : Linked S (h.retarget r t v) := by
  have hinc := fun o => incomingOf_retarget (h := h) (r := r) (t := t) (v := v) o
    (fun hvh hov => hov ▸ hv hvh)
  have hnot : ∀ o, r ∈ (if o = t ∧ IsHeapObject t then (h.incomingOf o).erase r
      else h.incomingOf o) → False := by
    intro o hr
    split_ifs at hr with hc
    · exact (List.Nodup.mem_erase_iff (hL.once o)).1 hr |>.1 rfl
    · have ho := isHeapObject_of_mem_incomingOf hr
      have e := (hL.member_iff r o hS ho).1 hr
      rw [hto] at e
      cases e
      exact hc ⟨rfl, ho⟩
  refine ⟨?_, ?_, ?_⟩
  · intro o
    rw [hinc o]
    refine List.Nodup.append ?_ ?_ ?_
    · split_ifs
      · exact (hL.once o).erase r
      · exact hL.once o
    · split_ifs <;> simp
    · intro x hx1 hx2
      split_ifs at hx2 with hc
      · rw [List.mem_singleton] at hx2
        subst hx2
        exact hnot o hx1
      · cases hx2
  · intro r' o hr'
    rcases mem_incomingOf_retarget hv hr' with h1 | h1
    · exact hL.initialised r' o h1
    · rw [h1]; exact hS
  · intro r' o hS' ho
    rw [Ref_to_retarget hto r', hinc o]
    by_cases hrr : r' = r
    · subst hrr
      rw [if_pos rfl, List.mem_append]
      constructor
      · rintro (h1 | h1)
        · exact (hnot o h1).elim
        · split_ifs at h1 with hc
          · rw [hc.1]
          · cases h1
      · intro e
        have e' : v = o := Option.some.inj e
        subst e'
        right
        rw [if_pos ⟨rfl, ho⟩]
        exact List.mem_singleton.2 rfl
    · rw [if_neg hrr, ← hL.member_iff r' o hS' ho, List.mem_append]
      constructor
      · rintro (h1 | h1)
        · split_ifs at h1
          · exact List.mem_of_mem_erase h1
          · exact h1
        · split_ifs at h1
          · exact (hrr (List.mem_singleton.1 h1)).elim
          · cases h1
      · intro h1
        left
        split_ifs
        · exact (List.mem_erase_of_ne hrr).2 h1
        · exact h1

theorem Linked_Ref_Init {S : RefPtr → Prop} {h : Heap} {r : RefPtr} {t v : Object}
    (hL : Linked S h) (hS : ¬ S r) (hto : Ref_to h r = some t)
    (hv : IsHeapObject v → ∃ l, h.load v = some l) :
    Linked (fun x => S x ∨ x = r) (h.retarget r nullptr v) := by
  have hinc : ∀ o, (h.retarget r nullptr v).incomingOf o =
      h.incomingOf o ++ (if o = v ∧ IsHeapObject v then [r] else []) := by
    intro o
    rw [incomingOf_retarget o (fun hvh hov => hov ▸ hv hvh),
      if_neg (fun hc => not_isHeapObject_nullptr hc.2)]
  have hnot : ∀ o, r ∉ h.incomingOf o := fun o hr => hS (hL.initialised r o hr)
  refine ⟨?_, ?_, ?_⟩
  · intro o
    rw [hinc o]
    refine List.Nodup.append (hL.once o) ?_ ?_
    · split_ifs <;> simp
    · intro x hx1 hx2
      split_ifs at hx2 with hc
      · rw [List.mem_singleton] at hx2
        subst hx2
        exact hnot o hx1
      · cases hx2
  · intro r' o hr'
    rw [hinc o, List.mem_append] at hr'
    rcases hr' with h1 | h1
    · exact Or.inl (hL.initialised r' o h1)
    · split_ifs at h1
      · exact Or.inr (List.mem_singleton.1 h1)
      · cases h1
  · intro r' o hS' ho
    rw [Ref_to_retarget_any hto nullptr v r', hinc o, List.mem_append]
    by_cases hrr : r' = r
    · subst hrr
      rw [if_pos rfl]
      constructor
      · rintro (h1 | h1)
        · exact (hnot o h1).elim
        · split_ifs at h1 with hc
          · rw [hc.1]
          · cases h1
      · intro e
        have e' : v = o := Option.some.inj e
        subst e'
        right
        rw [if_pos ⟨rfl, ho⟩]
        exact List.mem_singleton.2 rfl
    · have hSr : S r' := hS'.resolve_right hrr
      rw [if_neg hrr, ← hL.member_iff r' o hSr ho]
      constructor
      · rintro (h1 | h1)
        · exact h1
        · split_ifs at h1
          · exact (hrr (List.mem_singleton.1 h1)).elim
          · cases h1
      · intro h1
        exact Or.inl h1

end psoup

namespace psoup

theorem memoryOf_mem {xs : List (Object × Layout)} {o : Object} {l : Layout}
    (hm : memoryOf xs o = some l) : o ∈ xs.map Prod.fst := by
  unfold memoryOf at hm
  rw [Option.map_eq_some'] at hm
  obtain ⟨p, hp, -⟩ := hm
  have h1 := List.find?_some hp
  have h2 := List.mem_of_find?_eq_some hp
  have h3 : p.1 = o := by simpa using h1
  rw [← h3]
  exact List.mem_map_of_mem Prod.fst h2

/-- In a heap that satisfies the data-model invariants and all of whose objects with storage
are in the object table, the incoming-list invariant holds for the Refs of the interpreter and
of the objects of the object table. -/
theorem Linked_of_WellFormed {h : Heap} (hwf : WellFormed h)
    (hall : ∀ o l, h.load o = some l → InTable h o) :
    Linked (fun r => HolderInTable h r ∧ ∃ t, Ref_to h r = some t) h := by
  obtain ⟨hT, hS, hC, -⟩ := hwf
  have key : ∀ r o, r ∈ h.incomingOf o → Ref_to h r = some o ∧ HolderInTable h r := by
    intro r o hr
    unfold Heap.incomingOf at hr
    cases hl : h.load o with
    | none => rw [hl] at hr; cases hr
    | some l =>
      rw [hl] at hr
      exact (hS o l (hall o l hl) hl).2 r hr
  refine ⟨?_, ?_, ?_⟩
  · intro o
    unfold Heap.incomingOf
    cases hl : h.load o with
    | none => exact List.nodup_nil
    | some l => exact (hS o l (hall o l hl) hl).1
  · intro r o hr
    exact ⟨(key r o hr).2, o, (key r o hr).1⟩
  · intro r o hr _
    exact ⟨fun hm => (key r o hm).1, fun hto => (hC r o hr.1 hto ‹_›).2⟩

theorem Linked_restrict {S : RefPtr → Prop} {h : Heap} (hL : Linked S h) {r0 : RefPtr}
    {w : Object} (hw : Ref_to h r0 = some w) (hnw : ¬ IsHeapObject w) :
    Linked (fun r => S r ∧ r ≠ r0) h := by
  refine ⟨hL.once, ?_, ?_⟩
  · intro r o hr
    refine ⟨hL.initialised r o hr, ?_⟩
    rintro rfl
    exact (Linked_one_list hL).2 r w hw hnw o hr
  · intro r o hr ho
    exact hL.member_iff r o hr.1 ho

/-- C13: the Ref operations keep the incoming-list invariant.  `Linked S h` says that, among
the initialised Refs `S`, a Ref is a member of the incoming list of the heap object `H` if and
only if its field `to` equals `H`, and that no Ref is twice on a list.  When it holds and the
new target `v` is a small integer, null or a heap object with storage, then for a Ref `r` with
storage: if `r` is initialised, `Ref::UpdateNoCheck` and `Ref::Update` return and the invariant
holds afterwards; if `r` is fresh, `Ref::Init` returns and the invariant holds afterwards for the
initialised Refs and `r`.  In both cases `r` has the target `v`, every Ref is on at most one
incoming list, a Ref whose target is a small integer or null is on no incoming list, and on
every incoming list the Refs other than `r` are the same, in the same order, as before. -/
theorem Ref_operations_keep_incoming (S : RefPtr → Prop) (h : Heap) (r : RefPtr) (t v : Object)
    (hL : Linked S h) (hto : Ref_to h r = some t)
    (hv : IsHeapObject v → ∃ l, h.load v = some l) :
    (S r → ∃ h', UpdateNoCheck h r v = some h' ∧ Update h r (Ref_from r) v = some h' ∧
      Linked S h' ∧ Ref_to h' r = some v ∧
      (∀ r' o o', r' ∈ h'.incomingOf o → r' ∈ h'.incomingOf o' → o = o') ∧
      (∀ r' w, Ref_to h' r' = some w → ¬ IsHeapObject w → ∀ o, r' ∉ h'.incomingOf o) ∧
      (∀ o, othersOn h' r o = othersOn h r o)) ∧
    (¬ S r → ∃ h', Ref_Init h r (Ref_from r) v = some h' ∧
      Linked (fun x => S x ∨ x = r) h' ∧ Ref_to h' r = some v ∧
      (∀ r' o o', r' ∈ h'.incomingOf o → r' ∈ h'.incomingOf o' → o = o') ∧
      (∀ r' w, Ref_to h' r' = some w → ¬ IsHeapObject w → ∀ o, r' ∉ h'.incomingOf o) ∧
      (∀ o, othersOn h' r o = othersOn h r o)) := by
  constructor
  · intro hS
    have ht : IsHeapObject t → ∃ l, h.load t = some l := by
      intro htH
      have hm := (hL.member_iff r t hS htH).2 hto
      unfold Heap.incomingOf at hm
      cases hl : h.load t with
      | none => rw [hl] at hm; cases hm
      | some l => exact ⟨l, rfl⟩
    have hu := UpdateNoCheck_total hto ht hv
    have hL' := Linked_UpdateNoCheck hL hS hto hv
    refine ⟨_, hu, hu, hL', ?_, (Linked_one_list hL').1, (Linked_one_list hL').2,
      othersOn_retarget hv⟩
    rw [Ref_to_retarget hto r, if_pos rfl]
  · intro hS
    have hu : Ref_Init h r (Ref_from r) v = some (h.retarget r nullptr v) :=
      Ref_Init_eq_some.2 ⟨⟨t, hto⟩, hv, rfl⟩
    have hL' := Linked_Ref_Init hL hS hto hv
    refine ⟨_, hu, hL', ?_, (Linked_one_list hL').1, (Linked_one_list hL').2,
      othersOn_retarget hv⟩
    rw [Ref_to_retarget_any hto nullptr v r, if_pos rfl]

theorem classHeap_stored : ∀ o l, classHeap.load o = some l → InTable classHeap o := by
  intro o l hl
  have hm : o ∈ [1, 3, 5, 7, 9, 11, 13, 15, 17] := memoryOf_mem (memory_of_load hl)
  have hall : ∀ x ∈ [1, 3, 5, 7, 9, 11, 13, 15, 17], inTable classHeap x = true := by decide
  exact (inTable_iff _ _).1 (hall o hm)

/-- Witness of C13: in `classHeap` the initialised Ref that is the element of the array `[C1]`
at 13 is updated to the class `C2` at 9, and the element of the array at 17, which holds a small
integer and counts as fresh, is initialised to the class `C1` at 7. -/
theorem Ref_operations_keep_incoming_witness :
    (∃ h', UpdateNoCheck classHeap (.slot 13 0) 9 = some h' ∧
      Ref_to h' (.slot 13 0) = some 9 ∧
      ∀ o, othersOn h' (.slot 13 0) o = othersOn classHeap (.slot 13 0) o) ∧
    (∃ h', Ref_Init classHeap (.slot 17 0) 17 7 = some h' ∧
      Ref_to h' (.slot 17 0) = some 7 ∧
      ∀ o, othersOn h' (.slot 17 0) o = othersOn classHeap (.slot 17 0) o) := by
  have hL := Linked_restrict (Linked_of_WellFormed (WellFormed_of_check
    (show checkWellFormed classHeap = true by decide)) classHeap_stored)
    (show Ref_to classHeap (.slot 17 0) = some (SmallInteger.New 21) by rfl) (by decide)
  constructor
  · obtain ⟨h', e1, -, -, e2, -, -, e3⟩ :=
      (Ref_operations_keep_incoming _ classHeap (.slot 13 0) 7 9 hL (by rfl)
        (fun _ => ⟨_, (by rfl : classHeap.load 9 = some _)⟩)).1
        ⟨⟨⟨7, by decide, by decide, rfl⟩, 7, by rfl⟩, by decide⟩
    exact ⟨h', e1, e2, e3⟩
  · obtain ⟨h', e1, -, e2, -, -, e3⟩ :=
      (Ref_operations_keep_incoming _ classHeap (.slot 17 0) (SmallInteger.New 21) 7 hL (by rfl)
        (fun _ => ⟨_, (by rfl : classHeap.load 7 = some _)⟩)).2 (fun hc => hc.2 rfl)
    exact ⟨h', e1, e2, e3⟩

end psoup

namespace psoup

/-- Counterexample to C14: in `becomeHeap`, which satisfies the data-model invariants, the
incoming list of the object at 7 is the element of the array at 11 followed by the element of the
array at 13.  The element of the array at 11 has the object at 7 as its target; after
`Ref::UpdateNoCheck` (and after `Ref::Update`) of it with the object at 7 again, the incoming
list of the object at 7 holds the same two Refs in the other order. -/
theorem UpdateNoCheck_same_target_counterexample :
    checkWellFormed becomeHeap = true ∧
    Ref_to becomeHeap (.slot 11 0) = some 7 ∧ IsHeapObject 7 ∧
    becomeHeap.incomingOf 7 = [.slot 11 0, .slot 13 0] ∧
    (UpdateNoCheck becomeHeap (.slot 11 0) 7).map (fun g => g.incomingOf 7) =
      some [.slot 13 0, .slot 11 0] ∧
    (Update becomeHeap (.slot 11 0) 11 7).map (fun g => g.incomingOf 7) =
      some [.slot 13 0, .slot 11 0] ∧
    becomeHeapReset.incomingOf 7 ≠ becomeHeap.incomingOf 7 :=
  ⟨by decide, by rfl, by decide, by rfl, by rfl, by rfl, by decide⟩

/-- C14 as amended: setting a Ref to its current value moves it to the tail of the incoming
list.  For every Ref `r` whose target is the heap object `H` and which is on the incoming list
of `H`, `Ref::UpdateNoCheck` and `Ref::Update` with `H` again return; afterwards every Ref has
the target it had, the incoming list of every other object is unchanged, and the incoming list
of `H` is the old list without `r` followed by `r`: it has the same Refs, the Refs other than
`r` are in the same order, and `r` is the last one. -/
theorem UpdateNoCheck_same_target (h : Heap) (r : RefPtr) (H : Object)
    (hto : Ref_to h r = some H) (hH : IsHeapObject H) (hm : r ∈ h.incomingOf H) :
    ∃ h', UpdateNoCheck h r H = some h' ∧ Update h r (Ref_from r) H = some h' ∧
      (∀ r', Ref_to h' r' = Ref_to h r') ∧
      (∀ o, o ≠ H → h'.incomingOf o = h.incomingOf o) ∧
      h'.incomingOf H = (h.incomingOf H).erase r ++ [r] ∧
      (h'.incomingOf H).Perm (h.incomingOf H) ∧
      othersOn h' r H = othersOn h r H := by
  have hs : ∃ l, h.load H = some l := by
    unfold Heap.incomingOf at hm
    cases hl : h.load H with
    | none => rw [hl] at hm; cases hm
    | some l => exact ⟨l, rfl⟩
  have hu := UpdateNoCheck_total hto (fun _ => hs) (fun _ => hs)
  have hinc := fun o => incomingOf_retarget (h := h) (r := r) (t := H) (v := H) o
    (fun _ hov => hov ▸ hs)
  have hlist : (h.retarget r H H).incomingOf H = (h.incomingOf H).erase r ++ [r] := by
    rw [hinc H, if_pos ⟨rfl, hH⟩, if_pos ⟨rfl, hH⟩]
  refine ⟨_, hu, hu, ?_, ?_, hlist, ?_, othersOn_retarget (fun _ => hs) H⟩
  · intro r'
    rw [Ref_to_retarget hto r']
    split_ifs with hc
    · rw [hc, hto]
    · rfl
  · intro o ho
    rw [hinc o, if_neg (fun hc => ho hc.1), if_neg (fun hc => ho hc.1), List.append_nil]
  · rw [hlist]
    exact (List.perm_append_singleton r _).trans (List.perm_cons_erase hm).symm

/-- Witness of C14 as amended: the element of the array at 11 of `becomeHeap`, set again to the
object at 7. -/
theorem UpdateNoCheck_same_target_witness :
    ∃ h', UpdateNoCheck becomeHeap (.slot 11 0) 7 = some h' ∧
      Update becomeHeap (.slot 11 0) (Ref_from (.slot 11 0)) 7 = some h' ∧
      (∀ r', Ref_to h' r' = Ref_to becomeHeap r') ∧
      (∀ o, o ≠ 7 → h'.incomingOf o = becomeHeap.incomingOf o) ∧
      h'.incomingOf 7 = (becomeHeap.incomingOf 7).erase (.slot 11 0) ++ [.slot 11 0] ∧
      (h'.incomingOf 7).Perm (becomeHeap.incomingOf 7) ∧
      othersOn h' (.slot 11 0) 7 = othersOn becomeHeap (.slot 11 0) 7 :=
  UpdateNoCheck_same_target becomeHeap (.slot 11 0) 7 (by rfl) (by decide) (by decide)

end psoup

namespace psoup

theorem FreeChain_congr {h g : Heap} (hc : g.class_table_ = h.class_table_) :
    ∀ (ids : List Nat) (head : Int), FreeChain h head ids → FreeChain g head ids := by
  intro ids
  induction ids with
  | nil => intro head hh; exact hh
  | cons i rest ih =>
    intro head hh
    obtain ⟨e1, e2, e3⟩ := hh
    refine ⟨e1, ?_, ?_⟩
    · rw [hc]; exact e2
    · rw [hc]; exact ih _ e3

/-- The branch that `Heap::AllocateClassId` takes, by the free list. -/
theorem AllocateClassId_eq {h : Heap} {ids : List Nat} (hF : FreeList h ids) :
    (ids = [] ∧ h.class_table_free_ = 0 ∧
      AllocateClassId h = some (AllocateClassId.extend
        (if h.class_table_size_ = h.class_table_capacity_ then AllocateClassId.grow h else h))) ∨
    (∃ i rest, ids = i :: rest ∧ h.class_table_free_ = (i : Int) ∧
      h.class_table_free_ ≠ 0 ∧ IsSmallInteger (h.class_table_ i) ∧
      AllocateClassId h = some ((i : Int),
        { h with class_table_free_ := SmallInteger.value (h.class_table_ i) })) := by
  cases ids with
  | nil =>
    left
    have h0 : h.class_table_free_ = 0 := hF.chain
    refine ⟨rfl, h0, ?_⟩
    unfold AllocateClassId CollectAll
    rw [if_neg (not_not.2 h0)]
    by_cases hc : h.class_table_size_ = h.class_table_capacity_
    · rw [if_pos (by rw [hc]), if_pos hc]
      simp only [if_neg (not_not.2 h0)]
    · rw [if_neg (by intro hcc; exact hc (by exact_mod_cast hcc)), if_neg hc]
  | cons i rest =>
    right
    obtain ⟨e1, e2, -⟩ := hF.chain
    have hi := (hF.range i (List.mem_cons_self i rest)).1
    have hne : h.class_table_free_ ≠ 0 := by
      rw [e1]
      unfold kFirstRegularObjectCid at hi
      omega
    refine ⟨i, rest, rfl, e1, hne, e2, ?_⟩
    unfold AllocateClassId
    rw [if_pos hne]
    unfold AllocateClassId.pop class_table_at
    simp only [e1, Int.natCast_nonneg, if_true, Option.map_some', Int.toNat_ofNat]

theorem FreeList_extend {h : Heap} (hF : FreeList h []) :
    FreeList (AllocateClassId.extend
      (if h.class_table_size_ = h.class_table_capacity_ then AllocateClassId.grow h else h)).2
      [] := by
  have hs := hF.size
  have hcap := hF.capacity
  unfold kFirstRegularObjectCid at hs
  by_cases hc : h.class_table_size_ = h.class_table_capacity_
  · rw [if_pos hc]
    refine ⟨hF.chain, List.nodup_nil, (fun i hi => by cases hi), ?_, ?_, ?_⟩
    · show kFirstRegularObjectCid ≤ h.class_table_size_ + 1
      unfold kFirstRegularObjectCid; omega
    · show h.class_table_size_ + 1 ≤
        h.class_table_capacity_ + (h.class_table_capacity_ >>> 1)
      rw [Nat.shiftRight_eq_div_pow]
      omega
    · intro i hi
      show (if i < h.class_table_size_ then h.class_table_ i else nullptr) = nullptr
      have hi' : h.class_table_size_ + 1 ≤ i := hi
      rw [if_neg (by omega)]
  · rw [if_neg hc]
    refine ⟨hF.chain, List.nodup_nil, (fun i hi => by cases hi), ?_, ?_, ?_⟩
    · show kFirstRegularObjectCid ≤ h.class_table_size_ + 1
      unfold kFirstRegularObjectCid; omega
    · show h.class_table_size_ + 1 ≤ h.class_table_capacity_
      omega
    · intro i hi
      have hi' : h.class_table_size_ + 1 ≤ i := hi
      exact hF.unused i (by omega)

theorem FreeList_pop {h : Heap} {i : Nat} {rest : List Nat} (hF : FreeList h (i :: rest)) :
    FreeList { h with class_table_free_ := SmallInteger.value (h.class_table_ i) } rest := by
  obtain ⟨-, -, e3⟩ := hF.chain
  have hch : FreeChain { h with class_table_free_ := SmallInteger.value (h.class_table_ i) }
      (SmallInteger.value (h.class_table_ i)) rest :=
    FreeChain_congr (h := h)
      (g := { h with class_table_free_ := SmallInteger.value (h.class_table_ i) }) rfl _ _ e3
  refine ⟨hch, (List.nodup_cons.1 hF.nodup).2,
    fun j hj => hF.range j (List.mem_cons_of_mem _ hj), hF.size, hF.capacity, hF.unused⟩

/-- A class id that is below `class_table_size_` and not on the free list is not returned by
`Heap::AllocateClassId`. -/
theorem AllocateClassId_ne {g : Heap} {ids : List Nat} (hF : FreeList g ids) {cid : Int}
    (hc : cid.toNat ∉ ids) (hlt : cid < (g.class_table_size_ : Int)) :
    ∃ cid2 g2, AllocateClassId g = some (cid2, g2) ∧ cid2 ≠ cid := by
  rcases AllocateClassId_eq hF with ⟨-, -, e⟩ | ⟨i, rest, rfl, -, -, -, e⟩
  · refine ⟨_, _, e, ?_⟩
    by_cases hcap : g.class_table_size_ = g.class_table_capacity_
    · rw [if_pos hcap]
      show ((g.class_table_size_ : Nat) : Int) ≠ cid
      omega
    · rw [if_neg hcap]
      show ((g.class_table_size_ : Nat) : Int) ≠ cid
      omega
  · refine ⟨_, _, e, ?_⟩
    intro hc'
    apply hc
    rw [← hc']
    simp

end psoup

namespace psoup

theorem AllocateClassId_some {h : Heap} {ids : List Nat} (hF : FreeList h ids) :
    ∃ (cid : Int) (h1 : Heap), AllocateClassId h = some (cid, h1) ∧
      (kFirstRegularObjectCid : Int) ≤ cid ∧ cid ≤ (h.class_table_size_ : Int) ∧
      h1.memory = h.memory ∧ h1.interpreter_ = h.interpreter_ ∧
      (∀ j, j < h.class_table_size_ → h1.class_table_ j = h.class_table_ j) := by
  have hs := hF.size
  rcases AllocateClassId_eq hF with ⟨rfl, -, e⟩ | ⟨i, rest, rfl, -, -, -, e⟩
  · by_cases hc : h.class_table_size_ = h.class_table_capacity_
    · rw [if_pos hc] at e
      refine ⟨_, _, e, ?_, le_refl _, rfl, rfl, ?_⟩
      · show (kFirstRegularObjectCid : Int) ≤ (h.class_table_size_ : Int)
        exact_mod_cast hs
      · intro j hj
        show (if j < h.class_table_size_ then h.class_table_ j else nullptr) = h.class_table_ j
        rw [if_pos hj]
    · rw [if_neg hc] at e
      refine ⟨_, _, e, ?_, le_refl _, rfl, rfl, fun j _ => rfl⟩
      show (kFirstRegularObjectCid : Int) ≤ (h.class_table_size_ : Int)
      exact_mod_cast hs
  · have hr := hF.range i (List.mem_cons_self i rest)
    refine ⟨_, _, e, ?_, ?_, rfl, rfl, fun j _ => rfl⟩
    · exact_mod_cast hr.1
    · exact_mod_cast hr.2.le

/-- `Heap::RegisterClass` of an object with storage and a class id slot. -/
theorem RegisterClass_spec {h : Heap} {cid : Int} {cls t : Object} {l : Layout}
    (h0 : 0 ≤ cid) (hl : h.load cls = some l) (ht : l.refs[Behavior.classid_index]? = some t)
    (hts : IsHeapObject t → ∃ lt, h.load t = some lt) :
    ∃ h2, RegisterClass h cid cls = some h2 ∧
      Behavior.id h2 cls = some (SmallInteger.New cid) ∧
      h2.class_table_ = Function.update h.class_table_ cid.toNat cls ∧
      (h2.load cls).map (fun l' => l'.in_class_table) = some true := by
  let ha : Heap := { h with class_table_ := Function.update h.class_table_ cid.toNat cls }
  have hto : Ref_to ha (.slot cls Behavior.classid_index) = some t := by
    show (h.load cls).bind (fun l => l.refs[Behavior.classid_index]?) = some t
    rw [hl]; exact ht
  have hsmi : IsSmallInteger (SmallInteger.New cid) :=
    (isSmallInteger_iff _).2 (SmallInteger_New_even cid)
  have hu : UpdateNoCheck ha (.slot cls Behavior.classid_index) (SmallInteger.New cid) =
      some (ha.retarget (.slot cls Behavior.classid_index) t (SmallInteger.New cid)) :=
    UpdateNoCheck_total hto hts (fun hc => ((not_isHeapObject_iff _).2 hsmi hc).elim)
  have hload : (ha.retarget (.slot cls Behavior.classid_index) t (SmallInteger.New cid)).load cls
      = some (Layout.retarget (.slot cls Behavior.classid_index) t (SmallInteger.New cid) cls l) := by
    rw [load_retarget]
    show (h.load cls).map _ = _
    rw [hl]; rfl
  have hcls : IsHeapObject cls := isHeapObject_of_load hl
  refine ⟨(ha.retarget (.slot cls Behavior.classid_index) t (SmallInteger.New cid)).store cls
    { Layout.retarget (.slot cls Behavior.classid_index) t (SmallInteger.New cid) cls l with
      in_class_table := true }, ?_, ?_, ?_, ?_⟩
  · unfold RegisterClass class_table_put
    rw [if_pos h0]
    show (Behavior.set_id ha cls (SmallInteger.New cid)).bind _ = _
    unfold Behavior.set_id Update
    rw [hu]
    show set_in_class_table _ cls true = _
    unfold set_in_class_table Heap.modify
    rw [hload]
    rfl
  · show (Heap.load (Heap.store _ cls _) cls).bind (fun l => l.refs[Behavior.classid_index]?) = _
    rw [load_store_same hcls]
    show (Layout.retarget (.slot cls Behavior.classid_index) t (SmallInteger.New cid) cls
      l).refs[Behavior.classid_index]? = _
    rw [Layout_retarget_refs_getElem?, if_pos]
    refine ⟨rfl, ?_⟩
    by_contra hc
    rw [List.getElem?_eq_none (by omega)] at ht
    cases ht
  · rfl
  · rw [load_store_same hcls]
    rfl

/-- C15: the class registry round trip.  On a class table in order whose size is below `2^62`,
for every object `cls` with storage and a class id slot (whose target, when it is a heap
object, has storage), `cid = AllocateClassId(); RegisterClass(cid, cls)` returns, and
afterwards `cls.id().value()` is `cid`, `ClassAt(cid)` is `cls`, the in-class-table bit of `cls`
is set, and `ClassAt(j)` is what it was for every other id `j` below the old
`class_table_size_`. -/
theorem RegisterClass_round_trip (h : Heap) (ids : List Nat) (cls t : Object) (l : Layout)
    (hF : FreeList h ids) (hsz : h.class_table_size_ < 2 ^ 62) (hl : h.load cls = some l)
    (ht : l.refs[Behavior.classid_index]? = some t)
    (hts : IsHeapObject t → ∃ lt, h.load t = some lt) :
    ∃ (cid : Int) (h1 h2 : Heap), AllocateClassId h = some (cid, h1) ∧
      RegisterClass h1 cid cls = some h2 ∧
      (Behavior.id h2 cls).map SmallInteger.value = some cid ∧
      ClassAt h2 cid = some cls ∧
      (h2.load cls).map (fun l' => l'.in_class_table) = some true ∧
      ∀ j : Int, 0 ≤ j → j < (h.class_table_size_ : Int) → j ≠ cid →
        ClassAt h2 j = ClassAt h j := by
  obtain ⟨cid, h1, e1, hge, hle, hmem, -, hkeep⟩ := AllocateClassId_some hF
  have h0 : 0 ≤ cid := le_trans (Int.natCast_nonneg _) hge
  have hl1 : h1.load cls = some l := by
    unfold Heap.load at hl ⊢
    rw [hmem]; exact hl
  have hts1 : IsHeapObject t → ∃ lt, h1.load t = some lt := by
    intro hc
    obtain ⟨lt, hlt⟩ := hts hc
    refine ⟨lt, ?_⟩
    unfold Heap.load at hlt ⊢
    rw [hmem]; exact hlt
  obtain ⟨h2, e2, hid, hct, hbit⟩ := RegisterClass_spec h0 hl1 ht hts1
  refine ⟨cid, h1, h2, e1, e2, ?_, ?_, hbit, ?_⟩
  · rw [hid, Option.map_some', SmallInteger_value_New cid (by omega) (by omega)]
  · unfold ClassAt class_table_at
    rw [if_pos h0, hct, Function.update_same]
  · intro j hj0 hjlt hjne
    unfold ClassAt class_table_at
    rw [if_pos hj0, if_pos hj0, hct, Function.update_noteq, hkeep]
    · omega
    · intro hc
      apply hjne
      omega

theorem classHeapUnregistered_FreeList : FreeList classHeapUnregistered [] := by
  refine ⟨rfl, by decide, by decide, by decide, by decide, ?_⟩
  intro i hi
  have hi' : 24 ≤ i := hi
  show (if i = 14 then 7 else 0) = nullptr
  rw [if_neg (by omega)]
  rfl

/-- Witness of C15: in `classHeapUnregistered` the class `C2` at 9, whose class id slot holds
nil, is registered under a newly allocated class id. -/
theorem RegisterClass_round_trip_witness :
    ∃ (cid : Int) (h1 h2 : Heap), AllocateClassId classHeapUnregistered = some (cid, h1) ∧
      RegisterClass h1 cid 9 = some h2 ∧
      (Behavior.id h2 9).map SmallInteger.value = some cid ∧
      ClassAt h2 cid = some 9 ∧
      (h2.load 9).map (fun l' => l'.in_class_table) = some true ∧
      ∀ j : Int, 0 ≤ j → j < (classHeapUnregistered.class_table_size_ : Int) → j ≠ cid →
        ClassAt h2 j = ClassAt classHeapUnregistered j :=
  RegisterClass_round_trip classHeapUnregistered [] 9 1
    (Layout.sampleClass 5 88 [.slot 15 0] 1 false) classHeapUnregistered_FreeList (by decide)
    (by rfl) (by rfl) (fun _ => ⟨_, (by rfl : classHeapUnregistered.load 1 = some _)⟩)

end psoup

namespace psoup

theorem Kept_refl {P : Layout → Layout → Prop} (hP : Respects P) (X : Object → Prop) (h : Heap) : Kept X P h h :=
  fun _ l _ hl => ⟨l, hl, hP.refl l⟩

theorem Kept_trans {X : Object → Prop} {P : Layout → Layout → Prop} (hP : Respects P) {h1 h2 h3 : Heap} (a : Kept X P h1 h2)
    (b : Kept X P h2 h3) : Kept X P h1 h3 := by
  intro o l3 hx hl3
  obtain ⟨l2, hl2, p2⟩ := b o l3 hx hl3
  obtain ⟨l1, hl1, p1⟩ := a o l2 hx hl2
  exact ⟨l1, hl1, hP.trans _ _ _ p1 p2⟩

theorem Kept_mono {X : Object → Prop} {P : Layout → Layout → Prop} {X' : Object → Prop} (hX : ∀ o, X o → X' o) {h h' : Heap}
    (a : Kept X P h h') : Kept X' P h h' :=
  fun o l' hx hl' => a o l' (fun hc => hx (hX o hc)) hl'

theorem Kept_of_load {X : Object → Prop} {P : Layout → Layout → Prop} (hP : Respects P) {h h' : Heap} (hl : ∀ o, h'.load o = h.load o) :
    Kept X P h h' :=
  fun o l' _ hl' => ⟨l', (hl o) ▸ hl', hP.refl l'⟩

theorem modify_heap_size {h h' : Heap} {x : Object} {f : Layout → Layout}
    (hm : h.modify x f = some h') : h'.heap_size_ = h.heap_size_ := by
  obtain ⟨-, rfl⟩ := modify_eq_mapMemory.1 hm
  rfl

theorem Kept_modify {X : Object → Prop} {P : Layout → Layout → Prop} (hP : Respects P) {h h' : Heap} {z : Object} {f : Layout → Layout}
    (hm : h.modify z f = some h') (hf : X z ∨ ∀ l, P l (f l)) : Kept X P h h' := by
  obtain ⟨-, hload, -⟩ := modify_spec hm
  intro o l' hx hl'
  rw [hload] at hl'
  by_cases hoz : o = z
  · rw [if_pos hoz] at hl'
    obtain ⟨l, hl, rfl⟩ := Option.map_eq_some'.1 hl'
    rcases hf with hf | hf
    · exact (hx (hoz ▸ hf)).elim
    · exact ⟨l, hl, hf l⟩
  · rw [if_neg hoz] at hl'
    exact ⟨l', hl', hP.refl l'⟩

theorem Kept_UpdateNoCheck {X : Object → Prop} {P : Layout → Layout → Prop} (hP : Respects P) {h h' : Heap} {r : RefPtr} {v : Object}
    (hu : UpdateNoCheck h r v = some h') : Kept X P h h' := by
  obtain ⟨t, -, -, -, rfl⟩ := UpdateNoCheck_eq_some.1 hu
  intro o l' _ hl'
  rw [load_retarget] at hl'
  obtain ⟨l, hl, rfl⟩ := Option.map_eq_some'.1 hl'
  exact ⟨l, hl, hP.retarget r t v o l⟩

theorem Kept_set_table_index {X : Object → Prop} {P : Layout → Layout → Prop} (hP : Respects P) (hI : RespectsIndex P) {h h' : Heap}
    {x : Object} {v : Nat} (hs : set_table_index h x v = some h') : Kept X P h h' :=
  Kept_modify hP hs (Or.inr fun l => hI v l)

theorem Kept_MarkFrame {X : Object → Prop} {P : Layout → Layout → Prop} (hM : RespectsMarks P) {h h' : Heap} (hf : MarkFrame h h') :
    Kept X P h h' := by
  intro o l' _ hl'
  obtain ⟨l, hl, hs⟩ := (MarkFrame_load hf o).2 l' hl'
  exact ⟨l, hl, hM l l' hs⟩

theorem Passed_refl {P : Layout → Layout → Prop} (hP : Respects P) (h : Heap) : Passed P h h :=
  ⟨⟨rfl, rfl⟩, rfl, fun _ l hl => ⟨l, hl, hP.refl l⟩, fun _ l hl => ⟨l, hl⟩⟩

theorem Passed_trans {P : Layout → Layout → Prop} (hP : Respects P) {h1 h2 h3 : Heap} (a : Passed P h1 h2)
    (b : Passed P h2 h3) : Passed P h1 h3 := by
  refine ⟨⟨b.table.1.trans a.table.1, b.table.2.trans a.table.2⟩,
    b.heap_size.trans a.heap_size, ?_, ?_⟩
  · intro o l3 hl3
    obtain ⟨l2, hl2, p2⟩ := b.back o l3 hl3
    obtain ⟨l1, hl1, p1⟩ := a.back o l2 hl2
    exact ⟨l1, hl1, hP.trans _ _ _ p1 p2⟩
  · intro o l1 hl1
    obtain ⟨l2, hl2⟩ := a.forth o l1 hl1
    exact b.forth o l2 hl2

theorem Passed_of_load {P : Layout → Layout → Prop} (hP : Respects P) {h h' : Heap} (hl : ∀ o, h'.load o = h.load o)
    (e1 : h'.table_ = h.table_) (e2 : h'.table_size_ = h.table_size_)
    (e3 : h'.heap_size_ = h.heap_size_) : Passed P h h' :=
  ⟨⟨e1, e2⟩, e3, fun o l' hl' => ⟨l', (hl o) ▸ hl', hP.refl l'⟩,
    fun o l hl0 => ⟨l, (hl o).trans hl0⟩⟩

theorem Passed_modify {P : Layout → Layout → Prop} (hP : Respects P) {h h' : Heap} {z : Object} {f : Layout → Layout}
    (hm : h.modify z f = some h') (hf : ∀ l, P l (f l)) : Passed P h h' := by
  obtain ⟨-, hload, e1, e2, -⟩ := modify_spec hm
  refine ⟨⟨e1, e2⟩, modify_heap_size hm, ?_, ?_⟩
  · intro o l' hl'
    exact Kept_modify (X := fun _ => False) hP hm (Or.inr hf) o l' (fun hc => hc) hl'
  · intro o l hl
    rw [hload, hl]
    split_ifs
    · exact ⟨_, rfl⟩
    · exact ⟨_, rfl⟩

theorem Passed_UpdateNoCheck {P : Layout → Layout → Prop} (hP : Respects P) {h h' : Heap} {r : RefPtr} {v : Object}
    (hu : UpdateNoCheck h r v = some h') : Passed P h h' := by
  have hk := Kept_UpdateNoCheck (X := fun _ => False) hP hu
  obtain ⟨t, -, -, -, rfl⟩ := UpdateNoCheck_eq_some.1 hu
  refine ⟨⟨rfl, rfl⟩, rfl, fun o l' hl' => hk o l' (fun hc => hc) hl', ?_⟩
  intro o l hl
  exact ⟨_, by rw [load_retarget, hl]; rfl⟩

theorem Passed_Kept {P : Layout → Layout → Prop} {h h' : Heap} (a : Passed P h h') (X : Object → Prop) : Kept X P h h' :=
  fun o l' _ hl' => a.back o l' hl'

end psoup

namespace psoup

theorem UpdateNoCheck_heap_size {h h' : Heap} {r : RefPtr} {v : Object}
    (hu : UpdateNoCheck h r v = some h') : h'.heap_size_ = h.heap_size_ := by
  obtain ⟨t, -, -, -, rfl⟩ := UpdateNoCheck_eq_some.1 hu
  rfl

theorem Unlink_weak_Kept {X : Object → Prop} {P : Layout → Layout → Prop} (hP : Respects P) :
    ∀ (fuel : Nat) (h h' : Heap) (obj : Object) (ref : Option RefPtr),
      Unlink.weak fuel h obj ref = some h' →
      Kept X P h h' ∧ h'.heap_size_ = h.heap_size_ ∧ SameTable h h' := by
  intro fuel
  induction fuel with
  | zero =>
    intro h h' obj ref he
    cases ref with
    | none =>
      simp only [Unlink.weak, Option.some.injEq] at he; subst he
      exact ⟨Kept_refl hP X h, rfl, SameTable_refl h⟩
    | some r => simp [Unlink.weak] at he
  | succ n ih =>
    intro h h' obj ref he
    cases ref with
    | none =>
      simp only [Unlink.weak, Option.some.injEq] at he; subst he
      exact ⟨Kept_refl hP X h, rfl, SameTable_refl h⟩
    | some r =>
      simp only [Unlink.weak, Option.bind_eq_some] at he
      obtain ⟨o, -, _, -, h1, hu, hrest⟩ := he
      obtain ⟨a, b, c⟩ := ih _ _ _ _ hrest
      exact ⟨Kept_trans hP (Kept_UpdateNoCheck hP hu) a, b.trans (UpdateNoCheck_heap_size hu),
        SameTable_trans (SameTable_retarget hu) c⟩

theorem Unlink_outgoing_Kept {X : Object → Prop} {P : Layout → Layout → Prop}
    (hP : Respects P) (obj : Object) :
    ∀ (is : List Nat) (h h' : Heap), Unlink.outgoing h obj is = some h' →
      Kept X P h h' ∧ h'.heap_size_ = h.heap_size_ ∧ SameTable h h' := by
  intro is
  induction is with
  | nil =>
    intro h h' he
    simp only [Unlink.outgoing, Option.some.injEq] at he; subst he
    exact ⟨Kept_refl hP X h, rfl, SameTable_refl h⟩
  | cons i rest ih =>
    intro h h' he
    simp only [Unlink.outgoing, Option.bind_eq_some] at he
    obtain ⟨t, -, h1, hu, hrest⟩ := he
    obtain ⟨a, b, c⟩ := ih _ _ hrest
    split_ifs at hu
    · cases hu; exact ⟨a, b, c⟩
    · exact ⟨Kept_trans hP (Kept_UpdateNoCheck hP hu) a, b.trans (UpdateNoCheck_heap_size hu),
        SameTable_trans (SameTable_retarget hu) c⟩

/-- The object table after the end of `Heap::Unlink`: the entry of `obj` holds the former last
entry. -/
theorem Unlink_table_Kept {X : Object → Prop} {P : Layout → Layout → Prop} (hP : Respects P)
    (hI : RespectsIndex P) {h h' : Heap} {obj : Object} {lo : Layout}
    (hlo : h.load obj = some lo) (he : Unlink.table h obj = some h') :
    Kept X P h h' ∧ h'.heap_size_ = h.heap_size_ ∧
    h'.table_ = Function.update (Function.update h.table_ (h.table_size_ - 1) obj)
      lo.table_index (h.table_ (h.table_size_ - 1)) := by
  unfold Unlink.table at he
  rw [hlo] at he
  simp only [Option.some_bind] at he
  split_ifs at he
  simp only [Option.bind_eq_some, Option.some.injEq] at he
  obtain ⟨h1, e1, h3, e3, rfl⟩ := he
  have s1 : Kept X P h h1 := Kept_set_table_index hP hI e1
  have s3 : Kept X P _ h3 := Kept_set_table_index hP hI e3
  obtain ⟨-, -, t1, -⟩ := modify_spec e1
  obtain ⟨-, -, t3, -⟩ := modify_spec e3
  refine ⟨?_, ?_, ?_⟩
  · intro x l' hx hl'
    obtain ⟨l1, hl1, p1⟩ := s3 x l' hx hl'
    obtain ⟨l, hl, p⟩ := s1 x l1 hx hl1
    exact ⟨l, hl, hP.trans _ _ _ p p1⟩
  · have z3 := modify_heap_size (show Heap.modify _ _ _ = some h3 from e3)
    have z1 : h1.heap_size_ = h.heap_size_ := modify_heap_size e1
    exact z3.trans z1
  · show Function.update h3.table_ lo.table_index (h.table_ (h.table_size_ - 1)) = _
    rw [t3]
    show Function.update (Function.update h1.table_ (h.table_size_ - 1) obj) _ _ = _
    rw [t1]

theorem Unlink_Kept {X : Object → Prop} {P : Layout → Layout → Prop} (hP : Respects P)
    (hI : RespectsIndex P) {h h' : Heap} {obj : Object} (he : Unlink h obj = some h') :
    Kept X P h h' ∧ h'.heap_size_ = h.heap_size_ := by
  unfold Unlink at he
  simp only [Option.bind_eq_some] at he
  obtain ⟨o, -, h1, e1, o1, -, h2, e2, e3⟩ := he
  have s1 : Kept X P h h1 ∧ h1.heap_size_ = h.heap_size_ := by
    split_ifs at e1
    · obtain ⟨a, b, -⟩ := Unlink_weak_Kept (X := X) hP _ _ _ _ _ e1
      exact ⟨a, b⟩
    · cases e1; exact ⟨Kept_refl hP X h, rfl⟩
  obtain ⟨a2, b2, -⟩ := Unlink_outgoing_Kept (X := X) hP obj _ _ _ e2
  have hl2 : ∃ l2, h2.load obj = some l2 := by
    unfold Unlink.table at e3
    simp only [Option.bind_eq_some] at e3
    obtain ⟨l2, hl2, -⟩ := e3
    exact ⟨l2, hl2⟩
  obtain ⟨l2, hl2⟩ := hl2
  obtain ⟨a3, b3, -⟩ := Unlink_table_Kept (X := X) hP hI hl2 e3
  exact ⟨Kept_trans hP s1.1 (Kept_trans hP a2 a3), b3.trans (b2.trans s1.2)⟩

/-- What `Heap::Unlink` does to the object table. -/
theorem Unlink_table_effect {h h' : Heap} {x : Object} {lx : Layout} (hT : TableInv h)
    (hx : InTable h x) (hlx : h.load x = some lx) (he : Unlink h x = some h') :
    TableInv h' ∧ h'.table_size_ + 1 = h.table_size_ ∧
    (∀ o, InTable h' o ↔ (InTable h o ∧ o ≠ x)) ∧
    h'.table_ lx.table_index = h.table_ (h.table_size_ - 1) ∧
    (∀ i, i ≠ lx.table_index → i < h.table_size_ - 1 → h'.table_ i = h.table_ i) := by
  unfold Unlink at he
  simp only [Option.bind_eq_some] at he
  obtain ⟨o, -, h1, e1, o1, -, h2, e2, e3⟩ := he
  have s1 : SameTable h h1 := by
    split_ifs at e1
    · exact (Unlink_weak_Kept (X := fun _ => False) (P := fun _ _ => True)
        ⟨fun _ => trivial, fun _ _ _ _ _ => trivial, fun _ _ _ _ _ => trivial⟩ _ _ _ _ _ e1).2.2
    · cases e1; exact SameTable_refl h
  have s2 : SameTable h1 h2 :=
    (Unlink_outgoing_Kept (X := fun _ => False) (P := fun _ _ => True)
      ⟨fun _ => trivial, fun _ _ _ _ _ => trivial, fun _ _ _ _ _ => trivial⟩ x _ _ _ e2).2.2
  have s := SameTable_trans s1 s2
  have hT2 := SameTable_TableInv s hT
  have hx2 : InTable h2 x := (SameTable_InTable s x).2 hx
  obtain ⟨h'', e3', -, hT', hsz, hmem⟩ := Unlink_table_spec hT2 hx2
  rw [e3] at e3'
  cases e3'
  obtain ⟨l2, hl2⟩ := s.forth x lx hlx
  obtain ⟨l0, hl0, ehh, -⟩ := s.back x l2 hl2
  rw [hlx] at hl0; cases hl0
  have hidx : l2.table_index = lx.table_index := by
    unfold Layout.table_index; rw [ehh]
  obtain ⟨-, -, htab⟩ := Unlink_table_Kept (X := fun _ => False) (P := fun _ _ => True)
    ⟨fun _ => trivial, fun _ _ _ _ _ => trivial, fun _ _ _ _ _ => trivial⟩
    (fun _ _ => trivial) hl2 e3
  rw [s.table, s.size, hidx] at htab
  refine ⟨hT', by rw [hsz, s.size], ?_, ?_, ?_⟩
  · intro o
    rw [hmem o, SameTable_InTable s o]
  · rw [htab, Function.update_same]
  · intro i hi hlt
    rw [htab, Function.update_noteq hi, Function.update_noteq (by omega)]

theorem ObjectTable_of_TableInv {h : Heap} (hT : TableInv h) : ObjectTable h := by
  refine ⟨hT.1, ?_, ?_, ?_⟩
  · intro i h1 h2
    obtain ⟨l, hl, hi, -⟩ := hT.2 i h1 h2
    exact ⟨l, hl, hi⟩
  · intro i j hi1 hi2 hj1 hj2 heq
    obtain ⟨l, hl, hi, -⟩ := hT.2 i hi1 hi2
    obtain ⟨l', hl', hj, -⟩ := hT.2 j hj1 hj2
    rw [heq, hl'] at hl
    cases hl
    rw [← hi, ← hj]
  · intro o l ⟨i, hi1, hi2, hio⟩ hl
    obtain ⟨l', hl', hi, -⟩ := hT.2 i hi1 hi2
    rw [hio, hl] at hl'
    cases hl'
    rw [hi]
    omega

end psoup

namespace psoup

theorem Free_Kept {X : Object → Prop} {P : Layout → Layout → Prop} (hP : Respects P)
    {h h' : Heap} {x : Object} (hf : Free h x = some h') : Kept X P h h' := by
  obtain ⟨hl, -⟩ := Free_spec hf
  intro o l' _ hl'
  rw [hl o] at hl'
  split_ifs at hl'
  exact ⟨l', hl', hP.refl l'⟩

theorem GCStep_free_Kept {X : Object → Prop} {P : Layout → Layout → Prop} (hP : Respects P)
    {xs : List Object} {h h' : Heap} (hf : GCStep.free h xs = some h') : Kept X P h h' := by
  obtain ⟨hl, -⟩ := GCStep_free_spec xs h h' hf
  intro o l' _ hl'
  rw [hl o] at hl'
  split_ifs at hl'
  exact ⟨l', hl', hP.refl l'⟩

theorem GCStep_unlink_Kept {X : Object → Prop} {P : Layout → Layout → Prop} (hP : Respects P)
    (hI : RespectsIndex P) :
    ∀ (xs : List Object) (h : Heap) (k : Bool) (p : Heap × Bool),
      GCStep.unlink h k xs = some p → Kept X P h p.1 ∧ p.1.heap_size_ = h.heap_size_ := by
  intro xs
  induction xs with
  | nil =>
    intro h k p he
    simp only [GCStep.unlink, Option.some.injEq] at he
    subst he
    exact ⟨Kept_refl hP X h, rfl⟩
  | cons x rest ih =>
    intro h k p he
    simp only [GCStep.unlink, Option.bind_eq_some] at he
    obtain ⟨o, -, h1, e1, e2⟩ := he
    obtain ⟨a, b⟩ := Unlink_Kept (X := X) hP hI e1
    obtain ⟨c, d⟩ := ih _ _ _ e2
    exact ⟨Kept_trans hP a c, d.trans b⟩

theorem GCStep_reclaim_Kept {X : Object → Prop} {P : Layout → Layout → Prop}
    (hP : Respects P) (hI : RespectsIndex P) {h h' : Heap}
    (he : GCStep.reclaim h = some h') : Kept X P h h' := by
  unfold GCStep.reclaim at he
  simp only [Option.bind_eq_some, Option.map_eq_some'] at he
  obtain ⟨p, e1, h3, e2, rfl⟩ := he
  have a := (GCStep_unlink_Kept (X := X) hP hI _ _ _ _ e1).1
  have b := GCStep_free_Kept (X := X) hP e2
  have c : Kept X P h h3 := Kept_trans hP a b
  split_ifs
  · exact Kept_trans hP c (Kept_of_load hP (fun o => load_ClearCache h3 o))
  · exact c

/-- One round of `GCStep` keeps what `Ref::UpdateNoCheck`, `set_table_index` and the mark bits
keep. -/
theorem GCStep_round_Kept {X : Object → Prop} {P : Layout → Layout → Prop} (hP : Respects P)
    (hI : RespectsIndex P) (hM : RespectsMarks P) {h h' : Heap} (hwf : WeaklyFormed h)
    {random : Nat} (he : GCStep.round h random = some h') : Kept X P h h' := by
  unfold GCStep.round at he
  by_cases hz : h.table_size_ = 0
  · rw [if_pos hz] at he; cases he
  rw [if_neg hz] at he
  simp only at he
  by_cases hi : random % h.table_size_ = 0
  · rw [if_pos hi] at he
    cases he
    exact Kept_refl hP X h
  rw [if_neg hi] at he
  simp only [Option.bind_eq_some, Option.map_eq_some'] at he
  obtain ⟨⟨b, h1⟩, hcr, h4, hbr, rfl⟩ := he
  have hcT : InTable h (h.table_ (random % h.table_size_)) :=
    ⟨_, by omega, Nat.mod_lt _ (by omega), rfl⟩
  have hlast : ∀ g : Heap, Kept X P g { g with worklist_ := [] } :=
    fun g => Kept_of_load hP (fun _ => rfl)
  refine Kept_trans hP ?_ (hlast h4)
  have hframe : MarkFrame h h1 := by
    by_cases hsing : h.table_ (random % h.table_size_) = h.interpreter_.nil_obj ∨
        h.table_ (random % h.table_size_) = h.interpreter_.true_obj ∨
        h.table_ (random % h.table_size_) = h.interpreter_.false_obj
    · rw [CheckReachable_singleton hsing] at hcr
      cases hcr
      exact MarkFrame_refl h
    · obtain ⟨sf, st, -⟩ := CheckReachable_spec hwf hcT hsing
      cases b with
      | true => exact (st h1 hcr).1.frame
      | false => exact (sf h1 hcr).1.frame
  refine Kept_trans hP (Kept_MarkFrame hM hframe) ?_
  cases b with
  | true =>
    simp only [if_true] at hbr
    exact Kept_MarkFrame hM (GCStep_unmark_spec _ _ _ hbr).1
  | false =>
    simp only [Bool.false_eq_true, if_false] at hbr
    exact GCStep_reclaim_Kept hP hI hbr

/-- What `GCStep` keeps, and the invariants after it. -/
theorem GCStep_Kept {X : Object → Prop} {P : Layout → Layout → Prop} (hP : Respects P)
    (hI : RespectsIndex P) (hM : RespectsMarks P) {h h' : Heap} (hwf : WeaklyFormed h)
    {random0 random1 random2 : Nat} (he : GCStep h random0 random1 random2 = some h') :
    Kept X P h h' ∧ WeaklyFormed h' ∧ ∀ o, InTable h' o → InTable h o := by
  unfold GCStep at he
  simp only [Option.bind_eq_some, Option.map_eq_some'] at he
  obtain ⟨h1, e1, h2, e2, h3, e3, rfl⟩ := he
  obtain ⟨w1, -, t1, -⟩ := GCStep_round_spec hwf e1
  obtain ⟨w2, -, t2, -⟩ := GCStep_round_spec w1 e2
  obtain ⟨w3, -, t3, -⟩ := GCStep_round_spec w2 e3
  have k1 := GCStep_round_Kept (X := X) hP hI hM hwf e1
  have k2 := GCStep_round_Kept (X := X) hP hI hM w1 e2
  have k3 := GCStep_round_Kept (X := X) hP hI hM w2 e3
  refine ⟨Kept_trans hP k1 (Kept_trans hP k2 (Kept_trans hP k3
    (Kept_of_load hP (fun _ => rfl)))), ?_, ?_⟩
  · exact w3
  · intro o ho
    exact t1 o (t2 o (t3 o ho))

end psoup

namespace psoup

theorem Passed_ForwardPointer {P : Layout → Layout → Prop} (hP : Respects P) {h h' : Heap}
    {r : RefPtr} (he : ForwardPointer h r = some h') : Passed P h h' := by
  unfold ForwardPointer at he
  simp only [Option.bind_eq_some] at he
  obtain ⟨t, -, c, -, he⟩ := he
  split_ifs at he
  · simp only [Option.bind_eq_some] at he
    obtain ⟨l, -, hu⟩ := he
    exact Passed_UpdateNoCheck hP hu
  · cases he; exact Passed_refl hP h

theorem Passed_ForwardPointers {P : Layout → Layout → Prop} (hP : Respects P) :
    ∀ (rs : List RefPtr) (h h' : Heap), ForwardPointers h rs = some h' → Passed P h h' := by
  intro rs
  induction rs with
  | nil =>
    intro h h' he
    simp only [ForwardPointers, Option.some.injEq] at he; subst he
    exact Passed_refl hP h
  | cons r rest ih =>
    intro h h' he
    simp only [ForwardPointers, Option.bind_eq_some] at he
    obtain ⟨h1, e1, e2⟩ := he
    exact Passed_trans hP (Passed_ForwardPointer hP e1) (ih _ _ e2)

theorem Passed_ForwardRoots {P : Layout → Layout → Prop} (hP : Respects P) {h h' : Heap}
    (he : ForwardRoots h = some h') : Passed P h h' := by
  unfold ForwardRoots at he
  simp only [Option.bind_eq_some] at he
  obtain ⟨hs, -, h2, e2, e3⟩ := he
  have s1 : Passed P h { h with handles_ := hs } :=
    Passed_of_load hP (fun _ => rfl) rfl rfl rfl
  exact Passed_trans hP s1 (Passed_trans hP (Passed_ForwardPointers hP _ _ _ e2)
    (Passed_ForwardPointers hP _ _ _ e3))

theorem Passed_ForwardClass {P : Layout → Layout → Prop} (hP : Respects P)
    (hC : RespectsCid P) {h h' : Heap} {x : Object}
    (he : ForwardClass h x = some h') : Passed P h h' := by
  unfold ForwardClass at he
  simp only [Option.bind_eq_some] at he
  obtain ⟨o, -, c, -, b, -, he⟩ := he
  split_ifs at he
  · simp only [Option.bind_eq_some] at he
    obtain ⟨l, -, id, -, hs⟩ := he
    exact Passed_modify hP hs (fun l => hC _ l)
  · cases he; exact Passed_refl hP h

theorem Passed_ForwardHeap_loop {P : Layout → Layout → Prop} (hP : Respects P)
    (hC : RespectsCid P) :
    ∀ (is : List Nat) (h h' : Heap), ForwardHeap.loop h is = some h' → Passed P h h' := by
  intro is
  induction is with
  | nil =>
    intro h h' he
    simp only [ForwardHeap.loop, Option.some.injEq] at he; subst he
    exact Passed_refl hP h
  | cons i rest ih =>
    intro h h' he
    simp only [ForwardHeap.loop, ForwardHeap.step, Option.bind_eq_some] at he
    obtain ⟨h2, ⟨h1, e1, o, -, e2⟩, e3⟩ := he
    exact Passed_trans hP (Passed_ForwardClass hP hC e1)
      (Passed_trans hP (Passed_ForwardPointers hP _ _ _ e2) (ih _ _ e3))

theorem Passed_class_table_put {P : Layout → Layout → Prop} (hP : Respects P) {h h' : Heap}
    {cid : Int} {v : Object} (he : class_table_put h cid v = some h') : Passed P h h' := by
  unfold class_table_put at he
  split_ifs at he
  cases he
  exact Passed_of_load hP (fun _ => rfl) rfl rfl rfl

theorem Passed_ForwardClassIds_loop {P : Layout → Layout → Prop} (hP : Respects P) :
    ∀ (is : List Nat) (h h' : Heap), ForwardClassIds.loop h is = some h' → Passed P h h' := by
  intro is
  induction is with
  | nil =>
    intro h h' he
    simp only [ForwardClassIds.loop, Option.some.injEq] at he; subst he
    exact Passed_refl hP h
  | cons i rest ih =>
    intro h h' he
    simp only [ForwardClassIds.loop, Option.bind_eq_some] at he
    obtain ⟨h1, e1, e2⟩ := he
    refine Passed_trans hP ?_ (ih _ _ e2)
    unfold ForwardClassIds.step at e1
    simp only [Option.bind_eq_some] at e1
    obtain ⟨c, -, e1⟩ := e1
    split_ifs at e1
    · cases e1; exact Passed_refl hP h
    · simp only [Option.bind_eq_some, Option.map_eq_some'] at e1
      obtain ⟨l, -, id, -, h2, f2, h3, f3, rfl⟩ := e1
      have s2 : Passed P h h2 := by
        split_ifs at f2
        · exact Passed_class_table_put hP f2
        · cases f2; exact Passed_refl hP h
      have s3 : Passed P h2 h3 := Passed_UpdateNoCheck hP f3
      refine Passed_trans hP s2 (Passed_trans hP s3 ?_)
      exact Passed_of_load hP (fun _ => rfl) rfl rfl rfl

theorem Passed_Mourn_loop {P : Layout → Layout → Prop} (hP : Respects P) :
    ∀ (is : List Nat) (h h' : Heap), MournClassTableForwarded.loop h is = some h' →
      Passed P h h' := by
  intro is
  induction is with
  | nil =>
    intro h h' he
    simp only [MournClassTableForwarded.loop, Option.some.injEq] at he; subst he
    exact Passed_refl hP h
  | cons i rest ih =>
    intro h h' he
    simp only [MournClassTableForwarded.loop, MournClassTableForwarded.step,
      Option.bind_eq_some, Option.map_eq_some'] at he
    obtain ⟨h1, ⟨c, -, rfl⟩, e2⟩ := he
    refine Passed_trans hP ?_ (ih _ _ e2)
    split_ifs
    · exact Passed_refl hP h
    · exact Passed_of_load hP (fun _ => rfl) rfl rfl rfl

/-- The passes of `BecomeForward` after its second loop. -/
theorem Passed_become {P : Layout → Layout → Prop} (hP : Respects P) (hC : RespectsCid P)
    {h1 h2 h3 h4 h5 : Heap} (e2 : ForwardClassIds h1 = some h2) (e3 : ForwardRoots h2 = some h3)
    (e4 : ForwardHeap h3 = some h4) (e5 : MournClassTableForwarded h4 = some h5) :
    Passed P h1 (ClearCache h5) :=
  Passed_trans hP (Passed_ForwardClassIds_loop hP _ _ _ e2)
    (Passed_trans hP (Passed_ForwardRoots hP e3)
      (Passed_trans hP (Passed_ForwardHeap_loop hP hC _ _ _ e4)
        (Passed_trans hP (Passed_Mourn_loop hP _ _ _ e5)
          (Passed_of_load hP (fun o => load_ClearCache h5 o) rfl rfl rfl))))

/-- The body of the second loop of `BecomeForward` keeps, for every object other than the
forwarder and the forwardee, what `Ref::UpdateNoCheck` and `set_table_index` keep. -/
theorem pair_Kept {X : Object → Prop} {P : Layout → Layout → Prop} (hP : Respects P)
    (hI : RespectsIndex P) {h h' : Heap} {f y : Object} (hf : X f) (hy : X y)
    (he : BecomeForward.pair h f y = some h') :
    Kept X P h h' ∧ h'.heap_size_ = h.heap_size_ := by
  unfold BecomeForward.pair at he
  simp only [Option.bind_eq_some] at he
  obtain ⟨fr, -, h1, e1, fe1, -, fr1, -, h2, e2, fr2, -, h3, e3, h4, e4, fr4, -, h5, e5, e6⟩ :=
    he
  have s1 : Kept X P h h1 := Kept_modify hP e1 (Or.inl hy)
  have s2 : Kept X P h1 h2 := Kept_modify hP e2 (Or.inl hy)
  obtain ⟨s3, z3⟩ := Unlink_Kept (X := X) hP hI e3
  have s4 : Kept X P h3 h4 := Kept_modify hP e4 (Or.inl hf)
  have s5 : Kept X P h4 h5 ∧ h5.heap_size_ = h4.heap_size_ := by
    split_ifs at e5
    · exact ⟨Kept_modify hP e5 (Or.inl hf), modify_heap_size e5⟩
    · cases e5; exact ⟨Kept_refl hP X h4, rfl⟩
  have s6 : Kept X P h5 h' := Kept_modify hP e6 (Or.inl hf)
  refine ⟨Kept_trans hP s1 (Kept_trans hP s2 (Kept_trans hP s3 (Kept_trans hP s4
    (Kept_trans hP s5.1 s6)))), ?_⟩
  have z1 : h1.heap_size_ = h.heap_size_ := modify_heap_size e1
  have z2 : h2.heap_size_ = h1.heap_size_ := modify_heap_size e2
  have z4 : h4.heap_size_ = h3.heap_size_ := modify_heap_size e4
  have z6 : h'.heap_size_ = h5.heap_size_ := modify_heap_size e6
  rw [z6, s5.2, z4, z3, z2, z1]

/-- The second loop of `BecomeForward` keeps, for every object that is neither a forwarder nor a
forwardee, what `Ref::UpdateNoCheck` and `set_table_index` keep. -/
theorem corpses_Kept {P : Layout → Layout → Prop} (hP : Respects P) (hI : RespectsIndex P)
    {h : Heap} {old neu : Object} {lo ln : Layout}
    (hwb : WeakBitsClear h) (hlo : h.load old = some lo) (hln : h.load neu = some ln)
    (hnd : lo.refs.Nodup) (hdis : ∀ x ∈ lo.refs, x ∉ ln.refs)
    (hoF : old ∉ lo.refs) (hnF : neu ∉ lo.refs) (hFT : ∀ x ∈ lo.refs, InTable h x) :
    ∀ (is Q : List Nat) (g g' : Heap), Forwarding h lo.refs ln.refs Q g →
      (∀ i ∈ is, i ∉ Q ∧ i < lo.refs.length ∧ i < ln.refs.length) → is.Nodup →
      BecomeForward.corpses g old neu is = some g' →
      Kept (fun o => o ∈ lo.refs ∨ o ∈ ln.refs) P g g' ∧ g'.heap_size_ = g.heap_size_ := by
  intro is
  induction is with
  | nil =>
    intro Q g g' hf _ _ he
    simp only [BecomeForward.corpses, Option.some.injEq] at he
    subst he
    exact ⟨Kept_refl hP _ g, rfl⟩
  | cons i rest ih =>
    intro Q g g' hf his hnodup he
    obtain ⟨hiQ, hi1, hi2⟩ := his i (List.mem_cons_self _ _)
    have hunp : ∀ x, x ∉ lo.refs → ∀ j ∈ Q, lo.refs[j]? ≠ some x :=
      fun x hx j _ hcon => hx (List.getElem?_mem hcon)
    obtain ⟨lo', hlo', -, eo⟩ := hf.present old lo hlo
    obtain ⟨ln', hln', -, en⟩ := hf.present neu ln hln
    have e1 : Array.element g old i = some lo.refs[i] := by
      rw [Array_element_eq hlo', (eo (hunp old hoF)).2.2]
      exact List.getElem?_eq_getElem hi1
    have e2 : Array.element g neu i = some ln.refs[i] := by
      rw [Array_element_eq hln', (en (hunp neu hnF)).2.2]
      exact List.getElem?_eq_getElem hi2
    simp only [BecomeForward.corpses, e1, e2, Option.some_bind, Option.bind_eq_some] at he
    obtain ⟨g1, ep, erest⟩ := he
    have hf1 := Forwarding_pair hwb hnd hdis hFT hf hiQ (List.getElem?_eq_getElem hi1)
      (List.getElem?_eq_getElem hi2) ep
    obtain ⟨k1, z1⟩ := pair_Kept (X := fun o => o ∈ lo.refs ∨ o ∈ ln.refs) hP hI
      (Or.inl (List.getElem_mem hi1)) (Or.inr (List.getElem_mem hi2)) ep
    obtain ⟨k2, z2⟩ := ih (i :: Q) g1 g' hf1 (fun j hj => by
      obtain ⟨a, b, c⟩ := his j (List.mem_cons_of_mem _ hj)
      refine ⟨fun hcon => ?_, b, c⟩
      rcases List.mem_cons.1 hcon with rfl | hcon
      · exact (List.nodup_cons.1 hnodup).1 hj
      · exact a hcon) (List.Nodup.of_cons hnodup) erest
    exact ⟨Kept_trans hP k1 k2, z2.trans z1⟩

end psoup

namespace psoup

theorem Respects_SameHash : Respects Layout.SameHash ∧ RespectsIndex Layout.SameHash ∧
    RespectsMarks Layout.SameHash ∧ RespectsCid Layout.SameHash := by
  refine ⟨⟨fun _ => rfl, fun a b c h1 h2 => ?_, fun r t v o l => rfl⟩, ?_, ?_, fun _ _ => rfl⟩
  · unfold Layout.SameHash at *
    rw [h2, h1]
  · intro v l
    exact HashField_decode_IndexField_update' v l.header_hash_
  · intro l l' hs
    have := ((SameButMarks_iff l l').1 hs).2.2.2.2.1
    unfold Layout.SameHash Layout.header_hash
    rw [this]

theorem Respects_SameIndex : Respects Layout.SameIndex ∧ RespectsMarks Layout.SameIndex ∧
    RespectsCid Layout.SameIndex := by
  refine ⟨⟨fun _ => rfl, fun a b c h1 h2 => ?_, fun r t v o l => rfl⟩, ?_, fun _ _ => rfl⟩
  · unfold Layout.SameIndex at *
    rw [h2, h1]
  · intro l l' hs
    have := ((SameButMarks_iff l l').1 hs).2.2.2.2.1
    unfold Layout.SameIndex Layout.table_index
    rw [this]

theorem Respects_SameBit : Respects Layout.SameBit ∧ RespectsIndex Layout.SameBit ∧
    RespectsMarks Layout.SameBit ∧ RespectsCid Layout.SameBit := by
  refine ⟨⟨fun _ => rfl, fun a b c h1 h2 => ?_, fun r t v o l => rfl⟩, fun _ _ => rfl, ?_,
    fun _ _ => rfl⟩
  · unfold Layout.SameBit at *
    rw [h2, h1]
  · intro l l' hs
    exact ((SameButMarks_iff l l').1 hs).1

theorem Respects_SameSize : Respects Layout.SameSize ∧ RespectsIndex Layout.SameSize ∧
    RespectsMarks Layout.SameSize := by
  refine ⟨⟨fun _ => ⟨rfl, rfl, rfl, rfl, rfl⟩, fun a b c h1 h2 => ?_, fun r t v o l => ?_⟩,
    fun _ _ => ⟨rfl, rfl, rfl, rfl, rfl⟩, ?_⟩
  · obtain ⟨a1, a2, a3, a4, a5⟩ := h1
    obtain ⟨b1, b2, b3, b4, b5⟩ := h2
    exact ⟨b1.trans a1, b2.trans a2, b3.trans a3, b4.trans a4, b5.trans a5⟩
  · exact ⟨rfl, rfl, rfl, rfl, Layout_retarget_refs_length r t v o l⟩
  · intro l l' hs
    obtain ⟨-, -, e3, e4, -, -, e7, e8, e9⟩ := (SameButMarks_iff l l').1 hs
    exact ⟨e3, e4, e7, e8, by rw [e9]⟩

theorem HeapSize_of_SameSize {l l' : Layout} (hs : Layout.SameSize l l') :
    l'.HeapSize = l.HeapSize := by
  obtain ⟨e1, e2, e3, e4, e5⟩ := hs
  unfold Layout.HeapSize Layout.heap_size HeapSizeFromClass
  rw [e1, e2, e3, e4, e5]

end psoup

namespace psoup

/-- A `BecomeForward` that returns false leaves the heap as it is. -/
theorem BecomeForward_false_eq {h h' : Heap} {old neu : Object}
    (he : BecomeForward h old neu = some (false, h')) : h' = h := by
  unfold BecomeForward at he
  simp only [Option.bind_eq_some] at he
  obtain ⟨so, -, sn, -, he⟩ := he
  split_ifs at he with hne
  · cases he; rfl
  · simp only [Option.bind_eq_some] at he
    obtain ⟨imm, -, he⟩ := he
    split_ifs at he
    · cases he; rfl
    · simp only [Option.bind_eq_some, Option.map_eq_some', Prod.mk.injEq] at he
      obtain ⟨h1, -, h2, -, h3, -, h4, -, h5, -, hc, -⟩ := he
      cases hc

/-- The passes of a `BecomeForward` that returns true, for arrays whose length slots hold their
lengths and whose forwarders are distinct objects of the object table, none of them a forwardee
or one of the two arrays. -/
theorem BecomeForward_phases {h h' : Heap} {old neu : Object} {lo ln : Layout}
    (hT : TableInv h) (hwb : WeakBitsClear h)
    (hlo : h.load old = some lo) (hln : h.load neu = some ln)
    (hso : SmallInteger.value lo.size_ = (lo.refs.length : Int))
    (hsn : SmallInteger.value ln.size_ = (ln.refs.length : Int))
    (hnd : lo.refs.Nodup) (hdis : ∀ x ∈ lo.refs, x ∉ ln.refs)
    (hoF : old ∉ lo.refs) (hnF : neu ∉ lo.refs) (hFT : ∀ x ∈ lo.refs, InTable h x)
    (he : BecomeForward h old neu = some (true, h')) :
    ∃ h1 h2 h3 h4 h5 : Heap, lo.refs.length = ln.refs.length ∧
      BecomeForward.corpses h old neu (List.range lo.refs.length) = some h1 ∧
      Forwarding h lo.refs ln.refs (List.range lo.refs.length ++ []) h1 ∧
      ForwardClassIds h1 = some h2 ∧ ForwardRoots h2 = some h3 ∧ ForwardHeap h3 = some h4 ∧
      MournClassTableForwarded h4 = some h5 ∧ h' = ClearCache h5 := by
  obtain ⟨n, h1, h2, h3, h4, h5, hn, hn', -, e1, e2, e3, e4, e5, rfl⟩ :=
    BecomeForward_true_eq he
  have hSo : Array.Size h old = some (lo.refs.length : Int) := by simp [Array.Size, hlo, hso]
  have hSn : Array.Size h neu = some (ln.refs.length : Int) := by simp [Array.Size, hln, hsn]
  rw [hSo] at hn
  cases hn
  have hlen : lo.refs.length = ln.refs.length := by
    rw [hSn] at hn'
    exact_mod_cast (Option.some.inj hn').symm
  rw [Int.toNat_ofNat] at e1
  have hfg := BecomeForward_corpses_spec hwb hlo hln hnd hdis hoF hnF hFT
    (List.range lo.refs.length) [] h h1 (Forwarding_refl hT _ _)
    (fun i hi => ⟨by simp, List.mem_range.1 hi, hlen ▸ List.mem_range.1 hi⟩)
    (List.nodup_range _) e1
  exact ⟨h1, h2, h3, h4, h5, hlen, e1, hfg, e2, e3, e4, e5, rfl⟩

theorem processed_iff (F : List Object) (o : Object) :
    (∀ i ∈ List.range F.length ++ [], F[i]? ≠ some o) ↔ o ∉ F := by
  constructor
  · intro hno hmem
    obtain ⟨i, hi, rfl⟩ := List.getElem_of_mem hmem
    exact hno i (by simp [hi]) (List.getElem?_eq_getElem hi)
  · intro hno i _ hcon
    exact hno (List.getElem?_mem hcon)

/-- What a `BecomeForward` that returns true keeps for the objects that are neither forwarders
nor forwardees; the heap size is unchanged and the forwarders leave the object table. -/
theorem BecomeForward_Kept {P : Layout → Layout → Prop} (hP : Respects P)
    (hI : RespectsIndex P) (hC : RespectsCid P)
    {h h' : Heap} {old neu : Object} {lo ln : Layout}
    (hT : TableInv h) (hwb : WeakBitsClear h)
    (hlo : h.load old = some lo) (hln : h.load neu = some ln)
    (hso : SmallInteger.value lo.size_ = (lo.refs.length : Int))
    (hsn : SmallInteger.value ln.size_ = (ln.refs.length : Int))
    (hnd : lo.refs.Nodup) (hdis : ∀ x ∈ lo.refs, x ∉ ln.refs)
    (hoF : old ∉ lo.refs) (hnF : neu ∉ lo.refs) (hFT : ∀ x ∈ lo.refs, InTable h x)
    (he : BecomeForward h old neu = some (true, h')) :
    Kept (fun o => o ∈ lo.refs ∨ o ∈ ln.refs) P h h' ∧ h'.heap_size_ = h.heap_size_ ∧
    (∀ o, InTable h' o ↔ (InTable h o ∧ o ∉ lo.refs)) := by
  obtain ⟨h1, h2, h3, h4, h5, hlen, e1, hfg, e2, e3, e4, e5, rfl⟩ :=
    BecomeForward_phases hT hwb hlo hln hso hsn hnd hdis hoF hnF hFT he
  obtain ⟨k1, z1⟩ := corpses_Kept hP hI hwb hlo hln hnd hdis hoF hnF hFT
    (List.range lo.refs.length) [] h h1 (Forwarding_refl hT _ _)
    (fun i hi => ⟨by simp, List.mem_range.1 hi, hlen ▸ List.mem_range.1 hi⟩)
    (List.nodup_range _) e1
  have hp := Passed_become hP hC e2 e3 e4 e5
  refine ⟨Kept_trans hP k1 (Passed_Kept hp _), hp.heap_size.trans z1, ?_⟩
  intro o
  rw [InTable_of_frame hp.table.1 hp.table.2 o, hfg.inTable o, processed_iff]

end psoup

namespace psoup

/-- `Heap::RegisterInstance` of an object with storage. -/
theorem RegisterInstance_eq {h : Heap} {obj : Object} {l : Layout}
    (hl : h.load obj = some l) :
    ∃ h', RegisterInstance h obj = some h' ∧
      h'.table_ = Function.update h.table_ h.table_size_ obj ∧
      h'.table_size_ = h.table_size_ + 1 ∧ h'.heap_size_ = h.heap_size_ ∧
      (∀ o, h'.load o = if o = obj then
        some { l with header_hash_ := IndexField.update h.table_size_ l.header_hash_ }
        else h.load o) := by
  have hobj : IsHeapObject obj := isHeapObject_of_load hl
  have hex : ∃ h', RegisterInstance h obj = some h' := by
    unfold RegisterInstance
    split_ifs
    · exact ⟨_, modify_eq_some.2 ⟨l, hl, rfl⟩⟩
    · exact ⟨_, modify_eq_some.2 ⟨l, hl, rfl⟩⟩
  obtain ⟨h', e⟩ := hex
  refine ⟨h', e, ?_⟩
  unfold RegisterInstance at e
  have hloads : ∀ (g : Heap) (l2 : Layout) (o : Object),
      (g.store obj l2).load o = if o = obj then some l2 else g.load o := by
    intro g l2 o
    by_cases ho : o = obj
    · subst ho
      rw [if_pos rfl]
      exact load_store_same hobj
    · rw [if_neg ho]
      exact load_store_ne ho
  split_ifs at e with hc
  · obtain ⟨l2, hl2, rfl⟩ := modify_eq_some.1 e
    have hl2' : h.load obj = some l2 := hl2
    rw [hl] at hl2'
    cases hl2'
    exact ⟨rfl, rfl, rfl, fun o => hloads _ _ o⟩
  · obtain ⟨l2, hl2, rfl⟩ := modify_eq_some.1 e
    have hl2' : h.load obj = some l2 := hl2
    rw [hl] at hl2'
    cases hl2'
    exact ⟨rfl, rfl, rfl, fun o => hloads _ _ o⟩

theorem InTable_RegisterInstance {h h' : Heap} {obj : Object}
    (ht : h'.table_ = Function.update h.table_ h.table_size_ obj)
    (hs : h'.table_size_ = h.table_size_ + 1) (h1 : 1 ≤ h.table_size_) (o : Object) :
    InTable h' o ↔ (InTable h o ∨ o = obj) := by
  unfold InTable
  rw [ht, hs]
  constructor
  · rintro ⟨i, hi1, hi2, hio⟩
    by_cases hi : i = h.table_size_
    · subst hi
      rw [Function.update_same] at hio
      exact Or.inr hio.symm
    · rw [Function.update_noteq hi] at hio
      exact Or.inl ⟨i, hi1, by omega, hio⟩
  · rintro (⟨i, hi1, hi2, hio⟩ | rfl)
    · exact ⟨i, hi1, by omega, by rw [Function.update_noteq (by omega)]; exact hio⟩
    · exact ⟨h.table_size_, h1, by omega, Function.update_same _ _ _⟩

/-- `Heap::RegisterInstance` keeps the object-table invariant while the index fits the index
field. -/
theorem ObjectTable_RegisterInstance {h : Heap} {obj : Object} {l : Layout}
    (hO : ObjectTable h) (hl : h.load obj = some l) (hn : ¬ InTable h obj)
    (hsz : h.table_size_ < 2 ^ 32) :
    ∃ h', RegisterInstance h obj = some h' ∧ ObjectTable h' ∧
      h'.table_size_ = h.table_size_ + 1 ∧ (∀ o, InTable h' o ↔ (InTable h o ∨ o = obj)) ∧
      h'.table_ h.table_size_ = obj ∧
      ∃ l', h'.load obj = some l' ∧ l'.table_index = h.table_size_ := by
  obtain ⟨h', e, ht, hs, -, hload⟩ := RegisterInstance_eq hl
  have hmem := InTable_RegisterInstance ht hs hO.size
  have hidx : ∀ i, 1 ≤ i → i < h'.table_size_ →
      ∃ l', h'.load (h'.table_ i) = some l' ∧ l'.table_index = i := by
    intro i hi1 hi2
    rw [hs] at hi2
    rw [ht]
    by_cases hi : i = h.table_size_
    · subst hi
      rw [Function.update_same, hload, if_pos rfl]
      refine ⟨_, rfl, ?_⟩
      show IndexField.decode (IndexField.update h.table_size_ l.header_hash_) = h.table_size_
      rw [IndexField_decode_update]
      exact Nat.mod_eq_of_lt hsz
    · rw [Function.update_noteq hi]
      have hlt : i < h.table_size_ := by omega
      obtain ⟨l0, hl0, hi0⟩ := hO.index i hi1 hlt
      have hne : h.table_ i ≠ obj := fun hc => hn ⟨i, hi1, hlt, hc⟩
      rw [hload, if_neg hne]
      exact ⟨l0, hl0, hi0⟩
  refine ⟨h', e, ⟨by rw [hs]; omega, hidx, ?_, ?_⟩, hs, hmem, ?_, ?_⟩
  · intro i j hi1 hi2 hj1 hj2 heq
    obtain ⟨li, hli, hii⟩ := hidx i hi1 hi2
    obtain ⟨lj, hlj, hjj⟩ := hidx j hj1 hj2
    rw [heq, hlj] at hli
    cases hli
    rw [← hii, ← hjj]
  · intro o lo' ⟨i, hi1, hi2, hio⟩ hlo'
    obtain ⟨li, hli, hii⟩ := hidx i hi1 hi2
    rw [hio, hlo'] at hli
    cases hli
    rw [hii]
    omega
  · rw [ht, Function.update_same]
  · rw [hload, if_pos rfl]
    refine ⟨_, rfl, ?_⟩
    show IndexField.decode (IndexField.update h.table_size_ l.header_hash_) = h.table_size_
    rw [IndexField_decode_update]
    exact Nat.mod_eq_of_lt hsz

end psoup

namespace psoup

theorem ObjectTable_Passed {g g' : Heap} (hO : ObjectTable g)
    (hp : Passed Layout.SameIndex g g') : ObjectTable g' := by
  have hidx : ∀ i, 1 ≤ i → i < g'.table_size_ →
      ∃ l', g'.load (g'.table_ i) = some l' ∧ l'.table_index = i := by
    intro i hi1 hi2
    rw [hp.table.2] at hi2
    obtain ⟨l, hl, hi⟩ := hO.index i hi1 hi2
    rw [hp.table.1]
    obtain ⟨l', hl'⟩ := hp.forth _ l hl
    obtain ⟨l0, hl0, hs⟩ := hp.back _ l' hl'
    rw [hl] at hl0
    cases hl0
    exact ⟨l', hl', hs.trans hi⟩
  refine ⟨by rw [hp.table.2]; exact hO.size, hidx, ?_, ?_⟩
  · intro i j hi1 hi2 hj1 hj2 heq
    rw [hp.table.2] at hi2 hj2
    rw [hp.table.1] at heq
    exact hO.distinct i j hi1 hi2 hj1 hj2 heq
  · intro o l' hoT hl'
    obtain ⟨l, hl, hs⟩ := hp.back o l' hl'
    have hoT' : InTable g o := (InTable_of_frame hp.table.1 hp.table.2 o).1 hoT
    have := hO.zero o l hoT' hl
    unfold Layout.SameIndex at hs
    rw [hs]
    exact this

/-- C12: the object-table invariant (`ObjectTable`: every entry `1 <= i < table_size_` is an
object whose index field is `i`, no object occurs at two indices, no object of the table has the
index 0) is kept.  `RegisterInstance` of an object with storage that is not in the table
returns and keeps it while `table_size_` fits the 32-bit index field, adding exactly the object
at the old `table_size_`.  In a heap whose table entries moreover have legal class ids
(`TableInv`), `Unlink(x)` of an object of the table keeps it, removes exactly `x`, decreases
`table_size_` by one, and puts the former last entry into the slot of `x`, with the index of
that slot in its index field, leaving the other entries where they are.  `GCStep` on a heap
that satisfies the data-model invariants keeps it.  `BecomeForward` keeps it, whatever it
returns, in a heap with legal class ids and clear weak-referent bits, for arrays whose length
slots hold their lengths whose forwarders are distinct objects of the table, none of them a
forwardee or one of the two arrays. -/
theorem object_table_invariant_kept :
    (∀ (h : Heap) (obj : Object) (l : Layout), ObjectTable h → h.load obj = some l →
      ¬ InTable h obj → h.table_size_ < 2 ^ 32 →
      ∃ h', RegisterInstance h obj = some h' ∧ ObjectTable h' ∧
        h'.table_size_ = h.table_size_ + 1 ∧ (∀ o, InTable h' o ↔ (InTable h o ∨ o = obj)) ∧
        h'.table_ h.table_size_ = obj ∧
        ∃ l', h'.load obj = some l' ∧ l'.table_index = h.table_size_) ∧
    (∀ (h h' : Heap) (x : Object) (lx : Layout), TableInv h → InTable h x →
      h.load x = some lx → Unlink h x = some h' →
      ObjectTable h' ∧ h'.table_size_ + 1 = h.table_size_ ∧
      (∀ o, InTable h' o ↔ (InTable h o ∧ o ≠ x)) ∧
      h'.table_ lx.table_index = h.table_ (h.table_size_ - 1) ∧
      (h.table_ (h.table_size_ - 1) ≠ x →
        ∃ l', h'.load (h.table_ (h.table_size_ - 1)) = some l' ∧
          l'.table_index = lx.table_index) ∧
      (∀ i, i ≠ lx.table_index → i < h.table_size_ - 1 → h'.table_ i = h.table_ i)) ∧
    (∀ (h h' : Heap) (random0 random1 random2 : Nat), WellFormed h →
      GCStep h random0 random1 random2 = some h' → ObjectTable h') ∧
    (∀ (h h' : Heap) (old neu : Object) (lo ln : Layout) (b : Bool), TableInv h →
      WeakBitsClear h → h.load old = some lo → h.load neu = some ln →
      SmallInteger.value lo.size_ = (lo.refs.length : Int) →
      SmallInteger.value ln.size_ = (ln.refs.length : Int) →
      lo.refs.Nodup → (∀ x ∈ lo.refs, x ∉ ln.refs) → old ∉ lo.refs → neu ∉ lo.refs →
      (∀ x ∈ lo.refs, InTable h x) → BecomeForward h old neu = some (b, h') →
      ObjectTable h') := by
  refine ⟨?_, ?_, ?_, ?_⟩
  · intro h obj l hO hl hn hsz
    exact ObjectTable_RegisterInstance hO hl hn hsz
  · intro h h' x lx hT hx hlx he
    obtain ⟨hT', hsz, hmem, hmove, hrest⟩ := Unlink_table_effect hT hx hlx he
    refine ⟨ObjectTable_of_TableInv hT', hsz, hmem, hmove, ?_, hrest⟩
    intro hne
    obtain ⟨lx', hlx', -, hi1, hi2, hi3⟩ := load_of_InTable hT hx
    rw [hlx] at hlx'
    cases hlx'
    have hlt : lx.table_index < h'.table_size_ := by
      have : lx.table_index ≠ h.table_size_ - 1 := by
        intro hc
        rw [hc] at hi3
        exact hne hi3
      omega
    obtain ⟨l', hl', hidx, -⟩ := hT'.2 lx.table_index hi1 hlt
    rw [hmove] at hl'
    exact ⟨l', hl', hidx⟩
  · intro h h' random0 random1 random2 hwf he
    exact ObjectTable_of_TableInv (GCStep_Kept (X := fun _ => False) Respects_SameBit.1
      Respects_SameBit.2.1 Respects_SameBit.2.2.1 (WeaklyFormed_of_WellFormed hwf) he).2.1.1
  · intro h h' old neu lo ln b hT hwb hlo hln hso hsn hnd hdis hoF hnF hFT he
    cases b with
    | false =>
      rw [BecomeForward_false_eq he]
      exact ObjectTable_of_TableInv hT
    | true =>
      obtain ⟨h1, h2, h3, h4, h5, -, -, hfg, e2, e3, e4, e5, rfl⟩ :=
        BecomeForward_phases hT hwb hlo hln hso hsn hnd hdis hoF hnF hFT he
      exact ObjectTable_Passed (ObjectTable_of_TableInv hfg.table)
        (Passed_become Respects_SameIndex.1 Respects_SameIndex.2.2 e2 e3 e4 e5)

theorem ObjectTable_of_check {h : Heap} (hc : checkWellFormed h = true) : ObjectTable h :=
  ObjectTable_of_TableInv (WellFormed_of_check hc).1

/-- Witness of C12: the array at 11 of `unregisteredHeap` is registered at the index 6; in
`cycleHeap`, whose table holds nil, true, false and the arrays at 7 and 9 at the indices 1 to 5,
`Unlink` of the array at 7 moves the array at 9 to the index 4; a `GCStep` on `cycleHeap` and
the become of `[a]` into `[b]` in `becomeHeap` keep the invariant. -/
theorem object_table_invariant_kept_witness :
    (∃ h', RegisterInstance unregisteredHeap 11 = some h' ∧ ObjectTable h' ∧
      h'.table_size_ = 7 ∧ h'.table_ 6 = 11) ∧
    (ObjectTable cycleHeapUnlinked ∧ cycleHeapUnlinked.table_size_ + 1 = 6 ∧
      cycleHeapUnlinked.table_ 4 = 9 ∧
      ∃ l', cycleHeapUnlinked.load 9 = some l' ∧ l'.table_index = 4) ∧
    ObjectTable cycleHeapCollected ∧
    ObjectTable (becomeResult becomeHeap 13 15).2 := by
  obtain ⟨w1, w2, w3, w4⟩ := object_table_invariant_kept
  refine ⟨?_, ?_, ?_, ?_⟩
  · obtain ⟨h', e, hO, hs, -, ht, -⟩ := w1 unregisteredHeap 11
      ((Layout.sample kArrayCid 0 [] []).Initialize kArrayCid 64)
      (ObjectTable_of_check (by decide)) (by rfl)
      (fun hc => by
        have := (inTable_iff unregisteredHeap 11).2 hc
        revert this
        decide) (by decide)
    exact ⟨h', e, hO, hs, ht⟩
  · obtain ⟨a, b, -, c, d, -⟩ := w2 cycleHeap cycleHeapUnlinked 7
      (Layout.sample kArrayCid 4 [.slot 9 0] [9]) (WellFormed_of_check (by decide)).1
      ⟨4, by decide, by decide, rfl⟩ (by rfl) (by rfl)
    exact ⟨a, b, c, d (by decide)⟩
  · exact w3 cycleHeap cycleHeapCollected 4 1 2 (WellFormed_of_check (by decide)) (by rfl)
  · exact w4 becomeHeap (becomeResult becomeHeap 13 15).2 13 15
      (Layout.sample kArrayCid 7 [.root 4] [7]) (Layout.sample kArrayCid 8 [.root 5] [9]) true
      (WellFormed_of_check (by decide)).1 (WeakBitsClear_of_check (by decide)) (by rfl)
      (by rfl) (by rfl) (by rfl) (by decide) (by decide) (by decide) (by decide)
      (fun x hx => by
        have hx7 : x = 7 := List.mem_singleton.1 hx
        subst hx7
        exact ⟨4, by decide, by decide, rfl⟩) (by rfl)

end psoup

namespace psoup

theorem isHeapObject_FromAddr {addr : Nat} (ha : addr % 2 = 0) : IsHeapObject (FromAddr addr) := by
  rw [isHeapObject_iff]
  show (addr + 1) % 2 = 1
  omega

theorem HeapSize_array_congr {l l' : Layout} (h1 : l'.size_field = l.size_field)
    (h2 : l'.cid = l.cid) (h3 : l'.refs = l.refs) (hc : l.cid = kArrayCid) :
    l'.HeapSize = l.HeapSize := by
  have hn1 : ¬ (kArrayCid = kForwardingCorpseCid ∨ kArrayCid = kFreeListElementCid) := by
    decide
  have hn2 : ¬ (kArrayCid = kByteArrayCid ∨ kArrayCid = kStringCid) := by decide
  unfold Layout.HeapSize Layout.heap_size HeapSizeFromClass
  rw [h1, h2, h3, hc]
  simp only [if_neg hn1, if_neg hn2]

theorem Initialize_cid_array (l : Layout) (heap_size : Nat) :
    (l.Initialize kArrayCid heap_size).cid = kArrayCid := by
  show kArrayCid % 2 ^ kClassIdFieldSize = kArrayCid
  decide

/-- `Heap::AllocateArray`, in terms of the heap `h0` after the `GCStep` of `Heap::Allocate`. -/
theorem AllocateArray_eq {h h' : Heap} {num_slots : Nat} {allocator : Allocator}
    {random : Nat × Nat × Nat} {addr : Nat} {raw : Layout} {obj : Object}
    (he : AllocateArray h num_slots allocator random addr raw = some (obj, h')) :
    ∃ h0 : Heap,
      (if allocator ≠ Allocator.kSnapshot then GCStep h random.1 random.2.1 random.2.2
       else some h) = some h0 ∧
      obj = FromAddr addr ∧ IsHeapObject obj ∧ h0.load obj = none ∧
      h'.table_ = Function.update h0.table_ h0.table_size_ obj ∧
      h'.table_size_ = h0.table_size_ + 1 ∧
      h'.heap_size_ = h0.heap_size_ +
        (AllocationWord (num_slots * sizeofRef + sizeofArrayLayout) : Int) ∧
      (∃ lf, lf.HeapSize =
          (raw.Initialize kArrayCid
            (AllocationWord (num_slots * sizeofRef + sizeofArrayLayout))).HeapSize ∧
        lf.table_index = h0.table_size_ % 2 ^ 32 ∧ lf.cid = kArrayCid ∧
        lf.header_hash = 0 ∧
        ∀ o, h'.load o = if o = obj then some lf else h0.load o) := by
  unfold AllocateArray Allocate at he
  simp only [Option.bind_eq_some, Option.map_eq_some', Prod.mk.injEq] at he
  obtain ⟨h1, ⟨h0, e0, e1⟩, h2, e2, h3, e3, h4, e4, rfl, rfl⟩ := he
  split_ifs at e1 with hbad
  cases e1
  have hbad' : ¬ addr = 0 ∧ ¬ addr % 2 = 1 ∧ ¬ (h0.memory (FromAddr addr)).isSome := by
    simpa [not_or] using hbad
  obtain ⟨-, hev, hfree⟩ := hbad'
  have hobj : IsHeapObject (FromAddr addr) := isHeapObject_FromAddr (by omega)
  have hnone : h0.load (FromAddr addr) = none := by
    unfold Heap.load
    rw [if_pos hobj]
    cases hm : h0.memory (FromAddr addr) with
    | none => rfl
    | some l => rw [hm] at hfree; simp at hfree
  -- the storage after `malloc`
  obtain ⟨l2, hl2, rfl⟩ := modify_eq_some.1 e2
  have hl2' : l2 = raw := by
    have : (Heap.store h0 (FromAddr addr) raw).load (FromAddr addr) = some raw :=
      load_store_same hobj
    have hl2'' : (Heap.store h0 (FromAddr addr) raw).load (FromAddr addr) = some l2 := hl2
    rw [this] at hl2''
    exact (Option.some.inj hl2'').symm
  subst hl2'
  obtain ⟨h3', e3', t3, s3, z3, ld3⟩ := RegisterInstance_eq
    (h := Heap.store _ (FromAddr addr) _) (load_store_same hobj)
  rw [e3] at e3'
  cases e3'
  obtain ⟨l4, hl4, rfl⟩ := modify_eq_some.1 e4
  rw [ld3, if_pos rfl] at hl4
  cases hl4
  refine ⟨h0, e0, rfl, hobj, hnone, t3, s3, ?_, ?lf, ?p1, ?p2, ?p3, ?p4, ?p5⟩
  case p5 =>
    intro o
    by_cases ho : o = FromAddr addr
    · subst ho
      rw [if_pos rfl]
      exact load_store_same hobj
    · rw [if_neg ho, load_store_ne ho, ld3, if_neg ho, load_store_ne ho]
      have : ∀ (g : Heap) (z : Int) (m : Object → Option Layout),
          ({ g with heap_size_ := z, memory := m } : Heap).load o =
            if IsHeapObject o then m o else none := fun _ _ _ => rfl
      rw [this, Function.update_noteq ho]
      rfl
  · show h3.heap_size_ = _
    rw [z3]
    rfl
  · exact HeapSize_array_congr rfl rfl rfl (Initialize_cid_array _ _)
  · show IndexField.decode (IndexField.update _ 0) = _
    rw [IndexField_decode_update]
    rfl
  · show kArrayCid % 2 ^ kClassIdFieldSize = kArrayCid
    decide
  · show HashField.decode (IndexField.update _ 0) = 0
    rw [HashField_decode_IndexField_update']
    rfl

end psoup

namespace psoup

theorem HashStable_of_Kept {X : Object → Prop} {h h' : Heap}
    (hk : Kept X Layout.SameHash h h') : HashStable X h h' := by
  intro o l l' hx hl hl'
  obtain ⟨l0, hl0, hs⟩ := hk o l' hx hl'
  rw [hl] at hl0
  cases hl0
  exact hs

theorem AllocateArray_Kept {P : Layout → Layout → Prop} (hP : Respects P)
    (hI : RespectsIndex P) (hM : RespectsMarks P) {h h' : Heap} (hwf : WeaklyFormed h)
    {num_slots : Nat} {allocator : Allocator} {random : Nat × Nat × Nat} {addr : Nat}
    {raw : Layout} {obj : Object}
    (he : AllocateArray h num_slots allocator random addr raw = some (obj, h')) :
    Kept (fun o => o = obj) P h h' := by
  obtain ⟨h0, e0, -, -, -, -, -, -, lf, -, -, -, -, hload⟩ := AllocateArray_eq he
  have k0 : Kept (fun o => o = obj) P h h0 := by
    split_ifs at e0
    · exact (GCStep_Kept hP hI hM hwf e0).1
    · cases e0; exact Kept_refl hP _ h
  refine Kept_trans hP k0 ?_
  intro o l' ho hl'
  rw [hload o, if_neg ho] at hl'
  exact ⟨l', hl', hP.refl l'⟩

/-- Counterexample to C19: in `classHeapUnregistered` the class `C2` at 9 is in the object table
and its identity hash is 88; the become of `[C1]` into `[C2]` returns true, `C2`, the
forwardee, is still in the object table, and its identity hash is 77, the one of `C1`. -/
theorem header_hash_forwardee_counterexample :
    checkWellFormed classHeapUnregistered = true ∧
    Array.element classHeapUnregistered 13 0 = some 7 ∧
    Array.element classHeapUnregistered 15 0 = some 9 ∧
    inTable classHeapUnregistered 9 = true ∧
    (classHeapUnregistered.load 9).map (fun l => l.header_hash) = some 88 ∧
    ((BecomeForward classHeapUnregistered 13 15).map fun p => p.1) = some true ∧
    inTable (becomeResult classHeapUnregistered 13 15).2 9 = true ∧
    ((becomeResult classHeapUnregistered 13 15).2.load 9).map (fun l => l.header_hash) =
      some 77 :=
  ⟨by decide, by rfl, by rfl, by rfl, by rfl, by rfl, by rfl, by rfl⟩

/-- The forwardee of a become of one pair has the identity hash of the forwarder. -/
theorem BecomeForward_forwardee_hash {h h' : Heap} {old neu a b : Object} {lo ln la : Layout}
    (hlo : h.load old = some lo) (hln : h.load neu = some ln)
    (hro : lo.refs = [a]) (hrn : ln.refs = [b]) (hso : SmallInteger.value lo.size_ = 1)
    (hab : a ≠ b) (hla : h.load a = some la)
    (he : BecomeForward h old neu = some (true, h')) :
    ∃ lb', h'.load b = some lb' ∧ lb'.header_hash = la.header_hash := by
  obtain ⟨n, h1, h2, h3, h4, h5, hn, -, -, e1, e2, e3, e4, e5, rfl⟩ := BecomeForward_true_eq he
  have hn1 : n = 1 := by
    simp only [Array.Size, hlo, Option.map_some', Option.some.injEq] at hn
    rw [← hn, hso]
  subst hn1
  have hr : List.range (1 : Int).toNat = [0] := by decide
  rw [hr] at e1
  simp only [BecomeForward.corpses, Array_element_eq hlo, Array_element_eq hln, hro, hrn,
    List.getElem?_cons_zero, Option.some_bind, Option.bind_eq_some, Option.some.injEq] at e1
  obtain ⟨hp, ep, rfl⟩ := e1
  obtain ⟨lb1, hlb1, eq1⟩ := BecomeForward_pair_hash hab hla ep
  obtain ⟨hP, -, -, hC⟩ := Respects_SameHash
  have hps := Passed_become hP hC e2 e3 e4 e5
  obtain ⟨lb', hlb'⟩ := hps.forth b lb1 hlb1
  obtain ⟨l0, hl0, hs⟩ := hps.back b lb' hlb'
  rw [hlb1] at hl0
  cases hl0
  exact ⟨lb', hlb', hs.trans eq1⟩

end psoup

namespace psoup

theorem ForwardHeap_loop_Kept {X : Object → Prop} {P : Layout → Layout → Prop}
    (hP : Respects P) :
    ∀ (is : List Nat) (h h' : Heap), (∀ i ∈ is, X (h.table_ i)) →
      ForwardHeap.loop h is = some h' → Kept X P h h' := by
  have htriv : Respects (fun _ _ : Layout => True) :=
    ⟨fun _ => trivial, fun _ _ _ _ _ => trivial, fun _ _ _ _ _ => trivial⟩
  intro is
  induction is with
  | nil =>
    intro h h' _ he
    simp only [ForwardHeap.loop, Option.some.injEq] at he; subst he
    exact Kept_refl hP X h
  | cons i rest ih =>
    intro h h' hX he
    simp only [ForwardHeap.loop, ForwardHeap.step, Option.bind_eq_some] at he
    obtain ⟨h2, ⟨h1, e1, o, -, e2⟩, e3⟩ := he
    have k1 : Kept X P h h1 := by
      unfold ForwardClass at e1
      simp only [Option.bind_eq_some] at e1
      obtain ⟨o1, -, c, -, b, -, e1⟩ := e1
      split_ifs at e1
      · simp only [Option.bind_eq_some] at e1
        obtain ⟨l, -, id, -, hs⟩ := e1
        exact Kept_modify hP hs (Or.inl (hX i (List.mem_cons_self _ _)))
      · cases e1; exact Kept_refl hP X h
    have k2 : Kept X P h1 h2 := Passed_Kept (Passed_ForwardPointers hP _ _ _ e2) X
    have t1 : h2.table_ = h.table_ :=
      (Passed_trans htriv (Passed_ForwardClass htriv (fun _ _ => trivial) e1)
        (Passed_ForwardPointers htriv _ _ _ e2)).table.1
    have k3 := ih h2 h' (fun j hj => by rw [t1]; exact hX j (List.mem_cons_of_mem _ hj)) e3
    exact Kept_trans hP k1 (Kept_trans hP k2 k3)

/-- The forwarders after a `BecomeForward` that returns true: forwarding corpses outside the
object table whose targets are their forwardees. -/
theorem BecomeForward_corpse {h h' : Heap} {old neu : Object} {lo ln : Layout}
    (hT : TableInv h) (hwb : WeakBitsClear h)
    (hlo : h.load old = some lo) (hln : h.load neu = some ln)
    (hso : SmallInteger.value lo.size_ = (lo.refs.length : Int))
    (hsn : SmallInteger.value ln.size_ = (ln.refs.length : Int))
    (hnd : lo.refs.Nodup) (hdis : ∀ x ∈ lo.refs, x ∉ ln.refs)
    (hoF : old ∉ lo.refs) (hnF : neu ∉ lo.refs) (hFT : ∀ x ∈ lo.refs, InTable h x)
    (he : BecomeForward h old neu = some (true, h')) {i : Nat} {f y : Object}
    (hFi : lo.refs[i]? = some f) (hGi : ln.refs[i]? = some y) :
    ∃ l, h'.load f = some l ∧ l.cid = kForwardingCorpseCid ∧ l.target = y ∧ ¬ InTable h' f := by
  obtain ⟨h1, h2, h3, h4, h5, hlen, e1, hfg, e2, e3, e4, e5, rfl⟩ :=
    BecomeForward_phases hT hwb hlo hln hso hsn hnd hdis hoF hnF hFT he
  have hi : i < lo.refs.length := (List.getElem?_eq_some.1 hFi).1
  obtain ⟨l1, hl1, hc1, ht1⟩ := hfg.corpses i (by simp [hi]) f y hFi hGi
  have hfT1 : ¬ InTable h1 f := by
    rw [hfg.inTable f, processed_iff]
    exact fun hc => hc.2 (List.getElem?_mem hFi)
  -- the hash/index word holds the target through the passes
  have hword : Respects (fun l l' : Layout => l'.header_hash_ = l.header_hash_) :=
    ⟨fun _ => rfl, fun a b c p q => q.trans p, fun _ _ _ _ _ => rfl⟩
  have hpw := Passed_become hword (fun _ _ => rfl) e2 e3 e4 e5
  -- the class id of an object outside the object table is kept
  have hcid : Respects (fun l l' : Layout => l'.cid = l.cid) :=
    ⟨fun _ => rfl, fun a b c p q => q.trans p, fun _ _ _ _ _ => rfl⟩
  have p2 := Passed_ForwardClassIds_loop hcid _ _ _ e2
  have p3 := Passed_ForwardRoots hcid e3
  have t3 : h3.table_ = h1.table_ ∧ h3.table_size_ = h1.table_size_ :=
    ⟨p3.table.1.trans p2.table.1, p3.table.2.trans p2.table.2⟩
  have k4 : Kept (InTable h1) (fun l l' : Layout => l'.cid = l.cid) h3 h4 := by
    refine ForwardHeap_loop_Kept hcid _ h3 h4 ?_ e4
    intro j hj
    obtain ⟨hj1, hj2⟩ := List.mem_range'_1.1 hj
    exact ⟨j, hj1, by rw [← t3.2]; omega, by rw [t3.1]⟩
  have p5 := Passed_Mourn_loop hcid _ _ _ e5
  obtain ⟨l', hl'⟩ := hpw.forth f l1 hl1
  obtain ⟨l1', hl1', hw⟩ := hpw.back f l' hl'
  rw [hl1] at hl1'
  cases hl1'
  refine ⟨l', hl', ?_, ?_, ?_⟩
  · have hl5 : h5.load f = some l' := by rw [← load_ClearCache]; exact hl'
    obtain ⟨l4, hl4, c5⟩ := p5.back f l' hl5
    obtain ⟨l3, hl3, c4⟩ := k4 f l4 hfT1 hl4
    obtain ⟨l2, hl2, c3⟩ := p3.back f l3 hl3
    obtain ⟨l1', hl1', c2⟩ := p2.back f l2 hl2
    rw [hl1] at hl1'
    cases hl1'
    rw [c5, c4, c3, c2, hc1]
  · show l'.header_hash_ = y
    rw [hw, ht1]
  · rw [InTable_of_frame hpw.table.1 hpw.table.2 f]
    exact hfT1

end psoup

namespace psoup

/-- Counterexample to C11: in `becomeHeap`, which satisfies the data-model invariants, `a` at 7
and `b` at 9 are distinct objects of the object table, `a` being the target of the element of
the array at 11 and held by a handle.  `BecomeForward([a],[b])` with the arrays at 13 and 15
returns true and leaves `a` a forwarding corpse outside the object table.  In `becomeHeapBack`
the array at 13 has been made `[a]` again while the array at 15 is `[b]`: the forwardee `a` of
`BecomeForward([b],[a])` is a forwarding corpse, which the assertion
`!forwardee->IsForwardingCorpse()` of the second loop excludes.  Without the assertion the call
returns true; afterwards the element of the array at 11 targets `a`, but `a` and `b` are both
forwarding corpses outside the object table, and the Ref of `a` that targeted nil before the
first call targets null. -/
theorem BecomeForward_round_trip_counterexample :
    checkWellFormed becomeHeap = true ∧ (7 : Object) ≠ 9 ∧
    inTable becomeHeap 7 = true ∧ inTable becomeHeap 9 = true ∧
    Ref_to becomeHeap (.slot 11 0) = some 7 ∧
    Ref_to becomeHeap (.slot 7 0) = some becomeHeap.interpreter_.nil_obj ∧
    Array.element becomeHeap 13 0 = some 7 ∧ Array.element becomeHeap 15 0 = some 9 ∧
    ((BecomeForward becomeHeap 13 15).map fun p => p.1) = some true ∧
    IsForwardingCorpse (becomeResult becomeHeap 13 15).2 7 = some true ∧
    inTable (becomeResult becomeHeap 13 15).2 7 = false ∧
    Array.element becomeHeapBack 15 0 = some 9 ∧ Array.element becomeHeapBack 13 0 = some 7 ∧
    IsForwardingCorpse becomeHeapBack 7 = some true ∧
    ((BecomeForward becomeHeapBack 15 13).map fun p => p.1) = some true ∧
    Ref_to (becomeResult becomeHeapBack 15 13).2 (.slot 11 0) = some 7 ∧
    IsForwardingCorpse (becomeResult becomeHeapBack 15 13).2 7 = some true ∧
    IsForwardingCorpse (becomeResult becomeHeapBack 15 13).2 9 = some true ∧
    inTable (becomeResult becomeHeapBack 15 13).2 7 = false ∧
    inTable (becomeResult becomeHeapBack 15 13).2 9 = false ∧
    Ref_to (becomeResult becomeHeapBack 15 13).2 (.slot 7 0) = some nullptr :=
  ⟨by decide, by decide, by rfl, by rfl, by rfl, by rfl, by rfl, by rfl, by rfl, by rfl,
    by rfl, by rfl, by rfl, by rfl, by rfl, by rfl, by rfl, by rfl, by rfl, by rfl, by rfl⟩

/-- C11 as amended: become is one-way.  In a heap with legal class ids and clear weak-referent
bits, for arrays whose length slots hold their lengths whose forwarders are distinct objects of
the object table, none of them a forwardee or one of the two arrays, a `BecomeForward` that
returns true leaves every forwarder `old[i]` a forwarding corpse whose target is `neu[i]` and
which is not in the object table.  A following `BecomeForward` with `old[i]` as a forwardee
thus meets a forwarding corpse where its second loop asserts there is none. -/
theorem BecomeForward_one_way (h h' : Heap) (old neu : Object) (lo ln : Layout)
    (hT : TableInv h) (hwb : WeakBitsClear h)
    (hlo : h.load old = some lo) (hln : h.load neu = some ln)
    (hso : SmallInteger.value lo.size_ = (lo.refs.length : Int))
    (hsn : SmallInteger.value ln.size_ = (ln.refs.length : Int))
    (hnd : lo.refs.Nodup) (hdis : ∀ x ∈ lo.refs, x ∉ ln.refs)
    (hoF : old ∉ lo.refs) (hnF : neu ∉ lo.refs) (hFT : ∀ x ∈ lo.refs, InTable h x)
    (he : BecomeForward h old neu = some (true, h')) :
    ∀ (i : Nat) (f y : Object), lo.refs[i]? = some f → ln.refs[i]? = some y →
      IsForwardingCorpse h' f = some true ∧ (h'.load f).map Layout.target = some y ∧
      ¬ InTable h' f := by
  intro i f y hFi hGi
  obtain ⟨l, hl, hc, ht, hn⟩ :=
    BecomeForward_corpse hT hwb hlo hln hso hsn hnd hdis hoF hnF hFT he hFi hGi
  refine ⟨?_, ?_, hn⟩
  · rw [IsForwardingCorpse_of_load hl, hc]
    rfl
  · rw [hl, Option.map_some', ht]

/-- Witness of C11 as amended: the become of `[a]` into `[b]` in `becomeHeap`. -/
theorem BecomeForward_one_way_witness :
    IsForwardingCorpse (becomeResult becomeHeap 13 15).2 7 = some true ∧
    ((becomeResult becomeHeap 13 15).2.load 7).map Layout.target = some 9 ∧
    ¬ InTable (becomeResult becomeHeap 13 15).2 7 :=
  BecomeForward_one_way becomeHeap (becomeResult becomeHeap 13 15).2 13 15
    (Layout.sample kArrayCid 7 [.root 4] [7]) (Layout.sample kArrayCid 8 [.root 5] [9])
    (WellFormed_of_check (by decide)).1 (WeakBitsClear_of_check (by decide)) (by rfl)
    (by rfl) (by rfl) (by rfl) (by decide) (by decide) (by decide) (by decide)
    (fun x hx => by
      have hx7 : x = 7 := List.mem_singleton.1 hx
      subst hx7
      exact ⟨4, by decide, by decide, rfl⟩) (by rfl) 0 7 9 (by rfl) (by rfl)

end psoup

namespace psoup

theorem mem_tableObjects (h : Heap) (o : Object) : o ∈ tableObjects h ↔ InTable h o := by
  unfold tableObjects InTable
  rw [List.mem_map]
  constructor
  · rintro ⟨i, hi, hio⟩
    obtain ⟨h1, h2⟩ := List.mem_range'_1.1 hi
    exact ⟨i, h1, by omega, hio⟩
  · rintro ⟨i, h1, h2, hio⟩
    exact ⟨i, List.mem_range'_1.2 ⟨h1, by omega⟩, hio⟩

theorem tableObjects_nodup {h : Heap} (hO : ObjectTable h) : (tableObjects h).Nodup := by
  unfold tableObjects
  refine List.Nodup.map_on ?_ (List.nodup_range' _ _)
  intro i hi j hj heq
  obtain ⟨i1, i2⟩ := List.mem_range'_1.1 hi
  obtain ⟨j1, j2⟩ := List.mem_range'_1.1 hj
  exact hO.distinct i j i1 (by omega) j1 (by omega) heq

/-- A sum over the objects of a table, split into the objects that stay and the objects that
leave. -/
theorem sum_split {L L' F : List Object} (g : Object → Nat) (hL : L.Nodup) (hL' : L'.Nodup)
    (hF : F.Nodup) (hmem : ∀ o, o ∈ L' ↔ (o ∈ L ∧ o ∉ F)) (hsub : ∀ o ∈ F, o ∈ L) :
    (L.map g).sum = (L'.map g).sum + (F.map g).sum := by
  have hnd : (L' ++ F).Nodup := by
    refine List.Nodup.append hL' hF ?_
    intro o h1 h2
    exact ((hmem o).1 h1).2 h2
  have hperm : L.Perm (L' ++ F) := by
    refine (List.perm_ext_iff_of_nodup hL hnd).2 ?_
    intro o
    rw [List.mem_append, hmem o]
    constructor
    · intro ho
      by_cases hoF : o ∈ F
      · exact Or.inr hoF
      · exact Or.inl ⟨ho, hoF⟩
    · rintro (⟨ho, -⟩ | ho)
      · exact ho
      · exact hsub o ho
  rw [(hperm.map g).sum_eq, List.map_append, List.sum_append]

/-- The sum of the sizes over the object table when objects leave the table and the others
keep their sizes. -/
theorem tableHeapSize_shrink {h h' : Heap} {F : List Object} (hO : ObjectTable h)
    (hO' : ObjectTable h') (hF : F.Nodup) (hmem : ∀ o, InTable h' o ↔ (InTable h o ∧ o ∉ F))
    (hsub : ∀ o ∈ F, InTable h o)
    (hsize : ∀ o, InTable h' o → h'.sizeOf o = h.sizeOf o) :
    tableHeapSize h = tableHeapSize h' + (F.map h.sizeOf).sum := by
  unfold tableHeapSize
  have h1 : (tableObjects h').map h'.sizeOf = (tableObjects h').map h.sizeOf := by
    apply List.map_congr_left
    intro o ho
    exact hsize o ((mem_tableObjects h' o).1 ho)
  rw [h1]
  refine sum_split h.sizeOf (tableObjects_nodup hO) (tableObjects_nodup hO') hF ?_ ?_
  · intro o
    rw [mem_tableObjects, mem_tableObjects, hmem o]
  · intro o ho
    exact (mem_tableObjects h o).2 (hsub o ho)

theorem sizeOf_of_Kept {X : Object → Prop} {h h' : Heap}
    (hk : Kept X Layout.SameSize h h') {o : Object} (hx : ¬ X o) {l' : Layout}
    (hl' : h'.load o = some l') : h'.sizeOf o = h.sizeOf o := by
  obtain ⟨l, hl, hs⟩ := hk o l' hx hl'
  unfold Heap.sizeOf
  rw [hl, hl']
  exact HeapSize_of_SameSize hs

end psoup

namespace psoup

theorem Accounted_of_same {h h' : Heap} (hA : Accounted h) (ht : h'.table_ = h.table_)
    (hs : h'.table_size_ = h.table_size_) (hz : h'.heap_size_ = h.heap_size_)
    (hk : ∀ o, InTable h o → h'.sizeOf o = h.sizeOf o) : Accounted h' := by
  unfold Accounted at *
  rw [hz, hA]
  congr 1
  unfold tableHeapSize
  have e : tableObjects h' = tableObjects h := by
    unfold tableObjects
    rw [ht, hs]
  rw [e]
  congr 1
  apply List.map_congr_left
  intro o ho
  exact (hk o ((mem_tableObjects h o).1 ho)).symm

theorem sizeOf_MarkFrame {h h' : Heap} (hf : MarkFrame h h') (o : Object) :
    h'.sizeOf o = h.sizeOf o := by
  unfold Heap.sizeOf
  cases hl : h.load o with
  | none =>
    cases hl' : h'.load o with
    | none => rfl
    | some l' =>
      obtain ⟨l, hl0, -⟩ := (MarkFrame_load hf o).2 l' hl'
      rw [hl] at hl0
      cases hl0
  | some l =>
    obtain ⟨l', hl', hs⟩ := (MarkFrame_load hf o).1 l hl
    rw [hl']
    exact HeapSize_of_SameSize (Respects_SameSize.2.2 l l' hs)

theorem Accounted_MarkFrame {h h' : Heap} (hA : Accounted h) (hf : MarkFrame h h') :
    Accounted h' := by
  obtain ⟨e1, e2, -, -, -, -, -, e8, -⟩ := MarkFrame_fields hf
  exact Accounted_of_same hA e1 e2 e8 (fun o _ => sizeOf_MarkFrame hf o)

theorem Free_heap_size {h h' : Heap} {x : Object} (hf : Free h x = some h') :
    (∃ l, h.load x = some l) ∧ h'.heap_size_ = h.heap_size_ - (h.sizeOf x : Int) := by
  simp only [Free, Option.bind_eq_some, Option.map_eq_some'] at hf
  obtain ⟨o, hlo, ha, hha, rfl⟩ := hf
  have key : ha.heap_size_ = h.heap_size_ := by
    by_cases hc : o.in_class_table = true
    · rw [if_pos hc] at hha
      simp only [Option.bind_eq_some, Option.map_eq_some'] at hha
      obtain ⟨id, -, hb, hput, rfl⟩ := hha
      exact (class_table_put_eq_some hput).2.2.2.2.2.2.2.1
    · rw [if_neg hc] at hha
      cases hha
      rfl
  refine ⟨⟨o, hlo⟩, ?_⟩
  show ha.heap_size_ - (o.HeapSize : Int) = _
  rw [key]
  unfold Heap.sizeOf
  rw [hlo]

theorem GCStep_free_heap_size :
    ∀ (xs : List Object) (h h' : Heap), xs.Nodup → GCStep.free h xs = some h' →
      (∀ x ∈ xs, ∃ l, h.load x = some l) ∧
      h'.heap_size_ = h.heap_size_ - ((xs.map h.sizeOf).sum : Nat) := by
  intro xs
  induction xs with
  | nil =>
    intro h h' _ he
    simp only [GCStep.free, Option.some.injEq] at he
    subst he
    simp
  | cons x rest ih =>
    intro h h' hnd he
    simp only [GCStep.free, Option.bind_eq_some] at he
    obtain ⟨ha, hfa, he⟩ := he
    obtain ⟨hx, hz⟩ := Free_heap_size hfa
    obtain ⟨hload, -⟩ := Free_spec hfa
    obtain ⟨hnot, hnd'⟩ := List.nodup_cons.1 hnd
    obtain ⟨hall, hz'⟩ := ih ha h' hnd' he
    have hsame : ∀ y ∈ rest, ha.load y = h.load y := by
      intro y hy
      rw [hload y, if_neg]
      rintro rfl
      exact hnot hy
    refine ⟨?_, ?_⟩
    · intro y hy
      rcases List.mem_cons.1 hy with rfl | hy
      · exact hx
      · obtain ⟨l, hl⟩ := hall y hy
        exact ⟨l, (hsame y hy) ▸ hl⟩
    · have hmap : rest.map ha.sizeOf = rest.map h.sizeOf := by
        apply List.map_congr_left
        intro y hy
        unfold Heap.sizeOf
        rw [hsame y hy]
      rw [hz', hz, hmap, List.map_cons, List.sum_cons]
      push_cast
      ring

/-- A reclamation keeps the heap-size accounting. -/
theorem Accounted_reclaim {h1 h3 : Heap} (hc : ClosureFound h1) (hA : Accounted h1)
    (he : GCStep.reclaim h1 = some h3) : Accounted h3 := by
  obtain ⟨hw3, hmem, -, -, -, -, -, -, -, -, -⟩ := GCStep_reclaim_spec hc he
  have hk : Kept (fun _ => False) Layout.SameSize h1 h3 :=
    GCStep_reclaim_Kept Respects_SameSize.1 Respects_SameSize.2.1 he
  have hT3 : TableInv h3 := hw3.1
  unfold GCStep.reclaim at he
  simp only [Option.bind_eq_some, Option.map_eq_some'] at he
  obtain ⟨p, e1, hq, e2, hq3⟩ := he
  obtain ⟨kp, zp⟩ := GCStep_unlink_Kept (X := fun _ => False) Respects_SameSize.1
    Respects_SameSize.2.1 _ _ _ _ e1
  obtain ⟨hall, zq⟩ := GCStep_free_heap_size _ _ _ hc.nodup e2
  have hz3 : h3.heap_size_ = hq.heap_size_ := by
    rw [← hq3]
    split_ifs <;> rfl
  have hsz : (h1.worklist_.map p.1.sizeOf) = h1.worklist_.map h1.sizeOf := by
    apply List.map_congr_left
    intro x hx
    obtain ⟨l, hl⟩ := hall x hx
    exact sizeOf_of_Kept kp (fun hcon => hcon) hl
  have hshrink := tableHeapSize_shrink (F := h1.worklist_) (ObjectTable_of_TableInv hc.table)
    (ObjectTable_of_TableInv hT3) hc.nodup hmem hc.inTable
    (fun o ho => by
      obtain ⟨l, hl, -⟩ := load_of_InTable hT3 ho
      exact sizeOf_of_Kept hk (fun hcon => hcon) hl)
  unfold Accounted at *
  rw [hz3, zq, zp, hA, hsz, hshrink]
  push_cast
  ring

/-- One round of `GCStep` keeps the heap-size accounting. -/
theorem Accounted_round {h h' : Heap} (hwf : WeaklyFormed h) (hA : Accounted h)
    {random : Nat} (he : GCStep.round h random = some h') : Accounted h' := by
  unfold GCStep.round at he
  by_cases hz : h.table_size_ = 0
  · rw [if_pos hz] at he; cases he
  rw [if_neg hz] at he
  simp only at he
  by_cases hi : random % h.table_size_ = 0
  · rw [if_pos hi] at he
    cases he
    exact hA
  rw [if_neg hi] at he
  simp only [Option.bind_eq_some, Option.map_eq_some'] at he
  obtain ⟨⟨b, h1⟩, hcr, h4, hbr, rfl⟩ := he
  have hcT : InTable h (h.table_ (random % h.table_size_)) :=
    ⟨_, by omega, Nat.mod_lt _ (by omega), rfl⟩
  have hlast : ∀ g : Heap, Accounted g → Accounted { g with worklist_ := [] } := fun g hg => hg
  apply hlast
  by_cases hsing : h.table_ (random % h.table_size_) = h.interpreter_.nil_obj ∨
      h.table_ (random % h.table_size_) = h.interpreter_.true_obj ∨
      h.table_ (random % h.table_size_) = h.interpreter_.false_obj
  · rw [CheckReachable_singleton hsing] at hcr
    cases hcr
    simp only [if_true] at hbr
    exact Accounted_MarkFrame hA (GCStep_unmark_spec _ _ _ hbr).1
  · obtain ⟨sf, st, -⟩ := CheckReachable_spec hwf hcT hsing
    cases b with
    | true =>
      simp only [if_true] at hbr
      exact Accounted_MarkFrame (Accounted_MarkFrame hA (st h1 hcr).1.frame)
        (GCStep_unmark_spec _ _ _ hbr).1
    | false =>
      obtain ⟨hs, hp, -⟩ := sf h1 hcr
      simp only [Bool.false_eq_true, if_false] at hbr
      have hc := ClosureFound_of_CheckReachable hwf hs hp
      exact Accounted_reclaim hc (Accounted_MarkFrame hA hs.frame) hbr

/-- `GCStep` keeps the heap-size accounting. -/
theorem Accounted_GCStep {h h' : Heap} (hwf : WeaklyFormed h) (hA : Accounted h)
    {random0 random1 random2 : Nat} (he : GCStep h random0 random1 random2 = some h') :
    Accounted h' := by
  unfold GCStep at he
  simp only [Option.bind_eq_some, Option.map_eq_some'] at he
  obtain ⟨h1, e1, h2, e2, h3, e3, rfl⟩ := he
  obtain ⟨w1, -⟩ := GCStep_round_spec hwf e1
  obtain ⟨w2, -⟩ := GCStep_round_spec w1 e2
  have hA3 : Accounted h3 := Accounted_round w2 (Accounted_round w1 (Accounted_round hwf hA e1) e2) e3
  exact hA3

end psoup

namespace psoup

theorem RespectsIndex_of_Header {P : Layout → Layout → Prop} (hH : RespectsHeader P) :
    RespectsIndex P := fun _ l => hH.1 _ l

theorem RespectsHeader_SameSize : RespectsHeader Layout.SameSize :=
  ⟨fun _ _ => ⟨rfl, rfl, rfl, rfl, rfl⟩, fun _ _ => ⟨rfl, rfl, rfl, rfl, rfl⟩⟩

/-- The body of the second loop of `BecomeForward` keeps, for every object other than the
forwarder, what `Ref::UpdateNoCheck` and changes of the hash/index word and of the
in-class-table bit keep. -/
theorem pair_Kept_header {X : Object → Prop} {P : Layout → Layout → Prop} (hP : Respects P)
    (hH : RespectsHeader P) {h h' : Heap} {f y : Object} (hf : X f)
    (he : BecomeForward.pair h f y = some h') : Kept X P h h' := by
  unfold BecomeForward.pair at he
  simp only [Option.bind_eq_some] at he
  obtain ⟨fr, -, h1, e1, fe1, -, fr1, -, h2, e2, fr2, -, h3, e3, h4, e4, fr4, -, h5, e5, e6⟩ :=
    he
  have s1 : Kept X P h h1 := Kept_modify hP e1 (Or.inr fun l => hH.1 _ l)
  have s2 : Kept X P h1 h2 := Kept_modify hP e2 (Or.inr fun l => hH.2 _ l)
  obtain ⟨s3, -⟩ := Unlink_Kept (X := X) hP (RespectsIndex_of_Header hH) e3
  have s4 : Kept X P h3 h4 := Kept_modify hP e4 (Or.inl hf)
  have s5 : Kept X P h4 h5 := by
    split_ifs at e5
    · exact Kept_modify hP e5 (Or.inl hf)
    · cases e5; exact Kept_refl hP X h4
  have s6 : Kept X P h5 h' := Kept_modify hP e6 (Or.inl hf)
  exact Kept_trans hP s1 (Kept_trans hP s2 (Kept_trans hP s3 (Kept_trans hP s4
    (Kept_trans hP s5 s6))))

theorem corpses_Kept_header {P : Layout → Layout → Prop} (hP : Respects P)
    (hH : RespectsHeader P) {h : Heap} {old neu : Object} {lo ln : Layout}
    (hwb : WeakBitsClear h) (hlo : h.load old = some lo) (hln : h.load neu = some ln)
    (hnd : lo.refs.Nodup) (hdis : ∀ x ∈ lo.refs, x ∉ ln.refs)
    (hoF : old ∉ lo.refs) (hnF : neu ∉ lo.refs) (hFT : ∀ x ∈ lo.refs, InTable h x) :
    ∀ (is Q : List Nat) (g g' : Heap), Forwarding h lo.refs ln.refs Q g →
      (∀ i ∈ is, i ∉ Q ∧ i < lo.refs.length ∧ i < ln.refs.length) → is.Nodup →
      BecomeForward.corpses g old neu is = some g' →
      Kept (fun o => o ∈ lo.refs) P g g' := by
  intro is
  induction is with
  | nil =>
    intro Q g g' hf _ _ he
    simp only [BecomeForward.corpses, Option.some.injEq] at he
    subst he
    exact Kept_refl hP _ g
  | cons i rest ih =>
    intro Q g g' hf his hnodup he
    obtain ⟨hiQ, hi1, hi2⟩ := his i (List.mem_cons_self _ _)
    have hunp : ∀ x, x ∉ lo.refs → ∀ j ∈ Q, lo.refs[j]? ≠ some x :=
      fun x hx j _ hcon => hx (List.getElem?_mem hcon)
    obtain ⟨lo', hlo', -, eo⟩ := hf.present old lo hlo
    obtain ⟨ln', hln', -, en⟩ := hf.present neu ln hln
    have e1 : Array.element g old i = some lo.refs[i] := by
      rw [Array_element_eq hlo', (eo (hunp old hoF)).2.2]
      exact List.getElem?_eq_getElem hi1
    have e2 : Array.element g neu i = some ln.refs[i] := by
      rw [Array_element_eq hln', (en (hunp neu hnF)).2.2]
      exact List.getElem?_eq_getElem hi2
    simp only [BecomeForward.corpses, e1, e2, Option.some_bind, Option.bind_eq_some] at he
    obtain ⟨g1, ep, erest⟩ := he
    have hf1 := Forwarding_pair hwb hnd hdis hFT hf hiQ (List.getElem?_eq_getElem hi1)
      (List.getElem?_eq_getElem hi2) ep
    have k1 := pair_Kept_header (X := fun o => o ∈ lo.refs) hP hH (List.getElem_mem hi1) ep
    have k2 := ih (i :: Q) g1 g' hf1 (fun j hj => by
      obtain ⟨a, b, c⟩ := his j (List.mem_cons_of_mem _ hj)
      refine ⟨fun hcon => ?_, b, c⟩
      rcases List.mem_cons.1 hcon with rfl | hcon
      · exact (List.nodup_cons.1 hnodup).1 hj
      · exact a hcon) (List.Nodup.of_cons hnodup) erest
    exact Kept_trans hP k1 k2

theorem ForwardPointers_class_table : ∀ (rs : List RefPtr) (h h' : Heap),
    ForwardPointers h rs = some h' → h'.class_table_ = h.class_table_ := by
  intro rs
  induction rs with
  | nil =>
    intro h h' he
    simp only [ForwardPointers, Option.some.injEq] at he; subst he; rfl
  | cons r rest ih =>
    intro h h' he
    simp only [ForwardPointers, Option.bind_eq_some] at he
    obtain ⟨h1, e1, e2⟩ := he
    refine (ih _ _ e2).trans ?_
    unfold ForwardPointer at e1
    simp only [Option.bind_eq_some] at e1
    obtain ⟨t, -, c, -, e1⟩ := e1
    split_ifs at e1
    · simp only [Option.bind_eq_some] at e1
      obtain ⟨l, -, hu⟩ := e1
      obtain ⟨t', -, -, -, rfl⟩ := UpdateNoCheck_eq_some.1 hu
      rfl
    · cases e1; rfl

theorem corpse_free_Passed {P : Layout → Layout → Prop}
    (hPc : ∀ l l', P l l' → l'.cid = l.cid) {g g' : Heap} (hp : Passed P g g')
    (hc : g'.class_table_ = g.class_table_)
    (hct : ∀ k, IsForwardingCorpse g (g.class_table_ k) = some false) :
    ∀ k, IsForwardingCorpse g' (g'.class_table_ k) = some false := by
  intro k
  rw [hc]
  have h0 := hct k
  by_cases hh : IsHeapObject (g.class_table_ k)
  · cases hl : g.load (g.class_table_ k) with
    | none =>
      simp [IsForwardingCorpse, ClassId, (not_isSmallInteger_iff _).2 hh, hl] at h0
    | some l =>
      obtain ⟨l', hl'⟩ := hp.forth _ l hl
      obtain ⟨l0, hl0, hs⟩ := hp.back _ l' hl'
      rw [hl] at hl0
      cases hl0
      rw [IsForwardingCorpse_of_load hl] at h0
      rw [IsForwardingCorpse_of_load hl', hPc _ _ hs]
      exact h0
  · exact IsForwardingCorpse_of_not_heap hh

/-- The passes of `BecomeForward` after its second loop when no entry of the class table is a
forwarding corpse: no class id changes. -/
theorem Passed_become_noclass {P : Layout → Layout → Prop} (hP : Respects P)
    (hPc : ∀ l l', P l l' → l'.cid = l.cid) {h1 h2 h3 h4 h5 : Heap}
    (hct : ∀ k, IsForwardingCorpse h1 (h1.class_table_ k) = some false)
    (e2 : ForwardClassIds h1 = some h2) (e3 : ForwardRoots h2 = some h3)
    (e4 : ForwardHeap h3 = some h4) (e5 : MournClassTableForwarded h4 = some h5) :
    Passed P h1 (ClearCache h5) := by
  have h21 : h2 = h1 := ForwardClassIds_loop_noop _ h1 h2 hct e2
  subst h21
  have p3 : Passed P h2 h3 := Passed_ForwardRoots hP e3
  have c3 : h3.class_table_ = h2.class_table_ := by
    unfold ForwardRoots at e3
    simp only [Option.bind_eq_some] at e3
    obtain ⟨hs, -, g2, f2, f3⟩ := e3
    have c2 := ForwardPointers_class_table _ _ _ f2
    have c3 := ForwardPointers_class_table _ _ _ f3
    exact c3.trans c2
  have hct3 := corpse_free_Passed hPc p3 c3 hct
  have loop : ∀ (is : List Nat) (g g' : Heap),
      (∀ k, IsForwardingCorpse g (g.class_table_ k) = some false) →
      ForwardHeap.loop g is = some g' → Passed P g g' := by
    intro is
    induction is with
    | nil =>
      intro g g' _ he
      simp only [ForwardHeap.loop, Option.some.injEq] at he; subst he
      exact Passed_refl hP g
    | cons i rest ih =>
      intro g g' hg he
      simp only [ForwardHeap.loop, ForwardHeap.step, Option.bind_eq_some] at he
      obtain ⟨g2, ⟨g1, f1, o, -, f2⟩, f3⟩ := he
      have hg1 : g1 = g := ForwardClass_noop hg f1
      subst hg1
      have q := Passed_ForwardPointers hP _ _ _ f2
      have hc := ForwardPointers_class_table _ _ _ f2
      exact Passed_trans hP q (ih g2 g' (corpse_free_Passed hPc q hc hg) f3)
  have p4 : Passed P h3 h4 := loop _ h3 h4 hct3 e4
  exact Passed_trans hP p3 (Passed_trans hP p4 (Passed_trans hP (Passed_Mourn_loop hP _ _ _ e5)
    (Passed_of_load hP (fun o => load_ClearCache h5 o) rfl rfl rfl)))

end psoup

namespace psoup

end psoup

namespace psoup

end psoup

namespace psoup

theorem RespectsHeap_SameIds : RespectsHeap Layout.SameIds ∧ RespectsIndex Layout.SameIds ∧
    RespectsMarks Layout.SameIds ∧ RespectsCid Layout.SameIds := by
  refine ⟨⟨fun _ => ⟨rfl, fun _ _ hw _ => hw⟩, fun a b c h1 h2 => ?_, fun r t v o l ht hr => ?_⟩,
    fun _ _ => ⟨rfl, fun _ _ hw _ => hw⟩, ?_, fun _ _ => ⟨rfl, fun _ _ hw _ => hw⟩⟩
  · exact ⟨h2.1.trans h1.1, fun i w hw hs => h2.2 i w (h1.2 i w hw hs) hs⟩
  · refine ⟨rfl, fun i w hw hs => ?_⟩
    cases r with
    | slot s j =>
      by_cases hos : o = s
      · subst hos
        have hj := hr j rfl
        by_cases hij : i = j
        · subst hij
          rw [hw] at hj
          cases hj
          exact absurd ht ((not_isHeapObject_iff _).2 hs)
        · simp only [Layout.retarget, if_true]
          rw [List.getElem?_set_ne (Ne.symm hij)]
          exact hw
      · simp only [Layout.retarget, if_neg hos]
        exact hw
    | root j => exact hw
    | stack j => exact hw
  · intro l l' hs
    obtain ⟨e1, -, -, -, -, -, -, -, e9⟩ := (SameButMarks_iff l l').1 hs
    exact ⟨e1, fun i w hw _ => by rw [e9]; exact hw⟩

theorem KeptH_refl {P : Layout → Layout → Prop} (hP : RespectsHeap P) (X : Object → Prop)
    (h : Heap) : Kept X P h h :=
  fun _ l _ hl => ⟨l, hl, hP.refl l⟩

theorem KeptH_trans {X : Object → Prop} {P : Layout → Layout → Prop} (hP : RespectsHeap P)
    {h1 h2 h3 : Heap} (a : Kept X P h1 h2) (b : Kept X P h2 h3) : Kept X P h1 h3 := by
  intro o l3 hx hl3
  obtain ⟨l2, hl2, p2⟩ := b o l3 hx hl3
  obtain ⟨l1, hl1, p1⟩ := a o l2 hx hl2
  exact ⟨l1, hl1, hP.trans _ _ _ p1 p2⟩

theorem KeptH_of_load {X : Object → Prop} {P : Layout → Layout → Prop} (hP : RespectsHeap P)
    {h h' : Heap} (hl : ∀ o, h'.load o = h.load o) : Kept X P h h' :=
  fun o l' _ hl' => ⟨l', (hl o) ▸ hl', hP.refl l'⟩

theorem KeptH_modify {X : Object → Prop} {P : Layout → Layout → Prop} (hP : RespectsHeap P)
    {h h' : Heap} {z : Object} {f : Layout → Layout}
    (hm : h.modify z f = some h') (hf : ∀ l, P l (f l)) : Kept X P h h' := by
  obtain ⟨-, hload, -⟩ := modify_spec hm
  intro o l' _ hl'
  rw [hload] at hl'
  by_cases hoz : o = z
  · rw [if_pos hoz] at hl'
    obtain ⟨l, hl, rfl⟩ := Option.map_eq_some'.1 hl'
    exact ⟨l, hl, hf l⟩
  · rw [if_neg hoz] at hl'
    exact ⟨l', hl', hP.refl l'⟩

/-- `Ref::UpdateNoCheck` of a Ref whose target is a heap object. -/
theorem KeptH_UpdateNoCheck {X : Object → Prop} {P : Layout → Layout → Prop}
    (hP : RespectsHeap P) {h h' : Heap} {r : RefPtr} {v : Object}
    (hu : UpdateNoCheck h r v = some h') (ht : ∀ t, Ref_to h r = some t → IsHeapObject t) :
    Kept X P h h' := by
  obtain ⟨t, hto, -, -, rfl⟩ := UpdateNoCheck_eq_some.1 hu
  intro o l' _ hl'
  rw [load_retarget] at hl'
  obtain ⟨l, hl, rfl⟩ := Option.map_eq_some'.1 hl'
  refine ⟨l, hl, hP.retarget r t v o l (ht t hto) ?_⟩
  rintro i rfl
  simp only [Ref_to, hl, Option.some_bind] at hto
  exact hto

theorem Unlink_outgoing_KeptH {X : Object → Prop} {P : Layout → Layout → Prop}
    (hP : RespectsHeap P) (obj : Object) :
    ∀ (is : List Nat) (h h' : Heap), Unlink.outgoing h obj is = some h' → Kept X P h h' := by
  intro is
  induction is with
  | nil =>
    intro h h' he
    simp only [Unlink.outgoing, Option.some.injEq] at he; subst he
    exact KeptH_refl hP X h
  | cons i rest ih =>
    intro h h' he
    simp only [Unlink.outgoing, Option.bind_eq_some] at he
    obtain ⟨t, hto, h1, hu, hrest⟩ := he
    have a := ih _ _ hrest
    split_ifs at hu with hs
    · cases hu; exact a
    · refine KeptH_trans hP (KeptH_UpdateNoCheck hP hu ?_) a
      intro t' ht'
      rw [hto] at ht'
      cases ht'
      by_contra hcon
      exact hs ((not_isHeapObject_iff _).1 hcon)

theorem Unlink_weak_KeptH {X : Object → Prop} {P : Layout → Layout → Prop}
    (hP : RespectsHeap P) {h1 : Heap} (hc : ClosureFound h1) {x : Object}
    (hx : x ∈ h1.worklist_) :
    ∀ (fuel : Nat) (h : Heap) (cur : Option RefPtr), Reclaiming h1 h →
      (∀ r, cur = some r → r ∈ h.incomingOf x) →
      ∀ h', Unlink.weak fuel h x cur = some h' → Kept X P h h' := by
  have hxT := hc.inTable x hx
  intro fuel
  induction fuel with
  | zero =>
    intro h cur hr hcur h' he
    cases cur with
    | none =>
      simp only [Unlink.weak, Option.some.injEq] at he
      subst he
      exact KeptH_refl hP X h
    | some r => simp [Unlink.weak] at he
  | succ fuel ih =>
    intro h cur hr hcur h' he
    cases cur with
    | none =>
      simp only [Unlink.weak, Option.some.injEq] at he
      subst he
      exact KeptH_refl hP X h
    | some r =>
      simp only [Unlink.weak, Option.bind_eq_some] at he
      obtain ⟨o, hlo, t0, ht0, ha, hua, he⟩ := he
      have hrin : r ∈ h.incomingOf x := hcur r rfl
      have hgood := hr.closed x hx r hrin
      obtain ⟨hra, -⟩ := Reclaiming_retarget hc hr hua hgood
      obtain ⟨t, hto, htl, hvl, hae⟩ := UpdateNoCheck_eq_some.1 hua
      have htx : t = x := by
        rcases hr.sound x hxT r hrin with ⟨h2, -⟩ | h2
        · rw [hto] at h2; exact Option.some.inj h2
        · rw [hto] at h2; cases h2
      subst htx
      have hnext : ∀ n, Link_next o.incoming_ r = some n → n ∈ ha.incomingOf t := by
        intro n hn
        obtain ⟨hn1, hn2⟩ := Link_next_spec hn
        have hnd : o.incoming_.Nodup := by
          have := hr.nodup t hxT
          rw [incomingOf_of_load hlo] at this
          exact this
        have hne := hn2 hnd
        rw [hae, incomingOf_retarget t (fun hv ho => by subst ho; exact hvl hv),
          List.mem_append]
        left
        rw [incomingOf_of_load hlo]
        split_ifs
        · exact (List.mem_erase_of_ne hne).2 hn1
        · exact hn1
      have a := ih ha (Link_next o.incoming_ r) hra hnext h' he
      refine KeptH_trans hP (KeptH_UpdateNoCheck hP hua ?_) a
      intro t' ht'
      rw [hto] at ht'
      cases ht'
      exact isHeapObject_of_InTable hc.table hxT

theorem Unlink_KeptH {X : Object → Prop} {P : Layout → Layout → Prop} (hP : RespectsHeap P)
    (hI : RespectsIndex P) {h1 h h' : Heap} (hc : ClosureFound h1) {x : Object}
    (hx : x ∈ h1.worklist_) (hr : Reclaiming h1 h) (hu : Unlink h x = some h') :
    Kept X P h h' := by
  simp only [Unlink, Option.bind_eq_some] at hu
  obtain ⟨o, hlo, ha, hwa, o1, hlo1, hb, hob, htb⟩ := hu
  have ka : Kept X P h ha := by
    by_cases hw : o.is_weak_referent = true
    · rw [if_pos hw] at hwa
      refine Unlink_weak_KeptH hP hc hx _ h _ hr ?_ ha hwa
      intro r hr'
      rw [incomingOf_of_load hlo]
      exact List.mem_of_mem_head? hr'
    · rw [if_neg hw] at hwa
      cases hwa
      exact KeptH_refl hP X h
  have kb := Unlink_outgoing_KeptH (X := X) hP x _ _ _ hob
  have kc : Kept X P hb h' := by
    unfold Unlink.table at htb
    simp only [Option.bind_eq_some] at htb
    obtain ⟨l2, hl2, htb⟩ := htb
    split_ifs at htb
    simp only [Option.bind_eq_some, Option.some.injEq] at htb
    obtain ⟨g1, e1, g3, e3, rfl⟩ := htb
    have s1 : Kept X P hb g1 := KeptH_modify hP e1 (fun l => hI 0 l)
    have s3 : Kept X P _ g3 := KeptH_modify (X := X) hP e3 (fun l => hI _ l)
    intro y l' hy hl'
    obtain ⟨la, hla, p1⟩ := s3 y l' hy hl'
    obtain ⟨lb, hlb, p⟩ := s1 y la hy hla
    exact ⟨lb, hlb, hP.trans _ _ _ p p1⟩
  exact KeptH_trans hP ka (KeptH_trans hP kb kc)

theorem GCStep_unlink_KeptH {X : Object → Prop} {P : Layout → Layout → Prop}
    (hP : RespectsHeap P) (hI : RespectsIndex P) {h1 : Heap} (hc : ClosureFound h1) :
    ∀ (xs p : List Object) (h : Heap) (k : Bool), Reclaiming h1 h → TableShrunk h1 p h →
      (∀ x ∈ xs, x ∈ h1.worklist_) → xs.Nodup → (∀ x ∈ xs, x ∉ p) →
      ∀ h' k', GCStep.unlink h k xs = some (h', k') → Kept X P h h' := by
  intro xs
  induction xs with
  | nil =>
    intro p h k hr hts _ _ _ h' k' he
    simp only [GCStep.unlink, Option.some.injEq, Prod.mk.injEq] at he
    obtain ⟨rfl, -⟩ := he
    exact KeptH_refl hP X h
  | cons x rest ih =>
    intro p h k hr hts hsub hnd hdis h' k' he
    simp only [GCStep.unlink, Option.bind_eq_some] at he
    obtain ⟨o, hlo, ha, hua, he⟩ := he
    have hxW := hsub x (List.mem_cons_self _ _)
    obtain ⟨hra, htsa⟩ := Unlink_reclaiming hc hxW hr hts (hdis x (List.mem_cons_self _ _)) hua
    have hnd' := List.nodup_cons.1 hnd
    have a := Unlink_KeptH (X := X) hP hI hc hxW hr hua
    have b := ih (x :: p) ha _ hra htsa
      (fun y hy => hsub y (List.mem_cons_of_mem _ hy)) hnd'.2
      (by
        intro y hy hyp
        rcases List.mem_cons.1 hyp with rfl | hyp
        · exact hnd'.1 hy
        · exact hdis y (List.mem_cons_of_mem _ hy) hyp) h' k' he
    exact KeptH_trans hP a b

end psoup

namespace psoup

theorem not_isHeapObject_New (v : Int) : ¬ IsHeapObject (SmallInteger.New v) := by
  rw [isHeapObject_iff, SmallInteger_New_even]
  decide

theorem isSmallInteger_New (v : Int) : IsSmallInteger (SmallInteger.New v) :=
  (not_isHeapObject_iff _).1 (not_isHeapObject_New v)

theorem SmallInteger_value_New_nat {k : Nat} (hk : k ≤ 2 ^ 32) :
    SmallInteger.value (SmallInteger.New (k : Int)) = (k : Int) := by
  apply SmallInteger_value_New
  · have : (0 : Int) ≤ (k : Int) := Int.natCast_nonneg k
    omega
  · have h1 : (k : Int) ≤ 2 ^ 32 := by exact_mod_cast hk
    have h2 : (2 : Int) ^ 32 < 2 ^ 62 := by norm_num
    omega

theorem SmallInteger_New_nat_inj {k k' : Nat} (hk : k ≤ 2 ^ 32) (hk' : k' ≤ 2 ^ 32)
    (he : SmallInteger.New (k : Int) = SmallInteger.New (k' : Int)) : k = k' := by
  have h1 := SmallInteger_value_New_nat hk
  rw [he, SmallInteger_value_New_nat hk'] at h1
  exact_mod_cast h1.symm

/-- The class table in order gives the invariant as the specification states it. -/
theorem ClassTableInv_of_Registry {h : Heap} (hR : Registry h) : ClassTableInv h := by
  intro cls l hT hl
  constructor
  · intro hb
    obtain ⟨k, hid, hk⟩ := hR.registered cls l hT hl hb
    have hheap : IsHeapObject (h.class_table_ k) := by rw [hk]; exact isHeapObject_of_load hl
    obtain ⟨-, hlt, -⟩ := hR.entries k hheap
    have hk32 : k ≤ 2 ^ 32 := le_trans (Nat.le_of_lt hlt) hR.small
    refine ⟨SmallInteger.New (k : Int), ?_, isSmallInteger_New _, ?_⟩
    · show Ref_to h (.slot cls Behavior.classid_index) = _
      simp only [Ref_to, hl, Option.some_bind]
      exact hid
    · rw [SmallInteger_value_New_nat hk32]
      unfold ClassAt class_table_at
      rw [if_pos (Int.natCast_nonneg k), Int.toNat_ofNat, hk]
  · rintro ⟨id, -, -, hc⟩
    unfold ClassAt class_table_at at hc
    split_ifs at hc
    have hc' := Option.some.inj hc
    have hheap : IsHeapObject (h.class_table_ (SmallInteger.value id).toNat) := by
      rw [hc']; exact isHeapObject_of_load hl
    obtain ⟨-, -, -, l', hl', hb, -⟩ := hR.entries _ hheap
    rw [hc', hl] at hl'
    cases hl'
    exact hb

theorem Registry_congr {h h' : Heap} (hR : Registry h) (hl : ∀ o, h'.load o = h.load o)
    (e1 : h'.table_ = h.table_) (e2 : h'.table_size_ = h.table_size_)
    (e3 : h'.class_table_ = h.class_table_)
    (e4 : h'.class_table_size_ = h.class_table_size_) : Registry h' := by
  have hT : ∀ o, InTable h' o ↔ InTable h o := fun o => by
    unfold InTable; rw [e1, e2]
  refine ⟨by rw [e4]; exact hR.small, ?_, ?_⟩
  · intro c l hc hlc hb
    rw [hl] at hlc
    rw [e3]
    exact hR.registered c l ((hT c).1 hc) hlc hb
  · intro k hk
    rw [e3] at hk ⊢
    obtain ⟨a, b, c, l, d, e, f⟩ := hR.entries k hk
    exact ⟨a, by rw [e4]; exact b, (hT _).2 c, l, by rw [hl]; exact d, e, f⟩

theorem Registry_MarkFrame {h h' : Heap} (hR : Registry h) (hf : MarkFrame h h') :
    Registry h' := by
  obtain ⟨e1, e2, -, -, e5, e6, -, -, -⟩ := MarkFrame_fields hf
  have hT : ∀ o, InTable h' o ↔ InTable h o := fun o => by
    unfold InTable; rw [e1, e2]
  refine ⟨by rw [e6]; exact hR.small, ?_, ?_⟩
  · intro c l' hc hlc hb
    obtain ⟨l, hl, hs⟩ := (MarkFrame_load hf c).2 l' hlc
    obtain ⟨s1, -, -, -, -, -, -, -, s9⟩ := (SameButMarks_iff l l').1 hs
    rw [e5, s9]
    exact hR.registered c l ((hT c).1 hc) hl (by rw [← s1]; exact hb)
  · intro k hk
    rw [e5] at hk ⊢
    obtain ⟨a, b, c, l, d, e, f⟩ := hR.entries k hk
    obtain ⟨l', hl', hs⟩ := (MarkFrame_load hf _).1 l d
    obtain ⟨s1, -, -, -, -, -, -, -, s9⟩ := (SameButMarks_iff l l').1 hs
    exact ⟨a, by rw [e6]; exact b, (hT _).2 c, l', hl', by rw [s1]; exact e,
      by rw [s9]; exact f⟩

/-- What `Heap::Free` does to the class table. -/
theorem Free_class_table {h h' : Heap} {x : Object} (hf : Free h x = some h') :
    h'.class_table_size_ = h.class_table_size_ ∧
    ∃ l, h.load x = some l ∧
      (l.in_class_table = false → h'.class_table_ = h.class_table_) ∧
      (l.in_class_table = true → ∃ id, l.refs[Behavior.classid_index]? = some id ∧
        h'.class_table_ = Function.update h.class_table_ (SmallInteger.value id).toNat
          (SmallInteger.New h.class_table_free_)) := by
  simp only [Free, Option.bind_eq_some, Option.map_eq_some'] at hf
  obtain ⟨o, hlo, ha, hha, rfl⟩ := hf
  by_cases hc : o.in_class_table = true
  · rw [if_pos hc] at hha
    simp only [Option.bind_eq_some, Option.map_eq_some'] at hha
    obtain ⟨id, hid, hb, hput, rfl⟩ := hha
    have hsz := (class_table_put_eq_some hput).2.2.2.2.2.2.2.2.2
    unfold class_table_put at hput
    split_ifs at hput
    cases hput
    refine ⟨hsz, o, hlo, ?_, fun _ => ⟨id, ?_, rfl⟩⟩
    · intro hn
      rw [hc] at hn
      cases hn
    · have : Ref_to h (.slot x Behavior.classid_index) = some id := hid
      simp only [Ref_to, hlo, Option.some_bind] at this
      exact this
  · rw [if_neg hc] at hha
    cases hha
    exact ⟨rfl, o, hlo, fun _ => rfl, fun ht => absurd ht hc⟩

/-- What the second loop of a reclamation does to the class table: an entry changes to a small
integer or not at all, the entry of a freed object whose in-class-table bit is set changes, and
no other entry does. -/
theorem GCStep_free_class_table :
    ∀ (xs : List Object) (h h' : Heap), xs.Nodup → GCStep.free h xs = some h' →
      h'.class_table_size_ = h.class_table_size_ ∧
      (∀ k, h'.class_table_ k = h.class_table_ k ∨ ¬ IsHeapObject (h'.class_table_ k)) ∧
      (∀ x ∈ xs, ∀ l id, h.load x = some l → l.in_class_table = true →
        l.refs[Behavior.classid_index]? = some id →
        ¬ IsHeapObject (h'.class_table_ (SmallInteger.value id).toNat)) ∧
      (∀ k, (∀ x ∈ xs, ∀ l id, h.load x = some l → l.in_class_table = true →
        l.refs[Behavior.classid_index]? = some id → (SmallInteger.value id).toNat ≠ k) →
        h'.class_table_ k = h.class_table_ k) := by
  intro xs
  induction xs with
  | nil =>
    intro h h' _ he
    simp only [GCStep.free, Option.some.injEq] at he
    subst he
    exact ⟨rfl, fun _ => Or.inl rfl, (fun x hx => absurd hx (List.not_mem_nil x)),
      fun _ _ => rfl⟩
  | cons x rest ih =>
    intro h h' hnd he
    simp only [GCStep.free, Option.bind_eq_some] at he
    obtain ⟨ha, hfa, he⟩ := he
    obtain ⟨hnot, hnd'⟩ := List.nodup_cons.1 hnd
    obtain ⟨hload, -⟩ := Free_spec hfa
    obtain ⟨z1, lx, hlx, fx0, fx1⟩ := Free_class_table hfa
    obtain ⟨z2, iA, iB, iC⟩ := ih ha h' hnd' he
    have hsame : ∀ y ∈ rest, ha.load y = h.load y := by
      intro y hy
      rw [hload y, if_neg]
      rintro rfl
      exact hnot hy
    have hstep : ∀ k, ha.class_table_ k = h.class_table_ k ∨
        ¬ IsHeapObject (ha.class_table_ k) := by
      intro k
      cases hb : lx.in_class_table with
      | false => left; rw [fx0 hb]
      | true =>
        obtain ⟨id, -, e⟩ := fx1 hb
        rw [e]
        by_cases hk : k = (SmallInteger.value id).toNat
        · right
          rw [hk, Function.update_same]
          exact not_isHeapObject_New _
        · left
          rw [Function.update_noteq hk]
    refine ⟨z2.trans z1, ?_, ?_, ?_⟩
    · intro k
      rcases iA k with e | e
      · rcases hstep k with e' | e'
        · left; rw [e, e']
        · right; rw [e]; exact e'
      · right; exact e
    · intro y hy l id hl hb hid
      rcases List.mem_cons.1 hy with rfl | hy
      · rw [hlx] at hl
        cases hl
        obtain ⟨id', hid', e⟩ := fx1 hb
        rw [hid] at hid'
        cases hid'
        rcases iA (SmallInteger.value id).toNat with e' | e'
        · rw [e', e, Function.update_same]
          exact not_isHeapObject_New _
        · exact e'
      · exact iB y hy l id (by rw [hsame y hy]; exact hl) hb hid
    · intro k hk
      rw [iC k (fun y hy l id hl hb hid =>
        hk y (List.mem_cons_of_mem _ hy) l id (by rw [← hsame y hy]; exact hl) hb hid)]
      cases hb : lx.in_class_table with
      | false => rw [fx0 hb]
      | true =>
        obtain ⟨id, hid, e⟩ := fx1 hb
        rw [e, Function.update_noteq]
        exact fun hcon => hk x (List.mem_cons_self _ _) lx id hlx hb hid hcon.symm

end psoup

namespace psoup

/-- A reclamation keeps the class table in order. -/
theorem Registry_reclaim {h1 h3 : Heap} (hc : ClosureFound h1) (hR : Registry h1)
    (he : GCStep.reclaim h1 = some h3) : Registry h3 := by
  obtain ⟨-, hmem, -, -, -, -, -, -, -, -, -⟩ := GCStep_reclaim_spec hc he
  unfold GCStep.reclaim at he
  simp only [Option.bind_eq_some, Option.map_eq_some'] at he
  obtain ⟨⟨h2, k2⟩, e1, hq, e2, hq3⟩ := he
  simp only at e2 hq3
  obtain ⟨hr, -⟩ := GCStep_unlink_reclaiming hc h1.worklist_ [] h1 false
    (Reclaiming_refl hc) (TableShrunk_refl hc.table) (fun x hx => hx) hc.nodup
    (fun x _ => by simp) h2 k2 e1
  have kp : Kept (fun _ => False) Layout.SameIds h1 h2 :=
    GCStep_unlink_KeptH RespectsHeap_SameIds.1 RespectsHeap_SameIds.2.1 hc h1.worklist_ []
      h1 false (Reclaiming_refl hc) (TableShrunk_refl hc.table) (fun x hx => hx) hc.nodup
      (fun x _ => by simp) h2 k2 e1
  obtain ⟨f1, -⟩ := GCStep_free_spec _ _ _ e2
  obtain ⟨z, cA, cB, cC⟩ := GCStep_free_class_table _ _ _ hc.nodup e2
  have hct2 : h2.class_table_ = h1.class_table_ := hr.class_table.1
  have hsz2 : h2.class_table_size_ = h1.class_table_size_ := hr.class_table.2.1
  -- every object keeps its bit and its small integers while the worklist is unlinked
  have hfw : ∀ o l1, h1.load o = some l1 → ∃ l2, h2.load o = some l2 ∧ Layout.SameIds l1 l2 := by
    intro o l1 hl1
    obtain ⟨l2, hl2, -⟩ := (hr.layout o).1 l1 hl1
    obtain ⟨l1', hl1', hs⟩ := kp o l2 (fun hcon => hcon) hl2
    rw [hl1] at hl1'
    cases hl1'
    exact ⟨l2, hl2, hs⟩
  have hload3 : ∀ o, h3.load o = if o ∈ h1.worklist_ then none else h2.load o := by
    intro o
    rw [← f1 o, ← hq3]
    split_ifs <;> rfl
  have hct3 : h3.class_table_ = hq.class_table_ ∧
      h3.class_table_size_ = hq.class_table_size_ := by
    rw [← hq3]
    split_ifs <;> exact ⟨rfl, rfl⟩
  -- the class id of a registered object of `h1`
  have hid : ∀ c l1, InTable h1 c → h1.load c = some l1 → l1.in_class_table = true →
      ∃ k : Nat, k ≤ 2 ^ 32 ∧ l1.refs[Behavior.classid_index]? = some (SmallInteger.New (k : Int)) ∧
        h1.class_table_ k = c := by
    intro c l1 hcT hl1 hb
    obtain ⟨k, hk1, hk2⟩ := hR.registered c l1 hcT hl1 hb
    have hheap : IsHeapObject (h1.class_table_ k) := by
      rw [hk2]; exact isHeapObject_of_load hl1
    obtain ⟨-, hlt, -⟩ := hR.entries k hheap
    exact ⟨k, le_trans (Nat.le_of_lt hlt) hR.small, hk1, hk2⟩
  -- the entry of an object that stays is untouched
  have hstay : ∀ c l1 (k : Nat), InTable h1 c → c ∉ h1.worklist_ → h1.load c = some l1 →
      k ≤ 2 ^ 32 → h1.class_table_ k = c → hq.class_table_ k = c := by
    intro c l1 k hcT hcW hl1 hk hck
    rw [cC k, hct2, hck]
    intro x hx lx id hlx hbx hidx hcon
    have hxT := hc.inTable x hx
    obtain ⟨lx1, hlx1, -⟩ := load_of_InTable hc.table hxT
    obtain ⟨lx2, hlx2, hs⟩ := hfw x lx1 hlx1
    rw [hlx] at hlx2
    cases hlx2
    obtain ⟨kx, hkx, hidx1, hctx⟩ := hid x lx1 hxT hlx1 (by rw [← hs.1]; exact hbx)
    have := hs.2 _ _ hidx1 (isSmallInteger_New _)
    rw [hidx] at this
    cases this
    rw [SmallInteger_value_New_nat hkx, Int.toNat_ofNat] at hcon
    subst hcon
    rw [hctx] at hck
    subst hck
    exact hcW hx
  refine ⟨by rw [hct3.2, z, hsz2]; exact hR.small, ?_, ?_⟩
  · intro c l hcT hl hb
    obtain ⟨hcT1, hcW⟩ := (hmem c).1 hcT
    rw [hload3, if_neg hcW] at hl
    obtain ⟨l1, hl1, -⟩ := load_of_InTable hc.table hcT1
    obtain ⟨l2, hl2, hs⟩ := hfw c l1 hl1
    rw [hl] at hl2
    cases hl2
    obtain ⟨k, hk, hid1, hck⟩ := hid c l1 hcT1 hl1 (by rw [← hs.1]; exact hb)
    exact ⟨k, hs.2 _ _ hid1 (isSmallInteger_New _), by
      rw [hct3.1]; exact hstay c l1 k hcT1 hcW hl1 hk hck⟩
  · intro k hk
    rw [hct3.1] at hk ⊢
    have hsame : hq.class_table_ k = h1.class_table_ k := by
      rcases cA k with e | e
      · rw [e, hct2]
      · exact absurd hk e
    rw [hsame] at hk ⊢
    obtain ⟨a, b, cT, l1, hl1, hb, hid1⟩ := hR.entries k hk
    obtain ⟨l2, hl2, hs⟩ := hfw _ l1 hl1
    have hk32 : k ≤ 2 ^ 32 := le_trans (Nat.le_of_lt b) hR.small
    have hcW : h1.class_table_ k ∉ h1.worklist_ := by
      intro hcon
      have := cB _ hcon l2 _ hl2 (by rw [hs.1]; exact hb) (hs.2 _ _ hid1 (isSmallInteger_New _))
      rw [SmallInteger_value_New_nat hk32, Int.toNat_ofNat, hsame] at this
      exact this hk
    refine ⟨a, by rw [hct3.2, z, hsz2]; exact b, (hmem _).2 ⟨cT, hcW⟩, l2, ?_,
      by rw [hs.1]; exact hb, hs.2 _ _ hid1 (isSmallInteger_New _)⟩
    rw [hload3, if_neg hcW]
    exact hl2

/-- One round of `GCStep` keeps the class table in order. -/
theorem Registry_round {h h' : Heap} (hwf : WeaklyFormed h) (hR : Registry h)
    {random : Nat} (he : GCStep.round h random = some h') : Registry h' := by
  unfold GCStep.round at he
  by_cases hz : h.table_size_ = 0
  · rw [if_pos hz] at he; cases he
  rw [if_neg hz] at he
  simp only at he
  by_cases hi : random % h.table_size_ = 0
  · rw [if_pos hi] at he
    cases he
    exact hR
  rw [if_neg hi] at he
  simp only [Option.bind_eq_some, Option.map_eq_some'] at he
  obtain ⟨⟨b, h1⟩, hcr, h4, hbr, rfl⟩ := he
  have hcT : InTable h (h.table_ (random % h.table_size_)) :=
    ⟨_, by omega, Nat.mod_lt _ (by omega), rfl⟩
  have hlast : ∀ g : Heap, Registry g → Registry { g with worklist_ := [] } :=
    fun g hg => Registry_congr hg (fun _ => rfl) rfl rfl rfl rfl
  apply hlast
  by_cases hsing : h.table_ (random % h.table_size_) = h.interpreter_.nil_obj ∨
      h.table_ (random % h.table_size_) = h.interpreter_.true_obj ∨
      h.table_ (random % h.table_size_) = h.interpreter_.false_obj
  · rw [CheckReachable_singleton hsing] at hcr
    cases hcr
    simp only [if_true] at hbr
    exact Registry_MarkFrame hR (GCStep_unmark_spec _ _ _ hbr).1
  · obtain ⟨sf, st, -⟩ := CheckReachable_spec hwf hcT hsing
    cases b with
    | true =>
      simp only [if_true] at hbr
      exact Registry_MarkFrame (Registry_MarkFrame hR (st h1 hcr).1.frame)
        (GCStep_unmark_spec _ _ _ hbr).1
    | false =>
      obtain ⟨hs, hp, -⟩ := sf h1 hcr
      simp only [Bool.false_eq_true, if_false] at hbr
      have hc := ClosureFound_of_CheckReachable hwf hs hp
      exact Registry_reclaim hc (Registry_MarkFrame hR hs.frame) hbr

/-- `GCStep` keeps the class table in order. -/
theorem Registry_GCStep {h h' : Heap} (hwf : WeaklyFormed h) (hR : Registry h)
    {random0 random1 random2 : Nat} (he : GCStep h random0 random1 random2 = some h') :
    Registry h' := by
  unfold GCStep at he
  simp only [Option.bind_eq_some, Option.map_eq_some'] at he
  obtain ⟨h1, e1, h2, e2, h3, e3, rfl⟩ := he
  obtain ⟨w1, -⟩ := GCStep_round_spec hwf e1
  obtain ⟨w2, -⟩ := GCStep_round_spec w1 e2
  have hR3 : Registry h3 := Registry_round w2 (Registry_round w1 (Registry_round hwf hR e1) e2) e3
  exact Registry_congr hR3 (fun _ => rfl) rfl rfl rfl rfl

end psoup

namespace psoup

/-- `Heap::RegisterClass` of an object of the object table that is not registered, under a class
id whose entry holds no object, keeps the class table in order. -/
theorem Registry_RegisterClass {h h' : Heap} {cid : Int} {cls : Object} {l : Layout}
    (hR : Registry h) (hlo : (kFirstLegalCid : Int) ≤ cid)
    (hhi : cid < (h.class_table_size_ : Int))
    (hfree : ¬ IsHeapObject (h.class_table_ cid.toNat))
    (hcT : InTable h cls) (hl : h.load cls = some l) (hb : l.in_class_table = false)
    (he : RegisterClass h cid cls = some h') : Registry h' := by
  unfold RegisterClass at he
  simp only [Option.bind_eq_some] at he
  obtain ⟨g1, e1, g2, e2, e3⟩ := he
  obtain ⟨m1, t1, s1, -, -, -, -, -, -, z1⟩ := class_table_put_eq_some e1
  have hc1 : g1.class_table_ = Function.update h.class_table_ cid.toNat cls := by
    unfold class_table_put at e1
    split_ifs at e1
    cases e1
    rfl
  have hl1 : ∀ o, g1.load o = h.load o := fun o => by unfold Heap.load; rw [m1]
  obtain ⟨t, hto, -, -, rfl⟩ := UpdateNoCheck_eq_some.1 e2
  obtain ⟨-, hload, t3, s3, -, -, c3, z3, -⟩ := modify_spec e3
  have h0 : (0 : Int) ≤ cid := le_trans (Int.natCast_nonneg _) hlo
  have hn : ((cid.toNat : Nat) : Int) = cid := Int.toNat_of_nonneg h0
  have hnlo : kFirstLegalCid ≤ cid.toNat := by omega
  have hnhi : cid.toNat < h.class_table_size_ := by omega
  have hslot : l.refs[Behavior.classid_index]? = some t := by
    have : Ref_to g1 (.slot cls Behavior.classid_index) = some t := hto
    simp only [Ref_to, hl1, hl, Option.some_bind] at this
    exact this
  have hlt : Behavior.classid_index < l.refs.length := by
    by_contra hcon
    rw [List.getElem?_eq_none (by omega)] at hslot
    cases hslot
  have hT : ∀ o, InTable h' o ↔ InTable h o := fun o => by
    unfold InTable
    rw [t3, s3]
    show (∃ i, 1 ≤ i ∧ i < g1.table_size_ ∧ g1.table_ i = o) ↔ _
    rw [t1, s1]
  have hct : h'.class_table_ = Function.update h.class_table_ cid.toNat cls := by
    rw [c3]
    exact hc1
  have hsz : h'.class_table_size_ = h.class_table_size_ := by
    rw [z3]
    exact z1
  -- the storage of the class
  have hcls : ∃ l', h'.load cls = some l' ∧ l'.in_class_table = true ∧
      l'.refs[Behavior.classid_index]? = some (SmallInteger.New ((cid.toNat : Nat) : Int)) := by
    refine ⟨{ Layout.retarget (.slot cls Behavior.classid_index) t (SmallInteger.New cid) cls l
      with in_class_table := true }, by rw [hload, if_pos rfl, load_retarget, hl1, hl]; rfl,
      rfl, ?_⟩
    rw [hn]
    show (Layout.retarget (.slot cls Behavior.classid_index) t (SmallInteger.New cid) cls
      l).refs[Behavior.classid_index]? = _
    simp only [Layout.retarget, if_true]
    rw [List.getElem?_set_eq_of_lt _ hlt]
  -- the storage of the other objects
  have hoth : ∀ o l0, o ≠ cls → h.load o = some l0 → ∃ l', h'.load o = some l' ∧
      l'.in_class_table = l0.in_class_table ∧ l'.refs = l0.refs := by
    intro o l0 hne hl0
    refine ⟨Layout.retarget (.slot cls Behavior.classid_index) t (SmallInteger.New cid) o l0,
      by rw [hload, if_neg hne, load_retarget, hl1, hl0]; rfl, rfl, ?_⟩
    simp only [Layout.retarget, if_neg hne]
  refine ⟨by rw [hsz]; exact hR.small, ?_, ?_⟩
  · intro c l' hc hl' hb'
    by_cases hcc : c = cls
    · subst hcc
      obtain ⟨l'', hl'', -, hid⟩ := hcls
      rw [hl'] at hl''
      cases hl''
      exact ⟨cid.toNat, hid, by rw [hct, Function.update_same]⟩
    · have hc0 := (hT c).1 hc
      cases hl0 : h.load c with
      | none =>
        rw [hload, if_neg hcc, load_retarget, hl1, hl0] at hl'
        cases hl'
      | some l0 =>
        obtain ⟨l'', hl'', hbit, hrefs⟩ := hoth c l0 hcc hl0
        rw [hl'] at hl''
        cases hl''
        obtain ⟨k, hk1, hk2⟩ := hR.registered c l0 hc0 hl0 (by rw [← hbit]; exact hb')
        refine ⟨k, by rw [hrefs]; exact hk1, ?_⟩
        rw [hct, Function.update_noteq, hk2]
        rintro rfl
        rw [hk2] at hfree
        exact hfree (isHeapObject_of_load hl0)
  · intro k hk
    rw [hct] at hk ⊢
    by_cases hkn : k = cid.toNat
    · subst hkn
      rw [Function.update_same]
      obtain ⟨l', hl', hbit, hid⟩ := hcls
      exact ⟨hnlo, by rw [hsz]; exact hnhi, (hT cls).2 hcT, l', hl', hbit, hid⟩
    · rw [Function.update_noteq hkn] at hk ⊢
      obtain ⟨a, b, cT, l0, hl0, hb0, hid0⟩ := hR.entries k hk
      have hne : h.class_table_ k ≠ cls := by
        intro hcon
        rw [hcon, hl] at hl0
        cases hl0
        rw [hb] at hb0
        cases hb0
      obtain ⟨l', hl', hbit, hrefs⟩ := hoth _ l0 hne hl0
      exact ⟨a, by rw [hsz]; exact b, (hT _).2 cT, l', hl', by rw [hbit]; exact hb0,
        by rw [hrefs]; exact hid0⟩

end psoup

namespace psoup

/-- The in-class-table bits after the body of the second loop of `BecomeForward`: the bit of the
forwardee is the disjunction of its bit and the bit of the forwarder, and no other object but
the forwarder has another bit than before. -/
theorem pair_bits {g g' : Heap} {f y : Object} {lf : Layout} (hfy : f ≠ y)
    (hlf : g.load f = some lf) (he : BecomeForward.pair g f y = some g') :
    ∀ o l', o ≠ f → g'.load o = some l' → ∃ l, g.load o = some l ∧
      l'.in_class_table =
        if o = y then (l.in_class_table || lf.in_class_table) else l.in_class_table := by
  unfold BecomeForward.pair at he
  simp only [Option.bind_eq_some] at he
  obtain ⟨fr, -, h1, e1, fe1, hfe1, fr1, hfr1, h2, e2, fr2, -, h3, e3, h4, e4, fr4, -, h5, e5,
    e6⟩ := he
  obtain ⟨-, l1, -⟩ := modify_spec e1
  obtain ⟨-, l2, -⟩ := modify_spec e2
  obtain ⟨s3, -⟩ := Unlink_Kept (X := fun _ => False) Respects_SameBit.1 Respects_SameBit.2.1 e3
  obtain ⟨-, l4, -⟩ := modify_spec e4
  obtain ⟨-, l6, -⟩ := modify_spec e6
  have l5 : ∀ o, o ≠ f → h5.load o = h4.load o := by
    intro o ho
    split_ifs at e5
    · obtain ⟨-, l5, -⟩ := modify_spec e5
      rw [l5, if_neg ho]
    · cases e5; rfl
  have hfr1' : fr1 = lf := by
    rw [l1, if_neg hfy, hlf] at hfr1
    exact (Option.some.inj hfr1).symm
  subst hfr1'
  intro o l' ho hl'
  rw [l6, if_neg ho, l5 o ho, l4, if_neg ho] at hl'
  obtain ⟨la, hla, hbit⟩ := s3 o l' (fun hc => hc) hl'
  have hbit' : l'.in_class_table = la.in_class_table := hbit
  rw [l2] at hla
  by_cases hoy : o = y
  · subst hoy
    rw [if_pos rfl, hfe1] at hla
    cases hla
    rw [l1, if_pos rfl] at hfe1
    obtain ⟨l, hl, rfl⟩ := Option.map_eq_some'.1 hfe1
    exact ⟨l, hl, by rw [if_pos rfl, hbit']⟩
  · rw [if_neg hoy, l1, if_neg hoy] at hla
    exact ⟨la, hla, by rw [if_neg hoy, hbit']⟩

/-- The in-class-table bits in the second loop of `BecomeForward`: an object that is not a
processed forwarder has its bit set if and only if it had it set or it is the forwardee of a
processed forwarder that had it set. -/
theorem corpses_bits {h : Heap} {old neu : Object} {lo ln : Layout}
    (hT : TableInv h) (hwb : WeakBitsClear h) (hlo : h.load old = some lo) (hln : h.load neu = some ln)
    (hnd : lo.refs.Nodup) (hdis : ∀ x ∈ lo.refs, x ∉ ln.refs)
    (hoF : old ∉ lo.refs) (hnF : neu ∉ lo.refs) (hFT : ∀ x ∈ lo.refs, InTable h x) :
    ∀ (is Q : List Nat) (g g' : Heap), Forwarding h lo.refs ln.refs Q g →
      (∀ i ∈ is, i ∉ Q ∧ i < lo.refs.length ∧ i < ln.refs.length) → is.Nodup →
      (∀ o l0 l, h.load o = some l0 → g.load o = some l → (∀ i ∈ Q, lo.refs[i]? ≠ some o) →
        (l.in_class_table = true ↔ (l0.in_class_table = true ∨
          ∃ i ∈ Q, ∃ f lf, lo.refs[i]? = some f ∧ ln.refs[i]? = some o ∧
            h.load f = some lf ∧ lf.in_class_table = true))) →
      BecomeForward.corpses g old neu is = some g' →
      ∀ o l0 l, h.load o = some l0 → g'.load o = some l →
        (∀ i ∈ is ++ Q, lo.refs[i]? ≠ some o) →
        (l.in_class_table = true ↔ (l0.in_class_table = true ∨
          ∃ i ∈ is ++ Q, ∃ f lf, lo.refs[i]? = some f ∧ ln.refs[i]? = some o ∧
            h.load f = some lf ∧ lf.in_class_table = true)) := by
  intro is
  induction is with
  | nil =>
    intro Q g g' hf _ _ hI he
    simp only [BecomeForward.corpses, Option.some.injEq] at he
    subst he
    simpa using hI
  | cons i rest ih =>
    intro Q g g' hf his hnodup hI he
    obtain ⟨hiQ, hi1, hi2⟩ := his i (List.mem_cons_self _ _)
    have hunp : ∀ x, x ∉ lo.refs → ∀ j ∈ Q, lo.refs[j]? ≠ some x :=
      fun x hx j _ hcon => hx (List.getElem?_mem hcon)
    obtain ⟨lo', hlo', -, eo⟩ := hf.present old lo hlo
    obtain ⟨ln', hln', -, en⟩ := hf.present neu ln hln
    have e1 : Array.element g old i = some lo.refs[i] := by
      rw [Array_element_eq hlo', (eo (hunp old hoF)).2.2]
      exact List.getElem?_eq_getElem hi1
    have e2 : Array.element g neu i = some ln.refs[i] := by
      rw [Array_element_eq hln', (en (hunp neu hnF)).2.2]
      exact List.getElem?_eq_getElem hi2
    simp only [BecomeForward.corpses, e1, e2, Option.some_bind, Option.bind_eq_some] at he
    obtain ⟨g1, ep, erest⟩ := he
    have hFi : lo.refs[i]? = some lo.refs[i] := List.getElem?_eq_getElem hi1
    have hGi : ln.refs[i]? = some ln.refs[i] := List.getElem?_eq_getElem hi2
    have hf1 := Forwarding_pair hwb hnd hdis hFT hf hiQ hFi hGi ep
    have hfF : lo.refs[i] ∈ lo.refs := List.getElem_mem hi1
    have hyG : ln.refs[i] ∈ ln.refs := List.getElem_mem hi2
    have hfy : lo.refs[i] ≠ ln.refs[i] := fun hcon => hdis _ hfF (hcon ▸ hyG)
    -- the forwarder has the bit it had
    obtain ⟨lf0, hlf0, -⟩ := load_of_InTable hT (hFT _ hfF)
    have hfunp : ∀ j ∈ Q, lo.refs[j]? ≠ some lo.refs[i] := by
      intro j hj hcon
      have := nodup_getElem?_inj hnd hcon hFi
      subst this
      exact hiQ hj
    obtain ⟨lfg, hlfg, -⟩ := hf.present _ lf0 hlf0
    have hfbit : lfg.in_class_table = true ↔ lf0.in_class_table = true := by
      rw [hI _ lf0 lfg hlf0 hlfg hfunp]
      constructor
      · rintro (hb | ⟨j, -, f', lf', -, hG, -, -⟩)
        · exact hb
        · exact absurd (List.getElem?_mem hG) (hdis _ hfF)
      · exact Or.inl
    have hbits := pair_bits hfy hlfg ep
    have hI1 : ∀ o l0 l, h.load o = some l0 → g1.load o = some l →
        (∀ j ∈ i :: Q, lo.refs[j]? ≠ some o) →
        (l.in_class_table = true ↔ (l0.in_class_table = true ∨
          ∃ j ∈ i :: Q, ∃ f lf, lo.refs[j]? = some f ∧ ln.refs[j]? = some o ∧
            h.load f = some lf ∧ lf.in_class_table = true)) := by
      intro o l0 l hl0 hl hun
      have hof : o ≠ lo.refs[i] := fun hcon =>
        hun i (List.mem_cons_self _ _) (hcon ▸ hFi)
      obtain ⟨lg, hlg, hb⟩ := hbits o l hof hl
      have hIo := hI o l0 lg hl0 hlg (fun j hj => hun j (List.mem_cons_of_mem _ hj))
      by_cases hoy : o = ln.refs[i]
      · rw [if_pos hoy] at hb
        rw [hb, Bool.or_eq_true, hIo, hfbit]
        constructor
        · rintro ((hb0 | ⟨j, hj, f, lf, a, b, c, d⟩) | hb1)
          · exact Or.inl hb0
          · exact Or.inr ⟨j, List.mem_cons_of_mem _ hj, f, lf, a, b, c, d⟩
          · exact Or.inr ⟨i, List.mem_cons_self _ _, _, lf0, hFi, hoy ▸ hGi, hlf0, hb1⟩
        · rintro (hb0 | ⟨j, hj, f, lf, a, b, c, d⟩)
          · exact Or.inl (Or.inl hb0)
          · rcases List.mem_cons.1 hj with rfl | hj
            · rw [hFi] at a
              cases a
              rw [hlf0] at c
              cases c
              exact Or.inr d
            · exact Or.inl (Or.inr ⟨j, hj, f, lf, a, b, c, d⟩)
      · rw [if_neg hoy] at hb
        rw [hb, hIo]
        constructor
        · rintro (hb0 | ⟨j, hj, f, lf, a, b, c, d⟩)
          · exact Or.inl hb0
          · exact Or.inr ⟨j, List.mem_cons_of_mem _ hj, f, lf, a, b, c, d⟩
        · rintro (hb0 | ⟨j, hj, f, lf, a, b, c, d⟩)
          · exact Or.inl hb0
          · rcases List.mem_cons.1 hj with rfl | hj
            · rw [hGi] at b
              cases b
              exact absurd rfl hoy
            · exact Or.inr ⟨j, hj, f, lf, a, b, c, d⟩
    have hres := ih (i :: Q) g1 g' hf1 (fun j hj => by
      obtain ⟨a, b, c⟩ := his j (List.mem_cons_of_mem _ hj)
      refine ⟨fun hcon => ?_, b, c⟩
      rcases List.mem_cons.1 hcon with rfl | hcon
      · exact (List.nodup_cons.1 hnodup).1 hj
      · exact a hcon) (List.Nodup.of_cons hnodup) hI1 erest
    intro o l0 l hl0 hl hun
    have hperm : ∀ j, j ∈ rest ++ i :: Q ↔ j ∈ i :: rest ++ Q := by
      intro j
      simp only [List.mem_append, List.mem_cons, List.cons_append]
      exact or_left_comm
    have hun' : ∀ j ∈ rest ++ i :: Q, lo.refs[j]? ≠ some o :=
      fun j hj => hun j ((hperm j).1 hj)
    have h1 := hres o l0 l hl0 hl hun'
    rw [h1]
    apply or_congr Iff.rfl
    apply exists_congr
    intro j
    exact and_congr (hperm j) Iff.rfl

end psoup

namespace psoup

theorem corpse_not_InTable {h1 : Heap} (hT1 : TableInv h1) {f : Object} {l : Layout}
    (hl : h1.load f = some l) (hc : l.cid = kForwardingCorpseCid) : ¬ InTable h1 f := by
  intro hf
  obtain ⟨l', hl', hcid, -⟩ := load_of_InTable hT1 hf
  rw [hl] at hl'
  cases hl'
  rw [hc] at hcid
  exact absurd hcid (by decide)

/-- The state of the loop of `ForwardClassIds` after the forwardee `y` of the forwarder found at
the class id `p` has been given the class id `p`. -/
theorem Renumbering_install {h1 : Heap} {F G : List Object} {p : Nat} {g g' : Heap}
    (hK1 : ∀ (i : Nat) (f y : Object), F[i]? = some f → G[i]? = some y →
      ∃ l, h1.load f = some l ∧ l.cid = kForwardingCorpseCid ∧ l.header_hash_ = y)
    (hT1 : TableInv h1) (hnd : F.Nodup)
    (hJ : Renumbering h1 F G p g) (hp3 : kFirstLegalCid ≤ p) (hps : p < h1.class_table_size_)
    {i0 : Nat} {y : Object} {ly : Layout} {t : Object}
    (hFi : F[i0]? = some (g.class_table_ p)) (hGi : G[i0]? = some y) (hyT : InTable h1 y)
    (hly : g.load y = some ly) (hby : ly.in_class_table = true)
    (hlt : Behavior.classid_index < ly.refs.length)
    (e1 : g'.table_ = g.table_) (e2 : g'.table_size_ = g.table_size_)
    (e3 : g'.class_table_size_ = g.class_table_size_)
    (e4 : g'.interpreter_.nil_obj = g.interpreter_.nil_obj)
    (hload : ∀ o, g'.load o = (g.load o).map
      (Layout.retarget (.slot y Behavior.classid_index) t (SmallInteger.New (p : Int)) o))
    (hCp : g'.class_table_ p = y)
    (hC : ∀ k, k ≠ p → (g'.class_table_ k = g.class_table_ k ∧ g.class_table_ k ≠ y) ∨
      (g'.class_table_ k = g.class_table_ p ∧ g.class_table_ k = y)) :
    Renumbering h1 F G (p + 1) g' := by
  obtain ⟨le1, hle1, hce1, -⟩ := hK1 i0 _ y hFi hGi
  have heT : ¬ InTable h1 (g.class_table_ p) := corpse_not_InTable hT1 hle1 hce1
  have hyl : ∃ l', g'.load y = some l' ∧ l'.in_class_table = true ∧
      l'.refs[Behavior.classid_index]? = some (SmallInteger.New (p : Int)) := by
    refine ⟨Layout.retarget (.slot y Behavior.classid_index) t (SmallInteger.New (p : Int)) y ly,
      by rw [hload, hly]; rfl, hby, ?_⟩
    simp only [Layout.retarget, if_true]
    rw [List.getElem?_set_eq_of_lt _ hlt]
  have hoth : ∀ o l, o ≠ y → g.load o = some l → ∃ l', g'.load o = some l' ∧
      l'.in_class_table = l.in_class_table ∧ l'.refs = l.refs := by
    intro o l hne hl
    refine ⟨Layout.retarget (.slot y Behavior.classid_index) t (SmallInteger.New (p : Int)) o l,
      by rw [hload, hl]; rfl, rfl, ?_⟩
    simp only [Layout.retarget, if_neg hne]
  have hbit : ∀ o l, g.load o = some l → ∃ l', g'.load o = some l' ∧
      l'.in_class_table = l.in_class_table := by
    intro o l hl
    exact ⟨Layout.retarget (.slot y Behavior.classid_index) t (SmallInteger.New (p : Int)) o l,
      by rw [hload, hl]; rfl, rfl⟩
  refine ⟨⟨e1.trans hJ.table.1, e2.trans hJ.table.2⟩, e3.trans hJ.size, e4.trans hJ.nil, ?_,
    ?_, ?_⟩
  · intro o l1 hl1
    obtain ⟨l, hl, a, b, c⟩ := hJ.present o l1 hl1
    exact ⟨Layout.retarget (.slot y Behavior.classid_index) t (SmallInteger.New (p : Int)) o l,
      by rw [hload, hl]; rfl, a, b, c⟩
  · intro c l' hcT hl' hb
    by_cases hcy : c = y
    · subst hcy
      obtain ⟨l'', hl'', -, hid⟩ := hyl
      rw [hl'] at hl''
      cases hl''
      exact Or.inl ⟨p, hid, hCp⟩
    · cases hlc : g.load c with
      | none =>
        rw [hload, hlc] at hl'
        cases hl'
      | some l =>
        obtain ⟨l'', hl'', hb', hr'⟩ := hoth c l hcy hlc
        rw [hl'] at hl''
        cases hl''
        rcases hJ.registered c l hcT hlc (by rw [← hb']; exact hb) with
          ⟨k, hk1, hk2⟩ | ⟨hn, k, i, hpk, hG, hF⟩
        · left
          have hkp : k ≠ p := by
            rintro rfl
            rw [hk2] at heT
            exact heT hcT
          refine ⟨k, by rw [hr']; exact hk1, ?_⟩
          rcases hC k hkp with ⟨a, -⟩ | ⟨-, b⟩
          · rw [a, hk2]
          · rw [hk2] at b
            exact absurd b hcy
        · right
          have hkp : k ≠ p := by
            rintro rfl
            have := nodup_getElem?_inj hnd hF hFi
            subst this
            rw [hGi] at hG
            cases hG
            exact hcy rfl
          refine ⟨by rw [hr', e4]; exact hn, k, i, by omega, hG, ?_⟩
          rcases hC k hkp with ⟨a, -⟩ | ⟨-, b⟩
          · rw [a]; exact hF
          · rw [b] at hF
            obtain ⟨lb, hlb, hcb, -⟩ := hK1 i y c hF hG
            exact absurd hyT (corpse_not_InTable hT1 hlb hcb)
  · intro k hk
    by_cases hkp : k = p
    · subst hkp
      rw [hCp]
      obtain ⟨l', hl', hb', hid⟩ := hyl
      exact ⟨hp3, by rw [e3, hJ.size]; exact hps, Or.inl ⟨hyT, l', hl', hb', hid⟩⟩
    · rcases hC k hkp with ⟨a, b⟩ | ⟨a, b⟩
      · rw [a] at hk ⊢
        obtain ⟨r1, r2, alt⟩ := hJ.entries k hk
        refine ⟨r1, by rw [e3]; exact r2, ?_⟩
        rcases alt with ⟨cT, l, hl, hb, hid⟩ | ⟨i, y2, l2, hF, hG, hT2, hl2, hb2⟩
        · obtain ⟨l', hl', hb', hr'⟩ := hoth _ l b hl
          exact Or.inl ⟨cT, l', hl', by rw [hb']; exact hb, by rw [hr']; exact hid⟩
        · obtain ⟨l', hl', hb'⟩ := hbit y2 l2 hl2
          exact Or.inr ⟨i, y2, l', hF, hG, hT2, hl', by rw [hb']; exact hb2⟩
      · rw [a]
        have hheap : IsHeapObject (g.class_table_ k) := by
          rw [b]; exact isHeapObject_of_load hly
        obtain ⟨r1, r2, -⟩ := hJ.entries k hheap
        obtain ⟨l', hl', hb', -⟩ := hyl
        exact ⟨r1, by rw [e3]; exact r2, Or.inr ⟨i0, y, l', hFi, hGi, hyT, hl', hb'⟩⟩

end psoup

namespace psoup

/-- One iteration of the loop of `ForwardClassIds`. -/
theorem Renumbering_step {h1 : Heap} {F G : List Object} {p : Nat} {g g' : Heap}
    (hK1 : ∀ (i : Nat) (f y : Object), F[i]? = some f → G[i]? = some y →
      ∃ l, h1.load f = some l ∧ l.cid = kForwardingCorpseCid ∧ l.header_hash_ = y)
    (hT1 : TableInv h1) (hnd : F.Nodup) (hnil : IsHeapObject h1.interpreter_.nil_obj)
    (hsmall : h1.class_table_size_ ≤ 2 ^ 32)
    (hJ : Renumbering h1 F G p g) (hp3 : kFirstLegalCid ≤ p) (hps : p < h1.class_table_size_)
    (he : ForwardClassIds.step g p = some g') : Renumbering h1 F G (p + 1) g' := by
  have hcorpse : ∀ (i : Nat) (f y : Object), F[i]? = some f → G[i]? = some y →
      ∃ l, g.load f = some l ∧ l.cid = kForwardingCorpseCid ∧ l.header_hash_ = y := by
    intro i f y hF hG
    obtain ⟨l1, hl1, hc1, hh1⟩ := hK1 i f y hF hG
    obtain ⟨l, hl, a, -, c⟩ := hJ.present f l1 hl1
    exact ⟨l, hl, a.trans hc1, c.trans hh1⟩
  unfold ForwardClassIds.step at he
  simp only [Option.bind_eq_some] at he
  obtain ⟨corpse, hcor, he⟩ := he
  cases corpse with
  | false =>
    simp only [if_true, Option.some.injEq] at he
    subst he
    refine ⟨hJ.table, hJ.size, hJ.nil, hJ.present, ?_, hJ.entries⟩
    intro c l hcT hl hb
    rcases hJ.registered c l hcT hl hb with hleft | ⟨hn, k, i, hpk, hG, hF⟩
    · exact Or.inl hleft
    · refine Or.inr ⟨hn, k, i, ?_, hG, hF⟩
      have hkp : k ≠ p := by
        rintro rfl
        obtain ⟨lf, hlf, hcf, -⟩ := hcorpse i _ c hF hG
        rw [IsForwardingCorpse_of_load hlf, hcf] at hcor
        simp at hcor
      omega
  | true =>
    simp only [Bool.true_eq_false, if_false, Option.bind_eq_some, Option.map_eq_some'] at he
    obtain ⟨l, hl, id, hid, ga, ea, gb, eb, hg'⟩ := he
    obtain ⟨l', hl', hcl⟩ := IsForwardingCorpse_eq_true hcor
    rw [hl] at hl'
    cases hl'
    have hheap : IsHeapObject (g.class_table_ p) := isHeapObject_of_load hl
    obtain ⟨-, -, alt⟩ := hJ.entries p hheap
    rcases alt with ⟨cT, -⟩ | ⟨i0, y, ly, hFi, hGi, hyT, hly, hby⟩
    · obtain ⟨l1, hl1, hcid, -⟩ := load_of_InTable hT1 cT
      obtain ⟨l2, hl2, hc2, -⟩ := hJ.present _ l1 hl1
      rw [hl] at hl2
      cases hl2
      rw [hcl] at hc2
      rw [← hc2] at hcid
      exact absurd hcid (by decide)
    obtain ⟨l2, hl2, -, hh2⟩ := hcorpse i0 _ y hFi hGi
    rw [hl] at hl2
    cases hl2
    have hty : l.target = y := hh2
    rw [hty] at hid eb hg'
    subst hg'
    have hidy : ly.refs[Behavior.classid_index]? = some id := by
      have : Ref_to g (.slot y Behavior.classid_index) = some id := hid
      simp only [Ref_to, hly, Option.some_bind] at this
      exact this
    have hlt : Behavior.classid_index < ly.refs.length := by
      by_contra hcon
      rw [List.getElem?_eq_none (by omega)] at hidy
      cases hidy
    have hnilg : IsHeapObject g.interpreter_.nil_obj := by rw [hJ.nil]; exact hnil
    -- the heap before `set_id`
    have hga : ga.memory = g.memory ∧ ga.table_ = g.table_ ∧ ga.table_size_ = g.table_size_ ∧
        ga.class_table_size_ = g.class_table_size_ ∧ ga.interpreter_ = g.interpreter_ ∧
        ∀ k, k ≠ p → (ga.class_table_ k = g.class_table_ k ∧ g.class_table_ k ≠ y) ∨
          (ga.class_table_ k = g.class_table_ p ∧ g.class_table_ k = y) := by
      rcases hJ.registered y ly hyT hly hby with ⟨k', hk1, hk2⟩ | ⟨hn, -⟩
      · rw [hidy] at hk1
        cases hk1
        have hne : SmallInteger.New (k' : Int) ≠ g.interpreter_.nil_obj := by
          intro hcon
          rw [← hcon] at hnilg
          exact not_isHeapObject_New _ hnilg
        rw [if_pos hne] at ea
        have hk'h : IsHeapObject (g.class_table_ k') := by
          rw [hk2]; exact isHeapObject_of_load hly
        obtain ⟨-, hk'lt, -⟩ := hJ.entries k' hk'h
        have hk'32 : k' ≤ 2 ^ 32 := by
          rw [hJ.size] at hk'lt
          omega
        obtain ⟨m1, t1, s1, i1, -, -, -, -, -, z1⟩ := class_table_put_eq_some ea
        refine ⟨m1, t1, s1, z1, i1, ?_⟩
        unfold class_table_put at ea
        rw [SmallInteger_value_New_nat hk'32] at ea
        rw [if_pos (Int.natCast_nonneg k'), Int.toNat_ofNat] at ea
        cases ea
        intro k hkp
        by_cases hkk : k = k'
        · subst hkk
          right
          exact ⟨Function.update_same _ _ _, hk2⟩
        · left
          refine ⟨Function.update_noteq hkk _ _, ?_⟩
          intro hcon
          have hkh : IsHeapObject (g.class_table_ k) := by
            rw [hcon]; exact isHeapObject_of_load hly
          obtain ⟨-, hklt, alt⟩ := hJ.entries k hkh
          rcases alt with ⟨-, lk, hlk, -, hidk⟩ | ⟨i, y2, l2, hF, hG, -⟩
          · rw [hcon, hly] at hlk
            cases hlk
            rw [hidy] at hidk
            have hk32 : k ≤ 2 ^ 32 := by
              rw [hJ.size] at hklt
              omega
            exact hkk (SmallInteger_New_nat_inj hk32 hk'32 (Option.some.inj hidk).symm)
          · rw [hcon] at hF
            obtain ⟨lb, hlb, hcb, -⟩ := hK1 i y y2 hF hG
            exact corpse_not_InTable hT1 hlb hcb hyT
      · rw [hidy] at hn
        cases hn
        rw [if_neg (not_not.2 rfl)] at ea
        cases ea
        refine ⟨rfl, rfl, rfl, rfl, rfl, ?_⟩
        intro k _
        left
        refine ⟨rfl, ?_⟩
        intro hcon
        have hkh : IsHeapObject (g.class_table_ k) := by
          rw [hcon]; exact isHeapObject_of_load hly
        obtain ⟨-, -, alt⟩ := hJ.entries k hkh
        rcases alt with ⟨-, lk, hlk, -, hidk⟩ | ⟨i, y2, l2, hF, hG, -⟩
        · rw [hcon, hly] at hlk
          cases hlk
          rw [hidy] at hidk
          rw [Option.some.inj hidk] at hnilg
          exact not_isHeapObject_New _ hnilg
        · rw [hcon] at hF
          obtain ⟨lb, hlb, hcb, -⟩ := hK1 i y y2 hF hG
          exact corpse_not_InTable hT1 hlb hcb hyT
    obtain ⟨m1, t1, s1, z1, i1, hC⟩ := hga
    have hla : ∀ o, ga.load o = g.load o := fun o => by unfold Heap.load; rw [m1]
    obtain ⟨t, hto, -, -, rfl⟩ := UpdateNoCheck_eq_some.1 eb
    refine Renumbering_install (t := t) hK1 hT1 hnd hJ hp3 hps hFi hGi hyT hly hby hlt
      t1 s1 z1 ?_ ?_ (Function.update_same _ _ _) ?_
    · show ((ga.interpreter_).retarget _ _).nil_obj = _
      rw [i1]
      rfl
    · intro o
      show (ga.retarget _ _ _).load o = _
      rw [load_retarget, hla]
    · intro k hkp
      show (Function.update ga.class_table_ p y k = _ ∧ _) ∨ (Function.update ga.class_table_ p y k = _ ∧ _)
      rw [Function.update_noteq hkp]
      exact hC k hkp

/-- The loop of `ForwardClassIds` over the class ids from `p` on. -/
theorem Renumbering_loop {h1 : Heap} {F G : List Object}
    (hK1 : ∀ (i : Nat) (f y : Object), F[i]? = some f → G[i]? = some y →
      ∃ l, h1.load f = some l ∧ l.cid = kForwardingCorpseCid ∧ l.header_hash_ = y)
    (hT1 : TableInv h1) (hnd : F.Nodup) (hnil : IsHeapObject h1.interpreter_.nil_obj)
    (hsmall : h1.class_table_size_ ≤ 2 ^ 32) :
    ∀ (n p : Nat) (g g' : Heap), Renumbering h1 F G p g → kFirstLegalCid ≤ p →
      p + n ≤ h1.class_table_size_ →
      ForwardClassIds.loop g (List.range' p n) = some g' → Renumbering h1 F G (p + n) g' := by
  intro n
  induction n with
  | zero =>
    intro p g g' hJ _ _ he
    simp only [List.range'_zero, ForwardClassIds.loop, Option.some.injEq] at he
    subst he
    exact hJ
  | succ n ih =>
    intro p g g' hJ hp3 hpn he
    simp only [List.range'_succ, ForwardClassIds.loop, Option.bind_eq_some] at he
    obtain ⟨ga, ea, erest⟩ := he
    have hJa := Renumbering_step hK1 hT1 hnd hnil hsmall hJ hp3 (by omega) ea
    have := ih (p + 1) ga g' hJa (by omega) (by omega) erest
    rw [show p + (n + 1) = p + 1 + n by omega]
    exact this

end psoup

namespace psoup

theorem Migrating_refl (h2 : Heap) : Migrating h2 h2 :=
  ⟨⟨rfl, rfl⟩, ⟨rfl, rfl⟩, fun _ h => h, fun _ l2 hl2 =>
    ⟨l2, hl2, RespectsHeap_SameIds.1.refl l2, rfl, fun _ => rfl, fun h => h⟩⟩

theorem Migrating_of {h2 g g' : Heap} (hM : Migrating h2 g)
    (e1 : g'.table_ = g.table_) (e2 : g'.table_size_ = g.table_size_)
    (e3 : g'.class_table_ = g.class_table_) (e4 : g'.class_table_size_ = g.class_table_size_)
    (habs : ∀ o, g.load o = none → g'.load o = none)
    (hrel : ∀ o l, g.load o = some l → ∃ l', g'.load o = some l' ∧ Layout.SameIds l l' ∧
      l'.header_hash_ = l.header_hash_ ∧ (¬ InTable h2 o → l'.cid = l.cid) ∧
      (l.cid ≠ kForwardingCorpseCid → l'.cid ≠ kForwardingCorpseCid)) :
    Migrating h2 g' := by
  refine ⟨⟨e1.trans hM.table.1, e2.trans hM.table.2⟩,
    ⟨e3.trans hM.class_table.1, e4.trans hM.class_table.2⟩,
    fun o ho => habs o (hM.absent o ho), ?_⟩
  intro o l2 hl2
  obtain ⟨l, hl, a, b, c, d⟩ := hM.present o l2 hl2
  obtain ⟨l', hl', a', b', c', d'⟩ := hrel o l hl
  exact ⟨l', hl', RespectsHeap_SameIds.1.trans _ _ _ a a', b'.trans b,
    fun hn => (c' hn).trans (c hn), fun hn => d' (d hn)⟩

/-- `Ref::UpdateNoCheck` of a Ref whose target is a heap object, in `ForwardRoots` and
`ForwardHeap`. -/
theorem Migrating_UpdateNoCheck {h2 g g' : Heap} (hM : Migrating h2 g) {r : RefPtr}
    {v : Object} (hu : UpdateNoCheck g r v = some g')
    (ht : ∀ t, Ref_to g r = some t → IsHeapObject t) : Migrating h2 g' := by
  obtain ⟨t, hto, -, -, rfl⟩ := UpdateNoCheck_eq_some.1 hu
  refine Migrating_of hM rfl rfl rfl rfl ?_ ?_
  · intro o ho
    rw [load_retarget, ho]
    rfl
  · intro o l hl
    refine ⟨Layout.retarget r t v o l, by rw [load_retarget, hl]; rfl, ?_, rfl, fun _ => rfl,
      fun hn => hn⟩
    apply RespectsHeap_SameIds.1.retarget r t v o l (ht t hto)
    rintro i rfl
    simp only [Ref_to, hl, Option.some_bind] at hto
    exact hto

theorem Migrating_ForwardPointer {h2 g g' : Heap} (hM : Migrating h2 g) {r : RefPtr}
    (he : ForwardPointer g r = some g') : Migrating h2 g' := by
  unfold ForwardPointer at he
  simp only [Option.bind_eq_some] at he
  obtain ⟨t, hto, b, hb, he⟩ := he
  split_ifs at he with hc
  · simp only [Option.bind_eq_some] at he
    obtain ⟨l, hl, hu⟩ := he
    refine Migrating_UpdateNoCheck hM hu ?_
    intro t' ht'
    rw [hto] at ht'
    cases ht'
    exact isHeapObject_of_load hl
  · cases he
    exact hM

theorem Migrating_ForwardPointers {h2 : Heap} : ∀ (rs : List RefPtr) (g g' : Heap),
    Migrating h2 g → ForwardPointers g rs = some g' → Migrating h2 g' := by
  intro rs
  induction rs with
  | nil =>
    intro g g' hM he
    simp only [ForwardPointers, Option.some.injEq] at he
    subst he
    exact hM
  | cons r rest ih =>
    intro g g' hM he
    simp only [ForwardPointers, Option.bind_eq_some] at he
    obtain ⟨g1, e1, e2⟩ := he
    exact ih g1 g' (Migrating_ForwardPointer hM e1) e2

theorem Migrating_ForwardRoots {h2 g g' : Heap} (hM : Migrating h2 g)
    (he : ForwardRoots g = some g') : Migrating h2 g' := by
  unfold ForwardRoots at he
  simp only [Option.bind_eq_some] at he
  obtain ⟨hs, -, ga, e2, e3⟩ := he
  have s1 : Migrating h2 { g with handles_ := hs } :=
    Migrating_of hM rfl rfl rfl rfl (fun _ ho => ho) (fun o l hl =>
      ⟨l, hl, RespectsHeap_SameIds.1.refl l, rfl, fun _ => rfl, fun hn => hn⟩)
  exact Migrating_ForwardPointers _ _ _ (Migrating_ForwardPointers _ _ _ s1 e2) e3

theorem toUword_nat_mod {q : Nat} (hq : q < 2 ^ 32) :
    toUword (q : Int) % 2 ^ kClassIdFieldSize = q := by
  unfold toUword
  have h64 : ((q : Int) % (2 : Int) ^ 64).toNat = q := by
    have : (q : Int) % (2 : Int) ^ 64 = (q : Int) := by
      apply Int.emod_eq_of_lt (Int.natCast_nonneg q)
      have : (q : Int) < 2 ^ 32 := by exact_mod_cast hq
      have h2 : (2 : Int) ^ 32 < 2 ^ 64 := by norm_num
      omega
    rw [this, Int.toNat_ofNat]
  rw [h64]
  show q % 2 ^ 32 = q
  exact Nat.mod_eq_of_lt hq

/-- `ForwardClass` of an object of the object table, when the forwardee of every forwarder in
the class table holds a legal class id. -/
theorem Migrating_ForwardClass {h2 g g' : Heap} (hM : Migrating h2 g)
    (hq : ∀ k le, h2.load (h2.class_table_ k) = some le → le.cid = kForwardingCorpseCid →
      ∃ (ly : Layout) (q : Nat), h2.load le.header_hash_ = some ly ∧
        ly.refs[Behavior.classid_index]? = some (SmallInteger.New (q : Int)) ∧
        kFirstLegalCid ≤ q ∧ q < 2 ^ 32)
    {x : Object} (hx : InTable h2 x) (he : ForwardClass g x = some g') :
    Migrating h2 g' := by
  unfold ForwardClass at he
  simp only [Option.bind_eq_some] at he
  obtain ⟨o, hlo, c, hc, b, hb, he⟩ := he
  split_ifs at he with hcor
  · simp only [Option.bind_eq_some] at he
    obtain ⟨l, hl, id, hid, hs⟩ := he
    subst hcor
    have hck : c = h2.class_table_ o.cid := by
      unfold ClassAt class_table_at at hc
      rw [if_pos (Int.natCast_nonneg _), Int.toNat_ofNat, hM.class_table.1] at hc
      exact (Option.some.inj hc).symm
    obtain ⟨l', hl', hcl⟩ := IsForwardingCorpse_eq_true hb
    rw [hl] at hl'
    cases hl'
    -- the entry is a forwarding corpse in `h2`
    cases hle : h2.load c with
    | none =>
      rw [hM.absent c hle] at hl
      cases hl
    | some le =>
      obtain ⟨l', hl', -, hh, -, hcc⟩ := hM.present c le hle
      rw [hl] at hl'
      cases hl'
      have hlec : le.cid = kForwardingCorpseCid := by
        by_contra hcon
        exact hcc hcon hcl
      obtain ⟨ly, q, hly, hidq, hq3, hq32⟩ := hq o.cid le (by rw [← hck]; exact hle) hlec
      obtain ⟨ly', hly', hsy, -⟩ := hM.present _ ly hly
      have hidy := hsy.2 _ _ hidq (isSmallInteger_New _)
      have hid' : id = SmallInteger.New (q : Int) := by
        have : Ref_to g (.slot l.target Behavior.classid_index) = some id := hid
        have ht : l.target = le.header_hash_ := hh
        rw [ht] at this
        simp only [Ref_to, hly', Option.some_bind] at this
        rw [hidy] at this
        exact (Option.some.inj this).symm
      subst hid'
      rw [SmallInteger_value_New_nat (Nat.le_of_lt hq32)] at hs
      obtain ⟨-, hload, t1, s1, -, -, c1, z1, -⟩ := modify_spec hs
      refine Migrating_of hM t1 s1 c1 z1 ?_ ?_
      · intro y hy
        rw [hload, hy]
        split_ifs <;> rfl
      · intro y l0 hl0
        by_cases hyx : y = x
        · subst hyx
          refine ⟨{ l0 with cid := toUword (q : Int) % 2 ^ kClassIdFieldSize },
            by rw [hload, if_pos rfl, hl0]; rfl, ⟨rfl, fun _ _ hw _ => hw⟩, rfl, ?_,
            fun _ => ?_⟩
          · intro hn
            exact absurd hx hn
          · show toUword (q : Int) % 2 ^ kClassIdFieldSize ≠ kForwardingCorpseCid
            rw [toUword_nat_mod hq32]
            intro hcon
            rw [hcon] at hq3
            exact absurd hq3 (by decide)
        · exact ⟨l0, by rw [hload, if_neg hyx]; exact hl0, RespectsHeap_SameIds.1.refl l0, rfl,
            fun _ => rfl, fun hn => hn⟩
  · cases he
    exact hM

theorem Migrating_ForwardHeap_loop {h2 : Heap}
    (hq : ∀ k le, h2.load (h2.class_table_ k) = some le → le.cid = kForwardingCorpseCid →
      ∃ (ly : Layout) (q : Nat), h2.load le.header_hash_ = some ly ∧
        ly.refs[Behavior.classid_index]? = some (SmallInteger.New (q : Int)) ∧
        kFirstLegalCid ≤ q ∧ q < 2 ^ 32) :
    ∀ (is : List Nat) (g g' : Heap), Migrating h2 g →
      (∀ i ∈ is, 1 ≤ i ∧ i < h2.table_size_) →
      ForwardHeap.loop g is = some g' → Migrating h2 g' := by
  intro is
  induction is with
  | nil =>
    intro g g' hM _ he
    simp only [ForwardHeap.loop, Option.some.injEq] at he
    subst he
    exact hM
  | cons i rest ih =>
    intro g g' hM his he
    simp only [ForwardHeap.loop, ForwardHeap.step, Option.bind_eq_some] at he
    obtain ⟨gb, ⟨ga, e1, o, -, e2⟩, e3⟩ := he
    obtain ⟨hi1, hi2⟩ := his i (List.mem_cons_self _ _)
    have hx : InTable h2 (g.table_ i) := ⟨i, hi1, hi2, by rw [hM.table.1]⟩
    have hMa := Migrating_ForwardClass hM hq hx e1
    have hMb := Migrating_ForwardPointers _ _ _ hMa e2
    exact ih gb g' hMb (fun j hj => his j (List.mem_cons_of_mem _ hj)) e3

end psoup

namespace psoup

theorem IsForwardingCorpse_congr {g g' : Heap} (hl : ∀ o, g'.load o = g.load o) (c : Object) :
    IsForwardingCorpse g' c = IsForwardingCorpse g c := by
  unfold IsForwardingCorpse ClassId
  rw [hl]

/-- What `MournClassTableForwarded` does to the class table: an entry among those visited that
is a forwarding corpse becomes a small integer, and no other entry changes. -/
theorem Mourn_loop_class_table : ∀ (is : List Nat) (g g' : Heap),
    MournClassTableForwarded.loop g is = some g' →
    g'.class_table_size_ = g.class_table_size_ ∧
    ∀ k, (g'.class_table_ k = g.class_table_ k ∧
        (k ∈ is → IsForwardingCorpse g (g.class_table_ k) = some false)) ∨
      (¬ IsHeapObject (g'.class_table_ k) ∧
        IsForwardingCorpse g (g.class_table_ k) = some true) := by
  intro is
  induction is with
  | nil =>
    intro g g' he
    simp only [MournClassTableForwarded.loop, Option.some.injEq] at he
    subst he
    exact ⟨rfl, fun k => Or.inl ⟨rfl, fun hk => absurd hk (List.not_mem_nil k)⟩⟩
  | cons i rest ih =>
    intro g g' he
    simp only [MournClassTableForwarded.loop, MournClassTableForwarded.step,
      Option.bind_eq_some, Option.map_eq_some'] at he
    obtain ⟨g1, ⟨b, hb, hg1⟩, erest⟩ := he
    obtain ⟨z, hk⟩ := ih g1 g' erest
    cases b with
    | false =>
      simp only [if_true] at hg1
      subst hg1
      refine ⟨z, fun k => ?_⟩
      rcases hk k with ⟨a, c⟩ | ⟨a, c⟩
      · refine Or.inl ⟨a, fun hmem => ?_⟩
        rcases List.mem_cons.1 hmem with rfl | hmem
        · exact hb
        · exact c hmem
      · exact Or.inr ⟨a, c⟩
    | true =>
      simp only [Bool.true_eq_false, if_false] at hg1
      subst hg1
      refine ⟨z, fun k => ?_⟩
      have hload : ∀ c, IsForwardingCorpse
          { g with class_table_ := Function.update g.class_table_ i
                     (SmallInteger.New g.class_table_free_),
                   class_table_free_ := (i : Int) } c = IsForwardingCorpse g c :=
        fun c => IsForwardingCorpse_congr (fun _ => rfl) c
      by_cases hki : k = i
      · subst hki
        right
        refine ⟨?_, hb⟩
        rcases hk k with ⟨a, -⟩ | ⟨a, -⟩
        · rw [a]
          show ¬ IsHeapObject (Function.update g.class_table_ k _ k)
          rw [Function.update_same]
          exact not_isHeapObject_New _
        · exact a
      · have hct : Function.update g.class_table_ i (SmallInteger.New g.class_table_free_) k =
            g.class_table_ k := Function.update_noteq hki _ _
        rcases hk k with ⟨a, c⟩ | ⟨a, c⟩
        · left
          refine ⟨a.trans hct, fun hmem => ?_⟩
          rcases List.mem_cons.1 hmem with rfl | hmem
          · exact absurd rfl hki
          · have := c hmem
            rw [hload] at this
            rw [← hct]
            exact this
        · right
          refine ⟨a, ?_⟩
          rw [hload] at c
          rw [← hct]
          exact c

/-- The passes of `BecomeForward` after `ForwardClassIds` leave the class table in order. -/
theorem Registry_passes {h1 h2 h3 h4 h5 : Heap} {F G : List Object} {pf : Nat}
    (hK1 : ∀ (i : Nat) (f y : Object), F[i]? = some f → G[i]? = some y →
      ∃ l, h1.load f = some l ∧ l.cid = kForwardingCorpseCid ∧ l.header_hash_ = y)
    (hT1 : TableInv h1) (hsmall : h1.class_table_size_ ≤ 2 ^ 32)
    (hJ : Renumbering h1 F G pf h2) (hpf : h1.class_table_size_ ≤ pf)
    (e3 : ForwardRoots h2 = some h3) (e4 : ForwardHeap h3 = some h4)
    (e5 : MournClassTableForwarded h4 = some h5) : Registry (ClearCache h5) := by
  have hT12 : ∀ o, InTable h2 o ↔ InTable h1 o := fun o => by
    unfold InTable
    rw [hJ.table.1, hJ.table.2]
  -- no forwardee waits for its class id
  have hreg2 : ∀ c l2, InTable h1 c → h2.load c = some l2 → l2.in_class_table = true →
      ∃ k : Nat, l2.refs[Behavior.classid_index]? = some (SmallInteger.New (k : Int)) ∧
        h2.class_table_ k = c := by
    intro c l2 hcT hl2 hb
    rcases hJ.registered c l2 hcT hl2 hb with hleft | ⟨-, k, i, hpk, hG, hF⟩
    · exact hleft
    · obtain ⟨lf, hlf, -⟩ := hK1 i _ c hF hG
      obtain ⟨-, hlt, -⟩ := hJ.entries k (isHeapObject_of_load hlf)
      rw [hJ.size] at hlt
      omega
  -- a table object is no forwarding corpse
  have hlegal : ∀ c l2, InTable h1 c → h2.load c = some l2 → l2.cid ≠ kForwardingCorpseCid := by
    intro c l2 hcT hl2 hcon
    obtain ⟨l1, hl1, hcid, -⟩ := load_of_InTable hT1 hcT
    obtain ⟨l2', hl2', hc2, -⟩ := hJ.present c l1 hl1
    rw [hl2] at hl2'
    cases hl2'
    rw [hcon] at hc2
    rw [← hc2] at hcid
    exact absurd hcid (by decide)
  have hq : ∀ k le, h2.load (h2.class_table_ k) = some le → le.cid = kForwardingCorpseCid →
      ∃ (ly : Layout) (q : Nat), h2.load le.header_hash_ = some ly ∧
        ly.refs[Behavior.classid_index]? = some (SmallInteger.New (q : Int)) ∧
        kFirstLegalCid ≤ q ∧ q < 2 ^ 32 := by
    intro k le hle hlec
    obtain ⟨-, -, alt⟩ := hJ.entries k (isHeapObject_of_load hle)
    rcases alt with ⟨cT, -⟩ | ⟨i, y, ly, hF, hG, hyT, hly, hby⟩
    · exact absurd hlec (hlegal _ le cT hle)
    · obtain ⟨l1, hl1, -, hh1⟩ := hK1 i _ y hF hG
      obtain ⟨le', hle', -, -, hh⟩ := hJ.present _ l1 hl1
      rw [hle] at hle'
      cases hle'
      have hty : le.header_hash_ = y := hh.trans hh1
      obtain ⟨q, hidq, hctq⟩ := hreg2 y ly hyT hly hby
      have hqh : IsHeapObject (h2.class_table_ q) := by
        rw [hctq]; exact isHeapObject_of_load hly
      obtain ⟨hq3, hqlt, -⟩ := hJ.entries q hqh
      rw [hJ.size] at hqlt
      exact ⟨ly, q, by rw [hty]; exact hly, hidq, hq3, by omega⟩
  have hM3 : Migrating h2 h3 := Migrating_ForwardRoots (Migrating_refl h2) e3
  have hM4 : Migrating h2 h4 := by
    refine Migrating_ForwardHeap_loop hq _ h3 h4 hM3 ?_ e4
    intro i hi
    rw [List.mem_range'_1, hM3.table.2] at hi
    omega
  obtain ⟨hl5, -, -, t5, s5⟩ := Mourn_loop_frame _ _ _ e5
  obtain ⟨z5, hk5⟩ := Mourn_loop_class_table _ _ _ e5
  have hT5 : ∀ o, InTable h5 o ↔ InTable h1 o := fun o => by
    unfold InTable
    rw [t5, s5, hM4.table.1, hM4.table.2, hJ.table.1, hJ.table.2]
  have hsz5 : h5.class_table_size_ = h1.class_table_size_ := by
    rw [z5, hM4.class_table.2, hJ.size]
  have hR5 : Registry h5 := by
    refine ⟨by rw [hsz5]; exact hsmall, ?_, ?_⟩
    · intro c l5 hcT hl5' hb
      have hcT1 := (hT5 c).1 hcT
      obtain ⟨l1, hl1, -⟩ := load_of_InTable hT1 hcT1
      obtain ⟨l2, hl2, -⟩ := hJ.present c l1 hl1
      obtain ⟨l4, hl4, hs, -, -, hcc⟩ := hM4.present c l2 hl2
      rw [hl5, hl4] at hl5'
      cases hl5'
      obtain ⟨k, hidk, hctk⟩ := hreg2 c l2 hcT1 hl2 (by rw [← hs.1]; exact hb)
      refine ⟨k, hs.2 _ _ hidk (isSmallInteger_New _), ?_⟩
      rcases hk5 k with ⟨a, -⟩ | ⟨-, a⟩
      · rw [a, hM4.class_table.1, hctk]
      · rw [hM4.class_table.1, hctk, IsForwardingCorpse_of_load hl4] at a
        have := hcc (hlegal c l2 hcT1 hl2)
        simp [this] at a
    · intro k hk
      rcases hk5 k with ⟨a, hnc⟩ | ⟨a, -⟩
      · rw [a, hM4.class_table.1] at hk ⊢
        obtain ⟨r1, r2, alt⟩ := hJ.entries k hk
        have hmem : k ∈ List.range' kFirstLegalCid (h4.class_table_size_ - kFirstLegalCid) := by
          rw [List.mem_range'_1, hM4.class_table.2]
          omega
        have hncor := hnc hmem
        rw [hM4.class_table.1] at hncor
        rcases alt with ⟨cT, l2, hl2, hb, hid⟩ | ⟨i, y, ly, hF, hG, -⟩
        · obtain ⟨l4, hl4, hs, -⟩ := hM4.present _ l2 hl2
          exact ⟨r1, by rw [hsz5, ← hJ.size]; exact r2, (hT5 _).2 cT, l4,
            by rw [hl5]; exact hl4, by rw [hs.1]; exact hb,
            hs.2 _ _ hid (isSmallInteger_New _)⟩
        · exfalso
          obtain ⟨l1, hl1, hc1, -⟩ := hK1 i _ y hF hG
          obtain ⟨l2, hl2, hc2, -⟩ := hJ.present _ l1 hl1
          obtain ⟨l4, hl4, -, -, hkeep, -⟩ := hM4.present _ l2 hl2
          have hnT : ¬ InTable h2 (h2.class_table_ k) := fun hcon =>
            corpse_not_InTable hT1 hl1 hc1 ((hT12 _).1 hcon)
          rw [IsForwardingCorpse_of_load hl4, hkeep hnT, hc2, hc1] at hncor
          simp at hncor
      · exact absurd hk a
  exact Registry_congr hR5 (fun _ => rfl) rfl rfl rfl rfl

end psoup

namespace psoup

/-- `BecomeForward` keeps the class table in order when the forwardee of every forwarder that is
registered in the class table is registered itself or holds nil in its class id slot. -/
theorem Registry_BecomeForward {h h' : Heap} {old neu : Object} {lo ln : Layout}
    (hR : Registry h) (hT : TableInv h) (hwb : WeakBitsClear h)
    (hnil : IsHeapObject h.interpreter_.nil_obj)
    (hlo : h.load old = some lo) (hln : h.load neu = some ln)
    (hso : SmallInteger.value lo.size_ = (lo.refs.length : Int))
    (hsn : SmallInteger.value ln.size_ = (ln.refs.length : Int))
    (hnd : lo.refs.Nodup) (hdis : ∀ x ∈ lo.refs, x ∉ ln.refs)
    (hoF : old ∉ lo.refs) (hnF : neu ∉ lo.refs) (hFT : ∀ x ∈ lo.refs, InTable h x)
    (hGT : ∀ y ∈ ln.refs, InTable h y)
    (hcls : ∀ (i : Nat) (f y : Object) (lf ly : Layout), lo.refs[i]? = some f →
      ln.refs[i]? = some y → h.load f = some lf → h.load y = some ly →
      lf.in_class_table = true →
      ly.in_class_table = true ∨
        ly.refs[Behavior.classid_index]? = some h.interpreter_.nil_obj)
    (he : BecomeForward h old neu = some (true, h')) : Registry h' := by
  obtain ⟨h1, h2, h3, h4, h5, hlen, ec, hF, e2, e3, e4, e5, rfl⟩ :=
    BecomeForward_phases hT hwb hlo hln hso hsn hnd hdis hoF hnF hFT he
  have hbits := corpses_bits hT hwb hlo hln hnd hdis hoF hnF hFT (List.range lo.refs.length) []
    h h1 (Forwarding_refl hT _ _)
    (fun i hi => ⟨List.not_mem_nil i, List.mem_range.1 hi, hlen ▸ List.mem_range.1 hi⟩)
    (List.nodup_range _)
    (fun o l0 l hl0 hl _ => by
      rw [hl0] at hl
      cases hl
      constructor
      · exact Or.inl
      · rintro (hb | ⟨i, hi, -⟩)
        · exact hb
        · exact absurd hi (List.not_mem_nil i)) ec
  have hmemP : ∀ (i : Nat) (f : Object), lo.refs[i]? = some f →
      i ∈ List.range lo.refs.length ++ [] := by
    intro i f hFi
    rw [List.append_nil, List.mem_range]
    by_contra hcon
    rw [List.getElem?_eq_none (by omega)] at hFi
    cases hFi
  have hK1 : ∀ (i : Nat) (f y : Object), lo.refs[i]? = some f → ln.refs[i]? = some y →
      ∃ l, h1.load f = some l ∧ l.cid = kForwardingCorpseCid ∧ l.header_hash_ = y :=
    fun i f y hFi hGi => hF.corpses i (hmemP i f hFi) f y hFi hGi
  have hT1 : TableInv h1 := hF.table
  have hnil1 : IsHeapObject h1.interpreter_.nil_obj := by rw [hF.interp]; exact hnil
  have hsmall : h1.class_table_size_ ≤ 2 ^ 32 := by rw [hF.class_table.2]; exact hR.small
  -- the storage and the bit of an object that is not a forwarder
  have hkeep : ∀ c l0, c ∉ lo.refs → h.load c = some l0 → ∃ l, h1.load c = some l ∧
      l.refs = l0.refs ∧ (l.in_class_table = true ↔ (l0.in_class_table = true ∨
        ∃ i ∈ List.range lo.refs.length ++ [], ∃ f lf, lo.refs[i]? = some f ∧
          ln.refs[i]? = some c ∧ h.load f = some lf ∧ lf.in_class_table = true)) := by
    intro c l0 hc hl0
    obtain ⟨l, hl, -, hsame⟩ := hF.present c l0 hl0
    have hun := (processed_iff lo.refs c).2 hc
    exact ⟨l, hl, (hsame hun).2.2, hbits c l0 l hl0 hl hun⟩
  have hJ0 : Renumbering h1 lo.refs ln.refs kFirstLegalCid h1 := by
    refine ⟨⟨rfl, rfl⟩, rfl, rfl, fun o l1 hl1 => ⟨l1, hl1, rfl, rfl, rfl⟩, ?_, ?_⟩
    · intro c l hcT1 hl1 hb
      obtain ⟨hcT, hun⟩ := (hF.inTable c).1 hcT1
      have hcF : c ∉ lo.refs := (processed_iff lo.refs c).1 hun
      obtain ⟨l0, hl0, -⟩ := load_of_InTable hT hcT
      obtain ⟨l', hl', hrefs, hiff⟩ := hkeep c l0 hcF hl0
      rw [hl1] at hl'
      cases hl'
      have hold : l0.in_class_table = true → ∃ k : Nat,
          l.refs[Behavior.classid_index]? = some (SmallInteger.New (k : Int)) ∧
            h1.class_table_ k = c := by
        intro hb0
        obtain ⟨k, hid, hct⟩ := hR.registered c l0 hcT hl0 hb0
        exact ⟨k, by rw [hrefs]; exact hid, by rw [hF.class_table.1]; exact hct⟩
      rcases hiff.1 hb with hb0 | ⟨i, -, f, lf, hFi, hGi, hlf, hbf⟩
      · exact Or.inl (hold hb0)
      · rcases hcls i f c lf l0 hFi hGi hlf hl0 hbf with hb0 | hn
        · exact Or.inl (hold hb0)
        · right
          obtain ⟨kf, -, hctf⟩ := hR.registered f lf (hFT f (List.getElem?_mem hFi)) hlf hbf
          have hheap : IsHeapObject (h.class_table_ kf) := by
            rw [hctf]; exact isHeapObject_of_load hlf
          obtain ⟨hk3, -⟩ := hR.entries kf hheap
          exact ⟨by rw [hrefs, hF.interp]; exact hn, kf, i, hk3, hGi,
            by rw [hF.class_table.1, hctf]; exact hFi⟩
    · intro k hk
      rw [hF.class_table.1] at hk ⊢
      obtain ⟨a, b, cT, l0, hl0, hb0, hid0⟩ := hR.entries k hk
      refine ⟨a, by rw [hF.class_table.2]; exact b, ?_⟩
      by_cases hcF : h.class_table_ k ∈ lo.refs
      · right
        obtain ⟨i, hFi⟩ := List.getElem?_of_mem hcF
        have hi : i < ln.refs.length := by
          have := List.mem_range.1 (by simpa using hmemP i _ hFi)
          omega
        have hGi : ln.refs[i]? = some ln.refs[i] := List.getElem?_eq_getElem hi
        have hyG : ln.refs[i] ∈ ln.refs := List.getElem_mem hi
        have hyF : ln.refs[i] ∉ lo.refs := fun hcon => hdis _ hcon hyG
        have hyT := hGT _ hyG
        obtain ⟨ly0, hly0, -⟩ := load_of_InTable hT hyT
        obtain ⟨ly, hly, -, hiff⟩ := hkeep _ ly0 hyF hly0
        exact ⟨i, ln.refs[i], ly, hFi, hGi,
          (hF.inTable _).2 ⟨hyT, (processed_iff lo.refs _).2 hyF⟩, hly,
          hiff.2 (Or.inr ⟨i, hmemP i _ hFi, _, l0, hFi, hGi, hl0, hb0⟩)⟩
      · left
        obtain ⟨l, hl, hrefs, hiff⟩ := hkeep _ l0 hcF hl0
        exact ⟨(hF.inTable _).2 ⟨cT, (processed_iff lo.refs _).2 hcF⟩, l, hl,
          hiff.2 (Or.inl hb0), by rw [hrefs]; exact hid0⟩
  have h3 : kFirstLegalCid = 3 := rfl
  unfold ForwardClassIds at e2
  by_cases hsz : kFirstLegalCid ≤ h1.class_table_size_
  · have hJ2 := Renumbering_loop hK1 hT1 hnd hnil1 hsmall
      (h1.class_table_size_ - kFirstLegalCid) kFirstLegalCid h1 h2 hJ0 (le_refl _)
      (by omega) e2
    exact Registry_passes hK1 hT1 hsmall hJ2 (by omega) e3 e4 e5
  · have hz : h1.class_table_size_ - kFirstLegalCid = 0 := by omega
    rw [hz] at e2
    simp only [List.range'_zero, ForwardClassIds.loop, Option.some.injEq] at e2
    subst e2
    exact Registry_passes hK1 hT1 hsmall hJ0 (by omega) e3 e4 e5

end psoup

namespace psoup

/-- The Boolean check of `Registry` is sound for a class table whose entries from
`class_table_size_` on are no heap objects. -/
theorem Registry_of_check {h : Heap} (hc : checkRegistry h = true)
    (hb : ∀ k, h.class_table_size_ ≤ k → ¬ IsHeapObject (h.class_table_ k)) : Registry h := by
  unfold checkRegistry at hc
  simp only [Bool.and_eq_true, decide_eq_true_eq, List.all_eq_true, List.mem_range,
    Bool.or_eq_true] at hc
  obtain ⟨⟨hsmall, hreg⟩, hent⟩ := hc
  refine ⟨hsmall, ?_, ?_⟩
  · rintro c l ⟨i, hi1, hi2, rfl⟩ hl hbit
    rcases hreg i hi2 with h0 | h1
    · omega
    · rw [hl] at h1
      simp only [Bool.or_eq_true, Bool.not_eq_true', List.any_eq_true, List.mem_range,
        Bool.and_eq_true, decide_eq_true_eq] at h1
      rcases h1 with hn | ⟨k, -, hid, hct⟩
      · rw [hbit] at hn
        cases hn
      · exact ⟨k, hid, hct⟩
  · intro k hk
    by_cases hks : k < h.class_table_size_
    · rcases hent k hks with hn | hy
      · simp only [Bool.not_eq_true', decide_eq_false_iff_not] at hn
        exact absurd hk hn
      · obtain ⟨⟨h3, hin⟩, hm⟩ := hy
        cases hl : h.load (h.class_table_ k) with
        | none =>
          rw [hl] at hm
          cases hm
        | some l =>
          rw [hl] at hm
          simp only [Bool.and_eq_true, decide_eq_true_eq] at hm
          exact ⟨h3, hks, (inTable_iff _ _).1 hin, l, rfl, hm.1, hm.2⟩
    · exact absurd hk (hb k (by omega))

/-- Counterexample to C16: `staleIdHeap` satisfies the data-model invariants, its class table is
in order and the class-table invariant holds in it: the classes `C1` at 7 and `C2` at 9 are
registered under the class ids 14 and 15, and the object `Y` at 17, whose class id slot holds
the small integer 15, has its in-class-table bit clear.  The become of `[C1]` into `[Y]`
returns true.  Afterwards `C2`, which is neither a forwarder nor a forwardee, is in the object
table with its in-class-table bit set and the class id 15, but `class_table_[15]` is `Y`. -/
theorem class_table_stale_id_counterexample :
    checkWellFormed staleIdHeap = true ∧ checkWeakBitsClear staleIdHeap = true ∧
    checkRegistry staleIdHeap = true ∧ ClassTableInv staleIdHeap ∧
    Array.element staleIdHeap 13 0 = some 7 ∧ Array.element staleIdHeap 15 0 = some 17 ∧
    (staleIdHeap.load 17).map (fun l => l.in_class_table) = some false ∧
    Behavior.id staleIdHeap 17 = some (SmallInteger.New 15) ∧
    ClassAt staleIdHeap 15 = some 9 ∧
    ((BecomeForward staleIdHeap 13 15).map fun p => p.1) = some true ∧
    inTable (becomeResult staleIdHeap 13 15).2 9 = true ∧
    ((becomeResult staleIdHeap 13 15).2.load 9).map (fun l => l.in_class_table) = some true ∧
    Behavior.id (becomeResult staleIdHeap 13 15).2 9 = some (SmallInteger.New 15) ∧
    ClassAt (becomeResult staleIdHeap 13 15).2 15 = some 17 ∧
    ¬ ClassTableInv (becomeResult staleIdHeap 13 15).2 := by
  have hR : Registry staleIdHeap := Registry_of_check (by decide) (fun k hk => by
    show ¬ IsHeapObject (if k = 14 then 7 else if k = 15 then 9 else 0)
    have h24 : (24 : Nat) ≤ k := hk
    rw [if_neg (by omega), if_neg (by omega)]
    exact not_isHeapObject_nullptr)
  refine ⟨by decide, by decide, by decide, ClassTableInv_of_Registry hR, by rfl, by rfl, by rfl,
    by rfl, by rfl, by rfl, by rfl, by rfl, by rfl, by rfl, ?_⟩
  intro hinv
  have hl : ∃ l, (becomeResult staleIdHeap 13 15).2.load 9 = some l ∧
      l.in_class_table = true := by
    cases hl9 : (becomeResult staleIdHeap 13 15).2.load 9 with
    | none =>
      have : ((becomeResult staleIdHeap 13 15).2.load 9).map (fun l => l.in_class_table) =
          some true := by rfl
      rw [hl9] at this
      cases this
    | some l =>
      have : ((becomeResult staleIdHeap 13 15).2.load 9).map (fun l => l.in_class_table) =
          some true := by rfl
      rw [hl9] at this
      exact ⟨l, rfl, Option.some.inj this⟩
  obtain ⟨l, hl9, hb⟩ := hl
  obtain ⟨id, hid, -, hct⟩ := (hinv 9 l ((inTable_iff _ _).1 (by rfl)) hl9).1 hb
  have hid' : Behavior.id (becomeResult staleIdHeap 13 15).2 9 = some (SmallInteger.New 15) := by
    rfl
  rw [hid'] at hid
  cases hid
  have hct' : ClassAt (becomeResult staleIdHeap 13 15).2
      (SmallInteger.value (SmallInteger.New 15)) = some 17 := by rfl
  rw [hct'] at hct
  cases hct

/-- C16 as amended.  `Registry h` says that the class table of `h` is in order: it has at most
`2^32` entries; an object of the object table whose in-class-table bit is set holds a class id
in its class id slot and is the entry of the class table under that id; and an entry of the
class table that is a heap object is at a legal class id below `class_table_size_`, is in the
object table, has its in-class-table bit set and holds its class id.  A class table in order
satisfies the class-table invariant: an object of the object table has its in-class-table bit
set if and only if `class_table_[cls.id().value()] == cls`.  The class table stays in order
across `RegisterClass` of an object of the object table that is not registered, under a legal
class id below `class_table_size_` whose entry holds no object; across a reclamation (the
unlinking and freeing of the worklist in the heap in which `CheckReachable` has returned false)
and across `GCStep` in a heap that satisfies the data-model invariants; and across a
`BecomeForward` that returns true (in a heap with legal class ids and clear weak-referent bits
in which nil is a heap object, for arrays whose length slots hold their lengths whose forwarders
are distinct objects of the object table, none of them a forwardee or one of the two arrays,
and whose forwardees are in the object table) provided that the forwardee of every forwarder
whose in-class-table bit is set has its in-class-table bit set or holds nil in its class id
slot. -/
theorem class_table_invariant_kept :
    (∀ h : Heap, Registry h → ClassTableInv h) ∧
    (∀ (h h' : Heap) (cid : Int) (cls : Object) (l : Layout), Registry h →
      (kFirstLegalCid : Int) ≤ cid → cid < (h.class_table_size_ : Int) →
      ¬ IsHeapObject (h.class_table_ cid.toNat) → InTable h cls → h.load cls = some l →
      l.in_class_table = false → RegisterClass h cid cls = some h' → Registry h') ∧
    (∀ h1 h3 : Heap, ClosureFound h1 → Registry h1 → GCStep.reclaim h1 = some h3 →
      Registry h3) ∧
    (∀ (h h' : Heap) (random0 random1 random2 : Nat), WellFormed h → Registry h →
      GCStep h random0 random1 random2 = some h' → Registry h') ∧
    (∀ (h h' : Heap) (old neu : Object) (lo ln : Layout), Registry h → TableInv h →
      WeakBitsClear h → IsHeapObject h.interpreter_.nil_obj →
      h.load old = some lo → h.load neu = some ln →
      SmallInteger.value lo.size_ = (lo.refs.length : Int) →
      SmallInteger.value ln.size_ = (ln.refs.length : Int) →
      lo.refs.Nodup → (∀ x ∈ lo.refs, x ∉ ln.refs) → old ∉ lo.refs → neu ∉ lo.refs →
      (∀ x ∈ lo.refs, InTable h x) → (∀ y ∈ ln.refs, InTable h y) →
      (∀ (i : Nat) (f y : Object) (lf ly : Layout), lo.refs[i]? = some f →
        ln.refs[i]? = some y → h.load f = some lf → h.load y = some ly →
        lf.in_class_table = true →
        ly.in_class_table = true ∨
          ly.refs[Behavior.classid_index]? = some h.interpreter_.nil_obj) →
      BecomeForward h old neu = some (true, h') → Registry h') := by
  refine ⟨fun h hR => ClassTableInv_of_Registry hR, ?_, ?_, ?_, ?_⟩
  · intro h h' cid cls l hR hlo hhi hfree hcT hl hb he
    exact Registry_RegisterClass hR hlo hhi hfree hcT hl hb he
  · intro h1 h3 hc hR he
    exact Registry_reclaim hc hR he
  · intro h h' random0 random1 random2 hwf hR he
    exact Registry_GCStep (WeaklyFormed_of_WellFormed hwf) hR he
  · intro h h' old neu lo ln hR hT hwb hnil hlo hln hso hsn hnd hdis hoF hnF hFT hGT hcls he
    exact Registry_BecomeForward hR hT hwb hnil hlo hln hso hsn hnd hdis hoF hnF hFT hGT hcls he

/-- Witness of C16 as amended: in `classHeapUnregistered`, whose class table is in order, the
class `C2` at 9, which holds nil in its class id slot, is registered under the class id 15; the
`GCStep` on `deadClassHeap` collects the registered class at 7; and the become of `[C1]` into
`[C2]` in `classHeapUnregistered` gives `C2` the class id 14 of `C1`. -/
theorem class_table_invariant_kept_witness :
    ClassTableInv classHeapUnregistered ∧
    Registry ((RegisterClass classHeapUnregistered 15 9).getD classHeapUnregistered) ∧
    Registry deadClassHeapCollected ∧
    Registry (becomeResult classHeapUnregistered 13 15).2 ∧
    ClassTableInv (becomeResult classHeapUnregistered 13 15).2 := by
  obtain ⟨w1, w2, -, w4, w5⟩ := class_table_invariant_kept
  have hR : Registry classHeapUnregistered := Registry_of_check (by decide) (fun k hk => by
    show ¬ IsHeapObject (if k = 14 then 7 else 0)
    have h24 : (24 : Nat) ≤ k := hk
    rw [if_neg (by omega)]
    exact not_isHeapObject_nullptr)
  have hRd : Registry deadClassHeap := Registry_of_check (by decide) (fun k hk => by
    show ¬ IsHeapObject (if k = 14 then 7 else 0)
    have h24 : (24 : Nat) ≤ k := hk
    rw [if_neg (by omega)]
    exact not_isHeapObject_nullptr)
  have hwf := WellFormed_of_check (h := classHeapUnregistered) (by decide)
  have hb : Registry (becomeResult classHeapUnregistered 13 15).2 :=
    w5 classHeapUnregistered (becomeResult classHeapUnregistered 13 15).2 13 15
      (Layout.sample kArrayCid 7 [.root 4] [7]) (Layout.sample kArrayCid 8 [.root 5] [9])
      hR hwf.1 (WeakBitsClear_of_check (by decide)) (by decide) (by rfl) (by rfl) (by rfl)
      (by rfl) (by decide) (by decide) (by decide) (by decide)
      (fun x hx => by
        have hx7 : x = 7 := List.mem_singleton.1 hx
        subst hx7
        exact (inTable_iff _ _).1 (by rfl))
      (fun y hy => by
        have hy9 : y = 9 := List.mem_singleton.1 hy
        subst hy9
        exact (inTable_iff _ _).1 (by rfl))
      (fun i f y lf ly _ hGi _ hly _ => by
        have hy9 : y = 9 := List.mem_singleton.1 (List.getElem?_mem hGi)
        subst hy9
        have h9 : classHeapUnregistered.load 9 =
            some (Layout.sampleClass 5 88 [.slot 15 0] 1 false) := by rfl
        rw [h9] at hly
        cases hly
        exact Or.inr (by rfl))
      (by rfl)
  refine ⟨w1 _ hR, ?_, ?_, hb, w1 _ hb⟩
  · exact w2 classHeapUnregistered _ 15 9 (Layout.sampleClass 5 88 [.slot 15 0] 1 false) hR
      (by decide) (by decide) (by decide) ((inTable_iff _ _).1 (by rfl)) (by rfl) (by rfl)
      (by rfl)
  · exact w4 deadClassHeap _ 4 1 2 (WellFormed_of_check (by decide)) hRd (by rfl)

end psoup

namespace psoup

theorem toIntptr_range (w : Nat) : -2 ^ 63 ≤ toIntptr w ∧ toIntptr w < 2 ^ 63 := by
  unfold toIntptr
  split_ifs with hlt <;> constructor <;> omega

theorem SmallInteger_value_range (o : Object) :
    -2 ^ 62 ≤ SmallInteger.value o ∧ SmallInteger.value o < 2 ^ 62 := by
  obtain ⟨h1, h2⟩ := toIntptr_range o
  show -2 ^ 62 ≤ toIntptr o / (2 : Int) ^ 1 ∧ toIntptr o / (2 : Int) ^ 1 < 2 ^ 62
  constructor <;> omega

/-- Counterexample to C21: `SmallInteger::New` has no range assertion, so for `2^62`, which is
one more than `kMaxValue`, it yields a small integer, and the `value()` of that small integer
is `-2^62`, not `2^62`. -/
theorem SmallInteger_New_out_of_range_counterexample :
    SmallInteger.kMaxValue < 2 ^ 62 ∧ ((2 : Int) ^ 62 < 2 ^ 63) ∧
    IsSmallInteger (SmallInteger.New (2 ^ 62)) ∧
    SmallInteger.value (SmallInteger.New (2 ^ 62)) = -2 ^ 62 ∧
    SmallInteger.value (SmallInteger.New (2 ^ 62)) ≠ 2 ^ 62 := by
  decide

/-- C21, amended: `SmallInteger::New(v)` checks nothing.  For every word-sized `v` it returns
the word `v << kSmiTagShift`, which is a small integer and not a heap object, and the `value()`
of the result is `v` exactly when `kMinValue <= v <= kMaxValue`; for a `v` outside the range
the result is a small integer whose `value()` differs from `v`. -/
theorem SmallInteger_New_unchecked (v : Int) (hlo : -2 ^ 63 ≤ v) (hhi : v < 2 ^ 63) :
    SmallInteger.New v = (toUword v * 2 ^ kSmiTagShift) % 2 ^ 64 ∧
    IsSmallInteger (SmallInteger.New v) ∧ ¬ IsHeapObject (SmallInteger.New v) ∧
    (SmallInteger.value (SmallInteger.New v) = v ↔
      (SmallInteger.kMinValue ≤ v ∧ v ≤ SmallInteger.kMaxValue)) := by
  refine ⟨rfl, isSmallInteger_New v, not_isHeapObject_New v, ?_⟩
  rw [SmallInteger_kMinValue_eq, SmallInteger_kMaxValue_eq]
  constructor
  · intro he
    have hr := SmallInteger_value_range (SmallInteger.New v)
    rw [he] at hr
    omega
  · rintro ⟨h1, h2⟩
    exact SmallInteger_value_New v h1 (by omega)

/-- Witness of C21: `SmallInteger::New` at `kMaxValue`, where the round trip holds, read in the
direction from the range to the value. -/
theorem SmallInteger_New_unchecked_witness :
    (-2 ^ 63 ≤ SmallInteger.kMaxValue) ∧ (SmallInteger.kMaxValue < 2 ^ 63) ∧
    SmallInteger.value (SmallInteger.New SmallInteger.kMaxValue) = SmallInteger.kMaxValue :=
  ⟨by decide, by decide,
    (SmallInteger_New_unchecked SmallInteger.kMaxValue (by decide) (by decide)).2.2.2.2
      ⟨by decide, by decide⟩⟩

end psoup

namespace psoup

theorem incomingOf_retarget_target {h : Heap} {r : RefPtr} {t H : Object} (hH : IsHeapObject H)
    (hl : ∃ l, h.load H = some l) :
    (h.retarget r t H).incomingOf H =
      (if H = t ∧ IsHeapObject t then (h.incomingOf H).erase r else h.incomingOf H) ++ [r] := by
  rw [incomingOf_retarget H (fun _ _ => hl), if_pos (And.intro rfl hH)]

/-- Counterexample to C26: in `becomeHeap` the incoming list of the object `a` at 7 holds the
Refs of the arrays at 11 and 13.  After `UpdateNoCheck` gives the Ref of the array at 15 the
target `a`, that Ref is the last element of the list, and the first element,
`incoming()->next`, is still the Ref of the array at 11. -/
theorem Update_head_counterexample :
    IsHeapObject 7 ∧
    (UpdateNoCheck becomeHeap (.slot 15 0) 7).map (fun h => h.incomingOf 7) =
      some [.slot 11 0, .slot 13 0, .slot 15 0] ∧
    (UpdateNoCheck becomeHeap (.slot 15 0) 7).map (fun h => (h.incomingOf 7).head?) ≠
      some (some (.slot 15 0)) := by
  decide

/-- C26, amended: `Ref::Update` splices at the tail.  `Link::Insert` on the list head puts the
new link between `prev` and the head, so after `Update`, `UpdateNoCheck` or `Init` of a Ref `r`
with a heap-object target `H`, `r` is the last element of the incoming list of `H`, that is
`H.incoming()->prev == r`: the list is the list before (without `r`, when `Update` removed it
from this same list) followed by `r`.  `r` is the first element, `H.incoming()->next == r`,
when that list before is empty; otherwise the first element is the one it was. -/
theorem Update_splices_at_tail (h h' : Heap) (r : RefPtr) (s H : Object)
    (hH : IsHeapObject H)
    (he : UpdateNoCheck h r H = some h' ∨ Update h r s H = some h' ∨
      Ref_Init h r s H = some h') :
    ∃ L : List RefPtr, (L = h.incomingOf H ∨ L = (h.incomingOf H).erase r) ∧
      h'.incomingOf H = L ++ [r] ∧ (h'.incomingOf H).getLast? = some r ∧
      (L = [] → (h'.incomingOf H).head? = some r) ∧
      (∀ x, L.head? = some x → (h'.incomingOf H).head? = some x) := by
  have key : ∀ t, (∃ l, h.load H = some l) → h' = h.retarget r t H →
      ∃ L : List RefPtr, (L = h.incomingOf H ∨ L = (h.incomingOf H).erase r) ∧
        h'.incomingOf H = L ++ [r] ∧ (h'.incomingOf H).getLast? = some r ∧
        (L = [] → (h'.incomingOf H).head? = some r) ∧
        (∀ x, L.head? = some x → (h'.incomingOf H).head? = some x) := by
    intro t hl e
    refine ⟨if H = t ∧ IsHeapObject t then (h.incomingOf H).erase r else h.incomingOf H,
      ?_, ?_, ?_, ?_, ?_⟩
    · split_ifs
      · exact Or.inr rfl
      · exact Or.inl rfl
    · rw [e, incomingOf_retarget_target hH hl]
    · rw [e, incomingOf_retarget_target hH hl, List.getLast?_append, List.getLast?_singleton]
      rfl
    · intro hL
      rw [e, incomingOf_retarget_target hH hl, hL]
      rfl
    · intro x hx
      rw [e, incomingOf_retarget_target hH hl, List.head?_append, hx]
      rfl
  rcases he with he | he | he
  · obtain ⟨t, -, -, hv, e⟩ := UpdateNoCheck_eq_some.1 he
    exact key t (hv hH) e
  · obtain ⟨t, -, -, hv, e⟩ := UpdateNoCheck_eq_some.1 he
    exact key t (hv hH) e
  · obtain ⟨-, hv, e⟩ := Ref_Init_eq_some.1 he
    exact key nullptr (hv hH) e

/-- Witness of C26: the Ref of the array at 15 in `becomeHeap`, given the target `a` at 7. -/
theorem Update_splices_at_tail_witness :
    IsHeapObject 7 ∧
    ∃ L : List RefPtr, (L = becomeHeap.incomingOf 7 ∨
        L = (becomeHeap.incomingOf 7).erase (.slot 15 0)) ∧
      ((UpdateNoCheck becomeHeap (.slot 15 0) 7).getD becomeHeap).incomingOf 7 =
        L ++ [.slot 15 0] ∧
      (((UpdateNoCheck becomeHeap (.slot 15 0) 7).getD becomeHeap).incomingOf 7).getLast? =
        some (.slot 15 0) ∧
      (L = [] → (((UpdateNoCheck becomeHeap (.slot 15 0) 7).getD becomeHeap).incomingOf
        7).head? = some (.slot 15 0)) ∧
      (∀ x, L.head? = some x →
        (((UpdateNoCheck becomeHeap (.slot 15 0) 7).getD becomeHeap).incomingOf 7).head? =
          some x) :=
  ⟨by decide,
    Update_splices_at_tail becomeHeap ((UpdateNoCheck becomeHeap (.slot 15 0) 7).getD becomeHeap)
      (.slot 15 0) 15 7 (by decide) (Or.inl (by rfl))⟩

end psoup

namespace psoup

theorem shift_round_trip (s : Nat) (hs : s % kObjectAlignment = 0) :
    (s >>> kObjectAlignmentLog2) <<< kObjectAlignmentLog2 = s := by
  have h32 : s % 32 = 0 := hs
  show (s >>> 4) <<< 4 = s
  rw [Nat.shiftRight_eq_div_pow, Nat.shiftLeft_eq]
  omega

theorem and_mask_eq_zero (s : Nat) (hs : s % kObjectAlignment = 0) :
    s &&& kObjectAlignmentMask = 0 := by
  have h32 : s % 2 ^ 5 = 0 := hs
  show s &&& (2 ^ 5 - 1) = 0
  rw [Nat.and_pow_two_sub_one_eq_mod]
  exact h32

/-- C30: the header size encoding.  For every `heap_size > 0` that is a multiple of
`kObjectAlignment` and every legal class id (not `kIllegalCid`, and within the
`kClassIdFieldSize` bits of the class-id field), the object that `HeapObject::Initialize`
sets up has `cid() == cid`; when `heap_size >> kObjectAlignmentLog2` fits the size field its
`heap_size()` is `heap_size` and every assertion of `Initialize` holds; otherwise its
`heap_size()` is 0, and the assertions of `Initialize` hold exactly when
`cid < kFirstRegularObjectCid`. -/
theorem Initialize_size_encoding (raw : Layout) (cid heap_size : Nat)
    (hpos : 0 < heap_size) (hal : heap_size % kObjectAlignment = 0)
    (hcid : cid ≠ kIllegalCid) (hfit : cid < 2 ^ kClassIdFieldSize) :
    (raw.Initialize cid heap_size).cid = cid ∧
    (SizeField.is_valid (heap_size >>> kObjectAlignmentLog2) →
      (raw.Initialize cid heap_size).heap_size = heap_size ∧
      raw.InitializeChecked cid heap_size = some (raw.Initialize cid heap_size)) ∧
    (¬ SizeField.is_valid (heap_size >>> kObjectAlignmentLog2) →
      (raw.Initialize cid heap_size).heap_size = 0 ∧
      ((raw.InitializeChecked cid heap_size).isSome = true ↔ cid < kFirstRegularObjectCid) ∧
      (cid < kFirstRegularObjectCid →
        raw.InitializeChecked cid heap_size = some (raw.Initialize cid heap_size))) := by
  have hc : (raw.Initialize cid heap_size).cid = cid := Nat.mod_eq_of_lt hfit
  have hm : (raw.Initialize cid heap_size).is_marked = false := rfl
  have hmask := and_mask_eq_zero heap_size hal
  refine ⟨hc, ?_, ?_⟩
  · intro hv
    refine ⟨?_, ?_⟩
    · unfold Layout.heap_size Layout.Initialize
      simp only [if_pos hv]
      exact shift_round_trip heap_size hal
    · unfold Layout.InitializeChecked
      rw [if_neg hcid, if_neg (not_not.2 hmask), if_neg (not_not.2 hpos),
        if_neg (fun hx => hx.1 hv), if_neg (not_not.2 hc), if_neg (by rw [hm]; decide)]
  · intro hv
    refine ⟨?_, ?_, ?_⟩
    · unfold Layout.heap_size Layout.Initialize
      simp only [if_neg hv]
      simp
    · unfold Layout.InitializeChecked
      rw [if_neg hcid, if_neg (not_not.2 hmask), if_neg (not_not.2 hpos)]
      by_cases hr : cid < kFirstRegularObjectCid
      · rw [if_neg (fun hx => hx.2 hr), if_neg (not_not.2 hc), if_neg (by rw [hm]; decide)]
        simp [hr]
      · rw [if_pos ⟨hv, hr⟩]
        simp [hr]
    · intro hr
      unfold Layout.InitializeChecked
      rw [if_neg hcid, if_neg (not_not.2 hmask), if_neg (not_not.2 hpos),
        if_neg (fun hx => hx.2 hr), if_neg (not_not.2 hc), if_neg (by rw [hm]; decide)]

/-- Witness of C30: an array of `kArrayCid` with the heap size 64, which fits the size field,
and a byte array with the heap size `2^20`, which does not. -/
theorem Initialize_size_encoding_witness :
    ((Layout.sample kArrayCid 0 [] []).Initialize kArrayCid 64).cid = kArrayCid ∧
    ((Layout.sample kArrayCid 0 [] []).Initialize kArrayCid 64).heap_size = 64 ∧
    ((Layout.sample kByteArrayCid 0 [] []).Initialize kByteArrayCid 1048576).heap_size = 0 :=
  ⟨(Initialize_size_encoding (Layout.sample kArrayCid 0 [] []) kArrayCid 64 (by decide)
      (by decide) (by decide) (by decide)).1,
   ((Initialize_size_encoding (Layout.sample kArrayCid 0 [] []) kArrayCid 64 (by decide)
      (by decide) (by decide) (by decide)).2.1 (by decide)).1,
   ((Initialize_size_encoding (Layout.sample kByteArrayCid 0 [] []) kByteArrayCid 1048576
      (by decide) (by decide) (by decide) (by decide)).2.2 (by decide)).1⟩

end psoup

namespace psoup

theorem ScopeEvent_peak_ge (d : Nat) (w : List ScopeEvent) : d ≤ ScopeEvent.peak d w := by
  cases w with
  | nil => exact Nat.le_refl d
  | cons e rest =>
    cases e with
    | enter p => exact Nat.le_max_left _ _
    | leave => exact Nat.le_max_left _ _

theorem HandleScope_construct_eq (s : HandleStack) (ptr : Nat) (h0 : 0 ≤ s.handles_size_)
    (h8 : s.handles_size_ < 8) :
    HandleScope.construct s ptr =
      some { handles_ := Function.update s.handles_ s.handles_size_.toNat ptr,
             handles_size_ := s.handles_size_ + 1 } := by
  unfold HandleScope.construct
  rw [if_pos]
  exact ⟨h0, h8⟩

/-- A sequence of constructions and destructions that never destroys a scope it has not
constructed leaves the entries below its first scope as they are. -/
theorem HandleScope_run_nested : ∀ (w : List ScopeEvent) (s : HandleStack) (b : Int)
    (d d' : Nat), 0 ≤ b → s.handles_size_ = b + d → ScopeEvent.depth d w = some d' →
    b + (ScopeEvent.peak d w : Int) ≤ 8 →
    ∃ s', HandleScope.run s w = some s' ∧ s'.handles_size_ = b + d' ∧
      ∀ i : Nat, (i : Int) < b → s'.handles_ i = s.handles_ i := by
  intro w
  induction w with
  | nil =>
    intro s b d d' _ hs hd _
    have : d = d' := Option.some.inj hd
    subst this
    exact ⟨s, rfl, hs, fun _ _ => rfl⟩
  | cons e rest ih =>
    intro s b d d' hb hs hd hp
    cases e with
    | enter ptr =>
      have hd1 : ScopeEvent.depth (d + 1) rest = some d' := hd
      have hp0 : ScopeEvent.peak d (ScopeEvent.enter ptr :: rest) =
          max d (ScopeEvent.peak (d + 1) rest) := rfl
      have hge := ScopeEvent_peak_ge (d + 1) rest
      have hp1 : b + (ScopeEvent.peak (d + 1) rest : Int) ≤ 8 := by
        rw [hp0] at hp
        have : ScopeEvent.peak (d + 1) rest ≤ max d (ScopeEvent.peak (d + 1) rest) :=
          Nat.le_max_right _ _
        omega
      have hc := HandleScope_construct_eq s ptr (by omega) (by omega)
      obtain ⟨s', hr, hsz, hkeep⟩ := ih
        { handles_ := Function.update s.handles_ s.handles_size_.toNat ptr,
          handles_size_ := s.handles_size_ + 1 } b (d + 1) d' hb
        (show s.handles_size_ + 1 = b + ((d + 1 : Nat) : Int) by push_cast; omega) hd1 hp1
      refine ⟨s', ?_, hsz, ?_⟩
      · show (HandleScope.construct s ptr).bind (fun s1 => HandleScope.run s1 rest) = some s'
        rw [hc]
        exact hr
      · intro i hi
        rw [hkeep i hi]
        show Function.update s.handles_ s.handles_size_.toNat ptr i = s.handles_ i
        rw [Function.update_noteq]
        omega
    | leave =>
      have hd0 : (if d = 0 then none else ScopeEvent.depth (d - 1) rest) = some d' := hd
      by_cases hz : d = 0
      · rw [if_pos hz] at hd0
        cases hd0
      · rw [if_neg hz] at hd0
        have hp0 : ScopeEvent.peak d (ScopeEvent.leave :: rest) =
            max d (ScopeEvent.peak (d - 1) rest) := rfl
        have hp1 : b + (ScopeEvent.peak (d - 1) rest : Int) ≤ 8 := by
          rw [hp0] at hp
          have : ScopeEvent.peak (d - 1) rest ≤ max d (ScopeEvent.peak (d - 1) rest) :=
            Nat.le_max_right _ _
          omega
        obtain ⟨s', hr, hsz, hkeep⟩ := ih (HandleScope.destruct s) b (d - 1) d' hb
          (show s.handles_size_ - 1 = b + ((d - 1 : Nat) : Int) by omega) hd0 hp1
        exact ⟨s', hr, hsz, fun i hi => hkeep i hi⟩

/-- C22: handle scopes form a stack of capacity eight.  The constructor of `HandleScope` has a
defined result exactly when `0 <= handles_size_ < kHandlesCapacity`, which is what it asserts;
it then stores its pointer at `handles_[handles_size_]`, leaves the other entries as they are,
and increments `handles_size_`.  The destructor decrements `handles_size_` and writes no entry.
For a scope whose body `w` is a properly nested sequence of scopes that fits the capacity, the
construction, the body and the destruction all return, and the handle stack after the
destruction has the size and the entries below the size that it had before the
construction. -/
theorem HandleScope_stack (s : HandleStack) (ptr : Nat) (w : List ScopeEvent)
    (h0 : 0 ≤ s.handles_size_) (hw : ScopeEvent.depth 0 w = some 0)
    (hcap : s.handles_size_ + 1 + (ScopeEvent.peak 0 w : Int) ≤ (Heap.kHandlesCapacity : Int)) :
    (∀ (t : HandleStack) (p : Nat), (HandleScope.construct t p).isSome = true ↔
      (0 ≤ t.handles_size_ ∧ t.handles_size_ < 8)) ∧
    (∀ t : HandleStack, (HandleScope.destruct t).handles_size_ = t.handles_size_ - 1 ∧
      (HandleScope.destruct t).handles_ = t.handles_) ∧
    ∃ s1 s2, HandleScope.construct s ptr = some s1 ∧
      s1.handles_ s.handles_size_.toNat = ptr ∧ s1.handles_size_ = s.handles_size_ + 1 ∧
      (∀ i, i ≠ s.handles_size_.toNat → s1.handles_ i = s.handles_ i) ∧
      HandleScope.run s1 w = some s2 ∧
      (HandleScope.destruct s2).handles_size_ = s.handles_size_ ∧
      ∀ i : Nat, (i : Int) < s.handles_size_ →
        (HandleScope.destruct s2).handles_ i = s.handles_ i := by
  have hcap8 : s.handles_size_ + 1 + (ScopeEvent.peak 0 w : Int) ≤ 8 := hcap
  refine ⟨?_, fun t => ⟨rfl, rfl⟩, ?_⟩
  · intro t p
    unfold HandleScope.construct
    by_cases hc : 0 ≤ t.handles_size_ ∧ t.handles_size_ < (Heap.kHandlesCapacity : Int)
    · rw [if_pos hc]
      simpa using hc
    · rw [if_neg hc]
      have hc' : ¬ (0 ≤ t.handles_size_ ∧ t.handles_size_ < 8) := hc
      simp only [Option.isSome_none, Bool.false_eq_true, false_iff]
      exact hc'
  · have hc := HandleScope_construct_eq s ptr h0 (by omega)
    obtain ⟨s2, hr, hsz, hkeep⟩ := HandleScope_run_nested w
      { handles_ := Function.update s.handles_ s.handles_size_.toNat ptr,
        handles_size_ := s.handles_size_ + 1 } (s.handles_size_ + 1) 0 0 (by omega)
      (by simp) hw (by omega)
    refine ⟨_, s2, hc, Function.update_same _ _ _, rfl,
      fun i hi => Function.update_noteq hi _ _, hr, ?_, ?_⟩
    · show s2.handles_size_ - 1 = s.handles_size_
      rw [hsz]
      simp
    · intro i hi
      show s2.handles_ i = s.handles_ i
      rw [hkeep i (by omega)]
      show Function.update s.handles_ s.handles_size_.toNat ptr i = s.handles_ i
      rw [Function.update_noteq]
      omega

/-- Witness of C22: on the empty handle stack, a scope for the pointer 100 whose body
constructs and destroys a scope for the pointer 200 and then one for the pointer 300. -/
theorem HandleScope_stack_witness :
    ScopeEvent.depth 0 [.enter 200, .leave, .enter 300, .leave] = some 0 ∧
    ∃ s1 s2, HandleScope.construct HandleStack.empty 100 = some s1 ∧
      s1.handles_ HandleStack.empty.handles_size_.toNat = 100 ∧
      s1.handles_size_ = HandleStack.empty.handles_size_ + 1 ∧
      (∀ i, i ≠ HandleStack.empty.handles_size_.toNat →
        s1.handles_ i = HandleStack.empty.handles_ i) ∧
      HandleScope.run s1 [.enter 200, .leave, .enter 300, .leave] = some s2 ∧
      (HandleScope.destruct s2).handles_size_ = HandleStack.empty.handles_size_ ∧
      ∀ i : Nat, (i : Int) < HandleStack.empty.handles_size_ →
        (HandleScope.destruct s2).handles_ i = HandleStack.empty.handles_ i :=
  ⟨by decide,
    (HandleScope_stack HandleStack.empty 100 [.enter 200, .leave, .enter 300, .leave]
      (by decide) (by decide) (by decide)).2.2⟩

end psoup

namespace psoup

theorem SameRest_refl (h : Heap) : Heap.SameRest h h :=
  ⟨rfl, rfl, rfl, rfl, rfl, rfl, rfl, rfl⟩

theorem SameRest_trans {a b c : Heap} (h1 : Heap.SameRest a b) (h2 : Heap.SameRest b c) :
    Heap.SameRest a c := by
  obtain ⟨a1, a2, a3, a4, a5, a6, a7, a8⟩ := h1
  obtain ⟨b1, b2, b3, b4, b5, b6, b7, b8⟩ := h2
  exact ⟨b1.trans a1, b2.trans a2, b3.trans a3, b4.trans a4, b5.trans a5, b6.trans a6,
    b7.trans a7, b8.trans a8⟩

theorem RegisterInstance_rest {h h' : Heap} {obj : Object}
    (he : RegisterInstance h obj = some h') :
    h.table_capacity_ ≤ h'.table_capacity_ ∧ Heap.SameRest h h' := by
  unfold RegisterInstance at he
  split_ifs at he with hc
  · obtain ⟨l2, -, rfl⟩ := modify_eq_some.1 he
    exact ⟨Nat.le_add_right _ _, rfl, rfl, rfl, rfl, rfl, rfl, rfl, rfl⟩
  · obtain ⟨l2, -, rfl⟩ := modify_eq_some.1 he
    exact ⟨Nat.le_refl _, rfl, rfl, rfl, rfl, rfl, rfl, rfl, rfl⟩

theorem modify_rest {h h' : Heap} {obj : Object} {f : Layout → Layout}
    (he : h.modify obj f = some h') :
    h'.table_ = h.table_ ∧ h'.table_size_ = h.table_size_ ∧
    h'.table_capacity_ = h.table_capacity_ ∧ h'.heap_size_ = h.heap_size_ ∧
    Heap.SameRest h h' := by
  obtain ⟨l, -, rfl⟩ := modify_eq_some.1 he
  exact ⟨rfl, rfl, rfl, rfl, rfl, rfl, rfl, rfl, rfl, rfl, rfl, rfl⟩

theorem modify_load {h h' : Heap} {obj : Object} {f : Layout → Layout} {l : Layout}
    (hl : h.load obj = some l) (he : h.modify obj f = some h') (o : Object) :
    h'.load o = if o = obj then some (f l) else h.load o := by
  obtain ⟨l2, hl2, rfl⟩ := modify_eq_some.1 he
  rw [hl] at hl2
  cases hl2
  by_cases ho : o = obj
  · subst ho
    rw [if_pos rfl]
    exact load_store_same (isHeapObject_of_load hl)
  · rw [if_neg ho]
    exact load_store_ne ho

/-- The heap after `malloc` returned the block `raw` at `addr`. -/
theorem Allocate_eq_some {h h1 : Heap} {size : Nat} {allocator : Allocator}
    {random : Nat × Nat × Nat} {addr : Nat} {raw : Layout} :
    Allocate h size allocator random addr raw = some h1 ↔
      ∃ h0, (if allocator ≠ Allocator.kSnapshot then GCStep h random.1 random.2.1 random.2.2
          else some h) = some h0 ∧ h0.fresh addr ∧
        h1 = { h0 with heap_size_ := h0.heap_size_ + (size : Int),
                       memory := Function.update h0.memory (FromAddr addr) (some raw) } := by
  unfold Allocate Heap.fresh
  simp only [Option.bind_eq_some]
  constructor
  · rintro ⟨h0, e0, e1⟩
    split_ifs at e1 with hbad
    cases e1
    have hbad' : ¬ addr = 0 ∧ ¬ addr % 2 = 1 ∧ ¬ (h0.memory (FromAddr addr)).isSome := by
      simpa [not_or] using hbad
    obtain ⟨ha, hev, hfree⟩ := hbad'
    refine ⟨h0, e0, ⟨ha, by omega, ?_⟩, rfl⟩
    cases hm : h0.memory (FromAddr addr) with
    | none => rfl
    | some l => rw [hm] at hfree; simp at hfree
  · rintro ⟨h0, e0, ⟨ha, hev, hfree⟩, rfl⟩
    refine ⟨h0, e0, ?_⟩
    rw [if_neg]
    rintro (h1 | h1 | h1)
    · exact ha h1
    · omega
    · rw [hfree] at h1
      simp at h1

/-- The allocators up to `RegisterInstance`, in terms of the heap `h0` after the `GCStep` of
`Heap::Allocate`. -/
theorem AllocateObject_spec {h h' : Heap} {cid heap_size : Nat} {allocator : Allocator}
    {random : Nat × Nat × Nat} {addr : Nat} {raw : Layout} {obj : Object}
    (he : AllocateObject h cid heap_size allocator random addr raw = some (obj, h')) :
    ∃ h0 : Heap,
      (if allocator ≠ Allocator.kSnapshot then GCStep h random.1 random.2.1 random.2.2
       else some h) = some h0 ∧ h0.fresh addr ∧
      obj = FromAddr addr ∧ IsHeapObject obj ∧ h0.load obj = none ∧
      h'.table_ = Function.update h0.table_ h0.table_size_ obj ∧
      h'.table_size_ = h0.table_size_ + 1 ∧
      h'.heap_size_ = h0.heap_size_ + (heap_size : Int) ∧
      h0.table_capacity_ ≤ h'.table_capacity_ ∧ Heap.SameRest h0 h' ∧
      ∀ o, h'.load o = if o = obj then
        some { raw.Initialize cid heap_size with
          header_hash_ := IndexField.update h0.table_size_ 0 } else h0.load o := by
  unfold AllocateObject at he
  simp only [Option.bind_eq_some, Option.map_eq_some', Prod.mk.injEq] at he
  obtain ⟨h1, e1, h2, e2, h3, e3, rfl, rfl⟩ := he
  obtain ⟨h0, e0, hfresh, rfl⟩ := Allocate_eq_some.1 e1
  have hobj : IsHeapObject (FromAddr addr) := isHeapObject_FromAddr hfresh.2.1
  have hnone : h0.load (FromAddr addr) = none := by
    unfold Heap.load
    rw [if_pos hobj]
    exact hfresh.2.2
  have hl1 : ∀ o, ({ h0 with heap_size_ := h0.heap_size_ + (heap_size : Int),
                             memory := Function.update h0.memory (FromAddr addr)
                               (some raw) } : Heap).load o =
      if o = FromAddr addr then some raw else h0.load o := by
    intro o
    by_cases ho : o = FromAddr addr
    · subst ho
      rw [if_pos rfl]
      show (if IsHeapObject (FromAddr addr) then
        Function.update h0.memory (FromAddr addr) (some raw) (FromAddr addr) else none) = _
      rw [if_pos hobj, Function.update_same]
    · rw [if_neg ho]
      show (if IsHeapObject o then
        Function.update h0.memory (FromAddr addr) (some raw) o else none) = _
      rw [Function.update_noteq ho]
      rfl
  have hraw := hl1 (FromAddr addr)
  rw [if_pos rfl] at hraw
  have hl2 := modify_load hraw e2
  obtain ⟨t2, s2, c2, z2, r2⟩ := modify_rest e2
  have hini := hl2 (FromAddr addr)
  rw [if_pos rfl] at hini
  obtain ⟨h3', e3', t3, s3, z3, ld3⟩ := RegisterInstance_eq hini
  rw [e3] at e3'
  cases e3'
  obtain ⟨c3, r3⟩ := RegisterInstance_rest e3
  refine ⟨h0, e0, hfresh, rfl, hobj, hnone, ?_, ?_, ?_, ?_, ?_, ?_⟩
  · rw [t3, t2, s2]
  · rw [s3, s2]
  · rw [z3, z2]
  · rw [c2] at c3
    exact c3
  · exact SameRest_trans (SameRest_trans (SameRest_refl _) r2) r3
  · intro o
    rw [ld3 o, s2]
    by_cases ho : o = FromAddr addr
    · rw [if_pos ho, if_pos ho]
      rfl
    · rw [if_neg ho, if_neg ho, hl2 o, if_neg ho, hl1 o, if_neg ho]

/-- The allocators up to `RegisterInstance` return when the `GCStep` returns and `malloc`
returns a block. -/
theorem AllocateObject_total {h h0 : Heap} {allocator : Allocator}
    {random : Nat × Nat × Nat} {addr : Nat}
    (hgc : (if allocator ≠ Allocator.kSnapshot then GCStep h random.1 random.2.1 random.2.2
       else some h) = some h0) (hfresh : h0.fresh addr) (cid heap_size : Nat) (raw : Layout) :
    ∃ h', AllocateObject h cid heap_size allocator random addr raw =
      some (FromAddr addr, h') := by
  have hobj : IsHeapObject (FromAddr addr) := isHeapObject_FromAddr hfresh.2.1
  have e1 : Allocate h heap_size allocator random addr raw =
      some { h0 with heap_size_ := h0.heap_size_ + (heap_size : Int),
                     memory := Function.update h0.memory (FromAddr addr) (some raw) } :=
    Allocate_eq_some.2 ⟨h0, hgc, hfresh, rfl⟩
  have hraw : ({ h0 with heap_size_ := h0.heap_size_ + (heap_size : Int),
                         memory := Function.update h0.memory (FromAddr addr)
                           (some raw) } : Heap).load
      (FromAddr addr) = some raw := by
    show (if IsHeapObject (FromAddr addr) then
      Function.update h0.memory (FromAddr addr) (some raw) (FromAddr addr) else none) = _
    rw [if_pos hobj, Function.update_same]
  have e2 := (modify_eq_some (f := fun l => l.Initialize cid heap_size)).2 ⟨raw, hraw, rfl⟩
  obtain ⟨h3, e3, -⟩ := RegisterInstance_eq
    (h := Heap.store _ (FromAddr addr) (raw.Initialize cid heap_size)) (load_store_same hobj)
  refine ⟨h3, ?_⟩
  unfold AllocateObject
  rw [e1]
  simp only [Option.some_bind]
  rw [e2]
  simp only [Option.some_bind]
  rw [e3]
  rfl

end psoup

namespace psoup

theorem AllocationSize_aligned (x : Nat) (hx : 0 < x) :
    AllocationSize x % kObjectAlignment = 0 ∧ 0 < AllocationSize x ∧ x ≤ AllocationSize x := by
  have e : AllocationSize x = (x + 32 - 1) / 32 * 32 := rfl
  have k : kObjectAlignment = 32 := rfl
  rw [e, k]
  refine ⟨?_, ?_, ?_⟩ <;> omega

/-- The allocators that store a length, after `RegisterInstance`. -/
theorem AllocateArray_decompose (h : Heap) (n : Nat) (allocator : Allocator)
    (random : Nat × Nat × Nat) (addr : Nat) (raw : Layout) :
    AllocateArray h n allocator random addr raw =
      (AllocateObject h kArrayCid (AllocationWord (n * sizeofRef + sizeofArrayLayout)) allocator
        random addr raw).bind fun p =>
          (init_size p.2 p.1 (SmallInteger.New (n : Int))).map fun h4 => (p.1, h4) := by
  unfold AllocateArray AllocateObject init_size
  dsimp only
  cases Allocate h (AllocationWord (n * sizeofRef + sizeofArrayLayout)) allocator random addr
    raw with
  | none => rfl
  | some h1 =>
    simp only [Option.some_bind]
    cases h1.modify (FromAddr addr) fun l =>
      l.Initialize kArrayCid (AllocationWord (n * sizeofRef + sizeofArrayLayout)) with
    | none => rfl
    | some h2 =>
      simp only [Option.some_bind]
      cases RegisterInstance h2 (FromAddr addr) with
      | none => rfl
      | some h3 => rfl

theorem AllocateWeakArray_decompose (h : Heap) (n : Nat) (allocator : Allocator)
    (random : Nat × Nat × Nat) (addr : Nat) (raw : Layout) :
    AllocateWeakArray h n allocator random addr raw =
      (AllocateObject h kWeakArrayCid (AllocationWord (n * sizeofRef + sizeofWeakArrayLayout))
        allocator random addr raw).bind fun p =>
          (init_size p.2 p.1 (SmallInteger.New (n : Int))).map fun h4 => (p.1, h4) := by
  unfold AllocateWeakArray AllocateObject
  dsimp only
  cases Allocate h (AllocationWord (n * sizeofRef + sizeofWeakArrayLayout)) allocator random
    addr raw with
  | none => rfl
  | some h1 =>
    simp only [Option.some_bind]
    cases h1.modify (FromAddr addr) fun l =>
      l.Initialize kWeakArrayCid (AllocationWord (n * sizeofRef + sizeofWeakArrayLayout)) with
    | none => rfl
    | some h2 =>
      simp only [Option.some_bind]
      cases RegisterInstance h2 (FromAddr addr) with
      | none => rfl
      | some h3 => rfl

theorem AllocateByteArray_decompose (h : Heap) (n : Nat) (allocator : Allocator)
    (random : Nat × Nat × Nat) (addr : Nat) (raw : Layout) :
    AllocateByteArray h n allocator random addr raw =
      (AllocateObject h kByteArrayCid (AllocationWord (n * sizeofUint8 + sizeofByteArrayLayout))
        allocator random addr raw).bind fun p =>
          (init_size p.2 p.1 (SmallInteger.New (n : Int))).map fun h4 => (p.1, h4) := by
  unfold AllocateByteArray AllocateObject
  dsimp only
  cases Allocate h (AllocationWord (n * sizeofUint8 + sizeofByteArrayLayout)) allocator random
    addr raw with
  | none => rfl
  | some h1 =>
    simp only [Option.some_bind]
    cases h1.modify (FromAddr addr) fun l =>
      l.Initialize kByteArrayCid (AllocationWord (n * sizeofUint8 + sizeofByteArrayLayout)) with
    | none => rfl
    | some h2 =>
      simp only [Option.some_bind]
      cases RegisterInstance h2 (FromAddr addr) with
      | none => rfl
      | some h3 => rfl

theorem AllocateRegularObject_snapshot (h : Heap) (cid n : Nat)
    (random : Nat × Nat × Nat) (addr : Nat) (raw : Layout) :
    AllocateRegularObject h cid n Allocator.kSnapshot random addr raw =
      AllocateObject h cid (AllocationWord (n * sizeofRef + sizeofRegularObjectLayout))
        Allocator.kSnapshot random addr raw := by
  unfold AllocateRegularObject AllocateObject
  dsimp only
  cases Allocate h (AllocationWord (n * sizeofRef + sizeofRegularObjectLayout))
    Allocator.kSnapshot random addr raw with
  | none => rfl
  | some h1 =>
    simp only [Option.some_bind]
    cases h1.modify (FromAddr addr) fun l =>
      l.Initialize cid (AllocationWord (n * sizeofRef + sizeofRegularObjectLayout)) with
    | none => rfl
    | some h2 =>
      simp only [Option.some_bind]
      cases RegisterInstance h2 (FromAddr addr) with
      | none => rfl
      | some h3 => rfl

/-- An allocator that stores a length, in terms of the heap `h0` after the `GCStep` of
`Heap::Allocate`: it returns, and every object but the new one has the storage it has in
`h0`. -/
theorem Sized_spec {h h0 : Heap} {allocator : Allocator} {random : Nat × Nat × Nat}
    {addr : Nat}
    (hgc : (if allocator ≠ Allocator.kSnapshot then GCStep h random.1 random.2.1 random.2.2
       else some h) = some h0) (hfresh : h0.fresh addr) (cid heap_size : Nat) (raw : Layout)
    (s : Object) :
    ∃ h', ((AllocateObject h cid heap_size allocator random addr raw).bind fun p =>
          (init_size p.2 p.1 s).map fun h4 => (p.1, h4)) = some (FromAddr addr, h') ∧
      IsHeapObject (FromAddr addr) ∧ h0.load (FromAddr addr) = none ∧
      h'.table_ = Function.update h0.table_ h0.table_size_ (FromAddr addr) ∧
      h'.table_size_ = h0.table_size_ + 1 ∧
      h'.heap_size_ = h0.heap_size_ + (heap_size : Int) ∧
      h0.table_capacity_ ≤ h'.table_capacity_ ∧ Heap.SameRest h0 h' ∧
      ∀ o, h'.load o = if o = FromAddr addr then
        some { raw.Initialize cid heap_size with
          header_hash_ := IndexField.update h0.table_size_ 0, size_ := s } else h0.load o := by
  obtain ⟨h3, e3⟩ := AllocateObject_total hgc hfresh cid heap_size raw
  obtain ⟨h0', e0', -, -, hobj, hnone, t3, s3, z3, c3, r3, ld3⟩ := AllocateObject_spec e3
  rw [hgc] at e0'
  cases e0'
  have hl3 := ld3 (FromAddr addr)
  rw [if_pos rfl] at hl3
  obtain ⟨h4, e4⟩ : ∃ h4, init_size h3 (FromAddr addr) s = some h4 :=
    ⟨_, modify_eq_some.2 ⟨_, hl3, rfl⟩⟩
  obtain ⟨t4, s4, c4, z4, r4⟩ := modify_rest e4
  have ld4 := modify_load hl3 e4
  refine ⟨h4, ?_, hobj, hnone, ?_, ?_, ?_, ?_, SameRest_trans r3 r4, ?_⟩
  · rw [e3]
    simp only [Option.some_bind]
    rw [e4]
    rfl
  · rw [t4, t3]
  · rw [s4, s3]
  · rw [z4, z3]
  · rw [c4]
    exact c3
  · intro o
    rw [ld4 o]
    by_cases ho : o = FromAddr addr
    · rw [if_pos ho, if_pos ho]
    · rw [if_neg ho, if_neg ho, ld3 o, if_neg ho]

/-- The frame of an allocation from what it does to the table and to the memory. -/
theorem SnapshotFrame_intro {h h' : Heap} {obj : Object} {heap_size : Nat} {L : Layout}
    (hobj : IsHeapObject obj) (hnone : h.load obj = none)
    (ht : h'.table_ = Function.update h.table_ h.table_size_ obj)
    (hs : h'.table_size_ = h.table_size_ + 1)
    (hz : h'.heap_size_ = h.heap_size_ + (heap_size : Int))
    (hc : h.table_capacity_ ≤ h'.table_capacity_) (hr : Heap.SameRest h h')
    (hl : ∀ o, h'.load o = if o = obj then some L else h.load o) :
    SnapshotFrame h obj heap_size h' := by
  refine ⟨⟨hobj, hnone⟩, ?_, ?_, ⟨?_, hs⟩, ?_, hz, hc, hr⟩
  · intro o ho
    rw [hl o, if_neg ho]
  · intro i hi
    rw [ht, Function.update_noteq (by omega)]
  · rw [ht, Function.update_same]
  · rintro o ⟨i, hi1, hi2, hio⟩
    refine ⟨i, hi1, by omega, ?_⟩
    rw [ht, Function.update_noteq (by omega)]
    exact hio

theorem snapshot_gc (h : Heap) (random : Nat × Nat × Nat) :
    (if Allocator.kSnapshot ≠ Allocator.kSnapshot then
        GCStep h random.1 random.2.1 random.2.2 else some h) = some h :=
  if_neg (fun hne => hne rfl)

end psoup

namespace psoup

theorem valid_size_lt {s : Nat} (hv : SizeField.is_valid (s >>> kObjectAlignmentLog2)) :
    s < 2 ^ 20 := by
  have h1 : s >>> 4 < 2 ^ 16 := hv
  rw [Nat.shiftRight_eq_div_pow] at h1
  omega

/-- An allocation size that fits the size field is computed without wrapping. -/
theorem AllocationWord_of_valid {x : Nat} (hx : 0 < x)
    (hv : SizeField.is_valid (AllocationSize x >>> kObjectAlignmentLog2)) :
    AllocationWord x = AllocationSize x := by
  have hlt := valid_size_lt hv
  obtain ⟨-, -, hle⟩ := AllocationSize_aligned x hx
  unfold AllocationWord
  have h1 : x % 2 ^ 64 = x := Nat.mod_eq_of_lt (by omega)
  rw [h1]
  exact Nat.mod_eq_of_lt (by omega)

/-- The postcondition of an allocator that stores a length, from what it does to the table and
to the memory. -/
theorem Allocated_intro {h0 h' : Heap} {obj : Object} {cid n heap_size : Nat} {raw : Layout}
    (hobj : IsHeapObject obj) (h1 : 1 ≤ h0.table_size_) (hsz : h0.table_size_ < 2 ^ 32)
    (ht : h'.table_ = Function.update h0.table_ h0.table_size_ obj)
    (hs : h'.table_size_ = h0.table_size_ + 1)
    (hl : ∀ o, h'.load o = if o = obj then
        some { raw.Initialize cid heap_size with
          header_hash_ := IndexField.update h0.table_size_ 0,
          size_ := SmallInteger.New (n : Int) } else h0.load o)
    (hcid : cid < 2 ^ kClassIdFieldSize)
    (hv : SizeField.is_valid (heap_size >>> kObjectAlignmentLog2))
    (hal : heap_size % kObjectAlignment = 0) (hpos : 0 < heap_size) (hn : n ≤ heap_size) :
    Allocated h' obj cid n heap_size := by
  have hlast : h'.table_ (h'.table_size_ - 1) = obj := by
    rw [hs, ht, Nat.add_sub_cancel, Function.update_same]
  have hlt := valid_size_lt hv
  refine ⟨hobj, ⟨by omega, hlast⟩, ⟨h'.table_size_ - 1, by omega, by omega, hlast⟩, ?_⟩
  refine ⟨_, (hl obj).trans (if_pos rfl), ?_, ?_, rfl, rfl, ?_, ?_, ?_⟩
  · exact Nat.mod_eq_of_lt hcid
  · exact SmallInteger_value_New (n : Int) (by omega) (by omega)
  · show HashField.decode (IndexField.update h0.table_size_ 0) = 0
    rw [HashField_decode_IndexField_update']
    rfl
  · have e : (heap_size >>> kObjectAlignmentLog2) <<< kObjectAlignmentLog2 = heap_size :=
      shift_round_trip heap_size hal
    unfold Layout.HeapSize Layout.heap_size Layout.Initialize
    simp only [if_pos hv]
    rw [e, if_pos (by omega)]
  · show IndexField.decode (IndexField.update h0.table_size_ 0) = h'.table_size_ - 1
    rw [IndexField_decode_update, hs, Nat.add_sub_cancel]
    exact Nat.mod_eq_of_lt hsz

/-- C24: the postcondition of the allocators.  Let `h0` be the heap after the `GCStep` of
`Heap::Allocate` in normal mode, or the heap of the call in snapshot mode, and let `malloc`
return a block at `addr`.  For every `n` whose allocation size fits the size field,
`AllocateArray(n)`, `AllocateWeakArray(n)` and `AllocateByteArray(n)` return the heap object at
`addr`, which had no storage in `h0`; in the heap after the call it has the requested class id,
`Size() == n`, an empty incoming list, a clear mark bit, the hash 0 and
`HeapSize() == AllocationSize(payload bytes + layout size)`; it is the last entry of the object
table, `table_[table_size_ - 1]`, with `table_index() == table_size_ - 1`; and the objects of
the object table of `h0` are still in the table.  The `GCStep` has run on a heap in which the
new object did not exist, so it is not reclaimed by its own allocation. -/
theorem Allocator_postcondition (h h0 : Heap) (n : Nat) (allocator : Allocator)
    (random : Nat × Nat × Nat) (addr : Nat) (raw : Layout)
    (hgc : (if allocator ≠ Allocator.kSnapshot then GCStep h random.1 random.2.1 random.2.2
       else some h) = some h0)
    (hfresh : h0.fresh addr) (h1 : 1 ≤ h0.table_size_) (hsz : h0.table_size_ < 2 ^ 32) :
    (SizeField.is_valid
        (AllocationSize (n * sizeofRef + sizeofArrayLayout) >>> kObjectAlignmentLog2) →
      ∃ h', AllocateArray h n allocator random addr raw = some (FromAddr addr, h') ∧
        Allocated h' (FromAddr addr) kArrayCid n
          (AllocationSize (n * sizeofRef + sizeofArrayLayout)) ∧
        h0.load (FromAddr addr) = none ∧ h'.table_size_ = h0.table_size_ + 1 ∧
        ∀ o, InTable h0 o → InTable h' o) ∧
    (SizeField.is_valid
        (AllocationSize (n * sizeofRef + sizeofWeakArrayLayout) >>> kObjectAlignmentLog2) →
      ∃ h', AllocateWeakArray h n allocator random addr raw = some (FromAddr addr, h') ∧
        Allocated h' (FromAddr addr) kWeakArrayCid n
          (AllocationSize (n * sizeofRef + sizeofWeakArrayLayout)) ∧
        h0.load (FromAddr addr) = none ∧ h'.table_size_ = h0.table_size_ + 1 ∧
        ∀ o, InTable h0 o → InTable h' o) ∧
    (SizeField.is_valid
        (AllocationSize (n * sizeofUint8 + sizeofByteArrayLayout) >>> kObjectAlignmentLog2) →
      ∃ h', AllocateByteArray h n allocator random addr raw = some (FromAddr addr, h') ∧
        Allocated h' (FromAddr addr) kByteArrayCid n
          (AllocationSize (n * sizeofUint8 + sizeofByteArrayLayout)) ∧
        h0.load (FromAddr addr) = none ∧ h'.table_size_ = h0.table_size_ + 1 ∧
        ∀ o, InTable h0 o → InTable h' o) := by
  have hstay : ∀ h' : Heap, h'.table_ = Function.update h0.table_ h0.table_size_
      (FromAddr addr) → h'.table_size_ = h0.table_size_ + 1 →
      ∀ o, InTable h0 o → InTable h' o := by
    rintro h' ht hs o ⟨i, hi1, hi2, hio⟩
    refine ⟨i, hi1, by omega, ?_⟩
    rw [ht, Function.update_noteq (by omega)]
    exact hio
  refine ⟨?_, ?_, ?_⟩
  · intro hv
    obtain ⟨h', e, hobj, hnone, ht, hs, -, -, -, hl⟩ := Sized_spec hgc hfresh kArrayCid
      (AllocationSize (n * sizeofRef + sizeofArrayLayout)) raw (SmallInteger.New (n : Int))
    have hx : 0 < n * sizeofRef + sizeofArrayLayout := by
      show 0 < n * 32 + 40
      omega
    obtain ⟨a1, a2, a3⟩ := AllocationSize_aligned _ hx
    have hn : n ≤ AllocationSize (n * sizeofRef + sizeofArrayLayout) := by
      have : n ≤ n * sizeofRef + sizeofArrayLayout := by
        show n ≤ n * 32 + 40
        omega
      omega
    exact ⟨h', by rw [AllocateArray_decompose, AllocationWord_of_valid hx hv]; exact e,
      Allocated_intro hobj h1 hsz ht hs hl (by decide) hv a1 a2 hn, hnone, hs,
      hstay h' ht hs⟩
  · intro hv
    obtain ⟨h', e, hobj, hnone, ht, hs, -, -, -, hl⟩ := Sized_spec hgc hfresh kWeakArrayCid
      (AllocationSize (n * sizeofRef + sizeofWeakArrayLayout)) raw (SmallInteger.New (n : Int))
    have hx : 0 < n * sizeofRef + sizeofWeakArrayLayout := by
      show 0 < n * 32 + 40
      omega
    obtain ⟨a1, a2, a3⟩ := AllocationSize_aligned _ hx
    have hn : n ≤ AllocationSize (n * sizeofRef + sizeofWeakArrayLayout) := by
      have : n ≤ n * sizeofRef + sizeofWeakArrayLayout := by
        show n ≤ n * 32 + 40
        omega
      omega
    exact ⟨h', by rw [AllocateWeakArray_decompose, AllocationWord_of_valid hx hv]; exact e,
      Allocated_intro hobj h1 hsz ht hs hl (by decide) hv a1 a2 hn, hnone, hs,
      hstay h' ht hs⟩
  · intro hv
    obtain ⟨h', e, hobj, hnone, ht, hs, -, -, -, hl⟩ := Sized_spec hgc hfresh kByteArrayCid
      (AllocationSize (n * sizeofUint8 + sizeofByteArrayLayout)) raw
      (SmallInteger.New (n : Int))
    have hx : 0 < n * sizeofUint8 + sizeofByteArrayLayout := by
      show 0 < n * 1 + 40
      omega
    obtain ⟨a1, a2, a3⟩ := AllocationSize_aligned _ hx
    have hn : n ≤ AllocationSize (n * sizeofUint8 + sizeofByteArrayLayout) := by
      have : n ≤ n * sizeofUint8 + sizeofByteArrayLayout := by
        show n ≤ n * 1 + 40
        omega
      omega
    exact ⟨h', by rw [AllocateByteArray_decompose, AllocationWord_of_valid hx hv]; exact e,
      Allocated_intro hobj h1 hsz ht hs hl (by decide) hv a1 a2 hn, hnone, hs,
      hstay h' ht hs⟩

/-- Witness of C24: `AllocateArray(2)` in normal mode in `cycleHeap`, whose `GCStep` reclaims
the two arrays of `cycleHeap`, and `AllocateByteArray(3)` in snapshot mode; `malloc` returns the
block at the address 10. -/
theorem Allocator_postcondition_witness :
    (∃ h', AllocateArray cycleHeap 2 Allocator.kNormal (4, 1, 2) 10
        (Layout.sample 0 0 [] [0, 0]) = some (FromAddr 10, h') ∧
      Allocated h' (FromAddr 10) kArrayCid 2
        (AllocationSize (2 * sizeofRef + sizeofArrayLayout)) ∧
      cycleHeapCollected.load (FromAddr 10) = none ∧
      h'.table_size_ = cycleHeapCollected.table_size_ + 1 ∧
      ∀ o, InTable cycleHeapCollected o → InTable h' o) ∧
    (∃ h', AllocateByteArray cycleHeap 3 Allocator.kSnapshot (4, 1, 2) 10
        (Layout.sample 0 0 [] []) = some (FromAddr 10, h') ∧
      Allocated h' (FromAddr 10) kByteArrayCid 3
        (AllocationSize (3 * sizeofUint8 + sizeofByteArrayLayout)) ∧
      cycleHeap.load (FromAddr 10) = none ∧
      h'.table_size_ = cycleHeap.table_size_ + 1 ∧
      ∀ o, InTable cycleHeap o → InTable h' o) :=
  ⟨(Allocator_postcondition cycleHeap cycleHeapCollected 2 Allocator.kNormal (4, 1, 2) 10
      (Layout.sample 0 0 [] [0, 0]) (by rfl) ⟨by decide, by decide, by rfl⟩ (by decide)
      (by decide)).1 (by decide),
   (Allocator_postcondition cycleHeap cycleHeap 3 Allocator.kSnapshot (4, 1, 2) 10
      (Layout.sample 0 0 [] []) (by rfl) ⟨by decide, by decide, by rfl⟩ (by decide)
      (by decide)).2.2 (by decide)⟩

end psoup

namespace psoup

/-- What `Heap::Free` does to the head of the free list of class ids. -/
theorem Free_class_table_free {h h' : Heap} {x : Object} (hf : Free h x = some h') :
    ∃ l, h.load x = some l ∧
      (l.in_class_table = false → h'.class_table_free_ = h.class_table_free_) ∧
      (l.in_class_table = true → ∃ id, l.refs[Behavior.classid_index]? = some id ∧
        h'.class_table_free_ = SmallInteger.value id ∧ 0 ≤ SmallInteger.value id) := by
  simp only [Free, Option.bind_eq_some, Option.map_eq_some'] at hf
  obtain ⟨o, hlo, ha, hha, rfl⟩ := hf
  by_cases hc : o.in_class_table = true
  · rw [if_pos hc] at hha
    simp only [Option.bind_eq_some, Option.map_eq_some'] at hha
    obtain ⟨id, hid, hb, hput, rfl⟩ := hha
    unfold class_table_put at hput
    split_ifs at hput with hnn
    cases hput
    refine ⟨o, hlo, ?_, fun _ => ⟨id, ?_, rfl, hnn⟩⟩
    · intro hn
      rw [hc] at hn
      cases hn
    · have : Ref_to h (.slot x Behavior.classid_index) = some id := hid
      simp only [Ref_to, hlo, Option.some_bind] at this
      exact this
  · rw [if_neg hc] at hha
    cases hha
    exact ⟨o, hlo, fun _ => rfl, fun ht => absurd ht hc⟩

theorem releasedIds_congr {h g : Heap} :
    ∀ xs : List Object, (∀ x ∈ xs, releasedId g x = releasedId h x) →
      releasedIds g xs = releasedIds h xs := by
  intro xs
  induction xs with
  | nil => intro _; rfl
  | cons x rest ih =>
    intro hx
    unfold releasedIds at ih ⊢
    rw [List.filterMap_cons, List.filterMap_cons, hx x (List.mem_cons_self _ _),
      ih (fun y hy => hx y (List.mem_cons_of_mem _ hy))]

theorem releasedId_of_load {h : Heap} {x : Object} {l : Layout} (hl : h.load x = some l) :
    releasedId h x = if l.in_class_table = true then
      (l.refs[Behavior.classid_index]?).map SmallInteger.value else none := by
  unfold releasedId
  rw [hl]

theorem ReleasedChain_congr {g g' : Heap} (hc : g'.class_table_ = g.class_table_)
    (hf : g'.class_table_free_ = g.class_table_free_) :
    ∀ (cs : List Int) (f : Int), ReleasedChain g f cs → ReleasedChain g' f cs := by
  intro cs
  induction cs with
  | nil =>
    intro f hr
    have hr' : g.class_table_free_ = f := hr
    show g'.class_table_free_ = f
    rw [hf, hr']
  | cons c rest ih =>
    intro f hr
    obtain ⟨h1, h2⟩ := hr
    exact ⟨by rw [hc]; exact h1, ih c h2⟩

theorem ReleasedChain_last {g : Heap} :
    ∀ (cs : List Int) (f : Int), ReleasedChain g f cs →
      g.class_table_free_ = (cs.getLast?).getD f := by
  intro cs
  induction cs with
  | nil => intro f hr; exact hr
  | cons c rest ih =>
    intro f hr
    obtain ⟨-, h2⟩ := hr
    rw [ih c h2]
    cases rest with
    | nil => rfl
    | cons d rest' =>
      rw [List.getLast?_cons_cons]
      cases hl : (d :: rest').getLast? with
      | none => simp at hl
      | some z => rfl

/-- The second loop of a reclamation chains the class ids it releases, in the order of the
worklist. -/
theorem GCStep_free_released (K : Nat → Object) :
    ∀ (xs : List Object) (h h' : Heap), xs.Nodup → GCStep.free h xs = some h' →
      (∀ x ∈ xs, ∀ l, h.load x = some l → l.in_class_table = true →
        ∃ k : Nat, k ≤ 2 ^ 32 ∧
          l.refs[Behavior.classid_index]? = some (SmallInteger.New (k : Int)) ∧ K k = x) →
      ReleasedChain h' h.class_table_free_ (releasedIds h xs) := by
  intro xs
  induction xs with
  | nil =>
    intro h h' _ he _
    simp only [GCStep.free, Option.some.injEq] at he
    subst he
    exact rfl
  | cons x rest ih =>
    intro h h' hnd he hreg
    simp only [GCStep.free, Option.bind_eq_some] at he
    obtain ⟨ha, hfa, he⟩ := he
    obtain ⟨hnot, hnd'⟩ := List.nodup_cons.1 hnd
    obtain ⟨hload, -⟩ := Free_spec hfa
    have hsame : ∀ y ∈ rest, ha.load y = h.load y := by
      intro y hy
      rw [hload y, if_neg]
      rintro rfl
      exact hnot hy
    have hrel : releasedIds ha rest = releasedIds h rest :=
      releasedIds_congr rest (fun y hy => by unfold releasedId; rw [hsame y hy])
    have hreg' : ∀ y ∈ rest, ∀ l, ha.load y = some l → l.in_class_table = true →
        ∃ k : Nat, k ≤ 2 ^ 32 ∧
          l.refs[Behavior.classid_index]? = some (SmallInteger.New (k : Int)) ∧ K k = y := by
      intro y hy l hl hb
      rw [hsame y hy] at hl
      exact hreg y (List.mem_cons_of_mem _ hy) l hl hb
    have IH := ih ha h' hnd' he hreg'
    rw [hrel] at IH
    obtain ⟨lx, hlx, f0, f1⟩ := Free_class_table_free hfa
    obtain ⟨-, lx', hlx', c0, c1⟩ := Free_class_table hfa
    rw [hlx] at hlx'
    cases hlx'
    have hcons : releasedIds h (x :: rest) =
        (match releasedId h x with
          | none => releasedIds h rest
          | some c => c :: releasedIds h rest) := by
      unfold releasedIds
      rw [List.filterMap_cons]
      cases releasedId h x <;> rfl
    rw [hcons, releasedId_of_load hlx]
    cases hb : lx.in_class_table with
    | false =>
      simp only [Bool.false_eq_true, if_false]
      rw [← f0 hb]
      exact IH
    | true =>
      obtain ⟨k, hk, hid, hK⟩ := hreg x (List.mem_cons_self _ _) lx hlx hb
      obtain ⟨id, hid', hfree, -⟩ := f1 hb
      obtain ⟨id2, hid2, hct⟩ := c1 hb
      rw [hid] at hid' hid2
      cases hid'
      cases hid2
      have hv : SmallInteger.value (SmallInteger.New (k : Int)) = (k : Int) :=
        SmallInteger_value_New_nat hk
      rw [hv] at hfree hct
      simp only [if_true, hid, Option.map_some', hv]
      refine ⟨?_, ?_⟩
      · obtain ⟨-, -, -, cC⟩ := GCStep_free_class_table rest ha h' hnd' he
        rw [cC, hct, Function.update_same]
        intro y hy l id hl hby hidy hcon
        obtain ⟨ky, hky, hidy', hKy⟩ := hreg' y hy l hl hby
        rw [hidy] at hidy'
        cases hidy'
        rw [SmallInteger_value_New_nat hky, Int.toNat_ofNat, Int.toNat_ofNat] at hcon
        subst hcon
        rw [hK] at hKy
        subst hKy
        exact hnot hy
      · rw [← hfree]
        exact IH

/-- `Heap::AllocateClassId` pops the head of the free list when the head is not 0. -/
theorem AllocateClassId_pop {h : Heap} (hne : h.class_table_free_ ≠ 0)
    (hnn : 0 ≤ h.class_table_free_) :
    AllocateClassId h = some (h.class_table_free_,
      { h with class_table_free_ :=
          SmallInteger.value (h.class_table_ h.class_table_free_.toNat) }) := by
  unfold AllocateClassId
  rw [if_pos hne]
  simp only [AllocateClassId.pop, class_table_at, if_pos hnn, Option.map_some']

/-- Counterexample to C29: in `deadClassesHeap` the classes at 7 and 9 are registered under the
class ids 14 and 15 and reference only each other.  The round of `GCStep` that samples the
class at 7 frees both.  After the round `class_table_[14]` holds the small integer of the head
the free list had, 0, but `class_table_free_` is 15, not 14, and the next `AllocateClassId`
returns 15, not 14. -/
theorem Free_class_id_round_counterexample :
    InTable deadClassesHeap 7 ∧
    (deadClassesHeap.load 7).map (fun l => (l.in_class_table, l.refs[Behavior.classid_index]?)) =
      some (true, some (SmallInteger.New 14)) ∧
    deadClassesHeap.class_table_free_ = 0 ∧
    (GCStep.round deadClassesHeap 4).map (fun h =>
        (h.load 7, h.class_table_ 14, h.class_table_free_)) =
      some (none, SmallInteger.New 0, 15) ∧
    ((GCStep.round deadClassesHeap 4).bind AllocateClassId).map (fun p => p.1) = some 15 := by
  refine ⟨(inTable_iff _ _).1 (by decide), by decide, by decide, by decide, by decide⟩

end psoup

namespace psoup

/-- A round of `GCStep` whose candidate is found unreachable chains the class ids of the
registered objects of the worklist, in the order of the worklist. -/
theorem GCStep_round_released {h h1 : Heap} {random : Nat} (hcol : Collectable h)
    (hR : Registry h) (hidx : random % h.table_size_ ≠ 0)
    (hcr : CheckReachable h (h.table_ (random % h.table_size_)) = some (false, h1)) :
    ∃ h', GCStep.round h random = some h' ∧
      ReleasedChain h' h.class_table_free_ (releasedIds h h1.worklist_) ∧
      (∀ x ∈ h1.worklist_, InTable h x ∧ h'.load x = none) ∧
      ∀ c ∈ releasedIds h h1.worklist_, (kFirstLegalCid : Int) ≤ c := by
  have hwf := hcol.formed
  have hw := WeaklyFormed_of_WellFormed hwf
  have hsz : h.table_size_ ≠ 0 := by
    have := hwf.1.1
    omega
  have hcT : InTable h (h.table_ (random % h.table_size_)) :=
    ⟨_, by omega, Nat.mod_lt _ (by omega), rfl⟩
  have hsing : ¬ (h.table_ (random % h.table_size_) = h.interpreter_.nil_obj ∨
      h.table_ (random % h.table_size_) = h.interpreter_.true_obj ∨
      h.table_ (random % h.table_size_) = h.interpreter_.false_obj) := by
    intro hs
    rw [CheckReachable_singleton hs] at hcr
    cases hcr
  obtain ⟨sf, -, -⟩ := CheckReachable_spec hw hcT hsing
  obtain ⟨hst, hp, -⟩ := sf h1 hcr
  have hf := hst.frame
  have hc := ClosureFound_of_CheckReachable hw hst hp
  have hR1 : Registry h1 := Registry_MarkFrame hR hf
  obtain ⟨h', he, -, -, hnone, -⟩ := GCStep_round_unreachable hcol hidx hcr
  refine ⟨h', he, ?_, fun x hx => ⟨hst.inTable x hx, hnone x hx⟩, ?_⟩
  · -- the structure of the round
    have he' := he
    unfold GCStep.round at he'
    rw [if_neg hsz] at he'
    simp only at he'
    rw [if_neg hidx] at he'
    simp only [Option.bind_eq_some, Option.map_eq_some'] at he'
    obtain ⟨⟨b, h1'⟩, hcr', h4, hbr, rfl⟩ := he'
    rw [hcr] at hcr'
    cases hcr'
    simp only [Bool.false_eq_true, if_false] at hbr
    unfold GCStep.reclaim at hbr
    simp only [Option.bind_eq_some, Option.map_eq_some'] at hbr
    obtain ⟨⟨h2, k2⟩, e1, hq, e2, hq3⟩ := hbr
    simp only at e2 hq3
    obtain ⟨hr, -⟩ := GCStep_unlink_reclaiming hc h1.worklist_ [] h1 false
      (Reclaiming_refl hc) (TableShrunk_refl hc.table) (fun x hx => hx) hc.nodup
      (fun x _ => by simp) h2 k2 e1
    have kp : Kept (fun _ => False) Layout.SameIds h1 h2 :=
      GCStep_unlink_KeptH RespectsHeap_SameIds.1 RespectsHeap_SameIds.2.1 hc h1.worklist_ []
        h1 false (Reclaiming_refl hc) (TableShrunk_refl hc.table) (fun x hx => hx) hc.nodup
        (fun x _ => by simp) h2 k2 e1
    have hfw : ∀ o l1, h1.load o = some l1 →
        ∃ l2, h2.load o = some l2 ∧ Layout.SameIds l1 l2 := by
      intro o l1 hl1
      obtain ⟨l2, hl2, -⟩ := (hr.layout o).1 l1 hl1
      obtain ⟨l1', hl1', hs⟩ := kp o l2 (fun hcon => hcon) hl2
      rw [hl1] at hl1'
      cases hl1'
      exact ⟨l2, hl2, hs⟩
    have hid : ∀ c l1, InTable h1 c → h1.load c = some l1 → l1.in_class_table = true →
        ∃ k : Nat, k ≤ 2 ^ 32 ∧
          l1.refs[Behavior.classid_index]? = some (SmallInteger.New (k : Int)) ∧
          h1.class_table_ k = c := by
      intro c l1 hcT1 hl1 hb
      obtain ⟨k, hk1, hk2⟩ := hR1.registered c l1 hcT1 hl1 hb
      have hheap : IsHeapObject (h1.class_table_ k) := by
        rw [hk2]; exact isHeapObject_of_load hl1
      obtain ⟨-, hlt, -⟩ := hR1.entries k hheap
      exact ⟨k, le_trans (Nat.le_of_lt hlt) hR1.small, hk1, hk2⟩
    have hreg : ∀ x ∈ h1.worklist_, ∀ l, h2.load x = some l → l.in_class_table = true →
        ∃ k : Nat, k ≤ 2 ^ 32 ∧
          l.refs[Behavior.classid_index]? = some (SmallInteger.New (k : Int)) ∧
          h1.class_table_ k = x := by
      intro x hx l hl hb
      have hxT := hc.inTable x hx
      obtain ⟨l1, hl1, -⟩ := load_of_InTable hc.table hxT
      obtain ⟨l2, hl2, hs⟩ := hfw x l1 hl1
      rw [hl] at hl2
      cases hl2
      obtain ⟨k, hk, hid1, hck⟩ := hid x l1 hxT hl1 (by rw [← hs.1]; exact hb)
      exact ⟨k, hk, hs.2 _ _ hid1 (isSmallInteger_New _), hck⟩
    have hchain := GCStep_free_released h1.class_table_ h1.worklist_ h2 hq hc.nodup e2 hreg
    have hrel : releasedIds h2 h1.worklist_ = releasedIds h h1.worklist_ := by
      apply releasedIds_congr
      intro x hx
      have hxT := hc.inTable x hx
      obtain ⟨l1, hl1, -⟩ := load_of_InTable hc.table hxT
      obtain ⟨l0, hl0, hs0⟩ := (MarkFrame_load hf x).2 l1 hl1
      obtain ⟨s1, -, -, -, -, -, -, -, s9⟩ := (SameButMarks_iff l0 l1).1 hs0
      obtain ⟨l2, hl2, hs⟩ := hfw x l1 hl1
      rw [releasedId_of_load hl2, releasedId_of_load hl0, hs.1, s1]
      cases hb : l0.in_class_table with
      | false => simp
      | true =>
        obtain ⟨k, hk, hid1, -⟩ := hid x l1 hxT hl1 (by rw [s1]; exact hb)
        simp only [if_true]
        rw [hs.2 _ _ hid1 (isSmallInteger_New _), ← s9, hid1]
    rw [hrel, hr.class_table.2.2.1, (MarkFrame_fields hf).2.2.2.2.2.2.1] at hchain
    refine ReleasedChain_congr ?_ ?_ _ _ hchain
    · rw [← hq3]
      split_ifs <;> rfl
    · rw [← hq3]
      split_ifs <;> rfl
  · intro c hcm
    unfold releasedIds at hcm
    obtain ⟨x, hx, hxc⟩ := List.mem_filterMap.1 hcm
    have hxT := hst.inTable x hx
    obtain ⟨l0, hl0, -⟩ := load_of_InTable hwf.1 hxT
    rw [releasedId_of_load hl0] at hxc
    cases hb : l0.in_class_table with
    | false =>
      rw [hb] at hxc
      simp at hxc
    | true =>
      obtain ⟨k, hk1, hk2⟩ := hR.registered x l0 hxT hl0 hb
      have hheap : IsHeapObject (h.class_table_ k) := by
        rw [hk2]; exact isHeapObject_of_load hl0
      obtain ⟨hlo, hlt, -⟩ := hR.entries k hheap
      have hk32 : k ≤ 2 ^ 32 := le_trans (Nat.le_of_lt hlt) hR.small
      rw [hb, hk1] at hxc
      simp only [if_true, Option.map_some', Option.some.injEq] at hxc
      rw [SmallInteger_value_New_nat hk32] at hxc
      rw [← hxc]
      exact_mod_cast hlo

/-- C29, amended: freeing a class releases its id, and the ids released in one round are
chained.  When `Heap::Free` is applied to an object `x` whose in-class-table bit is set and
whose id is `c > 0`, it returns, and immediately afterwards `class_table_[c]` holds
`SmallInteger(f)`, where `f` is the `class_table_free_` before this call, `class_table_free_`
is `c`, and `AllocateClassId` at that point returns `c` and makes `f` the head again.  A GC
round that frees several registered objects releases their ids in the order of the worklist:
after the round the entry of the first one holds the head the free list had before the round,
the entry of each other one holds the id released before it, `class_table_free_` is the id
released last, and the next `AllocateClassId` returns the id released last (last released,
first reused). -/
theorem Free_releases_class_id :
    (∀ (h : Heap) (x : Object) (l : Layout) (id : Object), h.load x = some l →
      l.in_class_table = true → l.refs[Behavior.classid_index]? = some id →
      0 < SmallInteger.value id →
      ∃ h', Free h x = some h' ∧
        h'.class_table_ (SmallInteger.value id).toNat = SmallInteger.New h.class_table_free_ ∧
        h'.class_table_free_ = SmallInteger.value id ∧
        ∃ h'', AllocateClassId h' = some (SmallInteger.value id, h'') ∧
          (SmallInteger.kMinValue ≤ h.class_table_free_ →
            h.class_table_free_ ≤ SmallInteger.kMaxValue →
            h''.class_table_free_ = h.class_table_free_)) ∧
    (∀ (h h1 : Heap) (random : Nat), Collectable h → Registry h →
      random % h.table_size_ ≠ 0 →
      CheckReachable h (h.table_ (random % h.table_size_)) = some (false, h1) →
      ∃ h', GCStep.round h random = some h' ∧
        (∀ x ∈ h1.worklist_, InTable h x ∧ h'.load x = none) ∧
        ReleasedChain h' h.class_table_free_ (releasedIds h h1.worklist_) ∧
        ∀ c, (releasedIds h h1.worklist_).getLast? = some c →
          h'.class_table_free_ = c ∧ ∃ h'', AllocateClassId h' = some (c, h'')) := by
  refine ⟨?_, ?_⟩
  · intro h x l id hl hb hid hpos
    obtain ⟨h', hf⟩ := Free_total hl (fun _ => ⟨id, hid, le_of_lt hpos⟩)
    obtain ⟨lx, hlx, -, f1⟩ := Free_class_table_free hf
    obtain ⟨-, lx', hlx', -, c1⟩ := Free_class_table hf
    rw [hl] at hlx hlx'
    cases hlx
    cases hlx'
    obtain ⟨id1, hid1, hfree, -⟩ := f1 hb
    obtain ⟨id2, hid2, hct⟩ := c1 hb
    rw [hid] at hid1 hid2
    cases hid1
    cases hid2
    have hentry : h'.class_table_ (SmallInteger.value id).toNat =
        SmallInteger.New h.class_table_free_ := by
      rw [hct, Function.update_same]
    have hpop := AllocateClassId_pop (h := h') (by rw [hfree]; omega) (by rw [hfree]; omega)
    rw [hfree] at hpop
    refine ⟨h', hf, hentry, hfree, _, hpop, ?_⟩
    intro hlo hhi
    show SmallInteger.value (h'.class_table_ (SmallInteger.value id).toNat) = _
    rw [hentry]
    rw [SmallInteger_kMinValue_eq] at hlo
    rw [SmallInteger_kMaxValue_eq] at hhi
    exact SmallInteger_value_New _ hlo (by omega)
  · intro h h1 random hcol hR hidx hcr
    obtain ⟨h', he, hchain, hfreed, hlegal⟩ := GCStep_round_released hcol hR hidx hcr
    refine ⟨h', he, hfreed, hchain, ?_⟩
    intro c hc
    have hlast := ReleasedChain_last _ _ hchain
    rw [hc] at hlast
    have hfree : h'.class_table_free_ = c := hlast
    have hmem : c ∈ releasedIds h h1.worklist_ := List.mem_of_getLast?_eq_some hc
    have h3 := hlegal c hmem
    have h3' : (3 : Int) ≤ c := h3
    have hpop := AllocateClassId_pop (h := h') (by rw [hfree]; omega) (by rw [hfree]; omega)
    rw [hfree] at hpop
    exact ⟨hfree, _, hpop⟩

/-- Witness of C29 as amended: `Free` of the class at 7 of `deadClassHeap`, whose id is 14, and
the round of `GCStep` on `deadClassesHeap` that samples the class at 7 and frees the classes at
7 and 9, whose ids are 14 and 15. -/
theorem Free_releases_class_id_witness :
    (∃ h', Free deadClassHeap 7 = some h' ∧
      h'.class_table_ (SmallInteger.value (SmallInteger.New 14)).toNat =
        SmallInteger.New deadClassHeap.class_table_free_ ∧
      h'.class_table_free_ = SmallInteger.value (SmallInteger.New 14) ∧
      ∃ h'', AllocateClassId h' = some (SmallInteger.value (SmallInteger.New 14), h'') ∧
        (SmallInteger.kMinValue ≤ deadClassHeap.class_table_free_ →
          deadClassHeap.class_table_free_ ≤ SmallInteger.kMaxValue →
          h''.class_table_free_ = deadClassHeap.class_table_free_)) ∧
    releasedIds deadClassesHeap deadClassesHeapChecked.worklist_ = [14, 15] ∧
    (∃ h', GCStep.round deadClassesHeap 4 = some h' ∧
      (∀ x ∈ deadClassesHeapChecked.worklist_, InTable deadClassesHeap x ∧ h'.load x = none) ∧
      ReleasedChain h' deadClassesHeap.class_table_free_
        (releasedIds deadClassesHeap deadClassesHeapChecked.worklist_) ∧
      ∀ c, (releasedIds deadClassesHeap deadClassesHeapChecked.worklist_).getLast? = some c →
        h'.class_table_free_ = c ∧ ∃ h'', AllocateClassId h' = some (c, h'')) :=
  ⟨Free_releases_class_id.1 deadClassHeap 7
      (Layout.sampleClass 4 77 [] (SmallInteger.New 14) true) (SmallInteger.New 14) (by rfl)
      (by rfl) (by rfl) (by decide),
    by decide,
    Free_releases_class_id.2 deadClassesHeap deadClassesHeapChecked 4
      (Collectable_of_check (by decide))
      (Registry_of_check (by decide) (fun k hk => by
        show ¬ IsHeapObject (if k = 14 then 7 else if k = 15 then 9 else 0)
        have h24 : (24 : Nat) ≤ k := hk
        rw [if_neg (by omega), if_neg (by omega)]
        exact not_isHeapObject_nullptr))
      (by decide) (by rfl)⟩

end psoup

namespace psoup

theorem retarget_nil_obj (h : Heap) (r : RefPtr) (t v : Object) :
    (h.retarget r t v).interpreter_.nil_obj = h.interpreter_.nil_obj := by
  cases r <;> rfl

theorem load_retarget_isSome {h : Heap} {r : RefPtr} {t v o : Object}
    (hl : ∃ l, h.load o = some l) : ∃ l, (h.retarget r t v).load o = some l := by
  obtain ⟨l, hl⟩ := hl
  exact ⟨_, by rw [load_retarget, hl]; rfl⟩

/-- Under the incoming-list invariant the heap object that an initialised Ref targets has
storage. -/
theorem Linked_storage {S : RefPtr → Prop} {h : Heap} (hL : Linked S h) {r : RefPtr}
    {t : Object} (hS : S r) (hto : Ref_to h r = some t) (ht : IsHeapObject t) :
    ∃ l, h.load t = some l := by
  have hm := (hL.member_iff r t hS ht).2 hto
  unfold Heap.incomingOf at hm
  cases hl : h.load t with
  | none => rw [hl] at hm; cases hm
  | some l => exact ⟨l, rfl⟩

theorem Linked_target {S : RefPtr → Prop} {h : Heap} (hL : Linked S h) {r : RefPtr}
    {o : Object} (hr : r ∈ h.incomingOf o) : S r ∧ IsHeapObject o ∧ Ref_to h r = some o := by
  have hS := hL.initialised r o hr
  have ho := isHeapObject_of_mem_incomingOf hr
  exact ⟨hS, ho, (hL.member_iff r o hS ho).1 hr⟩

theorem Unlink_weak_none (fuel : Nat) (g : Heap) (x : Object) :
    Unlink.weak fuel g x none = some g := by
  cases fuel <;> rfl

/-- The first loop of `Heap::Unlink` under the incoming-list invariant, for an object other
than nil: it returns, every Ref that was on the incoming list of the object has nil as its
target afterwards, whatever its holder is, no other Ref has changed, and the list is empty. -/
theorem Unlink_weak_linked {S : RefPtr → Prop} {x nil : Object} (hxn : x ≠ nil) :
    ∀ (n : Nat) (g : Heap), Linked S g → g.interpreter_.nil_obj = nil →
      (∃ l, g.load nil = some l) → (g.incomingOf x).length ≤ n →
      ∃ g', Unlink.weak (n + 1) g x (g.incomingOf x).head? = some g' ∧ Linked S g' ∧
        g'.interpreter_.nil_obj = nil ∧ (∃ l, g'.load nil = some l) ∧
        g'.incomingOf x = [] ∧
        (∀ r, r ∈ g.incomingOf x → Ref_to g' r = some nil) ∧
        (∀ r, r ∉ g.incomingOf x → Ref_to g' r = Ref_to g r) := by
  intro n
  induction n with
  | zero =>
    intro g hL hn hnl hlen
    have he : g.incomingOf x = [] := List.length_eq_zero.1 (Nat.le_zero.1 hlen)
    rw [he]
    exact ⟨g, Unlink_weak_none _ _ _, hL, hn, hnl, he, fun r hr => absurd hr (List.not_mem_nil r),
      fun _ _ => rfl⟩
  | succ n ih =>
    intro g hL hn hnl hlen
    cases hlist : g.incomingOf x with
    | nil =>
      exact ⟨g, Unlink_weak_none _ _ _, hL, hn, hnl, hlist,
        fun r hr => absurd hr (List.not_mem_nil r), fun _ _ => rfl⟩
    | cons r rest =>
      have hrin : r ∈ g.incomingOf x := by rw [hlist]; exact List.mem_cons_self _ _
      obtain ⟨hS, hxh, hto⟩ := Linked_target hL hrin
      obtain ⟨o, hlo⟩ : ∃ o, g.load x = some o := Linked_storage hL hS hto hxh
      have hinc : o.incoming_ = r :: rest := by rw [← incomingOf_of_load hlo]; exact hlist
      have hup : UpdateNoCheck g r nil = some (g.retarget r x nil) :=
        UpdateNoCheck_total hto (fun _ => ⟨o, hlo⟩) (fun _ => hnl)
      have hL1 : Linked S (g.retarget r x nil) := Linked_UpdateNoCheck hL hS hto (fun _ => hnl)
      have hnd : (r :: rest).Nodup := by rw [← hlist]; exact hL.once x
      have hlist1 : (g.retarget r x nil).incomingOf x = rest := by
        rw [incomingOf_retarget x (fun _ hxe => absurd hxe hxn), if_pos ⟨rfl, hxh⟩,
          if_neg (fun hc => hxn hc.1), hlist, List.erase_cons_head, List.append_nil]
      obtain ⟨g', e', hL', hn', hnl', hemp, hin, hout⟩ := ih (g.retarget r x nil) hL1
        (by rw [retarget_nil_obj]; exact hn) (load_retarget_isSome hnl)
        (by rw [hlist1]; rw [hlist] at hlen; simp only [List.length_cons] at hlen; omega)
      rw [hlist1] at e' hin hout
      refine ⟨g', ?_, hL', hn', hnl', hemp, ?_, ?_⟩
      · simp only [List.head?_cons, Unlink.weak, hlo, hto, Option.some_bind, hn, hup, hinc,
          Link_next_head]
        exact e'
      · intro r' hr'
        rcases List.mem_cons.1 hr' with rfl | hr'
        · rw [hout r' (List.nodup_cons.1 hnd).1, Ref_to_retarget_any hto, if_pos rfl]
        · exact hin r' hr'
      · intro r' hr'
        have hne : r' ≠ r := fun hc => hr' (hc ▸ List.mem_cons_self _ _)
        have hnr : r' ∉ rest := fun hc => hr' (List.mem_cons_of_mem _ hc)
        rw [hout r' hnr, Ref_to_retarget_any hto, if_neg hne]

/-- The second loop of `Heap::Unlink` under the incoming-list invariant: it returns, a Ref of
the range that holds a small integer holds it afterwards, a Ref of the range that holds anything
else holds null afterwards, and no other Ref has changed. -/
theorem Unlink_outgoing_linked {S : RefPtr → Prop} {x : Object} :
    ∀ (is : List Nat) (g : Heap), is.Nodup → Linked S g →
      (∀ i ∈ is, S (.slot x i) ∧ ∃ t, Ref_to g (.slot x i) = some t) →
      ∃ g', Unlink.outgoing g x is = some g' ∧ Linked S g' ∧
        (∀ i ∈ is, ∀ t, Ref_to g (.slot x i) = some t →
          Ref_to g' (.slot x i) = some (if IsSmallInteger t then t else nullptr)) ∧
        (∀ r, (∀ i ∈ is, r ≠ .slot x i) → Ref_to g' r = Ref_to g r) := by
  intro is
  induction is with
  | nil =>
    intro g _ hL _
    exact ⟨g, rfl, hL, fun i hi => absurd hi (List.not_mem_nil i), fun _ _ => rfl⟩
  | cons i rest ih =>
    intro g hnd hL hS
    obtain ⟨hni, hnd'⟩ := List.nodup_cons.1 hnd
    obtain ⟨hSi, t, hto⟩ := hS i (List.mem_cons_self _ _)
    by_cases hs : IsSmallInteger t
    · obtain ⟨g', e', hL', hin, hout⟩ := ih g hnd' hL
        (fun j hj => hS j (List.mem_cons_of_mem _ hj))
      refine ⟨g', ?_, hL', ?_, ?_⟩
      · simp only [Unlink.outgoing, hto, Option.some_bind]
        rw [if_neg (not_not.2 hs)]
        exact e'
      · intro j hj t' ht'
        rcases List.mem_cons.1 hj with rfl | hj
        · rw [hto] at ht'
          cases ht'
          rw [if_pos hs, hout _ (fun k hk hc => by
            cases hc
            exact hni hk), hto]
        · exact hin j hj t' ht'
      · intro r hr
        exact hout r (fun k hk => hr k (List.mem_cons_of_mem _ hk))
    · have hth : IsHeapObject t := (not_isSmallInteger_iff t).1 hs
      have htl := Linked_storage hL hSi hto hth
      have hup : Update g (.slot x i) x nullptr = some (g.retarget (.slot x i) t nullptr) :=
        UpdateNoCheck_total hto (fun _ => htl) (fun hc => absurd hc not_isHeapObject_nullptr)
      have hL1 : Linked S (g.retarget (.slot x i) t nullptr) :=
        Linked_UpdateNoCheck hL hSi hto (fun hc => absurd hc not_isHeapObject_nullptr)
      obtain ⟨g', e', hL', hin, hout⟩ := ih (g.retarget (.slot x i) t nullptr) hnd' hL1
        (fun j hj => by
          obtain ⟨hSj, tj, htj⟩ := hS j (List.mem_cons_of_mem _ hj)
          refine ⟨hSj, tj, ?_⟩
          rw [Ref_to_retarget_any hto, if_neg]
          · exact htj
          · intro hc
            cases hc
            exact hni hj)
      refine ⟨g', ?_, hL', ?_, ?_⟩
      · simp only [Unlink.outgoing, hto, Option.some_bind]
        rw [if_pos hs, hup]
        exact e'
      · intro j hj t' ht'
        rcases List.mem_cons.1 hj with rfl | hj
        · rw [hto] at ht'
          cases ht'
          rw [if_neg hs, hout _ (fun k hk hc => by
            cases hc
            exact hni hk), Ref_to_retarget_any hto, if_pos rfl]
        · have hne : RefPtr.slot x j ≠ RefPtr.slot x i := by
            intro hc
            cases hc
            exact hni hj
          have := hin j hj t' (by rw [Ref_to_retarget_any hto, if_neg hne]; exact ht')
          exact this
      · intro r hr
        rw [hout r (fun k hk => hr k (List.mem_cons_of_mem _ hk)), Ref_to_retarget_any hto,
          if_neg (hr i (List.mem_cons_self _ _))]

theorem Linked_IndexOnly {S : RefPtr → Prop} {h h' : Heap} (hL : Linked S h)
    (hi : IndexOnly h h') : Linked S h' := by
  refine ⟨?_, ?_, ?_⟩
  · intro o
    rw [IndexOnly_incomingOf hi]
    exact hL.once o
  · intro r o hr
    rw [IndexOnly_incomingOf hi] at hr
    exact hL.initialised r o hr
  · intro r o hS ho
    rw [IndexOnly_incomingOf hi, IndexOnly_Ref_to hi]
    exact hL.member_iff r o hS ho

end psoup

namespace psoup

theorem Respects_shape : Respects (fun l l' : Layout =>
    l'.refs.length = l.refs.length ∧ l'.cid = l.cid ∧
    l'.is_weak_referent = l.is_weak_referent) := by
  refine ⟨fun _ => ⟨rfl, rfl, rfl⟩, ?_, ?_⟩
  · rintro a b c ⟨h1, h2, h3⟩ ⟨h4, h5, h6⟩
    exact ⟨h4.trans h1, h5.trans h2, h6.trans h3⟩
  · intro r t v o l
    exact ⟨Layout_retarget_refs_length r t v o l, rfl, rfl⟩

/-- `Heap::Unlink` under the incoming-list invariant, for an object of the object table other
than nil: it returns and the invariant holds afterwards; a Ref of the object in the range of
`Pointers` holds afterwards the small integer it held, or null; a Ref of the object that held
a small integer holds it still; a Ref of the object outside the range holds what it held, or
nil when it was on the incoming list of the object itself and the first loop ran; and of the
Refs of other objects only those on the incoming list of the object can have changed, which
hold nil when the first loop ran. -/
theorem Unlink_linked {S : RefPtr → Prop} {h : Heap} {x : Object} {l : Layout}
    (hL : Linked S h) (hT : TableInv h) (hx : InTable h x) (hl : h.load x = some l)
    (hS : ∀ i, i < l.refs.length → S (.slot x i))
    (hrange : (Pointers l).2 ≤ l.refs.length)
    (hnilS : ∃ ln, h.load h.interpreter_.nil_obj = some ln)
    (hxn : x ≠ h.interpreter_.nil_obj) :
    ∃ h', Unlink h x = some h' ∧ Linked S h' ∧
      (∀ i t, Ref_to h (.slot x i) = some t → (Pointers l).1 ≤ i → i < (Pointers l).2 →
        Ref_to h' (.slot x i) = some (if IsSmallInteger t then t else nullptr)) ∧
      (∀ i t, Ref_to h (.slot x i) = some t → IsSmallInteger t →
        Ref_to h' (.slot x i) = some t) ∧
      (∀ r t, Ref_to h r = some t →
        (∀ i, (Pointers l).1 ≤ i → i < (Pointers l).2 → r ≠ .slot x i) →
        (Ref_to h' r = some t ∧ (l.is_weak_referent = true → r ∉ l.incoming_)) ∨
        (l.is_weak_referent = true ∧ r ∈ l.incoming_ ∧ t = x ∧
          Ref_to h' r = some h.interpreter_.nil_obj)) ∧
      (∃ l', h'.load x = some l') ∧
      (∀ r t', Ref_to h' r = some t' → ∃ t, Ref_to h r = some t) := by
  have hxh : IsHeapObject x := isHeapObject_of_load hl
  obtain ⟨ln, hln⟩ := hnilS
  have hnil : IsHeapObject h.interpreter_.nil_obj := isHeapObject_of_load hln
  have hincx : h.incomingOf x = l.incoming_ := incomingOf_of_load hl
  -- the first loop
  have stage1 : ∃ h1, (if l.is_weak_referent = true then
        Unlink.weak (l.incoming_.length + 1) h x l.incoming_.head? else some h) = some h1 ∧
      Linked S h1 ∧
      (∀ r t, Ref_to h r = some t →
        (Ref_to h1 r = some t ∧ (l.is_weak_referent = true → r ∉ l.incoming_)) ∨
        (l.is_weak_referent = true ∧ r ∈ l.incoming_ ∧ t = x ∧
          Ref_to h1 r = some h.interpreter_.nil_obj)) ∧
      (∀ r t', Ref_to h1 r = some t' → ∃ t, Ref_to h r = some t) := by
    by_cases hw : l.is_weak_referent = true
    · obtain ⟨g', e', hL', -, -, -, hin, hout⟩ := Unlink_weak_linked (S := S) hxn
        l.incoming_.length h hL rfl ⟨ln, hln⟩ (by rw [hincx])
      rw [hincx] at e' hin hout
      refine ⟨g', by rw [if_pos hw]; exact e', hL', ?_, ?_⟩
      · intro r t hto
        by_cases hr : r ∈ l.incoming_
        · right
          obtain ⟨-, -, hto'⟩ := Linked_target hL (by rw [hincx]; exact hr)
          rw [hto] at hto'
          exact ⟨hw, hr, Option.some.inj hto', hin r hr⟩
        · left
          exact ⟨by rw [hout r hr]; exact hto, fun _ => hr⟩
      · intro r t' hto'
        by_cases hr : r ∈ l.incoming_
        · exact ⟨x, (Linked_target hL (by rw [hincx]; exact hr)).2.2⟩
        · rw [hout r hr] at hto'
          exact ⟨t', hto'⟩
    · refine ⟨h, by rw [if_neg hw], hL, ?_, fun r t' hto' => ⟨t', hto'⟩⟩
      intro r t hto
      left
      exact ⟨hto, fun hc => absurd hc hw⟩
  obtain ⟨h1, e1, hL1, F2, F3⟩ := stage1
  have k1 : Kept (fun _ => False) (fun l l' : Layout =>
        l'.refs.length = l.refs.length ∧ l'.cid = l.cid ∧
        l'.is_weak_referent = l.is_weak_referent) h h1 ∧ SameTable h h1 := by
    split_ifs at e1
    · obtain ⟨a, -, c⟩ := Unlink_weak_Kept (X := fun _ => False) Respects_shape _ _ _ _ _ e1
      exact ⟨a, c⟩
    · cases e1
      exact ⟨Kept_refl Respects_shape _ _, SameTable_refl h⟩
  obtain ⟨kp1, st1⟩ := k1
  obtain ⟨o1, hlo1⟩ := st1.forth x l hl
  obtain ⟨l0, hl0, hs1, hc1, -⟩ := kp1 x o1 (fun hc => hc) hlo1
  rw [hl] at hl0
  cases hl0
  have hP1 : Pointers o1 = Pointers l := Pointers_congr hc1 hs1
  -- the second loop
  have hSis : ∀ i ∈ List.range' (Pointers l).1 ((Pointers l).2 - (Pointers l).1),
      S (.slot x i) ∧ ∃ t, Ref_to h1 (.slot x i) = some t := by
    intro i hi
    obtain ⟨hi1, hi2⟩ := List.mem_range'_1.1 hi
    have hlt : i < l.refs.length := by omega
    refine ⟨hS i hlt, ?_⟩
    have hto : Ref_to h (.slot x i) = some l.refs[i] :=
      Ref_to_slot_eq_some.2 ⟨l, hl, List.getElem?_eq_getElem hlt⟩
    rcases F2 _ _ hto with ⟨e, -⟩ | ⟨-, -, -, e⟩
    · exact ⟨_, e⟩
    · exact ⟨_, e⟩
  obtain ⟨h2, e2, hL2, hin2, hout2⟩ := Unlink_outgoing_linked
    (List.range' (Pointers l).1 ((Pointers l).2 - (Pointers l).1)) h1
    (List.nodup_range' _ _) hL1 hSis
  obtain ⟨-, -, st2⟩ := Unlink_outgoing_Kept (X := fun _ => False) Respects_shape x _ _ _ e2
  have st := SameTable_trans st1 st2
  -- the object table
  obtain ⟨h', e3, hio, -, -, -⟩ := Unlink_table_spec (SameTable_TableInv st hT)
    ((SameTable_InTable st x).2 hx)
  have hmem : ∀ i, i ∈ List.range' (Pointers l).1 ((Pointers l).2 - (Pointers l).1) ↔
      ((Pointers l).1 ≤ i ∧ i < (Pointers l).2) := by
    intro i
    rw [List.mem_range'_1]
    constructor
    · rintro ⟨a, b⟩
      exact ⟨a, by omega⟩
    · rintro ⟨a, b⟩
      exact ⟨a, by omega⟩
  have hrest : ∀ r t, Ref_to h r = some t →
      (∀ i, (Pointers l).1 ≤ i → i < (Pointers l).2 → r ≠ .slot x i) →
      (Ref_to h' r = some t ∧ (l.is_weak_referent = true → r ∉ l.incoming_)) ∨
      (l.is_weak_referent = true ∧ r ∈ l.incoming_ ∧ t = x ∧
        Ref_to h' r = some h.interpreter_.nil_obj) := by
    intro r t hto hr
    have e : Ref_to h' r = Ref_to h1 r := by
      rw [IndexOnly_Ref_to hio, hout2 r (fun i hi => hr i ((hmem i).1 hi).1 ((hmem i).1 hi).2)]
    rw [e]
    exact F2 r t hto
  have hinr : ∀ i t, Ref_to h (.slot x i) = some t → (Pointers l).1 ≤ i →
      i < (Pointers l).2 →
      Ref_to h' (.slot x i) = some (if IsSmallInteger t then t else nullptr) := by
    intro i t hto hi1 hi2
    rw [IndexOnly_Ref_to hio]
    rcases F2 _ _ hto with ⟨e, -⟩ | ⟨-, -, rfl, e⟩
    · exact hin2 i ((hmem i).2 ⟨hi1, hi2⟩) t e
    · rw [hin2 i ((hmem i).2 ⟨hi1, hi2⟩) _ e,
        if_neg ((not_isSmallInteger_iff _).2 hnil), if_neg ((not_isSmallInteger_iff _).2 hxh)]
  refine ⟨h', ?_, Linked_IndexOnly hL2 hio, hinr, ?_, hrest, ?_, ?_⟩
  · unfold Unlink
    rw [hl]
    simp only [Option.some_bind]
    rw [e1]
    simp only [Option.some_bind]
    rw [hlo1]
    simp only [Option.some_bind]
    rw [hP1, e2]
    simp only [Option.some_bind]
    exact e3
  · intro i t hto hs
    by_cases hi : (Pointers l).1 ≤ i ∧ i < (Pointers l).2
    · rw [hinr i t hto hi.1 hi.2, if_pos hs]
    · rcases hrest _ t hto (fun j hj1 hj2 hc => by
        cases hc
        exact hi ⟨hj1, hj2⟩) with ⟨e, -⟩ | ⟨-, -, rfl, -⟩
      · exact e
      · exact absurd hs ((not_isSmallInteger_iff _).2 hxh)
  · obtain ⟨l2, hl2⟩ := st.forth x l hl
    obtain ⟨g, -, hg, -⟩ := IndexOnly_load hio
    exact ⟨_, by rw [hg, hl2]; rfl⟩
  · intro r t' hto'
    rw [IndexOnly_Ref_to hio] at hto'
    by_cases hr : ∃ i, i ∈ List.range' (Pointers l).1 ((Pointers l).2 - (Pointers l).1) ∧
        r = .slot x i
    · obtain ⟨i, hi, rfl⟩ := hr
      obtain ⟨-, t1, ht1⟩ := hSis i hi
      exact F3 _ t1 ht1
    · rw [hout2 r (fun i hi hc => hr ⟨i, hi, hc⟩)] at hto'
      exact F3 r t' hto'

end psoup

namespace psoup

theorem Ref_from_eq_slot {r : RefPtr} {x : Object} (hx : IsHeapObject x)
    (hr : Ref_from r = x) : ∃ i, r = .slot x i := by
  cases r with
  | slot s i =>
    have : s = x := hr
    subst this
    exact ⟨i, rfl⟩
  | root i =>
    have : nullptr = x := hr
    subst this
    exact absurd hx not_isHeapObject_nullptr
  | stack i =>
    have : nullptr = x := hr
    subst this
    exact absurd hx not_isHeapObject_nullptr

/-- C27: `Heap::Unlink` of an ephemeron does not null `klass_`.  In `ephemeronKlassHeap` the
Ref `klass_` of the ephemeron `E` at 7 holds the heap reference `C` (the object at 9) and is on
the incoming list of `C`.  The range `[Ephemeron::from(), Ephemeron::to()]` starts at `key_`
(`RegularObject::from()` is `&klass_`), so `Unlink(E)` sets the key, the value and the
finalizer to null and leaves `klass_` as it is: afterwards the slot still holds `C`, and the
incoming list of `C` still contains this Ref, whose source is `E`. -/
theorem Unlink_ephemeron_keeps_klass :
    (ephemeronKlassHeap.load 7).map (fun l => (l.cid, l.refs)) =
      some (kEphemeronCid, [9, 11, 1, 1]) ∧
    IsHeapObject 9 ∧ Ref_from (.slot 7 0) = 7 ∧
    ephemeronKlassHeap.incomingOf 9 = [.root 3, .slot 7 0] ∧
    (Unlink ephemeronKlassHeap 7).map (fun g => ((g.load 7).map (fun l => l.refs),
      g.incomingOf 9)) = some (some [9, 0, 0, 0], [.root 3, .slot 7 0]) := by
  decide

/-- `Heap::Unlink(x)` nulls the Refs of `x` in the range of `Pointers`.  Under
the incoming-list invariant, for an object `x` of the object table other than nil whose Refs are
initialised, `Unlink(x)` returns and leaves every Ref of `x` that held a small integer with
exactly the same value; it sets every Ref of `x` in the range `[from, to]` of `Pointers` that
held a heap reference to null, and afterwards that Ref is on no incoming list; a Ref of `x`
that is on an incoming list afterwards is outside the range of `Pointers`.  For an object that
is not an ephemeron the range holds all its Refs, so no incoming list contains a Ref whose
source is `x` afterwards; the range of an ephemeron starts after its Ref `klass_`, which is
not nulled and stays on the incoming list of the class. -/
theorem Unlink_outgoing_slots (S : RefPtr → Prop) (h : Heap) (x : Object) (l : Layout)
    (hL : Linked S h) (hT : TableInv h) (hx : InTable h x) (hl : h.load x = some l)
    (hS : ∀ i, i < l.refs.length → S (.slot x i))
    (hrange : (Pointers l).2 ≤ l.refs.length)
    (hnilS : ∃ ln, h.load h.interpreter_.nil_obj = some ln)
    (hxn : x ≠ h.interpreter_.nil_obj) :
    ∃ (h' : Heap) (l' : Layout), Unlink h x = some h' ∧ h'.load x = some l' ∧
      (∀ (i : Nat) (v : Object), l.refs[i]? = some v → IsSmallInteger v → l'.refs[i]? = some v) ∧
      (∀ (i : Nat) (v : Object), (Pointers l).1 ≤ i → i < (Pointers l).2 → l.refs[i]? = some v →
        ¬ IsSmallInteger v →
        l'.refs[i]? = some nullptr ∧ ∀ o, RefPtr.slot x i ∉ h'.incomingOf o) ∧
      (∀ (o : Object) (i : Nat), RefPtr.slot x i ∈ h'.incomingOf o →
        (i < (Pointers l).1 ∨ (Pointers l).2 ≤ i) ∧ i < l.refs.length) ∧
      (l.cid ≠ kEphemeronCid → ∀ o r, r ∈ h'.incomingOf o → Ref_from r ≠ x) := by
  have hxh : IsHeapObject x := isHeapObject_of_load hl
  obtain ⟨h', e, hL', hin, hsmi, -, ⟨l', hl'⟩, hback⟩ :=
    Unlink_linked hL hT hx hl hS hrange hnilS hxn
  have hslot : ∀ i v, Ref_to h' (.slot x i) = some v → l'.refs[i]? = some v := by
    intro i v hv
    obtain ⟨l'', hl'', hv'⟩ := Ref_to_slot_eq_some.1 hv
    rw [hl'] at hl''
    cases hl''
    exact hv'
  have hpre : ∀ i v, l.refs[i]? = some v → Ref_to h (.slot x i) = some v :=
    fun i v hv => Ref_to_slot_eq_some.2 ⟨l, hl, hv⟩
  have hlen : ∀ o i, RefPtr.slot x i ∈ h'.incomingOf o →
      (i < (Pointers l).1 ∨ (Pointers l).2 ≤ i) ∧ i < l.refs.length := by
    intro o i hr
    obtain ⟨-, ho, hto⟩ := Linked_target hL' hr
    obtain ⟨t, ht⟩ := hback _ _ hto
    obtain ⟨l0, hl0, ht0⟩ := Ref_to_slot_eq_some.1 ht
    rw [hl] at hl0
    cases hl0
    have hlt : i < l.refs.length := by
      by_contra hc
      rw [List.getElem?_eq_none (by omega)] at ht0
      cases ht0
    refine ⟨?_, hlt⟩
    by_contra hc
    have hi : (Pointers l).1 ≤ i ∧ i < (Pointers l).2 := by omega
    have e2 := hin i t ht hi.1 hi.2
    rw [hto] at e2
    have e3 := Option.some.inj e2
    by_cases hs : IsSmallInteger t
    · rw [if_pos hs] at e3
      rw [e3] at ho
      exact (not_isSmallInteger_iff t).2 ho hs
    · rw [if_neg hs] at e3
      rw [e3] at ho
      exact not_isHeapObject_nullptr ho
  refine ⟨h', l', e, hl', ?_, ?_, hlen, ?_⟩
  · intro i v hv hs
    exact hslot i v (hsmi i v (hpre i v hv) hs)
  · intro i v hi1 hi2 hv hs
    have e2 := hin i v (hpre i v hv) hi1 hi2
    rw [if_neg hs] at e2
    exact ⟨hslot i _ e2, (Linked_one_list hL').2 _ _ e2 not_isHeapObject_nullptr⟩
  · intro hne o r hr hfrom
    obtain ⟨i, rfl⟩ := Ref_from_eq_slot hxh hfrom
    obtain ⟨hout, hlt⟩ := hlen o i hr
    have hP : Pointers l = (0, l.refs.length) := by
      unfold Pointers
      rw [if_neg hne]
    rw [hP] at hout
    simp only at hout
    omega

theorem ephemeronKlassHeap_stored :
    ∀ o l, ephemeronKlassHeap.load o = some l → InTable ephemeronKlassHeap o := by
  intro o l hl
  have hm : o ∈ [1, 3, 5, 7, 9, 11] := memoryOf_mem (memory_of_load hl)
  have hall : ∀ x ∈ [1, 3, 5, 7, 9, 11], inTable ephemeronKlassHeap x = true := by decide
  exact (inTable_iff _ _).1 (hall o hm)

theorem cycleHeap_stored : ∀ o l, cycleHeap.load o = some l → InTable cycleHeap o := by
  intro o l hl
  have hm : o ∈ [1, 3, 5, 7, 9] := memoryOf_mem (memory_of_load hl)
  have hall : ∀ x ∈ [1, 3, 5, 7, 9], inTable cycleHeap x = true := by decide
  exact (inTable_iff _ _).1 (hall o hm)

/-- `Heap::Unlink(x)` on two heaps: `Unlink` of the array at 7 of `cycleHeap`, whose only Ref
holds the array at 9, and `Unlink` of the ephemeron at 7 of `ephemeronKlassHeap`. -/
theorem Unlink_outgoing_slots_instances :
    (∃ (h' : Heap) (l' : Layout), Unlink cycleHeap 7 = some h' ∧ h'.load 7 = some l' ∧
      (∀ (i : Nat) (v : Object), (Layout.sample kArrayCid 4 [.slot 9 0] [9]).refs[i]? = some v →
        IsSmallInteger v → l'.refs[i]? = some v) ∧
      (∀ (i : Nat) (v : Object), (Pointers (Layout.sample kArrayCid 4 [.slot 9 0] [9])).1 ≤ i →
        i < (Pointers (Layout.sample kArrayCid 4 [.slot 9 0] [9])).2 →
        (Layout.sample kArrayCid 4 [.slot 9 0] [9]).refs[i]? = some v → ¬ IsSmallInteger v →
        l'.refs[i]? = some nullptr ∧ ∀ o, RefPtr.slot 7 i ∉ h'.incomingOf o) ∧
      (∀ (o : Object) (i : Nat), RefPtr.slot 7 i ∈ h'.incomingOf o →
        (i < (Pointers (Layout.sample kArrayCid 4 [.slot 9 0] [9])).1 ∨
          (Pointers (Layout.sample kArrayCid 4 [.slot 9 0] [9])).2 ≤ i) ∧
        i < (Layout.sample kArrayCid 4 [.slot 9 0] [9]).refs.length) ∧
      ((Layout.sample kArrayCid 4 [.slot 9 0] [9]).cid ≠ kEphemeronCid →
        ∀ o r, r ∈ h'.incomingOf o → Ref_from r ≠ 7)) ∧
    (∃ (h' : Heap) (l' : Layout), Unlink ephemeronKlassHeap 7 = some h' ∧ h'.load 7 = some l' ∧
      (∀ (i : Nat) (v : Object), (Layout.sample kEphemeronCid 4 [] [9, 11, 1, 1]).refs[i]? = some v →
        IsSmallInteger v → l'.refs[i]? = some v) ∧
      (∀ (i : Nat) (v : Object), (Pointers (Layout.sample kEphemeronCid 4 [] [9, 11, 1, 1])).1 ≤ i →
        i < (Pointers (Layout.sample kEphemeronCid 4 [] [9, 11, 1, 1])).2 →
        (Layout.sample kEphemeronCid 4 [] [9, 11, 1, 1]).refs[i]? = some v →
        ¬ IsSmallInteger v →
        l'.refs[i]? = some nullptr ∧ ∀ o, RefPtr.slot 7 i ∉ h'.incomingOf o) ∧
      (∀ (o : Object) (i : Nat), RefPtr.slot 7 i ∈ h'.incomingOf o →
        (i < (Pointers (Layout.sample kEphemeronCid 4 [] [9, 11, 1, 1])).1 ∨
          (Pointers (Layout.sample kEphemeronCid 4 [] [9, 11, 1, 1])).2 ≤ i) ∧
        i < (Layout.sample kEphemeronCid 4 [] [9, 11, 1, 1]).refs.length) ∧
      ((Layout.sample kEphemeronCid 4 [] [9, 11, 1, 1]).cid ≠ kEphemeronCid →
        ∀ o r, r ∈ h'.incomingOf o → Ref_from r ≠ 7)) :=
  ⟨Unlink_outgoing_slots (Heap.initialised cycleHeap) cycleHeap 7
      (Layout.sample kArrayCid 4 [.slot 9 0] [9])
      (Linked_of_WellFormed (WellFormed_of_check (by decide)) cycleHeap_stored)
      (WellFormed_of_check (by decide)).1 ((inTable_iff _ _).1 (by decide)) (by rfl)
      (fun i hi => by
        have hi1 : i < 1 := hi
        have hi0 : i = 0 := by omega
        subst hi0
        exact ⟨(inTable_iff _ _).1 (by decide), 9, by rfl⟩)
      (by decide) ⟨_, (by rfl : cycleHeap.load 1 = some (Layout.sample 14 1 [.root 0] []))⟩
      (by decide),
    Unlink_outgoing_slots (Heap.initialised ephemeronKlassHeap) ephemeronKlassHeap 7
      (Layout.sample kEphemeronCid 4 [] [9, 11, 1, 1])
      (Linked_of_WellFormed (WellFormed_of_check (by decide)) ephemeronKlassHeap_stored)
      (WellFormed_of_check (by decide)).1 ((inTable_iff _ _).1 (by decide)) (by rfl)
      (fun i hi => by
        have hi1 : i < 4 := hi
        refine ⟨(inTable_iff _ _).1 (by decide), ?_⟩
        have h4 : ∀ j, j < 4 → ∃ t, Ref_to ephemeronKlassHeap (.slot 7 j) = some t := by
          intro j hj
          interval_cases j
          · exact ⟨9, by rfl⟩
          · exact ⟨11, by rfl⟩
          · exact ⟨1, by rfl⟩
          · exact ⟨1, by rfl⟩
        exact h4 i hi1)
      (by decide)
      ⟨_, (by rfl : ephemeronKlassHeap.load 1 =
        some (Layout.sample 14 1 [.root 0, .slot 7 2, .slot 7 3] []))⟩
      (by decide)⟩

end psoup

namespace psoup

theorem SlotsKept_refl (W : Object → Prop) (l : Layout) : Layout.SlotsKept W l l :=
  ⟨rfl, fun _ _ hv _ => hv⟩

theorem SlotsKept_trans {W : Object → Prop} {a b c : Layout} (h1 : Layout.SlotsKept W a b)
    (h2 : Layout.SlotsKept W b c) : Layout.SlotsKept W a c :=
  ⟨h2.1.trans h1.1, fun i v hv hw => h2.2 i v (h1.2 i v hv hw) hw⟩

theorem SlotsKept_of_refs {W : Object → Prop} {l l' : Layout} (h : l'.refs = l.refs) :
    Layout.SlotsKept W l l' :=
  ⟨by rw [h], fun i v hv _ => by rw [h]; exact hv⟩

theorem KeptS_refl (W X : Object → Prop) (h : Heap) : Kept X (Layout.SlotsKept W) h h :=
  fun _ l _ hl => ⟨l, hl, SlotsKept_refl W l⟩

theorem KeptS_trans {W X : Object → Prop} {h1 h2 h3 : Heap}
    (a : Kept X (Layout.SlotsKept W) h1 h2) (b : Kept X (Layout.SlotsKept W) h2 h3) :
    Kept X (Layout.SlotsKept W) h1 h3 := by
  intro o l3 hx hl3
  obtain ⟨l2, hl2, p2⟩ := b o l3 hx hl3
  obtain ⟨l1, hl1, p1⟩ := a o l2 hx hl2
  exact ⟨l1, hl1, SlotsKept_trans p1 p2⟩

theorem KeptS_modify {W X : Object → Prop} {h h' : Heap} {z : Object} {f : Layout → Layout}
    (hm : h.modify z f = some h') (hf : ∀ l, (f l).refs = l.refs) :
    Kept X (Layout.SlotsKept W) h h' := by
  obtain ⟨-, hload, -⟩ := modify_spec hm
  intro o l' _ hl'
  rw [hload] at hl'
  by_cases hoz : o = z
  · rw [if_pos hoz] at hl'
    obtain ⟨l, hl, rfl⟩ := Option.map_eq_some'.1 hl'
    exact ⟨l, hl, SlotsKept_of_refs (hf l)⟩
  · rw [if_neg hoz] at hl'
    exact ⟨l', hl', SlotsKept_refl W l'⟩

/-- `Ref::UpdateNoCheck` of a Ref whose target is an object of `W`, or of a Ref of an object of
`X`, keeps what the Refs of the objects outside `X` hold when it is not an object of `W`. -/
theorem KeptS_UpdateNoCheck {W X : Object → Prop} {h h' : Heap} {r : RefPtr} {v : Object}
    (hu : UpdateNoCheck h r v = some h')
    (hr : (∀ t, Ref_to h r = some t → W t) ∨ X (Ref_from r)) :
    Kept X (Layout.SlotsKept W) h h' := by
  obtain ⟨t, hto, -, -, rfl⟩ := UpdateNoCheck_eq_some.1 hu
  intro o l' hx hl'
  rw [load_retarget] at hl'
  obtain ⟨l, hl, rfl⟩ := Option.map_eq_some'.1 hl'
  refine ⟨l, hl, Layout_retarget_refs_length r t v o l, ?_⟩
  intro i w hw hnw
  rw [Layout_retarget_refs_getElem?]
  by_cases hc : r = RefPtr.slot o i ∧ i < l.refs.length
  · exfalso
    obtain ⟨rfl, -⟩ := hc
    rcases hr with hr | hr
    · have hto' : Ref_to h (.slot o i) = some w := Ref_to_slot_eq_some.2 ⟨l, hl, hw⟩
      exact hnw (hr w hto')
    · exact hx hr
  · rw [if_neg hc]
    exact hw

theorem Unlink_outgoing_KeptS {W X : Object → Prop} (obj : Object) (hobj : X obj) :
    ∀ (is : List Nat) (h h' : Heap), Unlink.outgoing h obj is = some h' →
      Kept X (Layout.SlotsKept W) h h' := by
  intro is
  induction is with
  | nil =>
    intro h h' he
    simp only [Unlink.outgoing, Option.some.injEq] at he; subst he
    exact KeptS_refl W X h
  | cons i rest ih =>
    intro h h' he
    simp only [Unlink.outgoing, Option.bind_eq_some] at he
    obtain ⟨t, hto, h1, hu, hrest⟩ := he
    have a := ih _ _ hrest
    split_ifs at hu with hs
    · cases hu; exact a
    · exact KeptS_trans (KeptS_UpdateNoCheck hu (Or.inr hobj)) a

theorem Unlink_weak_KeptS {W X : Object → Prop} {h1 : Heap} (hc : ClosureFound h1)
    {x : Object} (hx : x ∈ h1.worklist_) (hW : W x) :
    ∀ (fuel : Nat) (h : Heap) (cur : Option RefPtr), Reclaiming h1 h →
      (∀ r, cur = some r → r ∈ h.incomingOf x) →
      ∀ h', Unlink.weak fuel h x cur = some h' → Kept X (Layout.SlotsKept W) h h' := by
  have hxT := hc.inTable x hx
  intro fuel
  induction fuel with
  | zero =>
    intro h cur hr hcur h' he
    cases cur with
    | none =>
      simp only [Unlink.weak, Option.some.injEq] at he
      subst he
      exact KeptS_refl W X h
    | some r => simp [Unlink.weak] at he
  | succ fuel ih =>
    intro h cur hr hcur h' he
    cases cur with
    | none =>
      simp only [Unlink.weak, Option.some.injEq] at he
      subst he
      exact KeptS_refl W X h
    | some r =>
      simp only [Unlink.weak, Option.bind_eq_some] at he
      obtain ⟨o, hlo, t0, ht0, ha, hua, he⟩ := he
      have hrin : r ∈ h.incomingOf x := hcur r rfl
      have hgood := hr.closed x hx r hrin
      obtain ⟨hra, -⟩ := Reclaiming_retarget hc hr hua hgood
      obtain ⟨t, hto, htl, hvl, hae⟩ := UpdateNoCheck_eq_some.1 hua
      have htx : t = x := by
        rcases hr.sound x hxT r hrin with ⟨h2, -⟩ | h2
        · rw [hto] at h2; exact Option.some.inj h2
        · rw [hto] at h2; cases h2
      subst htx
      have hnext : ∀ n, Link_next o.incoming_ r = some n → n ∈ ha.incomingOf t := by
        intro n hn
        obtain ⟨hn1, hn2⟩ := Link_next_spec hn
        have hnd : o.incoming_.Nodup := by
          have := hr.nodup t hxT
          rw [incomingOf_of_load hlo] at this
          exact this
        have hne := hn2 hnd
        rw [hae, incomingOf_retarget t (fun hv ho => by subst ho; exact hvl hv),
          List.mem_append]
        left
        rw [incomingOf_of_load hlo]
        split_ifs
        · exact (List.mem_erase_of_ne hne).2 hn1
        · exact hn1
      have a := ih ha (Link_next o.incoming_ r) hra hnext h' he
      refine KeptS_trans (KeptS_UpdateNoCheck hua (Or.inl ?_)) a
      intro t' ht'
      rw [hto] at ht'
      cases ht'
      exact hW

theorem Unlink_KeptS {W X : Object → Prop} {h1 h h' : Heap} (hc : ClosureFound h1)
    {x : Object} (hx : x ∈ h1.worklist_) (hW : W x) (hX : X x) (hr : Reclaiming h1 h)
    (hu : Unlink h x = some h') : Kept X (Layout.SlotsKept W) h h' := by
  simp only [Unlink, Option.bind_eq_some] at hu
  obtain ⟨o, hlo, ha, hwa, o1, hlo1, hb, hob, htb⟩ := hu
  have ka : Kept X (Layout.SlotsKept W) h ha := by
    by_cases hw : o.is_weak_referent = true
    · rw [if_pos hw] at hwa
      refine Unlink_weak_KeptS hc hx hW _ h _ hr ?_ ha hwa
      intro r hr'
      rw [incomingOf_of_load hlo]
      exact List.mem_of_mem_head? hr'
    · rw [if_neg hw] at hwa
      cases hwa
      exact KeptS_refl W X h
  have kb := Unlink_outgoing_KeptS (W := W) (X := X) x hX _ _ _ hob
  have kc : Kept X (Layout.SlotsKept W) hb h' := by
    unfold Unlink.table at htb
    simp only [Option.bind_eq_some] at htb
    obtain ⟨l2, hl2, htb⟩ := htb
    split_ifs at htb
    simp only [Option.bind_eq_some, Option.some.injEq] at htb
    obtain ⟨g1, e1, g3, e3, rfl⟩ := htb
    have s1 : Kept X (Layout.SlotsKept W) hb g1 := KeptS_modify e1 (fun _ => rfl)
    have s3 : Kept X (Layout.SlotsKept W) _ g3 := KeptS_modify (X := X) e3 (fun _ => rfl)
    intro y l' hy hl'
    obtain ⟨la, hla, p1⟩ := s3 y l' hy hl'
    obtain ⟨lb, hlb, p⟩ := s1 y la hy hla
    exact ⟨lb, hlb, SlotsKept_trans p p1⟩
  exact KeptS_trans ka (KeptS_trans kb kc)

theorem GCStep_unlink_KeptS {h1 : Heap} (hc : ClosureFound h1) :
    ∀ (xs p : List Object) (h : Heap) (k : Bool), Reclaiming h1 h → TableShrunk h1 p h →
      (∀ x ∈ xs, x ∈ h1.worklist_) → xs.Nodup → (∀ x ∈ xs, x ∉ p) →
      ∀ h' k', GCStep.unlink h k xs = some (h', k') →
        Kept (fun o => o ∈ h1.worklist_) (Layout.SlotsKept (fun o => o ∈ h1.worklist_))
          h h' := by
  intro xs
  induction xs with
  | nil =>
    intro p h k hr hts _ _ _ h' k' he
    simp only [GCStep.unlink, Option.some.injEq, Prod.mk.injEq] at he
    obtain ⟨rfl, -⟩ := he
    exact KeptS_refl _ _ h
  | cons x rest ih =>
    intro p h k hr hts hsub hnd hdis h' k' he
    simp only [GCStep.unlink, Option.bind_eq_some] at he
    obtain ⟨o, hlo, ha, hua, he⟩ := he
    have hxW := hsub x (List.mem_cons_self _ _)
    obtain ⟨hra, htsa⟩ := Unlink_reclaiming hc hxW hr hts (hdis x (List.mem_cons_self _ _)) hua
    have hnd' := List.nodup_cons.1 hnd
    have a := Unlink_KeptS (W := fun o => o ∈ h1.worklist_) (X := fun o => o ∈ h1.worklist_)
      hc hxW hxW hxW hr hua
    have b := ih (x :: p) ha _ hra htsa
      (fun y hy => hsub y (List.mem_cons_of_mem _ hy)) hnd'.2
      (by
        intro y hy hyp
        rcases List.mem_cons.1 hyp with rfl | hyp
        · exact hnd'.1 hy
        · exact hdis y (List.mem_cons_of_mem _ hy) hyp) h' k' he
    exact KeptS_trans a b

end psoup

namespace psoup

/-- A round of `GCStep` whose candidate is found unreachable, seen from the objects that stay:
each Ref of such an object holds what it held, except that a Ref that held an object of the
worklist is a Ref of a weak array and holds nil. -/
theorem GCStep_round_survivors {h h1 : Heap} {random : Nat} (hcol : Collectable h)
    (hidx : random % h.table_size_ ≠ 0)
    (hcr : CheckReachable h (h.table_ (random % h.table_size_)) = some (false, h1)) :
    ∃ h', GCStep.round h random = some h' ∧
      (∀ o, InTable h' o ↔ (InTable h o ∧ o ∉ h1.worklist_)) ∧
      ∀ s l, InTable h s → s ∉ h1.worklist_ → h.load s = some l →
        ∃ l', h'.load s = some l' ∧ l'.refs.length = l.refs.length ∧
          (∀ (i : Nat) (v : Object), l.refs[i]? = some v → v ∉ h1.worklist_ →
            l'.refs[i]? = some v) ∧
          (∀ (i : Nat) (v : Object), l.refs[i]? = some v → v ∈ h1.worklist_ →
            l.cid = kWeakArrayCid ∧ l'.refs[i]? = some h.interpreter_.nil_obj) := by
  have hwf := hcol.formed
  have hw := WeaklyFormed_of_WellFormed hwf
  have hsz : h.table_size_ ≠ 0 := by
    have := hwf.1.1
    omega
  have hcT : InTable h (h.table_ (random % h.table_size_)) :=
    ⟨_, by omega, Nat.mod_lt _ (by omega), rfl⟩
  have hsing : ¬ (h.table_ (random % h.table_size_) = h.interpreter_.nil_obj ∨
      h.table_ (random % h.table_size_) = h.interpreter_.true_obj ∨
      h.table_ (random % h.table_size_) = h.interpreter_.false_obj) := by
    intro hs
    rw [CheckReachable_singleton hs] at hcr
    cases hcr
  obtain ⟨sf, -, -⟩ := CheckReachable_spec hw hcT hsing
  obtain ⟨hst, hp, -⟩ := sf h1 hcr
  have hf := hst.frame
  have hc := ClosureFound_of_CheckReachable hw hst hp
  obtain ⟨h', he, hmem, -, -, -, hweak⟩ := GCStep_round_unreachable hcol hidx hcr
  refine ⟨h', he, hmem, ?_⟩
  -- the structure of the round
  have he' := he
  unfold GCStep.round at he'
  rw [if_neg hsz] at he'
  simp only at he'
  rw [if_neg hidx] at he'
  simp only [Option.bind_eq_some, Option.map_eq_some'] at he'
  obtain ⟨⟨b, h1'⟩, hcr', h4, hbr, rfl⟩ := he'
  rw [hcr] at hcr'
  cases hcr'
  simp only [Bool.false_eq_true, if_false] at hbr
  unfold GCStep.reclaim at hbr
  simp only [Option.bind_eq_some, Option.map_eq_some'] at hbr
  obtain ⟨⟨h2, k2⟩, e1, hq, e2, hq3⟩ := hbr
  simp only at e2 hq3
  obtain ⟨hr, -⟩ := GCStep_unlink_reclaiming hc h1.worklist_ [] h1 false
    (Reclaiming_refl hc) (TableShrunk_refl hc.table) (fun x hx => hx) hc.nodup
    (fun x _ => by simp) h2 k2 e1
  have kS := GCStep_unlink_KeptS hc h1.worklist_ [] h1 false
    (Reclaiming_refl hc) (TableShrunk_refl hc.table) (fun x hx => hx) hc.nodup
    (fun x _ => by simp) h2 k2 e1
  obtain ⟨f1, -⟩ := GCStep_free_spec _ _ _ e2
  have hload : ∀ o, ({ h4 with worklist_ := [] } : Heap).load o =
      if o ∈ h1.worklist_ then none else h2.load o := by
    intro o
    rw [← f1 o, ← hq3]
    split_ifs <;> rfl
  intro s l hsT hsW hl
  obtain ⟨l1, hl1, hs1⟩ := (MarkFrame_load hf s).1 l hl
  obtain ⟨-, -, -, c1, -, -, -, -, r1⟩ := (SameButMarks_iff l l1).1 hs1
  obtain ⟨l2, hl2, -⟩ := (hr.layout s).1 l1 hl1
  obtain ⟨l1', hl1', hk⟩ := kS s l2 hsW hl2
  rw [hl1] at hl1'
  cases hl1'
  have hl' : ({ h4 with worklist_ := [] } : Heap).load s = some l2 := by
    rw [hload s, if_neg hsW]
    exact hl2
  refine ⟨l2, hl', by rw [hk.1, r1], ?_, ?_⟩
  · intro i v hv hvW
    exact hk.2 i v (by rw [r1]; exact hv) hvW
  · intro i v hv hvW
    have hvT : InTable h v := hst.inTable v hvW
    have hvh : IsHeapObject v := isHeapObject_of_InTable hwf.1 hvT
    have hcid : l.cid = kWeakArrayCid := by
      by_contra hne
      have hedge : Edge h s v := ⟨hsT, l, i, hl, hne, hv, hvh⟩
      exact hsW (closure_backward hw.2.2.1 hp (Relation.ReflTransGen.single hedge) hvW)
    refine ⟨hcid, ?_⟩
    have hto : Ref_to h (.slot s i) = some v := Ref_to_slot_eq_some.2 ⟨l, hl, hv⟩
    obtain ⟨hnil, -⟩ := hweak (.slot s i) v hsT ⟨l, hl, hcid⟩ hsW hto hvW
    obtain ⟨l'', hl'', hv''⟩ := Ref_to_slot_eq_some.1 hnil
    rw [hl'] at hl''
    cases hl''
    exact hv''

/-- Counterexample to C28: in `weakStrongHeap` the object `T` at 9 is referenced by the weak
array at 7 and by the array `A` at 11, which is not a weak array.  `CheckReachable(T)` puts `T`
and `A` on the worklist and sets the weak-referent bit of `T`.  The first loop of `Unlink(T)`
then gives nil to both Refs on the incoming list of `T`: the Ref of `A`, an incoming edge whose
source is not a weak array, holds nil afterwards. -/
theorem Unlink_nils_strong_edge_counterexample :
    (weakStrongHeapChecked.load 11).map (fun l => (l.cid, l.refs)) = some (kArrayCid, [9]) ∧
    kArrayCid ≠ kWeakArrayCid ∧ weakStrongHeapChecked.interpreter_.nil_obj = 1 ∧
    weakStrongHeapChecked.worklist_ = [9, 11] ∧
    (weakStrongHeapChecked.load 9).map (fun l => (l.is_weak_referent, l.incoming_)) =
      some (true, [.slot 7 0, .slot 11 0]) ∧
    (Unlink.weak 3 weakStrongHeapChecked 9 (some (.slot 7 0))).map
      (fun g => Ref_to g (.slot 11 0)) = some (some 1) := by
  decide

/-- C28, amended: reclamation mutates survivors only through weak slots, though the nil-ing
loop of `Unlink` changes every incoming edge.  For every object that remains in the object
table after a GC round that reclaims an unreachable closure, each of its slots holds the same
value as before the round, except that a slot that referenced a reclaimed object is a slot of a
weak array and holds nil.  The first loop of `Unlink(x)` gives nil to every Ref on the incoming
list of `x`, whatever its source is, and changes no other Ref; the Refs on that list whose
source is not a weak array are Refs of objects of the closure, which the round reclaims. -/
theorem Reclamation_mutates_weak_slots :
    (∀ (h h1 : Heap) (random : Nat), Collectable h → random % h.table_size_ ≠ 0 →
      CheckReachable h (h.table_ (random % h.table_size_)) = some (false, h1) →
      ∃ h', GCStep.round h random = some h' ∧
        (∀ o, InTable h' o ↔ (InTable h o ∧ o ∉ h1.worklist_)) ∧
        ∀ s l, InTable h s → s ∉ h1.worklist_ → h.load s = some l →
          ∃ l', h'.load s = some l' ∧ l'.refs.length = l.refs.length ∧
            (∀ (i : Nat) (v : Object), l.refs[i]? = some v → v ∉ h1.worklist_ →
              l'.refs[i]? = some v) ∧
            (∀ (i : Nat) (v : Object), l.refs[i]? = some v → v ∈ h1.worklist_ →
              l.cid = kWeakArrayCid ∧ l'.refs[i]? = some h.interpreter_.nil_obj)) ∧
    (∀ (S : RefPtr → Prop) (g : Heap) (x : Object), Linked S g →
      x ≠ g.interpreter_.nil_obj → (∃ l, g.load g.interpreter_.nil_obj = some l) →
      ∃ g', Unlink.weak ((g.incomingOf x).length + 1) g x (g.incomingOf x).head? = some g' ∧
        (∀ r, r ∈ g.incomingOf x → Ref_to g' r = some g.interpreter_.nil_obj) ∧
        (∀ r, r ∉ g.incomingOf x → Ref_to g' r = Ref_to g r)) := by
  refine ⟨?_, ?_⟩
  · intro h h1 random hcol hidx hcr
    exact GCStep_round_survivors hcol hidx hcr
  · intro S g x hL hxn hnl
    obtain ⟨g', e, -, -, -, -, hin, hout⟩ := Unlink_weak_linked (S := S) hxn
      (g.incomingOf x).length g hL rfl hnl (Nat.le_refl _)
    exact ⟨g', e, hin, hout⟩

theorem weakStrongHeap_stored :
    ∀ o l, weakStrongHeap.load o = some l → InTable weakStrongHeap o := by
  intro o l hl
  have hm : o ∈ [1, 3, 5, 7, 9, 11] := memoryOf_mem (memory_of_load hl)
  have hall : ∀ x ∈ [1, 3, 5, 7, 9, 11], inTable weakStrongHeap x = true := by decide
  exact (inTable_iff _ _).1 (hall o hm)

/-- Witness of C28 as amended: the round of `GCStep` on `weakStrongHeap` that samples `T` and
reclaims `T` and `A`, and the first loop of `Unlink` for `T` in `weakStrongHeap`. -/
theorem Reclamation_mutates_weak_slots_witness :
    (∃ h', GCStep.round weakStrongHeap 5 = some h' ∧
      (∀ o, InTable h' o ↔ (InTable weakStrongHeap o ∧ o ∉ weakStrongHeapChecked.worklist_)) ∧
      ∀ s l, InTable weakStrongHeap s → s ∉ weakStrongHeapChecked.worklist_ →
        weakStrongHeap.load s = some l →
        ∃ l', h'.load s = some l' ∧ l'.refs.length = l.refs.length ∧
          (∀ (i : Nat) (v : Object), l.refs[i]? = some v →
            v ∉ weakStrongHeapChecked.worklist_ → l'.refs[i]? = some v) ∧
          (∀ (i : Nat) (v : Object), l.refs[i]? = some v →
            v ∈ weakStrongHeapChecked.worklist_ →
            l.cid = kWeakArrayCid ∧ l'.refs[i]? = some weakStrongHeap.interpreter_.nil_obj)) ∧
    (∃ g', Unlink.weak ((weakStrongHeap.incomingOf 9).length + 1) weakStrongHeap 9
        (weakStrongHeap.incomingOf 9).head? = some g' ∧
      (∀ r, r ∈ weakStrongHeap.incomingOf 9 →
        Ref_to g' r = some weakStrongHeap.interpreter_.nil_obj) ∧
      (∀ r, r ∉ weakStrongHeap.incomingOf 9 → Ref_to g' r = Ref_to weakStrongHeap r)) :=
  ⟨Reclamation_mutates_weak_slots.1 weakStrongHeap weakStrongHeapChecked 5
      (Collectable_of_check (by decide)) (by decide) (by rfl),
    Reclamation_mutates_weak_slots.2 (Heap.initialised weakStrongHeap) weakStrongHeap 9
      (Linked_of_WellFormed (WellFormed_of_check (by decide)) weakStrongHeap_stored)
      (by decide)
      ⟨_, (by rfl : weakStrongHeap.load 1 = some (Layout.sample 14 1 [.root 0] []))⟩⟩

end psoup

namespace psoup

theorem isInstance_of_load {h : Heap} {cid : Int} {o : Object} {l : Layout}
    (hl : h.load o = some l) : isInstance h cid o = decide ((l.cid : Int) = cid) := by
  unfold isInstance
  rw [hl]

theorem isInstance_retarget (g : Heap) (r : RefPtr) (t v : Object) (cid : Int) (o : Object) :
    isInstance (g.retarget r t v) cid o = isInstance g cid o := by
  unfold isInstance
  rw [load_retarget]
  cases g.load o with
  | none => rfl
  | some l => rfl

/-- The loop of `Heap::CountInstances` adds the number of the indices whose entry has the class
id. -/
theorem CountInstances_loop_eq (h : Heap) (cid : Int) :
    ∀ (is : List Nat) (acc : Nat), (∀ i ∈ is, ∃ l, h.load (h.table_ i) = some l) →
      CountInstances.loop h cid is acc =
        some (acc + (is.filter fun i => isInstance h cid (h.table_ i)).length) := by
  intro is
  induction is with
  | nil => intro acc _; rfl
  | cons i rest ih =>
    intro acc hst
    obtain ⟨l, hl⟩ := hst i (List.mem_cons_self _ _)
    have hrest := fun a => ih a (fun j hj => hst j (List.mem_cons_of_mem _ hj))
    simp only [CountInstances.loop, hl, Option.some_bind, List.filter_cons,
      isInstance_of_load hl]
    by_cases hc : (l.cid : Int) = cid
    · simp only [hc, if_true, decide_True, List.length_cons]
      rw [hrest]
      congr 1
      omega
    · simp only [hc, if_false, decide_False]
      rw [hrest]
      rfl

theorem table_entries_stored {h : Heap} (hT : TableInv h) :
    ∀ i ∈ List.range' 1 (h.table_size_ - 1), ∃ l, h.load (h.table_ i) = some l := by
  intro i hi
  obtain ⟨h1, h2⟩ := List.mem_range'_1.1 hi
  obtain ⟨l, hl, -⟩ := hT.2 i h1 (by omega)
  exact ⟨l, hl⟩

theorem CountInstances_eq {h : Heap} (hT : TableInv h) (cid : Int) :
    CountInstances h cid = some (instanceIndices h cid).length := by
  unfold CountInstances instanceIndices
  rw [CountInstances_loop_eq h cid _ 0 (table_entries_stored hT), Nat.zero_add]

/-- The loop of `Heap::CollectInstances`: it returns; the elements of the array from the
counter on are the entries of the object table that have the class id, in the order of the
indices; and no other Ref has changed. -/
theorem CollectInstances_loop_spec (h : Heap) (cid : Int) (arr : Object) :
    ∀ (is : List Nat) (g : Heap) (acc : Nat), g.table_ = h.table_ →
      (∀ o, isInstance g cid o = isInstance h cid o) →
      (∀ i ∈ is, ∃ l, g.load (g.table_ i) = some l) →
      (∀ j, acc ≤ j →
        j < acc + (is.filter fun i => isInstance h cid (h.table_ i)).length →
        ∃ t, Ref_to g (.slot arr j) = some t) →
      ∃ g', CollectInstances.loop cid arr g is acc =
          some (acc + (is.filter fun i => isInstance h cid (h.table_ i)).length, g') ∧
        g'.table_ = h.table_ ∧ g'.table_size_ = g.table_size_ ∧
        (∀ (k i : Nat), (is.filter fun i => isInstance h cid (h.table_ i))[k]? = some i →
          Ref_to g' (.slot arr (acc + k)) = some (h.table_ i)) ∧
        (∀ r, (∀ k, k < (is.filter fun i => isInstance h cid (h.table_ i)).length →
          r ≠ .slot arr (acc + k)) → Ref_to g' r = Ref_to g r) := by
  intro is
  induction is with
  | nil =>
    intro g acc htab _ _ _
    refine ⟨g, rfl, htab, rfl, ?_, fun _ _ => rfl⟩
    intro k i hk
    simp at hk
  | cons i rest ih =>
    intro g acc htab hinst hst harr
    obtain ⟨l, hl⟩ := hst i (List.mem_cons_self _ _)
    have hp : isInstance h cid (h.table_ i) = decide ((l.cid : Int) = cid) := by
      rw [← hinst, ← htab]
      exact isInstance_of_load hl
    by_cases hc : (l.cid : Int) = cid
    · have hpt : isInstance h cid (h.table_ i) = true := by rw [hp]; exact decide_eq_true hc
      have hfil : ((i :: rest).filter fun i => isInstance h cid (h.table_ i)) =
          i :: (rest.filter fun i => isInstance h cid (h.table_ i)) := by
        rw [List.filter_cons, if_pos hpt]
      rw [hfil] at harr ⊢
      simp only [List.length_cons] at harr ⊢
      obtain ⟨t, hto⟩ := harr acc (Nat.le_refl _) (by omega)
      have hinit : Array.init_element g arr acc (g.table_ i) =
          some (g.retarget (.slot arr acc) nullptr (g.table_ i)) :=
        Ref_Init_eq_some.2 ⟨⟨t, hto⟩, fun _ => ⟨l, hl⟩, rfl⟩
      have hto1 : ∀ r', Ref_to (g.retarget (.slot arr acc) nullptr (g.table_ i)) r' =
          if r' = .slot arr acc then some (g.table_ i) else Ref_to g r' :=
        fun r' => Ref_to_retarget_any hto nullptr (g.table_ i) r'
      obtain ⟨g', e', htab', hsz', hin', hout'⟩ := ih
        (g.retarget (.slot arr acc) nullptr (g.table_ i)) (acc + 1) htab
        (fun o => by rw [isInstance_retarget]; exact hinst o)
        (fun j hj => load_retarget_isSome (hst j (List.mem_cons_of_mem _ hj)))
        (fun j hj1 hj2 => by
          rw [hto1, if_neg (by
            intro hcon
            have hk2 : j = acc := (RefPtr.slot.inj hcon).2
            omega)]
          exact harr j (by omega) (by omega))
      refine ⟨g', ?_, htab', hsz', ?_, ?_⟩
      · simp only [CollectInstances.loop, hl, Option.some_bind, if_pos hc, hinit]
        rw [e']
        congr 2
        omega
      · intro k j hk
        cases k with
        | zero =>
          simp only [List.getElem?_cons_zero, Option.some.injEq] at hk
          subst hk
          rw [Nat.add_zero, hout' _ (fun k _ hcon => by
            have hk2 : acc = acc + 1 + k := (RefPtr.slot.inj hcon).2
            omega), hto1, if_pos rfl, htab]
        | succ k =>
          simp only [List.getElem?_cons_succ] at hk
          have := hin' k j hk
          rw [show acc + 1 + k = acc + (k + 1) by omega] at this
          exact this
      · intro r hr
        rw [hout' r (fun k hk hcon => hr (k + 1) (by omega) (by
          rw [hcon]
          congr 1
          omega)), hto1, if_neg (fun hcon => hr 0 (by omega) (by rw [hcon]; rfl))]
    · have hpf : isInstance h cid (h.table_ i) = false := by rw [hp]; exact decide_eq_false hc
      have hfil : ((i :: rest).filter fun i => isInstance h cid (h.table_ i)) =
          (rest.filter fun i => isInstance h cid (h.table_ i)) := by
        rw [List.filter_cons, if_neg (by rw [hpf]; decide)]
      rw [hfil] at harr ⊢
      obtain ⟨g', e', htab', hsz', hin', hout'⟩ := ih g acc htab hinst
        (fun j hj => hst j (List.mem_cons_of_mem _ hj)) harr
      refine ⟨g', ?_, htab', hsz', hin', hout'⟩
      simp only [CollectInstances.loop, hl, Option.some_bind, if_neg hc]
      exact e'

end psoup

namespace psoup

theorem instanceIndices_length (h : Heap) (cid : Int) :
    (instanceIndices h cid).length = ((tableObjects h).filter (isInstance h cid)).length := by
  unfold instanceIndices tableObjects
  rw [List.filter_map, List.length_map]
  rfl

/-- The number of the objects of a table that have a property when one object leaves the
table. -/
theorem filter_length_remove {L L' : List Object} {x : Object} (q : Object → Bool)
    (hL : L.Nodup) (hL' : L'.Nodup) (hx : x ∈ L)
    (hmem : ∀ o, o ∈ L' ↔ (o ∈ L ∧ o ≠ x)) :
    (L.filter q).length = (L'.filter q).length + (if q x = true then 1 else 0) := by
  have hnd : (x :: L').Nodup := List.nodup_cons.2 ⟨fun hc => ((hmem x).1 hc).2 rfl, hL'⟩
  have hperm : L.Perm (x :: L') := by
    refine (List.perm_ext_iff_of_nodup hL hnd).2 ?_
    intro o
    rw [List.mem_cons, hmem o]
    constructor
    · intro ho
      by_cases hox : o = x
      · exact Or.inl hox
      · exact Or.inr ⟨ho, hox⟩
    · rintro (rfl | ⟨ho, -⟩)
      · exact hx
      · exact ho
  rw [(hperm.filter q).length_eq, List.filter_cons]
  split_ifs <;> simp

/-- An object of the object table whose incoming list is empty and that no handle holds is not
reachable from a root. -/
theorem not_RootReachable_of_unreferenced {h : Heap} (hwf : WellFormed h) {x : Object}
    {lx : Layout} (hlx : h.load x = some lx) (hinc : lx.incoming_ = [])
    (hh : x ∉ h.handles_) :
    ¬ RootReachable h x ∧ ∀ o, Relation.ReflTransGen (Edge h) o x → o = x := by
  have hxh : IsHeapObject x := isHeapObject_of_load hlx
  have hempty : h.incomingOf x = [] := by rw [incomingOf_of_load hlx]; exact hinc
  have hnone : ∀ r, HolderInTable h r → Ref_to h r = some x → False := by
    intro r hr hto
    have := (hwf.2.2.1 r x hr hto hxh).2
    rw [hempty] at this
    cases this
  have hpath : ∀ o, Relation.ReflTransGen (Edge h) o x → o = x := by
    intro o hp
    rcases Relation.ReflTransGen.cases_tail hp with he | ⟨c, -, hedge⟩
    · exact he.symm
    · obtain ⟨hcT, l, i, hl, -, hi, -⟩ := hedge
      exact (hnone (.slot c i) hcT (Ref_to_slot_eq_some.2 ⟨l, hl, hi⟩)).elim
  refine ⟨?_, hpath⟩
  rintro ⟨o, hroot, hp⟩
  have hox := hpath o hp
  subst hox
  rcases hroot with hr | hr | hr
  · obtain ⟨j, hj⟩ := List.getElem?_of_mem hr
    exact hnone (.root j) trivial hj
  · obtain ⟨j, hj⟩ := List.getElem?_of_mem hr
    exact hnone (.stack j) trivial hj
  · exact hh hr

/-- A round of `GCStep` that samples an unreferenced object reclaims this object and no
other, and every object that stays has the class id it had. -/
theorem GCStep_round_unreferenced {h : Heap} (hcol : Collectable h) {random : Nat} {x : Object}
    {lx : Layout} (hidx : random % h.table_size_ ≠ 0)
    (hx : h.table_ (random % h.table_size_) = x) (hlx : h.load x = some lx)
    (hinc : lx.incoming_ = []) (hh : x ∉ h.handles_)
    (hns : ¬ (x = h.interpreter_.nil_obj ∨ x = h.interpreter_.true_obj ∨
      x = h.interpreter_.false_obj)) :
    ∃ h', GCStep.round h random = some h' ∧ TableInv h' ∧
      (∀ o, InTable h' o ↔ (InTable h o ∧ o ≠ x)) ∧
      (∀ o l', h'.load o = some l' → ∃ l, h.load o = some l ∧ l'.cid = l.cid) := by
  have hwf := hcol.formed
  have hw := WeaklyFormed_of_WellFormed hwf
  have hsz : h.table_size_ ≠ 0 := by
    have := hwf.1.1
    omega
  have hcT : InTable h x := ⟨_, by omega, Nat.mod_lt _ (by omega), hx⟩
  obtain ⟨hnr, hpath⟩ := not_RootReachable_of_unreferenced hwf hlx hinc hh
  obtain ⟨h1, hcr, hnd, hwl⟩ := CheckReachable_unreachable hwf hcT hns hnr
  have hwl' : ∀ o, o ∈ h1.worklist_ ↔ o = x := by
    intro o
    rw [hwl o]
    exact ⟨hpath o, fun ho => ho ▸ Relation.ReflTransGen.refl⟩
  rw [← hx] at hcr
  obtain ⟨h', he, hmem, -⟩ := GCStep_round_unreachable hcol hidx hcr
  obtain ⟨w', -⟩ := GCStep_round_spec hw he
  have hk := GCStep_round_Kept (X := fun _ => False) Respects_SameSize.1 Respects_SameSize.2.1
    Respects_SameSize.2.2 hw he
  refine ⟨h', he, w'.1, ?_, ?_⟩
  · intro o
    rw [hmem o, hwl' o]
  · intro o l' hl'
    obtain ⟨l, hl, hs⟩ := hk o l' (fun hc => hc) hl'
    exact ⟨l, hl, hs.2.1⟩

/-- C25: `CountInstances(cid)` returns the number of the indices `i` with
`1 <= i < table_size_` and `table_[i].cid() == cid`.  `CollectInstances(cid, arr)`, for an
array `arr` with at least that many elements, returns the same number `n` and stores exactly
those objects in `arr[0..n)` in the order of the object table, changing no other Ref and not
the object table.  After a GC round samples and reclaims a byte array that nothing references,
`CountInstances(kByteArrayCid)` is one less than before. -/
theorem CountInstances_counts :
    (∀ (h : Heap) (cid : Int), TableInv h →
      CountInstances h cid = some (instanceIndices h cid).length) ∧
    (∀ (h : Heap) (cid : Int) (arr : Object) (la : Layout), TableInv h →
      h.load arr = some la → (instanceIndices h cid).length ≤ la.refs.length →
      ∃ h', CollectInstances h cid arr = some ((instanceIndices h cid).length, h') ∧
        CountInstances h cid = some (instanceIndices h cid).length ∧
        (∀ (k i : Nat), (instanceIndices h cid)[k]? = some i →
          Array.element h' arr k = some (h.table_ i)) ∧
        (∀ r, (∀ k, k < (instanceIndices h cid).length → r ≠ .slot arr k) →
          Ref_to h' r = Ref_to h r) ∧
        h'.table_ = h.table_ ∧ h'.table_size_ = h.table_size_) ∧
    (∀ (h : Heap) (random : Nat) (x : Object) (lx : Layout), Collectable h →
      random % h.table_size_ ≠ 0 → h.table_ (random % h.table_size_) = x →
      h.load x = some lx → lx.cid = kByteArrayCid → lx.incoming_ = [] → x ∉ h.handles_ →
      ¬ (x = h.interpreter_.nil_obj ∨ x = h.interpreter_.true_obj ∨
        x = h.interpreter_.false_obj) →
      ∃ h' n, GCStep.round h random = some h' ∧ ¬ InTable h' x ∧
        CountInstances h (kByteArrayCid : Int) = some (n + 1) ∧
        CountInstances h' (kByteArrayCid : Int) = some n) := by
  refine ⟨fun h cid hT => CountInstances_eq hT cid, ?_, ?_⟩
  · intro h cid arr la hT hla hlen
    obtain ⟨g', e, htab, hsz, hin, hout⟩ := CollectInstances_loop_spec h cid arr
      (List.range' 1 (h.table_size_ - 1)) h 0 rfl (fun _ => rfl) (table_entries_stored hT)
      (fun j _ hj => by
        have hj' : j < (instanceIndices h cid).length := by
          rw [Nat.zero_add] at hj
          exact hj
        have hlt : j < la.refs.length := by omega
        exact ⟨la.refs[j], Ref_to_slot_eq_some.2 ⟨la, hla, List.getElem?_eq_getElem hlt⟩⟩)
    rw [Nat.zero_add] at e
    refine ⟨g', e, CountInstances_eq hT cid, ?_, ?_, htab, hsz⟩
    · intro k i hk
      have := hin k i hk
      rw [Nat.zero_add] at this
      exact this
    · intro r hr
      exact hout r (fun k hk => by rw [Nat.zero_add]; exact hr k hk)
  · intro h random x lx hcol hidx hx hlx hcid hinc hh hns
    obtain ⟨h', he, hT', hmem, hcids⟩ := GCStep_round_unreferenced hcol hidx hx hlx hinc hh hns
    have hT := hcol.formed.1
    have hsz : h.table_size_ ≠ 0 := by
      have := hT.1
      omega
    have hxT : InTable h x := ⟨_, by omega, Nat.mod_lt _ (by omega), hx⟩
    have hnotin : ¬ InTable h' x := fun hc => ((hmem x).1 hc).2 rfl
    refine ⟨h', ((tableObjects h').filter (isInstance h' (kByteArrayCid : Int))).length, he,
      hnotin, ?_, ?_⟩
    · rw [CountInstances_eq hT, instanceIndices_length]
      have hcount := filter_length_remove (isInstance h (kByteArrayCid : Int))
        (tableObjects_nodup (ObjectTable_of_TableInv hT))
        (tableObjects_nodup (ObjectTable_of_TableInv hT'))
        ((mem_tableObjects h x).2 hxT)
        (fun o => by rw [mem_tableObjects, mem_tableObjects, hmem o])
      have hqx : isInstance h (kByteArrayCid : Int) x = true := by
        rw [isInstance_of_load hlx, hcid]
        exact decide_eq_true rfl
      have hf : (tableObjects h').filter (isInstance h (kByteArrayCid : Int)) =
          (tableObjects h').filter (isInstance h' (kByteArrayCid : Int)) := by
        apply List.filter_congr
        intro o ho
        have hoT : InTable h' o := (mem_tableObjects h' o).1 ho
        obtain ⟨l', hl', -⟩ := load_of_InTable hT' hoT
        obtain ⟨l, hl, hc⟩ := hcids o l' hl'
        rw [isInstance_of_load hl, isInstance_of_load hl', hc]
      rw [hcount, if_pos hqx, hf]
    · rw [CountInstances_eq hT', instanceIndices_length]

/-- Witness of C25: in `bytesHeap` the byte arrays are the entries 4 and 5 of the object table;
`CollectInstances` stores them in the array at 13; and the round of `GCStep` that samples the
byte array at 7, which nothing references, reclaims it. -/
theorem CountInstances_counts_witness :
    instanceIndices bytesHeap (kByteArrayCid : Int) = [4, 5] ∧
    CountInstances bytesHeap (kByteArrayCid : Int) =
      some (instanceIndices bytesHeap (kByteArrayCid : Int)).length ∧
    (∃ h', CollectInstances bytesHeap (kByteArrayCid : Int) 13 =
        some ((instanceIndices bytesHeap (kByteArrayCid : Int)).length, h') ∧
      CountInstances bytesHeap (kByteArrayCid : Int) =
        some (instanceIndices bytesHeap (kByteArrayCid : Int)).length ∧
      (∀ (k i : Nat), (instanceIndices bytesHeap (kByteArrayCid : Int))[k]? = some i →
        Array.element h' 13 k = some (bytesHeap.table_ i)) ∧
      (∀ r, (∀ k, k < (instanceIndices bytesHeap (kByteArrayCid : Int)).length →
        r ≠ .slot 13 k) → Ref_to h' r = Ref_to bytesHeap r) ∧
      h'.table_ = bytesHeap.table_ ∧ h'.table_size_ = bytesHeap.table_size_) ∧
    (∃ h' n, GCStep.round bytesHeap 4 = some h' ∧ ¬ InTable h' 7 ∧
      CountInstances bytesHeap (kByteArrayCid : Int) = some (n + 1) ∧
      CountInstances h' (kByteArrayCid : Int) = some n) :=
  ⟨by decide,
    CountInstances_counts.1 bytesHeap (kByteArrayCid : Int) (WellFormed_of_check (by decide)).1,
    CountInstances_counts.2.1 bytesHeap (kByteArrayCid : Int) 13
      (Layout.sample kArrayCid 7 [.root 4] [0, 0]) (WellFormed_of_check (by decide)).1
      (by rfl) (by decide),
    CountInstances_counts.2.2 bytesHeap 4 7 (Layout.sample kByteArrayCid 4 [] [])
      (Collectable_of_check (by decide)) (by decide) (by rfl) (by rfl) (by rfl) (by rfl)
      (by decide) (by decide)⟩

end psoup


namespace psoup

theorem toUwordOf_cases (bits : Nat) (v : Int) (hlo : -2 ^ (bits - 1) ≤ v)
    (hhi : v < 2 ^ (bits - 1)) (hb : 1 ≤ bits) :
    (0 ≤ v ∧ (toUwordOf bits v : Int) = v) ∨
      (v < 0 ∧ (toUwordOf bits v : Int) = v + 2 ^ bits) := by
  unfold toUwordOf
  have hpos : (0 : Int) < 2 ^ bits := by positivity
  have hnn : 0 ≤ v % (2 : Int) ^ bits := Int.emod_nonneg _ (ne_of_gt hpos)
  rw [Int.toNat_of_nonneg hnn]
  have h2 : (2 : Int) ^ bits = 2 * 2 ^ (bits - 1) := by
    obtain ⟨k, rfl⟩ : ∃ k, bits = k + 1 := ⟨bits - 1, by omega⟩
    simp [pow_succ, mul_comm]
  have hp1 : (0 : Int) < 2 ^ (bits - 1) := by positivity
  by_cases hv : 0 ≤ v
  · left
    refine ⟨hv, Int.emod_eq_of_lt hv (by omega)⟩
  · right
    refine ⟨by omega, ?_⟩
    have h1 : (v + 2 ^ bits) % (2 : Int) ^ bits = v + 2 ^ bits :=
      Int.emod_eq_of_lt (by omega) (by omega)
    rw [← h1, Int.add_emod_self]

theorem testBit_top (n k : Nat) (hn : n < 2 ^ (k + 1)) : n.testBit k = decide (2 ^ k ≤ n) := by
  rw [Nat.testBit_to_div_mod]
  have hp : 0 < 2 ^ k := by positivity
  by_cases h : 2 ^ k ≤ n
  · have h1 : n / 2 ^ k = 1 := by
      apply Nat.div_eq_of_lt_le
      · simpa using h
      · simpa [pow_succ, mul_comm] using hn
    simp [h1, h]
  · have h1 : n / 2 ^ k = 0 := Nat.div_eq_of_lt (by omega)
    simp [h1, h]

end psoup

namespace psoup

theorem word_powers (bits : Nat) (hb : 2 ≤ bits) :
    ∃ p : Nat, 0 < p ∧ 2 ^ (bits - 2) = p ∧ 2 ^ (bits - 1) = 2 * p ∧ 2 ^ bits = 4 * p := by
  obtain ⟨k, rfl⟩ : ∃ k, bits = k + 2 := ⟨bits - 2, by omega⟩
  refine ⟨2 ^ k, by positivity, by simp, ?_, ?_⟩
  · show 2 ^ (k + 1) = 2 * 2 ^ k
    rw [pow_succ]; ring
  · rw [pow_succ, pow_succ]; ring

theorem toIntptrOf_eq (bits p w : Nat) (h2 : 2 ^ (bits - 1) = 2 * p) (h4 : 2 ^ bits = 4 * p)
    (hw : w < 4 * p) :
    toIntptrOf bits w = if w < 2 * p then (w : Int) else (w : Int) - 4 * (p : Int) := by
  unfold toIntptrOf
  have h4i : (2 : Int) ^ bits = 4 * (p : Int) := by exact_mod_cast h4
  rw [h4, h2, h4i, Nat.mod_eq_of_lt hw]

theorem shift_mod_eq (u p : Nat) (hu : u < 4 * p) :
    u * 2 ^ 1 % (4 * p) = if u < 2 * p then u * 2 else u * 2 - 4 * p := by
  split_ifs with h
  · rw [pow_one]; exact Nat.mod_eq_of_lt (by omega)
  · rw [pow_one, Nat.mod_eq_sub_mod (by omega)]
    exact Nat.mod_eq_of_lt (by omega)

end psoup

namespace psoup

theorem toUwordOf_one (bits p : Nat) (hp : 0 < p) (h4 : 2 ^ bits = 4 * p) :
    toUwordOf bits 1 = 1 := by
  unfold toUwordOf
  have h4i : (2 : Int) ^ bits = 4 * (p : Int) := by exact_mod_cast h4
  rw [h4i, Int.emod_eq_of_lt (by omega) (by omega)]
  rfl

theorem kMinValueOf_eq (bits p : Nat) (hp : 0 < p) (h1 : 2 ^ (bits - 2) = p)
    (h2 : 2 ^ (bits - 1) = 2 * p) (h4 : 2 ^ bits = 4 * p) :
    SmallInteger.kMinValueOf bits = -(p : Int) ∧ SmallInteger.kMaxValueOf bits = (p : Int) - 1 := by
  unfold SmallInteger.kMinValueOf SmallInteger.kMaxValueOf
  rw [toUwordOf_one bits p hp h4, h1, one_mul, toIntptrOf_eq bits p p h2 h4 (by omega),
    if_pos (by omega)]
  exact ⟨rfl, rfl⟩

theorem IsSmiValue_cases (bits p : Nat) (value : Int) (hp : 0 < p)
    (h2 : 2 ^ (bits - 1) = 2 * p) (h4 : 2 ^ bits = 4 * p)
    (hlo : -(2 * (p : Int)) ≤ value) (hhi : value < 2 * (p : Int)) :
    (SmallInteger.IsSmiValue bits value = true ↔ -(p : Int) ≤ value ∧ value ≤ (p : Int) - 1) ∧
    (src.SmallInteger.IsSmiValue_intptr bits value = true ↔
      -(p : Int) ≤ value ∧ value ≤ (p : Int) - 1) := by
  have h2i : (2 : Int) ^ (bits - 1) = 2 * (p : Int) := by exact_mod_cast h2
  have h4i : (2 : Int) ^ bits = 4 * (p : Int) := by exact_mod_cast h4
  have hb : 1 ≤ bits := by
    rcases Nat.eq_zero_or_pos bits with h0 | h0
    · subst h0; simp at h4; omega
    · exact h0
  have hcases := toUwordOf_cases bits value (by rw [h2i]; exact hlo) (by rw [h2i]; exact hhi) hb
  rw [h4i] at hcases
  generalize hu : toUwordOf bits value = u at hcases
  have hu4 : u < 4 * p := by omega
  have hs := shift_mod_eq u p hu4
  have hs4 : u * 2 ^ 1 % (4 * p) < 4 * p := Nat.mod_lt _ (by omega)
  constructor
  · unfold SmallInteger.IsSmiValue
    simp only [hu, decide_eq_true_eq, kSmiTagShift]
    unfold toIntptrOf
    rw [h4, h2, h4i, hs]
    split_ifs <;> omega
  · unfold src.SmallInteger.IsSmiValue_intptr
    simp only [hu, decide_eq_true_eq, ge_iff_le]
    rw [h4]
    generalize hsv : u * 2 ^ 1 % (4 * p) = s at hs hs4
    have hx4 : u ^^^ s < 2 ^ bits := Nat.xor_lt_two_pow (by omega) (by omega)
    have hk : bits - 1 + 1 = bits := by omega
    have hbit : (u ^^^ s).testBit (bits - 1) = xor (u.testBit (bits - 1)) (s.testBit (bits - 1)) :=
      Nat.testBit_xor _ _ _
    rw [testBit_top _ _ (by rw [hk]; exact hx4), testBit_top u _ (by rw [hk]; omega),
      testBit_top s _ (by rw [hk]; omega), h2] at hbit
    rw [h4] at hx4
    rw [toIntptrOf_eq bits p _ h2 h4 hx4]
    generalize hxv : u ^^^ s = x at hbit hx4
    by_cases hx : 2 * p ≤ x <;> by_cases hu2 : 2 * p ≤ u <;> by_cases hs2 : 2 * p ≤ s <;>
      simp [hx, hu2, hs2] at hbit <;> split_ifs at hs ⊢ <;> omega

end psoup

namespace psoup

/-- C40: `SmallInteger::IsSmiValue(intptr_t)` of `vm/object.h`, the round trip through the tag
shift, is true exactly for the values from `kMinValue` to `kMaxValue`; so for every value that
fits a word it agrees with the two implementations of `src/vm/object.h`, the comparison with
`kMinValue` and `kMaxValue` and the test `(value ^ (value << 1)) >= 0` of the top two bits.
This holds for every word width of at least two bits, so for the 32-bit and the 64-bit build;
at `kBitsPerWord` the bounds are `SmallInteger::kMinValue` and `SmallInteger::kMaxValue` and
the test says that `SmallInteger::New` followed by `value()` gives the value back. -/
theorem IsSmiValue_agrees (bits : Nat) (value : Int) (hb : 2 ≤ bits)
    (hlo : -(2 : Int) ^ (bits - 1) ≤ value) (hhi : value < (2 : Int) ^ (bits - 1)) :
    (SmallInteger.IsSmiValue bits value = true ↔
      SmallInteger.kMinValueOf bits ≤ value ∧ value ≤ SmallInteger.kMaxValueOf bits) ∧
    SmallInteger.IsSmiValue bits value = src.SmallInteger.IsSmiValue bits value ∧
    SmallInteger.IsSmiValue bits value = src.SmallInteger.IsSmiValue_intptr bits value ∧
    SmallInteger.kMinValueOf kBitsPerWord = SmallInteger.kMinValue ∧
    SmallInteger.kMaxValueOf kBitsPerWord = SmallInteger.kMaxValue ∧
    (bits = kBitsPerWord →
      (SmallInteger.IsSmiValue bits value = true ↔
        SmallInteger.value (SmallInteger.New value) = value)) := by
  obtain ⟨p, hp, h1, h2, h4⟩ := word_powers bits hb
  have h2i : (2 : Int) ^ (bits - 1) = 2 * (p : Int) := by exact_mod_cast h2
  rw [h2i] at hlo hhi
  obtain ⟨hmin, hmax⟩ := kMinValueOf_eq bits p hp h1 h2 h4
  obtain ⟨hshift, htop⟩ := IsSmiValue_cases bits p value hp h2 h4 hlo hhi
  have hrange : src.SmallInteger.IsSmiValue bits value = true ↔
      -(p : Int) ≤ value ∧ value ≤ (p : Int) - 1 := by
    unfold src.SmallInteger.IsSmiValue
    rw [hmin, hmax]
    simp
  refine ⟨by rw [hmin, hmax]; exact hshift, ?_, ?_, by decide, by decide, ?_⟩
  · exact Bool.eq_iff_iff.2 (hshift.trans hrange.symm)
  · exact Bool.eq_iff_iff.2 (hshift.trans htop.symm)
  · intro hw
    subst hw
    unfold SmallInteger.IsSmiValue
    simp only [decide_eq_true_eq]
    show toIntptrOf 64 (toUwordOf 64 value * 2 ^ 1) / (2 : Int) ^ 1 = value ↔
      toIntptr (toUword value * 2 ^ 1 % 2 ^ 64) / (2 : Int) ^ 1 = value
    have he : toIntptrOf 64 (toUwordOf 64 value * 2 ^ 1) =
        toIntptr (toUword value * 2 ^ 1 % 2 ^ 64) := by
      unfold toIntptrOf toIntptr toUwordOf toUword
      simp only [Nat.mod_mod]
    rw [he]

/-- Witness of C40: in the 64-bit build the three tests accept `kMinValue = -2^62` and reject
`2^62`, the first value above `kMaxValue`; in the 32-bit build they accept `kMaxValue =
2^30 - 1`. -/
theorem IsSmiValue_agrees_witness :
    (SmallInteger.IsSmiValue 64 (-2 ^ 62) = true ∧
      src.SmallInteger.IsSmiValue 64 (-2 ^ 62) = true ∧
      src.SmallInteger.IsSmiValue_intptr 64 (-2 ^ 62) = true) ∧
    (SmallInteger.IsSmiValue 64 (2 ^ 62) = false ∧
      src.SmallInteger.IsSmiValue 64 (2 ^ 62) = false ∧
      src.SmallInteger.IsSmiValue_intptr 64 (2 ^ 62) = false) ∧
    (SmallInteger.IsSmiValue 32 (2 ^ 30 - 1) = src.SmallInteger.IsSmiValue 32 (2 ^ 30 - 1) ∧
      SmallInteger.IsSmiValue 32 (2 ^ 30 - 1) =
        src.SmallInteger.IsSmiValue_intptr 32 (2 ^ 30 - 1) ∧
      SmallInteger.IsSmiValue 32 (2 ^ 30 - 1) = true) := by
  have a := IsSmiValue_agrees 64 (-2 ^ 62) (by decide) (by decide) (by decide)
  have b := IsSmiValue_agrees 64 (2 ^ 62) (by decide) (by decide) (by decide)
  have c := IsSmiValue_agrees 32 (2 ^ 30 - 1) (by decide) (by decide) (by decide)
  have ha : SmallInteger.IsSmiValue 64 (-2 ^ 62) = true := a.1.2 ⟨by decide, by decide⟩
  have hb : SmallInteger.IsSmiValue 64 (2 ^ 62) = false := by
    cases hv : SmallInteger.IsSmiValue 64 (2 ^ 62)
    · rfl
    · exact absurd (b.1.1 hv).2 (by decide)
  have hc : SmallInteger.IsSmiValue 32 (2 ^ 30 - 1) = true := c.1.2 ⟨by decide, by decide⟩
  exact ⟨⟨ha, a.2.1 ▸ ha, a.2.2.1 ▸ ha⟩, ⟨hb, b.2.1 ▸ hb, b.2.2.1 ▸ hb⟩, c.2.1, c.2.2.1, hc⟩

end psoup


namespace psoup

/-- C31: `kObjectAlignment` of `vm/object.h` is `4 * kWordSize = 32`, which is not
`1 << kObjectAlignmentLog2 = 16`; the mask is `kObjectAlignment - 1`.  In `src/vm/object.h`
`kObjectAlignment` is `2 * kWordSize`, which is `1 << kObjectAlignmentLog2`.  The size field
counts units of `1 << kObjectAlignmentLog2` bytes: `heap_size()` is sixteen times the size
field, for every object; an object that `HeapObject::Initialize` sets up with the heap size 64
has the size field 4 and `heap_size() == 64`, and not `4 * kObjectAlignment == 128`. -/
theorem kObjectAlignment_not_shift :
    kObjectAlignment = 32 ∧ 1 <<< kObjectAlignmentLog2 = 16 ∧
    kObjectAlignment ≠ 1 <<< kObjectAlignmentLog2 ∧
    kObjectAlignmentMask = kObjectAlignment - 1 ∧
    src.kObjectAlignment = 1 <<< src.kObjectAlignmentLog2 ∧
    src.kObjectAlignmentMask = src.kObjectAlignment - 1 ∧
    src.kObjectAlignmentLog2 = kObjectAlignmentLog2 ∧
    (∀ l : Layout, l.heap_size = l.size_field * (1 <<< kObjectAlignmentLog2)) ∧
    ((Layout.sample kArrayCid 0 [] []).Initialize kArrayCid 64).size_field = 4 ∧
    ((Layout.sample kArrayCid 0 [] []).Initialize kArrayCid 64).heap_size = 64 ∧
    ((Layout.sample kArrayCid 0 [] []).Initialize kArrayCid 64).size_field * kObjectAlignment =
      128 := by
  refine ⟨by decide, by decide, by decide, by decide, by decide, by decide, by decide, ?_,
    by decide, by decide, by decide⟩
  intro l
  show l.size_field <<< 4 = l.size_field * (1 <<< 4)
  rw [Nat.shiftLeft_eq, Nat.shiftLeft_eq, one_mul]

/-- Counterexample to C34: for an activation whose stack depth is 0 the range
`[Activation::from(), Activation::to()]` has 41 Refs and holds `temps_[34]`, the last entry of
the temps vector, which is not among the first `StackDepth()` entries.  (`to()` of
`src/vm/object.h` is `stack_depth_` for this activation.) -/
theorem Activation_range_counterexample :
    Activation.StackDepth (Layout.sampleActivation 4 0) = some 0 ∧
    (RefRange (Activation.from (Layout.sampleActivation 4 0))
      (Activation.to (Layout.sampleActivation 4 0))).length = 41 ∧
    (Activation.temps_index 34).toNat ∈
      RefRange (Activation.from (Layout.sampleActivation 4 0))
        (Activation.to (Layout.sampleActivation 4 0)) ∧
    ¬ ((34 : Int) < 0) ∧
    src.Activation.to (Layout.sampleActivation 4 0) =
      some (Activation.stack_depth_index : Int) := by
  refine ⟨by decide, by decide, by decide, by decide, by decide⟩

/-- C34, amended: for every activation the range `[Activation::from(), Activation::to()]` that
the collector scans is the six fixed Refs (sender, bci, method, closure, receiver, stack depth)
and all `kMaxTemps` entries of the temps vector, whatever `StackDepth()` is: `to()` is
`&temps_[kMaxTemps - 1]`.  It is the range of `HeapObject::Pointers` for an activation, whose
layout has these 41 Refs.  (In `src/vm/object.h` `to()` is `&temps_[stack_depth() - 1]`, and
there the range ends with the first `StackDepth()` entries.) -/
theorem Activation_range_covers_temps (l : Layout) :
    RefRange (Activation.from l) (Activation.to l) = List.range (6 + kMaxTemps) ∧
    (∀ i : Nat, i < 6 → i ∈ RefRange (Activation.from l) (Activation.to l)) ∧
    (∀ i : Nat, i < kMaxTemps →
      (Activation.temps_index (i : Int)).toNat ∈
        RefRange (Activation.from l) (Activation.to l)) ∧
    (l.cid = kActivationCid → l.range = RefRange (Activation.from l) (Activation.to l)) ∧
    (l.cid = kActivationCid → l.refs.length = 6 + kMaxTemps →
      List.range' (Pointers l).1 ((Pointers l).2 - (Pointers l).1) =
        RefRange (Activation.from l) (Activation.to l)) ∧
    (∀ depth : Nat, Activation.StackDepth l = some (depth : Int) →
      ∃ to_, src.Activation.to l = some to_ ∧
        RefRange (Activation.from l) to_ = List.range (6 + depth)) := by
  have hr : RefRange (Activation.from l) (Activation.to l) = List.range (6 + kMaxTemps) := by
    show RefRange 0 40 = List.range 41
    decide
  refine ⟨hr, ?_, ?_, ?_, ?_, ?_⟩
  · intro i hi
    rw [hr, List.mem_range]
    have : kMaxTemps = 35 := rfl
    omega
  · intro i hi
    rw [hr, List.mem_range]
    have h35 : kMaxTemps = 35 := rfl
    unfold Activation.temps_index
    omega
  · intro hc
    unfold Layout.range
    rw [hc]
    rfl
  · intro hc hlen
    have hp : Pointers l = (0, l.refs.length) := by
      unfold Pointers
      rw [if_neg (by rw [hc]; decide)]
    rw [hr, hp, hlen, List.range_eq_range']
    rfl
  · intro depth hd
    refine ⟨Activation.temps_index ((depth : Int) - 1), ?_, ?_⟩
    · unfold src.Activation.to
      rw [hd]
      rfl
    · unfold RefRange Activation.from Activation.temps_index Activation.sender_index
      rw [List.range_eq_range']
      congr 1
      push_cast
      omega

/-- Witness of C34: an activation whose stack depth is 2. -/
theorem Activation_range_covers_temps_witness :
    (Layout.sampleActivation 4 2).cid = kActivationCid ∧
    (Layout.sampleActivation 4 2).refs.length = 6 + kMaxTemps ∧
    Activation.StackDepth (Layout.sampleActivation 4 2) = some ((2 : Nat) : Int) ∧
    (Layout.sampleActivation 4 2).range = List.range 41 ∧
    List.range' (Pointers (Layout.sampleActivation 4 2)).1
      ((Pointers (Layout.sampleActivation 4 2)).2 - (Pointers (Layout.sampleActivation 4 2)).1) =
        List.range 41 ∧
    ∃ to_, src.Activation.to (Layout.sampleActivation 4 2) = some to_ ∧
      RefRange (Activation.from (Layout.sampleActivation 4 2)) to_ = List.range (6 + 2) := by
  have a := Activation_range_covers_temps (Layout.sampleActivation 4 2)
  refine ⟨by decide, by decide, by decide, ?_, ?_, a.2.2.2.2.2 2 (by decide)⟩
  · rw [a.2.2.2.1 (by decide), a.1]
    rfl
  · rw [a.2.2.2.2.1 (by decide) (by decide), a.1]
    rfl

end psoup


namespace psoup

/-- C39: the range `[Ephemeron::from(), Ephemeron::to()]` is `[key_, finalizer_]` and leaves out
`klass_`, which `AllocateRegularObject` threads onto the incoming list of the class.  In
`ephemeronClassHeap`, which satisfies the data-model invariants,
`AllocateRegularObject(kEphemeronCid, 3)` returns the ephemeron at 17; its Ref `klass_` has the
class at 7 as its target and is on the incoming list of the class, and it is not in the range
of the ephemeron (the Refs 1, 2 and 3), which is also the range that `Pointers` gives.  After
key, value and finalizer have been initialised with nil, a round of `GCStep` that samples the
ephemeron frees it, and `klass_`, a Ref without storage, is still on the incoming list of the
class.  The ranges of the other kinds hold every Ref: a regular object with two slots has the
range `klass_`, `slots_[0]`, `slots_[1]`, an array without elements has the empty range and a
closure without copied values has the range of its three fixed Refs. -/
theorem Ephemeron_range_misses_klass :
    checkCollectable ephemeronClassHeap = true ∧
    AllocateRegularObject ephemeronClassHeap kEphemeronCid 3 Allocator.kNormal (0, 0, 0) 16
      rawEphemeron = some ephemeronAllocated ∧
    ephemeronAllocated.1 = 17 ∧
    Ref_to ephemeronAllocated.2 (.slot 17 Ephemeron.klass_index) = some 7 ∧
    RefPtr.slot 17 Ephemeron.klass_index ∈ ephemeronAllocated.2.incomingOf 7 ∧
    (ephemeronAllocated.2.load 17).map Layout.range = some [1, 2, 3] ∧
    (ephemeronAllocated.2.load 17).map
      (fun l => RefRange (Ephemeron.from l) (Ephemeron.to l)) = some [1, 2, 3] ∧
    Ephemeron.klass_index ∉ [1, 2, 3] ∧
    (ephemeronAllocated.2.load 17).map Pointers = some (1, 4) ∧
    checkCollectable ephemeronInitialised = true ∧
    GCStep.round ephemeronInitialised 5 = some ephemeronReclaimed ∧
    ephemeronReclaimed.load 17 = none ∧
    RefPtr.slot 17 Ephemeron.klass_index ∈ ephemeronReclaimed.incomingOf 7 ∧
    Ref_to ephemeronReclaimed (.slot 17 Ephemeron.klass_index) = none ∧
    ((Layout.sample 14 0 [] [7, 1, 1]).Initialize 14
      (AllocationSize (2 * sizeofRef + sizeofRegularObjectLayout))).range = [0, 1, 2] ∧
    (Layout.sample kArrayCid 0 [] []).range = [] ∧
    (Layout.sample kWeakArrayCid 0 [] []).range = [] ∧
    ({ Layout.sample kClosureCid 0 [] [1, 0, 0] with size_ := SmallInteger.New 0 }).range =
      [0, 1, 2] := by
  refine ⟨by decide, by rfl, by decide, by decide, by decide, by decide, by decide, by decide,
    by decide, by decide, by rfl, by decide, by decide, by decide, by decide, by decide,
    by decide, by decide⟩

/-- C37: the precondition of `Free` fails for a closure that holds an ephemeron and its class.
The heap `deadEphemeronHeap` satisfies the data-model invariants; `CheckReachable` of the class
at 7 returns false with the worklist of the class and the ephemeron at 9; after the first loop
of the unreachable branch of `GCStep` has applied `Unlink` to both, the incoming list of the
class still holds the Ref `klass_` of the ephemeron, so it is not empty when `Free` is called
for the class; the incoming list of the ephemeron is empty. -/
theorem Free_precondition_ephemeron_class :
    checkCollectable deadEphemeronHeap = true ∧
    (CheckReachable deadEphemeronHeap 7).map (fun p => (p.1, p.2.worklist_)) =
      some (false, [7, 9]) ∧
    (GCStep.unlink deadEphemeronChecked false deadEphemeronChecked.worklist_).map
      (fun p => p.1.incomingOf 7) = some [RefPtr.slot 9 Ephemeron.klass_index] ∧
    deadEphemeronUnlinked.incomingOf 7 ≠ [] ∧
    deadEphemeronUnlinked.incomingOf 9 = [] ∧
    Ref_to deadEphemeronUnlinked (.slot 9 Ephemeron.klass_index) = some 7 := by
  refine ⟨by decide, by decide, by decide, by decide, by decide, by decide⟩

end psoup


namespace psoup

/-- More fuel does not change a result of the cursor loop of `CheckReachable`. -/
theorem CheckReachable_cursor_fuel : ∀ (fuel : Nat) (h : Heap) (k : Nat) (res : Bool × Heap),
    CheckReachable.cursor fuel h k = some res →
    ∀ n, CheckReachable.cursor (fuel + n) h k = some res := by
  intro fuel
  induction fuel with
  | zero =>
    intro h k res he n
    cases hget : h.worklist_[k]? with
    | none =>
      have h0 : CheckReachable.cursor 0 h k = some (false, h) := by
        simp [CheckReachable.cursor, hget]
      rw [h0] at he
      rw [Nat.zero_add]
      cases n with
      | zero => exact h0.trans he
      | succ m =>
        rw [← he]
        simp [CheckReachable.cursor, hget]
    | some obj =>
      simp [CheckReachable.cursor, hget] at he
  | succ f ih =>
    intro h k res he n
    have hn : f + 1 + n = (f + n) + 1 := by omega
    rw [hn]
    cases hget : h.worklist_[k]? with
    | none =>
      simp only [CheckReachable.cursor, hget] at he ⊢
      exact he
    | some obj =>
      simp only [CheckReachable.cursor, hget] at he ⊢
      by_cases hh : obj ∈ h.handles_
      · rw [if_pos hh] at he ⊢
        exact he
      · rw [if_neg hh] at he ⊢
        rcases hl : h.load obj with _ | o
        · rw [hl] at he; simp at he
        · rw [hl] at he
          simp only [Option.some_bind] at he ⊢
          rcases hw : CheckReachable.incoming h false o.incoming_ with _ | w
          · rw [hw] at he; simp at he
          · rw [hw] at he
            simp only [Option.some_bind] at he ⊢
            cases w with
            | reachable h1 => exact he
            | walked h1 flag =>
              simp only at he ⊢
              rcases h2e : (if flag = true then set_is_weak_referent h1 obj true
                  else some h1) with _ | h2
              · rw [h2e] at he; simp at he
              · rw [h2e] at he
                simp only [Option.some_bind] at he ⊢
                exact ih h2 (k + 1) res he n

/-- C36: `Heap::CheckReachable` returns on every heap that satisfies the data-model
invariants (the incoming lists are duplicate-free lists of Refs of objects of the object table,
all mark bits are clear and the worklist is empty), for every object `c` of the object table.
No object is pushed twice, every worklist entry is an object of the object table and the
marked objects of the table are the worklist entries, so the worklist has at most
`table_size_ - 1` entries at the end, and, entries being appended only, at every time before.
The cursor loop ends by itself: it returns the same result for every bound of at least
`table_size_` on the number of entries that it may process. -/
theorem CheckReachable_terminates (h : Heap) (c : Object) (hwf : WellFormed h)
    (hc : InTable h c) :
    ∃ b h', CheckReachable h c = some (b, h') ∧
      h'.worklist_.Nodup ∧ (∀ x ∈ h'.worklist_, InTable h x) ∧
      (∀ o, InTable h o → (h'.marked o ↔ o ∈ h'.worklist_)) ∧
      h'.worklist_.length ≤ h.table_size_ - 1 ∧
      (¬ (c = h.interpreter_.nil_obj ∨ c = h.interpreter_.true_obj ∨
          c = h.interpreter_.false_obj) →
        ∃ h1, set_is_marked h c true = some h1 ∧
          ∀ fuel, h.table_size_ ≤ fuel →
            CheckReachable.cursor fuel (WorklistPush h1 c) 0 = some (b, h')) := by
  by_cases hs : c = h.interpreter_.nil_obj ∨ c = h.interpreter_.true_obj ∨
      c = h.interpreter_.false_obj
  · obtain ⟨hT, hS, hC, hM⟩ := hwf
    refine ⟨true, h, CheckReachable_singleton hs, ?_, ?_, ?_, ?_, fun hn => absurd hs hn⟩
    · rw [hM.1]; exact List.nodup_nil
    · intro x hx; rw [hM.1] at hx; simp at hx
    · intro o ho
      rw [hM.1]
      simp only [List.not_mem_nil, iff_false]
      rintro ⟨l, hl, hm⟩
      rw [hM.2 o l ho hl] at hm
      simp at hm
    · rw [hM.1]; simp
  have hw := WeaklyFormed_of_WellFormed hwf
  obtain ⟨sf, st, tot⟩ := CheckReachable_spec hw hc hs
  obtain ⟨⟨b, h'⟩, hres⟩ := tot hwf.2.1
  have hst : CheckState h c h' := by
    cases b with
    | true => exact (st h' hres).1
    | false => exact (sf h' hres).1
  have hlen := worklist_length_lt hwf.1 hst.nodup hst.inTable
  refine ⟨b, h', hres, hst.nodup, hst.inTable, hst.marked_iff, by omega, ?_⟩
  intro _
  obtain ⟨l0, hl0, -⟩ := load_of_InTable hwf.1 hc
  refine ⟨_, modify_eq_some.2 ⟨l0, hl0, rfl⟩, ?_⟩
  intro fuel hfuel
  have hstep : CheckReachable h c =
      CheckReachable.cursor h.table_size_
        (WorklistPush (h.store c { l0 with is_marked := true }) c) 0 := by
    have hh1 : set_is_marked h c true = some (h.store c { l0 with is_marked := true }) :=
      modify_eq_some.2 ⟨l0, hl0, rfl⟩
    simp [CheckReachable, hs, hh1]
  rw [hstep] at hres
  have := CheckReachable_cursor_fuel _ _ _ _ hres (fuel - h.table_size_)
  rwa [Nat.add_sub_cancel' hfuel] at this

/-- Witness of C36: `CheckReachable` of the array at 7 of `cycleHeap` walks the cycle and
returns false with the two arrays on the worklist. -/
theorem CheckReachable_terminates_witness :
    WellFormed cycleHeap ∧ InTable cycleHeap 7 ∧
    ∃ b h', CheckReachable cycleHeap 7 = some (b, h') ∧
      h'.worklist_.Nodup ∧ (∀ x ∈ h'.worklist_, InTable cycleHeap x) ∧
      (∀ o, InTable cycleHeap o → (h'.marked o ↔ o ∈ h'.worklist_)) ∧
      h'.worklist_.length ≤ cycleHeap.table_size_ - 1 ∧
      (¬ (7 = cycleHeap.interpreter_.nil_obj ∨ 7 = cycleHeap.interpreter_.true_obj ∨
          7 = cycleHeap.interpreter_.false_obj) →
        ∃ h1, set_is_marked cycleHeap 7 true = some h1 ∧
          ∀ fuel, cycleHeap.table_size_ ≤ fuel →
            CheckReachable.cursor fuel (WorklistPush h1 7) 0 = some (b, h')) :=
  ⟨WellFormed_of_check (by decide), ⟨4, by decide, by decide, rfl⟩,
    CheckReachable_terminates cycleHeap 7 (WellFormed_of_check (by decide))
      ⟨4, by decide, by decide, rfl⟩⟩

end psoup


namespace psoup

/-- The walk over an incoming list in `CheckReachable` appends to the worklist and sets no
weak-referent bit. -/
theorem CheckReachable_incoming_flagged :
    ∀ (rest : List RefPtr) (h : Heap) (w : Bool),
      (∀ h', CheckReachable.incoming h w rest = some (.reachable h') →
        (∃ ex, h'.worklist_ = h.worklist_ ++ ex) ∧ ∀ o, h'.flagged o ↔ h.flagged o) ∧
      (∀ h' w', CheckReachable.incoming h w rest = some (.walked h' w') →
        (∃ ex, h'.worklist_ = h.worklist_ ++ ex) ∧ ∀ o, h'.flagged o ↔ h.flagged o) := by
  intro rest
  induction rest with
  | nil =>
    intro h w
    constructor
    · intro h' he
      simp [CheckReachable.incoming] at he
    · intro h' w' he
      simp only [CheckReachable.incoming, Option.some.injEq, IncomingWalk.walked.injEq] at he
      obtain ⟨rfl, -⟩ := he
      exact ⟨⟨[], by simp⟩, fun _ => Iff.rfl⟩
  | cons ref rest ih =>
    intro h w
    have key : ∀ res, CheckReachable.incoming h w (ref :: rest) = some res →
        (res = .reachable h) ∨
        (∃ w1, CheckReachable.incoming h w1 rest = some res) ∨
        (∃ h1, set_is_marked h (Ref_from ref) true = some h1 ∧
          CheckReachable.incoming (WorklistPush h1 (Ref_from ref)) w rest = some res) := by
      intro res he
      simp only [CheckReachable.incoming, Option.bind_eq_some] at he
      obtain ⟨t, -, he⟩ := he
      by_cases hn : Ref_from ref = nullptr
      · rw [if_pos hn] at he
        exact Or.inl (Option.some.inj he).symm
      · rw [if_neg hn] at he
        simp only [Option.bind_eq_some] at he
        obtain ⟨s, -, he⟩ := he
        by_cases hw : s.cid = kWeakArrayCid
        · rw [if_pos hw] at he
          exact Or.inr (Or.inl ⟨true, he⟩)
        · rw [if_neg hw] at he
          by_cases hm : s.is_marked = false
          · rw [if_pos hm] at he
            simp only [Option.bind_eq_some] at he
            obtain ⟨h1, hh1, he⟩ := he
            exact Or.inr (Or.inr ⟨h1, hh1, he⟩)
          · rw [if_neg hm] at he
            exact Or.inr (Or.inl ⟨w, he⟩)
    have push : ∀ (h1 h' : Heap), set_is_marked h (Ref_from ref) true = some h1 →
        ((∃ ex, h'.worklist_ = (WorklistPush h1 (Ref_from ref)).worklist_ ++ ex) ∧
          ∀ o, h'.flagged o ↔ (WorklistPush h1 (Ref_from ref)).flagged o) →
        (∃ ex, h'.worklist_ = h.worklist_ ++ ex) ∧ ∀ o, h'.flagged o ↔ h.flagged o := by
      intro h1 h' hh1 hres
      obtain ⟨⟨ex, hex⟩, hfl⟩ := hres
      obtain ⟨-, hw1, -, -⟩ := set_is_marked_eq_some hh1
      refine ⟨⟨Ref_from ref :: ex, ?_⟩, ?_⟩
      · rw [hex]
        show (h1.worklist_ ++ [Ref_from ref]) ++ ex = _
        rw [hw1]; simp
      · intro o
        rw [hfl o]
        exact flagged_set_is_marked hh1 o
    constructor
    · intro h' he
      rcases key _ he with hr | ⟨w1, hr⟩ | ⟨h1, hh1, hr⟩
      · cases hr
        exact ⟨⟨[], by simp⟩, fun _ => Iff.rfl⟩
      · exact (ih h w1).1 h' hr
      · exact push h1 h' hh1 ((ih _ w).1 h' hr)
    · intro h' w' he
      rcases key _ he with hr | ⟨w1, hr⟩ | ⟨h1, hh1, hr⟩
      · cases hr
      · exact (ih h w1).2 h' w' hr
      · exact push h1 h' hh1 ((ih _ w).2 h' w' hr)

/-- The cursor loop of `CheckReachable` appends to the worklist and sets the weak-referent bit
of worklist entries only. -/
theorem CheckReachable_cursor_flagged : ∀ (fuel : Nat) (h : Heap) (k : Nat) (b : Bool)
    (h' : Heap), CheckReachable.cursor fuel h k = some (b, h') →
    (∃ ex, h'.worklist_ = h.worklist_ ++ ex) ∧
    ∀ o, h'.flagged o → h.flagged o ∨ o ∈ h'.worklist_ := by
  intro fuel
  induction fuel with
  | zero =>
    intro h k b h' he
    rcases hget : h.worklist_[k]? with _ | obj
    · simp only [CheckReachable.cursor, hget, Option.some.injEq, Prod.mk.injEq] at he
      obtain ⟨-, rfl⟩ := he
      exact ⟨⟨[], by simp⟩, fun o ho => Or.inl ho⟩
    · simp [CheckReachable.cursor, hget] at he
  | succ f ih =>
    intro h k b h' he
    rcases hget : h.worklist_[k]? with _ | obj
    · simp only [CheckReachable.cursor, hget, Option.some.injEq, Prod.mk.injEq] at he
      obtain ⟨-, rfl⟩ := he
      exact ⟨⟨[], by simp⟩, fun o ho => Or.inl ho⟩
    · simp only [CheckReachable.cursor, hget] at he
      by_cases hh : obj ∈ h.handles_
      · rw [if_pos hh] at he
        simp only [Option.some.injEq, Prod.mk.injEq] at he
        obtain ⟨-, rfl⟩ := he
        exact ⟨⟨[], by simp⟩, fun o ho => Or.inl ho⟩
      · rw [if_neg hh] at he
        simp only [Option.bind_eq_some] at he
        obtain ⟨o1, -, w, hw, he⟩ := he
        cases w with
        | reachable h1 =>
          simp only [Option.some.injEq, Prod.mk.injEq] at he
          obtain ⟨-, rfl⟩ := he
          obtain ⟨hex, hfl⟩ := (CheckReachable_incoming_flagged _ h false).1 _ hw
          exact ⟨hex, fun o ho => Or.inl ((hfl o).1 ho)⟩
        | walked h1 flag =>
          simp only [Option.bind_eq_some] at he
          obtain ⟨h2, hh2, he⟩ := he
          obtain ⟨⟨ex1, hex1⟩, hfl1⟩ := (CheckReachable_incoming_flagged _ h false).2 _ _ hw
          obtain ⟨⟨ex2, hex2⟩, hfl2⟩ := ih h2 (k + 1) b h' he
          have hobj : obj ∈ h.worklist_ := List.getElem?_mem hget
          have h2w : h2.worklist_ = h1.worklist_ ∧
              ∀ o, h2.flagged o → h1.flagged o ∨ o = obj := by
            by_cases hf : flag = true
            · rw [if_pos hf] at hh2
              obtain ⟨-, hw2, ⟨l, hl, hl2⟩, hother⟩ := set_is_weak_referent_eq_some hh2
              refine ⟨hw2, ?_⟩
              intro o ho
              by_cases hoo : o = obj
              · exact Or.inr hoo
              · left
                unfold Heap.flagged at ho ⊢
                rwa [hother o hoo] at ho
            · rw [if_neg hf] at hh2
              cases hh2
              exact ⟨rfl, fun o ho => Or.inl ho⟩
          refine ⟨⟨ex1 ++ ex2, by rw [hex2, h2w.1, hex1]; simp⟩, ?_⟩
          intro o ho
          rcases hfl2 o ho with h2f | h2m
          · rcases h2w.2 o h2f with h1f | rfl
            · exact Or.inl ((hfl1 o).1 h1f)
            · right
              rw [hex2, h2w.1, hex1]
              simp [hobj]
          · exact Or.inr h2m

/-- `CheckReachable` sets the weak-referent bit of worklist entries only. -/
theorem CheckReachable_flagged {h h' : Heap} {c : Object} {b : Bool}
    (he : CheckReachable h c = some (b, h')) :
    ∀ o, h'.flagged o → h.flagged o ∨ o ∈ h'.worklist_ := by
  unfold CheckReachable at he
  by_cases hs : c = h.interpreter_.nil_obj ∨ c = h.interpreter_.true_obj ∨
      c = h.interpreter_.false_obj
  · rw [if_pos hs] at he
    simp only [Option.some.injEq, Prod.mk.injEq] at he
    obtain ⟨-, rfl⟩ := he
    exact fun o ho => Or.inl ho
  · rw [if_neg hs] at he
    simp only [Option.bind_eq_some] at he
    obtain ⟨h1, hh1, he⟩ := he
    obtain ⟨-, hfl⟩ := CheckReachable_cursor_flagged _ _ _ _ _ he
    intro o ho
    rcases hfl o ho with h1f | hm
    · left
      have : h1.flagged o := h1f
      exact (flagged_set_is_marked hh1 o).1 this
    · exact Or.inr hm

/-- A round of `GCStep` leaves no weak-referent bit behind. -/
theorem GCStep_round_bits {h h' : Heap} (hwf : WeaklyFormed h) (hb : WeakBitsClear h)
    {random : Nat} (he : GCStep.round h random = some h') : WeakBitsClear h' := by
  unfold GCStep.round at he
  by_cases hz : h.table_size_ = 0
  · rw [if_pos hz] at he; cases he
  rw [if_neg hz] at he
  simp only at he
  by_cases hi : random % h.table_size_ = 0
  · rw [if_pos hi] at he
    cases he
    exact hb
  rw [if_neg hi] at he
  simp only [Option.bind_eq_some, Option.map_eq_some'] at he
  obtain ⟨⟨b, h1⟩, hcr, h4, hbr, rfl⟩ := he
  have hcT : InTable h (h.table_ (random % h.table_size_)) :=
    ⟨_, by omega, Nat.mod_lt _ (by omega), rfl⟩
  have hflag := CheckReachable_flagged hcr
  have hclean : ∀ o l1, InTable h o → o ∉ h1.worklist_ → h1.load o = some l1 →
      l1.is_weak_referent = false := by
    intro o l1 ho hoW hl1
    cases hm : l1.is_weak_referent
    · rfl
    · rcases hflag o ⟨l1, hl1, hm⟩ with ⟨l, hl, hlf⟩ | hw
      · rw [hb o l ho hl] at hlf
        cases hlf
      · exact absurd hw hoW
  by_cases hsing : h.table_ (random % h.table_size_) = h.interpreter_.nil_obj ∨
      h.table_ (random % h.table_size_) = h.interpreter_.true_obj ∨
      h.table_ (random % h.table_size_) = h.interpreter_.false_obj
  · rw [CheckReachable_singleton hsing] at hcr
    cases hcr
    simp only [if_true] at hbr
    rw [hwf.2.2.2.1] at hbr
    simp only [GCStep.unmark, Option.some.injEq] at hbr
    subst hbr
    exact hb
  obtain ⟨sf, st, -⟩ := CheckReachable_spec hwf hcT hsing
  cases b with
  | true =>
    obtain ⟨hs, -⟩ := st h1 hcr
    simp only [if_true] at hbr
    obtain ⟨fu, wu, hu⟩ := GCStep_unmark_spec _ _ _ hbr
    intro o l ho hl
    have hl4 : h4.load o = some l := hl
    obtain ⟨u1, u2⟩ := hu o l hl4
    by_cases hoW : o ∈ h1.worklist_
    · exact (u1 hoW).2
    · have ho0 : InTable h o :=
        (MarkFrame_InTable (MarkFrame_trans hs.frame fu) o).1 ho
      exact hclean o l ho0 hoW (u2 hoW)
  | false =>
    obtain ⟨hs, hp, -⟩ := sf h1 hcr
    simp only [Bool.false_eq_true, if_false] at hbr
    have hc := ClosureFound_of_CheckReachable hwf hs hp
    obtain ⟨-, t3, -, -, -, -, -, -, -, -, l3⟩ := GCStep_reclaim_spec hc hbr
    intro o l ho hl
    have ho4 : InTable h4 o := ho
    have hl4 : h4.load o = some l := hl
    obtain ⟨ho1, hoW⟩ := (t3 o).1 ho4
    obtain ⟨l1, hl1, -⟩ := load_of_InTable hc.table ho1
    obtain ⟨l', hl', hsame, -⟩ := l3 o l1 hoW hl1
    rw [hl4] at hl'
    cases hl'
    rw [((SameButRefs_iff l1 l).1 hsame).2.1]
    exact hclean o l1 ((MarkFrame_InTable hs.frame o).1 ho1) hoW hl1

end psoup


namespace psoup

/-- C35: `GCStep` leaves no marks behind.  In a heap that satisfies the data-model invariants
(which include that every mark bit is clear and the worklist is empty) and in which every
weak-referent bit is clear, a `GCStep` that returns leaves every object of the object table
with `is_marked() == false` and `is_weak_referent() == false` and leaves the worklist empty;
and the same holds before each of its three rounds, so that `!obj->is_marked()` and
`worklist_size_ == 0`, which `CheckReachable` asserts at its start, hold at every call: a round
whose `CheckReachable` returned true clears the bits of all worklist entries, which are the only
objects whose bits were set, wherever the walk stopped, and a round whose `CheckReachable`
returned false removes the worklist entries from the object table. -/
theorem GCStep_leaves_no_marks (h h' : Heap) (random0 random1 random2 : Nat)
    (hwf : WellFormed h) (hb : WeakBitsClear h)
    (he : GCStep h random0 random1 random2 = some h') :
    (MarksClear h' ∧ WeakBitsClear h' ∧ h'.worklist_ = []) ∧
    ∃ h1 h2, GCStep.round h random0 = some h1 ∧ GCStep.round h1 random1 = some h2 ∧
      (GCStep.round h2 random2).map (fun h3 => { h3 with gc_count_ := h3.gc_count_ + 1 }) =
        some h' ∧
      (MarksClear h ∧ WeakBitsClear h ∧ h.worklist_ = []) ∧
      (MarksClear h1 ∧ WeakBitsClear h1 ∧ h1.worklist_ = []) ∧
      (MarksClear h2 ∧ WeakBitsClear h2 ∧ h2.worklist_ = []) := by
  unfold GCStep at he
  simp only [Option.bind_eq_some, Option.map_eq_some'] at he
  obtain ⟨h1, e1, h2, e2, h3, e3, rfl⟩ := he
  have w0 := WeaklyFormed_of_WellFormed hwf
  have w1 := (GCStep_round_spec w0 e1).1
  have b1 := GCStep_round_bits w0 hb e1
  have w2 := (GCStep_round_spec w1 e2).1
  have b2 := GCStep_round_bits w1 b1 e2
  have w3 := (GCStep_round_spec w2 e3).1
  have b3 := GCStep_round_bits w2 b2 e3
  refine ⟨⟨⟨w3.2.2.2.1, ?_⟩, ?_, w3.2.2.2.1⟩, h1, h2, e1, e2, by rw [e3]; rfl,
    ⟨w0.2.2.2, hb, w0.2.2.2.1⟩, ⟨w1.2.2.2, b1, w1.2.2.2.1⟩, ⟨w2.2.2.2, b2, w2.2.2.2.1⟩⟩
  · intro o l ho hl
    exact w3.2.2.2.2 o l ho hl
  · intro o l ho hl
    exact b3 o l ho hl

/-- Witness of C35: in `midListHeap` the first round samples `T`, whose walk sets the
weak-referent bit of `T`, marks `T`, `A` and `B`, and returns true at the root Ref in the middle
of the incoming list of `A`; the second round reclaims `D`.  No bit is set afterwards. -/
theorem GCStep_leaves_no_marks_witness :
    (CheckReachable midListHeap 7).map (fun p => (p.1, p.2.worklist_,
      (p.2.load 7).map (fun l => (l.is_marked, l.is_weak_referent)),
      (p.2.load 13).map (fun l => l.is_marked))) =
        some (true, [7, 11, 13], some (true, true), some true) ∧
    GCStep midListHeap 4 8 0 = some midListHeapCollected ∧
    midListHeapCollected.table_size_ = 8 ∧
    MarksClear midListHeapCollected ∧ WeakBitsClear midListHeapCollected ∧
    midListHeapCollected.worklist_ = [] :=
  ⟨by decide, by rfl, by decide,
    (GCStep_leaves_no_marks midListHeap midListHeapCollected 4 8 0
      (WellFormed_of_check (by decide)) (WeakBitsClear_of_check (by decide)) (by rfl)).1⟩

end psoup


namespace psoup

theorem Respects_SameWeakBit : Respects Layout.SameWeakBit ∧
    RespectsHeader Layout.SameWeakBit ∧ RespectsCid Layout.SameWeakBit := by
  refine ⟨⟨fun _ => rfl, fun a b c h1 h2 => ?_, fun r t v o l => rfl⟩,
    ⟨fun _ _ => rfl, fun _ _ => rfl⟩, fun _ _ => rfl⟩
  unfold Layout.SameWeakBit at *
  rw [h2, h1]

/-- The weak-referent bits stay clear when every object of the object table afterwards was in
the object table before, lies outside `X`, and has kept its bit. -/
theorem WeakBitsClear_of_Kept {X : Object → Prop} {h h' : Heap}
    (hk : Kept X Layout.SameWeakBit h h')
    (ht : ∀ o, InTable h' o → InTable h o ∧ ¬ X o) (hb : WeakBitsClear h) :
    WeakBitsClear h' := by
  intro o l' ho hl'
  obtain ⟨ho0, hx⟩ := ht o ho
  obtain ⟨l, hl, hp⟩ := hk o l' hx hl'
  have hp' : l'.is_weak_referent = l.is_weak_referent := hp
  rw [hp']
  exact hb o l ho0 hl

/-- A slot write sets no weak-referent bit. -/
theorem WeakBitsClear_Update {h h' : Heap} {r : RefPtr} {source v : Object}
    (hb : WeakBitsClear h) (he : Update h r source v = some h') : WeakBitsClear h' := by
  have hu : UpdateNoCheck h r v = some h' := he
  refine WeakBitsClear_of_Kept (X := fun _ => False)
    (Kept_UpdateNoCheck Respects_SameWeakBit.1 hu) ?_ hb
  obtain ⟨t, -, -, -, rfl⟩ := UpdateNoCheck_eq_some.1 hu
  exact fun o ho => ⟨ho, fun hf => hf⟩

/-- `GCStep` leaves no weak-referent bit behind. -/
theorem WeakBitsClear_GCStep {h h' : Heap} (hwf : WeaklyFormed h) (hb : WeakBitsClear h)
    {random0 random1 random2 : Nat} (he : GCStep h random0 random1 random2 = some h') :
    WeakBitsClear h' := by
  unfold GCStep at he
  simp only [Option.bind_eq_some, Option.map_eq_some'] at he
  obtain ⟨h1, e1, h2, e2, h3, e3, rfl⟩ := he
  have w1 := (GCStep_round_spec hwf e1).1
  have b1 := GCStep_round_bits hwf hb e1
  have w2 := (GCStep_round_spec w1 e2).1
  have b2 := GCStep_round_bits w1 b1 e2
  have b3 := GCStep_round_bits w2 b2 e3
  intro o l ho hl
  exact b3 o l ho hl

/-- The statements that the allocators share leave the weak-referent bits clear: the bit of the
new object is cleared by `HeapObject::Initialize`. -/
theorem WeakBitsClear_AllocateObject {h h' : Heap} {cid heap_size : Nat}
    {allocator : Allocator} {random : Nat × Nat × Nat} {addr : Nat} {raw : Layout}
    {obj : Object} (hwf : WeaklyFormed h) (hb : WeakBitsClear h)
    (he : AllocateObject h cid heap_size allocator random addr raw = some (obj, h')) :
    WeakBitsClear h' := by
  obtain ⟨h0, hgc, -, -, -, -, ht, hs, -, -, -, hload⟩ := AllocateObject_spec he
  have hw0 : WeaklyFormed h0 ∧ WeakBitsClear h0 := by
    by_cases ha : allocator ≠ Allocator.kSnapshot
    · rw [if_pos ha] at hgc
      exact ⟨(GCStep_Kept (X := fun _ => False) Respects_SameHash.1 Respects_SameHash.2.1
        Respects_SameHash.2.2.1 hwf hgc).2.1, WeakBitsClear_GCStep hwf hb hgc⟩
    · rw [if_neg ha] at hgc
      cases hgc
      exact ⟨hwf, hb⟩
  intro o l ho hl
  rw [hload o] at hl
  by_cases hoo : o = obj
  · rw [if_pos hoo] at hl
    cases hl
    rfl
  · rw [if_neg hoo] at hl
    rcases (InTable_RegisterInstance ht hs hw0.1.1.1 o).1 ho with h1 | h1
    · exact hw0.2 o l h1 hl
    · exact absurd h1 hoo

end psoup


namespace psoup

/-- `init_size` keeps the weak-referent bits clear. -/
theorem WeakBitsClear_init_size {h h' : Heap} {obj s : Object} (hb : WeakBitsClear h)
    (he : init_size h obj s = some h') : WeakBitsClear h' := by
  have hm : h.modify obj (fun l => { l with size_ := s }) = some h' := he
  refine WeakBitsClear_of_Kept (X := fun _ => False)
    (Kept_modify Respects_SameWeakBit.1 hm (Or.inr fun _ => rfl)) ?_ hb
  obtain ⟨ht, hs, -⟩ := modify_rest hm
  exact fun o ho => ⟨(InTable_of_frame ht hs o).1 ho, fun hf => hf⟩

/-- An allocation of an object with a length slot keeps the weak-referent bits clear. -/
theorem WeakBitsClear_Sized {h h' : Heap} {cid heap_size : Nat} {allocator : Allocator}
    {random : Nat × Nat × Nat} {addr : Nat} {raw : Layout} {obj s : Object}
    (hwf : WeaklyFormed h) (hb : WeakBitsClear h)
    (he : ((AllocateObject h cid heap_size allocator random addr raw).bind fun p =>
      (init_size p.2 p.1 s).map fun h4 => (p.1, h4)) = some (obj, h')) :
    WeakBitsClear h' := by
  simp only [Option.bind_eq_some, Option.map_eq_some'] at he
  obtain ⟨⟨o1, h1⟩, e1, h4, e4, hp⟩ := he
  cases hp
  exact WeakBitsClear_init_size (WeakBitsClear_AllocateObject hwf hb e1) e4

/-- `BecomeForward` sets no weak-referent bit. -/
theorem WeakBitsClear_BecomeForward {h h' : Heap} {old neu : Object} {lo ln : Layout}
    {b : Bool} (hT : TableInv h) (hwb : WeakBitsClear h)
    (hlo : h.load old = some lo) (hln : h.load neu = some ln)
    (hso : SmallInteger.value lo.size_ = (lo.refs.length : Int))
    (hsn : SmallInteger.value ln.size_ = (ln.refs.length : Int))
    (hnd : lo.refs.Nodup) (hdis : ∀ x ∈ lo.refs, x ∉ ln.refs)
    (hoF : old ∉ lo.refs) (hnF : neu ∉ lo.refs) (hFT : ∀ x ∈ lo.refs, InTable h x)
    (he : BecomeForward h old neu = some (b, h')) : WeakBitsClear h' := by
  cases b with
  | false =>
    rw [BecomeForward_false_eq he]
    exact hwb
  | true =>
    obtain ⟨hP, hH, hC⟩ := Respects_SameWeakBit
    obtain ⟨h1, h2, h3, h4, h5, hlen, e1, hfg, e2, e3, e4, e5, rfl⟩ :=
      BecomeForward_phases hT hwb hlo hln hso hsn hnd hdis hoF hnF hFT he
    have k1 := corpses_Kept_header hP hH hwb hlo hln hnd hdis hoF hnF hFT
      (List.range lo.refs.length) [] h h1 (Forwarding_refl hT _ _)
      (fun i hi => ⟨by simp, List.mem_range.1 hi, hlen ▸ List.mem_range.1 hi⟩)
      (List.nodup_range _) e1
    have hp := Passed_become hP hC e2 e3 e4 e5
    refine WeakBitsClear_of_Kept (Kept_trans hP k1 (Passed_Kept hp _)) ?_ hwb
    intro o ho
    rw [InTable_of_frame hp.table.1 hp.table.2 o, hfg.inTable o, processed_iff] at ho
    exact ho

/-- Counterexample to C32: in `weakWriteHeap`, which satisfies the data-model invariants with
all weak-referent bits clear, the slot write `W.set_element(0, T)` completes and leaves the
object `T`, which is in the object table and is referenced by the slot of the weak array `W`,
with `is_weak_referent() == false`.  A `GCStep` whose rounds sample `T` sets the bit inside
`CheckReachable` and clears it before it returns: afterwards `T` is in the object table, the
slot of `W` still references it, and its bit is clear. -/
theorem weak_referent_bit_counterexample :
    checkWellFormed weakWriteHeap = true ∧ checkWeakBitsClear weakWriteHeap = true ∧
    Update weakWriteHeap (.slot 7 0) 7 9 = some weakWritten ∧
    inTable weakWritten 9 = true ∧ Ref_to weakWritten (.slot 7 0) = some 9 ∧
    (weakWritten.load 7).map (fun l => l.cid) = some kWeakArrayCid ∧
    (weakWritten.load 9).map (fun l => l.is_weak_referent) = some false ∧
    (CheckReachable weakWritten 9).map
      (fun p => (p.1, (p.2.load 9).map (fun l => l.is_weak_referent))) =
        some (true, some true) ∧
    GCStep weakWritten 5 5 5 = some weakWrittenCollected ∧
    inTable weakWrittenCollected 9 = true ∧
    Ref_to weakWrittenCollected (.slot 7 0) = some 9 ∧
    (weakWrittenCollected.load 7).map (fun l => l.cid) = some kWeakArrayCid ∧
    (weakWrittenCollected.load 9).map (fun l => l.is_weak_referent) = some false := by
  refine ⟨by decide, by decide, by rfl, by decide, by decide, by decide, by decide, by decide,
    by rfl, by decide, by decide, by decide, by decide⟩

/-- C32, amended: the weak-referent bit is working state of a round of `GCStep`.  No operation
but `CheckReachable` sets it: in a heap in which no object of the object table has the bit set
(as in a new heap, `HeapObject::Initialize` clearing it), no object of the object table has it
set after a slot write (`Ref::Update`), after a `GCStep`, after an allocation with its
`GCStep` (the statements the allocators share, and `AllocateArray` and `AllocateWeakArray` as
wholes), and after `BecomeForward`, whether or not a slot of a weak array references the
object.  Inside a round, a `CheckReachable` that returns false has set the bit of every worklist
object that has a Ref of a weak array on its incoming list, which is when `Unlink` reads
it. -/
theorem weak_referent_bit_transient :
    (∀ (h h' : Heap) (r : RefPtr) (source v : Object), WeakBitsClear h →
      Update h r source v = some h' → WeakBitsClear h') ∧
    (∀ (h h' : Heap) (random0 random1 random2 : Nat), WellFormed h → WeakBitsClear h →
      GCStep h random0 random1 random2 = some h' → WeakBitsClear h') ∧
    (∀ (h h' : Heap) (cid heap_size : Nat) (allocator : Allocator) (random : Nat × Nat × Nat)
      (addr : Nat) (raw : Layout) (obj : Object), WellFormed h → WeakBitsClear h →
      AllocateObject h cid heap_size allocator random addr raw = some (obj, h') →
      WeakBitsClear h') ∧
    (∀ (h h' : Heap) (num_slots : Nat) (allocator : Allocator) (random : Nat × Nat × Nat)
      (addr : Nat) (raw : Layout) (obj : Object), WellFormed h → WeakBitsClear h →
      (AllocateArray h num_slots allocator random addr raw = some (obj, h') ∨
        AllocateWeakArray h num_slots allocator random addr raw = some (obj, h')) →
      WeakBitsClear h') ∧
    (∀ (h h' : Heap) (old neu : Object) (lo ln : Layout) (b : Bool), TableInv h →
      WeakBitsClear h → h.load old = some lo → h.load neu = some ln →
      SmallInteger.value lo.size_ = (lo.refs.length : Int) →
      SmallInteger.value ln.size_ = (ln.refs.length : Int) →
      lo.refs.Nodup → (∀ x ∈ lo.refs, x ∉ ln.refs) → old ∉ lo.refs → neu ∉ lo.refs →
      (∀ x ∈ lo.refs, InTable h x) → BecomeForward h old neu = some (b, h') →
      WeakBitsClear h') ∧
    (∀ (h h' : Heap) (c : Object), WellFormed h → InTable h c →
      CheckReachable h c = some (false, h') →
      ∀ x ∈ h'.worklist_, (∃ r ∈ h.incomingOf x, HeldByWeakArray h r) → h'.flagged x) := by
  refine ⟨?_, ?_, ?_, ?_, ?_, ?_⟩
  · intro h h' r source v hb he
    exact WeakBitsClear_Update hb he
  · intro h h' random0 random1 random2 hwf hb he
    exact WeakBitsClear_GCStep (WeaklyFormed_of_WellFormed hwf) hb he
  · intro h h' cid heap_size allocator random addr raw obj hwf hb he
    exact WeakBitsClear_AllocateObject (WeaklyFormed_of_WellFormed hwf) hb he
  · intro h h' num_slots allocator random addr raw obj hwf hb he
    rcases he with he | he
    · rw [AllocateArray_decompose] at he
      exact WeakBitsClear_Sized (WeaklyFormed_of_WellFormed hwf) hb he
    · rw [AllocateWeakArray_decompose] at he
      exact WeakBitsClear_Sized (WeaklyFormed_of_WellFormed hwf) hb he
  · intro h h' old neu lo ln b hT hwb hlo hln hso hsn hnd hdis hoF hnF hFT he
    exact WeakBitsClear_BecomeForward hT hwb hlo hln hso hsn hnd hdis hoF hnF hFT he
  · intro h h' c hwf hc he x hx hweak
    have hns : ¬ (c = h.interpreter_.nil_obj ∨ c = h.interpreter_.true_obj ∨
        c = h.interpreter_.false_obj) := by
      intro hs
      rw [CheckReachable_singleton hs] at he
      cases he
    obtain ⟨sf, -, -⟩ := CheckReachable_spec (WeaklyFormed_of_WellFormed hwf) hc hns
    obtain ⟨-, hp, -⟩ := sf h' he
    obtain ⟨j, hj⟩ := List.mem_iff_getElem?.1 hx
    have hjl : j < h'.worklist_.length := by
      by_contra hcon
      rw [List.getElem?_eq_none (by omega)] at hj
      cases hj
    exact (hp j x hjl hj).2.2 hweak

/-- Witness of C32 as amended: the slot write and the `GCStep` of the counterexample, the
become of `[a]` into `[b]` in `becomeHeap`, and the `CheckReachable` of `T` in
`weakStrongHeap`, which returns false with the bit of `T` set. -/
theorem weak_referent_bit_transient_witness :
    WeakBitsClear weakWritten ∧ WeakBitsClear weakWrittenCollected ∧
    WeakBitsClear (becomeResult becomeHeap 13 15).2 ∧
    (9 ∈ weakStrongHeapChecked.worklist_ ∧ weakStrongHeapChecked.flagged 9) := by
  obtain ⟨w1, w2, -, -, w5, w6⟩ := weak_referent_bit_transient
  have b0 : WeakBitsClear weakWriteHeap := WeakBitsClear_of_check (by decide)
  have b1 : WeakBitsClear weakWritten := w1 weakWriteHeap weakWritten (.slot 7 0) 7 9 b0 (by rfl)
  refine ⟨b1, w2 weakWritten weakWrittenCollected 5 5 5 (WellFormed_of_check (by decide)) b1
    (by rfl), ?_, by decide, ?_⟩
  · exact w5 becomeHeap (becomeResult becomeHeap 13 15).2 13 15
      (Layout.sample kArrayCid 7 [.root 4] [7]) (Layout.sample kArrayCid 8 [.root 5] [9]) true
      (WellFormed_of_check (by decide)).1 (WeakBitsClear_of_check (by decide)) (by rfl)
      (by rfl) (by rfl) (by rfl) (by decide) (by decide) (by decide) (by decide)
      (fun x hx => by
        have hx7 : x = 7 := List.mem_singleton.1 hx
        subst hx7
        exact ⟨4, by decide, by decide, rfl⟩) (by rfl)
  · exact w6 weakStrongHeap weakStrongHeapChecked 9 (WellFormed_of_check (by decide))
      ⟨5, by decide, by decide, rfl⟩ (by rfl) 9 (by decide)
      ⟨.slot 7 0, by decide, Layout.sample kWeakArrayCid 4 [.root 3] [9], by rfl, rfl⟩

end psoup


namespace psoup

/-- A round of `GCStep` keeps the storage of an object that is not in the object table. -/
theorem GCStep_round_outside {h h' : Heap} (hwf : WeaklyFormed h) {random : Nat}
    (he : GCStep.round h random = some h') {o : Object} {l : Layout}
    (ho : ¬ InTable h o) (hl : h.load o = some l) :
    ∃ l', h'.load o = some l' ∧ Layout.SameSize l l' := by
  have hex : ∃ l', h'.load o = some l' := by
    unfold GCStep.round at he
    by_cases hz : h.table_size_ = 0
    · rw [if_pos hz] at he; cases he
    rw [if_neg hz] at he
    simp only at he
    by_cases hi : random % h.table_size_ = 0
    · rw [if_pos hi] at he
      cases he
      exact ⟨l, hl⟩
    rw [if_neg hi] at he
    simp only [Option.bind_eq_some, Option.map_eq_some'] at he
    obtain ⟨⟨b, h1⟩, hcr, h4, hbr, rfl⟩ := he
    have hcT : InTable h (h.table_ (random % h.table_size_)) :=
      ⟨_, by omega, Nat.mod_lt _ (by omega), rfl⟩
    show ∃ l', h4.load o = some l'
    by_cases hsing : h.table_ (random % h.table_size_) = h.interpreter_.nil_obj ∨
        h.table_ (random % h.table_size_) = h.interpreter_.true_obj ∨
        h.table_ (random % h.table_size_) = h.interpreter_.false_obj
    · rw [CheckReachable_singleton hsing] at hcr
      cases hcr
      simp only [if_true] at hbr
      rw [hwf.2.2.2.1] at hbr
      simp only [GCStep.unmark, Option.some.injEq] at hbr
      subst hbr
      exact ⟨l, hl⟩
    obtain ⟨sf, st, -⟩ := CheckReachable_spec hwf hcT hsing
    cases b with
    | true =>
      obtain ⟨hs, -⟩ := st h1 hcr
      simp only [if_true] at hbr
      obtain ⟨fu, -, -⟩ := GCStep_unmark_spec _ _ _ hbr
      obtain ⟨l4, hl4, -⟩ := (MarkFrame_load (MarkFrame_trans hs.frame fu) o).1 l hl
      exact ⟨l4, hl4⟩
    | false =>
      obtain ⟨hs, hp, -⟩ := sf h1 hcr
      simp only [Bool.false_eq_true, if_false] at hbr
      have hc := ClosureFound_of_CheckReachable hwf hs hp
      obtain ⟨-, -, -, -, -, -, -, -, -, -, l3⟩ := GCStep_reclaim_spec hc hbr
      obtain ⟨l1, hl1, -⟩ := (MarkFrame_load hs.frame o).1 l hl
      have hoW : o ∉ h1.worklist_ := fun hw => ho (hs.inTable o hw)
      obtain ⟨l', hl', -⟩ := l3 o l1 hoW hl1
      exact ⟨l', hl'⟩
  obtain ⟨l', hl'⟩ := hex
  obtain ⟨hP, hI, hM⟩ := Respects_SameSize
  obtain ⟨l0, hl0, hp⟩ := GCStep_round_Kept (X := fun _ => False) hP hI hM hwf he o l'
    (fun hf => hf) hl'
  rw [hl] at hl0
  cases hl0
  exact ⟨l', hl', hp⟩

/-- A sequence of `GCStep`s keeps the data-model invariants, brings no object into the object
table and keeps the storage of every object that is not in the object table. -/
theorem GCSteps_outside : ∀ (samples : List (Nat × Nat × Nat)) (h h' : Heap),
    WeaklyFormed h → GCSteps h samples = some h' →
    WeaklyFormed h' ∧ ∀ o l, ¬ InTable h o → h.load o = some l →
      ¬ InTable h' o ∧ ∃ l', h'.load o = some l' ∧ Layout.SameSize l l' := by
  intro samples
  induction samples with
  | nil =>
    intro h h' hwf he
    simp only [GCSteps, Option.some.injEq] at he
    subst he
    exact ⟨hwf, fun o l ho hl => ⟨ho, l, hl, Respects_SameSize.1.refl l⟩⟩
  | cons s rest ih =>
    intro h h' hwf he
    simp only [GCSteps, Option.bind_eq_some] at he
    obtain ⟨g, hg, he⟩ := he
    have hstep : WeaklyFormed g ∧ ∀ o l, ¬ InTable h o → h.load o = some l →
        ¬ InTable g o ∧ ∃ l', g.load o = some l' ∧ Layout.SameSize l l' := by
      unfold GCStep at hg
      simp only [Option.bind_eq_some, Option.map_eq_some'] at hg
      obtain ⟨h1, e1, h2, e2, h3, e3, rfl⟩ := hg
      obtain ⟨w1, -, t1, -, -⟩ := GCStep_round_spec hwf e1
      obtain ⟨w2, -, t2, -, -⟩ := GCStep_round_spec w1 e2
      obtain ⟨w3, -, t3, -, -⟩ := GCStep_round_spec w2 e3
      refine ⟨w3, ?_⟩
      intro o l ho hl
      have ho1 : ¬ InTable h1 o := fun hc => ho (t1 o hc)
      have ho2 : ¬ InTable h2 o := fun hc => ho1 (t2 o hc)
      obtain ⟨l1, hl1, s1⟩ := GCStep_round_outside hwf e1 ho hl
      obtain ⟨l2, hl2, s2⟩ := GCStep_round_outside w1 e2 ho1 hl1
      obtain ⟨l3, hl3, s3⟩ := GCStep_round_outside w2 e3 ho2 hl2
      refine ⟨fun hc => ho2 (t3 o hc), l3, hl3, ?_⟩
      exact Respects_SameSize.1.trans _ _ _ (Respects_SameSize.1.trans _ _ _ s1 s2) s3
    obtain ⟨wg, hkeep⟩ := hstep
    obtain ⟨w', hrest⟩ := ih g h' wg he
    refine ⟨w', ?_⟩
    intro o l ho hl
    obtain ⟨hog, lg, hlg, sg⟩ := hkeep o l ho hl
    obtain ⟨ho', l', hl', s'⟩ := hrest o lg hog hlg
    exact ⟨ho', l', hl', Respects_SameSize.1.trans _ _ _ sg s'⟩

/-- Counterexample to C33: after the become of `[a]` into `[b]` in `becomeHeap` has returned
true, the forwarding corpse at `a` (the address 7) is not in the object table, and there is no
sequence of `GCStep` sample choices after which its storage has been released. -/
theorem corpse_reclaimed_counterexample :
    BecomeForward becomeHeap 13 15 = some (true, becomeHeapForwarded) ∧
    (becomeHeapForwarded.load 7).map (fun l => l.cid) = some kForwardingCorpseCid ∧
    inTable becomeHeapForwarded 7 = false ∧
    ¬ ∃ (samples : List (Nat × Nat × Nat)) (h' : Heap),
      GCSteps becomeHeapForwarded samples = some h' ∧ h'.load 7 = none := by
  refine ⟨by rfl, by decide, by decide, ?_⟩
  rintro ⟨samples, h', he, hnone⟩
  have hwf : WeaklyFormed becomeHeapForwarded :=
    WeaklyFormed_of_WellFormed (WellFormed_of_check (by decide))
  have hout : ¬ InTable becomeHeapForwarded 7 := by
    intro hc
    have := (inTable_iff becomeHeapForwarded 7).2 hc
    revert this
    decide
  obtain ⟨-, l', hl', -⟩ := (GCSteps_outside samples _ _ hwf he).2 7 _ hout (by rfl)
  rw [hnone] at hl'
  cases hl'

end psoup


namespace psoup

/-- C33, amended: forwarding corpses are not reclaimed by `GCStep`.  A `BecomeForward` that
returns true leaves every forwarder as a forwarding corpse that has storage and is not in the
object table (`Unlink` without `Free`).  `GCStep` takes its candidates from the object table and
passes to `Free` only worklist objects, which are objects of the object table: in a heap that
satisfies the data-model invariants, an object that has storage and is not in the object table
is not in the object table, and has its storage, class id and `HeapSize()`, after every
sequence of `GCStep`s, whatever the sample choices. -/
theorem corpse_not_reclaimed :
    (∀ (h h1 : Heap) (old neu : Object) (lo ln : Layout), TableInv h → WeakBitsClear h →
      h.load old = some lo → h.load neu = some ln →
      SmallInteger.value lo.size_ = (lo.refs.length : Int) →
      SmallInteger.value ln.size_ = (ln.refs.length : Int) →
      lo.refs.Nodup → (∀ x ∈ lo.refs, x ∉ ln.refs) → old ∉ lo.refs → neu ∉ lo.refs →
      (∀ x ∈ lo.refs, InTable h x) → BecomeForward h old neu = some (true, h1) →
      ∀ (i : Nat) (f y : Object), lo.refs[i]? = some f → ln.refs[i]? = some y →
        ∃ l, h1.load f = some l ∧ l.cid = kForwardingCorpseCid ∧ l.target = y ∧
          ¬ InTable h1 f) ∧
    (∀ (h h' : Heap) (samples : List (Nat × Nat × Nat)) (o : Object) (l : Layout),
      WeaklyFormed h → ¬ InTable h o → h.load o = some l → GCSteps h samples = some h' →
      ¬ InTable h' o ∧ ∃ l', h'.load o = some l' ∧ l'.cid = l.cid ∧
        l'.HeapSize = l.HeapSize) := by
  constructor
  · intro h h1 old neu lo ln hT hwb hlo hln hso hsn hnd hdis hoF hnF hFT he i f y hf hy
    exact BecomeForward_corpse hT hwb hlo hln hso hsn hnd hdis hoF hnF hFT he hf hy
  · intro h h' samples o l hwf ho hl he
    obtain ⟨ho', l', hl', hs⟩ := (GCSteps_outside samples h h' hwf he).2 o l ho hl
    exact ⟨ho', l', hl', hs.2.1, HeapSize_of_SameSize hs⟩

/-- Witness of C33 as amended: the become of `[a]` into `[b]` in `becomeHeap` and two
`GCStep`s of the heap after it, which sample every entry of the object table but two. -/
theorem corpse_not_reclaimed_witness :
    (∃ l, becomeHeapForwarded.load 7 = some l ∧ l.cid = kForwardingCorpseCid ∧ l.target = 9 ∧
      ¬ InTable becomeHeapForwarded 7) ∧
    ∃ h', GCSteps becomeHeapForwarded [(4, 5, 6), (7, 1, 2)] = some h' ∧
      ¬ InTable h' 7 ∧ ∃ l', h'.load 7 = some l' ∧ l'.cid = kForwardingCorpseCid := by
  obtain ⟨w1, w2⟩ := corpse_not_reclaimed
  have c1 := w1 becomeHeap becomeHeapForwarded 13 15
    (Layout.sample kArrayCid 7 [.root 4] [7]) (Layout.sample kArrayCid 8 [.root 5] [9])
    (WellFormed_of_check (by decide)).1 (WeakBitsClear_of_check (by decide)) (by rfl)
    (by rfl) (by rfl) (by rfl) (by decide) (by decide) (by decide) (by decide)
    (fun x hx => by
      have hx7 : x = 7 := List.mem_singleton.1 hx
      subst hx7
      exact ⟨4, by decide, by decide, rfl⟩) (by rfl) 0 7 9 (by rfl) (by rfl)
  refine ⟨c1, (GCSteps becomeHeapForwarded [(4, 5, 6), (7, 1, 2)]).getD becomeHeap, by rfl, ?_⟩
  obtain ⟨l, hl, hcid, -, hout⟩ := c1
  obtain ⟨ho', l', hl', hc', -⟩ := w2 becomeHeapForwarded
    ((GCSteps becomeHeapForwarded [(4, 5, 6), (7, 1, 2)]).getD becomeHeap)
    [(4, 5, 6), (7, 1, 2)] 7 l
    (WeaklyFormed_of_WellFormed (WellFormed_of_check (by decide))) hout hl (by rfl)
  exact ⟨ho', l', hl', hc'.trans hcid⟩

end psoup


namespace psoup

/-- After `MournClassTableForwarded` no entry among those visited is a forwarding corpse. -/
theorem Mourn_loop_no_corpse {is : List Nat} {g g' : Heap}
    (he : MournClassTableForwarded.loop g is = some g') :
    ∀ k ∈ is, IsForwardingCorpse g' (g'.class_table_ k) = some false := by
  obtain ⟨hl, -⟩ := Mourn_loop_frame _ _ _ he
  obtain ⟨-, hk⟩ := Mourn_loop_class_table _ _ _ he
  intro k hmem
  rcases hk k with ⟨a, c⟩ | ⟨a, -⟩
  · rw [a, IsForwardingCorpse_congr hl]
    exact c hmem
  · exact IsForwardingCorpse_of_not_heap a

/-- The entries that `MournClassTableForwarded` releases: the visited class ids whose entry is
a forwarding corpse are chained onto the free list in the order of the visit, each once. -/
theorem Mourn_loop_released : ∀ (is : List Nat) (g g' : Heap), is.Nodup →
    MournClassTableForwarded.loop g is = some g' →
    ReleasedChain g' g.class_table_free_
      ((is.filter fun k => decide (IsForwardingCorpse g (g.class_table_ k) = some true)).map
        Int.ofNat) := by
  intro is
  induction is with
  | nil =>
    intro g g' _ he
    simp only [MournClassTableForwarded.loop, Option.some.injEq] at he
    subst he
    exact rfl
  | cons i rest ih =>
    intro g g' hnd he
    have hni : i ∉ rest := (List.nodup_cons.1 hnd).1
    have hndr : rest.Nodup := (List.nodup_cons.1 hnd).2
    simp only [MournClassTableForwarded.loop, MournClassTableForwarded.step,
      Option.bind_eq_some, Option.map_eq_some'] at he
    obtain ⟨g1, ⟨b, hb, hg1⟩, erest⟩ := he
    have hrec := ih g1 g' hndr erest
    cases b with
    | false =>
      simp only [if_true] at hg1
      subst hg1
      rw [List.filter_cons_of_neg (by simp [hb])]
      exact hrec
    | true =>
      simp only [Bool.true_eq_false, if_false] at hg1
      subst hg1
      rw [List.filter_cons_of_pos (by simp [hb])]
      have hfilter : (rest.filter fun k => decide (IsForwardingCorpse
            { g with class_table_ := Function.update g.class_table_ i
                       (SmallInteger.New g.class_table_free_),
                     class_table_free_ := (i : Int) }
            (Function.update g.class_table_ i (SmallInteger.New g.class_table_free_) k) =
              some true)) =
          rest.filter fun k => decide (IsForwardingCorpse g (g.class_table_ k) = some true) := by
        apply List.filter_congr
        intro k hk
        have hki : k ≠ i := fun hcon => hni (hcon ▸ hk)
        rw [Function.update_noteq hki]
        exact congrArg (fun x => decide (x = some true))
          (IsForwardingCorpse_congr (fun _ => rfl) _)
      have hrec' : ReleasedChain g' (i : Int)
          ((rest.filter fun k =>
            decide (IsForwardingCorpse g (g.class_table_ k) = some true)).map Int.ofNat) := by
        rw [← hfilter]
        exact hrec
      refine ⟨?_, hrec'⟩
      obtain ⟨-, hk⟩ := Mourn_loop_class_table _ _ _ erest
      show g'.class_table_ i = SmallInteger.New g.class_table_free_
      rcases hk i with ⟨a, -⟩ | ⟨-, c⟩
      · rw [a]
        exact Function.update_same _ _ _
      · exfalso
        have hsmi : ¬ IsHeapObject (Function.update g.class_table_ i
            (SmallInteger.New g.class_table_free_) i) := by
          rw [Function.update_same]
          exact not_isHeapObject_New _
        have hc : IsForwardingCorpse
            { g with class_table_ := Function.update g.class_table_ i
                       (SmallInteger.New g.class_table_free_),
                     class_table_free_ := (i : Int) }
            (Function.update g.class_table_ i (SmallInteger.New g.class_table_free_) i) =
              some true := c
        rw [IsForwardingCorpse_of_not_heap hsmi] at hc
        cases hc

/-- `MournClassTableForwarded`: afterwards no class id from `kFirstLegalCid` to
`class_table_size_ - 1` has a forwarding corpse as its entry, the class ids whose entry was one
are chained onto the free list, each once, and the other entries are as before. -/
theorem Mourn_spec {g g' : Heap} (he : MournClassTableForwarded g = some g') :
    g'.class_table_size_ = g.class_table_size_ ∧
    (∀ k, kFirstLegalCid ≤ k → k < g'.class_table_size_ →
      IsForwardingCorpse g' (g'.class_table_ k) = some false) ∧
    ReleasedChain g' g.class_table_free_ ((corpseSlots g).map Int.ofNat) ∧
    (corpseSlots g).Nodup ∧
    (∀ k, k ∉ corpseSlots g → kFirstLegalCid ≤ k → k < g.class_table_size_ →
      g'.class_table_ k = g.class_table_ k) := by
  unfold MournClassTableForwarded at he
  obtain ⟨hsz, hk⟩ := Mourn_loop_class_table _ _ _ he
  refine ⟨hsz, ?_, ?_, ?_, ?_⟩
  · intro k h3 hlt
    apply Mourn_loop_no_corpse he
    rw [List.mem_range'_1]
    rw [hsz] at hlt
    omega
  · exact Mourn_loop_released _ _ _ (List.nodup_range' _ _) he
  · exact (List.nodup_range' _ _).filter _
  · intro k hnot h3 hlt
    rcases hk k with ⟨a, -⟩ | ⟨-, c⟩
    · exact a
    · exfalso
      apply hnot
      unfold corpseSlots
      rw [List.mem_filter, List.mem_range'_1]
      exact ⟨⟨h3, by omega⟩, by simp [c]⟩

end psoup


namespace psoup

theorem resolve_congr {g g' : Heap}
    (hp : ∀ o l, g.load o = some l → ∃ l', g'.load o = some l' ∧ l'.cid = l.cid ∧
      l'.header_hash_ = l.header_hash_)
    (ha : ∀ o, g.load o = none → g'.load o = none) (x : Object) :
    g'.resolve x = g.resolve x := by
  unfold Heap.resolve
  cases hl : g.load x with
  | none => rw [ha x hl]
  | some l =>
    obtain ⟨l', hl', hc, hh⟩ := hp x l hl
    rw [hl']
    simp only [Layout.target, hc, hh]

theorem resolve_of_corpse {g : Heap} {f : Object} {l : Layout} (hl : g.load f = some l)
    (hc : l.cid = kForwardingCorpseCid) : g.resolve f = l.header_hash_ := by
  unfold Heap.resolve
  rw [hl]
  simp only [hc, if_true, Layout.target]

theorem resolve_of_not_corpse {g : Heap} {x : Object}
    (hx : ∀ l, g.load x = some l → l.cid ≠ kForwardingCorpseCid) : g.resolve x = x := by
  unfold Heap.resolve
  cases hl : g.load x with
  | none => rfl
  | some l => simp only [if_neg (hx l hl)]

theorem Resolving_refl (h1 : Heap) : Resolving h1 h1 :=
  ⟨fun _ h => h, fun _ l1 hl1 => ⟨l1, hl1, rfl, rfl, rfl⟩, fun _ => rfl⟩

theorem Resolving_resolve {h1 g : Heap} (hV : Resolving h1 g) (x : Object) :
    g.resolve x = h1.resolve x :=
  resolve_congr (fun o l hl => by
    obtain ⟨l', hl', a, b, -⟩ := hV.present o l hl
    exact ⟨l', hl', a, b⟩) hV.absent x

/-- One iteration of the loop of `ForwardClassIds` keeps what the entries of the class table
stand for. -/
theorem Resolving_step {h1 : Heap} {F G : List Object} {p : Nat} {g g' : Heap}
    (hK1 : ∀ (i : Nat) (f y : Object), F[i]? = some f → G[i]? = some y →
      ∃ l, h1.load f = some l ∧ l.cid = kForwardingCorpseCid ∧ l.header_hash_ = y)
    (hT1 : TableInv h1) (hnil : IsHeapObject h1.interpreter_.nil_obj)
    (hsmall : h1.class_table_size_ ≤ 2 ^ 32)
    (hJ : Renumbering h1 F G p g) (hV : Resolving h1 g)
    (he : ForwardClassIds.step g p = some g') : Resolving h1 g' := by
  have hcorpse : ∀ (i : Nat) (f y : Object), F[i]? = some f → G[i]? = some y →
      ∃ l, g.load f = some l ∧ l.cid = kForwardingCorpseCid ∧ l.header_hash_ = y := by
    intro i f y hF hG
    obtain ⟨l1, hl1, hc1, hh1⟩ := hK1 i f y hF hG
    obtain ⟨l, hl, a, -, c⟩ := hJ.present f l1 hl1
    exact ⟨l, hl, a.trans hc1, c.trans hh1⟩
  unfold ForwardClassIds.step at he
  simp only [Option.bind_eq_some] at he
  obtain ⟨corpse, hcor, he⟩ := he
  cases corpse with
  | false =>
    simp only [if_true, Option.some.injEq] at he
    subst he
    exact hV
  | true =>
    simp only [Bool.true_eq_false, if_false, Option.bind_eq_some, Option.map_eq_some'] at he
    obtain ⟨l, hl, id, hid, ga, ea, gb, eb, hg'⟩ := he
    obtain ⟨l', hl', hcl⟩ := IsForwardingCorpse_eq_true hcor
    rw [hl] at hl'
    cases hl'
    have hheap : IsHeapObject (g.class_table_ p) := isHeapObject_of_load hl
    obtain ⟨-, -, alt⟩ := hJ.entries p hheap
    rcases alt with ⟨cT, -⟩ | ⟨i0, y, ly, hFi, hGi, hyT, hly, hby⟩
    · obtain ⟨l1, hl1, hcid, -⟩ := load_of_InTable hT1 cT
      obtain ⟨l2, hl2, hc2, -⟩ := hJ.present _ l1 hl1
      rw [hl] at hl2
      cases hl2
      rw [hcl] at hc2
      rw [← hc2] at hcid
      exact absurd hcid (by decide)
    obtain ⟨l2, hl2, -, hh2⟩ := hcorpse i0 _ y hFi hGi
    rw [hl] at hl2
    cases hl2
    have hty : l.target = y := hh2
    rw [hty] at hid eb hg'
    subst hg'
    have hidy : ly.refs[Behavior.classid_index]? = some id := by
      have : Ref_to g (.slot y Behavior.classid_index) = some id := hid
      simp only [Ref_to, hly, Option.some_bind] at this
      exact this
    have hnilg : IsHeapObject g.interpreter_.nil_obj := by rw [hJ.nil]; exact hnil
    -- `y` is not a forwarding corpse
    have hyc : ly.cid ≠ kForwardingCorpseCid := by
      intro hcon
      obtain ⟨l1, hl1, hcid, -⟩ := load_of_InTable hT1 hyT
      obtain ⟨l2, hl2, hc2, -⟩ := hJ.present _ l1 hl1
      rw [hly] at hl2
      cases hl2
      rw [hcon] at hc2
      rw [← hc2] at hcid
      exact absurd hcid (by decide)
    have hres_y : g.resolve y = y := resolve_of_not_corpse (fun l2 hl2 => by
      rw [hly] at hl2
      cases hl2
      exact hyc)
    have hres_f : g.resolve (g.class_table_ p) = y := by
      rw [resolve_of_corpse hl hcl]
      exact hh2
    -- the heap before `set_id`
    have hga : ga.memory = g.memory ∧
        ∀ k, k ≠ p → ga.class_table_ k = g.class_table_ k ∨
          (ga.class_table_ k = g.class_table_ p ∧ g.class_table_ k = y) := by
      rcases hJ.registered y ly hyT hly hby with ⟨k', hk1, hk2⟩ | ⟨hn, -⟩
      · rw [hidy] at hk1
        cases hk1
        have hne : SmallInteger.New (k' : Int) ≠ g.interpreter_.nil_obj := by
          intro hcon
          rw [← hcon] at hnilg
          exact not_isHeapObject_New _ hnilg
        rw [if_pos hne] at ea
        have hk'h : IsHeapObject (g.class_table_ k') := by
          rw [hk2]; exact isHeapObject_of_load hly
        obtain ⟨-, hk'lt, -⟩ := hJ.entries k' hk'h
        have hk'32 : k' ≤ 2 ^ 32 := by
          rw [hJ.size] at hk'lt
          omega
        obtain ⟨m1, -⟩ := class_table_put_eq_some ea
        refine ⟨m1, ?_⟩
        unfold class_table_put at ea
        rw [SmallInteger_value_New_nat hk'32] at ea
        rw [if_pos (Int.natCast_nonneg k'), Int.toNat_ofNat] at ea
        cases ea
        intro k hkp
        by_cases hkk : k = k'
        · subst hkk
          right
          exact ⟨Function.update_same _ _ _, hk2⟩
        · left
          exact Function.update_noteq hkk _ _
      · rw [hidy] at hn
        cases hn
        rw [if_neg (not_not.2 rfl)] at ea
        cases ea
        exact ⟨rfl, fun k _ => Or.inl rfl⟩
    obtain ⟨m1, hC⟩ := hga
    have hla : ∀ o, ga.load o = g.load o := fun o => by unfold Heap.load; rw [m1]
    obtain ⟨t, hto, -, -, rfl⟩ := UpdateNoCheck_eq_some.1 eb
    have hload : ∀ o, ({ ga.retarget (.slot y Behavior.classid_index) t
          (SmallInteger.New (p : Int)) with
          class_table_ := Function.update
            (ga.retarget (.slot y Behavior.classid_index) t
              (SmallInteger.New (p : Int))).class_table_ p y } : Heap).load o =
        (g.load o).map (Layout.retarget (.slot y Behavior.classid_index) t
          (SmallInteger.New (p : Int)) o) := by
      intro o
      show (ga.retarget _ _ _).load o = _
      rw [load_retarget, hla]
    have hpres : ∀ o l0, g.load o = some l0 → ∃ l', ({ ga.retarget
          (.slot y Behavior.classid_index) t (SmallInteger.New (p : Int)) with
          class_table_ := Function.update
            (ga.retarget (.slot y Behavior.classid_index) t
              (SmallInteger.New (p : Int))).class_table_ p y } : Heap).load o = some l' ∧
        l'.cid = l0.cid ∧ l'.header_hash_ = l0.header_hash_ ∧
        l'.refs[RegularObject.klass_index]? = l0.refs[RegularObject.klass_index]? := by
      intro o l0 hl0
      refine ⟨_, by rw [hload o, hl0]; rfl, (Layout_retarget_fields _ _ _ _ _).1,
        (Layout_retarget_fields _ _ _ _ _).2.2.2.2.1, ?_⟩
      rw [Layout_retarget_refs_getElem?, if_neg]
      rintro ⟨hcon, -⟩
      have := (RefPtr.slot.inj hcon).2
      revert this
      decide
    have habs : ∀ o, g.load o = none → ({ ga.retarget
          (.slot y Behavior.classid_index) t (SmallInteger.New (p : Int)) with
          class_table_ := Function.update
            (ga.retarget (.slot y Behavior.classid_index) t
              (SmallInteger.New (p : Int))).class_table_ p y } : Heap).load o = none := by
      intro o ho
      rw [hload o, ho]
      rfl
    have hres : ∀ x, ({ ga.retarget
          (.slot y Behavior.classid_index) t (SmallInteger.New (p : Int)) with
          class_table_ := Function.update
            (ga.retarget (.slot y Behavior.classid_index) t
              (SmallInteger.New (p : Int))).class_table_ p y } : Heap).resolve x =
        g.resolve x :=
      resolve_congr (fun o l0 hl0 => by
        obtain ⟨l', a, b, c, -⟩ := hpres o l0 hl0
        exact ⟨l', a, b, c⟩) habs
    refine ⟨fun o ho => habs o (hV.absent o ho), ?_, ?_⟩
    · intro o l1 hl1
      obtain ⟨l0, hl0, a0, b0, c0⟩ := hV.present o l1 hl1
      obtain ⟨l', hl', a, b, c⟩ := hpres o l0 hl0
      exact ⟨l', hl', a.trans a0, b.trans b0, c.trans c0⟩
    · intro k
      rw [hres, ← hV.table k]
      show g.resolve (Function.update ga.class_table_ p y k) = _
      by_cases hkp : k = p
      · subst hkp
        rw [Function.update_same, hres_y, hres_f]
      · rw [Function.update_noteq hkp]
        rcases hC k hkp with a | ⟨a, b⟩
        · rw [a]
        · rw [a, b, hres_f, hres_y]

/-- The loop of `ForwardClassIds` keeps what the entries of the class table stand for. -/
theorem Resolving_loop {h1 : Heap} {F G : List Object}
    (hK1 : ∀ (i : Nat) (f y : Object), F[i]? = some f → G[i]? = some y →
      ∃ l, h1.load f = some l ∧ l.cid = kForwardingCorpseCid ∧ l.header_hash_ = y)
    (hT1 : TableInv h1) (hnd : F.Nodup) (hnil : IsHeapObject h1.interpreter_.nil_obj)
    (hsmall : h1.class_table_size_ ≤ 2 ^ 32) :
    ∀ (n p : Nat) (g g' : Heap), Renumbering h1 F G p g → Resolving h1 g →
      kFirstLegalCid ≤ p → p + n ≤ h1.class_table_size_ →
      ForwardClassIds.loop g (List.range' p n) = some g' → Resolving h1 g' := by
  intro n
  induction n with
  | zero =>
    intro p g g' _ hV _ _ he
    simp only [List.range'_zero, ForwardClassIds.loop, Option.some.injEq] at he
    subst he
    exact hV
  | succ n ih =>
    intro p g g' hJ hV hp3 hpn he
    simp only [List.range'_succ, ForwardClassIds.loop, Option.bind_eq_some] at he
    obtain ⟨ga, ea, erest⟩ := he
    have hJa := Renumbering_step hK1 hT1 hnd hnil hsmall hJ hp3 (by omega) ea
    have hVa := Resolving_step hK1 hT1 hnil hsmall hJ hV ea
    exact ih (p + 1) ga g' hJa hVa (by omega) (by omega) erest

end psoup


namespace psoup

theorem resolve_Migrating {h2 g : Heap} (hM : Migrating h2 g)
    (hlegal : ∀ c, InTable h2 c → ∃ l2, h2.load c = some l2 ∧ l2.cid ≠ kForwardingCorpseCid)
    (x : Object) : g.resolve x = h2.resolve x := by
  unfold Heap.resolve
  cases hl2 : h2.load x with
  | none => rw [hM.absent x hl2]
  | some l2 =>
    obtain ⟨l, hl, -, hh, hkeep, hcc⟩ := hM.present x l2 hl2
    rw [hl]
    by_cases hT : InTable h2 x
    · obtain ⟨l2', hl2', hne⟩ := hlegal x hT
      rw [hl2] at hl2'
      cases hl2'
      simp only [if_neg hne, if_neg (hcc hne)]
    · simp only [hkeep hT, Layout.target, hh]

theorem resolve_fixed {h2 : Heap}
    (hlegal : ∀ c, InTable h2 c → ∃ l2, h2.load c = some l2 ∧ l2.cid ≠ kForwardingCorpseCid)
    {K : Object} (hK : ¬ IsHeapObject K ∨ InTable h2 K) : h2.resolve K = K := by
  apply resolve_of_not_corpse
  intro l hl
  rcases hK with hK | hK
  · exact absurd (isHeapObject_of_load hl) hK
  · obtain ⟨l2, hl2, hne⟩ := hlegal K hK
    rw [hl] at hl2
    cases hl2
    exact hne

theorem not_corpse_fixed {h2 g : Heap} (hM : Migrating h2 g)
    (hlegal : ∀ c, InTable h2 c → ∃ l2, h2.load c = some l2 ∧ l2.cid ≠ kForwardingCorpseCid)
    {K : Object} (hK : ¬ IsHeapObject K ∨ InTable h2 K) :
    IsForwardingCorpse g K = some false := by
  rcases hK with hK | hK
  · exact IsForwardingCorpse_of_not_heap hK
  · obtain ⟨l2, hl2, hne⟩ := hlegal K hK
    obtain ⟨l, hl, -, -, -, hcc⟩ := hM.present K l2 hl2
    rw [IsForwardingCorpse_of_load hl]
    simp [hcc hne]

theorem resolve_of_not_forwarding {g : Heap} {x : Object}
    (hb : IsForwardingCorpse g x = some false) : g.resolve x = x := by
  apply resolve_of_not_corpse
  intro l hl hc
  rw [IsForwardingCorpse_of_load hl] at hb
  simp [hc] at hb

/-- What `ForwardPointer` does to the class id and the first Ref of an object. -/
theorem klass_ForwardPointer {h2 g g' : Heap} (hM : Migrating h2 g)
    (hlegal : ∀ c, InTable h2 c → ∃ l2, h2.load c = some l2 ∧ l2.cid ≠ kForwardingCorpseCid)
    {r : RefPtr} (he : ForwardPointer g r = some g') {o : Object} {l : Layout} {v : Object}
    (hl : g.load o = some l) (hv : l.refs[RegularObject.klass_index]? = some v) :
    ∃ l', g'.load o = some l' ∧ l'.cid = l.cid ∧
      (l'.refs[RegularObject.klass_index]? = some v ∨
        l'.refs[RegularObject.klass_index]? = some (h2.resolve v)) ∧
      (r = RefPtr.slot o RegularObject.klass_index →
        l'.refs[RegularObject.klass_index]? = some (h2.resolve v)) := by
  have hlen : RegularObject.klass_index < l.refs.length := by
    by_contra hcon
    rw [List.getElem?_eq_none (by omega)] at hv
    cases hv
  have hto0 : Ref_to g (RefPtr.slot o RegularObject.klass_index) = some v := by
    simp only [Ref_to, hl, Option.some_bind]
    exact hv
  unfold ForwardPointer at he
  simp only [Option.bind_eq_some] at he
  obtain ⟨t, hto, b, hb, he⟩ := he
  cases b with
  | true =>
    simp only [if_true, Option.bind_eq_some] at he
    obtain ⟨lt, hlt, hu⟩ := he
    obtain ⟨lt', hlt', hct⟩ := IsForwardingCorpse_eq_true hb
    rw [hlt] at hlt'
    cases hlt'
    have hres : lt.target = h2.resolve t := by
      rw [← resolve_Migrating hM hlegal t, resolve_of_corpse hlt hct]
      rfl
    obtain ⟨t', -, -, -, rfl⟩ := UpdateNoCheck_eq_some.1 hu
    refine ⟨Layout.retarget r t' lt.target o l, by rw [load_retarget, hl]; rfl,
      (Layout_retarget_fields _ _ _ _ _).1, ?_, ?_⟩
    · rw [Layout_retarget_refs_getElem?]
      by_cases hr : r = RefPtr.slot o RegularObject.klass_index
      · right
        rw [if_pos ⟨hr, hlen⟩, hres]
        rw [hr, hto0] at hto
        cases hto
        rfl
      · left
        rw [if_neg (fun hc => hr hc.1)]
        exact hv
    · intro hr
      rw [Layout_retarget_refs_getElem?, if_pos ⟨hr, hlen⟩, hres]
      rw [hr, hto0] at hto
      cases hto
      rfl
  | false =>
    simp only [Bool.false_eq_true, if_false, Option.some.injEq] at he
    subst he
    refine ⟨l, hl, rfl, Or.inl hv, ?_⟩
    intro hr
    rw [hr, hto0] at hto
    cases hto
    rw [← resolve_Migrating hM hlegal v, resolve_of_not_forwarding hb]
    exact hv

theorem Pending_ForwardPointer {h2 g g' : Heap} (hM : Migrating h2 g)
    (hlegal : ∀ c, InTable h2 c → ∃ l2, h2.load c = some l2 ∧ l2.cid ≠ kForwardingCorpseCid)
    {o K : Object} (hK : ¬ IsHeapObject K ∨ InTable h2 K) {r : RefPtr}
    (hP : Pending h2 g o K) (he : ForwardPointer g r = some g') : Pending h2 g' o K := by
  obtain ⟨l, v, hl, hv, hc, hr⟩ := hP
  obtain ⟨l', hl', hc', alt, -⟩ := klass_ForwardPointer hM hlegal he hl hv
  rcases alt with a | a
  · exact ⟨l', v, hl', a, by rw [hc']; exact hc, hr⟩
  · exact ⟨l', _, hl', a, by rw [hc']; exact hc, by rw [hr]; exact resolve_fixed hlegal hK⟩

theorem Settled_ForwardPointer {h2 g g' : Heap} (hM : Migrating h2 g)
    (hlegal : ∀ c, InTable h2 c → ∃ l2, h2.load c = some l2 ∧ l2.cid ≠ kForwardingCorpseCid)
    {o K : Object} (hK : ¬ IsHeapObject K ∨ InTable h2 K) {r : RefPtr}
    (hS : Settled h2 g o K) (he : ForwardPointer g r = some g') : Settled h2 g' o K := by
  obtain ⟨l, v, hl, hv, hc, hr, hn⟩ := hS
  obtain ⟨l', hl', hc', alt, -⟩ := klass_ForwardPointer hM hlegal he hl hv
  rcases alt with a | a
  · exact ⟨l', v, hl', a, by rw [hc']; exact hc, hr, fun hne => hn (by rw [← hc']; exact hne)⟩
  · exact ⟨l', _, hl', a, by rw [hc']; exact hc, by rw [hr]; exact resolve_fixed hlegal hK,
      fun _ => hr⟩

theorem Pending_ForwardPointers {h2 : Heap}
    (hlegal : ∀ c, InTable h2 c → ∃ l2, h2.load c = some l2 ∧ l2.cid ≠ kForwardingCorpseCid)
    {o K : Object} (hK : ¬ IsHeapObject K ∨ InTable h2 K) :
    ∀ (rs : List RefPtr) (g g' : Heap), Migrating h2 g → ForwardPointers g rs = some g' →
      (Pending h2 g o K → Pending h2 g' o K) ∧ (Settled h2 g o K → Settled h2 g' o K) := by
  intro rs
  induction rs with
  | nil =>
    intro g g' _ he
    simp only [ForwardPointers, Option.some.injEq] at he
    subst he
    exact ⟨id, id⟩
  | cons r rest ih =>
    intro g g' hM he
    simp only [ForwardPointers, Option.bind_eq_some] at he
    obtain ⟨g1, e1, e2⟩ := he
    obtain ⟨a, b⟩ := ih g1 g' (Migrating_ForwardPointer hM e1) e2
    exact ⟨fun hP => a (Pending_ForwardPointer hM hlegal hK hP e1),
      fun hS => b (Settled_ForwardPointer hM hlegal hK hS e1)⟩

theorem Pending_of_Settled {h2 g : Heap}
    (hlegal : ∀ c, InTable h2 c → ∃ l2, h2.load c = some l2 ∧ l2.cid ≠ kForwardingCorpseCid)
    {o K : Object} (hK : ¬ IsHeapObject K ∨ InTable h2 K) (hS : Settled h2 g o K) :
    Pending h2 g o K := by
  obtain ⟨l, v, hl, hv, hc, hr, -⟩ := hS
  exact ⟨l, v, hl, hv, by rw [hc]; exact resolve_fixed hlegal hK, hr⟩

theorem Pending_ForwardRoots {h2 g g' : Heap} (hM : Migrating h2 g)
    (hlegal : ∀ c, InTable h2 c → ∃ l2, h2.load c = some l2 ∧ l2.cid ≠ kForwardingCorpseCid)
    {o K : Object} (hK : ¬ IsHeapObject K ∨ InTable h2 K) (hP : Pending h2 g o K)
    (he : ForwardRoots g = some g') : Pending h2 g' o K := by
  unfold ForwardRoots at he
  simp only [Option.bind_eq_some] at he
  obtain ⟨hs, -, ga, e2, e3⟩ := he
  have s1 : Migrating h2 { g with handles_ := hs } :=
    Migrating_of hM rfl rfl rfl rfl (fun _ ho => ho) (fun o l hl =>
      ⟨l, hl, RespectsHeap_SameIds.1.refl l, rfl, fun _ => rfl, fun hn => hn⟩)
  have p1 : Pending h2 { g with handles_ := hs } o K := hP
  have s2 := Migrating_ForwardPointers _ _ _ s1 e2
  exact (Pending_ForwardPointers hlegal hK _ _ _ s2 e3).1
    ((Pending_ForwardPointers hlegal hK _ _ _ s1 e2).1 p1)

theorem load_ForwardClass_ne {g g' : Heap} {x o : Object} (he : ForwardClass g x = some g')
    (hne : o ≠ x) : g'.load o = g.load o := by
  unfold ForwardClass at he
  simp only [Option.bind_eq_some] at he
  obtain ⟨lo, -, c, -, b, -, he⟩ := he
  split_ifs at he
  · simp only [Option.bind_eq_some] at he
    obtain ⟨l, -, id, -, hs⟩ := he
    obtain ⟨-, hload, -⟩ := modify_spec hs
    rw [hload, if_neg hne]
  · cases he
    rfl

/-- `ForwardClass` of the object itself: afterwards the entry of the class table at its class id
is the class that its Ref `klass_` stands for. -/
theorem Pending_ForwardClass_self {h2 g g' : Heap} (hM : Migrating h2 g)
    (hlegal : ∀ c, InTable h2 c → ∃ l2, h2.load c = some l2 ∧ l2.cid ≠ kForwardingCorpseCid)
    (hq : ∀ k le, h2.load (h2.class_table_ k) = some le → le.cid = kForwardingCorpseCid →
      ∃ (ly : Layout) (q : Nat), h2.load le.header_hash_ = some ly ∧
        ly.refs[Behavior.classid_index]? = some (SmallInteger.New (q : Int)) ∧
        kFirstLegalCid ≤ q ∧ q < 2 ^ 32 ∧ h2.class_table_ q = le.header_hash_)
    {o K : Object} (hP : Pending h2 g o K) (he : ForwardClass g o = some g') :
    ∃ (l : Layout) (v : Object), g'.load o = some l ∧
      l.refs[RegularObject.klass_index]? = some v ∧ h2.class_table_ l.cid = K ∧
      h2.resolve v = K := by
  obtain ⟨l, v, hl, hv, hc, hr⟩ := hP
  unfold ForwardClass at he
  simp only [Option.bind_eq_some] at he
  obtain ⟨lo, hlo, c, hcc, b, hb, he⟩ := he
  rw [hl] at hlo
  cases hlo
  have hck : c = h2.class_table_ l.cid := by
    unfold ClassAt class_table_at at hcc
    rw [if_pos (Int.natCast_nonneg _), Int.toNat_ofNat, hM.class_table.1] at hcc
    exact (Option.some.inj hcc).symm
  cases b with
  | true =>
    simp only [if_true, Option.bind_eq_some] at he
    obtain ⟨lc, hlc, id, hid, hs⟩ := he
    obtain ⟨lc', hlc', hcl⟩ := IsForwardingCorpse_eq_true hb
    rw [hlc] at hlc'
    cases hlc'
    have hresc : lc.header_hash_ = K := by
      have h1 := resolve_of_corpse hlc hcl
      rw [resolve_Migrating hM hlegal, hck, hc] at h1
      exact h1.symm
    cases hle : h2.load c with
    | none =>
      rw [hM.absent c hle] at hlc
      cases hlc
    | some le =>
      obtain ⟨l', hl', -, hh, -, hkeep⟩ := hM.present c le hle
      rw [hlc] at hl'
      cases hl'
      have hlec : le.cid = kForwardingCorpseCid := by
        by_contra hcon
        exact hkeep hcon hcl
      obtain ⟨ly, q, hly, hidq, hq3, hq32, hctq⟩ := hq l.cid le (by rw [← hck]; exact hle) hlec
      obtain ⟨ly', hly', hsy, -⟩ := hM.present _ ly hly
      have hidy := hsy.2 _ _ hidq (isSmallInteger_New _)
      have hid' : id = SmallInteger.New (q : Int) := by
        have : Ref_to g (.slot lc.target Behavior.classid_index) = some id := hid
        have ht : lc.target = le.header_hash_ := hh
        rw [ht] at this
        simp only [Ref_to, hly', Option.some_bind] at this
        rw [hidy] at this
        exact (Option.some.inj this).symm
      subst hid'
      rw [SmallInteger_value_New_nat (Nat.le_of_lt hq32)] at hs
      obtain ⟨-, hload, -⟩ := modify_spec hs
      refine ⟨{ l with cid := toUword (q : Int) % 2 ^ kClassIdFieldSize }, v,
        by rw [hload, if_pos rfl, hl]; rfl, hv, ?_, hr⟩
      show h2.class_table_ (toUword (q : Int) % 2 ^ kClassIdFieldSize) = K
      rw [toUword_nat_mod hq32, hctq, ← hh]
      exact hresc
  | false =>
    simp only [Bool.false_eq_true, if_false, Option.some.injEq] at he
    subst he
    refine ⟨l, v, hl, hv, ?_, hr⟩
    have h1 := resolve_of_not_forwarding hb
    rw [resolve_Migrating hM hlegal, hck, hc] at h1
    exact h1.symm

/-- The step of `ForwardHeap` for the object itself. -/
theorem Settled_step_self {h2 g g' : Heap} (hM : Migrating h2 g)
    (hlegal : ∀ c, InTable h2 c → ∃ l2, h2.load c = some l2 ∧ l2.cid ≠ kForwardingCorpseCid)
    (hq : ∀ k le, h2.load (h2.class_table_ k) = some le → le.cid = kForwardingCorpseCid →
      ∃ (ly : Layout) (q : Nat), h2.load le.header_hash_ = some ly ∧
        ly.refs[Behavior.classid_index]? = some (SmallInteger.New (q : Int)) ∧
        kFirstLegalCid ≤ q ∧ q < 2 ^ 32 ∧ h2.class_table_ q = le.header_hash_)
    {o K : Object} (hK : ¬ IsHeapObject K ∨ InTable h2 K) (hx : InTable h2 o)
    (hP : Pending h2 g o K) (he : ForwardHeap.step g o = some g') : Settled h2 g' o K := by
  unfold ForwardHeap.step at he
  simp only [Option.bind_eq_some] at he
  obtain ⟨ga, e1, lo, hlo, e2⟩ := he
  have hqw : ∀ k le, h2.load (h2.class_table_ k) = some le → le.cid = kForwardingCorpseCid →
      ∃ (ly : Layout) (q : Nat), h2.load le.header_hash_ = some ly ∧
        ly.refs[Behavior.classid_index]? = some (SmallInteger.New (q : Int)) ∧
        kFirstLegalCid ≤ q ∧ q < 2 ^ 32 := by
    intro k le a b
    obtain ⟨ly, q, c1, c2, c3, c4, -⟩ := hq k le a b
    exact ⟨ly, q, c1, c2, c3, c4⟩
  have hMa := Migrating_ForwardClass hM hqw hx e1
  obtain ⟨l, v, hl, hv, hc, hr⟩ := Pending_ForwardClass_self hM hlegal hq hP e1
  rw [hl] at hlo
  cases hlo
  by_cases hce : lo.cid = kEphemeronCid
  · exact (Pending_ForwardPointers hlegal hK _ _ _ hMa e2).2
      ⟨lo, v, hl, hv, hc, hr, fun hne => absurd hce hne⟩
  · have hlen : 0 < lo.refs.length := by
      by_contra hcon
      have hv' : lo.refs[RegularObject.klass_index]? = none :=
        List.getElem?_eq_none (by
          show lo.refs.length ≤ 0
          omega)
      rw [hv'] at hv
      cases hv
    have hlist : (List.range' (Pointers lo).1 ((Pointers lo).2 - (Pointers lo).1)).map
          (fun i => RefPtr.slot o i) =
        RefPtr.slot o RegularObject.klass_index ::
          (List.range' 1 (lo.refs.length - 1)).map (fun i => RefPtr.slot o i) := by
      simp only [Pointers, if_neg hce, Nat.sub_zero]
      obtain ⟨n, hn⟩ : ∃ n, lo.refs.length = n + 1 := ⟨lo.refs.length - 1, by omega⟩
      rw [hn, List.range'_succ]
      rfl
    rw [hlist] at e2
    simp only [ForwardPointers, Option.bind_eq_some] at e2
    obtain ⟨gb, e3, e4⟩ := e2
    obtain ⟨l', hl', hc', -, hset⟩ := klass_ForwardPointer hMa hlegal e3 hl hv
    have hMb := Migrating_ForwardPointer hMa e3
    refine (Pending_ForwardPointers hlegal hK _ _ _ hMb e4).2
      ⟨l', _, hl', hset rfl, by rw [hc']; exact hc, ?_, fun _ => hr⟩
    rw [hr]
    exact resolve_fixed hlegal hK

/-- The step of `ForwardHeap` for another object. -/
theorem Pending_step_other {h2 g g' : Heap} (hM : Migrating h2 g)
    (hlegal : ∀ c, InTable h2 c → ∃ l2, h2.load c = some l2 ∧ l2.cid ≠ kForwardingCorpseCid)
    (hq : ∀ k le, h2.load (h2.class_table_ k) = some le → le.cid = kForwardingCorpseCid →
      ∃ (ly : Layout) (q : Nat), h2.load le.header_hash_ = some ly ∧
        ly.refs[Behavior.classid_index]? = some (SmallInteger.New (q : Int)) ∧
        kFirstLegalCid ≤ q ∧ q < 2 ^ 32)
    {o K x : Object} (hK : ¬ IsHeapObject K ∨ InTable h2 K) (hx : InTable h2 x) (hne : o ≠ x)
    (he : ForwardHeap.step g x = some g') :
    (Pending h2 g o K → Pending h2 g' o K) ∧ (Settled h2 g o K → Settled h2 g' o K) := by
  unfold ForwardHeap.step at he
  simp only [Option.bind_eq_some] at he
  obtain ⟨ga, e1, lo, -, e2⟩ := he
  have hMa := Migrating_ForwardClass hM hq hx e1
  have hload := load_ForwardClass_ne e1 hne
  obtain ⟨a, b⟩ := Pending_ForwardPointers hlegal hK _ _ _ hMa e2
  constructor
  · rintro ⟨l, v, hl, rest⟩
    exact a ⟨l, v, by rw [hload]; exact hl, rest⟩
  · rintro ⟨l, v, hl, rest⟩
    exact b ⟨l, v, by rw [hload]; exact hl, rest⟩

/-- The loop of `ForwardHeap`: an object that it visits has, afterwards, the entry of the class
table at its class id as the target of its Ref `klass_`. -/
theorem Settled_ForwardHeap_loop {h2 : Heap}
    (hlegal : ∀ c, InTable h2 c → ∃ l2, h2.load c = some l2 ∧ l2.cid ≠ kForwardingCorpseCid)
    (hq : ∀ k le, h2.load (h2.class_table_ k) = some le → le.cid = kForwardingCorpseCid →
      ∃ (ly : Layout) (q : Nat), h2.load le.header_hash_ = some ly ∧
        ly.refs[Behavior.classid_index]? = some (SmallInteger.New (q : Int)) ∧
        kFirstLegalCid ≤ q ∧ q < 2 ^ 32 ∧ h2.class_table_ q = le.header_hash_)
    {o K : Object} (hK : ¬ IsHeapObject K ∨ InTable h2 K) :
    ∀ (is : List Nat) (g g' : Heap), Migrating h2 g →
      (∀ i ∈ is, 1 ≤ i ∧ i < h2.table_size_) → Pending h2 g o K →
      ForwardHeap.loop g is = some g' →
      Migrating h2 g' ∧ Pending h2 g' o K ∧
        ((Settled h2 g o K ∨ ∃ i ∈ is, h2.table_ i = o) → Settled h2 g' o K) := by
  have hqw : ∀ k le, h2.load (h2.class_table_ k) = some le → le.cid = kForwardingCorpseCid →
      ∃ (ly : Layout) (q : Nat), h2.load le.header_hash_ = some ly ∧
        ly.refs[Behavior.classid_index]? = some (SmallInteger.New (q : Int)) ∧
        kFirstLegalCid ≤ q ∧ q < 2 ^ 32 := by
    intro k le a b
    obtain ⟨ly, q, c1, c2, c3, c4, -⟩ := hq k le a b
    exact ⟨ly, q, c1, c2, c3, c4⟩
  intro is
  induction is with
  | nil =>
    intro g g' hM _ hP he
    simp only [ForwardHeap.loop, Option.some.injEq] at he
    subst he
    refine ⟨hM, hP, ?_⟩
    rintro (hS | ⟨i, hi, -⟩)
    · exact hS
    · exact absurd hi (List.not_mem_nil i)
  | cons i rest ih =>
    intro g g' hM his hP he
    simp only [ForwardHeap.loop, Option.bind_eq_some] at he
    obtain ⟨gb, e1, e3⟩ := he
    obtain ⟨hi1, hi2⟩ := his i (List.mem_cons_self _ _)
    have hx : InTable h2 (g.table_ i) := ⟨i, hi1, hi2, by rw [hM.table.1]⟩
    have hMb : Migrating h2 gb :=
      Migrating_ForwardHeap_loop hqw [i] g gb hM
        (fun j hj => by
          rw [List.mem_singleton] at hj
          subst hj
          exact ⟨hi1, hi2⟩)
        (by simp only [ForwardHeap.loop, e1, Option.some_bind])
    have hrest : ∀ j ∈ rest, 1 ≤ j ∧ j < h2.table_size_ :=
      fun j hj => his j (List.mem_cons_of_mem _ hj)
    by_cases hself : o = g.table_ i
    · have hS : Settled h2 gb o K := by
        rw [← hself] at e1 hx
        exact Settled_step_self hM hlegal hq hK hx hP e1
      obtain ⟨a, b, c⟩ := ih gb g' hMb hrest (Pending_of_Settled hlegal hK hS) e3
      exact ⟨a, b, fun _ => c (Or.inl hS)⟩
    · obtain ⟨p1, p2⟩ := Pending_step_other (K := K) hM hlegal hqw hK hx hself e1
      obtain ⟨a, b, c⟩ := ih gb g' hMb hrest (p1 hP) e3
      refine ⟨a, b, ?_⟩
      rintro (hS | ⟨j, hj, hjo⟩)
      · exact c (Or.inl (p2 hS))
      · rcases List.mem_cons.1 hj with rfl | hj
        · rw [← hM.table.1] at hjo
          exact absurd hjo.symm hself
        · exact c (Or.inr ⟨j, hj, hjo⟩)

end psoup


namespace psoup

theorem Ascending_base {h1 : Heap} {F G : List Object} {p : Nat} {g : Heap}
    (hJ : Renumbering h1 F G p g) : Ascending kFirstLegalCid g := by
  intro k q le ly hk hle _ _ _ _
  obtain ⟨h3, -⟩ := hJ.entries k (isHeapObject_of_load hle)
  omega

theorem Ascending_all {h1 : Heap} {F G : List Object} {p : Nat} {g : Heap}
    (hJ : Renumbering h1 F G p g) (hA : Ascending g.class_table_size_ g) (n : Nat) :
    Ascending n g := by
  intro k q le ly _ hle hc hly hid hq
  obtain ⟨-, hlt, -⟩ := hJ.entries k (isHeapObject_of_load hle)
  exact hA k q le ly hlt hle hc hly hid hq

/-- One iteration of the loop of `ForwardClassIds` keeps the class ids of the forwardees above
the class ids at which their forwarders are left. -/
theorem Ascending_step {h1 : Heap} {F G : List Object} {p : Nat} {g g' : Heap}
    (hK1 : ∀ (i : Nat) (f y : Object), F[i]? = some f → G[i]? = some y →
      ∃ l, h1.load f = some l ∧ l.cid = kForwardingCorpseCid ∧ l.header_hash_ = y)
    (hT1 : TableInv h1) (hnil : IsHeapObject h1.interpreter_.nil_obj)
    (hsmall : h1.class_table_size_ ≤ 2 ^ 32)
    (hJ : Renumbering h1 F G p g) (hps : p < h1.class_table_size_) (hA : Ascending p g)
    (he : ForwardClassIds.step g p = some g') : Ascending (p + 1) g' := by
  have hcorpse : ∀ (i : Nat) (f y : Object), F[i]? = some f → G[i]? = some y →
      ∃ l, g.load f = some l ∧ l.cid = kForwardingCorpseCid ∧ l.header_hash_ = y := by
    intro i f y hF hG
    obtain ⟨l1, hl1, hc1, hh1⟩ := hK1 i f y hF hG
    obtain ⟨l, hl, a, -, c⟩ := hJ.present f l1 hl1
    exact ⟨l, hl, a.trans hc1, c.trans hh1⟩
  have hp32 : p ≤ 2 ^ 32 := by omega
  unfold ForwardClassIds.step at he
  simp only [Option.bind_eq_some] at he
  obtain ⟨corpse, hcor, he⟩ := he
  cases corpse with
  | false =>
    simp only [if_true, Option.some.injEq] at he
    subst he
    intro k q le ly hk hle hc hly hid hq
    by_cases hkp : k = p
    · subst hkp
      rw [IsForwardingCorpse_of_load hle] at hcor
      simp [hc] at hcor
    · exact hA k q le ly (by omega) hle hc hly hid hq
  | true =>
    simp only [Bool.true_eq_false, if_false, Option.bind_eq_some, Option.map_eq_some'] at he
    obtain ⟨l, hl, id, hid, ga, ea, gb, eb, hg'⟩ := he
    obtain ⟨l', hl', hcl⟩ := IsForwardingCorpse_eq_true hcor
    rw [hl] at hl'
    cases hl'
    have hheap : IsHeapObject (g.class_table_ p) := isHeapObject_of_load hl
    obtain ⟨-, -, alt⟩ := hJ.entries p hheap
    rcases alt with ⟨cT, -⟩ | ⟨i0, y, ly, hFi, hGi, hyT, hly, hby⟩
    · obtain ⟨l1, hl1, hcid, -⟩ := load_of_InTable hT1 cT
      obtain ⟨l2, hl2, hc2, -⟩ := hJ.present _ l1 hl1
      rw [hl] at hl2
      cases hl2
      rw [hcl] at hc2
      rw [← hc2] at hcid
      exact absurd hcid (by decide)
    obtain ⟨l2, hl2, -, hh2⟩ := hcorpse i0 _ y hFi hGi
    rw [hl] at hl2
    cases hl2
    have hty : l.target = y := hh2
    rw [hty] at hid eb hg'
    subst hg'
    have hidy : ly.refs[Behavior.classid_index]? = some id := by
      have : Ref_to g (.slot y Behavior.classid_index) = some id := hid
      simp only [Ref_to, hly, Option.some_bind] at this
      exact this
    have hlt : Behavior.classid_index < ly.refs.length := by
      by_contra hcon
      rw [List.getElem?_eq_none (by omega)] at hidy
      cases hidy
    have hnilg : IsHeapObject g.interpreter_.nil_obj := by rw [hJ.nil]; exact hnil
    have hyc : ly.cid ≠ kForwardingCorpseCid := by
      intro hcon
      obtain ⟨l1, hl1, hcid, -⟩ := load_of_InTable hT1 hyT
      obtain ⟨l2, hl2, hc2, -⟩ := hJ.present _ l1 hl1
      rw [hly] at hl2
      cases hl2
      rw [hcon] at hc2
      rw [← hc2] at hcid
      exact absurd hcid (by decide)
    have hga : ga.memory = g.memory ∧
        ∀ k, k ≠ p → ga.class_table_ k = g.class_table_ k ∨
          (ga.class_table_ k = g.class_table_ p ∧ g.class_table_ k = y) := by
      rcases hJ.registered y ly hyT hly hby with ⟨k', hk1, hk2⟩ | ⟨hn, -⟩
      · rw [hidy] at hk1
        cases hk1
        have hne : SmallInteger.New (k' : Int) ≠ g.interpreter_.nil_obj := by
          intro hcon
          rw [← hcon] at hnilg
          exact not_isHeapObject_New _ hnilg
        rw [if_pos hne] at ea
        have hk'h : IsHeapObject (g.class_table_ k') := by
          rw [hk2]; exact isHeapObject_of_load hly
        obtain ⟨-, hk'lt, -⟩ := hJ.entries k' hk'h
        have hk'32 : k' ≤ 2 ^ 32 := by
          rw [hJ.size] at hk'lt
          omega
        obtain ⟨m1, -⟩ := class_table_put_eq_some ea
        refine ⟨m1, ?_⟩
        unfold class_table_put at ea
        rw [SmallInteger_value_New_nat hk'32] at ea
        rw [if_pos (Int.natCast_nonneg k'), Int.toNat_ofNat] at ea
        cases ea
        intro k hkp
        by_cases hkk : k = k'
        · subst hkk
          right
          exact ⟨Function.update_same _ _ _, hk2⟩
        · left
          exact Function.update_noteq hkk _ _
      · rw [hidy] at hn
        cases hn
        rw [if_neg (not_not.2 rfl)] at ea
        cases ea
        exact ⟨rfl, fun k _ => Or.inl rfl⟩
    obtain ⟨m1, hC⟩ := hga
    have hla : ∀ o, ga.load o = g.load o := fun o => by unfold Heap.load; rw [m1]
    obtain ⟨t, hto, -, -, rfl⟩ := UpdateNoCheck_eq_some.1 eb
    have hload : ∀ o, ({ ga.retarget (.slot y Behavior.classid_index) t
          (SmallInteger.New (p : Int)) with
          class_table_ := Function.update
            (ga.retarget (.slot y Behavior.classid_index) t
              (SmallInteger.New (p : Int))).class_table_ p y } : Heap).load o =
        (g.load o).map (Layout.retarget (.slot y Behavior.classid_index) t
          (SmallInteger.New (p : Int)) o) := by
      intro o
      show (ga.retarget _ _ _).load o = _
      rw [load_retarget, hla]
    -- the class id of a forwardee after the iteration
    have hidnew : ∀ (x : Object) (lx' : Layout) (q : Nat), ({ ga.retarget
          (.slot y Behavior.classid_index) t (SmallInteger.New (p : Int)) with
          class_table_ := Function.update
            (ga.retarget (.slot y Behavior.classid_index) t
              (SmallInteger.New (p : Int))).class_table_ p y } : Heap).load x = some lx' →
        lx'.refs[Behavior.classid_index]? = some (SmallInteger.New (q : Int)) → q ≤ 2 ^ 32 →
        (x = y ∧ q = p) ∨ (x ≠ y ∧ ∃ lx, g.load x = some lx ∧
          lx.refs[Behavior.classid_index]? = some (SmallInteger.New (q : Int))) := by
      intro x lx' q hlx' hidx hq
      rw [hload x] at hlx'
      cases hlx : g.load x with
      | none =>
        rw [hlx] at hlx'
        cases hlx'
      | some lx =>
        rw [hlx] at hlx'
        simp only [Option.map_some', Option.some.injEq] at hlx'
        subst hlx'
        rw [Layout_retarget_refs_getElem?] at hidx
        by_cases hxy : x = y
        · left
          subst hxy
          rw [hly] at hlx
          cases hlx
          rw [if_pos ⟨rfl, hlt⟩] at hidx
          exact ⟨rfl, (SmallInteger_New_nat_inj hp32 hq (Option.some.inj hidx)).symm⟩
        · right
          rw [if_neg (fun hc => hxy (RefPtr.slot.inj hc.1).1.symm)] at hidx
          exact ⟨hxy, lx, rfl, hidx⟩
    intro k q le' ly' hk hle' hc' hly' hid' hq
    have hct : ({ ga.retarget (.slot y Behavior.classid_index) t
          (SmallInteger.New (p : Int)) with
          class_table_ := Function.update
            (ga.retarget (.slot y Behavior.classid_index) t
              (SmallInteger.New (p : Int))).class_table_ p y } : Heap).class_table_ =
        Function.update ga.class_table_ p y := rfl
    rw [hct] at hle'
    by_cases hkp : k = p
    · exfalso
      subst hkp
      rw [Function.update_same, hload, hly] at hle'
      simp only [Option.map_some', Option.some.injEq] at hle'
      subst hle'
      exact hyc hc'
    · have hkltp : k < p := by omega
      rw [Function.update_noteq hkp, hload] at hle'
      rcases hidnew _ ly' q hly' hid' hq with ⟨-, hqp⟩ | ⟨hney, lx, hlx, hidx⟩
      · omega
      · rcases hC k hkp with a | ⟨a, b⟩
        · rw [a] at hle'
          cases hle0 : g.load (g.class_table_ k) with
          | none =>
            rw [hle0] at hle'
            cases hle'
          | some le0 =>
            rw [hle0] at hle'
            simp only [Option.map_some', Option.some.injEq] at hle'
            subst hle'
            exact hA k q le0 lx hkltp hle0 hc' hlx hidx hq
        · exfalso
          rw [a, hl] at hle'
          simp only [Option.map_some', Option.some.injEq] at hle'
          subst hle'
          exact hney hh2

/-- The loop of `ForwardClassIds` keeps the class ids of the forwardees above the class ids at
which their forwarders are left. -/
theorem Ascending_loop {h1 : Heap} {F G : List Object}
    (hK1 : ∀ (i : Nat) (f y : Object), F[i]? = some f → G[i]? = some y →
      ∃ l, h1.load f = some l ∧ l.cid = kForwardingCorpseCid ∧ l.header_hash_ = y)
    (hT1 : TableInv h1) (hnd : F.Nodup) (hnil : IsHeapObject h1.interpreter_.nil_obj)
    (hsmall : h1.class_table_size_ ≤ 2 ^ 32) :
    ∀ (n p : Nat) (g g' : Heap), Renumbering h1 F G p g → Ascending p g →
      kFirstLegalCid ≤ p → p + n ≤ h1.class_table_size_ →
      ForwardClassIds.loop g (List.range' p n) = some g' → Ascending (p + n) g' := by
  intro n
  induction n with
  | zero =>
    intro p g g' _ hA _ _ he
    simp only [List.range'_zero, ForwardClassIds.loop, Option.some.injEq] at he
    subst he
    exact hA
  | succ n ih =>
    intro p g g' hJ hA hp3 hpn he
    simp only [List.range'_succ, ForwardClassIds.loop, Option.bind_eq_some] at he
    obtain ⟨ga, ea, erest⟩ := he
    have hJa := Renumbering_step hK1 hT1 hnd hnil hsmall hJ hp3 (by omega) ea
    have hAa := Ascending_step hK1 hT1 hnil hsmall hJ (by omega) hA ea
    have := ih (p + 1) ga g' hJa hAa (by omega) (by omega) erest
    rw [show p + (n + 1) = p + 1 + n by omega]
    exact this

end psoup


namespace psoup

theorem Raised_ForwardPointer {c : Nat} {g g' : Heap} {r : RefPtr} {o : Object}
    (hR : Raised c g o) (he : ForwardPointer g r = some g') : Raised c g' o := by
  obtain ⟨l, hl, hc⟩ := hR
  unfold ForwardPointer at he
  simp only [Option.bind_eq_some] at he
  obtain ⟨t, -, b, -, he⟩ := he
  split_ifs at he
  · simp only [Option.bind_eq_some] at he
    obtain ⟨lt, -, hu⟩ := he
    obtain ⟨t', -, -, -, rfl⟩ := UpdateNoCheck_eq_some.1 hu
    exact ⟨Layout.retarget r t' lt.target o l, by rw [load_retarget, hl]; rfl, hc⟩
  · cases he
    exact ⟨l, hl, hc⟩

theorem Raised_ForwardPointers {c : Nat} {o : Object} : ∀ (rs : List RefPtr) (g g' : Heap),
    Raised c g o → ForwardPointers g rs = some g' → Raised c g' o := by
  intro rs
  induction rs with
  | nil =>
    intro g g' hR he
    simp only [ForwardPointers, Option.some.injEq] at he
    subst he
    exact hR
  | cons r rest ih =>
    intro g g' hR he
    simp only [ForwardPointers, Option.bind_eq_some] at he
    obtain ⟨g1, e1, e2⟩ := he
    exact ih g1 g' (Raised_ForwardPointer hR e1) e2

theorem Raised_ForwardRoots {c : Nat} {g g' : Heap} {o : Object} (hR : Raised c g o)
    (he : ForwardRoots g = some g') : Raised c g' o := by
  unfold ForwardRoots at he
  simp only [Option.bind_eq_some] at he
  obtain ⟨hs, -, ga, e2, e3⟩ := he
  have p1 : Raised c { g with handles_ := hs } o := hR
  exact Raised_ForwardPointers _ _ _ (Raised_ForwardPointers _ _ _ p1 e2) e3

/-- `ForwardClass` does not lower the class id of an object. -/
theorem Raised_ForwardClass {c : Nat} {h2 g g' : Heap} (hM : Migrating h2 g)
    (hq : ∀ k le, h2.load (h2.class_table_ k) = some le → le.cid = kForwardingCorpseCid →
      ∃ (ly : Layout) (q : Nat), h2.load le.header_hash_ = some ly ∧
        ly.refs[Behavior.classid_index]? = some (SmallInteger.New (q : Int)) ∧
        kFirstLegalCid ≤ q ∧ q < 2 ^ 32)
    (hA : ∀ n, Ascending n h2) {o x : Object} (hR : Raised c g o)
    (he : ForwardClass g x = some g') : Raised c g' o := by
  by_cases hox : o = x
  · subst hox
    obtain ⟨l, hl, hc⟩ := hR
    unfold ForwardClass at he
    simp only [Option.bind_eq_some] at he
    obtain ⟨lo, hlo, e, hcc, b, hb, he⟩ := he
    rw [hl] at hlo
    cases hlo
    have hck : e = h2.class_table_ l.cid := by
      unfold ClassAt class_table_at at hcc
      rw [if_pos (Int.natCast_nonneg _), Int.toNat_ofNat, hM.class_table.1] at hcc
      exact (Option.some.inj hcc).symm
    cases b with
    | true =>
      simp only [if_true, Option.bind_eq_some] at he
      obtain ⟨lc, hlc, id, hid, hs⟩ := he
      obtain ⟨lc', hlc', hcl⟩ := IsForwardingCorpse_eq_true hb
      rw [hlc] at hlc'
      cases hlc'
      cases hle : h2.load e with
      | none =>
        rw [hM.absent e hle] at hlc
        cases hlc
      | some le =>
        obtain ⟨l', hl', -, hh, -, hkeep⟩ := hM.present e le hle
        rw [hlc] at hl'
        cases hl'
        have hlec : le.cid = kForwardingCorpseCid := by
          by_contra hcon
          exact hkeep hcon hcl
        have hle' : h2.load (h2.class_table_ l.cid) = some le := by rw [← hck]; exact hle
        obtain ⟨ly, q, hly, hidq, hq3, hq32⟩ := hq l.cid le hle' hlec
        have hasc : l.cid < q :=
          hA (l.cid + 1) l.cid q le ly (Nat.lt_succ_self _) hle' hlec hly hidq
            (Nat.le_of_lt hq32)
        obtain ⟨ly', hly', hsy, -⟩ := hM.present _ ly hly
        have hidy := hsy.2 _ _ hidq (isSmallInteger_New _)
        have hid' : id = SmallInteger.New (q : Int) := by
          have : Ref_to g (.slot lc.target Behavior.classid_index) = some id := hid
          have ht : lc.target = le.header_hash_ := hh
          rw [ht] at this
          simp only [Ref_to, hly', Option.some_bind] at this
          rw [hidy] at this
          exact (Option.some.inj this).symm
        subst hid'
        rw [SmallInteger_value_New_nat (Nat.le_of_lt hq32)] at hs
        obtain ⟨-, hload, -⟩ := modify_spec hs
        refine ⟨{ l with cid := toUword (q : Int) % 2 ^ kClassIdFieldSize },
          by rw [hload, if_pos rfl, hl]; rfl, ?_⟩
        show c ≤ toUword (q : Int) % 2 ^ kClassIdFieldSize
        rw [toUword_nat_mod hq32]
        omega
    | false =>
      simp only [Bool.false_eq_true, if_false, Option.some.injEq] at he
      subst he
      exact ⟨l, hl, hc⟩
  · obtain ⟨l, hl, hc⟩ := hR
    exact ⟨l, by rw [load_ForwardClass_ne he hox]; exact hl, hc⟩

theorem Raised_ForwardHeap_loop {c : Nat} {h2 : Heap}
    (hq : ∀ k le, h2.load (h2.class_table_ k) = some le → le.cid = kForwardingCorpseCid →
      ∃ (ly : Layout) (q : Nat), h2.load le.header_hash_ = some ly ∧
        ly.refs[Behavior.classid_index]? = some (SmallInteger.New (q : Int)) ∧
        kFirstLegalCid ≤ q ∧ q < 2 ^ 32)
    (hA : ∀ n, Ascending n h2) {o : Object} :
    ∀ (is : List Nat) (g g' : Heap), Migrating h2 g →
      (∀ i ∈ is, 1 ≤ i ∧ i < h2.table_size_) → Raised c g o →
      ForwardHeap.loop g is = some g' → Raised c g' o := by
  intro is
  induction is with
  | nil =>
    intro g g' _ _ hR he
    simp only [ForwardHeap.loop, Option.some.injEq] at he
    subst he
    exact hR
  | cons i rest ih =>
    intro g g' hM his hR he
    simp only [ForwardHeap.loop, Option.bind_eq_some] at he
    obtain ⟨gb, e1, e3⟩ := he
    obtain ⟨hi1, hi2⟩ := his i (List.mem_cons_self _ _)
    have hMb : Migrating h2 gb :=
      Migrating_ForwardHeap_loop hq [i] g gb hM
        (fun j hj => by
          rw [List.mem_singleton] at hj
          subst hj
          exact ⟨hi1, hi2⟩)
        (by simp only [ForwardHeap.loop, e1, Option.some_bind])
    unfold ForwardHeap.step at e1
    simp only [Option.bind_eq_some] at e1
    obtain ⟨ga, f1, lo, -, f2⟩ := e1
    exact ih gb g' hMb (fun j hj => his j (List.mem_cons_of_mem _ hj))
      (Raised_ForwardPointers _ _ _ (Raised_ForwardClass hM hq hA hR f1) f2) e3

/-- The passes of `BecomeForward` after `ForwardClassIds`: an object of the object table whose
Ref `klass_` had the entry of the class table at its class id as its target has it again, and
its class id has not become smaller. -/
theorem classed_passes {h1 h2 h3 h4 h5 : Heap} {F G : List Object} {pf : Nat}
    (hK1 : ∀ (i : Nat) (f y : Object), F[i]? = some f → G[i]? = some y →
      ∃ l, h1.load f = some l ∧ l.cid = kForwardingCorpseCid ∧ l.header_hash_ = y)
    (hT1 : TableInv h1) (hsmall : h1.class_table_size_ ≤ 2 ^ 32)
    (hJ : Renumbering h1 F G pf h2) (hpf : h1.class_table_size_ ≤ pf)
    (hV : Resolving h1 h2) (hA : Ascending h2.class_table_size_ h2)
    (e3 : ForwardRoots h2 = some h3) (e4 : ForwardHeap h3 = some h4)
    (e5 : MournClassTableForwarded h4 = some h5) {o : Object} {l1 : Layout}
    (hoT : InTable h1 o) (hl1 : h1.load o = some l1) (hreg : kEphemeronCid < l1.cid)
    (hv1 : l1.refs[RegularObject.klass_index]? = some (h1.class_table_ l1.cid))
    (hK : ¬ IsHeapObject (h1.resolve (h1.class_table_ l1.cid)) ∨
      InTable h1 (h1.resolve (h1.class_table_ l1.cid))) :
    ∃ l5, h5.load o = some l5 ∧ l1.cid ≤ l5.cid ∧
      l5.refs[RegularObject.klass_index]? = some (h5.class_table_ l5.cid) := by
  have hT12 : ∀ x, InTable h2 x ↔ InTable h1 x := fun x => by
    unfold InTable
    rw [hJ.table.1, hJ.table.2]
  have hreg2 : ∀ c l2, InTable h1 c → h2.load c = some l2 → l2.in_class_table = true →
      ∃ k : Nat, l2.refs[Behavior.classid_index]? = some (SmallInteger.New (k : Int)) ∧
        h2.class_table_ k = c := by
    intro c l2 hcT hl2 hb
    rcases hJ.registered c l2 hcT hl2 hb with hleft | ⟨-, k, i, hpk, hG, hF⟩
    · exact hleft
    · obtain ⟨lf, hlf, -⟩ := hK1 i _ c hF hG
      obtain ⟨-, hlt, -⟩ := hJ.entries k (isHeapObject_of_load hlf)
      rw [hJ.size] at hlt
      omega
  have hlegal : ∀ c, InTable h2 c → ∃ l2, h2.load c = some l2 ∧
      l2.cid ≠ kForwardingCorpseCid := by
    intro c hcT
    obtain ⟨l1', hl1', hcid, -⟩ := load_of_InTable hT1 ((hT12 c).1 hcT)
    obtain ⟨l2, hl2, hc2, -⟩ := hJ.present c l1' hl1'
    refine ⟨l2, hl2, fun hcon => ?_⟩
    rw [hcon] at hc2
    rw [← hc2] at hcid
    exact absurd hcid (by decide)
  have hq : ∀ k le, h2.load (h2.class_table_ k) = some le → le.cid = kForwardingCorpseCid →
      ∃ (ly : Layout) (q : Nat), h2.load le.header_hash_ = some ly ∧
        ly.refs[Behavior.classid_index]? = some (SmallInteger.New (q : Int)) ∧
        kFirstLegalCid ≤ q ∧ q < 2 ^ 32 ∧ h2.class_table_ q = le.header_hash_ := by
    intro k le hle hlec
    obtain ⟨-, -, alt⟩ := hJ.entries k (isHeapObject_of_load hle)
    rcases alt with ⟨cT, -⟩ | ⟨i, y, ly, hF, hG, hyT, hly, hby⟩
    · obtain ⟨l2, hl2, hne⟩ := hlegal _ ((hT12 _).2 cT)
      rw [hle] at hl2
      cases hl2
      exact absurd hlec hne
    · obtain ⟨l1', hl1', -, hh1⟩ := hK1 i _ y hF hG
      obtain ⟨le', hle', -, -, hh⟩ := hJ.present _ l1' hl1'
      rw [hle] at hle'
      cases hle'
      have hty : le.header_hash_ = y := hh.trans hh1
      obtain ⟨q, hidq, hctq⟩ := hreg2 y ly hyT hly hby
      have hqh : IsHeapObject (h2.class_table_ q) := by
        rw [hctq]; exact isHeapObject_of_load hly
      obtain ⟨hq3, hqlt, -⟩ := hJ.entries q hqh
      rw [hJ.size] at hqlt
      exact ⟨ly, q, by rw [hty]; exact hly, hidq, hq3, by omega, by rw [hty]; exact hctq⟩
  have hqw : ∀ k le, h2.load (h2.class_table_ k) = some le → le.cid = kForwardingCorpseCid →
      ∃ (ly : Layout) (q : Nat), h2.load le.header_hash_ = some ly ∧
        ly.refs[Behavior.classid_index]? = some (SmallInteger.New (q : Int)) ∧
        kFirstLegalCid ≤ q ∧ q < 2 ^ 32 := by
    intro k le a b
    obtain ⟨ly, q, c1, c2, c3, c4, -⟩ := hq k le a b
    exact ⟨ly, q, c1, c2, c3, c4⟩
  have hAll : ∀ n, Ascending n h2 := Ascending_all hJ hA
  have hK2 : ¬ IsHeapObject (h1.resolve (h1.class_table_ l1.cid)) ∨
      InTable h2 (h1.resolve (h1.class_table_ l1.cid)) := hK.imp id (hT12 _).2
  obtain ⟨l2, hl2, hc2, -, hr2⟩ := hV.present o l1 hl1
  have hP2 : Pending h2 h2 o (h1.resolve (h1.class_table_ l1.cid)) := by
    refine ⟨l2, h1.class_table_ l1.cid, hl2, by rw [hr2]; exact hv1, ?_, ?_⟩
    · rw [hc2]
      exact hV.table l1.cid
    · exact Resolving_resolve hV _
  have hR2 : Raised l1.cid h2 o := ⟨l2, hl2, by rw [hc2]⟩
  have hM3 : Migrating h2 h3 := Migrating_ForwardRoots (Migrating_refl h2) e3
  have hP3 := Pending_ForwardRoots (Migrating_refl h2) hlegal hK2 hP2 e3
  have hR3 := Raised_ForwardRoots hR2 e3
  have hbounds : ∀ i ∈ List.range' 1 (h3.table_size_ - 1), 1 ≤ i ∧ i < h2.table_size_ := by
    intro i hi
    rw [List.mem_range'_1, hM3.table.2] at hi
    omega
  unfold ForwardHeap at e4
  obtain ⟨hM4, -, hS4⟩ := Settled_ForwardHeap_loop hlegal hq hK2 _ h3 h4 hM3 hbounds hP3 e4
  have hR4 := Raised_ForwardHeap_loop hqw hAll _ h3 h4 hM3 hbounds hR3 e4
  obtain ⟨i, hi1, hi2, hio⟩ := hoT
  have hvis : ∃ j ∈ List.range' 1 (h3.table_size_ - 1), h2.table_ j = o := by
    refine ⟨i, ?_, by rw [hJ.table.1]; exact hio⟩
    rw [List.mem_range'_1, hM3.table.2, hJ.table.2]
    omega
  obtain ⟨l4, v, hl4, hv4, hc4, -, hn4⟩ := hS4 (Or.inr hvis)
  obtain ⟨l4', hl4', hge⟩ := hR4
  rw [hl4] at hl4'
  cases hl4'
  obtain ⟨hl5, -⟩ := Mourn_loop_frame _ _ _ e5
  obtain ⟨-, hk5⟩ := Mourn_loop_class_table _ _ _ e5
  have hne : l4.cid ≠ kEphemeronCid := by
    intro hcon
    rw [hcon] at hge
    omega
  refine ⟨l4, by rw [hl5]; exact hl4, hge, ?_⟩
  rw [hv4, hn4 hne]
  rcases hk5 l4.cid with ⟨a, -⟩ | ⟨-, a⟩
  · rw [a, hM4.class_table.1, hc4]
  · exfalso
    rw [hM4.class_table.1, hc4, not_corpse_fixed hM4 hlegal hK2] at a
    cases a

end psoup


namespace psoup

/-- `BecomeForward` keeps the class ids in step with the classes: when the class table is in
order and the forwardee of every forwarder that is registered in the class table is registered
itself or holds nil in its class id slot, a regular object of the object table whose Ref
`klass_` had the entry of the class table at its class id as its target is, afterwards, a
regular object for which this holds. -/
theorem classed_BecomeForward {h h' : Heap} {old neu : Object} {lo ln : Layout}
    (hR : Registry h) (hT : TableInv h) (hwb : WeakBitsClear h)
    (hnil : IsHeapObject h.interpreter_.nil_obj)
    (hlo : h.load old = some lo) (hln : h.load neu = some ln)
    (hso : SmallInteger.value lo.size_ = (lo.refs.length : Int))
    (hsn : SmallInteger.value ln.size_ = (ln.refs.length : Int))
    (hnd : lo.refs.Nodup) (hdis : ∀ x ∈ lo.refs, x ∉ ln.refs)
    (hoF : old ∉ lo.refs) (hnF : neu ∉ lo.refs) (hFT : ∀ x ∈ lo.refs, InTable h x)
    (hGT : ∀ y ∈ ln.refs, InTable h y)
    (hcls : ∀ (i : Nat) (f y : Object) (lf ly : Layout), lo.refs[i]? = some f →
      ln.refs[i]? = some y → h.load f = some lf → h.load y = some ly →
      lf.in_class_table = true →
      ly.in_class_table = true ∨
        ly.refs[Behavior.classid_index]? = some h.interpreter_.nil_obj)
    (he : BecomeForward h old neu = some (true, h')) {o : Object}
    (hoT : InTable h' o) (hc : h.classed o) : h'.classed o := by
  obtain ⟨h1, h2, h3, h4, h5, hlen, ec, hF, e2, e3, e4, e5, rfl⟩ :=
    BecomeForward_phases hT hwb hlo hln hso hsn hnd hdis hoF hnF hFT he
  have hbits := corpses_bits hT hwb hlo hln hnd hdis hoF hnF hFT (List.range lo.refs.length) []
    h h1 (Forwarding_refl hT _ _)
    (fun i hi => ⟨List.not_mem_nil i, List.mem_range.1 hi, hlen ▸ List.mem_range.1 hi⟩)
    (List.nodup_range _)
    (fun o l0 l hl0 hl _ => by
      rw [hl0] at hl
      cases hl
      constructor
      · exact Or.inl
      · rintro (hb | ⟨i, hi, -⟩)
        · exact hb
        · exact absurd hi (List.not_mem_nil i)) ec
  have hmemP : ∀ (i : Nat) (f : Object), lo.refs[i]? = some f →
      i ∈ List.range lo.refs.length ++ [] := by
    intro i f hFi
    rw [List.append_nil, List.mem_range]
    by_contra hcon
    rw [List.getElem?_eq_none (by omega)] at hFi
    cases hFi
  have hK1 : ∀ (i : Nat) (f y : Object), lo.refs[i]? = some f → ln.refs[i]? = some y →
      ∃ l, h1.load f = some l ∧ l.cid = kForwardingCorpseCid ∧ l.header_hash_ = y :=
    fun i f y hFi hGi => hF.corpses i (hmemP i f hFi) f y hFi hGi
  have hT1 : TableInv h1 := hF.table
  have hnil1 : IsHeapObject h1.interpreter_.nil_obj := by rw [hF.interp]; exact hnil
  have hsmall : h1.class_table_size_ ≤ 2 ^ 32 := by rw [hF.class_table.2]; exact hR.small
  -- the storage and the bit of an object that is not a forwarder
  have hkeep : ∀ c l0, c ∉ lo.refs → h.load c = some l0 → ∃ l, h1.load c = some l ∧
      l.refs = l0.refs ∧ (l.in_class_table = true ↔ (l0.in_class_table = true ∨
        ∃ i ∈ List.range lo.refs.length ++ [], ∃ f lf, lo.refs[i]? = some f ∧
          ln.refs[i]? = some c ∧ h.load f = some lf ∧ lf.in_class_table = true)) := by
    intro c l0 hc hl0
    obtain ⟨l, hl, -, hsame⟩ := hF.present c l0 hl0
    have hun := (processed_iff lo.refs c).2 hc
    exact ⟨l, hl, (hsame hun).2.2, hbits c l0 l hl0 hl hun⟩
  have hJ0 : Renumbering h1 lo.refs ln.refs kFirstLegalCid h1 := by
    refine ⟨⟨rfl, rfl⟩, rfl, rfl, fun o l1 hl1 => ⟨l1, hl1, rfl, rfl, rfl⟩, ?_, ?_⟩
    · intro c l hcT1 hl1 hb
      obtain ⟨hcT, hun⟩ := (hF.inTable c).1 hcT1
      have hcF : c ∉ lo.refs := (processed_iff lo.refs c).1 hun
      obtain ⟨l0, hl0, -⟩ := load_of_InTable hT hcT
      obtain ⟨l', hl', hrefs, hiff⟩ := hkeep c l0 hcF hl0
      rw [hl1] at hl'
      cases hl'
      have hold : l0.in_class_table = true → ∃ k : Nat,
          l.refs[Behavior.classid_index]? = some (SmallInteger.New (k : Int)) ∧
            h1.class_table_ k = c := by
        intro hb0
        obtain ⟨k, hid, hct⟩ := hR.registered c l0 hcT hl0 hb0
        exact ⟨k, by rw [hrefs]; exact hid, by rw [hF.class_table.1]; exact hct⟩
      rcases hiff.1 hb with hb0 | ⟨i, -, f, lf, hFi, hGi, hlf, hbf⟩
      · exact Or.inl (hold hb0)
      · rcases hcls i f c lf l0 hFi hGi hlf hl0 hbf with hb0 | hn
        · exact Or.inl (hold hb0)
        · right
          obtain ⟨kf, -, hctf⟩ := hR.registered f lf (hFT f (List.getElem?_mem hFi)) hlf hbf
          have hheap : IsHeapObject (h.class_table_ kf) := by
            rw [hctf]; exact isHeapObject_of_load hlf
          obtain ⟨hk3, -⟩ := hR.entries kf hheap
          exact ⟨by rw [hrefs, hF.interp]; exact hn, kf, i, hk3, hGi,
            by rw [hF.class_table.1, hctf]; exact hFi⟩
    · intro k hk
      rw [hF.class_table.1] at hk ⊢
      obtain ⟨a, b, cT, l0, hl0, hb0, hid0⟩ := hR.entries k hk
      refine ⟨a, by rw [hF.class_table.2]; exact b, ?_⟩
      by_cases hcF : h.class_table_ k ∈ lo.refs
      · right
        obtain ⟨i, hFi⟩ := List.getElem?_of_mem hcF
        have hi : i < ln.refs.length := by
          have := List.mem_range.1 (by simpa using hmemP i _ hFi)
          omega
        have hGi : ln.refs[i]? = some ln.refs[i] := List.getElem?_eq_getElem hi
        have hyG : ln.refs[i] ∈ ln.refs := List.getElem_mem hi
        have hyF : ln.refs[i] ∉ lo.refs := fun hcon => hdis _ hcon hyG
        have hyT := hGT _ hyG
        obtain ⟨ly0, hly0, -⟩ := load_of_InTable hT hyT
        obtain ⟨ly, hly, -, hiff⟩ := hkeep _ ly0 hyF hly0
        exact ⟨i, ln.refs[i], ly, hFi, hGi,
          (hF.inTable _).2 ⟨hyT, (processed_iff lo.refs _).2 hyF⟩, hly,
          hiff.2 (Or.inr ⟨i, hmemP i _ hFi, _, l0, hFi, hGi, hl0, hb0⟩)⟩
      · left
        obtain ⟨l, hl, hrefs, hiff⟩ := hkeep _ l0 hcF hl0
        exact ⟨(hF.inTable _).2 ⟨cT, (processed_iff lo.refs _).2 hcF⟩, l, hl,
          hiff.2 (Or.inl hb0), by rw [hrefs]; exact hid0⟩
  -- the heap after `ForwardClassIds`
  have hpass : ∃ pf, Renumbering h1 lo.refs ln.refs pf h2 ∧ h1.class_table_size_ ≤ pf ∧
      Resolving h1 h2 ∧ Ascending h2.class_table_size_ h2 := by
    have h3 : kFirstLegalCid = 3 := rfl
    unfold ForwardClassIds at e2
    by_cases hsz : kFirstLegalCid ≤ h1.class_table_size_
    · have hJ2 := Renumbering_loop hK1 hT1 hnd hnil1 hsmall
        (h1.class_table_size_ - kFirstLegalCid) kFirstLegalCid h1 h2 hJ0 (le_refl _)
        (by omega) e2
      have hV2 := Resolving_loop hK1 hT1 hnd hnil1 hsmall
        (h1.class_table_size_ - kFirstLegalCid) kFirstLegalCid h1 h2 hJ0 (Resolving_refl h1)
        (le_refl _) (by omega) e2
      have hA2 := Ascending_loop hK1 hT1 hnd hnil1 hsmall
        (h1.class_table_size_ - kFirstLegalCid) kFirstLegalCid h1 h2 hJ0 (Ascending_base hJ0)
        (le_refl _) (by omega) e2
      refine ⟨_, hJ2, by omega, hV2, ?_⟩
      rw [hJ2.size]
      rw [show kFirstLegalCid + (h1.class_table_size_ - kFirstLegalCid) =
        h1.class_table_size_ by omega] at hA2
      exact hA2
    · have hz : h1.class_table_size_ - kFirstLegalCid = 0 := by omega
      rw [hz] at e2
      simp only [List.range'_zero, ForwardClassIds.loop, Option.some.injEq] at e2
      subst e2
      refine ⟨_, hJ0, by omega, Resolving_refl h1, ?_⟩
      intro k q le ly hk hle hcl hly hid hq
      exact Ascending_base hJ0 k q le ly (by omega) hle hcl hly hid hq
  obtain ⟨pf, hJ2, hpf, hV2, hA2⟩ := hpass
  -- the object tables
  obtain ⟨-, -, -, t5, s5⟩ := Mourn_loop_frame _ _ _ e5
  have hM3 : Migrating h2 h3 := Migrating_ForwardRoots (Migrating_refl h2) e3
  have hoT1 : InTable h1 o := by
    have hqw : ∀ k le, h2.load (h2.class_table_ k) = some le →
        le.cid = kForwardingCorpseCid →
        ∃ (ly : Layout) (q : Nat), h2.load le.header_hash_ = some ly ∧
          ly.refs[Behavior.classid_index]? = some (SmallInteger.New (q : Int)) ∧
          kFirstLegalCid ≤ q ∧ q < 2 ^ 32 := by
      intro k le hle hlec
      obtain ⟨-, -, alt⟩ := hJ2.entries k (isHeapObject_of_load hle)
      rcases alt with ⟨cT, -⟩ | ⟨i, y, ly, hFi, hGi, hyT, hly, hby⟩
      · exfalso
        obtain ⟨l1, hl1, hcid, -⟩ := load_of_InTable hT1 cT
        obtain ⟨l2, hl2, hc2, -⟩ := hJ2.present _ l1 hl1
        rw [hle] at hl2
        cases hl2
        rw [hlec] at hc2
        rw [← hc2] at hcid
        exact absurd hcid (by decide)
      · obtain ⟨l1, hl1, -, hh1⟩ := hK1 i _ y hFi hGi
        obtain ⟨le', hle', -, -, hh⟩ := hJ2.present _ l1 hl1
        rw [hle] at hle'
        cases hle'
        have hty : le.header_hash_ = y := hh.trans hh1
        rcases hJ2.registered y ly hyT hly hby with ⟨q, hidq, hctq⟩ | ⟨-, k2, i2, hpk, hG2, hF2⟩
        · have hqh : IsHeapObject (h2.class_table_ q) := by
            rw [hctq]; exact isHeapObject_of_load hly
          obtain ⟨hq3, hqlt, -⟩ := hJ2.entries q hqh
          rw [hJ2.size] at hqlt
          exact ⟨ly, q, by rw [hty]; exact hly, hidq, hq3, by omega⟩
        · exfalso
          obtain ⟨lf, hlf, -⟩ := hK1 i2 _ y hF2 hG2
          obtain ⟨-, hlt, -⟩ := hJ2.entries k2 (isHeapObject_of_load hlf)
          rw [hJ2.size] at hlt
          omega
    have hM4 : Migrating h2 h4 := by
      refine Migrating_ForwardHeap_loop hqw _ h3 h4 hM3 ?_ e4
      intro i hi
      rw [List.mem_range'_1, hM3.table.2] at hi
      omega
    have hoT5 : InTable h5 o := hoT
    unfold InTable at hoT5 ⊢
    rw [t5, s5, hM4.table.1, hM4.table.2, hJ2.table.1, hJ2.table.2] at hoT5
    exact hoT5
  obtain ⟨hoT0, hun⟩ := (hF.inTable o).1 hoT1
  have hoF' : o ∉ lo.refs := (processed_iff lo.refs o).1 hun
  obtain ⟨l0, hl0, hreg0, hv0⟩ := hc
  obtain ⟨l1, hl1, -, hsame⟩ := hF.present o l0 hl0
  obtain ⟨hc1, -, hr1⟩ := hsame hun
  have hv1 : l1.refs[RegularObject.klass_index]? = some (h1.class_table_ l1.cid) := by
    rw [hr1, hc1, hF.class_table.1]
    exact hv0
  have hreg1 : kEphemeronCid < l1.cid := by
    rw [hc1]
    have : kEphemeronCid < kFirstRegularObjectCid := by decide
    omega
  -- the class that the entry stands for
  have hK : ¬ IsHeapObject (h1.resolve (h1.class_table_ l1.cid)) ∨
      InTable h1 (h1.resolve (h1.class_table_ l1.cid)) := by
    rw [hF.class_table.1]
    by_cases hheap : IsHeapObject (h.class_table_ l1.cid)
    · right
      obtain ⟨-, -, cT, lk, hlk, -⟩ := hR.entries _ hheap
      by_cases hcF : h.class_table_ l1.cid ∈ lo.refs
      · obtain ⟨i, hFi⟩ := List.getElem?_of_mem hcF
        have hi : i < ln.refs.length := by
          have := List.mem_range.1 (by simpa using hmemP i _ hFi)
          omega
        have hGi : ln.refs[i]? = some ln.refs[i] := List.getElem?_eq_getElem hi
        have hyG : ln.refs[i] ∈ ln.refs := List.getElem_mem hi
        have hyF : ln.refs[i] ∉ lo.refs := fun hcon => hdis _ hcon hyG
        obtain ⟨lf, hlf, hcf, hhf⟩ := hK1 i _ _ hFi hGi
        rw [resolve_of_corpse hlf hcf, hhf]
        exact (hF.inTable _).2 ⟨hGT _ hyG, (processed_iff lo.refs _).2 hyF⟩
      · have hkT1 : InTable h1 (h.class_table_ l1.cid) :=
          (hF.inTable _).2 ⟨cT, (processed_iff lo.refs _).2 hcF⟩
        rw [resolve_of_not_corpse]
        · exact hkT1
        · intro l hl hcon
          exact corpse_not_InTable hT1 hl hcon hkT1
    · left
      rw [resolve_of_not_corpse]
      · exact hheap
      · intro l hl
        exact absurd (isHeapObject_of_load hl) hheap
  obtain ⟨l5, hl5, hge, hv5⟩ :=
    classed_passes hK1 hT1 hsmall hJ2 hpf hV2 hA2 e3 e4 e5 hoT1 hl1 hreg1 hv1 hK
  exact ⟨l5, hl5, by rw [hc1] at hge; omega, hv5⟩

end psoup


namespace psoup

/-! ## The head of the free list of class ids before `MournClassTableForwarded` -/

theorem free_UpdateNoCheck {h h' : Heap} {r : RefPtr} {v : Object}
    (he : UpdateNoCheck h r v = some h') : h'.class_table_free_ = h.class_table_free_ := by
  obtain ⟨t, -, -, -, rfl⟩ := UpdateNoCheck_eq_some.1 he
  rfl

theorem free_modify {h h' : Heap} {x : Object} {f : Layout → Layout}
    (he : h.modify x f = some h') : h'.class_table_free_ = h.class_table_free_ :=
  (modify_spec he).2.2.2.2.2.2.2.2

theorem free_Unlink_weak : ∀ (fuel : Nat) (h h' : Heap) (obj : Object) (ref : Option RefPtr),
    Unlink.weak fuel h obj ref = some h' → h'.class_table_free_ = h.class_table_free_ := by
  intro fuel
  induction fuel with
  | zero =>
    intro h h' obj ref he
    cases ref with
    | none =>
      simp only [Unlink.weak, Option.some.injEq] at he
      subst he
      rfl
    | some r => simp [Unlink.weak] at he
  | succ n ih =>
    intro h h' obj ref he
    cases ref with
    | none =>
      simp only [Unlink.weak, Option.some.injEq] at he
      subst he
      rfl
    | some r =>
      simp only [Unlink.weak, Option.bind_eq_some] at he
      obtain ⟨o, -, t, -, h1, e1, e2⟩ := he
      rw [ih h1 h' obj _ e2, free_UpdateNoCheck e1]

theorem free_Unlink_outgoing (obj : Object) : ∀ (is : List Nat) (h h' : Heap),
    Unlink.outgoing h obj is = some h' → h'.class_table_free_ = h.class_table_free_ := by
  intro is
  induction is with
  | nil =>
    intro h h' he
    simp only [Unlink.outgoing, Option.some.injEq] at he
    subst he
    rfl
  | cons i rest ih =>
    intro h h' he
    simp only [Unlink.outgoing, Option.bind_eq_some] at he
    obtain ⟨t, -, h1, e1, e2⟩ := he
    rw [ih h1 h' e2]
    split_ifs at e1
    · cases e1
      rfl
    · exact free_UpdateNoCheck e1

theorem free_Unlink_table {h h' : Heap} {obj : Object} (he : Unlink.table h obj = some h') :
    h'.class_table_free_ = h.class_table_free_ := by
  unfold Unlink.table at he
  simp only [Option.bind_eq_some] at he
  obtain ⟨o, -, he⟩ := he
  split_ifs at he
  simp only [Option.bind_eq_some, Option.some.injEq] at he
  obtain ⟨g1, e1, g3, e3, rfl⟩ := he
  have a := free_modify e1
  have b := free_modify e3
  exact b.trans a

theorem free_Unlink {h h' : Heap} {obj : Object} (he : Unlink h obj = some h') :
    h'.class_table_free_ = h.class_table_free_ := by
  unfold Unlink at he
  simp only [Option.bind_eq_some] at he
  obtain ⟨o, -, h1, e1, o1, -, h2, e2, e3⟩ := he
  rw [free_Unlink_table e3, free_Unlink_outgoing _ _ _ _ e2]
  split_ifs at e1
  · exact free_Unlink_weak _ _ _ _ _ e1
  · cases e1
    rfl

theorem free_pair {h h' : Heap} {f y : Object} (he : BecomeForward.pair h f y = some h') :
    h'.class_table_free_ = h.class_table_free_ := by
  unfold BecomeForward.pair at he
  simp only [Option.bind_eq_some] at he
  obtain ⟨fr, -, h1, e1, fe1, -, fr1, -, h2, e2, fr2, -, h3, e3, h4, e4, fr4, -, h5, e5, e6⟩ := he
  have a5 : h5.class_table_free_ = h4.class_table_free_ := by
    split_ifs at e5
    · exact free_modify e5
    · cases e5
      rfl
  rw [free_modify e6, a5, free_modify e4, free_Unlink e3, free_modify e2, free_modify e1]

theorem free_corpses {old neu : Object} : ∀ (is : List Nat) (h h' : Heap),
    BecomeForward.corpses h old neu is = some h' →
    h'.class_table_free_ = h.class_table_free_ := by
  intro is
  induction is with
  | nil =>
    intro h h' he
    simp only [BecomeForward.corpses, Option.some.injEq] at he
    subst he
    rfl
  | cons i rest ih =>
    intro h h' he
    simp only [BecomeForward.corpses, Option.bind_eq_some] at he
    obtain ⟨f, -, y, -, h1, e1, e2⟩ := he
    rw [ih h1 h' e2, free_pair e1]

theorem free_ForwardClassIds_loop : ∀ (is : List Nat) (h h' : Heap),
    ForwardClassIds.loop h is = some h' → h'.class_table_free_ = h.class_table_free_ := by
  intro is
  induction is with
  | nil =>
    intro h h' he
    simp only [ForwardClassIds.loop, Option.some.injEq] at he
    subst he
    rfl
  | cons i rest ih =>
    intro h h' he
    simp only [ForwardClassIds.loop, Option.bind_eq_some] at he
    obtain ⟨h1, e1, e2⟩ := he
    rw [ih h1 h' e2]
    unfold ForwardClassIds.step at e1
    simp only [Option.bind_eq_some] at e1
    obtain ⟨b, -, e1⟩ := e1
    split_ifs at e1
    · cases e1
      rfl
    · simp only [Option.bind_eq_some, Option.map_eq_some'] at e1
      obtain ⟨l, -, id, -, ga, ea, gb, eb, rfl⟩ := e1
      show gb.class_table_free_ = h.class_table_free_
      have hb : gb.class_table_free_ = ga.class_table_free_ := free_UpdateNoCheck eb
      rw [hb]
      split_ifs at ea
      · exact (class_table_put_eq_some ea).2.2.2.2.2.2.2.2.1
      · cases ea
        rfl

theorem free_ForwardPointers : ∀ (rs : List RefPtr) (h h' : Heap),
    ForwardPointers h rs = some h' → h'.class_table_free_ = h.class_table_free_ := by
  intro rs
  induction rs with
  | nil =>
    intro h h' he
    simp only [ForwardPointers, Option.some.injEq] at he
    subst he
    rfl
  | cons r rest ih =>
    intro h h' he
    simp only [ForwardPointers, Option.bind_eq_some] at he
    obtain ⟨h1, e1, e2⟩ := he
    rw [ih h1 h' e2]
    unfold ForwardPointer at e1
    simp only [Option.bind_eq_some] at e1
    obtain ⟨t, -, b, -, e1⟩ := e1
    split_ifs at e1
    · simp only [Option.bind_eq_some] at e1
      obtain ⟨l, -, hu⟩ := e1
      exact free_UpdateNoCheck hu
    · cases e1
      rfl

theorem free_ForwardRoots {h h' : Heap} (he : ForwardRoots h = some h') :
    h'.class_table_free_ = h.class_table_free_ := by
  unfold ForwardRoots at he
  simp only [Option.bind_eq_some] at he
  obtain ⟨hs, -, ga, e2, e3⟩ := he
  rw [free_ForwardPointers _ _ _ e3, free_ForwardPointers _ _ _ e2]

theorem free_ForwardHeap_loop : ∀ (is : List Nat) (h h' : Heap),
    ForwardHeap.loop h is = some h' → h'.class_table_free_ = h.class_table_free_ := by
  intro is
  induction is with
  | nil =>
    intro h h' he
    simp only [ForwardHeap.loop, Option.some.injEq] at he
    subst he
    rfl
  | cons i rest ih =>
    intro h h' he
    simp only [ForwardHeap.loop, ForwardHeap.step, Option.bind_eq_some] at he
    obtain ⟨gb, ⟨ga, e1, o, -, e2⟩, e3⟩ := he
    rw [ih gb h' e3, free_ForwardPointers _ _ _ e2]
    unfold ForwardClass at e1
    simp only [Option.bind_eq_some] at e1
    obtain ⟨lo, -, c, -, b, -, e1⟩ := e1
    split_ifs at e1
    · simp only [Option.bind_eq_some] at e1
      obtain ⟨l, -, id, -, hs⟩ := e1
      exact free_modify hs
    · cases e1
      rfl

/-- The passes of `BecomeForward` before `MournClassTableForwarded` leave the head of the free
list of class ids as it is. -/
theorem free_beforeMourn {h h4 : Heap} {old neu : Object}
    (he : BecomeForward.beforeMourn h old neu = some h4) :
    h4.class_table_free_ = h.class_table_free_ := by
  unfold BecomeForward.beforeMourn at he
  simp only [Option.bind_eq_some] at he
  obtain ⟨n, -, h1, e1, h2, e2, h3, e3, e4⟩ := he
  unfold ForwardHeap at e4
  unfold ForwardClassIds at e2
  rw [free_ForwardHeap_loop _ _ _ e4, free_ForwardRoots e3, free_ForwardClassIds_loop _ _ _ e2,
    free_corpses _ _ _ e1]

end psoup


namespace psoup

/-- Counterexample to C38: `staleIdInstanceHeap` satisfies the data-model invariants and its
class table is in order: the classes `C1` at 7 and `C2` at 9 are registered under the class ids
14 and 15, the object `Y` at 17, whose class id slot holds the small integer 15, has its
in-class-table bit clear, and the regular object at 19 is an instance of `C2`: its class id is
15 and its Ref `klass_` has `C2` as its target.  The become of `[C1]` into `[Y]` returns true.
Afterwards the object at 19 is in the object table, a regular object with the class id 15 and
with `C2` as the target of its Ref `klass_`, but `ClassAt(15)` is `Y`. -/
theorem class_table_after_become_counterexample :
    checkWellFormed staleIdInstanceHeap = true ∧
    checkWeakBitsClear staleIdInstanceHeap = true ∧
    checkRegistry staleIdInstanceHeap = true ∧
    Array.element staleIdInstanceHeap 13 0 = some 7 ∧
    Array.element staleIdInstanceHeap 15 0 = some 17 ∧
    inTable staleIdInstanceHeap 19 = true ∧ staleIdInstanceHeap.classed 19 ∧
    ((BecomeForward staleIdInstanceHeap 13 15).map fun p => p.1) = some true ∧
    inTable staleIdInstanceForwarded 19 = true ∧
    (staleIdInstanceForwarded.load 19).map (fun l => l.cid) = some 15 ∧
    Ref_to staleIdInstanceForwarded (.slot 19 RegularObject.klass_index) = some 9 ∧
    ClassAt staleIdInstanceForwarded 15 = some 17 ∧
    ¬ staleIdInstanceForwarded.classed 19 := by
  refine ⟨by decide, by decide, by decide, by rfl, by rfl, by rfl,
    ⟨Layout.sample 15 10 [.root 7] [9], by rfl, by decide, by rfl⟩,
    by rfl, by rfl, by rfl, by rfl, by rfl, ?_⟩
  rintro ⟨l, hl, -, hv⟩
  have hc : (staleIdInstanceForwarded.load 19).map (fun l =>
      decide (l.refs[RegularObject.klass_index]? =
        some (staleIdInstanceForwarded.class_table_ l.cid))) = some false := by rfl
  rw [hl] at hc
  simp only [Option.map_some', Option.some.injEq, decide_eq_false_iff_not] at hc
  exact hc hv

/-- C38 (amended): when `BecomeForward` returns true, no entry of the class table at a class id
from `kFirstLegalCid` to `class_table_size_ - 1` is a forwarding corpse; the class ids whose
entry was a forwarding corpse when `MournClassTableForwarded` started are chained onto the free
list of class ids, starting from the head that the list had before the call, each once, and the
other entries are as they were at that point; and, when the class table was in order before the
call, the forwarders are distinct objects of the object table, none of them a forwardee or one
of the two arrays, the forwardees are objects of the object table and the forwardee of every
forwarder that is registered in the class table is registered itself or holds nil in its class
id slot, every regular object of the object table for which `ClassAt(o.cid())` was the target
of its Ref `klass_` before the call is a regular object for which it is so after the call. -/
theorem class_table_after_become (h h' : Heap) (old neu : Object)
    (he : BecomeForward h old neu = some (true, h')) :
    (∀ k, kFirstLegalCid ≤ k → k < h'.class_table_size_ →
      IsForwardingCorpse h' (h'.class_table_ k) = some false) ∧
    (∃ h4, BecomeForward.beforeMourn h old neu = some h4 ∧
      ReleasedChain h' h.class_table_free_ ((corpseSlots h4).map Int.ofNat) ∧
      (corpseSlots h4).Nodup ∧
      ∀ k, k ∉ corpseSlots h4 → kFirstLegalCid ≤ k → k < h4.class_table_size_ →
        h'.class_table_ k = h4.class_table_ k) ∧
    (∀ (lo ln : Layout), Registry h → TableInv h → WeakBitsClear h →
      IsHeapObject h.interpreter_.nil_obj →
      h.load old = some lo → h.load neu = some ln →
      SmallInteger.value lo.size_ = (lo.refs.length : Int) →
      SmallInteger.value ln.size_ = (ln.refs.length : Int) →
      lo.refs.Nodup → (∀ x ∈ lo.refs, x ∉ ln.refs) → old ∉ lo.refs → neu ∉ lo.refs →
      (∀ x ∈ lo.refs, InTable h x) → (∀ y ∈ ln.refs, InTable h y) →
      (∀ (i : Nat) (f y : Object) (lf ly : Layout), lo.refs[i]? = some f →
        ln.refs[i]? = some y → h.load f = some lf → h.load y = some ly →
        lf.in_class_table = true →
        ly.in_class_table = true ∨
          ly.refs[Behavior.classid_index]? = some h.interpreter_.nil_obj) →
      ∀ o, InTable h' o → h.classed o → h'.classed o) := by
  obtain ⟨n, h1, h2, h3, h4, h5, hn, -, -, e1, e2, e3, e4, e5, rfl⟩ := BecomeForward_true_eq he
  obtain ⟨m1, m2, m3, m4, m5⟩ := Mourn_spec e5
  have hb : BecomeForward.beforeMourn h old neu = some h4 := by
    unfold BecomeForward.beforeMourn
    simp only [hn, e1, e2, e3, e4, Option.some_bind]
  refine ⟨?_, ⟨h4, hb, ?_, m4, m5⟩, ?_⟩
  · intro k hk3 hklt
    have := m2 k hk3 hklt
    rw [← IsForwardingCorpse_congr (load_ClearCache h5)] at this
    exact this
  · rw [← free_beforeMourn hb]
    exact @ReleasedChain_congr h5 (ClearCache h5) rfl rfl _ _ m3
  · intro lo ln hR hT hwb hnil hlo hln hso hsn hnd hdis hoF hnF hFT hGT hcls o hoT hc
    exact classed_BecomeForward hR hT hwb hnil hlo hln hso hsn hnd hdis hoF hnF hFT hGT hcls he
      hoT hc

/-- The become of `[C1]` into `[C2]` in `classHeap`, whose class table is in order and in which
`C1` and `C2` are registered under the class ids 14 and 15: no entry of the class table is a
forwarding corpse afterwards, the class id 14 is chained onto the free list, and the instance of
`C1` at 11 is a regular object whose class id names the target `C2` of its Ref `klass_`. -/
theorem class_table_after_become_witness :
    BecomeForward classHeap 13 15 = some (true, classHeapForwarded) ∧
    (∀ k, kFirstLegalCid ≤ k → k < classHeapForwarded.class_table_size_ →
      IsForwardingCorpse classHeapForwarded (classHeapForwarded.class_table_ k) = some false) ∧
    (∃ h4, BecomeForward.beforeMourn classHeap 13 15 = some h4 ∧
      ReleasedChain classHeapForwarded classHeap.class_table_free_
        ((corpseSlots h4).map Int.ofNat) ∧
      (corpseSlots h4).Nodup ∧
      ∀ k, k ∉ corpseSlots h4 → kFirstLegalCid ≤ k → k < h4.class_table_size_ →
        classHeapForwarded.class_table_ k = h4.class_table_ k) ∧
    classHeap.classed 11 ∧ classHeapForwarded.classed 11 := by
  obtain ⟨w1, w2, w3⟩ := class_table_after_become classHeap classHeapForwarded 13 15 (by rfl)
  have hR : Registry classHeap := Registry_of_check (by decide) (fun k hk => by
    show ¬ IsHeapObject (if k = 14 then 7 else if k = 15 then 9 else 0)
    have h24 : (24 : Nat) ≤ k := hk
    rw [if_neg (by omega), if_neg (by omega)]
    exact not_isHeapObject_nullptr)
  have hwf := WellFormed_of_check (h := classHeap) (by decide)
  have hc : classHeap.classed 11 :=
    ⟨Layout.sample 14 6 [.root 3] [7], by rfl, by decide, by rfl⟩
  refine ⟨by rfl, w1, w2, hc, ?_⟩
  exact w3 (Layout.sample kArrayCid 7 [.root 4] [7]) (Layout.sample kArrayCid 8 [.root 5] [9])
    hR hwf.1 (WeakBitsClear_of_check (by decide)) (by decide) (by rfl) (by rfl) (by rfl)
    (by rfl) (by decide) (by decide) (by decide) (by decide)
    (fun x hx => by
      have hx7 : x = 7 := List.mem_singleton.1 hx
      subst hx7
      exact (inTable_iff _ _).1 (by rfl))
    (fun y hy => by
      have hy9 : y = 9 := List.mem_singleton.1 hy
      subst hy9
      exact (inTable_iff _ _).1 (by rfl))
    (fun i f y lf ly _ hGi _ hly _ => by
      have hy9 : y = 9 := List.mem_singleton.1 (List.getElem?_mem hGi)
      subst hy9
      have h9 : classHeap.load 9 =
          some (Layout.sampleClass 5 88 [.slot 15 0] (SmallInteger.New 15) true) := by rfl
      rw [h9] at hly
      cases hly
      exact Or.inl (by rfl))
    11 ((inTable_iff _ _).1 (by rfl)) hc

end psoup


namespace psoup

/-! ## The allocators of `vm/heap.h`, each as the shared statements and its own -/

/-- An allocator with statements after `RegisterInstance`, in terms of `AllocateObject`. -/
theorem AllocateObject_then (h : Heap) (cid heap_size : Nat) (allocator : Allocator)
    (random : Nat × Nat × Nat) (addr : Nat) (raw : Layout) (F : Heap → Object → Option Heap) :
    ((Allocate h heap_size allocator random addr raw).bind fun h1 =>
      (h1.modify (FromAddr addr) fun l => l.Initialize cid heap_size).bind fun h2 =>
      (RegisterInstance h2 (FromAddr addr)).bind fun h3 =>
      (F h3 (FromAddr addr)).map fun h4 => (FromAddr addr, h4)) =
    (AllocateObject h cid heap_size allocator random addr raw).bind fun p =>
      (F p.2 p.1).map fun h4 => (p.1, h4) := by
  unfold AllocateObject
  dsimp only
  cases Allocate h heap_size allocator random addr raw with
  | none => rfl
  | some h1 =>
    simp only [Option.some_bind]
    cases h1.modify (FromAddr addr) fun l => l.Initialize cid heap_size with
    | none => rfl
    | some h2 =>
      simp only [Option.some_bind]
      cases RegisterInstance h2 (FromAddr addr) with
      | none => rfl
      | some h3 => rfl

/-- An allocator with no statement after `RegisterInstance`, in terms of `AllocateObject`. -/
theorem AllocateObject_plain (h : Heap) (cid heap_size : Nat) (allocator : Allocator)
    (random : Nat × Nat × Nat) (addr : Nat) (raw : Layout) :
    AllocateObject h cid heap_size allocator random addr raw =
    (AllocateObject h cid heap_size allocator random addr raw).bind fun p =>
      (some p.2).map fun h4 => (p.1, h4) := by
  cases AllocateObject h cid heap_size allocator random addr raw with
  | none => rfl
  | some p => rfl

/-- Every allocator of `vm/heap.h` is `AllocateObject` with its class id and its heap size,
followed by its statements after `RegisterInstance`. -/
theorem Allocation_run_eq (a : Allocation) (h : Heap) (allocator : Allocator)
    (random : Nat × Nat × Nat) (addr : Nat) (raw : Layout) :
    a.run h allocator random addr raw =
      (AllocateObject h a.cid a.heap_size allocator random addr raw).bind fun p =>
        (a.finish allocator p.2 p.1).map fun h4 => (p.1, h4) := by
  cases a with
  | regularObject cid n =>
    exact AllocateObject_then h cid _ allocator random addr raw
      (fun h3 obj => if allocator ≠ Allocator.kSnapshot then
        init_klass h3 obj (h3.class_table_ cid) else some h3)
  | byteArray n =>
    exact AllocateObject_then h kByteArrayCid _ allocator random addr raw
      (fun h3 obj => init_size h3 obj (SmallInteger.New (n : Int)))
  | string n =>
    exact AllocateObject_then h kStringCid _ allocator random addr raw
      (fun h3 obj => init_size h3 obj (SmallInteger.New (n : Int)))
  | array n =>
    exact AllocateObject_then h kArrayCid _ allocator random addr raw
      (fun h3 obj => init_size h3 obj (SmallInteger.New (n : Int)))
  | weakArray n =>
    exact AllocateObject_then h kWeakArrayCid _ allocator random addr raw
      (fun h3 obj => init_size h3 obj (SmallInteger.New (n : Int)))
  | closure n =>
    exact AllocateObject_then h kClosureCid _ allocator random addr raw
      (fun h3 obj => init_num_copied h3 obj (SmallInteger.New (n : Int)))
  | activation => exact AllocateObject_plain h kActivationCid _ allocator random addr raw
  | mediumInteger => exact AllocateObject_plain h kMintCid _ allocator random addr raw
  | largeInteger n =>
    exact AllocateObject_then h kBigintCid _ allocator random addr raw
      (fun h3 obj => LargeInteger.set_capacity h3 obj (n : Int))
  | float64 => exact AllocateObject_plain h kFloat64Cid _ allocator random addr raw

/-- An allocator that returns has run `AllocateObject` and then its own statements. -/
theorem Allocation_run_spec {a : Allocation} {h h' : Heap} {allocator : Allocator}
    {random : Nat × Nat × Nat} {addr : Nat} {raw : Layout} {obj : Object}
    (he : a.run h allocator random addr raw = some (obj, h')) :
    ∃ h3, AllocateObject h a.cid a.heap_size allocator random addr raw = some (obj, h3) ∧
      a.finish allocator h3 obj = some h' := by
  rw [Allocation_run_eq] at he
  simp only [Option.bind_eq_some, Option.map_eq_some', Prod.mk.injEq] at he
  obtain ⟨p, e1, h4, e2, rfl, rfl⟩ := he
  exact ⟨p.2, e1, e2⟩

/-- What the statements of an allocator after `RegisterInstance` are: nothing, a store to a
field of the new object that is not a Ref (`size_`, `num_copied_`, `capacity_`), or
`init_klass`, which moves the Ref `klass_` of the new object from null to the class. -/
theorem Allocation_finish_cases {a : Allocation} {allocator : Allocator} {h3 h' : Heap}
    {obj : Object} (he : a.finish allocator h3 obj = some h') :
    h' = h3 ∨
    (∃ f : Layout → Layout, (∀ l, ∃ s, f l = { l with size_ := s }) ∧
      h3.modify obj f = some h') ∨
    (allocator ≠ Allocator.kSnapshot ∧ ∃ cid n, a = Allocation.regularObject cid n ∧
      h' = h3.retarget (.slot obj RegularObject.klass_index) nullptr (h3.class_table_ cid)) := by
  cases a with
  | regularObject cid n =>
    simp only [Allocation.finish] at he
    split_ifs at he with hs
    · right; right
      refine ⟨hs, cid, n, rfl, ?_⟩
      unfold init_klass at he
      exact (Ref_Init_eq_some.1 he).2.2
    · left
      cases he
      rfl
  | byteArray n => exact Or.inr (Or.inl ⟨_, fun l => ⟨_, rfl⟩, he⟩)
  | string n => exact Or.inr (Or.inl ⟨_, fun l => ⟨_, rfl⟩, he⟩)
  | array n => exact Or.inr (Or.inl ⟨_, fun l => ⟨_, rfl⟩, he⟩)
  | weakArray n => exact Or.inr (Or.inl ⟨_, fun l => ⟨_, rfl⟩, he⟩)
  | closure n => exact Or.inr (Or.inl ⟨_, fun l => ⟨_, rfl⟩, he⟩)
  | activation =>
    left
    simp only [Allocation.finish] at he
    cases he
    rfl
  | mediumInteger =>
    left
    simp only [Allocation.finish] at he
    cases he
    rfl
  | largeInteger n => exact Or.inr (Or.inl ⟨_, fun l => ⟨l.size_, rfl⟩, he⟩)
  | float64 =>
    left
    simp only [Allocation.finish] at he
    cases he
    rfl

/-- The statements of an allocator after `RegisterInstance` keep the object table, the heap
size and the other members of the heap. -/
theorem Allocation_finish_rest {a : Allocation} {allocator : Allocator} {h3 h' : Heap}
    {obj : Object} (he : a.finish allocator h3 obj = some h') :
    h'.table_ = h3.table_ ∧ h'.table_size_ = h3.table_size_ ∧
    h'.table_capacity_ = h3.table_capacity_ ∧ h'.heap_size_ = h3.heap_size_ ∧
    Heap.SameRest h3 h' := by
  rcases Allocation_finish_cases he with rfl | ⟨f, -, hm⟩ | ⟨-, cid, n, -, rfl⟩
  · exact ⟨rfl, rfl, rfl, rfl, rfl, rfl, rfl, rfl, rfl, rfl, rfl, rfl⟩
  · exact modify_rest hm
  · exact ⟨rfl, rfl, rfl, rfl, rfl, rfl, rfl, rfl, rfl, rfl, rfl, rfl⟩

/-- The statements of an allocator after `RegisterInstance` keep, for every object but the new
one, each relation that holds across `Ref::UpdateNoCheck`. -/
theorem Allocation_finish_Kept {P : Layout → Layout → Prop} (hP : Respects P)
    {a : Allocation} {allocator : Allocator} {h3 h' : Heap}
    {obj : Object} (he : a.finish allocator h3 obj = some h') :
    Kept (fun o => o = obj) P h3 h' := by
  rcases Allocation_finish_cases he with rfl | ⟨f, -, hm⟩ | ⟨-, cid, n, -, rfl⟩
  · exact Kept_refl hP _ _
  · exact Kept_modify hP hm (Or.inl rfl)
  · intro o l' _ hl'
    rw [load_retarget] at hl'
    obtain ⟨l, hl, rfl⟩ := Option.map_eq_some'.1 hl'
    exact ⟨l, hl, hP.retarget _ _ _ o l⟩

/-- The statements after `RegisterInstance` of an allocator return, and change the storage of
no object but the new one, when the allocator is `kSnapshot` or the call is not of
`AllocateRegularObject` (which calls `init_klass` in normal mode). -/
theorem Allocation_finish_total (a : Allocation) {allocator : Allocator}
    (hreg : allocator = Allocator.kSnapshot ∨ ∀ cid n, a ≠ Allocation.regularObject cid n)
    {h3 : Heap} {obj : Object} {L : Layout} (hl : h3.load obj = some L) :
    ∃ h' L', a.finish allocator h3 obj = some h' ∧
      ∀ o, h'.load o = if o = obj then some L' else h3.load o := by
  have hmod : ∀ f : Layout → Layout, ∃ h' L', h3.modify obj f = some h' ∧
      ∀ o, h'.load o = if o = obj then some L' else h3.load o := by
    intro f
    obtain ⟨h4, e4⟩ : ∃ h4, h3.modify obj f = some h4 := ⟨_, modify_eq_some.2 ⟨_, hl, rfl⟩⟩
    exact ⟨h4, f L, e4, modify_load hl e4⟩
  have hid : ∃ h' L', some h3 = some h' ∧
      ∀ o, h'.load o = if o = obj then some L' else h3.load o := by
    refine ⟨h3, L, rfl, fun o => ?_⟩
    by_cases ho : o = obj
    · rw [if_pos ho, ho, hl]
    · rw [if_neg ho]
  cases a with
  | regularObject cid n =>
    rcases hreg with hs | hn
    · simp only [Allocation.finish]
      rw [if_neg (fun hne => hne hs)]
      exact hid
    · exact absurd rfl (hn cid n)
  | byteArray n => exact hmod _
  | string n => exact hmod _
  | array n => exact hmod _
  | weakArray n => exact hmod _
  | closure n => exact hmod _
  | activation => exact hid
  | mediumInteger => exact hid
  | largeInteger n => exact hmod _
  | float64 => exact hid

/-- Every allocator of `vm/heap.h` keeps, for every object but the new one, each relation that
holds across `Ref::UpdateNoCheck`, `set_table_index` and changes of the mark bits. -/
theorem Allocation_Kept {P : Layout → Layout → Prop} (hP : Respects P)
    (hI : RespectsIndex P) (hM : RespectsMarks P) {h h' : Heap} (hwf : WeaklyFormed h)
    {a : Allocation} {allocator : Allocator} {random : Nat × Nat × Nat} {addr : Nat}
    {raw : Layout} {obj : Object}
    (he : a.run h allocator random addr raw = some (obj, h')) :
    Kept (fun o => o = obj) P h h' := by
  obtain ⟨h3, e3, e4⟩ := Allocation_run_spec he
  obtain ⟨h0, e0, -, -, -, -, -, -, -, -, -, hload⟩ := AllocateObject_spec e3
  have k0 : Kept (fun o => o = obj) P h h0 := by
    split_ifs at e0
    · exact (GCStep_Kept hP hI hM hwf e0).1
    · cases e0; exact Kept_refl hP _ h
  have k3 : Kept (fun o => o = obj) P h0 h3 := by
    intro o l' ho hl'
    rw [hload o, if_neg ho] at hl'
    exact ⟨l', hl', hP.refl l'⟩
  exact Kept_trans hP k0 (Kept_trans hP k3 (Allocation_finish_Kept hP e4))

/-- An allocator that is called with `kSnapshot`, or is not `AllocateRegularObject`, returns
the object at the block of `malloc`, and changes the heap `h0` after the `GCStep` of
`Heap::Allocate` (the heap of the call in snapshot mode) as `SnapshotFrame` says. -/
theorem Allocation_frame {h h0 : Heap} {allocator : Allocator} {random : Nat × Nat × Nat}
    {addr : Nat} (a : Allocation) (raw : Layout)
    (hgc : (if allocator ≠ Allocator.kSnapshot then GCStep h random.1 random.2.1 random.2.2
       else some h) = some h0) (hfresh : h0.fresh addr)
    (hreg : allocator = Allocator.kSnapshot ∨ ∀ cid n, a ≠ Allocation.regularObject cid n) :
    ∃ h', a.run h allocator random addr raw = some (FromAddr addr, h') ∧
      SnapshotFrame h0 (FromAddr addr) a.heap_size h' := by
  obtain ⟨h3, e3⟩ := AllocateObject_total hgc hfresh a.cid a.heap_size raw
  obtain ⟨h0', e0, -, -, hobj, hnone, ht, hs, hz, hc, hr, hl⟩ := AllocateObject_spec e3
  rw [hgc] at e0
  cases e0
  obtain ⟨h', L', e4, hl4⟩ :=
    Allocation_finish_total a hreg ((hl (FromAddr addr)).trans (if_pos rfl))
  obtain ⟨t4, s4, c4, z4, r4⟩ := Allocation_finish_rest e4
  refine ⟨h', ?_, SnapshotFrame_intro (L := L') hobj hnone (t4.trans ht) (s4.trans hs)
    (z4.trans hz) (by rw [c4]; exact hc) (SameRest_trans hr r4) ?_⟩
  · rw [Allocation_run_eq, e3]
    simp only [Option.some_bind]
    rw [e4]
    rfl
  · intro o
    rw [hl4 o]
    by_cases ho : o = FromAddr addr
    · rw [if_pos ho, if_pos ho]
    · rw [if_neg ho, if_neg ho, hl o, if_neg ho]

/-- C23: allocation in snapshot mode runs no GC.  Let `a` be a call of any of the allocators
of `vm/heap.h` (`AllocateRegularObject`, `AllocateByteArray`, `AllocateString`,
`AllocateArray`, `AllocateWeakArray`, `AllocateClosure`, `AllocateActivation`,
`AllocateMediumInteger`, `AllocateLargeInteger`, `AllocateFloat64`) with any arguments and the
allocator `kSnapshot`.  When `malloc` returns a block, the call returns the object at the
block, and the heap after the call differs from the heap before as `SnapshotFrame` says: the
new object had no storage; every other object has the storage it had, so no header bit, slot
or incoming list of an existing object changes; every entry of the object table stays, and the
new object is the entry at the old `table_size_`; `heap_size_` has grown by the allocation
size `heap_size` that the allocator computes in 64-bit words (`Allocation.heap_size`);
`gc_count_` and the other members are the same (the capacity of the table may have grown to
make room for the new entry). -/
theorem Snapshot_allocation_frame (a : Allocation) (h : Heap) (random : Nat × Nat × Nat)
    (addr : Nat) (raw : Layout) (hfresh : h.fresh addr) :
    ∃ h', a.run h Allocator.kSnapshot random addr raw = some (FromAddr addr, h') ∧
      SnapshotFrame h (FromAddr addr) a.heap_size h' :=
  Allocation_frame a raw (snapshot_gc h random) hfresh (Or.inl rfl)

/-- Witness of C23: `AllocateArray(2)` and `AllocateRegularObject(14, 2)` in snapshot mode in
`cycleHeap`, where `malloc` returns the block at the address 10; the allocation sizes are 128
bytes each. -/
theorem Snapshot_allocation_frame_witness :
    cycleHeap.fresh 10 ∧
    (Allocation.array 2).heap_size = 128 ∧ (Allocation.regularObject 14 2).heap_size = 128 ∧
    (∃ h', AllocateArray cycleHeap 2 Allocator.kSnapshot (4, 1, 2) 10
        (Layout.sample 0 0 [] [0, 0]) = some (FromAddr 10, h') ∧
      SnapshotFrame cycleHeap (FromAddr 10) 128 h') ∧
    (∃ h', AllocateRegularObject cycleHeap 14 2 Allocator.kSnapshot (4, 1, 2) 10
        (Layout.sample 0 0 [] [0, 0]) = some (FromAddr 10, h') ∧
      SnapshotFrame cycleHeap (FromAddr 10) 128 h') :=
  ⟨⟨by decide, by decide, by rfl⟩, by decide, by decide,
    Snapshot_allocation_frame (Allocation.array 2) cycleHeap (4, 1, 2) 10
      (Layout.sample 0 0 [] [0, 0]) ⟨by decide, by decide, by rfl⟩,
    Snapshot_allocation_frame (Allocation.regularObject 14 2) cycleHeap (4, 1, 2) 10
      (Layout.sample 0 0 [] [0, 0]) ⟨by decide, by decide, by rfl⟩⟩

end psoup

namespace psoup

/-- C19 as amended: the identity hash is stable for every object that is not a forwardee.
`HashStable X h h'` says that every object outside `X` with storage before and after has the
same `header_hash()`.  It holds, for all objects but the new one, across every call of an
allocator of `vm/heap.h` (`AllocateRegularObject`, `AllocateByteArray`, `AllocateString`,
`AllocateArray`, `AllocateWeakArray`, `AllocateClosure`, `AllocateActivation`,
`AllocateMediumInteger`, `AllocateLargeInteger`, `AllocateFloat64`; `AllocateMessage` allocates
through `AllocateRegularObject`), in either mode and with its `GCStep`, on a heap that
satisfies the data-model invariants; for all objects across
`set_table_index` and `Unlink` of any object and across `GCStep` on a heap that satisfies the
data-model invariants; and across `BecomeForward` for all objects that are neither forwarders
nor forwardees (in a heap with legal class ids and clear weak-referent bits, for arrays whose
length slots hold their lengths whose forwarders are distinct objects of the table, none of them
a forwardee or one of the two arrays).  A forwardee does not keep its identity hash: after
the become of `[a]` into `[b]`, for distinct objects `a` and `b`, the identity hash of `b` is
the one `a` had. -/
theorem header_hash_stable :
    (∀ (a : Allocation) (h h' : Heap) (allocator : Allocator) (random : Nat × Nat × Nat)
      (addr : Nat) (raw : Layout) (obj : Object), WellFormed h →
      a.run h allocator random addr raw = some (obj, h') →
      HashStable (fun o => o = obj) h h') ∧
    (∀ (h h' : Heap) (x : Object) (v : Nat), set_table_index h x v = some h' →
      HashStable (fun _ => False) h h') ∧
    (∀ (h h' : Heap) (x : Object), Unlink h x = some h' → HashStable (fun _ => False) h h') ∧
    (∀ (h h' : Heap) (random0 random1 random2 : Nat), WellFormed h →
      GCStep h random0 random1 random2 = some h' → HashStable (fun _ => False) h h') ∧
    (∀ (h h' : Heap) (old neu : Object) (lo ln : Layout) (b : Bool), TableInv h →
      WeakBitsClear h → h.load old = some lo → h.load neu = some ln →
      SmallInteger.value lo.size_ = (lo.refs.length : Int) →
      SmallInteger.value ln.size_ = (ln.refs.length : Int) →
      lo.refs.Nodup → (∀ x ∈ lo.refs, x ∉ ln.refs) → old ∉ lo.refs → neu ∉ lo.refs →
      (∀ x ∈ lo.refs, InTable h x) → BecomeForward h old neu = some (b, h') →
      HashStable (fun o => o ∈ lo.refs ∨ o ∈ ln.refs) h h') ∧
    (∀ (h h' : Heap) (old neu a b : Object) (lo ln la : Layout), h.load old = some lo →
      h.load neu = some ln → lo.refs = [a] → ln.refs = [b] →
      SmallInteger.value lo.size_ = 1 → a ≠ b → h.load a = some la →
      BecomeForward h old neu = some (true, h') →
      ∃ lb', h'.load b = some lb' ∧ lb'.header_hash = la.header_hash) := by
  obtain ⟨hP, hI, hM, hC⟩ := Respects_SameHash
  refine ⟨?_, ?_, ?_, ?_, ?_, ?_⟩
  · intro a h h' allocator random addr raw obj hwf he
    exact HashStable_of_Kept (Allocation_Kept hP hI hM (WeaklyFormed_of_WellFormed hwf) he)
  · intro h h' x v he
    exact HashStable_of_Kept (Kept_set_table_index hP hI he)
  · intro h h' x he
    exact HashStable_of_Kept (Unlink_Kept hP hI he).1
  · intro h h' random0 random1 random2 hwf he
    exact HashStable_of_Kept (GCStep_Kept hP hI hM (WeaklyFormed_of_WellFormed hwf) he).1
  · intro h h' old neu lo ln b hT hwb hlo hln hso hsn hnd hdis hoF hnF hFT he
    cases b with
    | false =>
      rw [BecomeForward_false_eq he]
      exact HashStable_of_Kept (Kept_refl hP _ h)
    | true =>
      exact HashStable_of_Kept
        (BecomeForward_Kept hP hI hC hT hwb hlo hln hso hsn hnd hdis hoF hnF hFT he).1
  · intro h h' old neu a b lo ln la hlo hln hro hrn hso hab hla he
    exact BecomeForward_forwardee_hash hlo hln hro hrn hso hab hla he

/-- Witness of C19 as amended: `AllocateClosure(2)` in normal mode in `cycleHeap`, whose
`GCStep` collects the arrays at 7 and 9 and where `malloc` returns the block at the address 10;
that `GCStep` alone; and the become of `[a]` into `[b]` in `becomeHeap`. -/
theorem header_hash_stable_witness :
    (∃ h', AllocateClosure cycleHeap 2 Allocator.kNormal (4, 1, 2) 10
        (Layout.sample 0 0 [] [0, 0, 0, 0, 0]) = some (FromAddr 10, h') ∧
      HashStable (fun o => o = FromAddr 10) cycleHeap h') ∧
    HashStable (fun _ => False) cycleHeap cycleHeapCollected ∧
    HashStable (fun o => o ∈ [7] ∨ o ∈ [9]) becomeHeap (becomeResult becomeHeap 13 15).2 := by
  obtain ⟨w1, -, -, w4, w5, -⟩ := header_hash_stable
  obtain ⟨h', e, -⟩ := @Allocation_frame cycleHeap cycleHeapCollected
    Allocator.kNormal (4, 1, 2) 10 (Allocation.closure 2)
    (Layout.sample 0 0 [] [0, 0, 0, 0, 0]) (by rfl) ⟨by decide, by decide, by rfl⟩
    (Or.inr (fun _ _ hc => Allocation.noConfusion hc))
  refine ⟨⟨h', e, w1 (Allocation.closure 2) cycleHeap h' Allocator.kNormal (4, 1, 2) 10 _ _
    (WellFormed_of_check (by decide)) e⟩, w4 cycleHeap cycleHeapCollected 4 1 2 (WellFormed_of_check (by decide)) (by rfl), ?_⟩
  exact w5 becomeHeap (becomeResult becomeHeap 13 15).2 13 15
    (Layout.sample kArrayCid 7 [.root 4] [7]) (Layout.sample kArrayCid 8 [.root 5] [9]) true
    (WellFormed_of_check (by decide)).1 (WeakBitsClear_of_check (by decide)) (by rfl)
    (by rfl) (by rfl) (by rfl) (by decide) (by decide) (by decide) (by decide)
    (fun x hx => by
      have hx7 : x = 7 := List.mem_singleton.1 hx
      subst hx7
      exact ⟨4, by decide, by decide, rfl⟩) (by rfl)

end psoup


namespace psoup

/-! ## The heap-size accounting across the allocators and across `BecomeForward` -/

theorem Respects_SameExtent : Respects Layout.SameExtent ∧ RespectsIndex Layout.SameExtent ∧
    RespectsMarks Layout.SameExtent ∧ RespectsHeader Layout.SameExtent ∧
    RespectsCid Layout.SameExtent := by
  refine ⟨⟨fun _ => ⟨rfl, rfl, rfl, rfl⟩, fun a b c h1 h2 => ?_, fun r t v o l => ?_⟩,
    fun _ _ => ⟨rfl, rfl, rfl, rfl⟩, ?_,
    ⟨fun _ _ => ⟨rfl, rfl, rfl, rfl⟩, fun _ _ => ⟨rfl, rfl, rfl, rfl⟩⟩,
    fun _ _ => ⟨rfl, rfl, rfl, rfl⟩⟩
  · obtain ⟨a1, a2, a3, a4⟩ := h1
    obtain ⟨b1, b2, b3, b4⟩ := h2
    exact ⟨b1.trans a1, b2.trans a2, b3.trans a3, b4.trans a4⟩
  · exact ⟨rfl, rfl, rfl, Layout_retarget_refs_length r t v o l⟩
  · intro l l' hs
    obtain ⟨-, -, e3, -, -, -, e7, e8, e9⟩ := (SameButMarks_iff l l').1 hs
    exact ⟨e3, e7, e8, by rw [e9]⟩

/-- `HeapSize()` is the same when the fields it reads other than the class id are the same and
the size field is non-zero (`HeapSize()` is then the size field) or the class id is the
same. -/
theorem HeapSize_of_SameExtent {l l' : Layout} (hs : Layout.SameExtent l l')
    (hc : l.size_field ≠ 0 ∨ l'.cid = l.cid) : l'.HeapSize = l.HeapSize := by
  obtain ⟨e1, e2, e3, e4⟩ := hs
  by_cases hz : l.size_field = 0
  · have hcid : l'.cid = l.cid := hc.resolve_left (fun hn => hn hz)
    exact HeapSize_of_SameSize ⟨e1, hcid, e2, e3, e4⟩
  · have h1 : l.heap_size ≠ 0 := by
      unfold Layout.heap_size
      rw [Nat.shiftLeft_eq]
      exact Nat.mul_ne_zero hz (by positivity)
    have h2 : l'.heap_size = l.heap_size := by
      unfold Layout.heap_size
      rw [e1]
    unfold Layout.HeapSize
    rw [h2, if_pos h1, if_pos h1]

theorem AllocationWord_aligned (x : Nat) : AllocationWord x % kObjectAlignment = 0 := by
  have e : AllocationWord x = (x % 2 ^ 64 + 32 - 1) / 32 * 32 % 2 ^ 64 := rfl
  have k : kObjectAlignment = 32 := rfl
  rw [e, k]
  omega

theorem Allocation_heap_size_aligned (a : Allocation) : a.heap_size % kObjectAlignment = 0 := by
  cases a <;> exact AllocationWord_aligned _

/-- `HeapSize()` of storage that `Initialize` has given a non-zero size that fits the size
field. -/
theorem HeapSize_of_tag {L : Layout} {heap_size : Nat} (hpos : 0 < heap_size)
    (hal : heap_size % kObjectAlignment = 0)
    (hv : SizeField.is_valid (heap_size >>> kObjectAlignmentLog2))
    (ht : L.size_field = if SizeField.is_valid (heap_size >>> kObjectAlignmentLog2) then
      heap_size >>> kObjectAlignmentLog2 else 0) : L.HeapSize = heap_size := by
  rw [if_pos hv] at ht
  unfold Layout.HeapSize Layout.heap_size
  rw [ht, shift_round_trip heap_size hal, if_pos (by omega)]

/-- The statements of an allocator after `RegisterInstance` keep `HeapSize()` of every other
object. -/
theorem Allocation_finish_sizeOf {a : Allocation} {allocator : Allocator} {h3 h' : Heap}
    {obj : Object} (he : a.finish allocator h3 obj = some h') (o : Object) (ho : o ≠ obj) :
    h'.sizeOf o = h3.sizeOf o := by
  rcases Allocation_finish_cases he with rfl | ⟨f, -, hm⟩ | ⟨-, cid, n, -, rfl⟩
  · rfl
  · obtain ⟨-, hload, -⟩ := modify_spec hm
    unfold Heap.sizeOf
    rw [hload o, if_neg ho]
  · unfold Heap.sizeOf
    rw [load_retarget]
    cases h3.load o with
    | none => rfl
    | some l => exact HeapSize_of_SameSize (Respects_SameSize.1.retarget _ _ _ o l)

/-- The statements of an allocator after `RegisterInstance` keep the size field of the new
object. -/
theorem Allocation_finish_tag {a : Allocation} {allocator : Allocator} {h3 h' : Heap}
    {obj : Object} (he : a.finish allocator h3 obj = some h') {L : Layout}
    (hl : h3.load obj = some L) :
    ∃ L', h'.load obj = some L' ∧ L'.size_field = L.size_field := by
  rcases Allocation_finish_cases he with rfl | ⟨f, hf, hm⟩ | ⟨-, cid, n, -, rfl⟩
  · exact ⟨L, hl, rfl⟩
  · refine ⟨f L, (modify_load hl hm obj).trans (if_pos rfl), ?_⟩
    obtain ⟨s, hs⟩ := hf L
    rw [hs]
  · exact ⟨Layout.retarget _ _ _ obj L, by rw [load_retarget, hl]; rfl, rfl⟩

/-- The heap size and the sum over the object table after a call of an allocator, in terms of
the allocation size and of `HeapSize()` of the new object. -/
theorem Allocation_accounting {h h' : Heap} (hwf : WeaklyFormed h) (hA : Accounted h)
    {a : Allocation} {allocator : Allocator} {random : Nat × Nat × Nat} {addr : Nat}
    {raw : Layout} {obj : Object}
    (he : a.run h allocator random addr raw = some (obj, h')) :
    h'.heap_size_ - (a.heap_size : Int) = (tableHeapSize h' : Int) - (h'.sizeOf obj : Int) ∧
    ∃ L', h'.load obj = some L' ∧
      L'.size_field = if SizeField.is_valid (a.heap_size >>> kObjectAlignmentLog2) then
        a.heap_size >>> kObjectAlignmentLog2 else 0 := by
  obtain ⟨h3, e3, e4⟩ := Allocation_run_spec he
  obtain ⟨h0, e0, -, -, -, hnone, ht, hsz, hz, -, -, hload⟩ := AllocateObject_spec e3
  obtain ⟨t4, s4, -, z4, -⟩ := Allocation_finish_rest e4
  have h0p : WeaklyFormed h0 ∧ Accounted h0 := by
    split_ifs at e0
    · exact ⟨(GCStep_Kept (X := fun _ => False) Respects_SameBit.1 Respects_SameBit.2.1
        Respects_SameBit.2.2.1 hwf e0).2.1, Accounted_GCStep hwf hA e0⟩
    · cases e0; exact ⟨hwf, hA⟩
  obtain ⟨hwf0, hA0⟩ := h0p
  have hsize1 : 1 ≤ h0.table_size_ := hwf0.1.1
  have hobj : ∀ o, InTable h0 o → o ≠ obj := by
    rintro o ho rfl
    obtain ⟨l, hl, -⟩ := load_of_InTable hwf0.1 ho
    rw [hnone] at hl
    cases hl
  have hobjs : tableObjects h' = tableObjects h0 ++ [obj] := by
    unfold tableObjects
    rw [s4, t4, hsz, ht]
    have e : h0.table_size_ + 1 - 1 = (h0.table_size_ - 1) + 1 := by omega
    rw [e, List.range'_1_concat, List.map_append]
    congr 1
    · apply List.map_congr_left
      intro i hi
      obtain ⟨-, hi2⟩ := List.mem_range'_1.1 hi
      rw [Function.update_noteq (by omega)]
    · have e2 : 1 + (h0.table_size_ - 1) = h0.table_size_ := by omega
      rw [e2]
      simp
  have hsum : tableHeapSize h' = tableHeapSize h0 + h'.sizeOf obj := by
    unfold tableHeapSize
    rw [hobjs, List.map_append, List.sum_append]
    congr 1
    · congr 1
      apply List.map_congr_left
      intro o ho
      have hne := hobj o ((mem_tableObjects h0 o).1 ho)
      rw [Allocation_finish_sizeOf e4 o hne]
      unfold Heap.sizeOf
      rw [hload o, if_neg hne]
  constructor
  · unfold Accounted at hA0
    rw [z4, hz, hA0, hsum]
    push_cast
    omega
  · obtain ⟨L', hL', hf⟩ := Allocation_finish_tag e4 ((hload obj).trans (if_pos rfl))
    exact ⟨L', hL', hf⟩

end psoup


namespace psoup

/-- The heap size and the object table after a `BecomeForward` that returns true:
`heap_size_` is unchanged, the forwarders have left the object table, and every object that is
not a forwarder keeps the fields that `HeapSize` reads other than the class id. -/
theorem BecomeForward_extent {h h' : Heap} {old neu : Object} {lo ln : Layout}
    (hT : TableInv h) (hwb : WeakBitsClear h)
    (hlo : h.load old = some lo) (hln : h.load neu = some ln)
    (hso : SmallInteger.value lo.size_ = (lo.refs.length : Int))
    (hsn : SmallInteger.value ln.size_ = (ln.refs.length : Int))
    (hnd : lo.refs.Nodup) (hdis : ∀ x ∈ lo.refs, x ∉ ln.refs)
    (hoF : old ∉ lo.refs) (hnF : neu ∉ lo.refs) (hFT : ∀ x ∈ lo.refs, InTable h x)
    (he : BecomeForward h old neu = some (true, h')) :
    h'.heap_size_ = h.heap_size_ ∧ (∀ o, InTable h' o ↔ (InTable h o ∧ o ∉ lo.refs)) ∧
    Kept (fun o => o ∈ lo.refs) Layout.SameExtent h h' ∧ ObjectTable h' := by
  obtain ⟨-, hz, hmem⟩ := BecomeForward_Kept Respects_SameHash.1 Respects_SameHash.2.1
    Respects_SameHash.2.2.2 hT hwb hlo hln hso hsn hnd hdis hoF hnF hFT he
  obtain ⟨h1, h2, h3, h4, h5, hlen, e1, hfg, e2, e3, e4, e5, rfl⟩ :=
    BecomeForward_phases hT hwb hlo hln hso hsn hnd hdis hoF hnF hFT he
  obtain ⟨hP, -, -, hH, hC⟩ := Respects_SameExtent
  have k1 := corpses_Kept_header hP hH hwb hlo hln hnd
    hdis hoF hnF hFT (List.range lo.refs.length) [] h h1 (Forwarding_refl hT _ _)
    (fun i hi => ⟨by simp, List.mem_range.1 hi, hlen ▸ List.mem_range.1 hi⟩)
    (List.nodup_range _) e1
  have hp := Passed_become hP hC e2 e3 e4 e5
  have hk : Kept (fun o => o ∈ lo.refs) Layout.SameExtent h (ClearCache h5) :=
    Kept_trans hP k1 (Passed_Kept hp _)
  have hO' : ObjectTable (ClearCache h5) :=
    ObjectTable_Passed (ObjectTable_of_TableInv hfg.table)
      (Passed_become Respects_SameIndex.1 Respects_SameIndex.2.2 e2 e3 e4 e5)
  exact ⟨hz, hmem, hk, hO'⟩

/-- The sum of the sizes over the object table, split into the objects that stay and the
objects that leave. -/
theorem tableHeapSize_split {h h' : Heap} {F : List Object} (hO : ObjectTable h)
    (hO' : ObjectTable h') (hF : F.Nodup) (hmem : ∀ o, InTable h' o ↔ (InTable h o ∧ o ∉ F))
    (hsub : ∀ o ∈ F, InTable h o) :
    tableHeapSize h = ((tableObjects h').map h.sizeOf).sum + (F.map h.sizeOf).sum := by
  unfold tableHeapSize
  refine sum_split h.sizeOf (tableObjects_nodup hO) (tableObjects_nodup hO') hF ?_ ?_
  · intro o
    rw [mem_tableObjects, mem_tableObjects]
    exact hmem o
  · intro o ho
    rw [mem_tableObjects]
    exact hsub o ho

/-- An object of the object table has a non-zero size field when the check says that all
have. -/
theorem size_field_of_check {h : Heap} (hc : sizeFieldsSet h = true) {o : Object} {l : Layout}
    (ho : InTable h o) (hl : h.load o = some l) : l.size_field ≠ 0 := by
  unfold sizeFieldsSet at hc
  have := List.all_eq_true.1 hc o ((mem_tableObjects h o).2 ho)
  rw [hl] at this
  exact of_decide_eq_true this

end psoup


namespace psoup

/-- The storage of the new object after the statements of an allocator that stores a length:
the class id and the Refs are those after `RegisterInstance`, and the length slot holds the
length. -/
theorem Allocation_finish_sized {a : Allocation} {allocator : Allocator} {h3 h' : Heap}
    {obj : Object} (he : a.finish allocator h3 obj = some h') {L : Layout}
    (hl : h3.load obj = some L) {n : Nat}
    (ha : a = Allocation.byteArray n ∨ a = Allocation.string n ∨ a = Allocation.array n ∨
      a = Allocation.weakArray n) :
    h'.load obj = some { L with size_ := SmallInteger.New (n : Int) } := by
  have hm : init_size h3 obj (SmallInteger.New (n : Int)) = some h' := by
    rcases ha with rfl | rfl | rfl | rfl <;> exact he
  exact (modify_load hl hm obj).trans (if_pos rfl)

/-- `HeapSize()` of an array or weak array of `n` elements whose size field is the tag of its
allocation size, or zero when the tag does not fit. -/
theorem HeapSize_of_slots {L : Layout} {n : Nat} (hn : n < 2 ^ 58)
    (hc : L.cid = kArrayCid ∨ L.cid = kWeakArrayCid) (hr : L.refs.length = n)
    (ht : L.size_field =
      if SizeField.is_valid (AllocationWord (n * sizeofRef + 5 * kWordSize) >>>
        kObjectAlignmentLog2) then
        AllocationWord (n * sizeofRef + 5 * kWordSize) >>> kObjectAlignmentLog2 else 0) :
    L.HeapSize = AllocationWord (n * sizeofRef + 5 * kWordSize) := by
  have hw : AllocationWord (n * sizeofRef + 5 * kWordSize) =
      AllocationSize (n * sizeofRef + 5 * kWordSize) := by
    have e : AllocationWord (n * sizeofRef + 5 * kWordSize) =
        ((n * 32 + 40) % 2 ^ 64 + 32 - 1) / 32 * 32 % 2 ^ 64 := rfl
    have e2 : AllocationSize (n * sizeofRef + 5 * kWordSize) = (n * 32 + 40 + 32 - 1) / 32 * 32 :=
      rfl
    rw [e, e2]
    have h58 : (2 : Nat) ^ 58 = 288230376151711744 := by norm_num
    rw [h58] at hn
    omega
  have hpos : 0 < AllocationWord (n * sizeofRef + 5 * kWordSize) := by
    rw [hw]
    exact (AllocationSize_aligned _ (by unfold kWordSize; omega)).2.1
  by_cases hv : SizeField.is_valid (AllocationWord (n * sizeofRef + 5 * kWordSize) >>>
      kObjectAlignmentLog2)
  · exact HeapSize_of_tag hpos (AllocationWord_aligned _) hv ht
  · rw [if_neg hv] at ht
    have hn1 : ¬ (L.cid = kForwardingCorpseCid ∨ L.cid = kFreeListElementCid) := by
      rcases hc with hc | hc <;> rw [hc] <;> decide
    have hn2 : ¬ (L.cid = kByteArrayCid ∨ L.cid = kStringCid) := by
      rcases hc with hc | hc <;> rw [hc] <;> decide
    unfold Layout.HeapSize Layout.heap_size
    rw [ht]
    have e : (0 : Nat) <<< kObjectAlignmentLog2 = 0 := by simp
    rw [e, if_neg (by simp)]
    unfold HeapSizeFromClass
    rw [if_neg hn1, if_neg hn2, hr, hw]
    rfl

/-- `HeapSize()` of a byte array or string of `n` bytes whose size field is the tag of its
allocation size, or zero when the tag does not fit. -/
theorem HeapSize_of_bytes {L : Layout} {n : Nat} (hn : n < 2 ^ 62)
    (hc : L.cid = kByteArrayCid ∨ L.cid = kStringCid)
    (hs : L.size_ = SmallInteger.New (n : Int))
    (ht : L.size_field =
      if SizeField.is_valid (AllocationWord (n * sizeofUint8 + 5 * kWordSize) >>>
        kObjectAlignmentLog2) then
        AllocationWord (n * sizeofUint8 + 5 * kWordSize) >>> kObjectAlignmentLog2 else 0) :
    L.HeapSize = AllocationWord (n * sizeofUint8 + 5 * kWordSize) := by
  have hw : AllocationWord (n * sizeofUint8 + 5 * kWordSize) =
      AllocationSize (n + 5 * kWordSize) := by
    have e : AllocationWord (n * sizeofUint8 + 5 * kWordSize) =
        ((n * 1 + 40) % 2 ^ 64 + 32 - 1) / 32 * 32 % 2 ^ 64 := rfl
    have e2 : AllocationSize (n + 5 * kWordSize) = (n + 40 + 32 - 1) / 32 * 32 := rfl
    rw [e, e2]
    have h62 : (2 : Nat) ^ 62 = 4611686018427387904 := by norm_num
    rw [h62] at hn
    omega
  have hpos : 0 < AllocationWord (n * sizeofUint8 + 5 * kWordSize) := by
    rw [hw]
    exact (AllocationSize_aligned _ (by unfold kWordSize; omega)).2.1
  by_cases hv : SizeField.is_valid (AllocationWord (n * sizeofUint8 + 5 * kWordSize) >>>
      kObjectAlignmentLog2)
  · exact HeapSize_of_tag hpos (AllocationWord_aligned _) hv ht
  · rw [if_neg hv] at ht
    have hn1 : ¬ (L.cid = kForwardingCorpseCid ∨ L.cid = kFreeListElementCid) := by
      rcases hc with hc | hc <;> rw [hc] <;> decide
    have hval : SmallInteger.value L.size_ = (n : Int) := by
      rw [hs]
      apply SmallInteger_value_New
      · have : (0 : Int) ≤ (n : Int) := Int.natCast_nonneg n
        omega
      · exact_mod_cast hn
    unfold Layout.HeapSize Layout.heap_size
    rw [ht]
    have e : (0 : Nat) <<< kObjectAlignmentLog2 = 0 := by simp
    rw [e, if_neg (by simp)]
    unfold HeapSizeFromClass
    rw [if_neg hn1, if_pos hc, hval, hw, Int.toNat_ofNat]

end psoup


namespace psoup

/-- `HeapSize()` of the new object after a call of `AllocateByteArray` or `AllocateString`
with fewer than `2^62` bytes, or of `AllocateArray` or `AllocateWeakArray` with fewer than
`2^58` elements when the block holds as many Refs: the allocation size. -/
theorem Allocation_sized_sizeOf {h h' : Heap} {a : Allocation} {allocator : Allocator}
    {random : Nat × Nat × Nat} {addr : Nat} {raw : Layout} {obj : Object}
    (he : a.run h allocator random addr raw = some (obj, h')) {n : Nat}
    (hcase : ((a = Allocation.byteArray n ∨ a = Allocation.string n) ∧ n < 2 ^ 62) ∨
      ((a = Allocation.array n ∨ a = Allocation.weakArray n) ∧ n < 2 ^ 58 ∧
        raw.refs.length = n)) :
    h'.sizeOf obj = a.heap_size := by
  obtain ⟨h3, e3, e4⟩ := Allocation_run_spec he
  obtain ⟨h0, -, -, -, -, -, -, -, -, -, -, hload⟩ := AllocateObject_spec e3
  have hl3 := (hload obj).trans (if_pos rfl)
  have ha : a = Allocation.byteArray n ∨ a = Allocation.string n ∨ a = Allocation.array n ∨
      a = Allocation.weakArray n := by
    rcases hcase with ⟨h1 | h1, -⟩ | ⟨h1 | h1, -⟩
    · exact Or.inl h1
    · exact Or.inr (Or.inl h1)
    · exact Or.inr (Or.inr (Or.inl h1))
    · exact Or.inr (Or.inr (Or.inr h1))
  have hl' := Allocation_finish_sized e4 hl3 ha
  unfold Heap.sizeOf
  rw [hl']
  rcases hcase with ⟨h1 | h1, hn⟩ | ⟨h1 | h1, hn, hr⟩
  · subst h1
    exact HeapSize_of_bytes hn (Or.inl rfl) rfl rfl
  · subst h1
    exact HeapSize_of_bytes hn (Or.inr rfl) rfl rfl
  · subst h1
    exact HeapSize_of_slots hn (Or.inl rfl) hr rfl
  · subst h1
    exact HeapSize_of_slots hn (Or.inr rfl) hr rfl

/-- C18 as amended: the heap-size accounting (`Accounted`: `heap_size_` is the sum of
`HeapSize()` over the object table), on a heap that satisfies the data-model invariants.

Allocation: let `a` be a call of any allocator of `vm/heap.h` (`AllocateRegularObject`,
`AllocateByteArray`, `AllocateString`, `AllocateArray`, `AllocateWeakArray`, `AllocateClosure`,
`AllocateActivation`, `AllocateMediumInteger`, `AllocateLargeInteger`, `AllocateFloat64`;
`AllocateMessage` allocates through `AllocateRegularObject`), in either mode, with its
`GCStep`.  After the call `heap_size_` less the allocation size is the sum of `HeapSize()`
over the object table less `HeapSize()` of the new object, so the accounting holds exactly
when `HeapSize()` of the new object is the allocation size.  It is, and the accounting holds,
when the allocation size is not zero and fits the size field of the header; for a larger
object the size field is zero and `HeapSize()` is `HeapSizeFromClass()`, which recovers the
size of a byte array or string of fewer than `2^62` bytes from the length slot, and that of an
array or weak array of fewer than `2^58` elements from its Refs (`raw`, the block, has as many
Refs as the array has elements).

`GCStep` keeps the accounting.

`BecomeForward` does not keep it: when it returns true (in a heap with legal class ids and
clear weak-referent bits, for arrays whose length slots hold their lengths whose forwarders are
distinct objects of the table, none of them a forwardee or one of the two arrays),
`heap_size_` is unchanged while the forwarders have left the object table; every object that
stays keeps its size field, overflow size, length slot and number of Refs, and its
`HeapSize()` when its size field is not zero or its class id is unchanged; `heap_size_` is
the sum, over the objects that stay, of the `HeapSize()` they had before the call, plus the
sizes of the forwarders; and when every object that stays has a non-zero size field or an
unchanged class id, `heap_size_` is the sum of `HeapSize()` over the object table plus the
sizes of the forwarders. -/
theorem heap_size_accounting :
    (∀ (a : Allocation) (h h' : Heap) (allocator : Allocator) (random : Nat × Nat × Nat)
      (addr : Nat) (raw : Layout) (obj : Object), WellFormed h → Accounted h →
      a.run h allocator random addr raw = some (obj, h') →
      h'.heap_size_ - (a.heap_size : Int) = (tableHeapSize h' : Int) - (h'.sizeOf obj : Int) ∧
      (Accounted h' ↔ h'.sizeOf obj = a.heap_size) ∧
      (0 < a.heap_size → SizeField.is_valid (a.heap_size >>> kObjectAlignmentLog2) →
        Accounted h') ∧
      (∀ n, a = Allocation.byteArray n ∨ a = Allocation.string n → n < 2 ^ 62 →
        Accounted h') ∧
      (∀ n, a = Allocation.array n ∨ a = Allocation.weakArray n → n < 2 ^ 58 →
        raw.refs.length = n → Accounted h')) ∧
    (∀ (h h' : Heap) (random0 random1 random2 : Nat), WellFormed h → Accounted h →
      GCStep h random0 random1 random2 = some h' → Accounted h') ∧
    (∀ (h h' : Heap) (old neu : Object) (lo ln : Layout), TableInv h →
      WeakBitsClear h → h.load old = some lo → h.load neu = some ln →
      SmallInteger.value lo.size_ = (lo.refs.length : Int) →
      SmallInteger.value ln.size_ = (ln.refs.length : Int) →
      lo.refs.Nodup → (∀ x ∈ lo.refs, x ∉ ln.refs) → old ∉ lo.refs → neu ∉ lo.refs →
      (∀ x ∈ lo.refs, InTable h x) →
      BecomeForward h old neu = some (true, h') →
      h'.heap_size_ = h.heap_size_ ∧ (∀ o, InTable h' o ↔ (InTable h o ∧ o ∉ lo.refs)) ∧
      (∀ o l', InTable h' o → h'.load o = some l' →
        ∃ l, h.load o = some l ∧ Layout.SameExtent l l' ∧
          (l.size_field ≠ 0 ∨ l'.cid = l.cid → l'.HeapSize = l.HeapSize)) ∧
      (Accounted h →
        h'.heap_size_ = ((((tableObjects h').map h.sizeOf).sum : Nat) : Int) +
          ((lo.refs.map h.sizeOf).sum : Nat)) ∧
      (Accounted h →
        (∀ o l l', InTable h' o → h.load o = some l → h'.load o = some l' →
          l.size_field ≠ 0 ∨ l'.cid = l.cid) →
        h'.heap_size_ = (tableHeapSize h' : Int) + ((lo.refs.map h.sizeOf).sum : Nat))) := by
  refine ⟨?_, ?_, ?_⟩
  · intro a h h' allocator random addr raw obj hwf hA he
    obtain ⟨heq, L', hL', htag⟩ :=
      Allocation_accounting (WeaklyFormed_of_WellFormed hwf) hA he
    have hiff : Accounted h' ↔ h'.sizeOf obj = a.heap_size := by
      unfold Accounted
      constructor
      · intro hA'
        have : (h'.sizeOf obj : Int) = (a.heap_size : Int) := by omega
        exact_mod_cast this
      · intro hs
        have : (h'.sizeOf obj : Int) = (a.heap_size : Int) := by exact_mod_cast hs
        omega
    refine ⟨heq, hiff, ?_, ?_, ?_⟩
    · intro hpos hv
      refine hiff.2 ?_
      unfold Heap.sizeOf
      rw [hL']
      exact HeapSize_of_tag hpos (Allocation_heap_size_aligned a) hv htag
    · intro n ha hn
      exact hiff.2 (Allocation_sized_sizeOf he (Or.inl ⟨ha, hn⟩))
    · intro n ha hn hr
      exact hiff.2 (Allocation_sized_sizeOf he (Or.inr ⟨ha, hn, hr⟩))
  · intro h h' random0 random1 random2 hwf hA he
    exact Accounted_GCStep (WeaklyFormed_of_WellFormed hwf) hA he
  · intro h h' old neu lo ln hT hwb hlo hln hso hsn hnd hdis hoF hnF hFT he
    obtain ⟨hz, hmem, hk, hO'⟩ :=
      BecomeForward_extent hT hwb hlo hln hso hsn hnd hdis hoF hnF hFT he
    have hsplit := tableHeapSize_split (ObjectTable_of_TableInv hT) hO' hnd hmem hFT
    have hkept : ∀ o l', InTable h' o → h'.load o = some l' →
        ∃ l, h.load o = some l ∧ Layout.SameExtent l l' ∧
          (l.size_field ≠ 0 ∨ l'.cid = l.cid → l'.HeapSize = l.HeapSize) := by
      intro o l' ho hl'
      obtain ⟨l, hl, hs⟩ := hk o l' ((hmem o).1 ho).2 hl'
      exact ⟨l, hl, hs, fun hc => HeapSize_of_SameExtent hs hc⟩
    refine ⟨hz, hmem, hkept, ?_, ?_⟩
    · intro hA
      unfold Accounted at hA
      rw [hz, hA, hsplit]
      push_cast
      rfl
    · intro hA hcond
      have hsame : (tableObjects h').map h'.sizeOf = (tableObjects h').map h.sizeOf := by
        apply List.map_congr_left
        intro o ho
        have hoT : InTable h' o := (mem_tableObjects h' o).1 ho
        obtain ⟨i, hi1, hi2, rfl⟩ := hoT
        obtain ⟨l', hl', -⟩ := hO'.index i hi1 hi2
        obtain ⟨l, hl, hs, hsz⟩ := hkept _ l' ⟨i, hi1, hi2, rfl⟩ hl'
        unfold Heap.sizeOf
        rw [hl, hl']
        exact hsz (hcond _ l l' ⟨i, hi1, hi2, rfl⟩ hl hl')
      unfold Accounted at hA
      unfold tableHeapSize
      rw [hz, hA, hsplit, hsame]
      push_cast
      rfl

/-- Witness of C18 as amended: `AllocateArray(2)` in normal mode in `cycleHeapAccounted`, whose
`GCStep` collects the arrays at 7 and 9 and where `malloc` returns the block at the address 10;
that `GCStep` alone; and the become of `[C1]` into `[C2]` in `classHeapAccounted`, where both
classes are registered in the class table and the instance of `C1` changes its class id. -/
theorem heap_size_accounting_witness :
    (∃ h', AllocateArray cycleHeapAccounted 2 Allocator.kNormal (4, 1, 2) 10
        (Layout.sample 0 0 [] [0, 0]) = some (FromAddr 10, h') ∧ Accounted h') ∧
    Accounted ((GCStep cycleHeapAccounted 4 1 2).getD cycleHeapAccounted) ∧
    (becomeResult classHeapAccounted 13 15).2.heap_size_ =
      (tableHeapSize (becomeResult classHeapAccounted 13 15).2 : Int) +
        (([7].map classHeapAccounted.sizeOf).sum : Nat) := by
  obtain ⟨w1, w2, w3⟩ := heap_size_accounting
  refine ⟨?_, w2 cycleHeapAccounted _ 4 1 2 (WellFormed_of_check (by decide)) (by rfl)
    (by rfl), ?_⟩
  · obtain ⟨h', e, -⟩ := @Allocation_frame cycleHeapAccounted
      ((GCStep cycleHeapAccounted 4 1 2).getD cycleHeapAccounted)
      Allocator.kNormal (4, 1, 2) 10 (Allocation.array 2)
      (Layout.sample 0 0 [] [0, 0]) (by rfl) ⟨by decide, by decide, by rfl⟩
      (Or.inr (fun _ _ hc => Allocation.noConfusion hc))
    exact ⟨h', e, (w1 (Allocation.array 2) cycleHeapAccounted h' Allocator.kNormal (4, 1, 2) 10
      _ _ (WellFormed_of_check (by decide)) (by rfl) e).2.2.1 (by decide) (by decide)⟩
  · obtain ⟨-, hmem, -, -, h5⟩ := w3 classHeapAccounted
      (becomeResult classHeapAccounted 13 15).2 13 15
      (Layout.sample kArrayCid 7 [.root 4] [7]) (Layout.sample kArrayCid 8 [.root 5] [9])
      (WellFormed_of_check (by decide)).1 (WeakBitsClear_of_check (by decide)) (by rfl)
      (by rfl) (by rfl) (by rfl) (by decide) (by decide) (by decide) (by decide)
      (fun x hx => by
        have hx7 : x = 7 := List.mem_singleton.1 hx
        subst hx7
        exact ⟨4, by decide, by decide, rfl⟩) (by rfl)
    exact h5 (by rfl) (fun o l l' ho hl _ =>
      Or.inl (size_field_of_check (by decide) ((hmem o).1 ho).1 hl))

end psoup


namespace psoup

/-- Counterexample to C18.  In `becomeHeapAccounted`, which satisfies the data-model invariants,
`heap_size_` is 384, the sum of `HeapSize()` over the object table.  The become of `[a]` into
`[b]` returns true; afterwards `heap_size_` is still 384, but the forwarder `a`, whose
`HeapSize()` is 64, has left the object table, and the sum over the object table is 320.

In `stringClassHeap`, which satisfies the data-model invariants and those of the class table,
`heap_size_` is 1049440, the sum of `HeapSize()` over the object table; the string at 11 has a
zero size field and its `HeapSize()` is 1048640, and the class `C1` of the strings, at 7, has
the `HeapSize()` 256.  The become of `[C1]` into `[C2]` returns true; afterwards the string is
still in the object table with a zero size field, `ForwardClass` has changed its class id
from `kStringCid` to 15, the class id of `C2`, and its `HeapSize()` is 64; `heap_size_` is
still 1049440, and the sum over the object table is 608, which with the 256 of the forwarder
is 864. -/
theorem heap_size_become_counterexample :
    (checkWellFormed becomeHeapAccounted = true ∧
      becomeHeapAccounted.heap_size_ = 384 ∧ tableHeapSize becomeHeapAccounted = 384 ∧
      becomeHeapAccounted.sizeOf 7 = 64 ∧
      ((BecomeForward becomeHeapAccounted 13 15).map fun p => p.1) = some true ∧
      (becomeResult becomeHeapAccounted 13 15).2.heap_size_ = 384 ∧
      inTable (becomeResult becomeHeapAccounted 13 15).2 7 = false ∧
      tableHeapSize (becomeResult becomeHeapAccounted 13 15).2 = 320) ∧
    (checkWellFormed stringClassHeap = true ∧ checkRegistry stringClassHeap = true ∧
      stringClassHeap.heap_size_ = 1049440 ∧ tableHeapSize stringClassHeap = 1049440 ∧
      (stringClassHeap.load 11).map (fun l => (l.size_field, l.cid)) = some (0, kStringCid) ∧
      stringClassHeap.sizeOf 11 = 1048640 ∧ stringClassHeap.sizeOf 7 = 256 ∧
      Array.element stringClassHeap 13 0 = some 7 ∧
      Array.element stringClassHeap 15 0 = some 9 ∧
      ((BecomeForward stringClassHeap 13 15).map fun p => p.1) = some true ∧
      inTable (becomeResult stringClassHeap 13 15).2 11 = true ∧
      ((becomeResult stringClassHeap 13 15).2.load 11).map (fun l => (l.size_field, l.cid)) =
        some (0, 15) ∧
      (becomeResult stringClassHeap 13 15).2.sizeOf 11 = 64 ∧
      (becomeResult stringClassHeap 13 15).2.heap_size_ = 1049440 ∧
      tableHeapSize (becomeResult stringClassHeap 13 15).2 = 608) :=
  ⟨⟨by decide, by rfl, by rfl, by rfl, by rfl, by rfl, by rfl, by rfl⟩,
    ⟨by decide, by decide, by rfl, by rfl, by rfl, by rfl, by rfl, by rfl, by rfl, by rfl,
      by rfl, by rfl, by rfl, by rfl, by rfl⟩⟩

end psoup


namespace psoup

/-! ## The free list of class ids across the operations of the heap -/

end psoup


namespace psoup

end psoup


namespace psoup

/-! ## The free list of class ids across `BecomeForward` -/

end psoup


namespace psoup

end psoup


namespace psoup

end psoup


namespace psoup

/-! ## The Refs across `ForwardClassIds` -/

/-- One iteration of the loop of `ForwardClassIds`: the only Ref it writes is the class id slot
of the forwardee of the forwarder it finds in the class table. -/
theorem Renumbers_step {h1 : Heap} {F G : List Object} {p : Nat} {g g' : Heap}
    (hlen : F.length = G.length)
    (hK1 : ∀ (i : Nat) (f y : Object), F[i]? = some f → G[i]? = some y →
      ∃ l, h1.load f = some l ∧ l.cid = kForwardingCorpseCid ∧ l.header_hash_ = y)
    (hK2 : ∀ y ∈ G, ∃ l, h1.load y = some l ∧ l.cid ≠ kForwardingCorpseCid)
    (hdis : ∀ x ∈ F, x ∉ G)
    (hJ : Renumbers h1 F G p g) (hp3 : kFirstLegalCid ≤ p) (hps : p < h1.class_table_size_)
    (he : ForwardClassIds.step g p = some g') : Renumbers h1 F G (p + 1) g' := by
  unfold ForwardClassIds.step at he
  simp only [Option.bind_eq_some] at he
  obtain ⟨corpse, hcor, he⟩ := he
  cases corpse with
  | false =>
    simp only [if_true, Option.some.injEq] at he
    subst he
    refine ⟨hJ.table, hJ.size, hJ.interp, hJ.handles, hJ.absent, hJ.present, hJ.refs, ?_⟩
    intro k hk
    obtain ⟨a, b⟩ := hJ.entries k hk
    refine ⟨a, fun i hFi => ?_⟩
    obtain ⟨b1, b2⟩ := b i hFi
    refine ⟨b1, ?_⟩
    rcases b2 with ⟨c1, c2⟩ | c
    · left
      refine ⟨?_, c2⟩
      by_contra hcon
      have hkp : k = p := by omega
      subst hkp
      have hi : i < G.length := hlen ▸ (List.getElem?_eq_some.1 hFi).1
      obtain ⟨l1, hl1, hc1, -⟩ := hK1 i _ _ hFi (List.getElem?_eq_getElem hi)
      obtain ⟨l, hl, e1, -⟩ := hJ.present _ l1 hl1
      rw [IsForwardingCorpse_of_load hl, e1, hc1] at hcor
      simp at hcor
    · exact Or.inr c
  | true =>
    simp only [Bool.true_eq_false, if_false, Option.bind_eq_some, Option.map_eq_some'] at he
    obtain ⟨l, hl, id, hid, ga, ea, gb, eb, hg'⟩ := he
    obtain ⟨l', hl', hcl⟩ := IsForwardingCorpse_eq_true hcor
    rw [hl] at hl'
    cases hl'
    have hheap : IsHeapObject (g.class_table_ p) := isHeapObject_of_load hl
    obtain ⟨hpF, hpe⟩ := hJ.entries p hheap
    -- the entry is a forwarder
    have hfF : g.class_table_ p ∈ F := by
      cases h1l : h1.load (g.class_table_ p) with
      | none =>
        rw [hJ.absent _ h1l] at hl
        cases hl
      | some l1 =>
        obtain ⟨l2, hl2, e1, -⟩ := hJ.present _ l1 h1l
        rw [hl] at hl2
        cases hl2
        exact hpF l1 h1l (e1 ▸ hcl)
    obtain ⟨i0, hFi0⟩ := List.getElem?_of_mem hfF
    have hi0 : i0 < G.length := hlen ▸ (List.getElem?_eq_some.1 hFi0).1
    have hGi0 : G[i0]? = some G[i0] := List.getElem?_eq_getElem hi0
    obtain ⟨k0, hk0⟩ := (hpe i0 hFi0).1
    have hty : l.target = G[i0] := by
      obtain ⟨l1, hl1, -, hh1⟩ := hK1 i0 _ _ hFi0 hGi0
      obtain ⟨l2, hl2, -, e2, -⟩ := hJ.present _ l1 hl1
      rw [hl] at hl2
      cases hl2
      exact e2.trans hh1
    have hyG : G[i0] ∈ G := List.getElem_mem hi0
    generalize G[i0] = y at hGi0 hty hyG
    rw [hty] at hid eb hg'
    -- the heap after the write of the entry of the forwardee
    obtain ⟨cta, rfl, hcta⟩ : ∃ cta : Nat → Object, ga = { g with class_table_ := cta } ∧
        ∀ k, cta k = g.class_table_ k ∨ cta k = g.class_table_ p := by
      by_cases hne : id ≠ g.interpreter_.nil_obj
      · rw [if_pos hne] at ea
        unfold class_table_put at ea
        split_ifs at ea
        cases ea
        refine ⟨_, rfl, fun k => ?_⟩
        by_cases hk : k = (SmallInteger.value id).toNat
        · right
          rw [hk, Function.update_same]
        · left
          exact Function.update_noteq hk _ _
      · rw [if_neg hne] at ea
        cases ea
        exact ⟨_, rfl, fun k => Or.inl rfl⟩
    obtain ⟨t, hto, -, -, rfl⟩ := UpdateNoCheck_eq_some.1 eb
    have hto0 : Ref_to g (.slot y Behavior.classid_index) = some t := hto
    have hload : ∀ o, g'.load o =
        (g.load o).map (Layout.retarget (.slot y Behavior.classid_index) t
          (SmallInteger.New (p : Int)) o) := by
      intro o
      subst hg'
      exact load_retarget { g with class_table_ := cta } _ _ _ o
    have hRef : ∀ r, Ref_to g' r =
        if r = RefPtr.slot y Behavior.classid_index then some (SmallInteger.New (p : Int))
        else Ref_to g r := by
      intro r
      subst hg'
      rw [← Ref_to_retarget hto0 r]
      cases r with
      | slot s i => rfl
      | root i => rfl
      | stack i => rfl
    have hct : ∀ k, g'.class_table_ k = if k = p then y else cta k := by
      intro k
      subst hg'
      show Function.update cta p y k = _
      by_cases hkp : k = p
      · rw [if_pos hkp, hkp, Function.update_same]
      · rw [if_neg hkp, Function.update_noteq hkp]
    have hframe : (g'.table_ = h1.table_ ∧ g'.table_size_ = h1.table_size_) ∧
        g'.class_table_size_ = h1.class_table_size_ ∧ g'.interpreter_ = h1.interpreter_ ∧
        g'.handles_ = h1.handles_ := by
      subst hg'
      exact ⟨hJ.table, hJ.size, hJ.interp, hJ.handles⟩
    have hhold : ∀ r, HoldsClassId h1 g r → HoldsClassId h1 g' r := by
      intro r ⟨q, q1, q2, q3⟩
      by_cases hr : r = RefPtr.slot y Behavior.classid_index
      · exact ⟨p, hp3, hps, by rw [hRef, if_pos hr]⟩
      · exact ⟨q, q1, q2, by rw [hRef, if_neg hr]; exact q3⟩
    have hnew : HoldsClassId h1 g' (RefPtr.slot y Behavior.classid_index) :=
      ⟨p, hp3, hps, by rw [hRef, if_pos rfl]⟩
    refine ⟨hframe.1, hframe.2.1, hframe.2.2.1, hframe.2.2.2, ?_, ?_, ?_, ?_⟩
    · intro o ho
      rw [hload, hJ.absent o ho]
      rfl
    · intro o l1 hl1
      obtain ⟨lg, hlg, a1, a2, a3⟩ := hJ.present o l1 hl1
      have hfields := Layout_retarget_fields (.slot y Behavior.classid_index) t
        (SmallInteger.New (p : Int)) o lg
      exact ⟨_, by rw [hload, hlg]; rfl, hfields.1.trans a1, hfields.2.2.2.2.1.trans a2,
        (Layout_retarget_refs_length _ _ _ o lg).trans a3⟩
    · intro r
      by_cases hr : r = RefPtr.slot y Behavior.classid_index
      · right
        exact ⟨⟨i0, k0, _, y, hFi0, hGi0, hk0, hr⟩, hr ▸ hnew⟩
      · rcases hJ.refs r with hun | ⟨c1, c2⟩
        · left
          rw [hRef, if_neg hr]
          exact hun
        · exact Or.inr ⟨c1, hhold r c2⟩
    · intro k hk
      rw [hct] at hk ⊢
      by_cases hkp : k = p
      · rw [if_pos hkp] at hk ⊢
        constructor
        · intro l1 hl1 hc
          obtain ⟨ly, hly, hne⟩ := hK2 y hyG
          rw [hl1] at hly
          cases hly
          exact absurd hc hne
        · intro i hFi
          exact absurd hyG (hdis y (List.getElem?_mem hFi))
      · rw [if_neg hkp] at hk ⊢
        rcases hcta k with e | e
        · rw [e] at hk ⊢
          obtain ⟨a, b⟩ := hJ.entries k hk
          refine ⟨a, fun i hFi => ?_⟩
          obtain ⟨b1, b2⟩ := b i hFi
          refine ⟨b1, ?_⟩
          rcases b2 with ⟨c1, c2⟩ | c
          · exact Or.inl ⟨by omega, c2⟩
          · exact Or.inr fun y' hy' => hhold _ (c y' hy')
        · rw [e]
          refine ⟨fun _ _ _ => hfF, fun i hFi => ⟨⟨k0, hk0⟩, Or.inr ?_⟩⟩
          intro y' hy'
          obtain ⟨la, hla, -, ha⟩ := hK1 i _ y' hFi hy'
          obtain ⟨lb, hlb, -, hb⟩ := hK1 i0 _ y hFi0 hGi0
          rw [hla] at hlb
          cases hlb
          rw [← ha, hb]
          exact hnew

/-- The loop of `ForwardClassIds`. -/
theorem Renumbers_loop {h1 : Heap} {F G : List Object}
    (hlen : F.length = G.length)
    (hK1 : ∀ (i : Nat) (f y : Object), F[i]? = some f → G[i]? = some y →
      ∃ l, h1.load f = some l ∧ l.cid = kForwardingCorpseCid ∧ l.header_hash_ = y)
    (hK2 : ∀ y ∈ G, ∃ l, h1.load y = some l ∧ l.cid ≠ kForwardingCorpseCid)
    (hdis : ∀ x ∈ F, x ∉ G) :
    ∀ (n p : Nat) (g g' : Heap), Renumbers h1 F G p g → kFirstLegalCid ≤ p →
      (n ≠ 0 → p + n ≤ h1.class_table_size_) →
      ForwardClassIds.loop g (List.range' p n) = some g' → Renumbers h1 F G (p + n) g' := by
  intro n
  induction n with
  | zero =>
    intro p g g' hJ _ _ he
    simp only [List.range'_zero, ForwardClassIds.loop, Option.some.injEq] at he
    subst he
    exact hJ
  | succ n ih =>
    intro p g g' hJ hp3 hpn he
    simp only [List.range'_succ, ForwardClassIds.loop, Option.bind_eq_some] at he
    obtain ⟨ga, ea, erest⟩ := he
    have hpn' := hpn (Nat.succ_ne_zero n)
    have hJa := Renumbers_step hlen hK1 hK2 hdis hJ hp3 (by omega) ea
    have := ih (p + 1) ga g' hJa (by omega) (fun _ => by omega) erest
    rw [show p + (n + 1) = p + 1 + n by omega]
    exact this

/-- The heap after `ForwardClassIds`: the forwardee of every forwarder that is still an entry
of the class table holds a legal class id in its class id slot. -/
theorem Renumbers_ForwardClassIds {h1 h2 : Heap} {F G : List Object}
    (hlen : F.length = G.length)
    (hK1 : ∀ (i : Nat) (f y : Object), F[i]? = some f → G[i]? = some y →
      ∃ l, h1.load f = some l ∧ l.cid = kForwardingCorpseCid ∧ l.header_hash_ = y)
    (hK2 : ∀ y ∈ G, ∃ l, h1.load y = some l ∧ l.cid ≠ kForwardingCorpseCid)
    (hdis : ∀ x ∈ F, x ∉ G)
    (hent : ∀ k, IsHeapObject (h1.class_table_ k) →
      kFirstLegalCid ≤ k ∧ k < h1.class_table_size_ ∧
      (∀ l1, h1.load (h1.class_table_ k) = some l1 → l1.cid = kForwardingCorpseCid →
        h1.class_table_ k ∈ F))
    (he : ForwardClassIds h1 = some h2) :
    ∃ p, h1.class_table_size_ ≤ p ∧ Renumbers h1 F G p h2 := by
  have h0 : Renumbers h1 F G kFirstLegalCid h1 := by
    refine ⟨⟨rfl, rfl⟩, rfl, rfl, rfl, fun _ ho => ho, fun _ l hl => ⟨l, hl, rfl, rfl, rfl⟩,
      fun _ => Or.inl rfl, ?_⟩
    intro k hk
    obtain ⟨a, b, c⟩ := hent k hk
    exact ⟨c, fun i _ => ⟨⟨k, rfl⟩, Or.inl ⟨a, b⟩⟩⟩
  unfold ForwardClassIds at he
  refine ⟨_, ?_, Renumbers_loop hlen hK1 hK2 hdis _ _ h1 h2 h0 (le_refl _) ?_ he⟩
  · omega
  · intro hn
    omega

end psoup


namespace psoup

/-! ## `ForwardHeap` when entries of the class table are forwarders -/

theorem ForwardPointers_cid : ∀ (rs : List RefPtr) (g g' : Heap),
    ForwardPointers g rs = some g' →
    ∀ o l, g.load o = some l →
      ∃ l', g'.load o = some l' ∧ l'.cid = l.cid ∧ l'.refs.length = l.refs.length := by
  intro rs
  induction rs with
  | nil =>
    intro g g' he o l hl
    simp only [ForwardPointers, Option.some.injEq] at he
    subst he
    exact ⟨l, hl, rfl, rfl⟩
  | cons r rest ih =>
    intro g g' he o l hl
    simp only [ForwardPointers, Option.bind_eq_some] at he
    obtain ⟨g1, e1, e2⟩ := he
    have h1 : ∃ l1, g1.load o = some l1 ∧ l1.cid = l.cid ∧ l1.refs.length = l.refs.length := by
      unfold ForwardPointer at e1
      simp only [Option.bind_eq_some] at e1
      obtain ⟨t, -, c, -, e1⟩ := e1
      split_ifs at e1
      · simp only [Option.bind_eq_some] at e1
        obtain ⟨lt, -, hu⟩ := e1
        obtain ⟨t', -, -, -, rfl⟩ := UpdateNoCheck_eq_some.1 hu
        exact ⟨_, by rw [load_retarget, hl]; rfl, (Layout_retarget_fields _ _ _ o l).1,
          Layout_retarget_refs_length _ _ _ o l⟩
      · cases e1
        exact ⟨l, hl, rfl, rfl⟩
    obtain ⟨l1, hl1, a1, a2⟩ := h1
    obtain ⟨l', hl', b1, b2⟩ := ih g1 g' e2 o l1 hl1
    exact ⟨l', hl', b1.trans a1, b2.trans a2⟩

/-- `ForwardClass` of an object that is no forwarding corpse, when the forwardee of every
forwarder in the class table holds a legal class id: the object may get another class id, and
no Ref changes. -/
theorem Forwarded_ForwardClass {h1 : Heap} {F G : List Object} {g g' : Heap} {x : Object}
    (hK1 : ∀ (i : Nat) (f y : Object), F[i]? = some f → G[i]? = some y →
      ∃ l, h1.load f = some l ∧ l.cid = kForwardingCorpseCid ∧ l.header_hash_ = y)
    (hq : ∀ k le, h1.load (h1.class_table_ k) = some le → le.cid = kForwardingCorpseCid →
      ∃ q : Nat, kFirstLegalCid ≤ q ∧ q < 2 ^ 32 ∧
        Ref_to h1 (.slot le.header_hash_ Behavior.classid_index) =
          some (SmallInteger.New (q : Int)))
    (hx : ∀ l1, h1.load x = some l1 → l1.cid ≠ kForwardingCorpseCid)
    (hfw : Forwarded h1 F G g) (he : ForwardClass g x = some g') :
    Forwarded h1 F G g' ∧ (∀ r, Done g r → Done g' r) ∧
    ∀ o, o ≠ x → g'.load o = g.load o := by
  unfold ForwardClass at he
  simp only [Option.bind_eq_some] at he
  obtain ⟨o, hlo, c, hc, b, hb, he⟩ := he
  split_ifs at he with hcor
  · simp only [Option.bind_eq_some] at he
    obtain ⟨l, hl, id, hid, hs⟩ := he
    subst hcor
    have hck : c = h1.class_table_ o.cid := by
      unfold ClassAt class_table_at at hc
      rw [if_pos (Int.natCast_nonneg _), Int.toNat_ofNat, hfw.class_table.1] at hc
      exact (Option.some.inj hc).symm
    obtain ⟨l', hl', hcl⟩ := IsForwardingCorpse_eq_true hb
    rw [hl] at hl'
    cases hl'
    cases hle : h1.load c with
    | none =>
      rw [hfw.absent c hle] at hl
      cases hl
    | some le =>
      obtain ⟨l', hl', hiff, hh, -⟩ := hfw.present c le hle
      rw [hl] at hl'
      cases hl'
      obtain ⟨q, hq3, hq32, hidq⟩ := hq o.cid le (by rw [← hck]; exact hle) (hiff.1 hcl)
      have hid' : id = SmallInteger.New (q : Int) := by
        have h0 : Ref_to g (.slot le.header_hash_ Behavior.classid_index) = some id := by
          rw [← hh]
          exact hid
        rcases hfw.refs (.slot le.header_hash_ Behavior.classid_index) with hun |
            ⟨i, f, y, b1, b2, b3, -, -⟩
        · rw [h0, hidq] at hun
          exact Option.some.inj hun
        · exfalso
          rw [hidq] at b3
          obtain ⟨lf, hlf, -⟩ := hK1 i f y b1 b2
          have := isHeapObject_of_load hlf
          rw [← Option.some.inj b3] at this
          exact not_isHeapObject_New _ this
      subst hid'
      rw [SmallInteger_value_New_nat (Nat.le_of_lt hq32)] at hs
      unfold set_cid at hs
      rw [toUword_nat_mod hq32] at hs
      obtain ⟨-, hload, t1, s1, i1, -, c1, z1, -⟩ := modify_spec hs
      have hqne : q ≠ kForwardingCorpseCid := by
        unfold kFirstLegalCid at hq3
        unfold kForwardingCorpseCid
        omega
      have hR : ∀ r, Ref_to g' r = Ref_to g r := by
        intro r
        cases r with
        | slot s j =>
          simp only [Ref_to, hload]
          split_ifs
          · cases g.load s <;> rfl
          · rfl
        | root j => simp only [Ref_to, i1]
        | stack j => simp only [Ref_to, i1]
      have hI : ∀ y, g'.incomingOf y = g.incomingOf y := by
        intro y
        unfold Heap.incomingOf
        rw [hload]
        split_ifs
        · cases g.load y <;> rfl
        · rfl
      refine ⟨⟨⟨t1.trans hfw.table.1, s1.trans hfw.table.2⟩,
        ⟨c1.trans hfw.class_table.1, z1.trans hfw.class_table.2⟩, ?_, ?_, ?_⟩, ?_, ?_⟩
      · intro y hy
        rw [hload, hfw.absent y hy]
        split_ifs <;> rfl
      · intro y l1 hl1
        obtain ⟨lg, hlg, a1, a2, a3⟩ := hfw.present y l1 hl1
        by_cases hyx : y = x
        · refine ⟨{ lg with cid := q }, by rw [hload, if_pos hyx, hlg]; rfl, ?_, a2, a3⟩
          constructor
          · intro hcon
            exact absurd hcon hqne
          · intro hcon
            exact absurd hcon (hx l1 (hyx ▸ hl1))
        · exact ⟨lg, by rw [hload, if_neg hyx]; exact hlg, a1, a2, a3⟩
      · intro r
        rw [hR]
        rcases hfw.refs r with hun | ⟨i, f, y, b1, b2, b3, b4, b5⟩
        · exact Or.inl hun
        · exact Or.inr ⟨i, f, y, b1, b2, b3, b4, by rw [hI]; exact b5⟩
      · intro r hd t lt hto hlt
        rw [hR] at hto
        rw [hload] at hlt
        by_cases htx : t = x
        · rw [if_pos htx] at hlt
          obtain ⟨l0, -, rfl⟩ := Option.map_eq_some'.1 hlt
          exact hqne
        · rw [if_neg htx] at hlt
          exact hd t lt hto hlt
      · intro y hy
        rw [hload, if_neg hy]
  · cases he
    exact ⟨hfw, fun _ hd => hd, fun _ _ => rfl⟩

/-- The loop of `ForwardHeap`, when the forwardee of every forwarder in the class table holds a
legal class id: every Ref in the `Pointers` range that a visited object has afterwards has a
target that is no forwarding corpse. -/
theorem Forwarded_ForwardHeap_loop {h1 : Heap} {F G : List Object}
    (hlen : F.length = G.length)
    (hK1 : ∀ (i : Nat) (f y : Object), F[i]? = some f → G[i]? = some y →
      ∃ l, h1.load f = some l ∧ l.cid = kForwardingCorpseCid ∧ l.header_hash_ = y)
    (hK2 : ∀ y ∈ G, ∃ l, h1.load y = some l ∧ l.cid ≠ kForwardingCorpseCid)
    (hq : ∀ k le, h1.load (h1.class_table_ k) = some le → le.cid = kForwardingCorpseCid →
      ∃ q : Nat, kFirstLegalCid ≤ q ∧ q < 2 ^ 32 ∧
        Ref_to h1 (.slot le.header_hash_ Behavior.classid_index) =
          some (SmallInteger.New (q : Int))) :
    ∀ (is : List Nat) (g g' : Heap), Forwarded h1 F G g → is.Nodup →
      (∀ i ∈ is, ∀ j ∈ is, h1.table_ i = h1.table_ j → i = j) →
      (∀ i ∈ is, ∀ l1, h1.load (h1.table_ i) = some l1 → l1.cid ≠ kForwardingCorpseCid) →
      (∀ i ∈ is, ∀ j, Good h1 F (RefPtr.slot (h1.table_ i) j)) →
      ForwardHeap.loop g is = some g' →
      Forwarded h1 F G g' ∧ (∀ r, Done g r → Done g' r) ∧
      (∀ o, (∀ i ∈ is, h1.table_ i ≠ o) → ∀ l, g.load o = some l →
        ∃ l', g'.load o = some l' ∧ l'.cid = l.cid ∧ l'.refs.length = l.refs.length) ∧
      ∀ i ∈ is, ∀ l', g'.load (h1.table_ i) = some l' →
        ∀ j, (Pointers l').1 ≤ j → j < (Pointers l').2 →
          Done g' (RefPtr.slot (h1.table_ i) j) := by
  intro is
  induction is with
  | nil =>
    intro g g' hfw _ _ _ _ he
    simp only [ForwardHeap.loop, Option.some.injEq] at he
    subst he
    exact ⟨hfw, fun _ hd => hd, fun o _ l hl => ⟨l, hl, rfl, rfl⟩, fun _ hi => by cases hi⟩
  | cons i rest ih =>
    intro g g' hfw hnd hinj hnc hgood he
    simp only [ForwardHeap.loop, ForwardHeap.step, Option.bind_eq_some] at he
    obtain ⟨g2, ⟨ga, ea, o, ho, ep⟩, erest⟩ := he
    rw [hfw.table.1] at ea ho ep
    obtain ⟨hfwa, hmonoa, hloada⟩ := Forwarded_ForwardClass hK1 hq
      (hnc i (List.mem_cons_self _ _)) hfw ea
    obtain ⟨hfw2, hmono2, hd2⟩ := Forwarded_ForwardPointers hlen hK1 hK2 _ ga g2 hfwa
      (fun r hr => by
        obtain ⟨j, -, rfl⟩ := List.mem_map.1 hr
        exact hgood i (List.mem_cons_self _ _) j) ep
    obtain ⟨hfw', hmono', hstab', hd'⟩ := ih g2 g' hfw2 (List.nodup_cons.1 hnd).2
      (fun a ha b hb => hinj a (List.mem_cons_of_mem _ ha) b (List.mem_cons_of_mem _ hb))
      (fun a ha => hnc a (List.mem_cons_of_mem _ ha))
      (fun a ha => hgood a (List.mem_cons_of_mem _ ha)) erest
    have hfresh : ∀ a ∈ rest, h1.table_ a ≠ h1.table_ i := by
      intro a ha hcon
      have := hinj a (List.mem_cons_of_mem _ ha) i (List.mem_cons_self _ _) hcon
      subst this
      exact (List.nodup_cons.1 hnd).1 ha
    refine ⟨hfw', fun r hd => hmono' r (hmono2 r (hmonoa r hd)), ?_, ?_⟩
    · intro o' ho' l hl
      have hne : o' ≠ h1.table_ i := fun hcon => ho' i (List.mem_cons_self _ _) hcon.symm
      have hla : ga.load o' = some l := by rw [hloada o' hne]; exact hl
      obtain ⟨l2, hl2, a1, a2⟩ := ForwardPointers_cid _ ga g2 ep o' l hla
      obtain ⟨l', hl', b1, b2⟩ := hstab' o' (fun a ha => ho' a (List.mem_cons_of_mem _ ha))
        l2 hl2
      exact ⟨l', hl', b1.trans a1, b2.trans a2⟩
    · intro i' hi' l' hl' j hj1 hj2
      rcases List.mem_cons.1 hi' with rfl | hi'
      · apply hmono'
        apply hd2
        obtain ⟨l2, hl2, a1, a2⟩ := ForwardPointers_cid _ ga g2 ep _ o ho
        obtain ⟨l'', hl'', b1, b2⟩ := hstab' _ hfresh l2 hl2
        rw [hl'] at hl''
        cases hl''
        rw [Pointers_congr (b1.trans a1) (b2.trans a2)] at hj1 hj2
        exact List.mem_map.2 ⟨j, List.mem_range'_1.2 ⟨hj1, by omega⟩, rfl⟩
      · exact hd' i' hi' l' hl' j hj1 hj2

end psoup


namespace psoup

theorem ClassIdSlot_congr {h h1 : Heap} {F G : List Object} {r : RefPtr}
    (hc : h1.class_table_ = h.class_table_) (hs : ClassIdSlot h1 F G r) :
    ClassIdSlot h F G r := by
  obtain ⟨i, k, f, y, a, b, c, d⟩ := hs
  exact ⟨i, k, f, y, a, b, by rw [← hc]; exact c, d⟩

/-- C7, amended: become forwards every reference. Let the heap satisfy the data-model invariants
with all weak-referent bits clear and the class table in order, let `old` and `neu` be arrays of
the object table whose length slots hold their lengths, the forwarders pairwise distinct, none
of them a forwardee or one of the two arrays. When `BecomeForward` returns true, the forwarders
have left the object table. Every Ref that `ForwardRoots` or `ForwardHeap` visits (a Ref of the
interpreter, or a Ref in the `Pointers` range of an object still in the object table) that
targeted `old[i]` targets `neu[i]` and is on the incoming list of `neu[i]`, and every such Ref
that targeted a non-forwarder has the target it had, with one exception: the class id slot of
the forwardee of a forwarder that is an entry of the class table may instead hold a legal class
id below `class_table_size_`, written by `ForwardClassIds`. No visited Ref targets a forwarding
corpse. A handle that held `old[i]` holds `neu[i]`. -/
theorem BecomeForward_forwards (h h' : Heap) (old neu : Object) (lo ln : Layout)
    (hwf : WellFormed h) (hwb : WeakBitsClear h) (hR : Registry h)
    (hoT : InTable h old) (hnT : InTable h neu)
    (hlo : h.load old = some lo) (hln : h.load neu = some ln)
    (hso : SmallInteger.value lo.size_ = (lo.refs.length : Int))
    (hsn : SmallInteger.value ln.size_ = (ln.refs.length : Int))
    (hnd : lo.refs.Nodup) (hdis : ∀ x ∈ lo.refs, x ∉ ln.refs)
    (hoF : old ∉ lo.refs) (hnF : neu ∉ lo.refs)
    (he : BecomeForward h old neu = some (true, h')) :
    (∀ o, InTable h' o ↔ (InTable h o ∧ o ∉ lo.refs)) ∧
    (∀ r, Scanned h' r →
      (∀ (i : Nat) (f y : Object), lo.refs[i]? = some f → ln.refs[i]? = some y →
        Ref_to h r = some f →
        (Ref_to h' r = some y ∧ r ∈ h'.incomingOf y) ∨
          (ClassIdSlot h lo.refs ln.refs r ∧ HoldsClassId h h' r)) ∧
      (∀ t, Ref_to h' r = some t → IsForwardingCorpse h' t = some false) ∧
      (∀ v, Ref_to h r = some v → v ∉ lo.refs →
        Ref_to h' r = some v ∨ (ClassIdSlot h lo.refs ln.refs r ∧ HoldsClassId h h' r))) ∧
    (∀ (j i : Nat) (f y : Object), lo.refs[i]? = some f → ln.refs[i]? = some y →
      h.handles_[j]? = some f → h'.handles_[j]? = some y) := by
  obtain ⟨n, h1, h2, h3, h4, h5, hn, hn', himm, e1, e2, e3, e4, e5, rfl⟩ :=
    BecomeForward_true_eq he
  have hSo : Array.Size h old = some (lo.refs.length : Int) := by simp [Array.Size, hlo, hso]
  have hSn : Array.Size h neu = some (ln.refs.length : Int) := by simp [Array.Size, hln, hsn]
  rw [hSo] at hn
  cases hn
  have hlen : lo.refs.length = ln.refs.length := by
    rw [hSn] at hn'
    exact_mod_cast (Option.some.inj hn').symm
  rw [Int.toNat_ofNat] at himm e1
  -- all elements are heap objects of the object table
  have hheap : ∀ v, (v ∈ lo.refs ∨ v ∈ ln.refs) → IsHeapObject v := by
    intro v hv
    obtain ⟨b, hb, hiff⟩ := BecomeForward_immediate_spec hlo hln (List.range lo.refs.length)
      (fun i hi => ⟨List.mem_range.1 hi, hlen ▸ List.mem_range.1 hi⟩)
    rw [himm] at hb
    cases hb
    by_contra hcon
    have hs : IsSmallInteger v := (not_isHeapObject_iff v).1 hcon
    have : (false = true) := hiff.2 (by
      rcases hv with hv | hv
      · obtain ⟨i, hi, rfl⟩ := List.getElem_of_mem hv
        exact ⟨i, List.mem_range.2 hi, _, Or.inl (List.getElem?_eq_getElem hi), hs⟩
      · obtain ⟨i, hi, rfl⟩ := List.getElem_of_mem hv
        exact ⟨i, List.mem_range.2 (hlen ▸ hi), _, Or.inr (List.getElem?_eq_getElem hi), hs⟩)
    cases this
  have hFT : ∀ x ∈ lo.refs, InTable h x := by
    intro x hx
    obtain ⟨i, hi⟩ := List.getElem?_of_mem hx
    exact (hwf.2.2.1 (.slot old i) x hoT (Ref_to_slot_eq_some.2 ⟨lo, hlo, hi⟩)
      (hheap x (Or.inl hx))).1
  have hGT : ∀ y ∈ ln.refs, InTable h y := by
    intro y hy
    obtain ⟨i, hi⟩ := List.getElem?_of_mem hy
    exact (hwf.2.2.1 (.slot neu i) y hnT (Ref_to_slot_eq_some.2 ⟨ln, hln, hi⟩)
      (hheap y (Or.inr hy))).1
  -- the second loop
  have hfg := BecomeForward_corpses_spec hwb hlo hln hnd hdis hoF hnF hFT
    (List.range lo.refs.length) [] h h1 (Forwarding_refl hwf.1 _ _)
    (fun i hi => ⟨by simp, List.mem_range.1 hi, hlen ▸ List.mem_range.1 hi⟩)
    (List.nodup_range _) e1
  have hproc : ∀ o, (∀ i ∈ List.range lo.refs.length ++ [], lo.refs[i]? ≠ some o) ↔
      o ∉ lo.refs := processed_iff lo.refs
  have hT1 : ∀ o, InTable h1 o ↔ (InTable h o ∧ o ∉ lo.refs) := fun o => by
    rw [hfg.inTable o, hproc o]
  have hkeep : ∀ o l0, h.load o = some l0 → o ∉ lo.refs →
      ∃ l, h1.load o = some l ∧ l.cid = l0.cid ∧ l.refs = l0.refs := by
    intro o l0 hl0 ho
    obtain ⟨l, hl, -, e⟩ := hfg.present o l0 hl0
    obtain ⟨a, -, c⟩ := e ((hproc o).2 ho)
    exact ⟨l, hl, a, c⟩
  have hnc : ∀ o, InTable h o → o ∉ lo.refs →
      ∃ l, h1.load o = some l ∧ l.cid ≠ kForwardingCorpseCid := by
    intro o hoT' ho
    obtain ⟨l0, hl0, hc0, -⟩ := load_of_InTable hwf.1 hoT'
    obtain ⟨l, hl, a, -⟩ := hkeep o l0 hl0 ho
    refine ⟨l, hl, ?_⟩
    rw [a]
    intro hcon
    rw [hcon] at hc0
    exact absurd hc0 (by decide)
  have hK1 : ∀ (i : Nat) (f y : Object), lo.refs[i]? = some f → ln.refs[i]? = some y →
      ∃ l, h1.load f = some l ∧ l.cid = kForwardingCorpseCid ∧ l.header_hash_ = y := by
    intro i f y hFi hGi
    exact hfg.corpses i (by simp [(List.getElem?_eq_some.1 hFi).1]) f y hFi hGi
  have hK2 : ∀ y ∈ ln.refs, ∃ l, h1.load y = some l ∧ l.cid ≠ kForwardingCorpseCid :=
    fun y hy => hnc y (hGT y hy) (fun hcon => hdis y hcon hy)
  -- `ForwardClassIds`
  have hent : ∀ k, IsHeapObject (h1.class_table_ k) →
      kFirstLegalCid ≤ k ∧ k < h1.class_table_size_ ∧
      (∀ l1, h1.load (h1.class_table_ k) = some l1 → l1.cid = kForwardingCorpseCid →
        h1.class_table_ k ∈ lo.refs) := by
    intro k hk
    rw [hfg.class_table.1] at hk ⊢
    rw [hfg.class_table.2]
    obtain ⟨a, b, cT, -⟩ := hR.entries k hk
    refine ⟨a, b, fun l1 hl1 hc => ?_⟩
    by_contra hcon
    obtain ⟨l, hl, hne⟩ := hnc _ cT hcon
    rw [hl1] at hl
    cases hl
    exact hne hc
  obtain ⟨pf, hpf, hJ⟩ := Renumbers_ForwardClassIds hlen hK1 hK2 hdis hent e2
  have hK1' : ∀ (i : Nat) (f y : Object), lo.refs[i]? = some f → ln.refs[i]? = some y →
      ∃ l, h2.load f = some l ∧ l.cid = kForwardingCorpseCid ∧ l.header_hash_ = y := by
    intro i f y hFi hGi
    obtain ⟨l1, hl1, a, b⟩ := hK1 i f y hFi hGi
    obtain ⟨l2, hl2, c, d, -⟩ := hJ.present f l1 hl1
    exact ⟨l2, hl2, c.trans a, d.trans b⟩
  have hK2' : ∀ y ∈ ln.refs, ∃ l, h2.load y = some l ∧ l.cid ≠ kForwardingCorpseCid := by
    intro y hy
    obtain ⟨l1, hl1, a⟩ := hK2 y hy
    obtain ⟨l2, hl2, c, -⟩ := hJ.present y l1 hl1
    exact ⟨l2, hl2, by rw [c]; exact a⟩
  have hq : ∀ k le, h2.load (h2.class_table_ k) = some le → le.cid = kForwardingCorpseCid →
      ∃ q : Nat, kFirstLegalCid ≤ q ∧ q < 2 ^ 32 ∧
        Ref_to h2 (.slot le.header_hash_ Behavior.classid_index) =
          some (SmallInteger.New (q : Int)) := by
    intro k le hle hlec
    obtain ⟨a, b⟩ := hJ.entries k (isHeapObject_of_load hle)
    cases h1l : h1.load (h2.class_table_ k) with
    | none =>
      rw [hJ.absent _ h1l] at hle
      cases hle
    | some l1 =>
      obtain ⟨l2, hl2, c1, c2, -⟩ := hJ.present _ l1 h1l
      rw [hle] at hl2
      cases hl2
      have hmem := a l1 h1l (c1 ▸ hlec)
      obtain ⟨i, hFi⟩ := List.getElem?_of_mem hmem
      have hi : i < ln.refs.length := hlen ▸ (List.getElem?_eq_some.1 hFi).1
      obtain ⟨-, alt⟩ := b i hFi
      obtain ⟨lf, hlf, -, hhf⟩ := hK1 i _ _ hFi (List.getElem?_eq_getElem hi)
      rw [h1l] at hlf
      cases hlf
      rcases alt with ⟨d1, d2⟩ | d
      · omega
      · obtain ⟨q, q1, q2, q3⟩ := d _ (List.getElem?_eq_getElem hi)
        refine ⟨q, q1, ?_, ?_⟩
        · have := hR.small
          rw [hfg.class_table.2] at q2
          omega
        · rw [c2, hhf]
          exact q3
  -- the Refs of the interpreter and of the objects that stay have the targets they had
  have hsame : ∀ r, (∀ s j, r = RefPtr.slot s j → InTable h s ∧ s ∉ lo.refs) →
      Ref_to h1 r = Ref_to h r := by
    intro r hr
    cases r with
    | slot s j =>
      obtain ⟨hsT, hsF⟩ := hr s j rfl
      obtain ⟨l0, hl0, -⟩ := load_of_InTable hwf.1 hsT
      obtain ⟨l, hl, -, hrefs⟩ := hkeep s l0 hl0 hsF
      simp only [Ref_to, hl, hl0, Option.some_bind, hrefs]
    | root j => simp only [Ref_to, hfg.interp]
    | stack j => simp only [Ref_to, hfg.interp]
  have hnoheap : ∀ {g : Heap} {r : RefPtr} {t : Object}, HoldsClassId h1 g r →
      Ref_to g r = some t → ¬ IsHeapObject t := by
    rintro g r t ⟨q, -, -, q3⟩ hto
    rw [hto] at q3
    rw [Option.some.inj q3]
    exact not_isHeapObject_New _
  have hstorage : ∀ r t, (∀ s j, r = RefPtr.slot s j → InTable h s ∧ s ∉ lo.refs) →
      Ref_to h1 r = some t → IsHeapObject t → InTable h t := by
    intro r t hr hto hth
    rw [hsame r hr] at hto
    have hhold : HolderInTable h r := by
      cases r with
      | slot s j => exact (hr s j rfl).1
      | root j => trivial
      | stack j => trivial
    exact (hwf.2.2.1 r t hhold hto hth).1
  have hgood : ∀ r, (∀ s j, r = RefPtr.slot s j → InTable h s ∧ s ∉ lo.refs) →
      Good h2 lo.refs r := by
    intro r hr t l hto hl hcid
    rcases hJ.refs r with hun | ⟨-, c2⟩
    · rw [hto] at hun
      have htT := hstorage r t hr hun.symm (isHeapObject_of_load hl)
      by_contra hcon
      have htF : t ∉ lo.refs := fun hmem => by
        obtain ⟨i, hi⟩ := List.getElem?_of_mem hmem
        exact hcon ⟨i, hi⟩
      obtain ⟨l1, hl1, hne⟩ := hnc t htT htF
      obtain ⟨l2, hl2, c, -⟩ := hJ.present t l1 hl1
      rw [hl] at hl2
      cases hl2
      rw [c] at hcid
      exact hne hcid
    · exact absurd (isHeapObject_of_load hl) (hnoheap c2 hto)
  -- `ForwardRoots` and `ForwardHeap`
  obtain ⟨hfw3, hmono3, hdr3, hds3, hs, ehs, hh3⟩ := Forwarded_ForwardRoots hlen hK1' hK2'
    (fun j => hgood _ (fun s i hc => by cases hc))
    (fun j => hgood _ (fun s i hc => by cases hc)) (Forwarded_refl h2 lo.refs ln.refs) e3
  unfold ForwardHeap at e4
  have hrange : ∀ i ∈ List.range' 1 (h3.table_size_ - 1), InTable h1 (h2.table_ i) := by
    intro i hi
    obtain ⟨hi1, hi2⟩ := List.mem_range'_1.1 hi
    rw [hfw3.table.2, hJ.table.2] at hi2
    rw [hJ.table.1]
    exact ⟨i, hi1, by omega, rfl⟩
  obtain ⟨hfw4, hmono4, -, hd4⟩ := Forwarded_ForwardHeap_loop hlen hK1' hK2' hq _ h3 h4 hfw3
    (List.nodup_range' _ _)
    (fun i hi j hj hij => by
      obtain ⟨hi1, hi2⟩ := List.mem_range'_1.1 hi
      obtain ⟨hj1, hj2⟩ := List.mem_range'_1.1 hj
      rw [hfw3.table.2, hJ.table.2] at hi2 hj2
      rw [hJ.table.1] at hij
      obtain ⟨li, hli, ei, -⟩ := hfg.table.2 i hi1 (by omega)
      obtain ⟨lj, hlj, ej, -⟩ := hfg.table.2 j hj1 (by omega)
      rw [hij, hlj] at hli
      cases hli
      exact ei.symm.trans ej)
    (fun i hi l2 hl2 hcon => by
      obtain ⟨l1, hl1, hc1, -⟩ := load_of_InTable hfg.table (hrange i hi)
      obtain ⟨l2', hl2', c, -⟩ := hJ.present _ l1 hl1
      rw [hl2] at hl2'
      cases hl2'
      rw [hcon] at c
      rw [← c] at hc1
      exact absurd hc1 (by decide))
    (fun i hi j => hgood _ (fun s j' hc => by
      cases hc
      exact (hT1 _).1 (hrange i hi))) e4
  have hh4 : h4.handles_ = h3.handles_ := ForwardHeap_loop_handles _ h3 h4 e4
  obtain ⟨m1, m2, m3, m4, m5⟩ := Mourn_loop_frame _ h4 h5 e5
  have hload' : ∀ o, (ClearCache h5).load o = h4.load o := fun o => by
    rw [load_ClearCache, m1]
  have hto' : ∀ r, Ref_to (ClearCache h5) r = Ref_to h4 r := fun r => by
    rw [Ref_to_ClearCache]
    exact Ref_to_congr m1 (by rw [m2]) (by rw [m2]) r
  have hT' : ∀ o, InTable (ClearCache h5) o ↔ InTable h1 o := fun o => by
    have : InTable (ClearCache h5) o ↔ InTable h5 o := Iff.rfl
    rw [this, InTable_of_frame m4 m5, InTable_of_frame hfw4.table.1 hfw4.table.2,
      InTable_of_frame hJ.table.1 hJ.table.2]
  refine ⟨fun o => by rw [hT', hT1], ?_, ?_⟩
  · intro r hscan
    have hholder : ∀ s j, r = RefPtr.slot s j → InTable h s ∧ s ∉ lo.refs := by
      intro s j hr
      subst hr
      exact (hT1 s).1 ((hT' s).1 hscan.1)
    have hr1 := hsame r hholder
    have hdone : Done h4 r := by
      cases r with
      | slot s j =>
        obtain ⟨hsT, l', hl', hj1, hj2⟩ := hscan
        rw [hload'] at hl'
        obtain ⟨i, hi1, hi2, rfl⟩ := (hT' _).1 hsT
        rw [← hJ.table.1] at hl' ⊢
        exact hd4 i (List.mem_range'_1.2 ⟨hi1, by rw [hfw3.table.2, hJ.table.2]; omega⟩)
          l' hl' j hj1 hj2
      | root j => exact hmono4 _ (hdr3 j)
      | stack j => exact hmono4 _ (hds3 j)
    have hcorpse : ∀ (i : Nat) (f : Object), lo.refs[i]? = some f →
        Ref_to h4 r ≠ some f := by
      intro i f hFi hcon
      have hi : i < ln.refs.length := hlen ▸ (List.getElem?_eq_some.1 hFi).1
      obtain ⟨l2, hl2, hc2, -⟩ := hK1' i f _ hFi (List.getElem?_eq_getElem hi)
      obtain ⟨l4, hl4, c1, -⟩ := hfw4.present f l2 hl2
      exact hdone f l4 hcon hl4 (c1.2 hc2)
    -- a Ref that `ForwardClassIds` wrote holds the class id still
    have hslot : ClassIdSlot h1 lo.refs ln.refs r → HoldsClassId h1 h2 r →
        ClassIdSlot h lo.refs ln.refs r ∧ HoldsClassId h (ClearCache h5) r := by
      intro c1 c2
      refine ⟨ClassIdSlot_congr hfg.class_table.1 c1, ?_⟩
      obtain ⟨q, q1, q2, q3⟩ := c2
      refine ⟨q, q1, by rw [← hfg.class_table.2]; exact q2, ?_⟩
      rw [hto']
      rcases hfw4.refs r with hun | ⟨i', f', y', b1, b2, b3, -, -⟩
      · rw [hun]
        exact q3
      · exfalso
        rw [q3] at b3
        obtain ⟨lf, hlf, -⟩ := hK1' i' f' y' b1 b2
        have := isHeapObject_of_load hlf
        rw [← Option.some.inj b3] at this
        exact not_isHeapObject_New _ this
    refine ⟨?_, ?_, ?_⟩
    · intro i f y hFi hGi hto
      rcases hJ.refs r with h21 | ⟨c1, c2⟩
      · left
        have hr12 := h21.trans hr1
        rcases hfw4.refs r with hun | ⟨i', f', y', b1, b2, b3, b4, b5⟩
        · exfalso
          rw [hr12, hto] at hun
          exact hcorpse i f hFi hun
        · rw [hr12, hto] at b3
          cases b3
          have hii : i' = i := nodup_getElem?_inj hnd b1 hFi
          subst hii
          rw [hGi] at b2
          cases b2
          exact ⟨by rw [hto']; exact b4, by rw [incomingOf_congr hload']; exact b5⟩
      · exact Or.inr (hslot c1 c2)
    · intro t hto
      rw [hto'] at hto
      by_cases hth : IsHeapObject t
      · have hl4 : ∃ l4, h4.load t = some l4 := by
          rcases hfw4.refs r with hun | ⟨i', f', y', b1, b2, b3, b4, b5⟩
          · rw [hto] at hun
            rcases hJ.refs r with h21 | ⟨-, c2⟩
            · rw [h21] at hun
              have htT := hstorage r t hholder hun.symm hth
              obtain ⟨l0, hl0, -⟩ := load_of_InTable hwf.1 htT
              obtain ⟨l1, hl1, -⟩ := hfg.present t l0 hl0
              obtain ⟨l2, hl2, -⟩ := hJ.present t l1 hl1
              obtain ⟨l4, hl4, -⟩ := hfw4.present t l2 hl2
              exact ⟨l4, hl4⟩
            · exact absurd hth (hnoheap c2 hun.symm)
          · rw [hto] at b4
            cases b4
            obtain ⟨l2, hl2, -⟩ := hK2' t (List.getElem?_mem b2)
            obtain ⟨l4, hl4, -⟩ := hfw4.present t l2 hl2
            exact ⟨l4, hl4⟩
        obtain ⟨l4, hl4⟩ := hl4
        have hl' : (ClearCache h5).load t = some l4 := by rw [hload']; exact hl4
        rw [IsForwardingCorpse_of_load hl']
        simp [hdone t l4 hto hl4]
      · exact IsForwardingCorpse_of_not_heap hth
    · intro v hto hv
      rcases hJ.refs r with h21 | ⟨c1, c2⟩
      · left
        have hr12 := h21.trans hr1
        rw [hto']
        rcases hfw4.refs r with hun | ⟨i', f', y', b1, b2, b3, b4, b5⟩
        · rw [hun, hr12]; exact hto
        · exfalso
          rw [hr12, hto] at b3
          cases b3
          exact hv (List.getElem?_mem b1)
      · exact Or.inr (hslot c1 c2)
  · intro j i f y hFi hGi hj
    have hh' : (ClearCache h5).handles_ = hs := by
      show h5.handles_ = hs
      rw [m3, hh4, hh3]
    rw [hh']
    rw [← hfg.handles, ← hJ.handles] at hj
    obtain ⟨v', hv', ho'⟩ := ForwardRoots_handles_spec h2 _ hs ehs j f hj
    rw [hv']
    obtain ⟨l2, hl2, hc2, ht2⟩ := hK1' i f y hFi hGi
    unfold ForwardPointer.object at ho'
    rw [IsForwardingCorpse_of_load hl2] at ho'
    simp only [hc2, decide_True, Option.some_bind, if_true, hl2, Option.map_some',
      Option.some.injEq] at ho'
    rw [← ho']
    exact congrArg some ht2

end psoup


namespace psoup

/-- Witness of the amended C7: the become of the class `C1` at 7, registered under the class id
14, into the class `C2` at 9 in `classHeapUnregistered`. -/
theorem BecomeForward_forwards_witness :
    (∀ o, InTable (becomeResult classHeapUnregistered 13 15).2 o ↔
      (InTable classHeapUnregistered o ∧ o ∉ (Layout.sample kArrayCid 7 [.root 4] [7]).refs)) ∧
    (∀ r, Scanned (becomeResult classHeapUnregistered 13 15).2 r →
      (∀ (i : Nat) (f y : Object), (Layout.sample kArrayCid 7 [.root 4] [7]).refs[i]? = some f →
        (Layout.sample kArrayCid 8 [.root 5] [9]).refs[i]? = some y →
        Ref_to classHeapUnregistered r = some f →
        (Ref_to (becomeResult classHeapUnregistered 13 15).2 r = some y ∧
          r ∈ (becomeResult classHeapUnregistered 13 15).2.incomingOf y) ∨
          (ClassIdSlot classHeapUnregistered (Layout.sample kArrayCid 7 [.root 4] [7]).refs
              (Layout.sample kArrayCid 8 [.root 5] [9]).refs r ∧
            HoldsClassId classHeapUnregistered (becomeResult classHeapUnregistered 13 15).2 r)) ∧
      (∀ t, Ref_to (becomeResult classHeapUnregistered 13 15).2 r = some t →
        IsForwardingCorpse (becomeResult classHeapUnregistered 13 15).2 t = some false) ∧
      (∀ v, Ref_to classHeapUnregistered r = some v →
        v ∉ (Layout.sample kArrayCid 7 [.root 4] [7]).refs →
        Ref_to (becomeResult classHeapUnregistered 13 15).2 r = some v ∨
          (ClassIdSlot classHeapUnregistered (Layout.sample kArrayCid 7 [.root 4] [7]).refs
              (Layout.sample kArrayCid 8 [.root 5] [9]).refs r ∧
            HoldsClassId classHeapUnregistered
              (becomeResult classHeapUnregistered 13 15).2 r))) ∧
    (∀ (j i : Nat) (f y : Object), (Layout.sample kArrayCid 7 [.root 4] [7]).refs[i]? = some f →
      (Layout.sample kArrayCid 8 [.root 5] [9]).refs[i]? = some y →
      classHeapUnregistered.handles_[j]? = some f →
      (becomeResult classHeapUnregistered 13 15).2.handles_[j]? = some y) :=
  BecomeForward_forwards classHeapUnregistered (becomeResult classHeapUnregistered 13 15).2 13 15
    (Layout.sample kArrayCid 7 [.root 4] [7]) (Layout.sample kArrayCid 8 [.root 5] [9])
    (WellFormed_of_check (by decide)) (WeakBitsClear_of_check (by decide))
    (Registry_of_check (by decide) (fun k hk => by
      have hk24 : 24 ≤ k := hk
      show ¬ IsHeapObject (if k = 14 then 7 else 0)
      rw [if_neg (by omega)]
      exact not_isHeapObject_nullptr))
    ⟨7, by decide, by decide, rfl⟩ ⟨8, by decide, by decide, rfl⟩ (by rfl) (by rfl)
    (by decide) (by decide) (by decide) (by decide) (by decide) (by decide) (by rfl)

end psoup
